import Mathlib

/-!
Staged execution scheduler (Zakazane utilities)

A shallow embedding of `Source/ZakazaneUtilities/Public/Zakazane/StagedExecution`
(`Inspection.h`, `StageState.h/.tpp`, `Scheduler.h/.tpp`, `ResultTypes.h`) and of the
promise / future plumbing of `Zakazane/Future.h` that the scheduler relies on.

Conventions of the embedding

* Identifiers (`InIdType`) are opaque values with equality; they are embedded as natural numbers.
* `TArray` is a `List` (`Emplace` appends at the end, `Pop` removes the last element),
  `TMap` is an association list with unique keys.
* The log device (`FOutputDevice`) and the time stamps of the inspection data are left out:
  they never influence the control flow.
* The build flag `NO_STAGED_EXECUTION_INSPECTION` is the boolean parameter
  `GPerformInspections` of the operations.
-/

namespace Zkz.StagedExecution

/-! ## Identifiers and result types (`ResultTypes.h`) -/

/-- Stage / task identifier (`InIdType`). -/
abbrev IdType := Nat

/-- `TStageCircularDependencyError::FCycle`. -/
abbrev FCycle := List IdType

/-- `TAddStageError`: variant of `TStageAlreadyAddedError` and `TStageCircularDependencyError`. -/
inductive TAddStageError where
  | StageAlreadyAdded (StageId : IdType)
  | CircularDependency (StageId : IdType) (PrerequisiteIds : List IdType) (Cycle : FCycle)
  deriving DecidableEq, Repr

/-- `TAllTasksCollectedError`. -/
structure TAllTasksCollectedError where
  StageId : IdType
  TaskId : IdType
  deriving DecidableEq, Repr

deriving instance DecidableEq for Except

/-- `TAddStageResult = TResult<void, TAddStageError>`. -/
abbrev TAddStageResult := Except TAddStageError Unit

/-! ## Inspection data (`Inspection.h`, inspections enabled) -/

/-- `InspectionData::TPrerequisitesByStageId`: the recorded prerequisites of every stage
that was added successfully. -/
abbrev FPrerequisitesByStageId := List (IdType × List IdType)

/-- `TMap::Find`. -/
def FPrerequisitesByStageId.Find (M : FPrerequisitesByStageId) (StageId : IdType) :
    Option (List IdType) :=
  M.lookup StageId

/-- `TMap::Contains`. -/
def FPrerequisitesByStageId.Contains (M : FPrerequisitesByStageId) (StageId : IdType) : Bool :=
  (M.lookup StageId).isSome

/-- `TMap::Emplace`: replaces the value of an existing key, otherwise adds the pair. -/
def FPrerequisitesByStageId.Emplace (M : FPrerequisitesByStageId) (StageId : IdType)
    (PrerequisiteIds : List IdType) : FPrerequisitesByStageId :=
  if M.Contains StageId then
    M.map (fun e => if e.1 = StageId then (StageId, PrerequisiteIds) else e)
  else
    M ++ [(StageId, PrerequisiteIds)]

/-- The `for` loop of `Private::CheckDependencyCycle` over the prerequisites of `Cycle.Last()`.
`Recurse` is the recursive call `CheckDependencyCycle(Cycle, PrerequisitesByStageId)`;
the result is the returned flag together with the final contents of the in/out
parameter `Cycle`; `none` means that the recursion budget of `Recurse` was exhausted. -/
def CheckDependencyCycleLoop (Recurse : FCycle → Option (Bool × FCycle)) :
    List IdType → FCycle → Option (Bool × FCycle)
  | [], Cycle => some (false, Cycle)
  | PrerequisiteId :: Rest, Cycle =>
    if PrerequisiteId ∈ Cycle then
      some (true, Cycle ++ [PrerequisiteId])
    else
      match Recurse (Cycle ++ [PrerequisiteId]) with
      | none => none
      | some (true, Cycle') => some (true, Cycle')
      | some (false, Cycle') => CheckDependencyCycleLoop Recurse Rest Cycle'.dropLast

/-- `Private::CheckDependencyCycle` with an explicit recursion budget (`none` = budget
exhausted). -/
def CheckDependencyCycleFuel (PrerequisitesByStageId : FPrerequisitesByStageId) :
    Nat → FCycle → Option (Bool × FCycle)
  | 0, _ => none
  | Fuel + 1, Cycle =>
    match Cycle.getLast? with
    | none => some (false, Cycle)
    | some Last =>
      match PrerequisitesByStageId.Find Last with
      | none => some (false, Cycle)
      | some PrerequisiteIds =>
        CheckDependencyCycleLoop (CheckDependencyCycleFuel PrerequisitesByStageId Fuel)
          PrerequisiteIds Cycle

/-- Recursion budget that always suffices for `CheckDependencyCycle` (see
`CheckDependencyCycleFuel_total`): every nested call pushes an id that is not on the stack. -/
def CheckDependencyCycleBudget (PrerequisitesByStageId : FPrerequisitesByStageId) : Nat :=
  PrerequisitesByStageId.length + 2

/-- `Private::CheckDependencyCycle`: the returned flag and the final contents of `Cycle`. -/
def CheckDependencyCycle (Cycle : FCycle) (PrerequisitesByStageId : FPrerequisitesByStageId) :
    Bool × FCycle :=
  (CheckDependencyCycleFuel PrerequisitesByStageId
    (CheckDependencyCycleBudget PrerequisitesByStageId) Cycle).getD (false, Cycle)

/-- The `for` loop of `TInspectionData::DebugAddStage` over the new stage's prerequisites:
`some Cycle` when a call of `CheckDependencyCycle` returned true (the early return). -/
def DebugAddStageLoop (PrerequisitesByStageId : FPrerequisitesByStageId) :
    List IdType → FCycle → Option FCycle
  | [], _ => none
  | PrerequisiteId :: Rest, Cycle =>
    match CheckDependencyCycle (Cycle ++ [PrerequisiteId]) PrerequisitesByStageId with
    | (true, Cycle') => some Cycle'
    | (false, Cycle') => DebugAddStageLoop PrerequisitesByStageId Rest Cycle'.dropLast

/-- `TInspectionData::DebugAddStage` (inspections enabled): the result and the new map. -/
def DebugAddStage (PrerequisitesByStageId : FPrerequisitesByStageId) (StageId : IdType)
    (PrerequisiteIds : List IdType) : TAddStageResult × FPrerequisitesByStageId :=
  if PrerequisitesByStageId.Contains StageId then
    (.error (.StageAlreadyAdded StageId), PrerequisitesByStageId)
  else
    match DebugAddStageLoop PrerequisitesByStageId PrerequisiteIds [StageId] with
    | some Cycle =>
      (.error (.CircularDependency StageId PrerequisiteIds Cycle), PrerequisitesByStageId)
    | none => (.ok (), PrerequisitesByStageId.Emplace StageId PrerequisiteIds)

/-- `TInspectionData::GetDebugPrerequisiteIds` (inspections enabled). -/
def GetDebugPrerequisiteIds (PrerequisitesByStageId : FPrerequisitesByStageId)
    (StageId : IdType) : Option (List IdType) :=
  PrerequisitesByStageId.Find StageId

/-! ## Promises and futures (`Future.h`, `ResultTypes.h`)

Every promise / future pair shares one state (the state of the underlying `TPromise`).
The shared states live in a heap; a promise or a future is the index of its shared state.
A continuation registered through `IfNotCanceled` (`TFuture::Next`) is stored in the shared
state and is invoked, on the resolving thread, when the promise is set; it is invoked at once
when the future is already resolved. -/

/-- Index of the shared state of a promise / future pair. -/
abbrev FFutureHandle := Nat

/-- The continuations (lambdas) that the scheduler registers on futures:
* `StartExecutingWhenPrerequisitesComplete`: the lambda of `StageState.tpp` l. 209-210,
* `CompleteWhenTasksFinished`: the lambda of `StageState.tpp` l. 165-166,
* `PostNotifyCompletion`: the lambda of `ExecuteAllTasks` (l. 72-79), which owns
  `PostNotifyCompletionPromise`. -/
inductive FContinuation where
  | StartExecutingWhenPrerequisitesComplete (StageId : IdType)
  | CompleteWhenTasksFinished (StageId : IdType)
  | PostNotifyCompletion (TaskId : IdType) (PostNotifyCompletionPromise : FFutureHandle)
  deriving DecidableEq, Repr

/-- `TResult<T, FPromiseCanceled>`: the value a cancelable future resolves to. For
`FFutureTaskExecution` the value is the task completion promise handed to the user
(`some`), for the `void` futures it is `none`. -/
inductive FCancelableResult where
  | Value (TaskCompletionPromise : Option FFutureHandle)
  | Canceled
  deriving DecidableEq, Repr

/-- Shared state of a promise / future pair: the result once set, and the registered
continuation (`TFuture::Next`) while it waits. -/
structure FFutureState where
  Result : Option FCancelableResult := none
  CompletionCallback : Option FContinuation := none
  deriving DecidableEq, Repr

/-! ## Stage states (`StageState.h`) -/

/-- `EZkzStagedExecutionStageStateId`. -/
inductive EStageStateId where
  | Unknown
  | Undefined
  | Defined
  | Executing
  | Completed
  deriving DecidableEq, Repr

/-- `TStageState_Pending::FTaskEntry`. -/
structure FPendingTaskEntry where
  Id : IdType
  ExecutionPromise : FFutureHandle
  deriving DecidableEq, Repr

/-- `TStageState_Executing::FTaskEntry`. -/
structure FExecutingTaskEntry where
  Id : IdType
  FutureCompletion : FFutureHandle
  deriving DecidableEq, Repr

/-- `TStageState_Pending` (with the `StageId` of `TStageState_Base`). -/
structure TStageState_Pending where
  StageId : IdType
  bAllTasksCollected : Bool := false
  Tasks : List FPendingTaskEntry := []
  StageCompletionPromises : List FFutureHandle := []
  deriving DecidableEq, Repr

/-- `TStageState`: the variant of the four stage states. The default alternative
`FStageState_Unknown` is never stored in the registry (`FindOrAddStage` creates
`Undefined`, `Transition` emplaces one of the other three) and is left out; it only
appears as the state id reported for a stage that is not registered. -/
inductive TStageState where
  | Undefined (Pending : TStageState_Pending)
  | Defined (Pending : TStageState_Pending) (FuturePrerequisiteCompletions : List FFutureHandle)
  | Executing (StageId : IdType) (bAllTasksCollected : Bool) (Tasks : List FExecutingTaskEntry)
      (StageCompletionPromises : List FFutureHandle)
  | Completed (StageId : IdType)
  deriving DecidableEq, Repr

/-- `StageState::GetStageId`. -/
def TStageState.GetStageId : TStageState → IdType
  | .Undefined Pending => Pending.StageId
  | .Defined Pending _ => Pending.StageId
  | .Executing StageId _ _ _ => StageId
  | .Completed StageId => StageId

/-- `StageState::GetId`. -/
def TStageState.GetId : TStageState → EStageStateId
  | .Undefined _ => .Undefined
  | .Defined _ _ => .Defined
  | .Executing _ _ _ _ => .Executing
  | .Completed _ => .Completed

/-! ## The scheduler (`Scheduler.h`) -/

/-- `TScheduler`: the stage registry `Stages` (a `TSet` keyed by stage id), the inspection
data `PrerequisitesByStageId` (used only when inspections are compiled in) and, as part of
the embedding, the heap `Futures` of the shared promise / future states and the flag
`bCheckFailed`: a `check` of the engine failed (`TPromise::EmplaceValue` on a promise that
is set already), which stops the program; a run in which the flag is set has no result
(see `ApplyEvent`). -/
structure TScheduler where
  Stages : List TStageState := []
  PrerequisitesByStageId : FPrerequisitesByStageId := []
  Futures : List FFutureState := []
  bCheckFailed : Bool := false
  deriving DecidableEq, Repr

/-- A call that is still to be made by the running operation. Promises resolve
synchronously, so fulfilling a promise calls the registered continuation before the next
statement of the caller runs; the list of pending calls is the call stack of the cascade.
* `EmplaceValue`: `TScopedPromise<void>::EmplaceValue()`,
* `Cancel`: `TScopedPromise::Cancel()` of a promise destroyed unfulfilled,
* `Invoke`: the call of a registered continuation,
* `Transition_Completed`: the closing `Scheduler.Transition<TStageState_Completed>` of
  `TransitionToStageState_Completed`. -/
inductive FCall where
  | EmplaceValue (Promise : FFutureHandle)
  | Cancel (Promise : FFutureHandle)
  | Invoke (F : FContinuation)
  | Transition_Completed (StageId : IdType)
  deriving DecidableEq, Repr

/-- `Stages.Find(StageId)`. -/
def TScheduler.Find (s : TScheduler) (StageId : IdType) : Option TStageState :=
  s.Stages.find? (fun State => State.GetStageId = StageId)

/-- State id of a stage as seen through `WithStage`: `Unknown` when it is not registered. -/
def TScheduler.GetId (s : TScheduler) (StageId : IdType) : EStageStateId :=
  match s.Find StageId with
  | some State => State.GetId
  | none => .Unknown

/-- `TScheduler::FindOrAddStage`. -/
def TScheduler.FindOrAddStage (s : TScheduler) (StageId : IdType) : TScheduler :=
  match s.Find StageId with
  | some _ => s
  | none => { s with Stages := s.Stages ++ [.Undefined { StageId := StageId }] }

/-- Replaces the registry entry found for `StageId`. -/
def ReplaceStage (StageId : IdType) (NewState : TStageState) : List TStageState → List TStageState
  | [] => []
  | State :: Rest =>
    if State.GetStageId = StageId then NewState :: Rest
    else State :: ReplaceStage StageId NewState Rest

/-- Write through a reference to the state of stage `StageId` (the states are mutated in
place through references obtained from `FindOrAddStage`). -/
def TScheduler.Assign (s : TScheduler) (StageId : IdType) (NewState : TStageState) : TScheduler :=
  { s with Stages := ReplaceStage StageId NewState s.Stages }

/-- `TScheduler::Transition`: `VariantEmplace_GetRef` on `FindOrAddStage(StageId)`. -/
def TScheduler.Transition (s : TScheduler) (StageId : IdType) (NewState : TStageState) :
    TScheduler :=
  (s.FindOrAddStage StageId).Assign StageId NewState

/-- Construction of a promise: allocates its shared state. -/
def TScheduler.NewPromise (s : TScheduler) (State : FFutureState) : FFutureHandle × TScheduler :=
  (s.Futures.length, { s with Futures := s.Futures ++ [State] })

/-- Overwrites a shared state. -/
def TScheduler.SetFuture (s : TScheduler) (Handle : FFutureHandle) (State : FFutureState) :
    TScheduler :=
  { s with Futures := s.Futures.set Handle State }

/-- Result of a future, `none` while it is not resolved (`!IsReady()`). -/
def TScheduler.Result (s : TScheduler) (Handle : FFutureHandle) : Option FCancelableResult :=
  match s.Futures[Handle]? with
  | some State => State.Result
  | none => none

/-- Continuation registered on a future. -/
def TScheduler.CompletionCallback (s : TScheduler) (Handle : FFutureHandle) :
    Option FContinuation :=
  match s.Futures[Handle]? with
  | some State => State.CompletionCallback
  | none => none

/-! ## Promise operations (`Future.h`) -/

/-- Destruction of a continuation that was not invoked: the captured
`PostNotifyCompletionPromise` is destroyed unfulfilled, the other lambdas capture
references only. -/
def DestroyContinuation : FContinuation → List FCall
  | .PostNotifyCompletion _ PostNotifyCompletionPromise => [.Cancel PostNotifyCompletionPromise]
  | _ => []

/-- `IfNotCanceled(CancelableFuture, F)` for a `void` future: returns the calls made at once. -/
def IfNotCanceled (s : TScheduler) (Future : FFutureHandle) (F : FContinuation) :
    TScheduler × List FCall :=
  match s.Futures[Future]? with
  | none => (s, [])
  | some State =>
    match State.Result with
    | none => (s.SetFuture Future { State with CompletionCallback := some F }, [])
    | some (.Value _) => (s, [.Invoke F])
    | some .Canceled => (s, DestroyContinuation F)

/-- The `check(!IsComplete())` of `TPromise::EmplaceValue` fails: the program stops. -/
def TScheduler.FailCheck (s : TScheduler) : TScheduler :=
  { s with bCheckFailed := true }

/-- `TScopedPromise<void>::EmplaceValue()`: resolves the future and calls the registered
continuation. It has no guard: on a promise that is set already (fulfilled or cancelled)
the `check` of `TPromise::EmplaceValue` fails. -/
def EmplaceValue (s : TScheduler) (Promise : FFutureHandle) : TScheduler × List FCall :=
  match s.Futures[Promise]? with
  | none => (s, [])
  | some State =>
    match State.Result with
    | some _ => (s.FailCheck, [])
    | none =>
      (s.SetFuture Promise { Result := some (.Value none) },
        match State.CompletionCallback with
        | some F => [.Invoke F]
        | none => [])

/-- `TScopedPromise::Cancel()`: an unfulfilled promise resolves its future with
`PromiseCanceled`; a continuation registered through `IfNotCanceled` is not called and is
destroyed. -/
def Cancel (s : TScheduler) (Promise : FFutureHandle) : TScheduler × List FCall :=
  match s.Futures[Promise]? with
  | none => (s, [])
  | some State =>
    match State.Result with
    | some _ => (s, [])
    | none =>
      (s.SetFuture Promise { Result := some .Canceled },
        match State.CompletionCallback with
        | some F => DestroyContinuation F
        | none => [])

/-- `FTaskExecutionPromise::SetValue(TaskCompletionPromise)`: the user's continuation, if
any, receives the task completion promise; it runs outside the scheduler. Like
`EmplaceValue` it has no guard: on a promise that is set already the `check` fails. -/
def SetValue (s : TScheduler) (ExecutionPromise TaskCompletionPromise : FFutureHandle) :
    TScheduler :=
  match s.Futures[ExecutionPromise]? with
  | none => s
  | some State =>
    match State.Result with
    | some _ => s.FailCheck
    | none => s.SetFuture ExecutionPromise { Result := some (.Value (some TaskCompletionPromise)) }

/-! ## Stage state transitions (`StageState.tpp`) -/

/-- `TStageState_Executing::ExecuteAllTasks`: the executing task entries and the new heap.
`bDebugScheduler` is `DebugScheduler != nullptr`. -/
def ExecuteAllTasks (bDebugScheduler : Bool) :
    List FPendingTaskEntry → TScheduler → List FExecutingTaskEntry × TScheduler
  | [], s => ([], s)
  | PendingTask :: Rest, s =>
    let (TaskCompletionPromise, s1) := s.NewPromise {}
    let (FutureTaskCompletion, s2) :=
      if bDebugScheduler then
        let (PostNotifyCompletionPromise, s2) := s1.NewPromise {}
        (PostNotifyCompletionPromise,
          s2.SetFuture TaskCompletionPromise
            { CompletionCallback :=
                some (.PostNotifyCompletion PendingTask.Id PostNotifyCompletionPromise) })
      else (TaskCompletionPromise, s1)
    let s3 := SetValue s2 PendingTask.ExecutionPromise TaskCompletionPromise
    let (Tasks, s4) := ExecuteAllTasks bDebugScheduler Rest s3
    ({ Id := PendingTask.Id, FutureCompletion := FutureTaskCompletion } :: Tasks, s4)

/-- `Private::TransitionToStageState_Completed`: the executing state is moved out of the
registry entry (which keeps the moved-from arrays), every stage completion promise is
fulfilled in order, then the entry becomes `Completed`. -/
def TransitionToStageState_Completed (s : TScheduler) (StageId : IdType)
    (bAllTasksCollected : Bool) (StageCompletionPromises : List FFutureHandle) :
    TScheduler × List FCall :=
  (s.Assign StageId (.Executing StageId bAllTasksCollected [] []),
    StageCompletionPromises.map .EmplaceValue ++ [.Transition_Completed StageId])

/-- `Private::CompleteWhenTasksFinished` on the executing state of `StageId`. -/
def CompleteWhenTasksFinished (s : TScheduler) (StageId : IdType) : TScheduler × List FCall :=
  match s.Find StageId with
  | some (.Executing Id bAllTasksCollected Tasks StageCompletionPromises) =>
    match Tasks.getLast? with
    | none =>
      if bAllTasksCollected then
        TransitionToStageState_Completed s Id bAllTasksCollected StageCompletionPromises
      else (s, [])
    | some Task =>
      IfNotCanceled
        (s.Assign StageId (.Executing Id bAllTasksCollected Tasks.dropLast StageCompletionPromises))
        Task.FutureCompletion (.CompleteWhenTasksFinished StageId)
  | _ => (s, [])

/-- `Private::TransitionToStageState_Executing`. -/
def TransitionToStageState_Executing (GPerformInspections : Bool) (s : TScheduler)
    (StageState_Defined : TStageState_Pending) : TScheduler × List FCall :=
  let (Tasks, s1) := ExecuteAllTasks GPerformInspections StageState_Defined.Tasks s
  let s2 := s1.Transition StageState_Defined.StageId
    (.Executing StageState_Defined.StageId StageState_Defined.bAllTasksCollected Tasks
      StageState_Defined.StageCompletionPromises)
  if StageState_Defined.bAllTasksCollected then
    CompleteWhenTasksFinished s2 StageState_Defined.StageId
  else (s2, [])

/-- `Private::StartExecutingWhenPrerequisitesComplete` on the defined state of `StageId`. -/
def StartExecutingWhenPrerequisitesComplete (GPerformInspections : Bool) (s : TScheduler)
    (StageId : IdType) : TScheduler × List FCall :=
  match s.Find StageId with
  | some (.Defined Pending FuturePrerequisiteCompletions) =>
    match FuturePrerequisiteCompletions.getLast? with
    | none => TransitionToStageState_Executing GPerformInspections s Pending
    | some Future =>
      IfNotCanceled (s.Assign StageId (.Defined Pending FuturePrerequisiteCompletions.dropLast))
        Future (.StartExecutingWhenPrerequisitesComplete StageId)
  | _ => (s, [])

/-- `Private::TransitionToStageState_Defined`. -/
def TransitionToStageState_Defined (GPerformInspections : Bool) (s : TScheduler)
    (StageState_Undefined : TStageState_Pending)
    (FuturePrerequisiteCompletions : List FFutureHandle) : TScheduler × List FCall :=
  StartExecutingWhenPrerequisitesComplete GPerformInspections
    (s.Transition StageState_Undefined.StageId
      (.Defined StageState_Undefined FuturePrerequisiteCompletions))
    StageState_Undefined.StageId

/-- Invocation of a registered continuation. -/
def InvokeContinuation (GPerformInspections : Bool) (s : TScheduler) :
    FContinuation → TScheduler × List FCall
  | .StartExecutingWhenPrerequisitesComplete StageId =>
    StartExecutingWhenPrerequisitesComplete GPerformInspections s StageId
  | .CompleteWhenTasksFinished StageId => CompleteWhenTasksFinished s StageId
  | .PostNotifyCompletion _ PostNotifyCompletionPromise => EmplaceValue s PostNotifyCompletionPromise

/-- One pending call: the new state and the calls it makes, in order. -/
def StepCall (GPerformInspections : Bool) (s : TScheduler) : FCall → TScheduler × List FCall
  | .EmplaceValue Promise => EmplaceValue s Promise
  | .Cancel Promise => Cancel s Promise
  | .Invoke F => InvokeContinuation GPerformInspections s F
  | .Transition_Completed StageId => (s.Transition StageId (.Completed StageId), [])

/-- Runs the pending calls, innermost first, with an explicit budget of calls
(`none` = budget exhausted). -/
def RunCallsFuel (GPerformInspections : Bool) : Nat → List FCall → TScheduler → Option TScheduler
  | _, [], s => some s
  | 0, _ :: _, _ => none
  | Fuel + 1, Call :: Rest, s =>
    let (s1, Calls) := StepCall GPerformInspections s Call
    RunCallsFuel GPerformInspections Fuel (Calls ++ Rest) s1

/-- Weight of a stage state in the budget of calls. -/
def TStageState.Weight : TStageState → Nat
  | .Undefined _ => 0
  | .Defined Pending FuturePrerequisiteCompletions =>
    4 * FuturePrerequisiteCompletions.length + 7 * Pending.Tasks.length
      + 2 * Pending.StageCompletionPromises.length + 8
  | .Executing _ _ Tasks StageCompletionPromises =>
    4 * Tasks.length + 2 * StageCompletionPromises.length + 4
  | .Completed _ => 0

/-- Weight of a pending call in the budget of calls. -/
def FCall.Weight : FCall → Nat
  | .EmplaceValue _ => 1
  | .Cancel _ => 1
  | .Invoke _ => 3
  | .Transition_Completed _ => 1

/-- Weight of a shared state: a registered continuation will be called at most once. -/
def FFutureState.Weight (State : FFutureState) : Nat :=
  match State.Result, State.CompletionCallback with
  | none, some _ => 3
  | _, _ => 0

/-- A number of calls that always suffices to run `Calls` to the end (see
`RunCallsFuel_total`): every call lowers the total weight. -/
def CallBudget (Calls : List FCall) (s : TScheduler) : Nat :=
  (Calls.map FCall.Weight).sum + (s.Stages.map TStageState.Weight).sum
    + (s.Futures.map FFutureState.Weight).sum

/-- Runs the pending calls to the end: the state in which the operation returns. -/
def RunCalls (GPerformInspections : Bool) (Calls : List FCall) (s : TScheduler) : TScheduler :=
  (RunCallsFuel GPerformInspections (CallBudget Calls s) Calls s).getD s

/-! ## Stage state api (`StageState.tpp`) -/

/-- `StageState::AddFollowUp` on the state of `StageId`: the returned future and the new
scheduler. -/
def AddFollowUp (s : TScheduler) (StageId : IdType) : FFutureHandle × TScheduler :=
  match s.Find StageId with
  | some (.Undefined Pending) =>
    let (StageCompletionPromise, s1) := s.NewPromise {}
    (StageCompletionPromise, s1.Assign StageId (.Undefined { Pending with
      StageCompletionPromises := Pending.StageCompletionPromises ++ [StageCompletionPromise] }))
  | some (.Defined Pending FuturePrerequisiteCompletions) =>
    let (StageCompletionPromise, s1) := s.NewPromise {}
    (StageCompletionPromise, s1.Assign StageId (.Defined { Pending with
      StageCompletionPromises := Pending.StageCompletionPromises ++ [StageCompletionPromise] }
      FuturePrerequisiteCompletions))
  | some (.Executing Id bAllTasksCollected Tasks StageCompletionPromises) =>
    let (StageCompletionPromise, s1) := s.NewPromise {}
    (StageCompletionPromise, s1.Assign StageId (.Executing Id bAllTasksCollected Tasks
      (StageCompletionPromises ++ [StageCompletionPromise])))
  | some (.Completed _) => s.NewPromise { Result := some (.Value none) }
  | none => s.NewPromise {}

/-- `StageState::AddStage` on the state of `StageId`: the result, the new state and the
calls made before it returns. -/
def StageState_AddStage (GPerformInspections : Bool) (s : TScheduler) (StageId : IdType)
    (FuturePrerequisiteCompletions : List FFutureHandle) :
    TAddStageResult × TScheduler × List FCall :=
  match s.Find StageId with
  | some (.Undefined Pending) =>
    (.ok (),
      TransitionToStageState_Defined GPerformInspections s Pending FuturePrerequisiteCompletions)
  | some State => (.error (.StageAlreadyAdded State.GetStageId), s, [])
  | none => (.error (.StageAlreadyAdded StageId), s, [])

/-- `TAddTaskToStageResult`. -/
abbrev TAddTaskToStageResult := Except TAllTasksCollectedError FFutureHandle

/-- `StageState::AddTaskToStage` on the state of `StageId`. -/
def StageState_AddTaskToStage (s : TScheduler) (StageId TaskId : IdType) :
    TAddTaskToStageResult × TScheduler :=
  match s.Find StageId with
  | some (.Undefined Pending) =>
    if Pending.bAllTasksCollected then (.error ⟨Pending.StageId, TaskId⟩, s)
    else
      let (ExecutionPromise, s1) := s.NewPromise {}
      (.ok ExecutionPromise, s1.Assign StageId (.Undefined { Pending with
        Tasks := Pending.Tasks ++ [{ Id := TaskId, ExecutionPromise := ExecutionPromise }] }))
  | some (.Defined Pending FuturePrerequisiteCompletions) =>
    if Pending.bAllTasksCollected then (.error ⟨Pending.StageId, TaskId⟩, s)
    else
      let (ExecutionPromise, s1) := s.NewPromise {}
      (.ok ExecutionPromise, s1.Assign StageId (.Defined { Pending with
        Tasks := Pending.Tasks ++ [{ Id := TaskId, ExecutionPromise := ExecutionPromise }] }
        FuturePrerequisiteCompletions))
  | some (.Executing Id bAllTasksCollected Tasks StageCompletionPromises) =>
    if bAllTasksCollected then (.error ⟨Id, TaskId⟩, s)
    else
      let (TaskExecutionPromise, s1) := s.NewPromise {}
      let (TaskCompletionPromise, s2) := s1.NewPromise {}
      let s3 := s2.Assign StageId (.Executing Id bAllTasksCollected
        (Tasks ++ [{ Id := TaskId, FutureCompletion := TaskCompletionPromise }])
        StageCompletionPromises)
      (.ok TaskExecutionPromise, SetValue s3 TaskExecutionPromise TaskCompletionPromise)
  | some (.Completed Id) => (.error ⟨Id, TaskId⟩, s)
  | none => (.error ⟨StageId, TaskId⟩, s)

/-- `StageState::SetAllTasksAdded` on the state of `StageId`: the new state and the calls
made before it returns. -/
def StageState_SetAllTasksAdded (s : TScheduler) (StageId : IdType) : TScheduler × List FCall :=
  match s.Find StageId with
  | some (.Undefined Pending) =>
    if Pending.bAllTasksCollected then (s, [])
    else (s.Assign StageId (.Undefined { Pending with bAllTasksCollected := true }), [])
  | some (.Defined Pending FuturePrerequisiteCompletions) =>
    if Pending.bAllTasksCollected then (s, [])
    else (s.Assign StageId
      (.Defined { Pending with bAllTasksCollected := true } FuturePrerequisiteCompletions), [])
  | some (.Executing Id bAllTasksCollected Tasks StageCompletionPromises) =>
    if bAllTasksCollected then (s, [])
    else
      CompleteWhenTasksFinished
        (s.Assign StageId (.Executing Id true Tasks StageCompletionPromises)) StageId
  | some (.Completed _) => (s, [])
  | none => (s, [])

/-! ## Scheduler operations (`Scheduler.tpp`) -/

/-- The first loop of `TScheduler::AddStage`: one `FindOrAddStage` and one `AddFollowUp`
per prerequisite; returns `FuturePrerequisiteCompletions`. -/
def CollectFuturePrerequisiteCompletions :
    List IdType → TScheduler → List FFutureHandle × TScheduler
  | [], s => ([], s)
  | PrerequisiteId :: Rest, s =>
    let (Future, s1) := AddFollowUp (s.FindOrAddStage PrerequisiteId) PrerequisiteId
    let (Futures, s2) := CollectFuturePrerequisiteCompletions Rest s1
    (Future :: Futures, s2)

/-- The body of `TScheduler::AddStage`: the result, the new state and the calls made
before it returns. -/
def TScheduler.AddStageCalls (GPerformInspections : Bool) (s : TScheduler) (StageId : IdType)
    (Prerequisites : List IdType) : TAddStageResult × TScheduler × List FCall :=
  let (FuturePrerequisiteCompletions, s1) := CollectFuturePrerequisiteCompletions Prerequisites s
  if GPerformInspections then
    match DebugAddStage s1.PrerequisitesByStageId StageId Prerequisites with
    | (.error Error, _) => (.error Error, s1, [])
    | (.ok _, NewPrerequisitesByStageId) =>
      StageState_AddStage GPerformInspections
        ({ s1 with PrerequisitesByStageId := NewPrerequisitesByStageId }.FindOrAddStage StageId)
        StageId FuturePrerequisiteCompletions
  else
    StageState_AddStage GPerformInspections (s1.FindOrAddStage StageId) StageId
      FuturePrerequisiteCompletions

/-- `TScheduler::AddStage`: the result and the state in which it returns. -/
def TScheduler.AddStage (GPerformInspections : Bool) (s : TScheduler) (StageId : IdType)
    (Prerequisites : List IdType) : TAddStageResult × TScheduler :=
  let (Result, s1, Calls) := s.AddStageCalls GPerformInspections StageId Prerequisites
  (Result, RunCalls GPerformInspections Calls s1)

/-- `TScheduler::AddTaskToStage`. -/
def TScheduler.AddTaskToStage (s : TScheduler) (StageId TaskId : IdType) :
    TAddTaskToStageResult × TScheduler :=
  StageState_AddTaskToStage (s.FindOrAddStage StageId) StageId TaskId

/-- `TScheduler::SetAllTasksAdded`. -/
def TScheduler.SetAllTasksAdded (GPerformInspections : Bool) (s : TScheduler)
    (StageId : IdType) : TScheduler :=
  let (s1, Calls) := StageState_SetAllTasksAdded (s.FindOrAddStage StageId) StageId
  RunCalls GPerformInspections Calls s1

/-- `TAddTaskResult`. -/
abbrev TAddTaskResult := Except TAddStageError FFutureHandle

/-- `TScheduler::AddTask`; `none` when `check(AddTaskToStageResult.HasValue())` fails. -/
def TScheduler.AddTask (GPerformInspections : Bool) (s : TScheduler) (TaskId : IdType)
    (Prerequisites : List IdType) : Option (TAddTaskResult × TScheduler) :=
  match s.AddStage GPerformInspections TaskId Prerequisites with
  | (.error Error, s1) => some (.error Error, s1)
  | (.ok _, s1) =>
    match s1.AddTaskToStage TaskId TaskId with
    | (.error _, _) => none
    | (.ok FutureTaskExecution, s2) =>
      some (.ok FutureTaskExecution, s2.SetAllTasksAdded GPerformInspections TaskId)

/-! ## Runs of the scheduler

A client calls the public operations and, for every task that was released to it, at some
later time fulfils the task completion promise (`EmplaceValue`) or destroys it unfulfilled.
Every call is observed after it has returned; the continuations of the client do not call
back into the scheduler while an operation runs. -/

/-- What a client of the scheduler does. -/
inductive FEvent where
  | AddStage (StageId : IdType) (Prerequisites : List IdType)
  | AddTaskToStage (StageId TaskId : IdType)
  | SetAllTasksAdded (StageId : IdType)
  | AddTask (TaskId : IdType) (Prerequisites : List IdType)
  | FulfilTaskCompletion (TaskCompletionPromise : FFutureHandle)
  | DropTaskCompletion (TaskCompletionPromise : FFutureHandle)
  deriving DecidableEq, Repr

/-- A call of a public operation together with the value it returned. `AddTask` is
observed as the public calls it makes. -/
inductive FObservation where
  | AddStage (StageId : IdType) (Prerequisites : List IdType) (Result : TAddStageResult)
  | AddTaskToStage (StageId TaskId : IdType) (Result : TAddTaskToStageResult)
  | SetAllTasksAdded (StageId : IdType)
  deriving DecidableEq, Repr

/-- The client holds the unfulfilled task completion promise `Promise`: some task execution
future resolved with it and it has not been fulfilled or destroyed since. -/
def TScheduler.HoldsTaskCompletionPromise (s : TScheduler) (Promise : FFutureHandle) : Bool :=
  decide (s.Result Promise = none) &&
    s.Futures.any (fun State => decide (State.Result = some (.Value (some Promise))))

/-- A run: the calls observed so far and the scheduler. -/
structure FRun where
  Observations : List FObservation := []
  Scheduler : TScheduler := {}
  deriving DecidableEq, Repr

/-- The run after an operation has returned; `none` when a `check` of the engine failed
in it, which stopped the program. -/
def FRun.Checked (r : FRun) : Option FRun :=
  if r.Scheduler.bCheckFailed then none else some r

/-- One event of a run; `none` when an assertion (`check`) of the scheduler or of the
engine fails. -/
def ApplyEvent (GPerformInspections : Bool) (r : FRun) : FEvent → Option FRun
  | .AddStage StageId Prerequisites =>
    let (Result, s1) := r.Scheduler.AddStage GPerformInspections StageId Prerequisites
    FRun.Checked ⟨r.Observations ++ [.AddStage StageId Prerequisites Result], s1⟩
  | .AddTaskToStage StageId TaskId =>
    let (Result, s1) := r.Scheduler.AddTaskToStage StageId TaskId
    FRun.Checked ⟨r.Observations ++ [.AddTaskToStage StageId TaskId Result], s1⟩
  | .SetAllTasksAdded StageId =>
    FRun.Checked ⟨r.Observations ++ [.SetAllTasksAdded StageId],
      r.Scheduler.SetAllTasksAdded GPerformInspections StageId⟩
  | .AddTask TaskId Prerequisites =>
    match r.Scheduler.AddStage GPerformInspections TaskId Prerequisites with
    | (.error Error, s1) =>
      FRun.Checked ⟨r.Observations ++ [.AddStage TaskId Prerequisites (.error Error)], s1⟩
    | (.ok _, s1) =>
      match s1.AddTaskToStage TaskId TaskId with
      | (.error _, _) => none
      | (.ok FutureTaskExecution, s2) =>
        FRun.Checked ⟨r.Observations ++ [.AddStage TaskId Prerequisites (.ok ()),
            .AddTaskToStage TaskId TaskId (.ok FutureTaskExecution), .SetAllTasksAdded TaskId],
          s2.SetAllTasksAdded GPerformInspections TaskId⟩
  | .FulfilTaskCompletion Promise =>
    if r.Scheduler.HoldsTaskCompletionPromise Promise then
      FRun.Checked
        ⟨r.Observations, RunCalls GPerformInspections [.EmplaceValue Promise] r.Scheduler⟩
    else some r
  | .DropTaskCompletion Promise =>
    if r.Scheduler.HoldsTaskCompletionPromise Promise then
      FRun.Checked ⟨r.Observations, RunCalls GPerformInspections [.Cancel Promise] r.Scheduler⟩
    else some r

/-- The run of a sequence of events on a fresh scheduler. -/
def Exec (GPerformInspections : Bool) (Events : List FEvent) : Option FRun :=
  Events.foldlM (ApplyEvent GPerformInspections) {}

/-- The task execution future is resolved with a task completion promise (the task was
released for execution). -/
def TScheduler.IsReleased (s : TScheduler) (FutureTaskExecution : FFutureHandle) : Prop :=
  ∃ TaskCompletionPromise,
    s.Result FutureTaskExecution = some (.Value (some TaskCompletionPromise))

/-- The task behind the task execution future was released and its task completion promise
was fulfilled with a value. -/
def TScheduler.IsFinished (s : TScheduler) (FutureTaskExecution : FFutureHandle) : Prop :=
  ∃ TaskCompletionPromise,
    s.Result FutureTaskExecution = some (.Value (some TaskCompletionPromise)) ∧
      s.Result TaskCompletionPromise = some (.Value none)

end Zkz.StagedExecution

namespace Zkz.StagedExecution

/-! ## Notions used in the statements -/

/-- Recorded prerequisite edge: `PrerequisiteId` is in the recorded prerequisites of
`StageId`. -/
def IsRecordedPrerequisite (M : FPrerequisitesByStageId) (StageId PrerequisiteId : IdType) :
    Prop :=
  ∃ PrerequisiteIds, M.Find StageId = some PrerequisiteIds ∧ PrerequisiteId ∈ PrerequisiteIds

/-- Number of map entries whose key is not on the stack `Cycle`. -/
def UnvisitedEntries (M : FPrerequisitesByStageId) (Cycle : FCycle) : Nat :=
  (M.filter (fun e => decide (e.1 ∉ Cycle))).length

end Zkz.StagedExecution

namespace Zkz.StagedExecution

/-! ## The invariant of the scheduler

The invariant relates the registry, the heap of shared states, the calls still pending in
the running operation and the calls observed so far. It is stated with the help of a
typing of the heap: the role that every shared state plays. -/

/-- The calls observed so far. -/
abbrev FLog := List FObservation

/-- Role of a shared promise / future state.
* `StageCompletion Owner Consumer`: created by `AddFollowUp` on stage `Owner`; the future
  was handed to stage `X` as the one of its `j`-th prerequisite when `Consumer` is
  `some (X, j)`, and was dropped by a failed `AddStage` when it is `none`,
* `TaskExecution StageId Index`: the execution promise of the task added to `StageId` by its
  `Index`-th successful `AddTaskToStage`,
* `TaskCompletion StageId Index`: the task completion promise handed to that task,
* `PostNotify StageId Index`: the `PostNotifyCompletionPromise` of that task. -/
inductive FRole where
  | StageCompletion (Owner : IdType) (Consumer : Option (IdType × Nat))
  | TaskExecution (StageId : IdType) (Index : Nat)
  | TaskCompletion (StageId : IdType) (Index : Nat)
  | PostNotify (StageId : IdType) (Index : Nat)
  deriving DecidableEq, Repr

/-- Typing of the heap. -/
abbrev FRoles := List FRole

/-- The tasks added successfully to stage `X`, in order, each with its task id and the
task execution future that `AddTaskToStage` returned. -/
def TasksOf (Log : FLog) (X : IdType) : List (IdType × FFutureHandle) :=
  Log.filterMap fun o =>
    match o with
    | .AddTaskToStage X' T (.ok h) => if X' = X then some (T, h) else none
    | _ => none

/-- `AddStage(X, P)` was called and succeeded. -/
def IsAddedWith (Log : FLog) (X : IdType) (P : List IdType) : Prop :=
  FObservation.AddStage X P (.ok ()) ∈ Log

/-- `SetAllTasksAdded(X)` was called. -/
def IsCollected (Log : FLog) (X : IdType) : Prop :=
  FObservation.SetAllTasksAdded X ∈ Log

/-- The stage completion promises queued in a stage state. -/
def TStageState.Promises : TStageState → List FFutureHandle
  | .Undefined Pending => Pending.StageCompletionPromises
  | .Defined Pending _ => Pending.StageCompletionPromises
  | .Executing _ _ _ StageCompletionPromises => StageCompletionPromises
  | .Completed _ => []

/-- The `allTasksCollected` flag of a stage state (a completed stage counts as collected). -/
def TStageState.IsAllTasksCollected : TStageState → Bool
  | .Undefined Pending => Pending.bAllTasksCollected
  | .Defined Pending _ => Pending.bAllTasksCollected
  | .Executing _ bAllTasksCollected _ _ => bAllTasksCollected
  | .Completed _ => true

/-- The ids of the tasks in the task list of a stage state. -/
def TStageState.TaskIds : TStageState → List IdType
  | .Undefined Pending => Pending.Tasks.map (fun t => t.Id)
  | .Defined Pending _ => Pending.Tasks.map (fun t => t.Id)
  | .Executing _ _ Tasks _ => Tasks.map (fun t => t.Id)
  | .Completed _ => []

/-- The futures of the prerequisites a stage state still holds. -/
def TStageState.FuturePrerequisiteCompletions : TStageState → List FFutureHandle
  | .Defined _ FuturePrerequisiteCompletions => FuturePrerequisiteCompletions
  | _ => []

/-- The stage completion promises queued in stage `X`. -/
def TScheduler.PromisesOf (s : TScheduler) (X : IdType) : List FFutureHandle :=
  match s.Find X with
  | some State => State.Promises
  | none => []

/-- Stage `p` is completed, or is completing: its stage completion promises are being
fulfilled and the closing transition is pending. -/
def IsDone (s : TScheduler) (Calls : List FCall) (p : IdType) : Prop :=
  s.GetId p = .Completed ∨ FCall.Transition_Completed p ∈ Calls

/-- The task completion future `hc` of a task and its post-notify future `f`. -/
def LinkOK (s : TScheduler) (Calls : List FCall) (T : IdType) (hc f : FFutureHandle) : Prop :=
  (s.Result hc = none ∧ s.CompletionCallback hc = some (.PostNotifyCompletion T f) ∧
      s.Result f = none) ∨
  (s.Result hc = some (.Value none) ∧
      (s.Result f = some (.Value none) ∨
        (s.Result f = none ∧ Calls.head? = some (.Invoke (.PostNotifyCompletion T f))))) ∨
  (s.Result hc = some .Canceled ∧
      (s.Result f = some .Canceled ∨ (s.Result f = none ∧ Calls.head? = some (.Cancel f))))

/-- What holds of the shared state `h`, by its role. -/
def CellOK (Γ : FRoles) (Log : FLog) (Calls : List FCall) (s : TScheduler)
    (h : FFutureHandle) : Prop :=
  (s.Result h ≠ none → s.CompletionCallback h = none) ∧
  match Γ[h]? with
  | none => False
  | some (.StageCompletion p _) =>
    (s.Result h = none ∧ (h ∈ s.PromisesOf p ∨ FCall.EmplaceValue h ∈ Calls)) ∨
    (s.Result h = some (.Value none) ∧ IsDone s Calls p)
  | some (.TaskExecution X j) =>
    ∃ T, (TasksOf Log X)[j]? = some (T, h) ∧ s.CompletionCallback h = none ∧
      (s.Result h = none ∨
        ∃ hc, s.Result h = some (.Value (some hc)) ∧ Γ[hc]? = some (.TaskCompletion X j))
  | some (.TaskCompletion X j) =>
    ∃ T he, (TasksOf Log X)[j]? = some (T, he) ∧ s.Result he = some (.Value (some h)) ∧
      (s.Result h = none ∨ s.Result h = some (.Value none) ∨ s.Result h = some .Canceled) ∧
      (∀ T' f, s.CompletionCallback h = some (.PostNotifyCompletion T' f) →
        T' = T ∧ Γ[f]? = some (.PostNotify X j))
  | some (.PostNotify X j) =>
    ∃ T he hc, (TasksOf Log X)[j]? = some (T, he) ∧ s.Result he = some (.Value (some hc)) ∧
      Γ[hc]? = some (.TaskCompletion X j) ∧ LinkOK s Calls T hc h

/-- What holds of the continuation registered on `h`. -/
def CallbackOK (Γ : FRoles) (s : TScheduler) (h : FFutureHandle) : Prop :=
  match s.CompletionCallback h with
  | none => True
  | some (.StartExecutingWhenPrerequisitesComplete X) =>
    (∃ p j, Γ[h]? = some (.StageCompletion p (some (X, j)))) ∧
      ∃ Pending F, s.Find X = some (.Defined Pending F)
  | some (.CompleteWhenTasksFinished X) =>
    (∃ j, Γ[h]? = some (.TaskCompletion X j) ∨ Γ[h]? = some (.PostNotify X j)) ∧
      ∃ Ts Ps, s.Find X = some (.Executing X true Ts Ps)
  | some (.PostNotifyCompletion _ _) => ∃ X j, Γ[h]? = some (.TaskCompletion X j)

/-- The pending task entries of stage `X` are the tasks added to it, none released. -/
def PendingTasksOK (Γ : FRoles) (Log : FLog) (s : TScheduler) (X : IdType)
    (Tasks : List FPendingTaskEntry) : Prop :=
  Tasks.map (fun t => (t.Id, t.ExecutionPromise)) = TasksOf Log X ∧
  ∀ (j : Nat) (t : FPendingTaskEntry), Tasks[j]? = some t →
    Γ[t.ExecutionPromise]? = some (.TaskExecution X j) ∧ s.Result t.ExecutionPromise = none

/-- The queued stage completion promises of stage `X` are unfulfilled promises of `X`. -/
def PromisesOK (Γ : FRoles) (s : TScheduler) (X : IdType) (Ps : List FFutureHandle) : Prop :=
  ∀ h, h ∈ Ps → (∃ c, Γ[h]? = some (.StageCompletion X c)) ∧ s.Result h = none

/-- Every task added to stage `X` was released. -/
def ReleasedOK (Γ : FRoles) (Log : FLog) (s : TScheduler) (X : IdType) : Prop :=
  ∀ (j : Nat) (T : IdType) (he : FFutureHandle), (TasksOf Log X)[j]? = some (T, he) →
    Γ[he]? = some (.TaskExecution X j) ∧
      ∃ hc, s.Result he = some (.Value (some hc)) ∧ Γ[hc]? = some (.TaskCompletion X j)

/-- The `j`-th task added to stage `X` was released and has finished. -/
def FinishedOK (Log : FLog) (s : TScheduler) (X : IdType) (j : Nat) : Prop :=
  ∃ T he hc, (TasksOf Log X)[j]? = some (T, he) ∧ s.Result he = some (.Value (some hc)) ∧
    s.Result hc = some (.Value none)

/-- The `j`-th executing task entry of stage `X` belongs to the `j`-th task added. -/
def EntryOK (Γ : FRoles) (Log : FLog) (s : TScheduler) (X : IdType) (j : Nat)
    (e : FExecutingTaskEntry) : Prop :=
  (∃ he, (TasksOf Log X)[j]? = some (e.Id, he)) ∧
  (Γ[e.FutureCompletion]? = some (.TaskCompletion X j) ∨
    Γ[e.FutureCompletion]? = some (.PostNotify X j)) ∧
  s.CompletionCallback e.FutureCompletion = none

/-- The chain `StartExecutingWhenPrerequisitesComplete` of the defined stage `X`, declared
with prerequisites `P`, which still holds the futures `F`: the futures left are those of
the first prerequisites, the chain waits for the next one (or is being continued by the
call at the head), and all later prerequisites are done. -/
def ChainOK (Γ : FRoles) (Calls : List FCall) (s : TScheduler) (X : IdType)
    (P : List IdType) (F : List FFutureHandle) : Prop :=
  F.length ≤ P.length ∧
  (∀ (j : Nat) (f : FFutureHandle), F[j]? = some f →
    ∃ p, P[j]? = some p ∧ Γ[f]? = some (.StageCompletion p (some (X, j))) ∧
      s.CompletionCallback f = none) ∧
  ((Calls.head? = some (.Invoke (.StartExecutingWhenPrerequisitesComplete X)) ∧
      (∀ h, s.CompletionCallback h ≠ some (.StartExecutingWhenPrerequisitesComplete X)) ∧
      ∀ (j : Nat) (p : IdType), F.length ≤ j → P[j]? = some p → IsDone s Calls p) ∨
   (Calls.head? ≠ some (.Invoke (.StartExecutingWhenPrerequisitesComplete X)) ∧
      (∃ a p, P[F.length]? = some p ∧ Γ[a]? = some (.StageCompletion p (some (X, F.length))) ∧
        s.Result a = none ∧
        ∀ h, s.CompletionCallback h = some (.StartExecutingWhenPrerequisitesComplete X) ↔ h = a) ∧
      ∀ (j : Nat) (p : IdType), F.length < j → P[j]? = some p → IsDone s Calls p))

/-- The drain `CompleteWhenTasksFinished` of the executing stage `X`. Before
`SetAllTasksAdded` the task list holds every task added. Afterwards the stage is either
completing, or the drain is being continued by the call at the head, or it waits for the
task after those left in the list (or is stuck at it, when that task was canceled); the
tasks after that one have finished. -/
def DrainOK (Γ : FRoles) (Log : FLog) (Calls : List FCall) (s : TScheduler) (X : IdType)
    (b : Bool) (Ts : List FExecutingTaskEntry) (Ps : List FFutureHandle) : Prop :=
  (∀ (j : Nat) (e : FExecutingTaskEntry), Ts[j]? = some e → EntryOK Γ Log s X j e) ∧
  Ts.length ≤ (TasksOf Log X).length ∧
  ((b = false ∧ Ts.length = (TasksOf Log X).length ∧
      (∀ h, s.CompletionCallback h ≠ some (.CompleteWhenTasksFinished X)) ∧
      Calls.head? ≠ some (.Invoke (.CompleteWhenTasksFinished X)) ∧
      FCall.Transition_Completed X ∉ Calls) ∨
   (b = true ∧ FCall.Transition_Completed X ∈ Calls ∧ Ts = [] ∧ Ps = [] ∧
      (∀ j, j < (TasksOf Log X).length → FinishedOK Log s X j) ∧
      (∀ h, s.CompletionCallback h ≠ some (.CompleteWhenTasksFinished X)) ∧
      Calls.head? ≠ some (.Invoke (.CompleteWhenTasksFinished X))) ∨
   (b = true ∧ FCall.Transition_Completed X ∉ Calls ∧
      Calls.head? = some (.Invoke (.CompleteWhenTasksFinished X)) ∧
      (∀ h, s.CompletionCallback h ≠ some (.CompleteWhenTasksFinished X)) ∧
      ∀ j, Ts.length ≤ j → j < (TasksOf Log X).length → FinishedOK Log s X j) ∨
   (b = true ∧ FCall.Transition_Completed X ∉ Calls ∧
      Calls.head? ≠ some (.Invoke (.CompleteWhenTasksFinished X)) ∧
      Ts.length < (TasksOf Log X).length ∧
      (∀ j, Ts.length < j → j < (TasksOf Log X).length → FinishedOK Log s X j) ∧
      ((∃ a, (∀ h, s.CompletionCallback h = some (.CompleteWhenTasksFinished X) ↔ h = a) ∧
          s.Result a = none ∧
          (Γ[a]? = some (.TaskCompletion X Ts.length) ∨ Γ[a]? = some (.PostNotify X Ts.length))) ∨
       ((∀ h, s.CompletionCallback h ≠ some (.CompleteWhenTasksFinished X)) ∧
          ∃ T he hc, (TasksOf Log X)[Ts.length]? = some (T, he) ∧
            s.Result he = some (.Value (some hc)) ∧ s.Result hc = some .Canceled))))

/-- What holds of a registered stage state. -/
def StageOK (Γ : FRoles) (Log : FLog) (Calls : List FCall) (s : TScheduler) :
    TStageState → Prop
  | .Undefined Pending =>
    (∀ P, ¬ IsAddedWith Log Pending.StageId P) ∧
    (Pending.bAllTasksCollected = true ↔ IsCollected Log Pending.StageId) ∧
    PendingTasksOK Γ Log s Pending.StageId Pending.Tasks ∧
    PromisesOK Γ s Pending.StageId Pending.StageCompletionPromises
  | .Defined Pending F =>
    (∃ P, IsAddedWith Log Pending.StageId P) ∧
    (∀ P, IsAddedWith Log Pending.StageId P → ChainOK Γ Calls s Pending.StageId P F) ∧
    (Pending.bAllTasksCollected = true ↔ IsCollected Log Pending.StageId) ∧
    PendingTasksOK Γ Log s Pending.StageId Pending.Tasks ∧
    PromisesOK Γ s Pending.StageId Pending.StageCompletionPromises
  | .Executing X b Ts Ps =>
    (∃ P, IsAddedWith Log X P) ∧
    (∀ P, IsAddedWith Log X P → ∀ p, p ∈ P → IsDone s Calls p) ∧
    (b = true ↔ IsCollected Log X) ∧
    PromisesOK Γ s X Ps ∧
    ReleasedOK Γ Log s X ∧
    DrainOK Γ Log Calls s X b Ts Ps
  | .Completed X =>
    (∃ P, IsAddedWith Log X P) ∧
    (∀ P, IsAddedWith Log X P → ∀ p, p ∈ P → IsDone s Calls p) ∧
    IsCollected Log X ∧
    ReleasedOK Γ Log s X ∧
    (∀ j, j < (TasksOf Log X).length → FinishedOK Log s X j) ∧
    FCall.Transition_Completed X ∉ Calls

/-- The pending calls below the head: the rest of the loops of
`TransitionToStageState_Completed` that are running, each followed by its closing
transition. -/
def TailOK (Γ : FRoles) : List FCall → Prop
  | [] => True
  | .EmplaceValue h :: Rest =>
    (∃ p c, Γ[h]? = some (.StageCompletion p c) ∧ FCall.Transition_Completed p ∈ Rest) ∧
      TailOK Γ Rest
  | .Transition_Completed p :: Rest =>
    FCall.Transition_Completed p ∉ Rest ∧
      (∀ h c, FCall.EmplaceValue h ∈ Rest → Γ[h]? ≠ some (.StageCompletion p c)) ∧
      TailOK Γ Rest
  | _ => False

/-- What holds of the pending calls. -/
def CallsOK (Γ : FRoles) (Log : FLog) (s : TScheduler) (Calls : List FCall) : Prop :=
  (∀ X, FCall.Transition_Completed X ∈ Calls → s.Find X = some (.Executing X true [] [])) ∧
  match Calls with
  | [] => True
  | .Invoke (.StartExecutingWhenPrerequisitesComplete X) :: Rest =>
    TailOK Γ Rest ∧ ∃ Pending F, s.Find X = some (.Defined Pending F)
  | .Invoke (.CompleteWhenTasksFinished X) :: Rest =>
    TailOK Γ Rest ∧ FCall.Transition_Completed X ∉ Rest ∧
      ∃ Ts Ps, s.Find X = some (.Executing X true Ts Ps)
  | .Invoke (.PostNotifyCompletion T f) :: Rest =>
    Rest = [] ∧ ∃ X j he hc, Γ[f]? = some (.PostNotify X j) ∧
      (TasksOf Log X)[j]? = some (T, he) ∧ s.Result he = some (.Value (some hc)) ∧
      s.Result hc = some (.Value none) ∧ s.Result f = none
  | .Cancel h :: Rest =>
    Rest = [] ∧ s.Result h = none ∧
      ((∃ X j, Γ[h]? = some (.TaskCompletion X j)) ∨
        ∃ X j T he hc, Γ[h]? = some (.PostNotify X j) ∧
          (TasksOf Log X)[j]? = some (T, he) ∧ s.Result he = some (.Value (some hc)) ∧
          s.Result hc = some .Canceled)
  | .EmplaceValue h :: Rest =>
    (Rest = [] ∧ s.Result h = none ∧ ∃ X j, Γ[h]? = some (.TaskCompletion X j)) ∨
      TailOK Γ (.EmplaceValue h :: Rest)
  | .Transition_Completed p :: Rest => TailOK Γ (.Transition_Completed p :: Rest)

/-- Nothing was observed about a stage that is not registered. -/
def LogOK (Log : FLog) (s : TScheduler) : Prop :=
  ∀ X, s.Find X = none →
    (∀ P, ¬ IsAddedWith Log X P) ∧ ¬ IsCollected Log X ∧ TasksOf Log X = []

/-- With inspections, the recorded prerequisites are those of the successful `AddStage`
calls. -/
def MapOK (GPerformInspections : Bool) (Log : FLog) (s : TScheduler) : Prop :=
  GPerformInspections = true →
    ∀ X P, s.PrerequisitesByStageId.Find X = some P ↔ IsAddedWith Log X P

/-- The invariant of the scheduler: typing `Γ` of the heap, calls observed `Log`, pending
calls `Calls`, state `s`. -/
structure SchedulerInv (GPerformInspections : Bool) (Γ : FRoles) (Log : FLog)
    (Calls : List FCall) (s : TScheduler) : Prop where
  roles : Γ.length = s.Futures.length
  cells : ∀ h, h < s.Futures.length → CellOK Γ Log Calls s h ∧ CallbackOK Γ s h
  stages : ∀ X State, s.Find X = some State → StageOK Γ Log Calls s State
  log : LogOK Log s
  calls : CallsOK Γ Log s Calls
  map : MapOK GPerformInspections Log s

/-- The roles of the shared states that `ExecuteAllTasks` creates for the tasks
`Index, Index + 1, ...` of stage `X`. -/
def ExecuteAllTasksRoles (bDebugScheduler : Bool) (X : IdType) : Nat → Nat → FRoles
  | _, 0 => []
  | Index, Count + 1 =>
    (if bDebugScheduler then [.TaskCompletion X Index, .PostNotify X Index]
      else [.TaskCompletion X Index]) ++ ExecuteAllTasksRoles bDebugScheduler X (Index + 1) Count

/-- The typing of the heap after a call: only the transition to `Executing` creates
shared states. -/
def StepRoles (GPerformInspections : Bool) (s : TScheduler) (Γ : FRoles) : FCall → FRoles
  | .Invoke (.StartExecutingWhenPrerequisitesComplete X) =>
    match s.Find X with
    | some (.Defined Pending []) =>
      Γ ++ ExecuteAllTasksRoles GPerformInspections X 0 Pending.Tasks.length
    | _ => Γ
  | _ => Γ

end Zkz.StagedExecution

namespace Zkz.StagedExecution

/-! ## Further notions used in the statements -/

/-- Weight of the registry and the heap. -/
def StateWeight (s : TScheduler) : Nat :=
  (s.Stages.map TStageState.Weight).sum + (s.Futures.map FFutureState.Weight).sum

/-- Position of a state id in `EZkzStagedExecutionStageStateId`. -/
def EStageStateId.Index : EStageStateId → Nat
  | .Unknown => 0
  | .Undefined => 1
  | .Defined => 2
  | .Executing => 3
  | .Completed => 4

/-- The `allTasksCollected` flag of stage `X` (a completed stage counts as collected, a
stage that is not registered as not collected). -/
def TScheduler.IsAllTasksCollected (s : TScheduler) (X : IdType) : Bool :=
  match s.Find X with
  | some State => State.IsAllTasksCollected
  | none => false

/-- The ids in the task list of stage `X`. -/
def TScheduler.TaskIdsOf (s : TScheduler) (X : IdType) : List IdType :=
  match s.Find X with
  | some State => State.TaskIds
  | none => []

/-- The futures of the prerequisites that stage `X` still holds. -/
def TScheduler.FuturePrerequisiteCompletionsOf (s : TScheduler) (X : IdType) :
    List FFutureHandle :=
  match s.Find X with
  | some State => State.FuturePrerequisiteCompletions
  | none => []

/-- A stage state with the stage completion promises `New` queued after its own (a
completed stage queues nothing). -/
def TStageState.QueuePromises (New : List FFutureHandle) : TStageState → TStageState
  | .Undefined Pending => .Undefined { Pending with
      StageCompletionPromises := Pending.StageCompletionPromises ++ New }
  | .Defined Pending F => .Defined { Pending with
      StageCompletionPromises := Pending.StageCompletionPromises ++ New } F
  | .Executing Id b Tasks Promises => .Executing Id b Tasks (Promises ++ New)
  | .Completed Id => .Completed Id

/-- Every stage of `s'` is at the same or a later position of the state order than in `s`,
and keeps an `allTasksCollected` flag that is set in `s`. -/
def Progress (s s' : TScheduler) : Prop :=
  ∀ X, (s.GetId X).Index ≤ (s'.GetId X).Index ∧
    (s.IsAllTasksCollected X = true → s'.IsAllTasksCollected X = true)

/-! ## Rendering of the errors (`ResultTypes.h`)

`TIdTraits<InIdType>::GetLogString` is the parameter `GetLogString`. -/

/-- The loops of `ToString(const TStageCircularDependencyError&)`: appends the quoted ids
to `Result`, with `Separator` before every id but the first (`bFirst`). -/
def AppendQuotedIds (GetLogString : IdType → String) (Separator : String) :
    List IdType → Bool → String → String
  | [], _, Result => Result
  | Id :: Rest, bFirst, Result =>
    AppendQuotedIds GetLogString Separator Rest false
      ((if !bFirst then Result ++ Separator else Result) ++ "\"" ++ GetLogString Id ++ "\"")

/-- `ToString(const TAddStageError&)`: visits the variant. -/
def TAddStageError.ToString (GetLogString : IdType → String) : TAddStageError → String
  | .StageAlreadyAdded StageId =>
    "Stage \"" ++ GetLogString StageId ++ "\" has already been added. Aborting operation."
  | .CircularDependency StageId PrerequisiteIds Cycle =>
    let Result := "Adding stage \"" ++ GetLogString StageId ++ "\" with prerequisite(s) \x7b"
    let Result := AppendQuotedIds GetLogString ", " PrerequisiteIds true Result
    let Result := Result ++ "\x7d would introduce cycle "
    let Result := AppendQuotedIds GetLogString " -> " Cycle true Result
    Result ++ ". Aborting operation."

/-- The documented text of an error: the quoted ids joined by the separators. -/
def DocumentedErrorString (GetLogString : IdType → String) : TAddStageError → String
  | .StageAlreadyAdded StageId =>
    "Stage \"" ++ GetLogString StageId ++ "\" has already been added. Aborting operation."
  | .CircularDependency StageId PrerequisiteIds Cycle =>
    "Adding stage \"" ++ GetLogString StageId ++ "\" with prerequisite(s) \x7b" ++
      ", ".intercalate (PrerequisiteIds.map fun Id => "\"" ++ GetLogString Id ++ "\"") ++
      "\x7d would introduce cycle " ++
      " -> ".intercalate (Cycle.map fun Id => "\"" ++ GetLogString Id ++ "\"") ++
      ". Aborting operation."

/-! ## The stage completion futures handed out in a run -/

/-- The futures that `AddFollowUp` returns during an event in state `s`, each with the
stage it was called on: `AddStage` calls it once per prerequisite. -/
def FollowUpsOfEvent (s : TScheduler) : FEvent → List (IdType × FFutureHandle)
  | .AddStage _ Prerequisites =>
    Prerequisites.zip (CollectFuturePrerequisiteCompletions Prerequisites s).1
  | .AddTask _ Prerequisites =>
    Prerequisites.zip (CollectFuturePrerequisiteCompletions Prerequisites s).1
  | _ => []

/-- One event of a run, with the futures handed out by `AddFollowUp` so far. -/
def ApplyEventFollowUps (GPerformInspections : Bool)
    (a : Option FRun × List (IdType × FFutureHandle)) (e : FEvent) :
    Option FRun × List (IdType × FFutureHandle) :=
  match a.1 with
  | none => a
  | some r => (ApplyEvent GPerformInspections r e, a.2 ++ FollowUpsOfEvent r.Scheduler e)

/-- The futures handed out by `AddFollowUp` in the run of `Events` on a fresh scheduler,
each with the stage it was called on. -/
def FollowUps (GPerformInspections : Bool) (Events : List FEvent) :
    List (IdType × FFutureHandle) :=
  (Events.foldl (ApplyEventFollowUps GPerformInspections) (some {}, [])).2

/-- The run of `Events` on a fresh scheduler; the run of no event when an assertion
fails. -/
def ExecD (GPerformInspections : Bool) (Events : List FEvent) : FRun :=
  (Exec GPerformInspections Events).getD {}

/-! ## Example runs -/

/-- Task `1` without prerequisites is added and finishes, then task `2` that depends on it
is added. -/
def ExampleDependentTask : List FEvent :=
  [.AddTask 1 [], .FulfilTaskCompletion 1, .AddTask 2 [1]]

/-- Stage `2` is added with the prerequisite `1`, which is never added. -/
def ExampleWaitingStage : List FEvent :=
  [.AddStage 2 [1]]

/-- Task `1` without prerequisites is added and task `2` that depends on it; the task
completion promise of task `1` is destroyed unfulfilled. -/
def ExampleDroppedTask : List FEvent :=
  [.AddTask 1 [], .AddTask 2 [1], .DropTaskCompletion 1]

end Zkz.StagedExecution

/-!
Results (`Zakazane/Result.h`) and range minima (`Zakazane/Algo.h`)

Conventions of the embedding

* `TResult<V, E>` (a `std::variant` of the value and of `TUnexpected<E>`) is `Except E V`:
  `.ok v` is the value arm, `.error e` the error arm.
* A callable handed to `AndThen` / `OrElse` may have effects. It is embedded as a function
  that also takes and returns the state `σ` of the program, so that "the callable was not
  invoked" is visible as "the state was handed through unchanged".
* The conversions of `FunctionResultType{Unexpect, e}` and `FunctionResultType{InPlace, v}`
  to the error / value type of the callable's result are the explicit parameters
  `ErrorCast` and `ValueCast` (the identity when the types agree).
-/

namespace Zkz

/-- `TResult<ValueType, ErrorType>`. -/
abbrev TResult (ValueType ErrorType : Type) := Except ErrorType ValueType

/-- `TResult::HasValue`: `std::holds_alternative<ValueType>(Value)`. -/
def TResult.HasValue {V E : Type} : TResult V E → Bool
  | .ok _ => true
  | .error _ => false

/-- `TResult::HasError`: `!HasValue()`. -/
def TResult.HasError {V E : Type} (Result : TResult V E) : Bool :=
  !Result.HasValue

/-- `TResult::GetValue`; the argument `h` is the `check(HasValue())`. -/
def TResult.GetValue {V E : Type} : (Result : TResult V E) → Result.HasValue = true → V
  | .ok v, _ => v

/-- `TResult::GetError`; the argument `h` is the `check(HasError())`. -/
def TResult.GetError {V E : Type} : (Result : TResult V E) → Result.HasError = true → E
  | .error e, _ => e

/-- `TResult::GetValueOr`: `HasValue() ? GetValue() : ValueIfNotPresent`. -/
def TResult.GetValueOr {V E : Type} (Result : TResult V E) (ValueIfNotPresent : V) : V :=
  match h : Result.HasValue with
  | true => Result.GetValue h
  | false => ValueIfNotPresent

/-- `CollapseNestedResults(NestedResult, ConversionFunction)`:
`NestedResult.HasValue() ? NestedResult.GetValue()
: TResult{Unexpect, invoke(ConversionFunction, NestedResult.GetError())}`. -/
def CollapseNestedResults {V InnerE OuterE : Type}
    (NestedResult : TResult (TResult V InnerE) OuterE) (ConversionFunction : OuterE → InnerE) :
    TResult V InnerE :=
  match h : NestedResult.HasValue with
  | true => NestedResult.GetValue h
  | false => .error (ConversionFunction (NestedResult.GetError (by rw [TResult.HasError, h]; rfl)))

/-- `ResultPrivate::AndThenImpl`:
`Result.HasValue() ? Invoke(Function, *Result) : FunctionResultType{Unexpect, Result.GetError()}`.
`s` is the program state in which the expression is evaluated. -/
def ResultPrivate.AndThenImpl {V E V' E' σ : Type} (ErrorCast : E → E')
    (Result : TResult V E) (Function : V → σ → TResult V' E' × σ) (s : σ) :
    TResult V' E' × σ :=
  match h : Result.HasValue with
  | true => Function (Result.GetValue h) s
  | false => (.error (ErrorCast (Result.GetError (by rw [TResult.HasError, h]; rfl))), s)

/-- `ResultPrivate::OrElseImpl`:
`Result.HasError() ? Invoke(Function, Result.GetError()) : FunctionResultType{InPlace, *Result}`. -/
def ResultPrivate.OrElseImpl {V E V' E' σ : Type} (ValueCast : V → V')
    (Result : TResult V E) (Function : E → σ → TResult V' E' × σ) (s : σ) :
    TResult V' E' × σ :=
  match h : Result.HasError with
  | true => Function (Result.GetError h) s
  | false =>
    (.ok (ValueCast (Result.GetValue (by
      rw [TResult.HasError] at h; cases hv : Result.HasValue
      · rw [hv] at h; cases h
      · rfl))), s)

/-- `TResult::AndThen`: forwards to `ResultPrivate::AndThenImpl`. -/
def TResult.AndThen {V E V' E' σ : Type} (ErrorCast : E → E') (Result : TResult V E)
    (Function : V → σ → TResult V' E' × σ) (s : σ) : TResult V' E' × σ :=
  ResultPrivate.AndThenImpl ErrorCast Result Function s

/-- `TResult::OrElse`: forwards to `ResultPrivate::OrElseImpl`. -/
def TResult.OrElse {V E V' E' σ : Type} (ValueCast : V → V') (Result : TResult V E)
    (Function : E → σ → TResult V' E' × σ) (s : σ) : TResult V' E' × σ :=
  ResultPrivate.OrElseImpl ValueCast Result Function s

/-! ## Range minima (`Algo.h`) -/

/-- The body of the `for` loop of `AlgoImpl::MinBy`: `Result` after one more `Element`. -/
def AlgoImpl.MinByStep {A B : Type} (Projection : A → B) (Comparator : B → B → Bool)
    (Result : Option B) (Element : A) : Option B :=
  let ProjectedElement := Projection Element
  match Result with
  | none => some ProjectedElement
  | some Current => if Comparator ProjectedElement Current then some ProjectedElement else Result

/-- `AlgoImpl::MinBy`: the loop over `Range`, starting with an unset `TOptional`. -/
def AlgoImpl.MinBy {A B : Type} (Range : List A) (Projection : A → B)
    (Comparator : B → B → Bool) : Option B :=
  Range.foldl (AlgoImpl.MinByStep Projection Comparator) none

/-- `TLess<>`: `A < B`. -/
def TLess {A : Type} [LT A] [DecidableRel (fun a b : A => a < b)] (a b : A) : Bool :=
  decide (a < b)

/-- `TGreater<>`: `B < A`. -/
def TGreater {A : Type} [LT A] [DecidableRel (fun a b : A => a < b)] (a b : A) : Bool :=
  decide (b < a)

/-- `FIdentityFunctor`. -/
def FIdentityFunctor {A : Type} (Value : A) : A := Value

/-- `Min(Range)`: `AlgoImpl::MinBy(Range, FIdentityFunctor{}, TLess<>{})`. -/
def Min {A : Type} [LT A] [DecidableRel (fun a b : A => a < b)] (Range : List A) : Option A :=
  AlgoImpl.MinBy Range FIdentityFunctor TLess

/-- `Min(Range, Comparator)`: `AlgoImpl::MinBy(Range, FIdentityFunctor{}, Comparator)`. -/
def MinWith {A : Type} (Range : List A) (Comparator : A → A → Bool) : Option A :=
  AlgoImpl.MinBy Range FIdentityFunctor Comparator

/-- `MinBy(Range, Projection)`: `AlgoImpl::MinBy(Range, Projection, TLess<>{})`. -/
def MinBy {A B : Type} [LT B] [DecidableRel (fun a b : B => a < b)] (Range : List A)
    (Projection : A → B) : Option B :=
  AlgoImpl.MinBy Range Projection TLess

/-- `MinBy(Range, Projection, Comparator)`: `AlgoImpl::MinBy(Range, Projection, Comparator)`. -/
def MinByWith {A B : Type} (Range : List A) (Projection : A → B) (Comparator : B → B → Bool) :
    Option B :=
  AlgoImpl.MinBy Range Projection Comparator

/-- An element `x` of `Range` is minimal: no element `y` has
`Comparator(Projection(y), Projection(x))`. -/
def IsMinimalIn {A B : Type} (Range : List A) (Projection : A → B) (Comparator : B → B → Bool)
    (x : A) : Prop :=
  ∀ y ∈ Range, Comparator (Projection y) (Projection x) = false

end Zkz

/-!
Scoped promises (`Zakazane/Future.h`, class `TScopedPromise`)

Conventions of the embedding

* `TPromise` / `TFuture` are the engine's classes (`Async/Future.h`): a promise and its
  future share one state, which holds the result once it is set. The shared states live in
  the list `States`; the handle of a state is its index. `TPromise` is movable only: moving
  it hands the pointer to the shared state over and leaves the source without a state.
  The engine's `check`s are kept: `GetState()` on a promise without state,
  `EmplaceResult` on a state that is complete, `GetFuture()` a second time, and the
  destructor of a promise whose state is not complete all stop the program.
* The promise objects live in the list `Objects`; the identity (address) of an object is its
  index, a destroyed object leaves `none` behind.
* An operation returns `none` when a `check` fails or when it is applied to an object that
  does not exist.
-/

namespace Zkz

/-- `FPromiseCanceled`. -/
structure FPromiseCanceled where
  deriving DecidableEq, Repr

/-- `PromiseCanceled`. -/
def PromiseCanceled : FPromiseCanceled := {}

/-- `TCancelableFutureResult<T> = TResult<T, FPromiseCanceled>`. -/
abbrev TCancelableFutureResult (T : Type) := TResult T FPromiseCanceled

/-- Handle of the state shared by a `TPromise` and its `TFuture`. -/
abbrev FStateHandle := Nat

/-- Identity of a `TScopedPromise` object. -/
abbrev FObjectId := Nat

/-- `TResultPromise<T, FPromiseCanceled>` (the engine's `TPromise`): the pointer to the shared
state (`none` once moved from) and the flag `FutureRetrieved`. -/
structure TResultPromise where
  State : Option FStateHandle
  bFutureRetrieved : Bool := false
  deriving DecidableEq, Repr

/-- `TScopedPromise<T>`: the members `Promise` and `bFulfilled`. -/
structure TScopedPromise where
  Promise : TResultPromise
  bFulfilled : Bool := false
  deriving DecidableEq, Repr

/-- The shared states (`none` while a state is not complete), the promise objects, and the
futures handed out by `GetFuture` (a record kept for the statements). -/
structure FPromiseWorld (T : Type) where
  States : List (Option (TCancelableFutureResult T)) := []
  Objects : List (Option TScopedPromise) := []
  Futures : List FStateHandle := []

/-- The object with identity `This`, if it exists. -/
def FPromiseWorld.Object {T : Type} (w : FPromiseWorld T) (This : FObjectId) :
    Option TScopedPromise :=
  match w.Objects[This]? with
  | some (some P) => some P
  | _ => none

/-- The result held by a shared state, `none` while it is not complete (`!IsReady()`). -/
def FPromiseWorld.Result {T : Type} (w : FPromiseWorld T) (State : FStateHandle) :
    Option (TCancelableFutureResult T) :=
  match w.States[State]? with
  | some (some r) => some r
  | _ => none

/-- A future is resolved when its shared state is complete. -/
def FPromiseWorld.IsResolved {T : Type} (w : FPromiseWorld T) (Future : FStateHandle) : Bool :=
  (w.Result Future).isSome

/-- Writes the members of the object `This`. -/
def FPromiseWorld.SetObject {T : Type} (w : FPromiseWorld T) (This : FObjectId)
    (P : Option TScopedPromise) : FPromiseWorld T :=
  { w with Objects := w.Objects.set This P }

/-- `TPromise::EmplaceValue`: `GetState()` checks that the promise has a state,
`EmplaceResult` checks that the state is not complete, then the result is stored. -/
def TResultPromise.EmplaceValue {T : Type} (Promise : TResultPromise) (w : FPromiseWorld T)
    (Result : TCancelableFutureResult T) : Option (FPromiseWorld T) :=
  match Promise.State with
  | none => none
  | some State =>
    match w.States[State]? with
    | some none => some { w with States := w.States.set State (some Result) }
    | _ => none

/-- The destructor of `TPromise`: `check(State->IsComplete())` when the promise has a state. -/
def TResultPromise.Destruct {T : Type} (Promise : TResultPromise) (w : FPromiseWorld T) :
    Option (FPromiseWorld T) :=
  match Promise.State with
  | none => some w
  | some State => if w.IsResolved State then some w else none

/-- `TScopedPromise()`: a promise with a new shared state, `bFulfilled = false`. -/
def TScopedPromise.Construct {T : Type} (w : FPromiseWorld T) : FObjectId × FPromiseWorld T :=
  (w.Objects.length,
    { w with
      States := w.States ++ [none]
      Objects := w.Objects ++ [some { Promise := { State := some w.States.length } }] })

/-- `TScopedPromise(TScopedPromise&& Other)`:
`Promise{MoveTemp(Other.Promise)}, bFulfilled{MoveTemp(Other.bFulfilled)}`, then
`Other.bFulfilled = true`. -/
def TScopedPromise.MoveConstruct {T : Type} (w : FPromiseWorld T) (Other : FObjectId) :
    Option (FObjectId × FPromiseWorld T) :=
  match w.Object Other with
  | none => none
  | some O =>
    let w1 := w.SetObject Other (some { Promise := { O.Promise with State := none },
                                        bFulfilled := true })
    some (w1.Objects.length,
      { w1 with Objects := w1.Objects ++ [some { Promise := O.Promise,
                                                   bFulfilled := O.bFulfilled }] })

/-- `TScopedPromise::operator=(TScopedPromise&& Other)`: nothing when `this == &Other`,
otherwise `Promise = MoveTemp(Other.Promise); bFulfilled = Other.bFulfilled;
Other.bFulfilled = true`. The state that `Promise` held before is released. -/
def TScopedPromise.MoveAssign {T : Type} (w : FPromiseWorld T) (This Other : FObjectId) :
    Option (FPromiseWorld T) :=
  match w.Object This, w.Object Other with
  | some _, some O =>
    if This = Other then some w
    else
      some ((w.SetObject This (some { Promise := O.Promise, bFulfilled := O.bFulfilled })).SetObject
        Other (some { Promise := { O.Promise with State := none }, bFulfilled := true }))
  | _, _ => none

/-- `TScopedPromise::Cancel`: `if (!bFulfilled) { bFulfilled = true;
Promise.EmplaceValue(Unexpect, PromiseCanceled); }`. -/
def TScopedPromise.Cancel {T : Type} (w : FPromiseWorld T) (This : FObjectId) :
    Option (FPromiseWorld T) :=
  match w.Object This with
  | none => none
  | some P =>
    if P.bFulfilled then some w
    else
      P.Promise.EmplaceValue (w.SetObject This (some { P with bFulfilled := true }))
        (.error PromiseCanceled)

/-- `TScopedPromise::~TScopedPromise`: `Cancel()`, then the member `Promise` is destroyed. -/
def TScopedPromise.Destruct {T : Type} (w : FPromiseWorld T) (This : FObjectId) :
    Option (FPromiseWorld T) :=
  match TScopedPromise.Cancel w This with
  | none => none
  | some w1 =>
    match w1.Object This with
    | none => none
    | some P =>
      match P.Promise.Destruct w1 with
      | none => none
      | some w2 => some (w2.SetObject This none)

/-- `TScopedPromise::EmplaceValue`: `bFulfilled = true; Promise.EmplaceValue(InPlace, Args...)`. -/
def TScopedPromise.EmplaceValue {T : Type} (w : FPromiseWorld T) (This : FObjectId)
    (Value : T) : Option (FPromiseWorld T) :=
  match w.Object This with
  | none => none
  | some P =>
    P.Promise.EmplaceValue (w.SetObject This (some { P with bFulfilled := true })) (.ok Value)

/-- `TScopedPromise::SetValue`: `bFulfilled = true; Promise.EmplaceValue(InPlace, Value)`. -/
def TScopedPromise.SetValue {T : Type} (w : FPromiseWorld T) (This : FObjectId)
    (Value : T) : Option (FPromiseWorld T) :=
  match w.Object This with
  | none => none
  | some P =>
    P.Promise.EmplaceValue (w.SetObject This (some { P with bFulfilled := true })) (.ok Value)

/-- `TScopedPromise::GetFuture`: `Promise.GetFuture()`, which checks `!FutureRetrieved`, sets
the flag and returns a future on the shared state. -/
def TScopedPromise.GetFuture {T : Type} (w : FPromiseWorld T) (This : FObjectId) :
    Option (FStateHandle × FPromiseWorld T) :=
  match w.Object This with
  | none => none
  | some P =>
    if P.Promise.bFutureRetrieved then none
    else
      match P.Promise.State with
      | none => none
      | some State =>
        some (State,
          { (w.SetObject This
              (some { P with Promise := { P.Promise with bFutureRetrieved := true } })) with
            Futures := w.Futures ++ [State] })

/-- The operations of a program on scoped promises. -/
inductive FPromiseOp (T : Type) where
  | Construct
  | MoveConstruct (Other : FObjectId)
  | MoveAssign (This Other : FObjectId)
  | Destruct (This : FObjectId)
  | Cancel (This : FObjectId)
  | EmplaceValue (This : FObjectId) (Value : T)
  | SetValue (This : FObjectId) (Value : T)
  | GetFuture (This : FObjectId)

/-- One operation of the program. -/
def FPromiseWorld.Apply {T : Type} (w : FPromiseWorld T) : FPromiseOp T → Option (FPromiseWorld T)
  | .Construct => some (TScopedPromise.Construct w).2
  | .MoveConstruct Other => (TScopedPromise.MoveConstruct w Other).map (fun r => r.2)
  | .MoveAssign This Other => TScopedPromise.MoveAssign w This Other
  | .Destruct This => TScopedPromise.Destruct w This
  | .Cancel This => TScopedPromise.Cancel w This
  | .EmplaceValue This Value => TScopedPromise.EmplaceValue w This Value
  | .SetValue This Value => TScopedPromise.SetValue w This Value
  | .GetFuture This => (TScopedPromise.GetFuture w This).map (fun r => r.2)

/-- The operations `Ops` in order, from the world `w` (`none`: a `check` failed). -/
def FPromiseWorld.Run {T : Type} (w : FPromiseWorld T) (Ops : List (FPromiseOp T)) :
    Option (FPromiseWorld T) :=
  Ops.foldlM FPromiseWorld.Apply w

/-- A program on scoped promises, run from the start (`none`: a `check` failed). -/
def RunPromiseOps {T : Type} (Ops : List (FPromiseOp T)) : Option (FPromiseWorld T) :=
  FPromiseWorld.Run {} Ops

/-- The object `This` is responsible for the future `Future`: fulfilling it with a value
(`EmplaceValue` or `SetValue`) resolves the future with that value, and destroying it
afterwards writes no shared state; destroying it unfulfilled resolves the future with
`PromiseCanceled`. -/
def FPromiseWorld.IsResponsibleFor {T : Type} (w : FPromiseWorld T) (This : FObjectId)
    (Future : FStateHandle) : Prop :=
  w.Result Future = none
  ∧ (∀ Value : T, ∃ w1, TScopedPromise.EmplaceValue w This Value = some w1
      ∧ TScopedPromise.SetValue w This Value = some w1
      ∧ w1.Result Future = some (.ok Value)
      ∧ ∃ w2, TScopedPromise.Destruct w1 This = some w2 ∧ w2.States = w1.States
        ∧ w2.Result Future = some (.ok Value))
  ∧ ∃ w2, TScopedPromise.Destruct w This = some w2
      ∧ w2.Result Future = some (.error PromiseCanceled)

/-- Every promise object has been destroyed. -/
def FPromiseWorld.AllDestroyed {T : Type} (w : FPromiseWorld T) : Bool :=
  w.Objects.all (fun o => o.isNone)

end Zkz

namespace Zkz

/-- The bookkeeping of the scoped promises is consistent:
* a promise object that has a state points to an existing shared state,
* such an object is fulfilled exactly when its shared state is complete,
* no two objects share a state,
* an object without state (moved from) counts as fulfilled. -/
structure FPromiseWorld.Consistent {T : Type} (w : FPromiseWorld T) : Prop where
  valid : ∀ p P h, w.Object p = some P → P.Promise.State = some h → h < w.States.length
  fulfilled : ∀ p P h, w.Object p = some P → P.Promise.State = some h →
    (P.bFulfilled = true ↔ w.IsResolved h = true)
  unique : ∀ p q P Q h, w.Object p = some P → w.Object q = some Q →
    P.Promise.State = some h → Q.Promise.State = some h → p = q
  moved : ∀ p P, w.Object p = some P → P.Promise.State = none → P.bFulfilled = true

end Zkz

namespace Zkz

/-- The move of the members `P` of the object `Source` of the world `w` to the object
`Destination` gave the world `w1`:
* the move wrote no shared state,
* `Destination` has the promise and the bit `bFulfilled` that `Source` had,
* `Source` has no state and its bit is true, its destructor fails no `check` and writes no
  shared state,
* when `P` was not fulfilled, `Destination` is responsible for the future of the state of `P`,
  before and after `Source` is destroyed. -/
def FPromiseWorld.IsTransferred {T : Type} (w w1 : FPromiseWorld T)
    (Source Destination : FObjectId) (P : TScopedPromise) : Prop :=
  w1.States = w.States
  ∧ w1.Object Destination = some P
  ∧ w1.Object Source
      = some { Promise := { P.Promise with State := none }, bFulfilled := true }
  ∧ (∃ w2, TScopedPromise.Destruct w1 Source = some w2 ∧ w2.States = w1.States
      ∧ w2.Object Destination = some P
      ∧ ∀ Future, P.bFulfilled = false → P.Promise.State = some Future →
          w2.IsResponsibleFor Destination Future)
  ∧ ∀ Future, P.bFulfilled = false → P.Promise.State = some Future →
      w1.IsResponsibleFor Destination Future

/-- The world a program reaches (the start when a `check` failed). -/
def RunPromiseOpsD {T : Type} (Ops : List (FPromiseOp T)) : FPromiseWorld T :=
  (RunPromiseOps Ops).getD {}

/-- A promise whose future was obtained. -/
def ExamplePromise : List (FPromiseOp Nat) := [.Construct, .GetFuture 0]

/-- Two promises; the future of the first was obtained. -/
def ExampleTwoPromises : List (FPromiseOp Nat) := [.Construct, .GetFuture 0, .Construct]

/-- A promise whose future was obtained is assigned another promise; both objects are then
destroyed. -/
def ExampleOverwrittenPromise : List (FPromiseOp Nat) :=
  [.Construct, .GetFuture 0, .Construct, .MoveAssign 0 1, .Destruct 1, .Destruct 0]

end Zkz

/-!
Continuations on futures (`Zakazane/Future.h`: `IfNotCanceled`, `Next`,
`CollapseFutureCanceledToError`)

Conventions of the embedding

* The state that the engine's `TPromise<R>` and `TFuture<R>` share holds the result, once it
  is set, and the continuation registered through `TFuture::Next` while the result is not
  set. `TFuture::Next` runs the continuation at once when the result is already set;
  `TPromise::EmplaceValue` checks that the result is not set, stores it and runs the
  registered continuation.
* A continuation is a value of a type `C` (the lambda with its captures); what calling it
  does to the rest of the program state `σ` is the function `Invoke` (`none`: a `check`
  failed).
* A callable `F` handed to `IfNotCanceled` is known by an identifier; a call of `F` is
  recorded, with its argument, in the list of invocations.
-/

namespace Zkz

/-- The state shared by a `TPromise<R>` and its `TFuture<R>` (the engine's `TFutureState`). -/
structure TFutureState (R C : Type) where
  Result : Option R := none
  CompletionCallback : Option C := none

/-- The shared states of the futures with results of type `R`, and the rest of the program
state. -/
structure TFutureWorld (R C σ : Type) where
  States : List (TFutureState R C) := []
  Program : σ

/-- Result of a future, `none` while it is not resolved. -/
def TFutureWorld.Result {R C σ : Type} (w : TFutureWorld R C σ) (Future : FStateHandle) :
    Option R :=
  match w.States[Future]? with
  | some State => State.Result
  | none => none

/-- The continuation that waits on a future. -/
def TFutureWorld.CompletionCallback {R C σ : Type} (w : TFutureWorld R C σ)
    (Future : FStateHandle) : Option C :=
  match w.States[Future]? with
  | some State => State.CompletionCallback
  | none => none

/-- `TFuture::Next(Continuation)`: the continuation runs at once when the future is resolved,
otherwise it is stored in the shared state. -/
def TFuture.Next {R C σ : Type} (Invoke : C → R → σ → Option σ) (w : TFutureWorld R C σ)
    (Future : FStateHandle) (Continuation : C) : Option (TFutureWorld R C σ) :=
  match w.States[Future]? with
  | none => none
  | some State =>
    match State.Result with
    | some Result => (Invoke Continuation Result w.Program).map (fun p => { w with Program := p })
    | none =>
      some { w with
        States := w.States.set Future { State with CompletionCallback := some Continuation } }

/-- `TPromise::EmplaceValue(Result)`: `check(!IsComplete())`, the result is stored and the
registered continuation, if any, is called with it. -/
def TPromise.EmplaceValue {R C σ : Type} (Invoke : C → R → σ → Option σ)
    (w : TFutureWorld R C σ) (Promise : FStateHandle) (Result : R) :
    Option (TFutureWorld R C σ) :=
  match w.States[Promise]? with
  | none => none
  | some State =>
    match State.Result with
    | some _ => none
    | none =>
      let w1 : TFutureWorld R C σ :=
        { w with States := w.States.set Promise { Result := some Result } }
      match State.CompletionCallback with
      | none => some w1
      | some Continuation =>
        (Invoke Continuation Result w1.Program).map (fun p => { w1 with Program := p })

/-! ### `IfNotCanceled` -/

/-- Identifier of a callable handed to `IfNotCanceled`. -/
abbrev FFunctionId := Nat

/-- The calls of the callables, in order, each with its argument. -/
abbrev FInvocations (T : Type) := List (FFunctionId × T)

/-- The lambda of `IfNotCanceled`, which captures `F`:
`ZKZ_RETURN_IF(!Result.HasValue()); F(MoveTemp(Result).GetValue());`. -/
def IfNotCanceledLambda {T : Type} (F : FFunctionId) (Result : TCancelableFutureResult T)
    (Invocations : FInvocations T) : Option (FInvocations T) :=
  match h : TResult.HasValue Result with
  | false => some Invocations
  | true => some (Invocations ++ [(F, TResult.GetValue Result h)])

/-- `IfNotCanceled(CancelableFuture, F)`: `CancelableFuture.Next(lambda)`. -/
def IfNotCanceled {T : Type}
    (w : TFutureWorld (TCancelableFutureResult T) FFunctionId (FInvocations T))
    (CancelableFuture : FStateHandle) (F : FFunctionId) :
    Option (TFutureWorld (TCancelableFutureResult T) FFunctionId (FInvocations T)) :=
  TFuture.Next IfNotCanceledLambda w CancelableFuture F

/-- Number of calls of `F` in the record. -/
def InvocationCount {T : Type} (Invocations : FInvocations T) (F : FFunctionId) : Nat :=
  (Invocations.filter (fun i => i.1 = F)).length

/-! ### `Next` and `CollapseFutureCanceledToError` -/

/-- The lambda of `Next`, with its captures `ChainPromise` and `Continuation`. -/
structure FNextLambda (A B : Type) where
  ChainPromise : FStateHandle
  Continuation : A → B

/-- The states of the chain promises created by `Next` (`none`: not set). -/
abbrev FChainStates (B : Type) := List (Option B)

/-- The call of the lambda of `Next`:
`ChainPromise.EmplaceValue(Invoke(Continuation, Value))`. -/
def FNextLambda.Invoke {A B : Type} (Lambda : FNextLambda A B) (Value : A)
    (ChainStates : FChainStates B) : Option (FChainStates B) :=
  match ChainStates[Lambda.ChainPromise]? with
  | some none => some (ChainStates.set Lambda.ChainPromise (some (Lambda.Continuation Value)))
  | _ => none

/-- `Next(Future, Continuation)`: a new `ChainPromise`, `Future.Next(lambda)`; returns
`ChainFuture`. -/
def Next {A B : Type} (w : TFutureWorld A (FNextLambda A B) (FChainStates B))
    (Future : FStateHandle) (Continuation : A → B) :
    Option (FStateHandle × TFutureWorld A (FNextLambda A B) (FChainStates B)) :=
  let ChainPromise := w.Program.length
  let ChainFuture := ChainPromise
  (TFuture.Next FNextLambda.Invoke { w with Program := w.Program ++ [none] } Future
      { ChainPromise := ChainPromise, Continuation := Continuation }).map
    (fun w1 => (ChainFuture, w1))

/-- The lambda of `CollapseFutureCanceledToError`, which captures `ErrorIfCanceled`:
`Result.HasValue() ? MoveTemp(Result).GetValue() : TResult<T, E>{Unexpect, ErrorIfCanceled}`. -/
def CollapseLambda {T E : Type} (ErrorIfCanceled : E)
    (Result : TCancelableFutureResult (TResult T E)) : TResult T E :=
  match h : TResult.HasValue Result with
  | true => TResult.GetValue Result h
  | false => .error ErrorIfCanceled

/-- `CollapseFutureCanceledToError(Future, ErrorIfCanceled)`: `Next(Future, lambda)`. -/
def CollapseFutureCanceledToError {T E : Type}
    (w : TFutureWorld (TCancelableFutureResult (TResult T E))
      (FNextLambda (TCancelableFutureResult (TResult T E)) (TResult T E))
      (FChainStates (TResult T E)))
    (Future : FStateHandle) (ErrorIfCanceled : E) :
    Option (FStateHandle × TFutureWorld (TCancelableFutureResult (TResult T E))
      (FNextLambda (TCancelableFutureResult (TResult T E)) (TResult T E))
      (FChainStates (TResult T E))) :=
  Next w Future (CollapseLambda ErrorIfCanceled)

/-- Result of a chain future, `none` while it is not resolved. -/
def ChainResult {B : Type} (ChainStates : FChainStates B) (ChainFuture : FStateHandle) :
    Option B :=
  match ChainStates[ChainFuture]? with
  | some (some r) => some r
  | _ => none

/-- The result that the text of the specification gives to the future returned by
`CollapseFutureCanceledToError`: the inner result unchanged when the future resolved with a
value, `Err(ErrorIfCanceled)` when it resolved as canceled. -/
def CollapsedResultSpec {T E : Type} (ErrorIfCanceled : E) :
    TCancelableFutureResult (TResult T E) → TResult T E
  | .ok (.ok Value) => .ok Value
  | .ok (.error Inner) => .error Inner
  | .error _ => .error ErrorIfCanceled

end Zkz

namespace Zkz

/-- A future that is resolved with the value 7, a future that is canceled and a future that
is not resolved; nothing was called so far. -/
def ExampleCancelableFutures : TFutureWorld (TCancelableFutureResult Nat) FFunctionId
    (FInvocations Nat) :=
  { States := [{ Result := some (.ok 7) }, { Result := some (.error PromiseCanceled) }, {}],
    Program := [] }

/-- A future that is resolved with the inner error 5, a future that is canceled and a future
that is not resolved; no chain promise exists so far. -/
def ExampleNestedFutures : TFutureWorld (TCancelableFutureResult (TResult Nat Nat))
    (FNextLambda (TCancelableFutureResult (TResult Nat Nat)) (TResult Nat Nat))
    (FChainStates (TResult Nat Nat)) :=
  { States := [{ Result := some (.ok (.error 5)) }, { Result := some (.error PromiseCanceled) },
      {}],
    Program := [] }

end Zkz

/-!
Mutual exclusion in the scheduler (`Scheduler.h`, `Scheduler.tpp`)

Conventions of the embedding

* For mutual exclusion an operation is the sequence of its steps on the mutex and on the
  shared data: `Lock` is the constructor of `FScopeLock ScopeLock{&Mutex}`, `Unlock` its
  destructor at the end of the scope, `Access` a read or write of the stage registry
  `Stages`, of a stage's state or of the inspection data.
* `FCriticalSection` is recursive: the thread that holds it may lock it again.
* Two threads run one operation each; the steps of the two threads interleave in any order.
  A thread whose next step is `Lock` can only step when the mutex is free or its own.
* The two threads access the shared data at the same time in a configuration in which the
  next step of both is `Access`.
-/

namespace Zkz.StagedExecution

/-- A step of an operation that matters for mutual exclusion. -/
inductive FSyncStep where
  | Lock
  | Unlock
  | Access
  deriving DecidableEq, Repr

/-- `TScheduler::AddStage` (`Scheduler.tpp` l. 14-37): one `FindOrAddStage` / `AddFollowUp`
per prerequisite, `DebugAddStage`, then `StageState::AddStage(FindOrAddStage(StageId), ...)`.
The function has no `FScopeLock`. -/
def AddStageSteps (NumPrerequisites : Nat) : List FSyncStep :=
  List.replicate NumPrerequisites .Access ++ [.Access, .Access]

/-- `TScheduler::AddTaskToStage` (l. 39-45): `FScopeLock`, then
`StageState::AddTaskToStage(FindOrAddStage(StageId), ...)`. -/
def AddTaskToStageSteps : List FSyncStep := [.Lock, .Access, .Unlock]

/-- `TScheduler::SetAllTasksAdded` (l. 47-52): `FScopeLock`, then
`StageState::SetAllTasksAdded(FindOrAddStage(StageId), ...)`. -/
def SetAllTasksAddedSteps : List FSyncStep := [.Lock, .Access, .Unlock]

/-- `TScheduler::AddTask` (l. 54-69): `FScopeLock`, then `AddStage`, `AddTaskToStage` and
`SetAllTasksAdded` (the path on which `AddStage` returns a value). -/
def AddTaskSteps (NumPrerequisites : Nat) : List FSyncStep :=
  [.Lock] ++ AddStageSteps NumPrerequisites ++ AddTaskToStageSteps ++ SetAllTasksAddedSteps
    ++ [.Unlock]

/-- The inspection queries `GetDebugPrerequisiteIds`, `GetDebugWaitingAndExecutionTime_S`,
`WithStage` and `ForEachStage` (l. 71-119): `FScopeLock`, then the read. -/
def InspectionQuerySteps : List FSyncStep := [.Lock, .Access, .Unlock]

/-- The mutex (the thread that holds it and how many times it locked it) and the remaining
steps of the two threads. -/
structure FSyncConfig where
  Owner : Option Bool := none
  LockCount : Nat := 0
  Thread0 : List FSyncStep
  Thread1 : List FSyncStep
  deriving DecidableEq, Repr

/-- The remaining steps of a thread. -/
def FSyncConfig.Steps (c : FSyncConfig) (Thread : Bool) : List FSyncStep :=
  if Thread then c.Thread1 else c.Thread0

/-- Replaces the remaining steps of a thread. -/
def FSyncConfig.SetSteps (c : FSyncConfig) (Thread : Bool) (Steps : List FSyncStep) :
    FSyncConfig :=
  if Thread then { c with Thread1 := Steps } else { c with Thread0 := Steps }

/-- One step of the thread `Thread` (`none`: the thread has finished, or it is blocked in
`FScopeLock` because the other thread holds the mutex). -/
def FSyncConfig.StepThread (c : FSyncConfig) (Thread : Bool) : Option FSyncConfig :=
  match c.Steps Thread with
  | [] => none
  | .Access :: Rest => some (c.SetSteps Thread Rest)
  | .Lock :: Rest =>
    match c.Owner with
    | none => some ({ c with Owner := some Thread, LockCount := 1 }.SetSteps Thread Rest)
    | some Holder =>
      if Holder = Thread then
        some ({ c with LockCount := c.LockCount + 1 }.SetSteps Thread Rest)
      else none
  | .Unlock :: Rest =>
    if c.LockCount ≤ 1 then
      some ({ c with Owner := none, LockCount := 0 }.SetSteps Thread Rest)
    else some ({ c with LockCount := c.LockCount - 1 }.SetSteps Thread Rest)

/-- The next step of both threads is an access to the shared data. -/
def FSyncConfig.IsRace (c : FSyncConfig) : Bool :=
  c.Thread0.head? = some .Access && c.Thread1.head? = some .Access

/-- The configurations reached by letting the threads step in the order `Schedule`
(`none`: the thread chosen could not step). -/
def FSyncConfig.RunSchedule (c : FSyncConfig) (Schedule : List Bool) : Option FSyncConfig :=
  Schedule.foldlM FSyncConfig.StepThread c

/-- Some interleaving of at most `Fuel` steps reaches a race. -/
def FSyncConfig.CanRace : Nat → FSyncConfig → Bool
  | 0, c => c.IsRace
  | Fuel + 1, c =>
    c.IsRace
    || (match c.StepThread false with
        | some c' => FSyncConfig.CanRace Fuel c'
        | none => false)
    || (match c.StepThread true with
        | some c' => FSyncConfig.CanRace Fuel c'
        | none => false)

/-- Two threads that run the operations `Steps0` and `Steps1` can reach a race (every
interleaving ends after `Steps0.length + Steps1.length` steps). -/
def OperationsCanRace (Steps0 Steps1 : List FSyncStep) : Bool :=
  FSyncConfig.CanRace (Steps0.length + Steps1.length) { Thread0 := Steps0, Thread1 := Steps1 }

end Zkz.StagedExecution

/-!
Aggregation of futures (`Zakazane/Future.h`: `AggregateFutures`, `DoAggregateFutures`)

Conventions of the embedding

* The futures handed to `AggregateFutures` have results of type `FutureType`; their shared
  states are the list `Inputs`. The promises that the aggregation creates have results of
  type `ResultType`; their shared states are the list `Promises`. A future is the index of
  its shared state. Every future of the array `Futures` has its own shared state.
* The continuations are the lambdas of the source with their captures; `AggregateFunc` is
  the same callable in all of them and is a parameter of the operations.
* `TFuture::Next` runs the continuation at once when the future is resolved and stores it in
  the shared state otherwise; `TPromise::EmplaceValue` / `SetValue` checks that the state is
  not complete, stores the result and calls the stored continuation. An operation returns
  `none` when a `check` fails (or when the budget of nested calls is exhausted).
-/

namespace Zkz

/-- The lambda that `DoAggregateFutures` registers on `Head`, with its captures `Tail`,
`Promise` and `Initial`. -/
structure FAggregateHeadLambda (ResultType : Type) where
  Tail : List FStateHandle
  Promise : FStateHandle
  Initial : ResultType

/-- The lambdas registered on the future returned by `DoAggregateFutures`:
* `EmplaceValue`: `[Promise](FinalResult) { Promise.EmplaceValue(FinalResult); }` of
  `DoAggregateFutures`,
* `SetValue`: `[Futures, Promise, ...](Result) { Promise.SetValue(Result); }` of
  `AggregateFutures`. -/
inductive FAggregateForwardLambda where
  | EmplaceValue (Promise : FStateHandle)
  | SetValue (Promise : FStateHandle)
  deriving DecidableEq, Repr

/-- The promise captured by a forwarding lambda. -/
def FAggregateForwardLambda.Promise : FAggregateForwardLambda → FStateHandle
  | .EmplaceValue Promise => Promise
  | .SetValue Promise => Promise

/-- The shared states of the input futures and of the promises of the aggregation. -/
structure FAggregateWorld (FutureType ResultType : Type) where
  Inputs : List (TFutureState FutureType (FAggregateHeadLambda ResultType)) := []
  Promises : List (TFutureState ResultType FAggregateForwardLambda) := []

/-- Result of an input future, `none` while it is not resolved. -/
def FAggregateWorld.InputResult {FutureType ResultType : Type}
    (w : FAggregateWorld FutureType ResultType) (Future : FStateHandle) : Option FutureType :=
  match w.Inputs[Future]? with
  | some State => State.Result
  | none => none

/-- Result of the future of a promise of the aggregation, `none` while it is not resolved. -/
def FAggregateWorld.PromiseResult {FutureType ResultType : Type}
    (w : FAggregateWorld FutureType ResultType) (Future : FStateHandle) : Option ResultType :=
  match w.Promises[Future]? with
  | some State => State.Result
  | none => none

/-- `TPromise<ResultType> Promise;`: a promise with a new shared state. -/
def FAggregateWorld.NewPromise {FutureType ResultType : Type}
    (w : FAggregateWorld FutureType ResultType) :
    FStateHandle × FAggregateWorld FutureType ResultType :=
  (w.Promises.length, { w with Promises := w.Promises ++ [{}] })

/-- `Promise.EmplaceValue(Result)` / `Promise.SetValue(Result)` on a promise of the
aggregation, with a budget of nested calls: the result is stored and the stored lambda,
which fulfils the promise it captured, is called. -/
def FAggregateWorld.EmplaceValueFuel {FutureType ResultType : Type} :
    Nat → FAggregateWorld FutureType ResultType → FStateHandle → ResultType →
      Option (FAggregateWorld FutureType ResultType)
  | 0, _, _, _ => none
  | Fuel + 1, w, Promise, Result =>
    match w.Promises[Promise]? with
    | none => none
    | some State =>
      match State.Result with
      | some _ => none
      | none =>
        let w1 : FAggregateWorld FutureType ResultType :=
          { w with Promises := w.Promises.set Promise { Result := some Result } }
        match State.CompletionCallback with
        | none => some w1
        | some Lambda => FAggregateWorld.EmplaceValueFuel Fuel w1 Lambda.Promise Result

/-- `Promise.EmplaceValue(Result)`: every nested call completes another shared state, so
one call per state, and one more, is a budget that suffices. -/
def FAggregateWorld.EmplaceValue {FutureType ResultType : Type}
    (w : FAggregateWorld FutureType ResultType) (Promise : FStateHandle) (Result : ResultType) :
    Option (FAggregateWorld FutureType ResultType) :=
  FAggregateWorld.EmplaceValueFuel (w.Promises.length + 1) w Promise Result

/-- `Future.Next(Lambda)` on the future of a promise of the aggregation. -/
def FAggregateWorld.NextForward {FutureType ResultType : Type}
    (w : FAggregateWorld FutureType ResultType) (Future : FStateHandle)
    (Lambda : FAggregateForwardLambda) : Option (FAggregateWorld FutureType ResultType) :=
  match w.Promises[Future]? with
  | none => none
  | some State =>
    match State.Result with
    | some Result => w.EmplaceValue Lambda.Promise Result
    | none =>
      some { w with
        Promises := w.Promises.set Future { State with CompletionCallback := some Lambda } }

/-- `AggregateFuturesPrivate::DoAggregateFutures(Futures, Initial, AggregateFunc)`: returns
`AggregatedFuture`. For a non-empty view `Head.Next(lambda)` either stores the lambda or, when
`Head` is resolved, runs it at once: the lambda calls `DoAggregateFutures` for the tail with
`AggregateFunc(Initial, FutureResult)` and registers the forwarding lambda on the result. -/
def DoAggregateFutures {FutureType ResultType : Type}
    (AggregateFunc : ResultType → FutureType → ResultType) :
    List FStateHandle → ResultType → FAggregateWorld FutureType ResultType →
      Option (FStateHandle × FAggregateWorld FutureType ResultType)
  | [], Initial, w =>
    let (Promise, w1) := w.NewPromise
    (w1.EmplaceValue Promise Initial).map (fun w2 => (Promise, w2))
  | Head :: Tail, Initial, w =>
    let (Promise, w1) := w.NewPromise
    match w1.Inputs[Head]? with
    | none => none
    | some State =>
      match State.Result with
      | none =>
        some (Promise,
          { w1 with
            Inputs := w1.Inputs.set Head
              { State with
                CompletionCallback :=
                  some { Tail := Tail, Promise := Promise, Initial := Initial } } })
      | some FutureResult =>
        match DoAggregateFutures AggregateFunc Tail (AggregateFunc Initial FutureResult) w1 with
        | none => none
        | some (Future, w2) =>
          (w2.NextForward Future (.EmplaceValue Promise)).map (fun w3 => (Promise, w3))

/-- The call of the lambda that `DoAggregateFutures` registered on `Head`. -/
def FAggregateHeadLambda.Invoke {FutureType ResultType : Type}
    (AggregateFunc : ResultType → FutureType → ResultType)
    (Lambda : FAggregateHeadLambda ResultType) (FutureResult : FutureType)
    (w : FAggregateWorld FutureType ResultType) :
    Option (FAggregateWorld FutureType ResultType) :=
  match DoAggregateFutures AggregateFunc Lambda.Tail
      (AggregateFunc Lambda.Initial FutureResult) w with
  | none => none
  | some (Future, w1) => w1.NextForward Future (.EmplaceValue Lambda.Promise)

/-- `AggregateFutures(Futures, Initial, AggregateFunc)`: returns `AggregatedFuture`. -/
def AggregateFutures {FutureType ResultType : Type}
    (AggregateFunc : ResultType → FutureType → ResultType) (Futures : List FStateHandle)
    (Initial : ResultType) (w : FAggregateWorld FutureType ResultType) :
    Option (FStateHandle × FAggregateWorld FutureType ResultType) :=
  let (Promise, w1) := w.NewPromise
  match DoAggregateFutures AggregateFunc Futures Initial w1 with
  | none => none
  | some (Future, w2) =>
    (w2.NextForward Future (.SetValue Promise)).map (fun w3 => (Promise, w3))

/-- The promise of an input future is fulfilled with `FutureResult`
(`TPromise::EmplaceValue`): `check(!IsComplete())`, the result is stored and the stored
lambda is called. -/
def FAggregateWorld.ResolveInput {FutureType ResultType : Type}
    (AggregateFunc : ResultType → FutureType → ResultType)
    (w : FAggregateWorld FutureType ResultType) (Input : FStateHandle)
    (FutureResult : FutureType) : Option (FAggregateWorld FutureType ResultType) :=
  match w.Inputs[Input]? with
  | none => none
  | some State =>
    match State.Result with
    | some _ => none
    | none =>
      let w1 : FAggregateWorld FutureType ResultType :=
        { w with Inputs := w.Inputs.set Input { Result := some FutureResult } }
      match State.CompletionCallback with
      | none => some w1
      | some Lambda => Lambda.Invoke AggregateFunc FutureResult w1

/-- The promises of the input futures are fulfilled in the order of `Events`. -/
def FAggregateWorld.ResolveInputs {FutureType ResultType : Type}
    (AggregateFunc : ResultType → FutureType → ResultType)
    (w : FAggregateWorld FutureType ResultType) (Events : List (FStateHandle × FutureType)) :
    Option (FAggregateWorld FutureType ResultType) :=
  Events.foldlM (fun w' e => w'.ResolveInput AggregateFunc e.1 e.2) w

/-- The fold of the results of the futures `Futures`, in the order of the list, from the
accumulator `Initial`; `none` when one of the futures is not resolved. -/
def FAggregateWorld.FoldResults {FutureType ResultType : Type}
    (AggregateFunc : ResultType → FutureType → ResultType)
    (w : FAggregateWorld FutureType ResultType) :
    List FStateHandle → ResultType → Option ResultType
  | [], Initial => some Initial
  | Future :: Rest, Initial =>
    match w.InputResult Future with
    | none => none
    | some FutureResult => FAggregateWorld.FoldResults AggregateFunc w Rest
        (AggregateFunc Initial FutureResult)

/-- No continuation waits on an input future, except on `Waiting`. -/
def FAggregateWorld.NoCallbackExcept {FutureType ResultType : Type}
    (w : FAggregateWorld FutureType ResultType) (Waiting : Option FStateHandle) : Prop :=
  ∀ i State, some i ≠ Waiting → w.Inputs[i]? = some State → State.CompletionCallback = none

/-- The aggregation of `Futures` into the promise `Agg` waits for the future `f`:
`Futures = Pre ++ f :: Post`, the futures of `Pre` are resolved and folded into `acc`, the
lambda with the captures `Post`, `Agg + 1 + Pre.length` and `acc` waits on `f`, no
continuation waits on another input, and the promises `Agg + 1 + j` forward to `Agg + j`. -/
def FAggregateWorld.IsWaiting {FutureType ResultType : Type}
    (AggregateFunc : ResultType → FutureType → ResultType) (Futures : List FStateHandle)
    (Initial : ResultType) (Agg : Nat) (w : FAggregateWorld FutureType ResultType) : Prop :=
  ∃ (Pre : List FStateHandle) (f : Nat) (Post : List FStateHandle) (acc : ResultType),
    Futures = Pre ++ f :: Post
    ∧ w.FoldResults AggregateFunc Pre Initial = some acc
    ∧ (∃ State, w.Inputs[f]? = some State ∧ State.Result = none
        ∧ State.CompletionCallback
            = some { Tail := Post, Promise := Agg + 1 + Pre.length, Initial := acc })
    ∧ w.NoCallbackExcept (some f)
    ∧ w.Promises.length = Agg + Pre.length + 2
    ∧ (∃ State, w.Promises[Agg]? = some State ∧ State.Result = none
        ∧ State.CompletionCallback = none)
    ∧ (∃ State, w.Promises[Agg + 1]? = some State ∧ State.Result = none
        ∧ State.CompletionCallback = some (.SetValue Agg))
    ∧ ∀ j, 1 ≤ j → j ≤ Pre.length →
        ∃ State, w.Promises[Agg + 1 + j]? = some State ∧ State.Result = none
          ∧ State.CompletionCallback = some (.EmplaceValue (Agg + j))

/-- The aggregation of `Futures` into the promise `Agg` is done: every future of `Futures`
is resolved, `Agg` holds the fold of their results, and no continuation waits on an input. -/
def FAggregateWorld.IsDone {FutureType ResultType : Type}
    (AggregateFunc : ResultType → FutureType → ResultType) (Futures : List FStateHandle)
    (Initial : ResultType) (Agg : Nat) (w : FAggregateWorld FutureType ResultType) : Prop :=
  ∃ v, w.FoldResults AggregateFunc Futures Initial = some v
    ∧ w.PromiseResult Agg = some v
    ∧ w.NoCallbackExcept none

/-- The result of a scoped promise seen by its future: the value when it was fulfilled
(`some`), `PromiseCanceled` when it was dropped (`none`). -/
def ScopedPromiseResult {T : Type} : Option T → TCancelableFutureResult T
  | some Value => .ok Value
  | none => .error PromiseCanceled

/-- `NumInputs` input futures that are not resolved, and no promise of an aggregation. -/
def ExampleInputs (FutureType ResultType : Type) (NumInputs : Nat) :
    FAggregateWorld FutureType ResultType :=
  { Inputs := List.replicate NumInputs {} }

end Zkz

namespace Zkz

/-- The fold function of the test `AggregateFuturesCanUseScopedPromise`:
`Sum + Result.GetValueOr(-1)`. -/
def ExampleSum (Sum : Int) (Result : TCancelableFutureResult Int) : Int :=
  Sum + TResult.GetValueOr Result (-1)

/-- The futures of ten scoped promises of which those with an odd index were fulfilled with
their index. -/
def ExampleScopedInputs : FAggregateWorld (TCancelableFutureResult Int) Int :=
  { Inputs := [{}, { Result := some (.ok 1) }, {}, { Result := some (.ok 3) }, {},
      { Result := some (.ok 5) }, {}, { Result := some (.ok 7) }, {},
      { Result := some (.ok 9) }] }

/-- The scoped promises with an even index are dropped, last first. -/
def ExampleDrops : List (FStateHandle × TCancelableFutureResult Int) :=
  [(8, ScopedPromiseResult none), (6, ScopedPromiseResult none), (4, ScopedPromiseResult none),
    (2, ScopedPromiseResult none), (0, ScopedPromiseResult none)]

end Zkz

/-!
Scoped assignment (`Zakazane/RAII.h`: `TScopedAssignment`)

Conventions of the embedding

* The variables that an assignment can refer to are the list `Variables`; a reference or a
  non-null pointer to a variable is its index, the null pointer is `none`.
* The assignment objects of the program are the list `Objects`, in order of construction; an
  object that was destroyed is `none`. The by-value parameter of `operator=` is an object of
  its own, constructed when the operator is called and destroyed when it returns.
* `MovedFrom` is the value in which `MoveTemp` leaves a value of type `T` (the identity for
  `int`).
* An operation returns `none` when it uses a variable that does not exist or an object that
  is not alive.
-/

namespace Zkz

/-- The members of `TScopedAssignment<T>`: `T* Target` and `T Value`. -/
structure TScopedAssignment (T : Type) where
  Target : Option Nat
  Value : T

/-- The variables and the assignment objects of a program. -/
structure FAssignmentWorld (T : Type) where
  Variables : List T := []
  Objects : List (Option (TScopedAssignment T)) := []

/-- The assignment object `Object`, when it is alive. -/
def FAssignmentWorld.Object {T : Type} (w : FAssignmentWorld T) (Object : Nat) :
    Option (TScopedAssignment T) :=
  match w.Objects[Object]? with
  | some (some Assignment) => some Assignment
  | _ => none

/-- `TScopedAssignment(T& InTarget, T NewValue)`: `Value` is initialised from the target,
then the target is assigned `NewValue`. Returns the new object. -/
def TScopedAssignment.Construct {T : Type} (w : FAssignmentWorld T) (InTarget : Nat)
    (NewValue : T) : Option (Nat × FAssignmentWorld T) :=
  match w.Variables[InTarget]? with
  | none => none
  | some Original =>
    some (w.Objects.length,
      { Variables := w.Variables.set InTarget NewValue
        Objects := w.Objects ++ [some { Target := some InTarget, Value := Original }] })

/-- `~TScopedAssignment()`: returns at once when `Target` is null, otherwise swaps the
target with `Value`; then the object is gone. -/
def TScopedAssignment.Destruct {T : Type} (w : FAssignmentWorld T) (This : Nat) :
    Option (FAssignmentWorld T) :=
  match w.Object This with
  | none => none
  | some Assignment =>
    match Assignment.Target with
    | none => some { w with Objects := w.Objects.set This none }
    | some Target =>
      some { Variables := w.Variables.set Target Assignment.Value
             Objects := w.Objects.set This none }

/-- `TScopedAssignment(TScopedAssignment&& Other)`: takes `Target` and `Value` of `Other`
and sets `Other.Target` to null. Returns the new object. -/
def TScopedAssignment.MoveConstruct {T : Type} (MovedFrom : T → T) (w : FAssignmentWorld T)
    (Other : Nat) : Option (Nat × FAssignmentWorld T) :=
  match w.Object Other with
  | none => none
  | some Assignment =>
    some (w.Objects.length,
      { w with Objects :=
          (w.Objects.set Other (some { Target := none, Value := MovedFrom Assignment.Value }))
            ++ [some { Target := Assignment.Target, Value := Assignment.Value }] })

/-- `Swap(TScopedAssignment<T>& Lhs, TScopedAssignment<T>& Rhs)`: swaps the targets and the
values. -/
def TScopedAssignment.Swap {T : Type} (w : FAssignmentWorld T) (Lhs Rhs : Nat) :
    Option (FAssignmentWorld T) :=
  match w.Object Lhs, w.Object Rhs with
  | some L, some R =>
    some { w with Objects := (w.Objects.set Lhs (some R)).set Rhs (some L) }
  | _, _ => none

/-- `operator=(TScopedAssignment Other)`: the parameter is move-constructed from the
argument, swapped with `*this` and destroyed when the operator returns. -/
def TScopedAssignment.MoveAssign {T : Type} (MovedFrom : T → T) (w : FAssignmentWorld T)
    (This Other : Nat) : Option (FAssignmentWorld T) :=
  match w.Object This with
  | none => none
  | some _ =>
    match TScopedAssignment.MoveConstruct MovedFrom w Other with
    | none => none
    | some (Parameter, w1) =>
      match TScopedAssignment.Swap w1 This Parameter with
      | none => none
      | some w2 => TScopedAssignment.Destruct w2 Parameter

/-- The operations of a program on scoped assignments. -/
inductive FAssignmentOp (T : Type) where
  | Construct (InTarget : Nat) (NewValue : T)
  | MoveConstruct (Other : Nat)
  | MoveAssign (This Other : Nat)
  | Destruct (This : Nat)

/-- One operation of the program. -/
def FAssignmentWorld.Apply {T : Type} (MovedFrom : T → T) (w : FAssignmentWorld T) :
    FAssignmentOp T → Option (FAssignmentWorld T)
  | .Construct InTarget NewValue =>
    (TScopedAssignment.Construct w InTarget NewValue).map (fun r => r.2)
  | .MoveConstruct Other => (TScopedAssignment.MoveConstruct MovedFrom w Other).map (fun r => r.2)
  | .MoveAssign This Other => TScopedAssignment.MoveAssign MovedFrom w This Other
  | .Destruct This => TScopedAssignment.Destruct w This

/-- The operations `Ops` in order, from the world `w`. -/
def FAssignmentWorld.Run {T : Type} (MovedFrom : T → T) (w : FAssignmentWorld T)
    (Ops : List (FAssignmentOp T)) : Option (FAssignmentWorld T) :=
  Ops.foldlM (FAssignmentWorld.Apply MovedFrom) w

/-- The object that holds the assignment of `Holder` after one operation: the object that
was move-constructed from `Holder` or that `Holder` was move-assigned to. -/
def FAssignmentOp.Holder {T : Type} (w : FAssignmentWorld T) (Holder : Nat) :
    FAssignmentOp T → Nat
  | .MoveConstruct Other => if Other = Holder then w.Objects.length else Holder
  | .MoveAssign This Other => if Other = Holder then This else Holder
  | _ => Holder

/-- The operation leaves alone the assignment to `Target` that `Holder` holds: it
constructs no other assignment to `Target`, does not destroy `Holder` and does not
move-assign another object to `Holder`. -/
def FAssignmentOp.Keeps {T : Type} (Target Holder : Nat) : FAssignmentOp T → Bool
  | .Construct InTarget _ => decide (InTarget ≠ Target)
  | .MoveConstruct _ => true
  | .MoveAssign This Other => decide (This = Holder → Other = Holder)
  | .Destruct This => decide (This ≠ Holder)

/-- The object that holds the assignment of `Holder` after the operations `Ops`, when all of
them leave the assignment to `Target` alone and can be carried out (`none` otherwise). -/
def FAssignmentWorld.HolderAfter {T : Type} (MovedFrom : T → T) (Target : Nat) :
    FAssignmentWorld T → Nat → List (FAssignmentOp T) → Option (Nat × FAssignmentWorld T)
  | w, Holder, [] => some (Holder, w)
  | w, Holder, Op :: Ops =>
    if Op.Keeps Target Holder then
      match w.Apply MovedFrom Op with
      | none => none
      | some w1 => FAssignmentWorld.HolderAfter MovedFrom Target w1 (Op.Holder w Holder) Ops
    else none

/-- No operation of `Ops` constructs an assignment to `Target`. -/
def ConstructsNoAssignmentTo {T : Type} (Target : Nat) (Ops : List (FAssignmentOp T)) : Prop :=
  ∀ InTarget NewValue, FAssignmentOp.Construct InTarget NewValue ∈ Ops → InTarget ≠ Target

/-- No live object of `w` has the target `Target`. -/
def FAssignmentWorld.NoAssignmentTo {T : Type} (w : FAssignmentWorld T) (Target : Nat) : Prop :=
  ∀ Object Assignment, w.Object Object = some Assignment → Assignment.Target ≠ some Target

/-- The object `Holder` holds the assignment that replaced `Original` by `NewValue` in the
variable `Target`, and no other live object has that target. -/
structure FAssignmentWorld.IsHeldBy {T : Type} (w : FAssignmentWorld T) (Target Holder : Nat)
    (Original NewValue : T) : Prop where
  holder : w.Object Holder = some { Target := some Target, Value := Original }
  others : ∀ o a, o ≠ Holder → w.Object o = some a → a.Target ≠ some Target
  target : w.Variables[Target]? = some NewValue

/-- The variable `Target` holds `Value` and no live object has that target. -/
structure FAssignmentWorld.IsRestored {T : Type} (w : FAssignmentWorld T) (Target : Nat)
    (Value : T) : Prop where
  free : w.NoAssignmentTo Target
  target : w.Variables[Target]? = some Value

/-- The test `ScopedAssignmentIsMoveable` (`RAIITest.cpp`): `InnerAssignment` is moved to
`Assignment` and destroyed. -/
def ExampleMoveOps : List (FAssignmentOp Int) := [.MoveConstruct 0, .Destruct 0]

end Zkz

/-!
The calls of the cycle search (`Zakazane/StagedExecution/Inspection.h`:
`Private::CheckDependencyCycle`)

`CheckDependencyCycleCallsFuel` is `CheckDependencyCycleFuel` with one more result: the
contents of `Cycle` on entry of every call of `CheckDependencyCycle` that is made, the outer
call first and the nested calls in the order in which they are made.
-/

namespace Zkz.StagedExecution

/-- The `for` loop of `Private::CheckDependencyCycle`, with the stacks on entry of the
nested calls. `Recurse` is the recursive call. -/
def CheckDependencyCycleLoopCalls (Recurse : FCycle → Option ((Bool × FCycle) × List FCycle)) :
    List IdType → FCycle → Option ((Bool × FCycle) × List FCycle)
  | [], Cycle => some ((false, Cycle), [])
  | PrerequisiteId :: Rest, Cycle =>
    if PrerequisiteId ∈ Cycle then
      some ((true, Cycle ++ [PrerequisiteId]), [])
    else
      match Recurse (Cycle ++ [PrerequisiteId]) with
      | none => none
      | some ((true, Cycle'), Calls) => some ((true, Cycle'), Calls)
      | some ((false, Cycle'), Calls) =>
        match CheckDependencyCycleLoopCalls Recurse Rest Cycle'.dropLast with
        | none => none
        | some (Result, MoreCalls) => some (Result, Calls ++ MoreCalls)

/-- `Private::CheckDependencyCycle` with an explicit recursion budget, with the stacks on
entry of all calls (`none` = budget exhausted). -/
def CheckDependencyCycleCallsFuel (PrerequisitesByStageId : FPrerequisitesByStageId) :
    Nat → FCycle → Option ((Bool × FCycle) × List FCycle)
  | 0, _ => none
  | Fuel + 1, Cycle =>
    match Cycle.getLast? with
    | none => some ((false, Cycle), [Cycle])
    | some Last =>
      match PrerequisitesByStageId.Find Last with
      | none => some ((false, Cycle), [Cycle])
      | some PrerequisiteIds =>
        match CheckDependencyCycleLoopCalls
            (CheckDependencyCycleCallsFuel PrerequisitesByStageId Fuel) PrerequisiteIds Cycle with
        | none => none
        | some (Result, Calls) => some (Result, Cycle :: Calls)

/-- The stacks on entry of the calls of `CheckDependencyCycle` that the call with the stack
`Cycle` makes, itself included. -/
def CheckDependencyCycleCalls (Cycle : FCycle) (PrerequisitesByStageId : FPrerequisitesByStageId) :
    List FCycle :=
  match CheckDependencyCycleCallsFuel PrerequisitesByStageId
      (CheckDependencyCycleBudget PrerequisitesByStageId) Cycle with
  | none => []
  | some (_, Calls) => Calls

/-- The distinct ids that occur in the map, as a key or as a prerequisite. -/
def FPrerequisitesByStageId.Ids (M : FPrerequisitesByStageId) : List IdType :=
  (M.map Prod.fst ++ (M.map Prod.snd).flatten).dedup

/-- The stack `Stack` is the stack `Cycle` followed by pairwise distinct ids of the map that
are not on `Cycle`: it was reached from `Cycle` by pushing, each time, an id that was not on
the stack. `Stack.length - Cycle.length` is the depth of the call that is entered with
`Stack` below the call that was entered with `Cycle`. -/
def IsPushedFrom (M : FPrerequisitesByStageId) (Cycle Stack : FCycle) : Prop :=
  ∃ Pushed : List IdType, Stack = Cycle ++ Pushed ∧ Pushed.Nodup ∧
    ∀ x ∈ Pushed, x ∉ Cycle ∧ x ∈ M.Ids

/-- A map with a self-loop (1 → 1) and a cycle (2 → 3 → 2). -/
def ExampleCyclicMap : FPrerequisitesByStageId := [(1, [1]), (2, [3, 1]), (3, [2])]

end Zkz.StagedExecution

/-!
The configurations of the scheduler

A configuration is the list of the calls observed so far, the stack of the calls that are
pending inside the running operation and the state. `IsReached` holds of the
configurations that the scheduler goes through: between the operations of a client (no
call pending) and inside an operation, after each pending call.
-/

namespace Zkz.StagedExecution

/-- The configurations that the scheduler goes through from the start: a public operation
starts when no call is pending and leaves the calls it has made; `Step` runs the innermost
pending call. The client fulfils or destroys only task completion promises that it
holds. -/
inductive IsReached (GPerformInspections : Bool) : FLog → List FCall → TScheduler → Prop
  | Start : IsReached GPerformInspections [] [] {}
  | Step (Log : FLog) (Call : FCall) (Rest : List FCall) (s : TScheduler) :
    IsReached GPerformInspections Log (Call :: Rest) s →
    IsReached GPerformInspections Log ((StepCall GPerformInspections s Call).2 ++ Rest)
      (StepCall GPerformInspections s Call).1
  | AddStage (Log : FLog) (s : TScheduler) (StageId : IdType) (Prerequisites : List IdType) :
    IsReached GPerformInspections Log [] s →
    IsReached GPerformInspections
      (Log ++ [.AddStage StageId Prerequisites
        (s.AddStageCalls GPerformInspections StageId Prerequisites).1])
      (s.AddStageCalls GPerformInspections StageId Prerequisites).2.2
      (s.AddStageCalls GPerformInspections StageId Prerequisites).2.1
  | AddTaskToStage (Log : FLog) (s : TScheduler) (StageId TaskId : IdType) :
    IsReached GPerformInspections Log [] s →
    IsReached GPerformInspections
      (Log ++ [.AddTaskToStage StageId TaskId (s.AddTaskToStage StageId TaskId).1]) []
      (s.AddTaskToStage StageId TaskId).2
  | SetAllTasksAdded (Log : FLog) (s : TScheduler) (StageId : IdType) :
    IsReached GPerformInspections Log [] s →
    IsReached GPerformInspections (Log ++ [.SetAllTasksAdded StageId])
      (StageState_SetAllTasksAdded (s.FindOrAddStage StageId) StageId).2
      (StageState_SetAllTasksAdded (s.FindOrAddStage StageId) StageId).1
  | FulfilTaskCompletion (Log : FLog) (s : TScheduler) (Promise : FFutureHandle) :
    IsReached GPerformInspections Log [] s →
    s.HoldsTaskCompletionPromise Promise = true →
    IsReached GPerformInspections Log [.EmplaceValue Promise] s
  | DropTaskCompletion (Log : FLog) (s : TScheduler) (Promise : FFutureHandle) :
    IsReached GPerformInspections Log [] s →
    s.HoldsTaskCompletionPromise Promise = true →
    IsReached GPerformInspections Log [.Cancel Promise] s

/-- The execution promises of the pending tasks are shared states of their own that are not
resolved: each of them can be fulfilled once. -/
def IsReleasable (s : TScheduler) (Tasks : List FPendingTaskEntry) : Prop :=
  (∀ t, t ∈ Tasks → t.ExecutionPromise < s.Futures.length ∧ s.Result t.ExecutionPromise = none) ∧
  (Tasks.map (fun t => t.ExecutionPromise)).Nodup

/-- A task is added to stage `1`, then the stage is added without prerequisites. -/
def ExampleTaskBeforeStage : List FEvent :=
  [.AddTaskToStage 1 5, .AddStage 1 []]

/-- A task is added to stage `2`, then the stage is added with the prerequisite `1`, which
is never added: the task stays pending. -/
def ExampleWaitingTask : List FEvent :=
  [.AddTaskToStage 2 5, .AddStage 2 [1]]

end Zkz.StagedExecution

/-!
A stage whose chain of prerequisites was cut

The scheduler never cancels a stage completion promise, so a prerequisite future that
resolves as cancelled is a fault that comes from outside: the promise was destroyed
unfulfilled (`DestroyPromise`). `IsStuck` describes the scheduler after such a fault: the
stage is defined, nothing will call `StartExecutingWhenPrerequisitesComplete` for it any
more, and nobody else refers to the promises that the stage holds.
-/

namespace Zkz.StagedExecution

/-- The stage state without `Promise` in its array `StageCompletionPromises`. -/
def TStageState.RemovePromise (Promise : FFutureHandle) : TStageState → TStageState
  | .Undefined Pending => .Undefined { Pending with
      StageCompletionPromises :=
        Pending.StageCompletionPromises.filter (fun Queued => decide (Queued ≠ Promise)) }
  | .Defined Pending FuturePrerequisiteCompletions => .Defined { Pending with
      StageCompletionPromises :=
        Pending.StageCompletionPromises.filter (fun Queued => decide (Queued ≠ Promise)) }
      FuturePrerequisiteCompletions
  | .Executing Id bAllTasksCollected Tasks StageCompletionPromises =>
    .Executing Id bAllTasksCollected Tasks
      (StageCompletionPromises.filter (fun Queued => decide (Queued ≠ Promise)))
  | .Completed Id => .Completed Id

/-- The scheduler without `Promise` in the arrays `StageCompletionPromises` of its stage
states. -/
def TScheduler.RemovePromise (s : TScheduler) (Promise : FFutureHandle) : TScheduler :=
  { s with Stages := s.Stages.map (TStageState.RemovePromise Promise) }

/-- The promises that a stage state holds and fulfils itself: the execution promises of the
pending tasks and the queued stage completion promises. -/
def TStageState.HeldPromises : TStageState → List FFutureHandle
  | .Undefined Pending =>
    Pending.Tasks.map (fun t => t.ExecutionPromise) ++ Pending.StageCompletionPromises
  | .Defined Pending _ =>
    Pending.Tasks.map (fun t => t.ExecutionPromise) ++ Pending.StageCompletionPromises
  | .Executing _ _ _ StageCompletionPromises => StageCompletionPromises
  | .Completed _ => []

/-- The promises that stage `X` holds. -/
def TScheduler.HeldBy (s : TScheduler) (X : IdType) : List FFutureHandle :=
  match s.Find X with
  | some State => State.HeldPromises
  | none => []

end Zkz.StagedExecution

/-!
No promise is fulfilled twice

`TScopedPromise::EmplaceValue` has no guard: fulfilling a promise that is set already fails
the `check` of the engine. `IsFulfilledOnce` is what the scheduler maintains to keep that
from happening to a stage completion promise: a promise is queued at most once in a stage,
and the loops of `TransitionToStageState_Completed` that are running still have to fulfil
distinct promises, all of them unset.
-/

namespace Zkz.StagedExecution

/-- The promises that the pending calls fulfil, in order. -/
def EmplacedBy : List FCall → List FFutureHandle
  | [] => []
  | .EmplaceValue Promise :: Rest => Promise :: EmplacedBy Rest
  | _ :: Rest => EmplacedBy Rest

/-- No `check` has failed so far, every promise that a pending call fulfils is unset and is
fulfilled by one pending call only, and no stage has queued a stage completion promise
twice. -/
structure IsFulfilledOnce (Calls : List FCall) (s : TScheduler) : Prop where
  check : s.bCheckFailed = false
  pending : ∀ h, h ∈ EmplacedBy Calls → s.Result h = none
  once : (EmplacedBy Calls).Nodup
  queued : ∀ Y, (s.PromisesOf Y).Nodup

end Zkz.StagedExecution

/-!
The two builds of the scheduler side by side

With inspections (`GPerformInspections = true`) `ExecuteAllTasks` creates one more shared
state per task than without, so the handles of the two builds differ. To run the same
client against both builds, the client names a task by its stage and its position among
the tasks added successfully to that stage, and the handle is looked up in the run.
-/

namespace Zkz.StagedExecution

/-- The promise that a pending call resolves. -/
def FCall.Target : FCall → Option FFutureHandle
  | .EmplaceValue Promise => some Promise
  | .Cancel Promise => some Promise
  | .Invoke (.PostNotifyCompletion _ PostNotifyCompletionPromise) =>
    some PostNotifyCompletionPromise
  | _ => none

/-- The stage whose registry entry a pending call works on. -/
def FCall.Stage : FCall → Option IdType
  | .Invoke (.StartExecutingWhenPrerequisitesComplete StageId) => some StageId
  | .Invoke (.CompleteWhenTasksFinished StageId) => some StageId
  | .Transition_Completed StageId => some StageId
  | _ => none

/-- What one pending call `c` does to the registry and the heap, from `s` to `s'`, and
which calls `Calls'` it makes: resolved futures stay as they are; the call resolves only
its target and execution promises of pending tasks of its stage; the shared states that it
creates are unresolved, and an execution promise is fulfilled only with one of them; only
the registry entry of its stage changes, and only the closing transition completes a
stage; the closing transition is pushed only by the drain, or by the chain when no
prerequisite future is left; a promise that will be fulfilled is queued in a stage and a
promise that will be cancelled is owned by a continuation. -/
structure IsStepFootprint (s s' : TScheduler) (c : FCall) (Calls' : List FCall) : Prop where
  length : s.Futures.length ≤ s'.Futures.length
  results : ∀ h r, s.Result h = some r → s'.Result h = some r
  resolved : ∀ h, s'.Result h ≠ s.Result h →
    c.Target = some h ∨ ∃ Y, c.Stage = some Y ∧ h ∈ s.HeldBy Y
  fresh : ∀ h, s.Futures.length ≤ h → s'.Result h = none
  payloads : ∀ he hc, s'.Result he = some (.Value (some hc)) →
    s.Result he = some (.Value (some hc)) ∨ s.Futures.length ≤ hc
  stages : ∀ Y, c.Stage ≠ some Y → s'.Find Y = s.Find Y
  completed : ∀ Y, s'.GetId Y = .Completed →
    s.GetId Y = .Completed ∨ c = .Transition_Completed Y
  closing : ∀ Y, FCall.Transition_Completed Y ∈ Calls' →
    c = .Invoke (.CompleteWhenTasksFinished Y) ∨
      (c = .Invoke (.StartExecutingWhenPrerequisitesComplete Y) ∧
        ∃ Pending, s.Find Y = some (.Defined Pending []))
  emplaced : ∀ h, FCall.EmplaceValue h ∈ Calls' → ∃ Y, h ∈ s.PromisesOf Y
  cancelled : ∀ h, FCall.Cancel h ∈ Calls' →
    ∃ Cell T, s.CompletionCallback Cell = some (.PostNotifyCompletion T h)

/-- What a client of the scheduler does, without handles: `FulfilTask X j` fulfils and
`DropTask X j` destroys the task completion promise of the `j`-th task that was added
successfully to stage `X`. -/
inductive FClientEvent where
  | AddStage (StageId : IdType) (Prerequisites : List IdType)
  | AddTaskToStage (StageId TaskId : IdType)
  | SetAllTasksAdded (StageId : IdType)
  | AddTask (TaskId : IdType) (Prerequisites : List IdType)
  | FulfilTask (StageId : IdType) (Index : Nat)
  | DropTask (StageId : IdType) (Index : Nat)
  deriving DecidableEq, Repr

/-- The task completion promise that the client received for the `Index`-th task added to
stage `StageId`: the value of its task execution future, once that is resolved. -/
def FRun.TaskCompletionPromise (r : FRun) (StageId : IdType) (Index : Nat) :
    Option FFutureHandle :=
  match (TasksOf r.Observations StageId)[Index]? with
  | some (_, FutureTaskExecution) =>
    match r.Scheduler.Result FutureTaskExecution with
    | some (.Value (some TaskCompletionPromise)) => some TaskCompletionPromise
    | _ => none
  | none => none

/-- The result of the task completion future of the task behind a task execution future;
`none` when the task was not released or has not finished. -/
def TScheduler.CompletionResult (s : TScheduler) (FutureTaskExecution : FFutureHandle) :
    Option FCancelableResult :=
  match s.Result FutureTaskExecution with
  | some (.Value (some TaskCompletionPromise)) => s.Result TaskCompletionPromise
  | _ => none

/-- The result of the task completion future of the `Index`-th task added to stage
`StageId`; `none` when the task was not released or has not finished. -/
def FRun.TaskCompletionResult (r : FRun) (StageId : IdType) (Index : Nat) :
    Option FCancelableResult :=
  match (TasksOf r.Observations StageId)[Index]? with
  | some (_, FutureTaskExecution) => r.Scheduler.CompletionResult FutureTaskExecution
  | none => none

/-- The `Index`-th task added to stage `StageId` was released: its task execution future
is resolved with a task completion promise. -/
def FRun.IsTaskReleased (r : FRun) (StageId : IdType) (Index : Nat) : Prop :=
  ∃ TaskId FutureTaskExecution,
    (TasksOf r.Observations StageId)[Index]? = some (TaskId, FutureTaskExecution) ∧
      r.Scheduler.IsReleased FutureTaskExecution

/-- The event of the run `r` that a client event stands for; `none` when the client has
not received the task completion promise. -/
def FClientEvent.ToEvent (r : FRun) : FClientEvent → Option FEvent
  | .AddStage StageId Prerequisites => some (.AddStage StageId Prerequisites)
  | .AddTaskToStage StageId TaskId => some (.AddTaskToStage StageId TaskId)
  | .SetAllTasksAdded StageId => some (.SetAllTasksAdded StageId)
  | .AddTask TaskId Prerequisites => some (.AddTask TaskId Prerequisites)
  | .FulfilTask StageId Index =>
    (r.TaskCompletionPromise StageId Index).map FEvent.FulfilTaskCompletion
  | .DropTask StageId Index =>
    (r.TaskCompletionPromise StageId Index).map FEvent.DropTaskCompletion

/-- One client event of a run; `none` when an assertion (`check`) of the scheduler fails. -/
def ApplyClientEvent (GPerformInspections : Bool) (r : FRun) (e : FClientEvent) :
    Option FRun :=
  match e.ToEvent r with
  | some Event => ApplyEvent GPerformInspections r Event
  | none => some r

/-- The run of a sequence of client events on a fresh scheduler. -/
def ExecClient (GPerformInspections : Bool) (Events : List FClientEvent) : Option FRun :=
  Events.foldlM (ApplyClientEvent GPerformInspections) {}

/-- A call of a public operation and what it returned, without the handle of the future
that a successful `AddTaskToStage` returns. -/
inductive FErasedObservation where
  | AddStage (StageId : IdType) (Prerequisites : List IdType) (Result : TAddStageResult)
  | AddTaskToStage (StageId TaskId : IdType) (Result : Except TAllTasksCollectedError Unit)
  | SetAllTasksAdded (StageId : IdType)
  deriving DecidableEq, Repr

/-- An observation without the handle. -/
def FObservation.Erase : FObservation → FErasedObservation
  | .AddStage StageId Prerequisites Result => .AddStage StageId Prerequisites Result
  | .AddTaskToStage StageId TaskId Result =>
    .AddTaskToStage StageId TaskId (Result.map fun _ => ())
  | .SetAllTasksAdded StageId => .SetAllTasksAdded StageId

/-- The observed call makes the scheduler register stage `X`: `AddStage` registers the
prerequisites and, unless it reports a cycle, the stage; the other operations register
their stage. -/
def FObservation.Mentions (X : IdType) : FObservation → Prop
  | .AddStage StageId Prerequisites Result =>
    X ∈ Prerequisites ∨
      (X = StageId ∧ ∀ Cycle, Result ≠ .error (.CircularDependency StageId Prerequisites Cycle))
  | .AddTaskToStage StageId _ _ => X = StageId
  | .SetAllTasksAdded StageId => X = StageId

/-- Some observed call made the scheduler register stage `X`. -/
def IsMentioned (Log : FLog) (X : IdType) : Prop :=
  ∃ o, o ∈ Log ∧ o.Mentions X

/-- No `AddStage` reported a circular dependency. -/
def ReportsNoCycle (Log : FLog) : Prop :=
  ∀ StageId Prerequisites Cycle,
    FObservation.AddStage StageId Prerequisites
      (.error (.CircularDependency StageId Prerequisites Cycle)) ∉ Log

/-- Stage `X` is complete by the calls observed and the tasks that have finished: it was
added with prerequisites that are complete, `SetAllTasksAdded` was called for it and all
tasks added to it have finished. -/
inductive IsCompleteInd (Log : FLog) (s : TScheduler) : IdType → Prop
  | intro (X : IdType) (P : List IdType) :
    IsAddedWith Log X P → (∀ p, p ∈ P → IsCompleteInd Log s p) → IsCollected Log X →
    (∀ j, j < (TasksOf Log X).length → FinishedOK Log s X j) → IsCompleteInd Log s X

/-- From `s` to `s'` the scheduler leaves the tasks to the client: a resolved future stays
as it is, and a task execution future that is resolved with a task completion promise
either was so before, and the task completion future is as it was, or was unresolved, and
the task completion future is unresolved. -/
structure IsTaskFrame (s s' : TScheduler) : Prop where
  results : ∀ h r, s.Result h = some r → s'.Result h = some r
  payloads : ∀ he hc, s'.Result he = some (.Value (some hc)) →
    (s.Result he = some (.Value (some hc)) ∧ s'.Result hc = s.Result hc) ∨
      (s.Result he = none ∧ s'.Result hc = none)

/-- What the public operation observed as `o` does from `s` until the first call that it
makes, with the calls `Calls0` pending in `s0`: it leaves the tasks to the client,
completes no stage, registers the stages that `o` mentions, and its calls continue the
chain or the drain of a stage. -/
structure IsOperationStart (o : FObservation) (s s0 : TScheduler) (Calls0 : List FCall) :
    Prop where
  frame : IsTaskFrame s s0
  completed : ∀ Y, s0.GetId Y = .Completed → s.GetId Y = .Completed
  registered : ∀ Y, s0.Find Y = none ↔ (s.Find Y = none ∧ ¬ o.Mentions Y)
  calls : ∀ c, c ∈ Calls0 → c.Target = none ∧ ∀ Y, c ≠ .Transition_Completed Y

/-- What holds of a run between two operations: the invariant of the scheduler, no
promise was fulfilled twice, every completed stage is complete by the calls observed, and
the stages that are registered are those that the calls observed mention. -/
structure IsRunInv (GPerformInspections : Bool) (r : FRun) : Prop where
  inv : ∃ Γ, SchedulerInv GPerformInspections Γ r.Observations [] r.Scheduler
  once : IsFulfilledOnce [] r.Scheduler
  complete : ∀ X, r.Scheduler.GetId X = .Completed →
    IsCompleteInd r.Observations r.Scheduler X
  registered : ∀ Y, r.Scheduler.Find Y = none ↔ ¬ IsMentioned r.Observations Y

/-- The two runs schedule alike: the same calls were observed with the same results, up to
the handles of the futures returned; every stage is in the same state of the state machine
and has the same `allTasksCollected` flag; the same tasks were released; and the task
completion futures of the tasks have the same results. -/
structure IsSameSchedule (q0 q1 : FRun) : Prop where
  observations : q0.Observations.map FObservation.Erase =
    q1.Observations.map FObservation.Erase
  states : ∀ X, q0.Scheduler.GetId X = q1.Scheduler.GetId X
  flags : ∀ X, q0.Scheduler.IsAllTasksCollected X = q1.Scheduler.IsAllTasksCollected X
  released : ∀ X j, q0.IsTaskReleased X j ↔ q1.IsTaskReleased X j
  results : ∀ X j, q0.TaskCompletionResult X j = q1.TaskCompletionResult X j

/-- The run `q0` of the build without inspections and the run `q1` of the build with
inspections are in lockstep: both satisfy what holds of a run, the same calls were
observed with the same results, up to the handles, and the task completion futures of the
tasks have the same results. -/
structure IsLockstep (q0 q1 : FRun) : Prop where
  disabled : IsRunInv false q0
  enabled : IsRunInv true q1
  observations : q0.Observations.map FObservation.Erase =
    q1.Observations.map FObservation.Erase
  results : ∀ X j, q0.TaskCompletionResult X j = q1.TaskCompletionResult X j

/-- A client adds two tasks and a stage with a task, finishes the first task, adds a stage
again, closes the stage, finishes its task, destroys the promise of the second task, and
adds a stage and a task; the future that the last `AddTask` returns has another handle in
the build with inspections than in the build without. -/
def ExampleClientEvents : List FClientEvent :=
  [.AddTask 1 [], .AddTask 3 [1], .AddTaskToStage 2 5, .AddStage 2 [1], .FulfilTask 1 0,
    .AddStage 2 [1], .SetAllTasksAdded 2, .AddTaskToStage 2 6, .FulfilTask 2 0,
    .DropTask 3 0, .AddStage 4 [2, 3], .AddTask 7 []]

/-- The observed call is an `AddStage` that reported a circular dependency. -/
def FObservation.IsCycleReport : FObservation → Bool
  | .AddStage _ _ (.error (.CircularDependency _ _ _)) => true
  | _ => false

end Zkz.StagedExecution

namespace Zkz.StagedExecution

/-! ## Elementary facts about the registry and the heap -/

@[simp] theorem FailCheck_Stages (s : TScheduler) : s.FailCheck.Stages = s.Stages := rfl

@[simp] theorem FailCheck_Futures (s : TScheduler) : s.FailCheck.Futures = s.Futures := rfl

@[simp] theorem FailCheck_PrerequisitesByStageId (s : TScheduler) :
    s.FailCheck.PrerequisitesByStageId = s.PrerequisitesByStageId := rfl

@[simp] theorem FailCheck_bCheckFailed (s : TScheduler) : s.FailCheck.bCheckFailed = true := rfl

/-- A run that has a result after an operation is the run computed, and no `check` failed
in it. -/
theorem Checked_some {r r' : FRun} (h : r.Checked = some r') : some r = some r' := by
  unfold FRun.Checked at h
  split at h
  · cases h
  · exact h

theorem Checked_flag {r r' : FRun} (h : r.Checked = some r') :
    r'.Scheduler.bCheckFailed = false := by
  unfold FRun.Checked at h
  split at h
  · cases h
  · rename_i hb
    cases h
    simpa using hb

theorem Checked_of_flag {r : FRun} (h : r.Scheduler.bCheckFailed = false) :
    r.Checked = some r := by
  unfold FRun.Checked
  rw [h]
  rfl

@[simp] theorem Assign_Futures (s : TScheduler) (X : IdType) (st : TStageState) :
    (s.Assign X st).Futures = s.Futures := rfl

@[simp] theorem Assign_PrerequisitesByStageId (s : TScheduler) (X : IdType) (st : TStageState) :
    (s.Assign X st).PrerequisitesByStageId = s.PrerequisitesByStageId := rfl

@[simp] theorem Assign_Stages (s : TScheduler) (X : IdType) (st : TStageState) :
    (s.Assign X st).Stages = ReplaceStage X st s.Stages := rfl

@[simp] theorem FindOrAddStage_Futures (s : TScheduler) (X : IdType) :
    (s.FindOrAddStage X).Futures = s.Futures := by
  unfold TScheduler.FindOrAddStage
  split <;> rfl

@[simp] theorem FindOrAddStage_PrerequisitesByStageId (s : TScheduler) (X : IdType) :
    (s.FindOrAddStage X).PrerequisitesByStageId = s.PrerequisitesByStageId := by
  unfold TScheduler.FindOrAddStage
  split <;> rfl

@[simp] theorem Transition_Futures (s : TScheduler) (X : IdType) (st : TStageState) :
    (s.Transition X st).Futures = s.Futures := by
  simp [TScheduler.Transition]

@[simp] theorem Transition_PrerequisitesByStageId (s : TScheduler) (X : IdType)
    (st : TStageState) :
    (s.Transition X st).PrerequisitesByStageId = s.PrerequisitesByStageId := by
  simp [TScheduler.Transition]

@[simp] theorem NewPromise_fst (s : TScheduler) (c : FFutureState) :
    (s.NewPromise c).1 = s.Futures.length := rfl

@[simp] theorem NewPromise_Futures (s : TScheduler) (c : FFutureState) :
    (s.NewPromise c).2.Futures = s.Futures ++ [c] := rfl

@[simp] theorem NewPromise_Stages (s : TScheduler) (c : FFutureState) :
    (s.NewPromise c).2.Stages = s.Stages := rfl

@[simp] theorem NewPromise_PrerequisitesByStageId (s : TScheduler) (c : FFutureState) :
    (s.NewPromise c).2.PrerequisitesByStageId = s.PrerequisitesByStageId := rfl

@[simp] theorem SetFuture_Futures (s : TScheduler) (h : FFutureHandle) (c : FFutureState) :
    (s.SetFuture h c).Futures = s.Futures.set h c := rfl

@[simp] theorem SetFuture_Stages (s : TScheduler) (h : FFutureHandle) (c : FFutureState) :
    (s.SetFuture h c).Stages = s.Stages := rfl

@[simp] theorem SetFuture_PrerequisitesByStageId (s : TScheduler) (h : FFutureHandle)
    (c : FFutureState) :
    (s.SetFuture h c).PrerequisitesByStageId = s.PrerequisitesByStageId := rfl

@[simp] theorem SetValue_Stages (s : TScheduler) (h c : FFutureHandle) :
    (SetValue s h c).Stages = s.Stages := by
  unfold SetValue
  split
  · rfl
  · split <;> rfl

@[simp] theorem SetValue_PrerequisitesByStageId (s : TScheduler) (h c : FFutureHandle) :
    (SetValue s h c).PrerequisitesByStageId = s.PrerequisitesByStageId := by
  unfold SetValue
  split
  · rfl
  · split <;> rfl

theorem Find_eq (s : TScheduler) (X : IdType) :
    s.Find X = s.Stages.find? (fun State => State.GetStageId = X) := rfl

theorem GetStageId_of_find {l : List TStageState} {X : IdType} {st : TStageState}
    (h : l.find? (fun State => State.GetStageId = X) = some st) : st.GetStageId = X := by
  have := List.find?_some h
  simpa using this

theorem find_ReplaceStage_same (l : List TStageState) (X : IdType) (st old : TStageState)
    (hst : st.GetStageId = X) (h : l.find? (fun State => State.GetStageId = X) = some old) :
    (ReplaceStage X st l).find? (fun State => State.GetStageId = X) = some st := by
  induction l with
  | nil => simp at h
  | cons e l ih =>
    unfold ReplaceStage
    by_cases he : e.GetStageId = X
    · simp [he, hst]
    · simp only [he, if_false]
      rw [List.find?_cons_of_neg _ (by simpa using he)] at h ⊢
      exact ih h

theorem find_ReplaceStage_other (l : List TStageState) (X Y : IdType) (st : TStageState)
    (hst : st.GetStageId = X) (hXY : Y ≠ X) :
    (ReplaceStage X st l).find? (fun State => State.GetStageId = Y)
      = l.find? (fun State => State.GetStageId = Y) := by
  induction l with
  | nil => rfl
  | cons e l ih =>
    unfold ReplaceStage
    by_cases he : e.GetStageId = X
    · have h1 : ¬ st.GetStageId = Y := by rw [hst]; exact fun h => hXY h.symm
      have h2 : ¬ e.GetStageId = Y := by rw [he]; exact fun h => hXY h.symm
      simp only [he, if_true]
      rw [List.find?_cons_of_neg _ (by simpa using h1), List.find?_cons_of_neg _ (by simpa using h2)]
    · simp only [he, if_false]
      by_cases heY : e.GetStageId = Y
      · rw [List.find?_cons_of_pos _ (by simpa using heY), List.find?_cons_of_pos _ (by simpa using heY)]
      · rw [List.find?_cons_of_neg _ (by simpa using heY), List.find?_cons_of_neg _ (by simpa using heY)]
        exact ih

theorem Find_Assign_same (s : TScheduler) (X : IdType) (st old : TStageState)
    (hst : st.GetStageId = X) (h : s.Find X = some old) : (s.Assign X st).Find X = some st :=
  find_ReplaceStage_same _ _ _ _ hst h

theorem Find_Assign_other (s : TScheduler) (X Y : IdType) (st : TStageState)
    (hst : st.GetStageId = X) (hXY : Y ≠ X) : (s.Assign X st).Find Y = s.Find Y :=
  find_ReplaceStage_other _ _ _ _ hst hXY

theorem Find_FindOrAddStage_same_of_some (s : TScheduler) (X : IdType) (st : TStageState)
    (h : s.Find X = some st) : s.FindOrAddStage X = s := by
  unfold TScheduler.FindOrAddStage
  rw [h]

theorem Find_FindOrAddStage_same_of_none (s : TScheduler) (X : IdType)
    (h : s.Find X = none) :
    (s.FindOrAddStage X).Find X = some (.Undefined { StageId := X }) := by
  unfold TScheduler.FindOrAddStage
  rw [h]
  simp only [Find_eq] at h ⊢
  rw [List.find?_append, h]
  simp [TStageState.GetStageId]

theorem Find_FindOrAddStage_other (s : TScheduler) (X Y : IdType) (hXY : Y ≠ X) :
    (s.FindOrAddStage X).Find Y = s.Find Y := by
  unfold TScheduler.FindOrAddStage
  cases h : s.Find X with
  | some st => rfl
  | none =>
    simp only [Find_eq]
    rw [List.find?_append]
    have : ¬ (TStageState.Undefined { StageId := X }).GetStageId = Y := fun h => hXY h.symm
    simp [this]

theorem Find_FindOrAddStage_isSome (s : TScheduler) (X : IdType) :
    ∃ st, (s.FindOrAddStage X).Find X = some st := by
  cases h : s.Find X with
  | some st => exact ⟨st, by rw [Find_FindOrAddStage_same_of_some s X st h]; exact h⟩
  | none => exact ⟨_, Find_FindOrAddStage_same_of_none s X h⟩

/-! ### The prerequisite map is only written by `DebugAddStage` -/

theorem AddFollowUp_PrerequisitesByStageId (s : TScheduler) (X : IdType) :
    (AddFollowUp s X).2.PrerequisitesByStageId = s.PrerequisitesByStageId := by
  unfold AddFollowUp
  split <;> simp

theorem Collect_PrerequisitesByStageId (P : List IdType) :
    ∀ s : TScheduler, (CollectFuturePrerequisiteCompletions P s).2.PrerequisitesByStageId
      = s.PrerequisitesByStageId := by
  induction P with
  | nil => intro s; rfl
  | cons p Rest ih =>
    intro s
    simp only [CollectFuturePrerequisiteCompletions]
    rw [ih, AddFollowUp_PrerequisitesByStageId, FindOrAddStage_PrerequisitesByStageId]

end Zkz.StagedExecution

namespace Zkz.StagedExecution

/-! ### Reading the heap after a write -/

theorem Result_eq (s : TScheduler) (h : FFutureHandle) :
    s.Result h = (s.Futures[h]?).bind (fun c => c.Result) := by
  unfold TScheduler.Result
  cases s.Futures[h]? <;> rfl

theorem CompletionCallback_eq (s : TScheduler) (h : FFutureHandle) :
    s.CompletionCallback h = (s.Futures[h]?).bind (fun c => c.CompletionCallback) := by
  unfold TScheduler.CompletionCallback
  cases s.Futures[h]? <;> rfl

theorem Result_of_Futures {s s' : TScheduler} (h : s'.Futures = s.Futures) (x : FFutureHandle) :
    s'.Result x = s.Result x := by
  simp only [Result_eq, h]

theorem CompletionCallback_of_Futures {s s' : TScheduler} (h : s'.Futures = s.Futures)
    (x : FFutureHandle) : s'.CompletionCallback x = s.CompletionCallback x := by
  simp only [CompletionCallback_eq, h]

theorem Find_of_Stages {s s' : TScheduler} (h : s'.Stages = s.Stages) (X : IdType) :
    s'.Find X = s.Find X := by
  simp only [Find_eq, h]

theorem GetId_of_Stages {s s' : TScheduler} (h : s'.Stages = s.Stages) (X : IdType) :
    s'.GetId X = s.GetId X := by
  simp only [TScheduler.GetId, Find_of_Stages h]

theorem PromisesOf_of_Stages {s s' : TScheduler} (h : s'.Stages = s.Stages) (X : IdType) :
    s'.PromisesOf X = s.PromisesOf X := by
  simp only [TScheduler.PromisesOf, Find_of_Stages h]

theorem Result_of_lt_none {s : TScheduler} {h : FFutureHandle} (hge : s.Futures.length ≤ h) :
    s.Result h = none := by
  rw [Result_eq, List.getElem?_eq_none hge]
  rfl

theorem CompletionCallback_of_lt_none {s : TScheduler} {h : FFutureHandle}
    (hge : s.Futures.length ≤ h) : s.CompletionCallback h = none := by
  rw [CompletionCallback_eq, List.getElem?_eq_none hge]
  rfl

theorem lt_of_Result {s : TScheduler} {h : FFutureHandle} {r : FCancelableResult}
    (hr : s.Result h = some r) : h < s.Futures.length := by
  by_contra hlt
  rw [Result_of_lt_none (Nat.le_of_not_lt hlt)] at hr
  cases hr

theorem lt_of_CompletionCallback {s : TScheduler} {h : FFutureHandle} {F : FContinuation}
    (hr : s.CompletionCallback h = some F) : h < s.Futures.length := by
  by_contra hlt
  rw [CompletionCallback_of_lt_none (Nat.le_of_not_lt hlt)] at hr
  cases hr

theorem Result_SetFuture_same (s : TScheduler) (h : FFutureHandle) (c : FFutureState)
    (hlt : h < s.Futures.length) : (s.SetFuture h c).Result h = c.Result := by
  rw [Result_eq, SetFuture_Futures, List.getElem?_set_self hlt]
  rfl

theorem Result_SetFuture_other (s : TScheduler) (h x : FFutureHandle) (c : FFutureState)
    (hx : x ≠ h) : (s.SetFuture h c).Result x = s.Result x := by
  rw [Result_eq, Result_eq, SetFuture_Futures, List.getElem?_set_ne (Ne.symm hx)]

theorem CompletionCallback_SetFuture_same (s : TScheduler) (h : FFutureHandle)
    (c : FFutureState) (hlt : h < s.Futures.length) :
    (s.SetFuture h c).CompletionCallback h = c.CompletionCallback := by
  rw [CompletionCallback_eq, SetFuture_Futures, List.getElem?_set_self hlt]
  rfl

theorem CompletionCallback_SetFuture_other (s : TScheduler) (h x : FFutureHandle)
    (c : FFutureState) (hx : x ≠ h) :
    (s.SetFuture h c).CompletionCallback x = s.CompletionCallback x := by
  rw [CompletionCallback_eq, CompletionCallback_eq, SetFuture_Futures,
    List.getElem?_set_ne (Ne.symm hx)]

theorem Result_NewPromise_old (s : TScheduler) (c : FFutureState) (x : FFutureHandle)
    (hx : x < s.Futures.length) : (s.NewPromise c).2.Result x = s.Result x := by
  rw [Result_eq, Result_eq, NewPromise_Futures, List.getElem?_append_left hx]

theorem Result_NewPromise_new (s : TScheduler) (c : FFutureState) :
    (s.NewPromise c).2.Result s.Futures.length = c.Result := by
  rw [Result_eq, NewPromise_Futures, List.getElem?_append_right (Nat.le_refl _)]
  simp

theorem CompletionCallback_NewPromise_old (s : TScheduler) (c : FFutureState)
    (x : FFutureHandle) (hx : x < s.Futures.length) :
    (s.NewPromise c).2.CompletionCallback x = s.CompletionCallback x := by
  rw [CompletionCallback_eq, CompletionCallback_eq, NewPromise_Futures,
    List.getElem?_append_left hx]

theorem CompletionCallback_NewPromise_new (s : TScheduler) (c : FFutureState) :
    (s.NewPromise c).2.CompletionCallback s.Futures.length = c.CompletionCallback := by
  rw [CompletionCallback_eq, NewPromise_Futures, List.getElem?_append_right (Nat.le_refl _)]
  simp

@[simp] theorem FindOrAddStage_Result (s : TScheduler) (X : IdType) (h : FFutureHandle) :
    (s.FindOrAddStage X).Result h = s.Result h :=
  Result_of_Futures (FindOrAddStage_Futures s X) h

@[simp] theorem FindOrAddStage_CompletionCallback (s : TScheduler) (X : IdType)
    (h : FFutureHandle) : (s.FindOrAddStage X).CompletionCallback h = s.CompletionCallback h :=
  CompletionCallback_of_Futures (FindOrAddStage_Futures s X) h

@[simp] theorem Assign_Result (s : TScheduler) (X : IdType) (st : TStageState)
    (h : FFutureHandle) : (s.Assign X st).Result h = s.Result h := rfl

@[simp] theorem Assign_CompletionCallback (s : TScheduler) (X : IdType) (st : TStageState)
    (h : FFutureHandle) : (s.Assign X st).CompletionCallback h = s.CompletionCallback h := rfl

@[simp] theorem Transition_Result (s : TScheduler) (X : IdType) (st : TStageState)
    (h : FFutureHandle) : (s.Transition X st).Result h = s.Result h :=
  Result_of_Futures (Transition_Futures s X st) h

@[simp] theorem Transition_CompletionCallback (s : TScheduler) (X : IdType) (st : TStageState)
    (h : FFutureHandle) : (s.Transition X st).CompletionCallback h = s.CompletionCallback h :=
  CompletionCallback_of_Futures (Transition_Futures s X st) h

@[simp] theorem SetFuture_Find (s : TScheduler) (h : FFutureHandle) (c : FFutureState)
    (X : IdType) : (s.SetFuture h c).Find X = s.Find X := rfl

@[simp] theorem NewPromise_Find (s : TScheduler) (c : FFutureState) (X : IdType) :
    (s.NewPromise c).2.Find X = s.Find X := rfl

@[simp] theorem SetValue_Find (s : TScheduler) (h c : FFutureHandle) (X : IdType) :
    (SetValue s h c).Find X = s.Find X :=
  Find_of_Stages (SetValue_Stages s h c) X

/-! ### The registry after a transition -/

theorem Find_Transition_same (s : TScheduler) (X : IdType) (st : TStageState)
    (hst : st.GetStageId = X) : (s.Transition X st).Find X = some st := by
  unfold TScheduler.Transition
  obtain ⟨old, hold⟩ := Find_FindOrAddStage_isSome s X
  exact Find_Assign_same _ X st old hst hold

theorem Find_Transition_other (s : TScheduler) (X Y : IdType) (st : TStageState)
    (hst : st.GetStageId = X) (hXY : Y ≠ X) : (s.Transition X st).Find Y = s.Find Y := by
  unfold TScheduler.Transition
  rw [Find_Assign_other _ X Y st hst hXY, Find_FindOrAddStage_other s X Y hXY]

theorem Transition_eq_Assign (s : TScheduler) (X : IdType) (st old : TStageState)
    (h : s.Find X = some old) : s.Transition X st = s.Assign X st := by
  unfold TScheduler.Transition
  rw [Find_FindOrAddStage_same_of_some s X old h]

theorem GetStageId_of_Find {s : TScheduler} {X : IdType} {st : TStageState}
    (h : s.Find X = some st) : st.GetStageId = X :=
  GetStageId_of_find h

theorem getLast?_eq_none_iff' {α : Type} (l : List α) : l.getLast? = none ↔ l = [] := by
  rcases List.eq_nil_or_concat l with h | ⟨l', a, h⟩
  · subst h; simp
  · subst h; simp

theorem eq_concat_of_getLast? {α : Type} {l : List α} {a : α} (h : l.getLast? = some a) :
    l = l.dropLast ++ [a] := by
  rcases List.eq_nil_or_concat l with h' | ⟨l', b, h'⟩
  · subst h'; simp at h
  · subst h'
    simp at h
    subst h
    simp

end Zkz.StagedExecution

namespace Zkz.StagedExecution

/-! ## Every cascade of calls ends -/

theorem CallBudget_eq (Calls : List FCall) (s : TScheduler) :
    CallBudget Calls s = (Calls.map FCall.Weight).sum + StateWeight s := by
  unfold CallBudget StateWeight
  omega

theorem sum_Weight_ReplaceStage (l : List TStageState) (X : IdType) (st old : TStageState)
    (h : l.find? (fun State => State.GetStageId = X) = some old) :
    ((ReplaceStage X st l).map TStageState.Weight).sum + old.Weight
      = (l.map TStageState.Weight).sum + st.Weight := by
  induction l with
  | nil => simp at h
  | cons e l ih =>
    unfold ReplaceStage
    by_cases he : e.GetStageId = X
    · rw [List.find?_cons_of_pos _ (by simpa using he)] at h
      cases h
      simp [he]
      omega
    · rw [List.find?_cons_of_neg _ (by simpa using he)] at h
      have := ih h
      simp [he]
      omega

theorem sum_Weight_set (l : List FFutureState) (h : Nat) (c old : FFutureState)
    (hold : l[h]? = some old) :
    ((l.set h c).map FFutureState.Weight).sum + old.Weight
      = (l.map FFutureState.Weight).sum + c.Weight := by
  induction l generalizing h with
  | nil => simp at hold
  | cons e l ih =>
    cases h with
    | zero =>
      simp at hold
      subst hold
      simp
      omega
    | succ h =>
      simp at hold
      have := ih h hold
      simp only [List.set_cons_succ, List.map_cons, List.sum_cons]
      omega

theorem StateWeight_Assign (s : TScheduler) (X : IdType) (st old : TStageState)
    (h : s.Find X = some old) :
    StateWeight (s.Assign X st) + old.Weight = StateWeight s + st.Weight := by
  have := sum_Weight_ReplaceStage s.Stages X st old h
  unfold StateWeight
  simp only [Assign_Stages, Assign_Futures]
  omega

theorem StateWeight_SetFuture (s : TScheduler) (h : FFutureHandle) (c old : FFutureState)
    (hold : s.Futures[h]? = some old) :
    StateWeight (s.SetFuture h c) + old.Weight = StateWeight s + c.Weight := by
  have := sum_Weight_set s.Futures h c old hold
  unfold StateWeight
  simp only [SetFuture_Stages, SetFuture_Futures]
  omega

theorem StateWeight_NewPromise (s : TScheduler) (c : FFutureState) :
    StateWeight (s.NewPromise c).2 = StateWeight s + c.Weight := by
  unfold StateWeight
  simp
  omega

theorem StateWeight_FindOrAddStage (s : TScheduler) (X : IdType) :
    StateWeight (s.FindOrAddStage X) = StateWeight s := by
  unfold TScheduler.FindOrAddStage
  split
  · rfl
  · unfold StateWeight
    simp [TStageState.Weight]

theorem FFutureState_Weight_le (c : FFutureState) : c.Weight ≤ 3 := by
  unfold FFutureState.Weight
  split <;> omega

theorem StateWeight_SetValue (s : TScheduler) (h c : FFutureHandle) :
    StateWeight (SetValue s h c) ≤ StateWeight s := by
  unfold SetValue
  split
  · exact Nat.le_refl _
  · rename_i State hS
    split
    · exact Nat.le_refl _
    · have := StateWeight_SetFuture s h { Result := some (.Value (some c)) } State hS
      have h2 : ({ Result := some (.Value (some c)) } : FFutureState).Weight = 0 := rfl
      omega

theorem IfNotCanceled_weight (s : TScheduler) (h : FFutureHandle) (F : FContinuation) :
    (((IfNotCanceled s h F).2).map FCall.Weight).sum + StateWeight (IfNotCanceled s h F).1
      ≤ StateWeight s + 3 := by
  unfold IfNotCanceled
  split
  · simp
  · rename_i State hS
    split
    · have := StateWeight_SetFuture s h { State with CompletionCallback := some F } State hS
      have := FFutureState_Weight_le { State with CompletionCallback := some F }
      simp
      omega
    · simp [FCall.Weight]
      omega
    · cases F <;> simp [DestroyContinuation, FCall.Weight]
      omega

theorem EmplaceValue_weight (s : TScheduler) (h : FFutureHandle) :
    (((EmplaceValue s h).2).map FCall.Weight).sum + StateWeight (EmplaceValue s h).1
      ≤ StateWeight s := by
  unfold EmplaceValue
  split
  · simp
  · rename_i State hS
    split
    · simp only [List.map_nil, List.sum_nil, Nat.zero_add]
      exact Nat.le_refl _
    · rename_i hR
      have := StateWeight_SetFuture s h { Result := some (.Value none) } State hS
      have h2 : ({ Result := some (.Value none) } : FFutureState).Weight = 0 := rfl
      cases hc : State.CompletionCallback with
      | none => simp; omega
      | some F =>
        have h3 : State.Weight = 3 := by
          unfold FFutureState.Weight
          rw [hR, hc]
        simp [FCall.Weight]
        omega

theorem Cancel_weight (s : TScheduler) (h : FFutureHandle) :
    (((Cancel s h).2).map FCall.Weight).sum + StateWeight (Cancel s h).1 ≤ StateWeight s := by
  unfold Cancel
  split
  · simp
  · rename_i State hS
    split
    · simp
    · rename_i hR
      have := StateWeight_SetFuture s h { Result := some .Canceled } State hS
      have h2 : ({ Result := some .Canceled } : FFutureState).Weight = 0 := rfl
      cases hc : State.CompletionCallback with
      | none => simp; omega
      | some F =>
        have h3 : State.Weight = 3 := by
          unfold FFutureState.Weight
          rw [hR, hc]
        cases F <;> simp [DestroyContinuation, FCall.Weight] <;> omega

theorem ExecuteAllTasks_Stages (b : Bool) (Tasks : List FPendingTaskEntry) :
    ∀ s : TScheduler, (ExecuteAllTasks b Tasks s).2.Stages = s.Stages := by
  induction Tasks with
  | nil => intro s; rfl
  | cons t Rest ih =>
    intro s
    simp only [ExecuteAllTasks]
    cases b <;> simp [ih]

theorem ExecuteAllTasks_PrerequisitesByStageId (b : Bool) (Tasks : List FPendingTaskEntry) :
    ∀ s : TScheduler,
      (ExecuteAllTasks b Tasks s).2.PrerequisitesByStageId = s.PrerequisitesByStageId := by
  induction Tasks with
  | nil => intro s; rfl
  | cons t Rest ih =>
    intro s
    simp only [ExecuteAllTasks]
    cases b <;> simp [ih]

theorem ExecuteAllTasks_length (b : Bool) (Tasks : List FPendingTaskEntry) :
    ∀ s : TScheduler, (ExecuteAllTasks b Tasks s).1.length = Tasks.length := by
  induction Tasks with
  | nil => intro s; rfl
  | cons t Rest ih =>
    intro s
    simp only [ExecuteAllTasks]
    cases b <;> simp [ih]

theorem ExecuteAllTasks_weight (b : Bool) (Tasks : List FPendingTaskEntry) :
    ∀ s : TScheduler,
      StateWeight (ExecuteAllTasks b Tasks s).2 ≤ StateWeight s + 3 * Tasks.length := by
  induction Tasks with
  | nil => intro s; simp [ExecuteAllTasks]
  | cons t Rest ih =>
    intro s
    simp only [ExecuteAllTasks]
    cases b
    · simp only [Bool.false_eq_true, if_false]
      have h1 := ih (SetValue (s.NewPromise {}).2 t.ExecutionPromise (s.NewPromise {}).1)
      have h2 := StateWeight_SetValue (s.NewPromise {}).2 t.ExecutionPromise (s.NewPromise {}).1
      have h3 := StateWeight_NewPromise s {}
      have h4 : ({} : FFutureState).Weight = 0 := rfl
      simp only [List.length_cons]
      omega
    · simp only [if_true]
      have h3 := StateWeight_NewPromise s {}
      have h3' := StateWeight_NewPromise (s.NewPromise {}).2 {}
      have h4 : ({} : FFutureState).Weight = 0 := rfl
      have hget : ((s.NewPromise {}).2.NewPromise {}).2.Futures[(s.NewPromise {}).1]?
          = some {} := by
        simp only [NewPromise_Futures, NewPromise_fst, List.append_assoc]
        rw [List.getElem?_append_right (Nat.le_refl _)]
        simp
      have h5 := StateWeight_SetFuture ((s.NewPromise {}).2.NewPromise {}).2 (s.NewPromise {}).1
        { CompletionCallback := some (.PostNotifyCompletion t.Id ((s.NewPromise {}).2.NewPromise {}).1) }
        {} hget
      have h6 := FFutureState_Weight_le
        { CompletionCallback := some (.PostNotifyCompletion t.Id ((s.NewPromise {}).2.NewPromise {}).1) }
      have h2 := StateWeight_SetValue
        (((s.NewPromise {}).2.NewPromise {}).2.SetFuture (s.NewPromise {}).1
          { CompletionCallback := some (.PostNotifyCompletion t.Id ((s.NewPromise {}).2.NewPromise {}).1) })
        t.ExecutionPromise (s.NewPromise {}).1
      have h1 := ih (SetValue
        (((s.NewPromise {}).2.NewPromise {}).2.SetFuture (s.NewPromise {}).1
          { CompletionCallback := some (.PostNotifyCompletion t.Id ((s.NewPromise {}).2.NewPromise {}).1) })
        t.ExecutionPromise (s.NewPromise {}).1)
      simp only [List.length_cons]
      omega

theorem Find_ExecuteAllTasks (b : Bool) (Tasks : List FPendingTaskEntry) (s : TScheduler)
    (X : IdType) : (ExecuteAllTasks b Tasks s).2.Find X = s.Find X := by
  simp only [Find_eq, ExecuteAllTasks_Stages]

theorem StateWeight_Transition_of_some (s : TScheduler) (X : IdType) (st old : TStageState)
    (h : s.Find X = some old) :
    StateWeight (s.Transition X st) + old.Weight = StateWeight s + st.Weight := by
  unfold TScheduler.Transition
  rw [Find_FindOrAddStage_same_of_some s X old h]
  exact StateWeight_Assign s X st old h

theorem StateWeight_Transition_Completed (s : TScheduler) (X : IdType) :
    StateWeight (s.Transition X (.Completed X)) ≤ StateWeight s := by
  unfold TScheduler.Transition
  obtain ⟨old, hold⟩ := Find_FindOrAddStage_isSome s X
  have := StateWeight_Assign (s.FindOrAddStage X) X (.Completed X) old hold
  rw [StateWeight_FindOrAddStage] at this
  have h0 : (TStageState.Completed X).Weight = 0 := rfl
  omega

theorem CompleteWhenTasksFinished_weight (s : TScheduler) (X : IdType) :
    (((CompleteWhenTasksFinished s X).2).map FCall.Weight).sum
      + StateWeight (CompleteWhenTasksFinished s X).1 ≤ StateWeight s + 1 := by
  unfold CompleteWhenTasksFinished
  split
  · rename_i Id bAll Tasks Ps hF
    have hId : Id = X := GetStageId_of_find hF
    subst hId
    split
    · rename_i hT
      split
      · unfold TransitionToStageState_Completed
        have := StateWeight_Assign s Id (.Executing Id bAll [] []) _ hF
        simp [TStageState.Weight, FCall.Weight, Function.comp_def] at this ⊢
        omega
      · simp
    · rename_i Task hT
      have hlen : Tasks.length = Tasks.dropLast.length + 1 := by
        rcases List.eq_nil_or_concat Tasks with h | ⟨l, a, h⟩
        · subst h; simp at hT
        · subst h; simp
      have h1 := StateWeight_Assign s Id (.Executing Id bAll Tasks.dropLast Ps) _ hF
      have h2 := IfNotCanceled_weight (s.Assign Id (.Executing Id bAll Tasks.dropLast Ps))
        Task.FutureCompletion (.CompleteWhenTasksFinished Id)
      simp only [TStageState.Weight] at h1
      omega
  · simp

theorem TransitionToStageState_Executing_weight (GPI : Bool) (s : TScheduler)
    (p : TStageState_Pending) (h : s.Find p.StageId = some (.Defined p [])) :
    (((TransitionToStageState_Executing GPI s p).2).map FCall.Weight).sum
      + StateWeight (TransitionToStageState_Executing GPI s p).1 + 3 ≤ StateWeight s := by
  unfold TransitionToStageState_Executing
  have h1 := ExecuteAllTasks_weight GPI p.Tasks s
  have h2 := ExecuteAllTasks_length GPI p.Tasks s
  have h3 := StateWeight_Transition_of_some (ExecuteAllTasks GPI p.Tasks s).2 p.StageId
    (.Executing p.StageId p.bAllTasksCollected (ExecuteAllTasks GPI p.Tasks s).1
      p.StageCompletionPromises) _ (by rw [Find_ExecuteAllTasks]; exact h)
  simp only [TStageState.Weight, h2, List.length_nil] at h3
  simp only
  split
  · have h4 := CompleteWhenTasksFinished_weight
      ((ExecuteAllTasks GPI p.Tasks s).2.Transition p.StageId
        (.Executing p.StageId p.bAllTasksCollected (ExecuteAllTasks GPI p.Tasks s).1
          p.StageCompletionPromises)) p.StageId
    omega
  · simp
    omega

theorem StartExecutingWhenPrerequisitesComplete_weight (GPI : Bool) (s : TScheduler)
    (X : IdType) :
    (((StartExecutingWhenPrerequisitesComplete GPI s X).2).map FCall.Weight).sum
      + StateWeight (StartExecutingWhenPrerequisitesComplete GPI s X).1 ≤ StateWeight s := by
  unfold StartExecutingWhenPrerequisitesComplete
  split
  · rename_i p F hF
    have hId : p.StageId = X := GetStageId_of_find hF
    subst hId
    split
    · rename_i hT
      have hnil : F = [] := by
        rcases List.eq_nil_or_concat F with h | ⟨l, a, h⟩
        · exact h
        · subst h; simp at hT
      subst hnil
      have := TransitionToStageState_Executing_weight GPI s p hF
      omega
    · rename_i Future hT
      have hlen : F.length = F.dropLast.length + 1 := by
        rcases List.eq_nil_or_concat F with h | ⟨l, a, h⟩
        · subst h; simp at hT
        · subst h; simp
      have h1 := StateWeight_Assign s p.StageId (.Defined p F.dropLast) _ hF
      have h2 := IfNotCanceled_weight (s.Assign p.StageId (.Defined p F.dropLast))
        Future (.StartExecutingWhenPrerequisitesComplete p.StageId)
      simp only [TStageState.Weight] at h1
      omega
  · simp

/-- Every call lowers the total weight. -/
theorem StepCall_weight (GPI : Bool) (s : TScheduler) (c : FCall) :
    (((StepCall GPI s c).2).map FCall.Weight).sum + StateWeight (StepCall GPI s c).1
      < c.Weight + StateWeight s := by
  cases c with
  | EmplaceValue h =>
    have := EmplaceValue_weight s h
    simp only [StepCall, FCall.Weight]
    omega
  | Cancel h =>
    have := Cancel_weight s h
    simp only [StepCall, FCall.Weight]
    omega
  | Invoke F =>
    cases F with
    | StartExecutingWhenPrerequisitesComplete X =>
      have := StartExecutingWhenPrerequisitesComplete_weight GPI s X
      simp only [StepCall, InvokeContinuation, FCall.Weight]
      omega
    | CompleteWhenTasksFinished X =>
      have := CompleteWhenTasksFinished_weight s X
      simp only [StepCall, InvokeContinuation, FCall.Weight]
      omega
    | PostNotifyCompletion T h =>
      have := EmplaceValue_weight s h
      simp only [StepCall, InvokeContinuation, FCall.Weight]
      omega
  | Transition_Completed X =>
    have := StateWeight_Transition_Completed s X
    simp only [StepCall, FCall.Weight, List.map_nil, List.sum_nil]
    omega

theorem CallBudget_step (GPI : Bool) (s : TScheduler) (c : FCall) (Rest : List FCall) :
    CallBudget ((StepCall GPI s c).2 ++ Rest) (StepCall GPI s c).1 < CallBudget (c :: Rest) s := by
  have := StepCall_weight GPI s c
  simp only [CallBudget_eq, List.map_append, List.sum_append, List.map_cons, List.sum_cons]
  omega

theorem RunCallsFuel_total_aux (GPI : Bool) :
    ∀ (Fuel : Nat) (Calls : List FCall) (s : TScheduler), CallBudget Calls s ≤ Fuel →
      ∃ s', RunCallsFuel GPI Fuel Calls s = some s' := by
  intro Fuel
  induction Fuel with
  | zero =>
    intro Calls s h
    cases Calls with
    | nil => exact ⟨s, rfl⟩
    | cons c Rest =>
      have := CallBudget_step GPI s c Rest
      omega
  | succ Fuel ih =>
    intro Calls s h
    cases Calls with
    | nil => exact ⟨s, rfl⟩
    | cons c Rest =>
      have := CallBudget_step GPI s c Rest
      simp only [RunCallsFuel]
      exact ih _ _ (by omega)

theorem RunCallsFuel_mono (GPI : Bool) :
    ∀ (Fuel : Nat) (Calls : List FCall) (s s' : TScheduler),
      RunCallsFuel GPI Fuel Calls s = some s' →
      ∀ Fuel', Fuel ≤ Fuel' → RunCallsFuel GPI Fuel' Calls s = some s' := by
  intro Fuel
  induction Fuel with
  | zero =>
    intro Calls s s' h Fuel' _
    cases Calls with
    | nil =>
      cases Fuel' <;> exact h
    | cons c Rest => simp [RunCallsFuel] at h
  | succ Fuel ih =>
    intro Calls s s' h Fuel' hle
    cases Calls with
    | nil => cases Fuel' <;> exact h
    | cons c Rest =>
      cases Fuel' with
      | zero => omega
      | succ Fuel' =>
        simp only [RunCallsFuel] at h ⊢
        exact ih _ _ _ h Fuel' (by omega)

/-- The budget of calls is never exhausted: with `CallBudget` calls or more, the cascade
runs to the end and yields `RunCalls`. -/
theorem RunCallsFuel_total (GPI : Bool) (Calls : List FCall) (s : TScheduler) (Fuel : Nat)
    (h : CallBudget Calls s ≤ Fuel) :
    RunCallsFuel GPI Fuel Calls s = some (RunCalls GPI Calls s) := by
  obtain ⟨s', hs'⟩ := RunCallsFuel_total_aux GPI (CallBudget Calls s) Calls s (Nat.le_refl _)
  have : RunCalls GPI Calls s = s' := by
    unfold RunCalls
    rw [hs']
    rfl
  rw [this]
  exact RunCallsFuel_mono GPI _ _ _ _ hs' Fuel h

@[simp] theorem RunCalls_nil (GPI : Bool) (s : TScheduler) : RunCalls GPI [] s = s := by
  unfold RunCalls
  cases CallBudget [] s <;> rfl

theorem RunCalls_cons (GPI : Bool) (c : FCall) (Rest : List FCall) (s : TScheduler) :
    RunCalls GPI (c :: Rest) s
      = RunCalls GPI ((StepCall GPI s c).2 ++ Rest) (StepCall GPI s c).1 := by
  have h1 := RunCallsFuel_total GPI (c :: Rest) s (CallBudget (c :: Rest) s) (Nat.le_refl _)
  have hlt := CallBudget_step GPI s c Rest
  obtain ⟨n, hn⟩ : ∃ n, CallBudget (c :: Rest) s = n + 1 := ⟨CallBudget (c :: Rest) s - 1, by omega⟩
  rw [hn] at h1
  simp only [RunCallsFuel] at h1
  rw [RunCallsFuel_total GPI _ _ n (by omega)] at h1
  exact (Option.some.inj h1).symm

/-- Induction along a cascade: a property of the pending calls and the state that every
call preserves holds, with no call pending, when the cascade has run to the end. -/
theorem RunCalls_induction (GPI : Bool) (Inv : List FCall → TScheduler → Prop)
    (hstep : ∀ c Rest s, Inv (c :: Rest) s →
      Inv ((StepCall GPI s c).2 ++ Rest) (StepCall GPI s c).1) :
    ∀ (n : Nat) (Calls : List FCall) (s : TScheduler), CallBudget Calls s ≤ n →
      Inv Calls s → Inv [] (RunCalls GPI Calls s) := by
  intro n
  induction n with
  | zero =>
    intro Calls s hn hI
    cases Calls with
    | nil => simpa using hI
    | cons c Rest =>
      have := CallBudget_step GPI s c Rest
      omega
  | succ n ih =>
    intro Calls s hn hI
    cases Calls with
    | nil => simpa using hI
    | cons c Rest =>
      have := CallBudget_step GPI s c Rest
      rw [RunCalls_cons]
      exact ih _ _ (by omega) (hstep c Rest s hI)

end Zkz.StagedExecution

namespace Zkz.StagedExecution

/-! ## Induction over the runs of the scheduler -/

theorem Exec_nil (GPI : Bool) : Exec GPI [] = some {} := rfl

theorem Exec_concat (GPI : Bool) (Events : List FEvent) (e : FEvent) :
    Exec GPI (Events ++ [e]) = (Exec GPI Events).bind (fun r => ApplyEvent GPI r e) := by
  unfold Exec
  rw [List.foldlM_append]
  cases List.foldlM (ApplyEvent GPI) {} Events with
  | none => rfl
  | some r =>
    show List.foldlM (ApplyEvent GPI) r [e] = ApplyEvent GPI r e
    simp only [List.foldlM_cons, List.foldlM_nil]
    cases ApplyEvent GPI r e <;> rfl

/-- Induction over runs. `Inv Log Calls s` is a property of the calls observed so far, the
calls still pending in the running operation and the state. If it holds at the start of
every public operation and of every fulfilment, and every pending call preserves it, then
it holds (with no call pending) after every run. -/
theorem Exec_invariant (GPI : Bool)
    (Inv : List FObservation → List FCall → TScheduler → Prop)
    (init : Inv [] [] {})
    (step : ∀ Log c Rest s, Inv Log (c :: Rest) s →
      Inv Log ((StepCall GPI s c).2 ++ Rest) (StepCall GPI s c).1)
    (addStage : ∀ Log s X P, Inv Log [] s →
      Inv (Log ++ [.AddStage X P (s.AddStageCalls GPI X P).1])
        (s.AddStageCalls GPI X P).2.2 (s.AddStageCalls GPI X P).2.1)
    (addTaskToStage : ∀ Log s X T, Inv Log [] s →
      Inv (Log ++ [.AddTaskToStage X T (s.AddTaskToStage X T).1]) [] (s.AddTaskToStage X T).2)
    (setAllTasksAdded : ∀ Log s X, Inv Log [] s →
      Inv (Log ++ [.SetAllTasksAdded X])
        (StageState_SetAllTasksAdded (s.FindOrAddStage X) X).2
        (StageState_SetAllTasksAdded (s.FindOrAddStage X) X).1)
    (fulfil : ∀ Log s h, Inv Log [] s → s.HoldsTaskCompletionPromise h = true →
      Inv Log [.EmplaceValue h] s)
    (drop : ∀ Log s h, Inv Log [] s → s.HoldsTaskCompletionPromise h = true →
      Inv Log [.Cancel h] s) :
    ∀ Events r, Exec GPI Events = some r → Inv r.Observations [] r.Scheduler := by
  have run : ∀ Log Calls s, Inv Log Calls s → Inv Log [] (RunCalls GPI Calls s) := by
    intro Log Calls s h
    exact RunCalls_induction GPI (Inv Log) (step Log) _ Calls s (Nat.le_refl _) h
  have hAddStage : ∀ Log s X P, Inv Log [] s →
      Inv (Log ++ [.AddStage X P (s.AddStage GPI X P).1]) [] (s.AddStage GPI X P).2 := by
    intro Log s X P h
    exact run _ _ _ (addStage Log s X P h)
  have hSet : ∀ Log s X, Inv Log [] s →
      Inv (Log ++ [.SetAllTasksAdded X]) [] (s.SetAllTasksAdded GPI X) := by
    intro Log s X h
    exact run _ _ _ (setAllTasksAdded Log s X h)
  intro Events
  induction Events using List.reverseRecOn with
  | nil =>
    intro r h
    rw [Exec_nil] at h
    cases h
    exact init
  | append_singleton Events e ih =>
    intro r h
    rw [Exec_concat] at h
    cases hE : Exec GPI Events with
    | none => rw [hE] at h; cases h
    | some r0 =>
      rw [hE] at h
      have h0 := ih r0 hE
      simp only [Option.bind] at h
      cases e with
      | AddStage X P =>
        simp only [ApplyEvent] at h
        replace h := Checked_some h
        cases h
        exact hAddStage _ _ X P h0
      | AddTaskToStage X T =>
        simp only [ApplyEvent] at h
        replace h := Checked_some h
        cases h
        exact addTaskToStage _ _ X T h0
      | SetAllTasksAdded X =>
        simp only [ApplyEvent] at h
        replace h := Checked_some h
        cases h
        exact hSet _ _ X h0
      | AddTask T P =>
        simp only [ApplyEvent] at h
        have h1 := hAddStage _ _ T P h0
        cases hA : r0.Scheduler.AddStage GPI T P with
        | mk res s1 =>
          rw [hA] at h h1
          cases res with
          | error e =>
            simp only at h
            replace h := Checked_some h
            cases h
            exact h1
          | ok u =>
            simp only at h h1
            have h2 := addTaskToStage _ _ T T h1
            cases hB : s1.AddTaskToStage T T with
            | mk res2 s2 =>
              rw [hB] at h h2
              cases res2 with
              | error e => simp at h
              | ok f =>
                simp only at h h2
                replace h := Checked_some h
                cases h
                have h3 := hSet _ _ T h2
                simpa using h3
      | FulfilTaskCompletion p =>
        simp only [ApplyEvent] at h
        split at h
        · rename_i hp
          replace h := Checked_some h
          cases h
          exact run _ _ _ (fulfil _ _ p h0 hp)
        · cases h
          exact h0
      | DropTaskCompletion p =>
        simp only [ApplyEvent] at h
        split at h
        · rename_i hp
          replace h := Checked_some h
          cases h
          exact run _ _ _ (drop _ _ p h0 hp)
        · cases h
          exact h0

end Zkz.StagedExecution

namespace Zkz.StagedExecution

/-! ## Frame lemmas: what a change elsewhere preserves -/

/-- What every change of the scheduler preserves: roles, the observed tasks and the
results of the resolved futures. -/
structure Frame (Γ Γ' : FRoles) (Log Log' : FLog) (s s' : TScheduler) : Prop where
  roles : ∀ (h : Nat) (r : FRole), Γ[h]? = some r → Γ'[h]? = some r
  tasks : ∀ (X : IdType) (j : Nat) (e : IdType × FFutureHandle),
    (TasksOf Log X)[j]? = some e → (TasksOf Log' X)[j]? = some e
  results : ∀ (h : FFutureHandle) (r : FCancelableResult), s.Result h = some r → s'.Result h = some r

theorem Frame.refl (Γ : FRoles) (Log : FLog) (s : TScheduler) : Frame Γ Γ Log Log s s :=
  ⟨fun _ _ h => h, fun _ _ _ h => h, fun _ _ h => h⟩

theorem Frame.of_Futures {Γ : FRoles} {Log : FLog} {s s' : TScheduler}
    (h : s'.Futures = s.Futures) : Frame Γ Γ Log Log s s' :=
  ⟨fun _ _ h => h, fun _ _ _ h => h, fun x r hr => by rw [Result_of_Futures h]; exact hr⟩

theorem IsDone_mono {s s' : TScheduler} {Calls Calls' : List FCall}
    (h1 : ∀ p, s.GetId p = .Completed → s'.GetId p = .Completed)
    (h2 : ∀ p, FCall.Transition_Completed p ∈ Calls →
      FCall.Transition_Completed p ∈ Calls' ∨ s'.GetId p = .Completed)
    (p : IdType) (h : IsDone s Calls p) : IsDone s' Calls' p := by
  rcases h with h | h
  · exact Or.inl (h1 p h)
  · rcases h2 p h with h | h
    · exact Or.inr h
    · exact Or.inl h

theorem LinkOK_frame {s s' : TScheduler} {Calls Calls' : List FCall} {T : IdType}
    {hc f : FFutureHandle}
    (hR : ∀ (h : FFutureHandle) (r : FCancelableResult), s.Result h = some r → s'.Result h = some r)
    (hhc : s.Result hc = none → s'.Result hc = none ∧
      (s.CompletionCallback hc = some (.PostNotifyCompletion T f) →
        s'.CompletionCallback hc = some (.PostNotifyCompletion T f)))
    (hf : s.Result f = none → s'.Result f = none)
    (hh1 : Calls.head? = some (.Invoke (.PostNotifyCompletion T f)) →
      Calls'.head? = some (.Invoke (.PostNotifyCompletion T f)))
    (hh2 : Calls.head? = some (.Cancel f) → Calls'.head? = some (.Cancel f))
    (h : LinkOK s Calls T hc f) : LinkOK s' Calls' T hc f := by
  rcases h with ⟨h1, h2, h3⟩ | ⟨h1, h2⟩ | ⟨h1, h2⟩
  · exact Or.inl ⟨(hhc h1).1, (hhc h1).2 h2, hf h3⟩
  · refine Or.inr (Or.inl ⟨hR _ _ h1, ?_⟩)
    rcases h2 with h2 | ⟨h2, h3⟩
    · exact Or.inl (hR _ _ h2)
    · exact Or.inr ⟨hf h2, hh1 h3⟩
  · refine Or.inr (Or.inr ⟨hR _ _ h1, ?_⟩)
    rcases h2 with h2 | ⟨h2, h3⟩
    · exact Or.inl (hR _ _ h2)
    · exact Or.inr ⟨hf h2, hh2 h3⟩

theorem CellOK_frame {Γ Γ' : FRoles} {Log Log' : FLog} {Calls Calls' : List FCall}
    {s s' : TScheduler} {h : FFutureHandle} (hF : Frame Γ Γ' Log Log' s s')
    (hD : ∀ p, IsDone s Calls p → IsDone s' Calls' p)
    (hres : s'.Result h = s.Result h)
    (hcb : s'.CompletionCallback h = s.CompletionCallback h)
    (hprom : ∀ p, s.Result h = none → (h ∈ s.PromisesOf p ∨ FCall.EmplaceValue h ∈ Calls) →
      (h ∈ s'.PromisesOf p ∨ FCall.EmplaceValue h ∈ Calls'))
    (hlink : ∀ X j T hc, Γ[hc]? = some (.TaskCompletion X j) →
      LinkOK s Calls T hc h → LinkOK s' Calls' T hc h)
    (hOK : CellOK Γ Log Calls s h) : CellOK Γ' Log' Calls' s' h := by
  unfold CellOK at hOK ⊢
  obtain ⟨h1, h2⟩ := hOK
  refine ⟨by rw [hres, hcb]; exact h1, ?_⟩
  cases hr : Γ[h]? with
  | none => rw [hr] at h2; exact h2.elim
  | some r =>
    rw [hr] at h2
    rw [hF.roles h r hr]
    cases r with
    | StageCompletion p c =>
      simp only at h2 ⊢
      rcases h2 with ⟨h3, h4⟩ | ⟨h3, h4⟩
      · exact Or.inl ⟨by rw [hres]; exact h3, hprom p h3 h4⟩
      · exact Or.inr ⟨by rw [hres]; exact h3, hD p h4⟩
    | TaskExecution X j =>
      simp only at h2 ⊢
      obtain ⟨T, h3, h4, h5⟩ := h2
      refine ⟨T, hF.tasks _ _ _ h3, by rw [hcb]; exact h4, ?_⟩
      rcases h5 with h5 | ⟨hc, h5, h6⟩
      · exact Or.inl (by rw [hres]; exact h5)
      · exact Or.inr ⟨hc, by rw [hres]; exact h5, hF.roles _ _ h6⟩
    | TaskCompletion X j =>
      simp only at h2 ⊢
      obtain ⟨T, he, h3, h4, h5, h6⟩ := h2
      refine ⟨T, he, hF.tasks _ _ _ h3, hF.results _ _ h4, by rw [hres]; exact h5, ?_⟩
      intro T' f hf
      rw [hcb] at hf
      exact ⟨(h6 T' f hf).1, hF.roles _ _ (h6 T' f hf).2⟩
    | PostNotify X j =>
      simp only at h2 ⊢
      obtain ⟨T, he, hc, h3, h4, h5, h6⟩ := h2
      exact ⟨T, he, hc, hF.tasks _ _ _ h3, hF.results _ _ h4, hF.roles _ _ h5,
        hlink X j T hc h5 h6⟩

theorem CallbackOK_frame {Γ Γ' : FRoles} {s s' : TScheduler} {h : FFutureHandle}
    (hΓ : ∀ (h : Nat) (r : FRole), Γ[h]? = some r → Γ'[h]? = some r)
    (hcb : s'.CompletionCallback h = s.CompletionCallback h)
    (hDef : ∀ X, s.CompletionCallback h = some (.StartExecutingWhenPrerequisitesComplete X) →
      ∀ p F, s.Find X = some (.Defined p F) → ∃ p' F', s'.Find X = some (.Defined p' F'))
    (hExec : ∀ X, s.CompletionCallback h = some (.CompleteWhenTasksFinished X) →
      ∀ Ts Ps, s.Find X = some (.Executing X true Ts Ps) →
        ∃ Ts' Ps', s'.Find X = some (.Executing X true Ts' Ps'))
    (hOK : CallbackOK Γ s h) : CallbackOK Γ' s' h := by
  unfold CallbackOK at hOK ⊢
  rw [hcb]
  cases hc : s.CompletionCallback h with
  | none => trivial
  | some F =>
    rw [hc] at hOK
    cases F with
    | StartExecutingWhenPrerequisitesComplete X =>
      simp only at hOK ⊢
      obtain ⟨⟨p, j, h1⟩, p', F', h2⟩ := hOK
      exact ⟨⟨p, j, hΓ _ _ h1⟩, hDef X hc p' F' h2⟩
    | CompleteWhenTasksFinished X =>
      simp only at hOK ⊢
      obtain ⟨⟨j, h1⟩, Ts, Ps, h2⟩ := hOK
      refine ⟨⟨j, ?_⟩, hExec X hc Ts Ps h2⟩
      rcases h1 with h1 | h1
      · exact Or.inl (hΓ _ _ h1)
      · exact Or.inr (hΓ _ _ h1)
    | PostNotifyCompletion T f =>
      simp only at hOK ⊢
      obtain ⟨X, j, h1⟩ := hOK
      exact ⟨X, j, hΓ _ _ h1⟩

theorem PendingTasksOK_frame {Γ Γ' : FRoles} {Log Log' : FLog} {s s' : TScheduler}
    {X : IdType} {Tasks : List FPendingTaskEntry}
    (hΓ : ∀ (h : Nat) (r : FRole), Γ[h]? = some r → Γ'[h]? = some r)
    (hL : TasksOf Log' X = TasksOf Log X)
    (hres : ∀ t, t ∈ Tasks → s.Result t.ExecutionPromise = none →
      s'.Result t.ExecutionPromise = none)
    (hOK : PendingTasksOK Γ Log s X Tasks) : PendingTasksOK Γ' Log' s' X Tasks := by
  obtain ⟨h1, h2⟩ := hOK
  refine ⟨by rw [hL]; exact h1, ?_⟩
  intro j t ht
  exact ⟨hΓ _ _ (h2 j t ht).1, hres t (List.getElem?_mem ht) (h2 j t ht).2⟩

theorem PromisesOK_frame {Γ Γ' : FRoles} {s s' : TScheduler} {X : IdType}
    {Ps : List FFutureHandle}
    (hΓ : ∀ (h : Nat) (r : FRole), Γ[h]? = some r → Γ'[h]? = some r)
    (hres : ∀ h, h ∈ Ps → s.Result h = none → s'.Result h = none)
    (hOK : PromisesOK Γ s X Ps) : PromisesOK Γ' s' X Ps := by
  intro h hh
  obtain ⟨⟨c, h1⟩, h2⟩ := hOK h hh
  exact ⟨⟨c, hΓ _ _ h1⟩, hres h hh h2⟩

theorem ReleasedOK_frame {Γ Γ' : FRoles} {Log Log' : FLog} {s s' : TScheduler} {X : IdType}
    (hF : Frame Γ Γ' Log Log' s s') (hL : TasksOf Log' X = TasksOf Log X)
    (hOK : ReleasedOK Γ Log s X) : ReleasedOK Γ' Log' s' X := by
  intro j T he hj
  rw [hL] at hj
  obtain ⟨h1, hc, h2, h3⟩ := hOK j T he hj
  exact ⟨hF.roles _ _ h1, hc, hF.results _ _ h2, hF.roles _ _ h3⟩

theorem FinishedOK_frame {Γ Γ' : FRoles} {Log Log' : FLog} {s s' : TScheduler} {X : IdType}
    {j : Nat} (hF : Frame Γ Γ' Log Log' s s') (hOK : FinishedOK Log s X j) :
    FinishedOK Log' s' X j := by
  obtain ⟨T, he, hc, h1, h2, h3⟩ := hOK
  exact ⟨T, he, hc, hF.tasks _ _ _ h1, hF.results _ _ h2, hF.results _ _ h3⟩

theorem EntryOK_frame {Γ Γ' : FRoles} {Log Log' : FLog} {s s' : TScheduler} {X : IdType}
    {j : Nat} {e : FExecutingTaskEntry} (hF : Frame Γ Γ' Log Log' s s')
    (hcb : s.CompletionCallback e.FutureCompletion = none →
      s'.CompletionCallback e.FutureCompletion = none)
    (hOK : EntryOK Γ Log s X j e) : EntryOK Γ' Log' s' X j e := by
  obtain ⟨⟨he, h1⟩, h2, h3⟩ := hOK
  refine ⟨⟨he, hF.tasks _ _ _ h1⟩, ?_, hcb h3⟩
  rcases h2 with h2 | h2
  · exact Or.inl (hF.roles _ _ h2)
  · exact Or.inr (hF.roles _ _ h2)

theorem ChainOK_frame {Γ Γ' : FRoles} {Calls Calls' : List FCall} {s s' : TScheduler}
    {X : IdType} {P : List IdType} {F : List FFutureHandle}
    (hΓ : ∀ (h : Nat) (r : FRole), Γ[h]? = some r → Γ'[h]? = some r)
    (hD : ∀ p, IsDone s Calls p → IsDone s' Calls' p)
    (hcbF : ∀ f, f ∈ F → s.CompletionCallback f = none → s'.CompletionCallback f = none)
    (hcb : ∀ h, s'.CompletionCallback h = some (.StartExecutingWhenPrerequisitesComplete X) ↔
      s.CompletionCallback h = some (.StartExecutingWhenPrerequisitesComplete X))
    (htok : ∀ a, s.CompletionCallback a = some (.StartExecutingWhenPrerequisitesComplete X) →
      s.Result a = none → s'.Result a = none)
    (hhead : Calls'.head? = some (.Invoke (.StartExecutingWhenPrerequisitesComplete X)) ↔
      Calls.head? = some (.Invoke (.StartExecutingWhenPrerequisitesComplete X)))
    (hOK : ChainOK Γ Calls s X P F) : ChainOK Γ' Calls' s' X P F := by
  obtain ⟨h1, h2, h3⟩ := hOK
  refine ⟨h1, ?_, ?_⟩
  · intro j f hj
    obtain ⟨p, h4, h5, h6⟩ := h2 j f hj
    exact ⟨p, h4, hΓ _ _ h5, hcbF f (List.getElem?_mem hj) h6⟩
  · rcases h3 with ⟨h4, h5, h6⟩ | ⟨h4, ⟨a, p, h5, h6, h7, h8⟩, h9⟩
    · refine Or.inl ⟨hhead.2 h4, ?_, fun j p hj hp => hD p (h6 j p hj hp)⟩
      intro h hh
      exact h5 h ((hcb h).1 hh)
    · refine Or.inr ⟨fun hh => h4 (hhead.1 hh), ⟨a, p, h5, hΓ _ _ h6, ?_, ?_⟩,
        fun j p hj hp => hD p (h9 j p hj hp)⟩
      · exact htok a ((h8 a).2 rfl) h7
      · intro h
        rw [hcb h]
        exact h8 h

theorem DrainOK_frame {Γ Γ' : FRoles} {Log Log' : FLog} {Calls Calls' : List FCall}
    {s s' : TScheduler} {X : IdType} {b : Bool} {Ts : List FExecutingTaskEntry}
    {Ps : List FFutureHandle} (hF : Frame Γ Γ' Log Log' s s')
    (hL : TasksOf Log' X = TasksOf Log X)
    (hcbE : ∀ e, e ∈ Ts → s.CompletionCallback e.FutureCompletion = none →
      s'.CompletionCallback e.FutureCompletion = none)
    (hcb : ∀ h, s'.CompletionCallback h = some (.CompleteWhenTasksFinished X) ↔
      s.CompletionCallback h = some (.CompleteWhenTasksFinished X))
    (htok : ∀ a, s.CompletionCallback a = some (.CompleteWhenTasksFinished X) →
      s.Result a = none → s'.Result a = none)
    (hhead : Calls'.head? = some (.Invoke (.CompleteWhenTasksFinished X)) ↔
      Calls.head? = some (.Invoke (.CompleteWhenTasksFinished X)))
    (hTC : FCall.Transition_Completed X ∈ Calls' ↔ FCall.Transition_Completed X ∈ Calls)
    (hOK : DrainOK Γ Log Calls s X b Ts Ps) : DrainOK Γ' Log' Calls' s' X b Ts Ps := by
  obtain ⟨h1, h2, h3⟩ := hOK
  have hno : (∀ h, s.CompletionCallback h ≠ some (.CompleteWhenTasksFinished X)) →
      ∀ h, s'.CompletionCallback h ≠ some (.CompleteWhenTasksFinished X) :=
    fun hn h hh => hn h ((hcb h).1 hh)
  refine ⟨fun j e hj => EntryOK_frame hF (hcbE e (List.getElem?_mem hj)) (h1 j e hj),
    by rw [hL]; exact h2, ?_⟩
  rw [hL]
  rcases h3 with ⟨h4, h5, h6, h7, h8⟩ | ⟨h4, h5, h6, h7, h8, h9, h10⟩ |
      ⟨h4, h5, h6, h7, h8⟩ | ⟨h4, h5, h6, h7, h8, h9⟩
  · exact Or.inl ⟨h4, h5, hno h6, fun hh => h7 (hhead.1 hh), fun hh => h8 (hTC.1 hh)⟩
  · exact Or.inr (Or.inl ⟨h4, hTC.2 h5, h6, h7, fun j hj => FinishedOK_frame hF (h8 j hj),
      hno h9, fun hh => h10 (hhead.1 hh)⟩)
  · exact Or.inr (Or.inr (Or.inl ⟨h4, fun hh => h5 (hTC.1 hh), hhead.2 h6, hno h7,
      fun j hj hj' => FinishedOK_frame hF (h8 j hj hj')⟩))
  · refine Or.inr (Or.inr (Or.inr ⟨h4, fun hh => h5 (hTC.1 hh), fun hh => h6 (hhead.1 hh), h7,
      fun j hj hj' => FinishedOK_frame hF (h8 j hj hj'), ?_⟩))
    rcases h9 with ⟨a, h10, h11, h12⟩ | ⟨h10, T, he, hc, h11, h12, h13⟩
    · refine Or.inl ⟨a, ?_, htok a ((h10 a).2 rfl) h11, ?_⟩
      · intro h
        rw [hcb h]
        exact h10 h
      · rcases h12 with h12 | h12
        · exact Or.inl (hF.roles _ _ h12)
        · exact Or.inr (hF.roles _ _ h12)
    · exact Or.inr ⟨hno h10, T, he, hc, h11, hF.results _ _ h12, hF.results _ _ h13⟩

/-- A stage state that the change does not touch keeps its invariant. -/
theorem StageOK_frame {Γ Γ' : FRoles} {Log Log' : FLog} {Calls Calls' : List FCall}
    {s s' : TScheduler} {st : TStageState} (hF : Frame Γ Γ' Log Log' s s')
    (hD : ∀ p, IsDone s Calls p → IsDone s' Calls' p)
    (hA : ∀ P, IsAddedWith Log' st.GetStageId P ↔ IsAddedWith Log st.GetStageId P)
    (hC : IsCollected Log' st.GetStageId ↔ IsCollected Log st.GetStageId)
    (hL : TasksOf Log' st.GetStageId = TasksOf Log st.GetStageId)
    (hresP : ∀ h, h ∈ st.Promises → s.Result h = none → s'.Result h = none)
    (hresT : ∀ p F, (st = .Undefined p ∨ st = .Defined p F) → ∀ t, t ∈ p.Tasks →
      s.Result t.ExecutionPromise = none → s'.Result t.ExecutionPromise = none)
    (hcbF : ∀ f, f ∈ st.FuturePrerequisiteCompletions → s.CompletionCallback f = none →
      s'.CompletionCallback f = none)
    (hcbE : ∀ X b Ts Ps, st = .Executing X b Ts Ps → ∀ e, e ∈ Ts →
      s.CompletionCallback e.FutureCompletion = none →
      s'.CompletionCallback e.FutureCompletion = none)
    (hcbSE : ∀ h,
      s'.CompletionCallback h = some (.StartExecutingWhenPrerequisitesComplete st.GetStageId) ↔
      s.CompletionCallback h = some (.StartExecutingWhenPrerequisitesComplete st.GetStageId))
    (hcbCW : ∀ h,
      s'.CompletionCallback h = some (.CompleteWhenTasksFinished st.GetStageId) ↔
      s.CompletionCallback h = some (.CompleteWhenTasksFinished st.GetStageId))
    (htokSE : ∀ a,
      s.CompletionCallback a = some (.StartExecutingWhenPrerequisitesComplete st.GetStageId) →
      s.Result a = none → s'.Result a = none)
    (htokCW : ∀ a,
      s.CompletionCallback a = some (.CompleteWhenTasksFinished st.GetStageId) →
      s.Result a = none → s'.Result a = none)
    (hheadSE :
      Calls'.head? = some (.Invoke (.StartExecutingWhenPrerequisitesComplete st.GetStageId)) ↔
      Calls.head? = some (.Invoke (.StartExecutingWhenPrerequisitesComplete st.GetStageId)))
    (hheadCW : Calls'.head? = some (.Invoke (.CompleteWhenTasksFinished st.GetStageId)) ↔
      Calls.head? = some (.Invoke (.CompleteWhenTasksFinished st.GetStageId)))
    (hTC : FCall.Transition_Completed st.GetStageId ∈ Calls' ↔
      FCall.Transition_Completed st.GetStageId ∈ Calls)
    (hOK : StageOK Γ Log Calls s st) : StageOK Γ' Log' Calls' s' st := by
  cases st with
  | Undefined p =>
    simp only [TStageState.GetStageId] at hA hC hL
    obtain ⟨h1, h2, h3, h4⟩ := hOK
    refine ⟨fun P hP => h1 P ((hA P).1 hP), by rw [hC]; exact h2,
      PendingTasksOK_frame hF.roles hL (hresT p [] (Or.inl rfl)) h3,
      PromisesOK_frame hF.roles hresP h4⟩
  | Defined p F =>
    simp only [TStageState.GetStageId] at hA hC hL hcbSE htokSE hheadSE
    obtain ⟨⟨P, h0⟩, h1, h2, h3, h4⟩ := hOK
    refine ⟨⟨P, (hA P).2 h0⟩, ?_, by rw [hC]; exact h2,
      PendingTasksOK_frame hF.roles hL (hresT p F (Or.inr rfl)) h3,
      PromisesOK_frame hF.roles hresP h4⟩
    intro P' hP'
    exact ChainOK_frame hF.roles hD hcbF hcbSE htokSE hheadSE (h1 P' ((hA P').1 hP'))
  | Executing X b Ts Ps =>
    simp only [TStageState.GetStageId] at hA hC hL hcbCW htokCW hheadCW hTC
    obtain ⟨⟨P, h0⟩, h1, h2, h3, h4, h5⟩ := hOK
    refine ⟨⟨P, (hA P).2 h0⟩, fun P' hP' p hp => hD p (h1 P' ((hA P').1 hP') p hp),
      by rw [hC]; exact h2, PromisesOK_frame hF.roles hresP h3, ReleasedOK_frame hF hL h4,
      DrainOK_frame hF hL (hcbE X b Ts Ps rfl) hcbCW htokCW hheadCW hTC h5⟩
  | Completed X =>
    simp only [TStageState.GetStageId] at hA hC hL hTC
    obtain ⟨⟨P, h0⟩, h1, h2, h3, h4, h5⟩ := hOK
    refine ⟨⟨P, (hA P).2 h0⟩, fun P' hP' p hp => hD p (h1 P' ((hA P').1 hP') p hp),
      hC.2 h2, ReleasedOK_frame hF hL h3, ?_, fun hh => h5 (hTC.1 hh)⟩
    intro j hj
    rw [hL] at hj
    exact FinishedOK_frame hF (h4 j hj)

theorem TailOK_frame {Γ Γ' : FRoles}
    (hΓ : ∀ (h : Nat) (r : FRole), Γ[h]? = some r → Γ'[h]? = some r) :
    ∀ Calls : List FCall, (∀ h, FCall.EmplaceValue h ∈ Calls → ∃ r, Γ[h]? = some r) →
      TailOK Γ Calls → TailOK Γ' Calls := by
  intro Calls
  induction Calls with
  | nil => intro _ _; trivial
  | cons c Rest ih =>
    intro hty hOK
    have hty' : ∀ h, FCall.EmplaceValue h ∈ Rest → ∃ r, Γ[h]? = some r :=
      fun h hh => hty h (List.mem_cons_of_mem _ hh)
    cases c with
    | EmplaceValue h =>
      obtain ⟨⟨p, c, h1, h2⟩, h3⟩ := hOK
      exact ⟨⟨p, c, hΓ _ _ h1, h2⟩, ih hty' h3⟩
    | Cancel h => exact hOK.elim
    | Invoke F => exact hOK.elim
    | Transition_Completed p =>
      obtain ⟨h1, h2, h3⟩ := hOK
      refine ⟨h1, ?_, ih hty' h3⟩
      intro h c hh hΓ'
      obtain ⟨r, hr⟩ := hty' h hh
      have := hΓ _ _ hr
      rw [this] at hΓ'
      cases hΓ'
      exact h2 h c hh hr

end Zkz.StagedExecution

namespace Zkz.StagedExecution

/-! ## Every pending call preserves the invariant -/

theorem TailOK_head_ne_Invoke {Γ : FRoles} {Rest : List FCall} (h : TailOK Γ Rest)
    (F : FContinuation) : Rest.head? ≠ some (.Invoke F) := by
  cases Rest with
  | nil => simp
  | cons c R =>
    cases c <;> simp_all [TailOK]

theorem TailOK_head_ne_Cancel {Γ : FRoles} {Rest : List FCall} (h : TailOK Γ Rest)
    (x : FFutureHandle) : Rest.head? ≠ some (.Cancel x) := by
  cases Rest with
  | nil => simp
  | cons c R =>
    cases c <;> simp_all [TailOK]

theorem TailOK_Invoke_not_mem {Γ : FRoles} : ∀ {Rest : List FCall}, TailOK Γ Rest →
    ∀ F, FCall.Invoke F ∉ Rest := by
  intro Rest
  induction Rest with
  | nil => intro _ F; simp
  | cons c R ih =>
    intro h F
    cases c with
    | EmplaceValue x => simp [ih h.2 F]
    | Cancel x => exact h.elim
    | Invoke G => exact h.elim
    | Transition_Completed p => simp [ih h.2.2 F]

theorem TailOK_Cancel_not_mem {Γ : FRoles} : ∀ {Rest : List FCall}, TailOK Γ Rest →
    ∀ x, FCall.Cancel x ∉ Rest := by
  intro Rest
  induction Rest with
  | nil => intro _ F; simp
  | cons c R ih =>
    intro h F
    cases c with
    | EmplaceValue x => simp [ih h.2 F]
    | Cancel x => exact h.elim
    | Invoke G => exact h.elim
    | Transition_Completed p => simp [ih h.2.2 F]

theorem TailOK_EmplaceValue_mem {Γ : FRoles} : ∀ {Rest : List FCall}, TailOK Γ Rest →
    ∀ x, FCall.EmplaceValue x ∈ Rest →
      ∃ p c, Γ[x]? = some (.StageCompletion p c) ∧ FCall.Transition_Completed p ∈ Rest := by
  intro Rest
  induction Rest with
  | nil => intro _ x hx; simp at hx
  | cons c R ih =>
    intro h x hx
    cases c with
    | EmplaceValue y =>
      rcases List.mem_cons.1 hx with hxy | hxy
      · cases hxy
        obtain ⟨⟨p, c, h1, h2⟩, _⟩ := h
        exact ⟨p, c, h1, List.mem_cons_of_mem _ h2⟩
      · obtain ⟨p, c, h1, h2⟩ := ih h.2 x hxy
        exact ⟨p, c, h1, List.mem_cons_of_mem _ h2⟩
    | Cancel y => exact h.elim
    | Invoke G => exact h.elim
    | Transition_Completed q =>
      rcases List.mem_cons.1 hx with hxy | hxy
      · cases hxy
      · obtain ⟨p, c, h1, h2⟩ := ih h.2.2 x hxy
        exact ⟨p, c, h1, List.mem_cons_of_mem _ h2⟩

/-- The pending calls below the head satisfy the invariant of the pending calls. -/
theorem CallsOK_of_TailOK {Γ : FRoles} {Log : FLog} {s : TScheduler} {Rest : List FCall}
    (h1 : ∀ X, FCall.Transition_Completed X ∈ Rest → s.Find X = some (.Executing X true [] []))
    (h2 : TailOK Γ Rest) : CallsOK Γ Log s Rest := by
  refine ⟨h1, ?_⟩
  cases Rest with
  | nil => trivial
  | cons c R =>
    cases c with
    | EmplaceValue x => exact Or.inr h2
    | Cancel x => exact h2.elim
    | Invoke G => exact h2.elim
    | Transition_Completed q => exact h2

theorem GetId_eq_Completed_iff (s : TScheduler) (X : IdType) :
    s.GetId X = .Completed ↔ s.Find X = some (.Completed X) := by
  unfold TScheduler.GetId
  cases h : s.Find X with
  | none => simp
  | some st =>
    have := GetStageId_of_Find h
    cases st <;> simp_all [TStageState.GetId, TStageState.GetStageId]

theorem PromisesOf_of_Find {s : TScheduler} {X : IdType} {st : TStageState}
    (h : s.Find X = some st) : s.PromisesOf X = st.Promises := by
  unfold TScheduler.PromisesOf
  rw [h]

/-- `Transition_Completed`: the closing transition of a completing stage. -/
theorem SchedulerInv_Transition_Completed {GPI : Bool} {Γ : FRoles} {Log : FLog}
    {Rest : List FCall} {s : TScheduler} {X : IdType}
    (hI : SchedulerInv GPI Γ Log (.Transition_Completed X :: Rest) s) :
    SchedulerInv GPI Γ Log Rest (s.Transition X (.Completed X)) := by
  have hX : s.Find X = some (.Executing X true [] []) := hI.calls.1 X (List.mem_cons_self _ _)
  have hT : TailOK Γ (.Transition_Completed X :: Rest) := hI.calls.2
  obtain ⟨hT1, hT2, hT3⟩ := hT
  have hXok := hI.stages X _ hX
  obtain ⟨hX0, hX1, hX2, hX3, hX4, hX5⟩ := hXok
  have hX5' : (∀ j, j < (TasksOf Log X).length → FinishedOK Log s X j) ∧
      (∀ h, s.CompletionCallback h ≠ some (.CompleteWhenTasksFinished X)) := by
    obtain ⟨_, _, h3⟩ := hX5
    rcases h3 with ⟨h4, _⟩ | ⟨_, _, _, _, h8, h9, _⟩ | ⟨_, h5, _⟩ | ⟨_, h5, _⟩
    · cases h4
    · exact ⟨h8, h9⟩
    · exact absurd (List.mem_cons_self _ _) h5
    · exact absurd (List.mem_cons_self _ _) h5
  have hs' : s.Transition X (.Completed X) = s.Assign X (.Completed X) :=
    Transition_eq_Assign s X _ _ hX
  have hFindX : (s.Transition X (.Completed X)).Find X = some (.Completed X) :=
    Find_Transition_same s X _ rfl
  have hFindY : ∀ Y, Y ≠ X → (s.Transition X (.Completed X)).Find Y = s.Find Y :=
    fun Y hY => Find_Transition_other s X Y _ rfl hY
  have hF : Frame Γ Γ Log Log s (s.Transition X (.Completed X)) :=
    Frame.of_Futures (Transition_Futures s X _)
  have hD : ∀ p, IsDone s (.Transition_Completed X :: Rest) p →
      IsDone (s.Transition X (.Completed X)) Rest p := by
    apply IsDone_mono
    · intro p hp
      rw [GetId_eq_Completed_iff] at hp ⊢
      by_cases hpX : p = X
      · subst hpX; rw [hX] at hp; cases hp
      · rw [hFindY p hpX]; exact hp
    · intro p hp
      rcases List.mem_cons.1 hp with hp | hp
      · cases hp
        right
        rw [GetId_eq_Completed_iff]
        exact hFindX
      · exact Or.inl hp
  refine ⟨?_, ?_, ?_, ?_, ?_, ?_⟩
  · rw [Transition_Futures]; exact hI.roles
  · intro h hlt
    rw [Transition_Futures] at hlt
    obtain ⟨hc1, hc2⟩ := hI.cells h hlt
    refine ⟨CellOK_frame hF hD (Transition_Result _ _ _ _) (Transition_CompletionCallback _ _ _ _)
      ?_ ?_ hc1, CallbackOK_frame hF.roles (Transition_CompletionCallback _ _ _ _) ?_ ?_ hc2⟩
    · intro p _ hp
      rcases hp with hp | hp
      · left
        by_cases hpX : p = X
        · subst hpX
          rw [PromisesOf_of_Find hX] at hp
          simp [TStageState.Promises] at hp
        · unfold TScheduler.PromisesOf at hp ⊢
          rw [hFindY p hpX]
          exact hp
      · right
        rcases List.mem_cons.1 hp with hp | hp
        · cases hp
        · exact hp
    · intro _ _ T hc _ hl
      refine LinkOK_frame hF.results (fun hn => ⟨by simpa using hn, by simp⟩) (by simp)
        ?_ ?_ hl
      · intro hh; simp at hh
      · intro hh; simp at hh
    · intro Y hcb p F hY
      have hYX : Y ≠ X := by
        intro hYX; subst hYX; rw [hX] at hY; cases hY
      exact ⟨p, F, by rw [hFindY Y hYX]; exact hY⟩
    · intro Y hcb Ts Ps hY
      have hYX : Y ≠ X := by
        intro hYX; subst hYX; exact hX5'.2 h hcb
      exact ⟨Ts, Ps, by rw [hFindY Y hYX]; exact hY⟩
  · intro Y st' hY
    by_cases hYX : Y = X
    · subst hYX
      rw [hFindX] at hY
      cases hY
      refine ⟨hX0, fun P hP p hp => hD p (hX1 P hP p hp), hX2.1 rfl,
        ReleasedOK_frame hF rfl hX4, fun j hj => FinishedOK_frame hF (hX5'.1 j hj), hT1⟩
    · rw [hFindY Y hYX] at hY
      have hid := GetStageId_of_Find hY
      refine StageOK_frame hF hD (fun _ => Iff.rfl) Iff.rfl rfl ?_ ?_ ?_ ?_ ?_ ?_ ?_ ?_ ?_ ?_ ?_
        (hI.stages Y st' hY)
      · intro h _ hn; simpa using hn
      · intro p F _ t _ hn; simpa using hn
      · intro f _ hn; simpa using hn
      · intro X' b Ts Ps _ e _ hn; simpa using hn
      · intro h; simp
      · intro h; simp
      · intro a _ hn; simpa using hn
      · intro a _ hn; simpa using hn
      · simp only [List.head?_cons]
        constructor
        · intro hh; exact absurd hh (TailOK_head_ne_Invoke hT3 _)
        · intro hh; cases hh
      · simp only [List.head?_cons]
        constructor
        · intro hh; exact absurd hh (TailOK_head_ne_Invoke hT3 _)
        · intro hh; cases hh
      · rw [hid]
        constructor
        · intro hh; exact List.mem_cons_of_mem _ hh
        · intro hh
          rcases List.mem_cons.1 hh with hh | hh
          · cases hh; exact absurd rfl hYX
          · exact hh
  · intro Y hY
    have hYX : Y ≠ X := by
      intro hYX; subst hYX; rw [hFindX] at hY; cases hY
    rw [hFindY Y hYX] at hY
    exact hI.log Y hY
  · apply CallsOK_of_TailOK _ hT3
    intro Z hZ
    have hZX : Z ≠ X := by
      intro hZX; subst hZX; exact hT1 hZ
    rw [hFindY Z hZX]
    exact hI.calls.1 Z (List.mem_cons_of_mem _ hZ)
  · intro hG Y P
    rw [Transition_PrerequisitesByStageId]
    exact hI.map hG Y P

end Zkz.StagedExecution

namespace Zkz.StagedExecution

/-! ## Cycle detection -/

theorem UnvisitedEntries_le (M : FPrerequisitesByStageId) (Cycle : FCycle) :
    UnvisitedEntries M Cycle ≤ M.length := by
  unfold UnvisitedEntries
  exact List.length_filter_le _ _

theorem mem_keys_of_Find {M : FPrerequisitesByStageId} {x : IdType} {Ps : List IdType}
    (h : M.Find x = some Ps) : (x, Ps) ∈ M := by
  unfold FPrerequisitesByStageId.Find at h
  induction M with
  | nil => simp at h
  | cons e M ih =>
    obtain ⟨k, v⟩ := e
    simp only [List.lookup_cons] at h
    by_cases hk : x = k
    · subst hk
      simp at h
      subst h
      simp
    · have : (x == k) = false := by simpa using hk
      rw [this] at h
      exact List.mem_cons_of_mem _ (ih h)

theorem length_filter_lt_of_imp {α : Type} (p q : α → Bool) (l : List α)
    (himp : ∀ a, q a = true → p a = true) (a : α) (ha : a ∈ l) (hp : p a = true)
    (hq : q a = false) : (l.filter q).length < (l.filter p).length := by
  induction l with
  | nil => simp at ha
  | cons e l ih =>
    have hle : (l.filter q).length ≤ (l.filter p).length :=
      (List.monotone_filter_right l himp).length_le
    rcases List.mem_cons.1 ha with he | hm
    · subst he
      simp only [List.filter_cons, hp, hq, if_true, List.length_cons]
      simp only [Bool.false_eq_true, ↓reduceIte]
      omega
    · have := ih hm
      simp only [List.filter_cons]
      cases hqe : q e
      · cases hpe : p e <;> simp <;> omega
      · simp [himp e hqe]
        omega

theorem UnvisitedEntries_push_lt {M : FPrerequisitesByStageId} {Cycle : FCycle} {x : IdType}
    {Ps : List IdType} (h : M.Find x = some Ps) (hx : x ∉ Cycle) :
    UnvisitedEntries M (Cycle ++ [x]) < UnvisitedEntries M Cycle := by
  have hmem := mem_keys_of_Find h
  unfold UnvisitedEntries
  apply length_filter_lt_of_imp _ _ _ _ (x, Ps) hmem
  · simpa using hx
  · simp
  · intro a ha
    simp only [List.mem_append, List.mem_singleton, not_or, decide_eq_true_eq] at ha ⊢
    exact ha.1

theorem CheckDependencyCycleLoop_total (Recurse : FCycle → Option (Bool × FCycle))
    (Cycle : FCycle)
    (hrec : ∀ q, q ∉ Cycle → ∃ b C', Recurse (Cycle ++ [q]) = some (b, C') ∧
      (b = false → C' = Cycle ++ [q])) :
    ∀ Ps : List IdType, ∃ b C', CheckDependencyCycleLoop Recurse Ps Cycle = some (b, C') ∧
      (b = false → C' = Cycle) := by
  intro Ps
  induction Ps with
  | nil => exact ⟨false, Cycle, rfl, fun _ => rfl⟩
  | cons q Rest ih =>
    unfold CheckDependencyCycleLoop
    by_cases hq : q ∈ Cycle
    · simp only [hq, if_true]
      exact ⟨true, _, rfl, by simp⟩
    · simp only [hq, if_false]
      obtain ⟨b, C', hr, hC⟩ := hrec q hq
      rw [hr]
      cases b with
      | true => exact ⟨true, C', rfl, by simp⟩
      | false =>
        simp only
        rw [hC rfl, List.dropLast_concat]
        exact ih

theorem CheckDependencyCycleFuel_total_aux (M : FPrerequisitesByStageId) :
    ∀ (Fuel : Nat) (Cycle : FCycle),
      (UnvisitedEntries M Cycle + 2 ≤ Fuel ∨
        (1 ≤ Fuel ∧ ∀ Last, Cycle.getLast? = some Last → M.Find Last = none)) →
      ∃ b C', CheckDependencyCycleFuel M Fuel Cycle = some (b, C') ∧ (b = false → C' = Cycle) := by
  intro Fuel
  induction Fuel with
  | zero => intro Cycle h; omega
  | succ Fuel ih =>
    intro Cycle h
    unfold CheckDependencyCycleFuel
    cases hl : Cycle.getLast? with
    | none => exact ⟨false, Cycle, rfl, fun _ => rfl⟩
    | some Last =>
      simp only
      cases hf : M.Find Last with
      | none => exact ⟨false, Cycle, rfl, fun _ => rfl⟩
      | some Ps =>
        simp only
        apply CheckDependencyCycleLoop_total
        intro q hq
        apply ih
        rcases h with h | h
        · cases hfq : M.Find q with
          | none =>
            right
            refine ⟨by omega, ?_⟩
            intro L hL
            simp at hL
            subst hL
            exact hfq
          | some Qs =>
            left
            have := UnvisitedEntries_push_lt hfq hq
            omega
        · rw [h.2 Last hl] at hf
          cases hf

/-- The recursion budget of `CheckDependencyCycle` is never exhausted. -/
theorem CheckDependencyCycleFuel_total (M : FPrerequisitesByStageId) (Cycle : FCycle) :
    CheckDependencyCycleFuel M (CheckDependencyCycleBudget M) Cycle
      = some (CheckDependencyCycle Cycle M) := by
  obtain ⟨b, C', h, _⟩ := CheckDependencyCycleFuel_total_aux M (CheckDependencyCycleBudget M) Cycle
    (Or.inl (by have := UnvisitedEntries_le M Cycle; unfold CheckDependencyCycleBudget; omega))
  unfold CheckDependencyCycle
  rw [h]
  rfl

theorem CheckDependencyCycle_false (M : FPrerequisitesByStageId) (Cycle : FCycle)
    (h : (CheckDependencyCycle Cycle M).1 = false) : (CheckDependencyCycle Cycle M).2 = Cycle := by
  obtain ⟨b, C', h1, h2⟩ := CheckDependencyCycleFuel_total_aux M (CheckDependencyCycleBudget M)
    Cycle (Or.inl (by have := UnvisitedEntries_le M Cycle; unfold CheckDependencyCycleBudget; omega))
  have h3 := CheckDependencyCycleFuel_total M Cycle
  rw [h1] at h3
  have h4 : CheckDependencyCycle Cycle M = (b, C') := (Option.some.inj h3).symm
  rw [h4] at h ⊢
  exact h2 h

theorem CheckDependencyCycleLoop_detects (Recurse : FCycle → Option (Bool × FCycle))
    (Cycle : FCycle) (x : IdType)
    (hrec : ∀ q, q ∉ Cycle → ∃ b C', Recurse (Cycle ++ [q]) = some (b, C') ∧
      (b = false → C' = Cycle ++ [q]))
    (hx : x ∉ Cycle → ∃ C', Recurse (Cycle ++ [x]) = some (true, C')) :
    ∀ Ps : List IdType, x ∈ Ps → ∃ C', CheckDependencyCycleLoop Recurse Ps Cycle = some (true, C') := by
  intro Ps
  induction Ps with
  | nil => intro h; simp at h
  | cons q Rest ih =>
    intro hmem
    unfold CheckDependencyCycleLoop
    by_cases hq : q ∈ Cycle
    · simp only [hq, if_true]
      exact ⟨_, rfl⟩
    · simp only [hq, if_false]
      by_cases hqx : q = x
      · subst hqx
        obtain ⟨C', hC⟩ := hx hq
        rw [hC]
        exact ⟨C', rfl⟩
      · obtain ⟨b, C', hr, hC⟩ := hrec q hq
        rw [hr]
        cases b with
        | true => exact ⟨C', rfl⟩
        | false =>
          simp only
          rw [hC rfl, List.dropLast_concat]
          apply ih
          rcases List.mem_cons.1 hmem with h | h
          · exact absurd h.symm hqx
          · exact h

theorem CheckDependencyCycleFuel_detects (M : FPrerequisitesByStageId) :
    ∀ (Fuel : Nat) (Cycle : FCycle) (Last : IdType), Cycle.getLast? = some Last →
      UnvisitedEntries M Cycle + 2 ≤ Fuel →
      (∃ y, y ∈ Cycle ∧ Relation.TransGen (IsRecordedPrerequisite M) Last y) →
      ∃ C', CheckDependencyCycleFuel M Fuel Cycle = some (true, C') := by
  intro Fuel
  induction Fuel with
  | zero => intro Cycle Last _ h; omega
  | succ Fuel ih =>
    intro Cycle Last hl hfuel ⟨y, hy, hpath⟩
    obtain ⟨x, ⟨Ps, hPs, hxPs⟩, hrest⟩ : ∃ x, IsRecordedPrerequisite M Last x ∧
        (x = y ∨ Relation.TransGen (IsRecordedPrerequisite M) x y) := by
      rcases Relation.TransGen.head'_iff.1 hpath with ⟨x, hx, hxy⟩
      refine ⟨x, hx, ?_⟩
      rcases Relation.reflTransGen_iff_eq_or_transGen.1 hxy with h | h
      · exact Or.inl h.symm
      · exact Or.inr h
    unfold CheckDependencyCycleFuel
    simp only [hl, hPs]
    apply CheckDependencyCycleLoop_detects _ _ x _ _ _ hxPs
    · intro q hq
      apply CheckDependencyCycleFuel_total_aux
      cases hfq : M.Find q with
      | none =>
        right
        refine ⟨by omega, ?_⟩
        intro L hL
        simp at hL
        subst hL
        exact hfq
      | some Qs =>
        left
        have := UnvisitedEntries_push_lt hfq hq
        omega
    · intro hx
      have hxy : Relation.TransGen (IsRecordedPrerequisite M) x y := by
        rcases hrest with h | h
        · subst h; exact absurd hy hx
        · exact h
      obtain ⟨Qs, hQs⟩ : ∃ Qs, M.Find x = some Qs := by
        rcases Relation.TransGen.head'_iff.1 hxy with ⟨z, ⟨Qs, hQs, _⟩, _⟩
        exact ⟨Qs, hQs⟩
      apply ih (Cycle ++ [x]) x (by simp)
      · have := UnvisitedEntries_push_lt hQs hx
        omega
      · exact ⟨y, by simp [hy], hxy⟩

theorem DebugAddStageLoop_detects (M : FPrerequisitesByStageId) (StageId : IdType) :
    ∀ Ps : List IdType,
      (∃ p, p ∈ Ps ∧ Relation.TransGen (IsRecordedPrerequisite M) p StageId) →
      ∃ Cycle, DebugAddStageLoop M Ps [StageId] = some Cycle := by
  intro Ps
  induction Ps with
  | nil => intro ⟨p, hp, _⟩; simp at hp
  | cons q Rest ih =>
    intro ⟨p, hp, hpath⟩
    unfold DebugAddStageLoop
    cases hc : CheckDependencyCycle ([StageId] ++ [q]) M with
    | mk b C' =>
      cases b with
      | true => exact ⟨C', rfl⟩
      | false =>
        simp only
        have h2 := CheckDependencyCycle_false M ([StageId] ++ [q]) (by rw [hc])
        rw [hc] at h2
        simp only at h2
        rw [h2, List.dropLast_concat]
        apply ih
        rcases List.mem_cons.1 hp with h | h
        · subst h
          exfalso
          obtain ⟨C'', hC''⟩ := CheckDependencyCycleFuel_detects M (CheckDependencyCycleBudget M)
            ([StageId] ++ [p]) p (by simp)
            (by have := UnvisitedEntries_le M ([StageId] ++ [p]); unfold CheckDependencyCycleBudget; omega)
            ⟨StageId, by simp, hpath⟩
          rw [CheckDependencyCycleFuel_total, hc] at hC''
          cases hC''
        · exact ⟨p, h, hpath⟩

/-- C8. Cycle detection is complete: with inspections enabled, if the new stage id has no
entry in the recorded prerequisite map and can be reached from one of the declared
prerequisites by following one or more recorded prerequisite edges, `AddStage` returns a
`CircularDependency` error that carries the new stage id and the declared prerequisites. -/
theorem AddStage_reports_reachable_cycle (s : TScheduler) (NewId : IdType) (P : List IdType)
    (hnew : s.PrerequisitesByStageId.Find NewId = none)
    (hreach : ∃ p, p ∈ P ∧
      Relation.TransGen (IsRecordedPrerequisite s.PrerequisitesByStageId) p NewId) :
    ∃ Cycle, (s.AddStage true NewId P).1 = .error (.CircularDependency NewId P Cycle) := by
  obtain ⟨Cycle, hC⟩ := DebugAddStageLoop_detects s.PrerequisitesByStageId NewId P hreach
  refine ⟨Cycle, ?_⟩
  have hc : s.PrerequisitesByStageId.Contains NewId = false := by
    unfold FPrerequisitesByStageId.Contains
    unfold FPrerequisitesByStageId.Find at hnew
    rw [hnew]
    rfl
  simp only [TScheduler.AddStage, TScheduler.AddStageCalls, if_true,
    Collect_PrerequisitesByStageId, DebugAddStage, hc, hC]
  simp

/-- C8, witness: the scenario of the test `PhaseDependencyCycleReturnsError`
(A = 1, B = 2, C = 3, D = 4, E = 5). -/
theorem AddStage_reports_reachable_cycle_witness :
    FPrerequisitesByStageId.Find [(4, [5]), (5, []), (1, [4, 2, 5]), (3, [4, 1, 5])] 2 = none ∧
    ∃ Cycle, (TScheduler.AddStage true
        { PrerequisitesByStageId := [(4, [5]), (5, []), (1, [4, 2, 5]), (3, [4, 1, 5])] }
        2 [4, 3, 5]).1 = .error (.CircularDependency 2 [4, 3, 5] Cycle) :=
  ⟨by decide,
    AddStage_reports_reachable_cycle
      { PrerequisitesByStageId := [(4, [5]), (5, []), (1, [4, 2, 5]), (3, [4, 1, 5])] }
      2 [4, 3, 5] (by decide)
      ⟨3, by decide,
        Relation.TransGen.tail (b := 1)
          (Relation.TransGen.single ⟨[4, 1, 5], by decide, by decide⟩)
          ⟨[4, 2, 5], by decide, by decide⟩⟩⟩

/-- C9 (code at the failing input). With inspections enabled, `AddStage(1, {1})` on a fresh
scheduler succeeds and records stage 1 as its own prerequisite: the recorded relation has a
cycle of length one. -/
theorem AddStage_records_self_prerequisite :
    ∃ r, Exec true [.AddStage 1 [1]] = some r ∧
      r.Observations = [.AddStage 1 [1] (.ok ())] ∧
      r.Scheduler.PrerequisitesByStageId = [(1, [1])] ∧
      Relation.TransGen (IsRecordedPrerequisite r.Scheduler.PrerequisitesByStageId) 1 1 :=
  ⟨_, rfl, by decide, by decide, Relation.TransGen.single ⟨[1], by decide, by decide⟩⟩

/-- C10 (code at the failing input). After `AddStage(1, {1})` was accepted, `AddStage(2, {1})`
returns a `CircularDependency` error whose cycle `[2, 1, 1]` does not end with the new id. -/
theorem AddStage_cycle_not_closed_at_new_id :
    ∃ r, Exec true [.AddStage 1 [1], .AddStage 2 [1]] = some r ∧
      r.Observations = [.AddStage 1 [1] (.ok ()),
        .AddStage 2 [1] (.error (.CircularDependency 2 [1] [2, 1, 1]))] :=
  ⟨_, rfl, by decide⟩

end Zkz.StagedExecution

namespace Zkz.StagedExecution

/-! ## Resolving a future -/

theorem Resolve_Result_same (s : TScheduler) (h0 : FFutureHandle) (r : FCancelableResult)
    (hlt : h0 < s.Futures.length) :
    (s.SetFuture h0 { Result := some r }).Result h0 = some r :=
  Result_SetFuture_same s h0 _ hlt

theorem Resolve_CompletionCallback_same (s : TScheduler) (h0 : FFutureHandle)
    (r : FCancelableResult) : (s.SetFuture h0 { Result := some r }).CompletionCallback h0 = none := by
  by_cases hlt : h0 < s.Futures.length
  · exact CompletionCallback_SetFuture_same s h0 _ hlt
  · apply CompletionCallback_of_lt_none
    simpa using Nat.le_of_not_lt hlt

theorem Resolve_CompletionCallback_none (s : TScheduler) (h0 : FFutureHandle)
    (r : FCancelableResult) (x : FFutureHandle) (hx : s.CompletionCallback x = none) :
    (s.SetFuture h0 { Result := some r }).CompletionCallback x = none := by
  by_cases hxh : x = h0
  · subst hxh; exact Resolve_CompletionCallback_same s x r
  · rw [CompletionCallback_SetFuture_other s h0 x _ hxh]; exact hx

theorem Resolve_CompletionCallback_iff (s : TScheduler) (h0 : FFutureHandle)
    (r : FCancelableResult) (x : FFutureHandle) (F : FContinuation) :
    (s.SetFuture h0 { Result := some r }).CompletionCallback x = some F ↔
      x ≠ h0 ∧ s.CompletionCallback x = some F := by
  by_cases hxh : x = h0
  · subst hxh
    rw [Resolve_CompletionCallback_same]
    simp
  · rw [CompletionCallback_SetFuture_other s h0 x _ hxh]
    simp [hxh]

theorem Resolve_Frame {Γ : FRoles} {Log : FLog} {s : TScheduler} {h0 : FFutureHandle}
    (r : FCancelableResult) (hpend : s.Result h0 = none) :
    Frame Γ Γ Log Log s (s.SetFuture h0 { Result := some r }) := by
  refine ⟨fun _ _ h => h, fun _ _ _ h => h, ?_⟩
  intro x rx hx
  have hxh : x ≠ h0 := by
    intro hxh; subst hxh; rw [hpend] at hx; cases hx
  rw [Result_SetFuture_other s h0 x _ hxh]
  exact hx

theorem lt_of_role {GPI : Bool} {Γ : FRoles} {Log : FLog} {Calls : List FCall} {s : TScheduler}
    (hI : SchedulerInv GPI Γ Log Calls s) {h : FFutureHandle} {r : FRole}
    (hr : Γ[h]? = some r) : h < s.Futures.length := by
  rw [← hI.roles]
  by_contra hlt
  rw [List.getElem?_eq_none (Nat.le_of_not_lt hlt)] at hr
  cases hr

/-- Resolving the pending future `h0`: the cells other than `h0` and the stages that do not
wait for `h0` keep their invariant. -/
theorem SchedulerInv_Resolve {GPI : Bool} {Γ : FRoles} {Log : FLog} {Calls Calls' : List FCall}
    {s : TScheduler} {h0 : FFutureHandle} {r : FCancelableResult}
    (hI : SchedulerInv GPI Γ Log Calls s) (hlt : h0 < s.Futures.length)
    (hpend : s.Result h0 = none)
    (hEV : ∀ h, h ≠ h0 → FCall.EmplaceValue h ∈ Calls → FCall.EmplaceValue h ∈ Calls')
    (hheadPN : ∀ T f, f ≠ h0 → Calls.head? = some (.Invoke (.PostNotifyCompletion T f)) →
      Calls'.head? = some (.Invoke (.PostNotifyCompletion T f)))
    (hheadC : ∀ f, f ≠ h0 → Calls.head? = some (.Cancel f) → Calls'.head? = some (.Cancel f))
    (hlink : ∀ T f, s.CompletionCallback h0 = some (.PostNotifyCompletion T f) →
      (r = .Value none ∧ Calls'.head? = some (.Invoke (.PostNotifyCompletion T f))) ∨
      (r = .Canceled ∧ Calls'.head? = some (.Cancel f)))
    (hnoSE : ∀ Y, Calls.head? ≠ some (.Invoke (.StartExecutingWhenPrerequisitesComplete Y)))
    (hnoCW : ∀ Y, Calls.head? ≠ some (.Invoke (.CompleteWhenTasksFinished Y)))
    (hSE : ∀ Y, Calls'.head? = some (.Invoke (.StartExecutingWhenPrerequisitesComplete Y)) →
      s.CompletionCallback h0 = some (.StartExecutingWhenPrerequisitesComplete Y))
    (hCW : ∀ Y, Calls'.head? = some (.Invoke (.CompleteWhenTasksFinished Y)) →
      s.CompletionCallback h0 = some (.CompleteWhenTasksFinished Y))
    (hTC : ∀ Y, FCall.Transition_Completed Y ∈ Calls' ↔ FCall.Transition_Completed Y ∈ Calls)
    (hprom : ∀ Y st, s.Find Y = some st → h0 ∉ st.Promises)
    (hTE : ∀ X j, Γ[h0]? ≠ some (.TaskExecution X j))
    (hcell : CellOK Γ Log Calls' (s.SetFuture h0 { Result := some r }) h0)
    (hstage : ∀ Y st, s.Find Y = some st →
      (s.CompletionCallback h0 = some (.StartExecutingWhenPrerequisitesComplete Y) ∨
        s.CompletionCallback h0 = some (.CompleteWhenTasksFinished Y)) →
      StageOK Γ Log Calls' (s.SetFuture h0 { Result := some r }) st)
    (hcalls : CallsOK Γ Log (s.SetFuture h0 { Result := some r }) Calls') :
    SchedulerInv GPI Γ Log Calls' (s.SetFuture h0 { Result := some r }) := by
  have hF : Frame Γ Γ Log Log s (s.SetFuture h0 { Result := some r }) := Resolve_Frame r hpend
  have hD : ∀ p, IsDone s Calls p → IsDone (s.SetFuture h0 { Result := some r }) Calls' p := by
    intro p hp
    rcases hp with hp | hp
    · exact Or.inl hp
    · exact Or.inr ((hTC p).2 hp)
  refine ⟨?_, ?_, ?_, ?_, hcalls, ?_⟩
  · rw [SetFuture_Futures, List.length_set]; exact hI.roles
  · intro h hlt'
    rw [SetFuture_Futures, List.length_set] at hlt'
    by_cases hh0 : h = h0
    · subst hh0
      refine ⟨hcell, ?_⟩
      unfold CallbackOK
      rw [Resolve_CompletionCallback_same]
      trivial
    · obtain ⟨hc1, hc2⟩ := hI.cells h hlt'
      refine ⟨CellOK_frame hF hD (Result_SetFuture_other s h0 h _ hh0)
        (CompletionCallback_SetFuture_other s h0 h _ hh0) ?_ ?_ hc1,
        CallbackOK_frame hF.roles (CompletionCallback_SetFuture_other s h0 h _ hh0)
          (fun X _ p F hX => ⟨p, F, hX⟩) (fun X _ Ts Ps hX => ⟨Ts, Ps, hX⟩) hc2⟩
      · intro p _ hp
        rcases hp with hp | hp
        · exact Or.inl hp
        · exact Or.inr (hEV h hh0 hp)
      · intro X j T hc hΓ hl
        by_cases hch : hc = h0
        · subst hch
          rcases hl with ⟨h1, h2, h3⟩ | ⟨h1, _⟩ | ⟨h1, _⟩
          · have h3' : (s.SetFuture hc { Result := some r }).Result h = none := by
              rw [Result_SetFuture_other s hc h _ hh0]; exact h3
            rcases hlink T h h2 with ⟨hr, hhead⟩ | ⟨hr, hhead⟩
            · subst hr
              exact Or.inr (Or.inl ⟨Resolve_Result_same s hc _ hlt, Or.inr ⟨h3', hhead⟩⟩)
            · subst hr
              exact Or.inr (Or.inr ⟨Resolve_Result_same s hc _ hlt, Or.inr ⟨h3', hhead⟩⟩)
          · rw [hpend] at h1; cases h1
          · rw [hpend] at h1; cases h1
        · refine LinkOK_frame hF.results ?_ ?_ (hheadPN T h hh0) (hheadC h hh0) hl
          · intro hn
            exact ⟨by rw [Result_SetFuture_other s h0 hc _ hch]; exact hn,
              fun hh => by rw [CompletionCallback_SetFuture_other s h0 hc _ hch]; exact hh⟩
          · intro hn
            rw [Result_SetFuture_other s h0 h _ hh0]; exact hn
  · intro Y st hY
    rw [SetFuture_Find] at hY
    by_cases hsp : s.CompletionCallback h0 = some (.StartExecutingWhenPrerequisitesComplete Y) ∨
        s.CompletionCallback h0 = some (.CompleteWhenTasksFinished Y)
    · exact hstage Y st hY hsp
    · have hsp1 : s.CompletionCallback h0 ≠ some (.StartExecutingWhenPrerequisitesComplete Y) :=
        fun hh => hsp (Or.inl hh)
      have hsp2 : s.CompletionCallback h0 ≠ some (.CompleteWhenTasksFinished Y) :=
        fun hh => hsp (Or.inr hh)
      have hid := GetStageId_of_Find hY
      have hOK := hI.stages Y st hY
      have hne : ∀ x, x ≠ h0 → s.Result x = none →
          (s.SetFuture h0 { Result := some r }).Result x = none := by
        intro x hx hn
        rw [Result_SetFuture_other s h0 x _ hx]; exact hn
      refine StageOK_frame hF hD (fun _ => Iff.rfl) Iff.rfl rfl ?_ ?_ ?_ ?_ ?_ ?_ ?_ ?_ ?_ ?_ ?_
        hOK
      · intro h hh hn
        apply hne h _ hn
        intro hh0; subst hh0
        exact hprom Y st hY hh
      · intro p F hst t ht hn
        apply hne _ _ hn
        intro hh0
        have hPT : PendingTasksOK Γ Log s p.StageId p.Tasks := by
          rcases hst with hst | hst
          · subst hst; exact hOK.2.2.1
          · subst hst; exact hOK.2.2.2.1
        obtain ⟨j, hj⟩ := List.getElem?_of_mem ht
        have := (hPT.2 j t hj).1
        rw [hh0] at this
        exact hTE _ _ this
      · intro f _ hn; exact Resolve_CompletionCallback_none s h0 r f hn
      · intro X b Ts Ps _ e _ hn; exact Resolve_CompletionCallback_none s h0 r _ hn
      · intro h
        rw [hid, Resolve_CompletionCallback_iff]
        constructor
        · intro hh; exact hh.2
        · intro hh
          refine ⟨?_, hh⟩
          intro hh0; subst hh0; exact hsp1 hh
      · intro h
        rw [hid, Resolve_CompletionCallback_iff]
        constructor
        · intro hh; exact hh.2
        · intro hh
          refine ⟨?_, hh⟩
          intro hh0; subst hh0; exact hsp2 hh
      · intro a ha hn
        rw [hid] at ha
        apply hne a _ hn
        intro hh0; subst hh0; exact hsp1 ha
      · intro a ha hn
        rw [hid] at ha
        apply hne a _ hn
        intro hh0; subst hh0; exact hsp2 ha
      · rw [hid]
        constructor
        · intro hh; exact absurd (hSE Y hh) hsp1
        · intro hh; exact absurd hh (hnoSE Y)
      · rw [hid]
        constructor
        · intro hh; exact absurd (hCW Y hh) hsp2
        · intro hh; exact absurd hh (hnoCW Y)
      · exact hTC _
  · intro Y hY
    rw [SetFuture_Find] at hY
    exact hI.log Y hY
  · intro hG Y P
    rw [SetFuture_PrerequisitesByStageId]
    exact hI.map hG Y P

end Zkz.StagedExecution

namespace Zkz.StagedExecution

/-! ## Fulfilling and canceling promises -/

/-- The invariant does not mention the flag of the failed `check`. -/
theorem SchedulerInv_FailCheck {GPI : Bool} {Γ : FRoles} {Log : FLog} {Calls : List FCall}
    {s : TScheduler} (hI : SchedulerInv GPI Γ Log Calls s) :
    SchedulerInv GPI Γ Log Calls s.FailCheck :=
  ⟨hI.roles, hI.cells, hI.stages, hI.log, hI.calls, hI.map⟩

theorem EmplaceValue_resolved {s : TScheduler} {h0 : FFutureHandle} {r : FCancelableResult}
    (hr : s.Result h0 = some r) : EmplaceValue s h0 = (s.FailCheck, []) := by
  unfold EmplaceValue
  unfold TScheduler.Result at hr
  cases hc : s.Futures[h0]? with
  | none => rw [hc] at hr; cases hr
  | some c =>
    rw [hc] at hr
    simp only at hr ⊢
    rw [hr]

theorem EmplaceValue_pending {s : TScheduler} {h0 : FFutureHandle}
    (hlt : h0 < s.Futures.length) (hr : s.Result h0 = none) :
    EmplaceValue s h0 = (s.SetFuture h0 { Result := some (.Value none) },
      match s.CompletionCallback h0 with
      | some F => [.Invoke F]
      | none => []) := by
  unfold EmplaceValue
  unfold TScheduler.Result at hr
  unfold TScheduler.CompletionCallback
  cases hc : s.Futures[h0]? with
  | none =>
    rw [List.getElem?_eq_none_iff] at hc
    exact absurd hlt (Nat.not_lt.2 hc)
  | some c =>
    rw [hc] at hr
    simp only at hr ⊢
    rw [hr]
    all_goals rfl

theorem Cancel_pending {s : TScheduler} {h0 : FFutureHandle}
    (hlt : h0 < s.Futures.length) (hr : s.Result h0 = none) :
    Cancel s h0 = (s.SetFuture h0 { Result := some .Canceled },
      match s.CompletionCallback h0 with
      | some F => DestroyContinuation F
      | none => []) := by
  unfold Cancel
  unfold TScheduler.Result at hr
  unfold TScheduler.CompletionCallback
  cases hc : s.Futures[h0]? with
  | none =>
    rw [List.getElem?_eq_none_iff] at hc
    exact absurd hlt (Nat.not_lt.2 hc)
  | some c =>
    rw [hc] at hr
    simp only at hr ⊢
    rw [hr]
    all_goals rfl

/-- A call at the head that does nothing. -/
theorem SchedulerInv_pop {GPI : Bool} {Γ : FRoles} {Log : FLog} {Rest : List FCall}
    {s : TScheduler} {h0 : FFutureHandle} {r : FCancelableResult}
    (hI : SchedulerInv GPI Γ Log (.EmplaceValue h0 :: Rest) s)
    (hT : TailOK Γ Rest) (hr : s.Result h0 = some r) : SchedulerInv GPI Γ Log Rest s := by
  have hF : Frame Γ Γ Log Log s s := Frame.refl _ _ _
  have hD : ∀ p, IsDone s (.EmplaceValue h0 :: Rest) p → IsDone s Rest p := by
    intro p hp
    rcases hp with hp | hp
    · exact Or.inl hp
    · rcases List.mem_cons.1 hp with hp | hp
      · cases hp
      · exact Or.inr hp
  have hTC : ∀ Y, FCall.Transition_Completed Y ∈ Rest ↔
      FCall.Transition_Completed Y ∈ FCall.EmplaceValue h0 :: Rest := by
    intro Y
    constructor
    · intro hh; exact List.mem_cons_of_mem _ hh
    · intro hh
      rcases List.mem_cons.1 hh with hh | hh
      · cases hh
      · exact hh
  refine ⟨hI.roles, ?_, ?_, hI.log, ?_, hI.map⟩
  · intro h hlt
    obtain ⟨hc1, hc2⟩ := hI.cells h hlt
    refine ⟨CellOK_frame hF hD rfl rfl ?_ ?_ hc1, hc2⟩
    · intro p hn hp
      rcases hp with hp | hp
      · exact Or.inl hp
      · rcases List.mem_cons.1 hp with hp | hp
        · cases hp
          rw [hr] at hn; cases hn
        · exact Or.inr hp
    · intro X j T hc _ hl
      refine LinkOK_frame hF.results (fun hn => ⟨hn, fun hh => hh⟩) (fun hn => hn) ?_ ?_ hl
      · intro hh; simp at hh
      · intro hh; simp at hh
  · intro Y st hY
    refine StageOK_frame hF hD (fun _ => Iff.rfl) Iff.rfl rfl ?_ ?_ ?_ ?_ ?_ ?_ ?_ ?_ ?_ ?_ ?_
      (hI.stages Y st hY)
    · intro h _ hn; exact hn
    · intro p F _ t _ hn; exact hn
    · intro f _ hn; exact hn
    · intro X' b Ts Ps _ e _ hn; exact hn
    · intro h; exact Iff.rfl
    · intro h; exact Iff.rfl
    · intro a _ hn; exact hn
    · intro a _ hn; exact hn
    · simp only [List.head?_cons]
      constructor
      · intro hh; exact absurd hh (TailOK_head_ne_Invoke hT _)
      · intro hh; cases hh
    · simp only [List.head?_cons]
      constructor
      · intro hh; exact absurd hh (TailOK_head_ne_Invoke hT _)
      · intro hh; cases hh
    · exact hTC _
  · exact CallsOK_of_TailOK (fun X hX => hI.calls.1 X (List.mem_cons_of_mem _ hX)) hT

end Zkz.StagedExecution

namespace Zkz.StagedExecution

/-! ## Resolving the future a stage waits for -/

/-- The future `h0` that the drain of an executing stage waits for is resolved. -/
theorem StageOK_drain_token {GPI : Bool} {Γ : FRoles} {Log : FLog} {Calls Calls' : List FCall}
    {s : TScheduler} {h0 : FFutureHandle} {r : FCancelableResult} {X : IdType}
    {st : TStageState}
    (hI : SchedulerInv GPI Γ Log Calls s) (hlt : h0 < s.Futures.length)
    (hpend : s.Result h0 = none)
    (hcb : s.CompletionCallback h0 = some (.CompleteWhenTasksFinished X))
    (hY : s.Find X = some st)
    (hTCno : ∀ Y, FCall.Transition_Completed Y ∉ Calls)
    (hTCno' : ∀ Y, FCall.Transition_Completed Y ∉ Calls')
    (hcase : ∀ j, (Γ[h0]? = some (.TaskCompletion X j) ∨ Γ[h0]? = some (.PostNotify X j)) →
      (Calls'.head? = some (.Invoke (.CompleteWhenTasksFinished X)) ∧
        FinishedOK Log (s.SetFuture h0 { Result := some r }) X j) ∨
      (Calls'.head? ≠ some (.Invoke (.CompleteWhenTasksFinished X)) ∧
        ∃ T he hc, (TasksOf Log X)[j]? = some (T, he) ∧
          (s.SetFuture h0 { Result := some r }).Result he = some (.Value (some hc)) ∧
          (s.SetFuture h0 { Result := some r }).Result hc = some .Canceled)) :
    StageOK Γ Log Calls' (s.SetFuture h0 { Result := some r }) st := by
  have hF : Frame Γ Γ Log Log s (s.SetFuture h0 { Result := some r }) := Resolve_Frame r hpend
  have hD : ∀ p, IsDone s Calls p → IsDone (s.SetFuture h0 { Result := some r }) Calls' p := by
    intro p hp
    rcases hp with hp | hp
    · exact Or.inl hp
    · exact absurd hp (hTCno p)
  have hCB := (hI.cells h0 hlt).2
  unfold CallbackOK at hCB
  rw [hcb] at hCB
  obtain ⟨⟨j0, hj0⟩, Ts, Ps, hX⟩ := hCB
  rw [hX] at hY
  cases hY
  obtain ⟨hX0, hX1, hX2, hX3, hX4, hX5⟩ := hI.stages X _ hX
  have hnoCb : ∀ h, (s.SetFuture h0 { Result := some r }).CompletionCallback h = some
      (.CompleteWhenTasksFinished X) → h ≠ h0 ∧
        s.CompletionCallback h = some (.CompleteWhenTasksFinished X) :=
    fun h hh => (Resolve_CompletionCallback_iff s h0 r h _).1 hh
  refine ⟨hX0, fun P hP p hp => hD p (hX1 P hP p hp), hX2, ?_, ReleasedOK_frame hF rfl hX4, ?_⟩
  · refine PromisesOK_frame hF.roles ?_ hX3
    intro h hh hn
    have hne : h ≠ h0 := by
      intro hh0; subst hh0
      obtain ⟨⟨c, hc⟩, _⟩ := hX3 h hh
      rcases hj0 with hj0 | hj0 <;> rw [hc] at hj0 <;> cases hj0
    rw [Result_SetFuture_other s h0 h _ hne]; exact hn
  · obtain ⟨h1, h2, h3⟩ := hX5
    refine ⟨fun j e hj => EntryOK_frame hF
      (Resolve_CompletionCallback_none s h0 r _) (h1 j e hj), h2, ?_⟩
    rcases h3 with ⟨h4, _⟩ | ⟨_, _, _, _, _, h9, _⟩ | ⟨_, _, _, h7, _⟩ | ⟨h4, h5, h6, h7, h8, h9⟩
    · cases h4
    · exact absurd hcb (h9 h0)
    · exact absurd hcb (h7 h0)
    · rcases h9 with ⟨a, h10, h11, h12⟩ | ⟨h10, _⟩
      · have ha : h0 = a := (h10 h0).1 hcb
        subst ha
        have hnone : ∀ h, (s.SetFuture h0 { Result := some r }).CompletionCallback h ≠ some
            (.CompleteWhenTasksFinished X) := by
          intro h hh
          obtain ⟨hne, hh'⟩ := hnoCb h hh
          exact hne ((h10 h).1 hh')
        rcases hcase Ts.length h12 with ⟨hh, hfin⟩ | ⟨hh, hst⟩
        · refine Or.inr (Or.inr (Or.inl ⟨h4, hTCno' X, hh, hnone, ?_⟩))
          intro j hj hj'
          rcases Nat.eq_or_lt_of_le hj with hj | hj
          · rw [← hj]; exact hfin
          · exact FinishedOK_frame hF (h8 j hj hj')
        · exact Or.inr (Or.inr (Or.inr ⟨h4, hTCno' X, hh, h7,
            fun j hj hj' => FinishedOK_frame hF (h8 j hj hj'), Or.inr ⟨hnone, hst⟩⟩))
      · exact absurd hcb (h10 h0)

/-- The future `h0` that the chain of a defined stage waits for is fulfilled by the
completing stage that owns it. -/
theorem StageOK_chain_token {GPI : Bool} {Γ : FRoles} {Log : FLog} {Rest : List FCall}
    {s : TScheduler} {h0 : FFutureHandle} {Y : IdType} {st : TStageState}
    (hI : SchedulerInv GPI Γ Log (.EmplaceValue h0 :: Rest) s)
    (hT : TailOK Γ (.EmplaceValue h0 :: Rest)) (hlt : h0 < s.Futures.length)
    (hpend : s.Result h0 = none)
    (hcb : s.CompletionCallback h0 = some (.StartExecutingWhenPrerequisitesComplete Y))
    (hY : s.Find Y = some st) :
    StageOK Γ Log (.Invoke (.StartExecutingWhenPrerequisitesComplete Y) :: Rest)
      (s.SetFuture h0 { Result := some (.Value none) }) st := by
  have hF : Frame Γ Γ Log Log s (s.SetFuture h0 { Result := some (.Value none) }) :=
    Resolve_Frame _ hpend
  have hD : ∀ p, IsDone s (.EmplaceValue h0 :: Rest) p →
      IsDone (s.SetFuture h0 { Result := some (.Value none) })
        (.Invoke (.StartExecutingWhenPrerequisitesComplete Y) :: Rest) p := by
    intro p hp
    rcases hp with hp | hp
    · exact Or.inl hp
    · rcases List.mem_cons.1 hp with hp | hp
      · cases hp
      · exact Or.inr (List.mem_cons_of_mem _ hp)
  obtain ⟨⟨p0, c0, hΓ0, hTC0⟩, hT'⟩ := hT
  have hp0 : s.Find p0 = some (.Executing p0 true [] []) :=
    hI.calls.1 p0 (List.mem_cons_of_mem _ hTC0)
  have hCB := (hI.cells h0 hlt).2
  unfold CallbackOK at hCB
  rw [hcb] at hCB
  obtain ⟨⟨p1, j1, hj1⟩, pd, F, hX⟩ := hCB
  rw [hΓ0] at hj1
  cases hj1
  rw [hX] at hY
  cases hY
  have hid : pd.StageId = Y := GetStageId_of_Find hX
  obtain ⟨hX0, hX1, hX2, hX3, hX4⟩ := hI.stages Y _ hX
  rw [hid] at hX0 hX1 hX2 hX3 hX4
  show _ ∧ _ ∧ _ ∧ _ ∧ _
  rw [hid]
  refine ⟨hX0, ?_, hX2, ?_, ?_⟩
  · intro P hP
    obtain ⟨h1, h2, h3⟩ := hX1 P hP
    refine ⟨h1, ?_, ?_⟩
    · intro j f hj
      obtain ⟨p, h4, h5, h6⟩ := h2 j f hj
      exact ⟨p, h4, h5, Resolve_CompletionCallback_none s h0 _ f h6⟩
    · rcases h3 with ⟨h4, _⟩ | ⟨_, ⟨a, p, h5, h6, h7, h8⟩, h9⟩
      · simp at h4
      · have ha : h0 = a := (h8 h0).1 hcb
        subst ha
        rw [hΓ0] at h6
        cases h6
        refine Or.inl ⟨rfl, ?_, ?_⟩
        · intro h hh
          obtain ⟨hne, hh'⟩ := (Resolve_CompletionCallback_iff s h0 _ h _).1 hh
          exact hne ((h8 h).1 hh')
        · intro j p hj hp
          rcases Nat.eq_or_lt_of_le hj with hj | hj
          · rw [← hj, h5] at hp
            cases hp
            exact Or.inr (List.mem_cons_of_mem _ hTC0)
          · exact hD p (h9 j p hj hp)
  · refine PendingTasksOK_frame hF.roles rfl ?_ hX3
    intro t ht hn
    have hne : t.ExecutionPromise ≠ h0 := by
      intro hh0
      obtain ⟨j, hj⟩ := List.getElem?_of_mem ht
      have := (hX3.2 j t hj).1
      rw [hh0, hΓ0] at this
      cases this
    rw [Result_SetFuture_other s h0 _ _ hne]; exact hn
  · refine PromisesOK_frame hF.roles ?_ hX4
    intro h hh hn
    have hne : h ≠ h0 := by
      intro hh0; subst hh0
      obtain ⟨⟨c, hc⟩, _⟩ := hX4 h hh
      rw [hΓ0] at hc
      cases hc
      rw [hX] at hp0
      cases hp0
    rw [Result_SetFuture_other s h0 h _ hne]; exact hn

end Zkz.StagedExecution

namespace Zkz.StagedExecution

/-! ## The cells by role -/

theorem CellOK_StageCompletion_iff {Γ : FRoles} {Log : FLog} {Calls : List FCall}
    {s : TScheduler} {h : FFutureHandle} {p : IdType} {c : Option (IdType × Nat)}
    (hΓ : Γ[h]? = some (.StageCompletion p c)) :
    CellOK Γ Log Calls s h ↔ (s.Result h ≠ none → s.CompletionCallback h = none) ∧
      ((s.Result h = none ∧ (h ∈ s.PromisesOf p ∨ FCall.EmplaceValue h ∈ Calls)) ∨
        (s.Result h = some (.Value none) ∧ IsDone s Calls p)) := by
  unfold CellOK
  rw [hΓ]

theorem CellOK_TaskExecution_iff {Γ : FRoles} {Log : FLog} {Calls : List FCall}
    {s : TScheduler} {h : FFutureHandle} {X : IdType} {j : Nat}
    (hΓ : Γ[h]? = some (.TaskExecution X j)) :
    CellOK Γ Log Calls s h ↔ (s.Result h ≠ none → s.CompletionCallback h = none) ∧
      ∃ T, (TasksOf Log X)[j]? = some (T, h) ∧ s.CompletionCallback h = none ∧
        (s.Result h = none ∨
          ∃ hc, s.Result h = some (.Value (some hc)) ∧ Γ[hc]? = some (.TaskCompletion X j)) := by
  unfold CellOK
  rw [hΓ]

theorem CellOK_TaskCompletion_iff {Γ : FRoles} {Log : FLog} {Calls : List FCall}
    {s : TScheduler} {h : FFutureHandle} {X : IdType} {j : Nat}
    (hΓ : Γ[h]? = some (.TaskCompletion X j)) :
    CellOK Γ Log Calls s h ↔ (s.Result h ≠ none → s.CompletionCallback h = none) ∧
      ∃ T he, (TasksOf Log X)[j]? = some (T, he) ∧ s.Result he = some (.Value (some h)) ∧
        (s.Result h = none ∨ s.Result h = some (.Value none) ∨ s.Result h = some .Canceled) ∧
        (∀ T' f, s.CompletionCallback h = some (.PostNotifyCompletion T' f) →
          T' = T ∧ Γ[f]? = some (.PostNotify X j)) := by
  unfold CellOK
  rw [hΓ]

theorem CellOK_PostNotify_iff {Γ : FRoles} {Log : FLog} {Calls : List FCall}
    {s : TScheduler} {h : FFutureHandle} {X : IdType} {j : Nat}
    (hΓ : Γ[h]? = some (.PostNotify X j)) :
    CellOK Γ Log Calls s h ↔ (s.Result h ≠ none → s.CompletionCallback h = none) ∧
      ∃ T he hc, (TasksOf Log X)[j]? = some (T, he) ∧ s.Result he = some (.Value (some hc)) ∧
        Γ[hc]? = some (.TaskCompletion X j) ∧ LinkOK s Calls T hc h := by
  unfold CellOK
  rw [hΓ]

theorem CallbackOK_StartExecuting {Γ : FRoles} {s : TScheduler} {h : FFutureHandle}
    {X : IdType} (hOK : CallbackOK Γ s h)
    (hcb : s.CompletionCallback h = some (.StartExecutingWhenPrerequisitesComplete X)) :
    (∃ p j, Γ[h]? = some (.StageCompletion p (some (X, j)))) ∧
      ∃ Pending F, s.Find X = some (.Defined Pending F) := by
  unfold CallbackOK at hOK
  rw [hcb] at hOK
  exact hOK

theorem CallbackOK_CompleteWhen {Γ : FRoles} {s : TScheduler} {h : FFutureHandle}
    {X : IdType} (hOK : CallbackOK Γ s h)
    (hcb : s.CompletionCallback h = some (.CompleteWhenTasksFinished X)) :
    (∃ j, Γ[h]? = some (.TaskCompletion X j) ∨ Γ[h]? = some (.PostNotify X j)) ∧
      ∃ Ts Ps, s.Find X = some (.Executing X true Ts Ps) := by
  unfold CallbackOK at hOK
  rw [hcb] at hOK
  exact hOK

theorem CallbackOK_PostNotify {Γ : FRoles} {s : TScheduler} {h : FFutureHandle}
    {T : IdType} {f : FFutureHandle} (hOK : CallbackOK Γ s h)
    (hcb : s.CompletionCallback h = some (.PostNotifyCompletion T f)) :
    ∃ X j, Γ[h]? = some (.TaskCompletion X j) := by
  unfold CallbackOK at hOK
  rw [hcb] at hOK
  exact hOK

/-- The queued stage completion promises of a stage are typed as its promises. -/
theorem StageOK_Promises {Γ : FRoles} {Log : FLog} {Calls : List FCall} {s : TScheduler}
    {st : TStageState} (hOK : StageOK Γ Log Calls s st) :
    PromisesOK Γ s st.GetStageId st.Promises := by
  cases st with
  | Undefined p => exact hOK.2.2.2
  | Defined p F => exact hOK.2.2.2.2
  | Executing X b Ts Ps => exact hOK.2.2.2.1
  | Completed X => intro h hh; simp [TStageState.Promises] at hh

/-- The cell of a task completion promise once it is resolved. -/
theorem CellOK_TaskCompletion_resolved {Γ : FRoles} {Log : FLog} {Calls Calls' : List FCall}
    {s : TScheduler} {h0 : FFutureHandle} {r : FCancelableResult} {X : IdType} {j : Nat}
    (hΓ : Γ[h0]? = some (.TaskCompletion X j)) (hlt : h0 < s.Futures.length)
    (hpend : s.Result h0 = none) (hr : r = .Value none ∨ r = .Canceled)
    (hOK : CellOK Γ Log Calls s h0) :
    CellOK Γ Log Calls' (s.SetFuture h0 { Result := some r }) h0 := by
  rw [CellOK_TaskCompletion_iff hΓ] at hOK ⊢
  obtain ⟨_, T, he, h1, h2, _, _⟩ := hOK
  refine ⟨fun _ => Resolve_CompletionCallback_same s h0 r, T, he, h1,
    (@Resolve_Frame Γ Log _ _ r hpend).results _ _ h2, ?_, ?_⟩
  · rw [Resolve_Result_same s h0 r hlt]
    rcases hr with hr | hr
    · subst hr; exact Or.inr (Or.inl rfl)
    · subst hr; exact Or.inr (Or.inr rfl)
  · intro T' f hf
    rw [Resolve_CompletionCallback_same] at hf
    cases hf

end Zkz.StagedExecution

namespace Zkz.StagedExecution

/-! ## The client fulfils or drops a task completion promise -/

/-- `EmplaceValue` on the task completion promise of a released task. -/
theorem SchedulerInv_EmplaceValue_user {GPI : Bool} {Γ : FRoles} {Log : FLog}
    {s : TScheduler} {h0 : FFutureHandle} {X : IdType} {j : Nat}
    (hI : SchedulerInv GPI Γ Log [.EmplaceValue h0] s) (hpend : s.Result h0 = none)
    (hΓ : Γ[h0]? = some (.TaskCompletion X j)) :
    SchedulerInv GPI Γ Log (EmplaceValue s h0).2 (EmplaceValue s h0).1 := by
  have hlt : h0 < s.Futures.length := lt_of_role hI hΓ
  have hF : Frame Γ Γ Log Log s (s.SetFuture h0 { Result := some (.Value none) }) :=
    Resolve_Frame _ hpend
  obtain ⟨hcell, hcbOK⟩ := hI.cells h0 hlt
  have hcell' := (CellOK_TaskCompletion_iff hΓ).1 hcell
  obtain ⟨_, T, he, hL, hhe, _, hPN⟩ := hcell'
  rw [EmplaceValue_pending hlt hpend]
  have hprom : ∀ Y st, s.Find Y = some st → h0 ∉ st.Promises := by
    intro Y st hY hh
    obtain ⟨⟨c, hc⟩, _⟩ := StageOK_Promises (hI.stages Y st hY) h0 hh
    rw [hΓ] at hc; cases hc
  have hTE : ∀ X j, Γ[h0]? ≠ some (.TaskExecution X j) := by
    intro X' j' hh; rw [hΓ] at hh; cases hh
  have hcellNew : ∀ Calls', CellOK Γ Log Calls' (s.SetFuture h0 { Result := some (.Value none) })
      h0 := fun Calls' => CellOK_TaskCompletion_resolved hΓ hlt hpend (Or.inl rfl) hcell
  have hfin : FinishedOK Log (s.SetFuture h0 { Result := some (.Value none) }) X j :=
    ⟨T, he, h0, hL, hF.results _ _ hhe, Resolve_Result_same s h0 _ hlt⟩
  cases hcb : s.CompletionCallback h0 with
  | none =>
    simp only
    refine SchedulerInv_Resolve hI hlt hpend ?_ ?_ ?_ ?_ ?_ ?_ ?_ ?_ ?_ hprom hTE (hcellNew _)
      ?_ ?_
    · intro h hne hh; simp at hh; exact absurd hh hne
    · intro T' f _ hh; simp at hh
    · intro f _ hh; simp at hh
    · intro T' f hh; rw [hcb] at hh; cases hh
    · intro Y hh; simp at hh
    · intro Y hh; simp at hh
    · intro Y hh; simp at hh
    · intro Y hh; simp at hh
    · intro Y; simp
    · intro Y st _ hh; rw [hcb] at hh; rcases hh with hh | hh <;> cases hh
    · exact ⟨fun Y hh => by simp at hh, trivial⟩
  | some F =>
    cases F with
    | StartExecutingWhenPrerequisitesComplete Y =>
      obtain ⟨⟨p, j', hh⟩, _⟩ := CallbackOK_StartExecuting hcbOK hcb
      rw [hΓ] at hh; cases hh
    | CompleteWhenTasksFinished Y =>
      obtain ⟨⟨j', hj'⟩, Ts, Ps, hY⟩ := CallbackOK_CompleteWhen hcbOK hcb
      have hYX : Y = X ∧ j' = j := by
        rcases hj' with hj' | hj' <;> rw [hΓ] at hj' <;> cases hj'
        exact ⟨rfl, rfl⟩
      obtain ⟨hYX, hjj⟩ := hYX
      subst hYX hjj
      simp only
      refine SchedulerInv_Resolve hI hlt hpend ?_ ?_ ?_ ?_ ?_ ?_ ?_ ?_ ?_ hprom hTE (hcellNew _)
        ?_ ?_
      · intro h hne hh; simp at hh; exact absurd hh hne
      · intro T' f _ hh; simp at hh
      · intro f _ hh; simp at hh
      · intro T' f hh; rw [hcb] at hh; cases hh
      · intro Y hh; simp at hh
      · intro Y hh; simp at hh
      · intro Y hh; simp at hh
      · intro Z hh
        simp only [List.head?_cons, Option.some.injEq, FCall.Invoke.injEq,
          FContinuation.CompleteWhenTasksFinished.injEq] at hh
        rw [hh] at hcb; exact hcb
      · intro Z; simp
      · intro Z st hZ hh
        rw [hcb] at hh
        rcases hh with hh | hh
        · cases hh
        · cases hh
          refine StageOK_drain_token hI hlt hpend hcb hZ ?_ ?_ ?_
          · intro Z hh; simp at hh
          · intro Z hh; simp at hh
          · intro j1 hj1
            have : j1 = j' := by
              rcases hj1 with hj1 | hj1 <;> rw [hΓ] at hj1 <;> cases hj1
              rfl
            subst this
            exact Or.inl ⟨rfl, hfin⟩
      · refine ⟨fun Z hh => by simp at hh, trivial, by simp, Ts, Ps, ?_⟩
        rw [SetFuture_Find]; exact hY
    | PostNotifyCompletion T' f =>
      obtain ⟨hT', hf⟩ := hPN T' f hcb
      subst hT'
      have hflt : f < s.Futures.length := lt_of_role hI hf
      have hfpend : s.Result f = none := by
        have := (CellOK_PostNotify_iff hf).1 (hI.cells f hflt).1
        obtain ⟨_, T1, he1, hc1, hL1, hhe1, _, hl⟩ := this
        rw [hL] at hL1
        cases hL1
        rw [hhe] at hhe1
        cases hhe1
        rcases hl with ⟨_, _, h3⟩ | ⟨h1, _⟩ | ⟨h1, _⟩
        · exact h3
        · rw [hpend] at h1; cases h1
        · rw [hpend] at h1; cases h1
      have hfne : f ≠ h0 := by
        intro hh; rw [hh, hΓ] at hf; cases hf
      simp only
      refine SchedulerInv_Resolve hI hlt hpend ?_ ?_ ?_ ?_ ?_ ?_ ?_ ?_ ?_ hprom hTE (hcellNew _)
        ?_ ?_
      · intro h hne hh; simp at hh; exact absurd hh hne
      · intro T' f _ hh; simp at hh
      · intro f _ hh; simp at hh
      · intro T1 f1 hh
        rw [hcb] at hh
        cases hh
        exact Or.inl ⟨rfl, rfl⟩
      · intro Y hh; simp at hh
      · intro Y hh; simp at hh
      · intro Y hh; simp at hh
      · intro Y hh; simp at hh
      · intro Y; simp
      · intro Y st _ hh; rw [hcb] at hh; rcases hh with hh | hh <;> cases hh
      · refine ⟨fun Z hh => by simp at hh, rfl, X, j, he, h0, hf, hL, hF.results _ _ hhe,
          Resolve_Result_same s h0 _ hlt, ?_⟩
        rw [Result_SetFuture_other s h0 f _ hfne]
        exact hfpend

/-- `Cancel` on the task completion promise of a released task. -/
theorem SchedulerInv_Cancel_user {GPI : Bool} {Γ : FRoles} {Log : FLog}
    {s : TScheduler} {h0 : FFutureHandle} {X : IdType} {j : Nat}
    (hI : SchedulerInv GPI Γ Log [.Cancel h0] s) (hpend : s.Result h0 = none)
    (hΓ : Γ[h0]? = some (.TaskCompletion X j)) :
    SchedulerInv GPI Γ Log (Cancel s h0).2 (Cancel s h0).1 := by
  have hlt : h0 < s.Futures.length := lt_of_role hI hΓ
  have hF : Frame Γ Γ Log Log s (s.SetFuture h0 { Result := some .Canceled }) :=
    Resolve_Frame _ hpend
  obtain ⟨hcell, hcbOK⟩ := hI.cells h0 hlt
  have hcell' := (CellOK_TaskCompletion_iff hΓ).1 hcell
  obtain ⟨_, T, he, hL, hhe, _, hPN⟩ := hcell'
  rw [Cancel_pending hlt hpend]
  have hprom : ∀ Y st, s.Find Y = some st → h0 ∉ st.Promises := by
    intro Y st hY hh
    obtain ⟨⟨c, hc⟩, _⟩ := StageOK_Promises (hI.stages Y st hY) h0 hh
    rw [hΓ] at hc; cases hc
  have hTE : ∀ X j, Γ[h0]? ≠ some (.TaskExecution X j) := by
    intro X' j' hh; rw [hΓ] at hh; cases hh
  have hcellNew : ∀ Calls', CellOK Γ Log Calls' (s.SetFuture h0 { Result := some .Canceled })
      h0 := fun Calls' => CellOK_TaskCompletion_resolved hΓ hlt hpend (Or.inr rfl) hcell
  cases hcb : s.CompletionCallback h0 with
  | none =>
    simp only
    refine SchedulerInv_Resolve hI hlt hpend ?_ ?_ ?_ ?_ ?_ ?_ ?_ ?_ ?_ hprom hTE (hcellNew _)
      ?_ ?_
    · intro h hne hh; simp at hh
    · intro T' f _ hh; simp at hh
    · intro f hne hh; simp at hh; exact absurd hh.symm hne
    · intro T' f hh; rw [hcb] at hh; cases hh
    · intro Y hh; simp at hh
    · intro Y hh; simp at hh
    · intro Y hh; simp at hh
    · intro Y hh; simp at hh
    · intro Y; simp
    · intro Y st _ hh; rw [hcb] at hh; rcases hh with hh | hh <;> cases hh
    · exact ⟨fun Y hh => by simp at hh, trivial⟩
  | some F =>
    cases F with
    | StartExecutingWhenPrerequisitesComplete Y =>
      obtain ⟨⟨p, j', hh⟩, _⟩ := CallbackOK_StartExecuting hcbOK hcb
      rw [hΓ] at hh; cases hh
    | CompleteWhenTasksFinished Y =>
      obtain ⟨⟨j', hj'⟩, Ts, Ps, hY⟩ := CallbackOK_CompleteWhen hcbOK hcb
      have hYX : Y = X ∧ j' = j := by
        rcases hj' with hj' | hj' <;> rw [hΓ] at hj' <;> cases hj'
        exact ⟨rfl, rfl⟩
      obtain ⟨hYX, hjj⟩ := hYX
      subst hYX hjj
      simp only [DestroyContinuation]
      refine SchedulerInv_Resolve hI hlt hpend ?_ ?_ ?_ ?_ ?_ ?_ ?_ ?_ ?_ hprom hTE (hcellNew _)
        ?_ ?_
      · intro h hne hh; simp at hh
      · intro T' f _ hh; simp at hh
      · intro f hne hh; simp at hh; exact absurd hh.symm hne
      · intro T' f hh; rw [hcb] at hh; cases hh
      · intro Y hh; simp at hh
      · intro Y hh; simp at hh
      · intro Y hh; simp at hh
      · intro Y hh; simp at hh
      · intro Z; simp
      · intro Z st hZ hh
        rw [hcb] at hh
        rcases hh with hh | hh
        · cases hh
        · cases hh
          refine StageOK_drain_token hI hlt hpend hcb hZ ?_ ?_ ?_
          · intro Z hh; simp at hh
          · intro Z hh; simp at hh
          · intro j1 hj1
            have : j1 = j' := by
              rcases hj1 with hj1 | hj1 <;> rw [hΓ] at hj1 <;> cases hj1
              rfl
            subst this
            exact Or.inr ⟨by simp, T, he, h0, hL, hF.results _ _ hhe,
              Resolve_Result_same s h0 _ hlt⟩
      · exact ⟨fun Y hh => by simp at hh, trivial⟩
    | PostNotifyCompletion T' f =>
      obtain ⟨hT', hf⟩ := hPN T' f hcb
      subst hT'
      have hflt : f < s.Futures.length := lt_of_role hI hf
      have hfpend : s.Result f = none := by
        have := (CellOK_PostNotify_iff hf).1 (hI.cells f hflt).1
        obtain ⟨_, T1, he1, hc1, hL1, hhe1, _, hl⟩ := this
        rw [hL] at hL1
        cases hL1
        rw [hhe] at hhe1
        cases hhe1
        rcases hl with ⟨_, _, h3⟩ | ⟨h1, _⟩ | ⟨h1, _⟩
        · exact h3
        · rw [hpend] at h1; cases h1
        · rw [hpend] at h1; cases h1
      have hfne : f ≠ h0 := by
        intro hh; rw [hh, hΓ] at hf; cases hf
      simp only [DestroyContinuation]
      refine SchedulerInv_Resolve hI hlt hpend ?_ ?_ ?_ ?_ ?_ ?_ ?_ ?_ ?_ hprom hTE (hcellNew _)
        ?_ ?_
      · intro h hne hh; simp at hh
      · intro T' f _ hh; simp at hh
      · intro f hne hh; simp at hh; exact absurd hh.symm hne
      · intro T1 f1 hh
        rw [hcb] at hh
        cases hh
        exact Or.inr ⟨rfl, rfl⟩
      · intro Y hh; simp at hh
      · intro Y hh; simp at hh
      · intro Y hh; simp at hh
      · intro Y hh; simp at hh
      · intro Y; simp
      · intro Y st _ hh; rw [hcb] at hh; rcases hh with hh | hh <;> cases hh
      · refine ⟨fun Z hh => by simp at hh, rfl, ?_, Or.inr ⟨X, j, T', he, h0, hf, hL,
          hF.results _ _ hhe, Resolve_Result_same s h0 _ hlt⟩⟩
        rw [Result_SetFuture_other s h0 f _ hfne]
        exact hfpend

end Zkz.StagedExecution

namespace Zkz.StagedExecution

/-! ## The post-notify promise of a task -/

/-- The cell of a post-notify promise once it is resolved like the task completion
promise. -/
theorem CellOK_PostNotify_resolved {Γ : FRoles} {Log : FLog} {Calls Calls' : List FCall}
    {s : TScheduler} {h0 : FFutureHandle} {r : FCancelableResult} {X : IdType} {j : Nat}
    {T : IdType} {he hc : FFutureHandle}
    (hΓ : Γ[h0]? = some (.PostNotify X j)) (hlt : h0 < s.Futures.length)
    (hpend : s.Result h0 = none) (hr : r = .Value none ∨ r = .Canceled)
    (hL : (TasksOf Log X)[j]? = some (T, he)) (hhe : s.Result he = some (.Value (some hc)))
    (hhc : s.Result hc = some r)
    (hOK : CellOK Γ Log Calls s h0) :
    CellOK Γ Log Calls' (s.SetFuture h0 { Result := some r }) h0 := by
  have hF : Frame Γ Γ Log Log s (s.SetFuture h0 { Result := some r }) := Resolve_Frame r hpend
  rw [CellOK_PostNotify_iff hΓ] at hOK ⊢
  obtain ⟨_, T1, he1, hc1, hL1, hhe1, hΓ1, _⟩ := hOK
  rw [hL] at hL1
  cases hL1
  rw [hhe] at hhe1
  cases hhe1
  refine ⟨fun _ => Resolve_CompletionCallback_same s h0 r, T, he, hc, hL, hF.results _ _ hhe,
    hΓ1, ?_⟩
  rcases hr with hr | hr
  · subst hr
    exact Or.inr (Or.inl ⟨hF.results _ _ hhc, Or.inl (Resolve_Result_same s h0 _ hlt)⟩)
  · subst hr
    exact Or.inr (Or.inr ⟨hF.results _ _ hhc, Or.inl (Resolve_Result_same s h0 _ hlt)⟩)

/-- Resolving the post-notify promise `h0` of a task, after its task completion promise
was resolved with `r`; `Calls'` are the calls that this makes. -/
theorem SchedulerInv_PostNotify {GPI : Bool} {Γ : FRoles} {Log : FLog} {c : FCall}
    {s : TScheduler} {h0 : FFutureHandle} {r : FCancelableResult} {X : IdType} {j : Nat}
    {T : IdType} {he hc : FFutureHandle}
    (hI : SchedulerInv GPI Γ Log [c] s) (hpend : s.Result h0 = none)
    (hc1 : c = .Cancel h0 ∨ c = .Invoke (.PostNotifyCompletion T h0))
    (hΓ : Γ[h0]? = some (.PostNotify X j))
    (hr : r = .Value none ∨ r = .Canceled)
    (hL : (TasksOf Log X)[j]? = some (T, he)) (hhe : s.Result he = some (.Value (some hc)))
    (hhc : s.Result hc = some r) :
    SchedulerInv GPI Γ Log
      (match s.CompletionCallback h0 with
        | some (.CompleteWhenTasksFinished Y) =>
          if r = .Value none then [.Invoke (.CompleteWhenTasksFinished Y)] else []
        | _ => [])
      (s.SetFuture h0 { Result := some r }) := by
  have hlt : h0 < s.Futures.length := lt_of_role hI hΓ
  have hF : Frame Γ Γ Log Log s (s.SetFuture h0 { Result := some r }) := Resolve_Frame _ hpend
  obtain ⟨hcell, hcbOK⟩ := hI.cells h0 hlt
  have hprom : ∀ Y st, s.Find Y = some st → h0 ∉ st.Promises := by
    intro Y st hY hh
    obtain ⟨⟨c, hc⟩, _⟩ := StageOK_Promises (hI.stages Y st hY) h0 hh
    rw [hΓ] at hc; cases hc
  have hTE : ∀ X j, Γ[h0]? ≠ some (.TaskExecution X j) := by
    intro X' j' hh; rw [hΓ] at hh; cases hh
  have hcellNew : ∀ Calls', CellOK Γ Log Calls' (s.SetFuture h0 { Result := some r }) h0 :=
    fun Calls' => CellOK_PostNotify_resolved hΓ hlt hpend hr hL hhe hhc hcell
  have hEV : ∀ (Calls' : List FCall) (h : FFutureHandle), h ≠ h0 →
      FCall.EmplaceValue h ∈ [c] → FCall.EmplaceValue h ∈ Calls' := by
    intro Calls' h _ hh
    rcases hc1 with hc1 | hc1 <;> subst hc1 <;> simp at hh
  have hheadPN : ∀ (Calls' : List FCall) (T' : IdType) (f : FFutureHandle), f ≠ h0 →
      [c].head? = some (.Invoke (.PostNotifyCompletion T' f)) →
      Calls'.head? = some (.Invoke (.PostNotifyCompletion T' f)) := by
    intro Calls' T' f hne hh
    rcases hc1 with hc1 | hc1 <;> subst hc1 <;> simp at hh
    exact absurd hh.2.symm hne
  have hheadC : ∀ (Calls' : List FCall) (f : FFutureHandle), f ≠ h0 →
      [c].head? = some (.Cancel f) →
      Calls'.head? = some (.Cancel f) := by
    intro Calls' f hne hh
    rcases hc1 with hc1 | hc1 <;> subst hc1 <;> simp at hh
    exact absurd hh.symm hne
  have hnoSE : ∀ Y, [c].head? ≠ some (.Invoke (.StartExecutingWhenPrerequisitesComplete Y)) := by
    intro Y hh
    rcases hc1 with hc1 | hc1 <;> subst hc1 <;> simp at hh
  have hnoCW : ∀ Y, [c].head? ≠ some (.Invoke (.CompleteWhenTasksFinished Y)) := by
    intro Y hh
    rcases hc1 with hc1 | hc1 <;> subst hc1 <;> simp at hh
  have hnoTC : ∀ Y, FCall.Transition_Completed Y ∉ [c] := by
    intro Y hh
    rcases hc1 with hc1 | hc1 <;> subst hc1 <;> simp at hh
  cases hcb : s.CompletionCallback h0 with
  | none =>
    simp only
    refine SchedulerInv_Resolve hI hlt hpend (hEV _) (hheadPN _) (hheadC _) ?_ hnoSE hnoCW
      ?_ ?_ ?_ hprom hTE (hcellNew _) ?_ ?_
    · intro T' f hh; rw [hcb] at hh; cases hh
    · intro Y hh; simp at hh
    · intro Y hh; simp at hh
    · intro Y
      constructor
      · intro hh; simp at hh
      · intro hh; exact absurd hh (hnoTC Y)
    · intro Y st _ hh; rw [hcb] at hh; rcases hh with hh | hh <;> cases hh
    · exact ⟨fun Y hh => by simp at hh, trivial⟩
  | some F =>
    cases F with
    | StartExecutingWhenPrerequisitesComplete Y =>
      obtain ⟨⟨p, j', hh⟩, _⟩ := CallbackOK_StartExecuting hcbOK hcb
      rw [hΓ] at hh; cases hh
    | PostNotifyCompletion T' f =>
      obtain ⟨X', j', hh⟩ := CallbackOK_PostNotify hcbOK hcb
      rw [hΓ] at hh; cases hh
    | CompleteWhenTasksFinished Y =>
      obtain ⟨⟨j', hj'⟩, Ts, Ps, hY⟩ := CallbackOK_CompleteWhen hcbOK hcb
      have hYX : Y = X ∧ j' = j := by
        rcases hj' with hj' | hj' <;> rw [hΓ] at hj' <;> cases hj'
        exact ⟨rfl, rfl⟩
      obtain ⟨hYX, hjj⟩ := hYX
      subst hYX hjj
      simp only
      refine SchedulerInv_Resolve hI hlt hpend (hEV _) (hheadPN _) (hheadC _) ?_ hnoSE hnoCW
        ?_ ?_ ?_ hprom hTE (hcellNew _) ?_ ?_
      · intro T' f hh; rw [hcb] at hh; cases hh
      · intro Z hh
        split at hh <;> simp at hh
      · intro Z hh
        split at hh
        · simp only [List.head?_cons, Option.some.injEq, FCall.Invoke.injEq,
            FContinuation.CompleteWhenTasksFinished.injEq] at hh
          rw [hh] at hcb; exact hcb
        · simp at hh
      · intro Z
        constructor
        · intro hh; split at hh <;> simp at hh
        · intro hh; exact absurd hh (hnoTC Z)
      · intro Z st hZ hh
        rw [hcb] at hh
        rcases hh with hh | hh
        · cases hh
        · cases hh
          refine StageOK_drain_token hI hlt hpend hcb hZ hnoTC ?_ ?_
          · intro Z hh
            split at hh <;> simp at hh
          · intro j1 hj1
            have : j1 = j' := by
              rcases hj1 with hj1 | hj1 <;> rw [hΓ] at hj1 <;> cases hj1
              rfl
            subst this
            rcases hr with hr | hr
            · subst hr
              exact Or.inl ⟨by simp, T, he, hc, hL, hF.results _ _ hhe, hF.results _ _ hhc⟩
            · subst hr
              exact Or.inr ⟨by simp, T, he, hc, hL, hF.results _ _ hhe, hF.results _ _ hhc⟩
      · rcases hr with hr | hr
        · subst hr
          refine ⟨fun Z hh => by simp at hh, ?_⟩
          simp only [if_true]
          refine ⟨trivial, by simp, Ts, Ps, ?_⟩
          rw [SetFuture_Find]; exact hY
        · subst hr
          exact ⟨fun Z hh => by simp at hh, trivial⟩

end Zkz.StagedExecution

namespace Zkz.StagedExecution

/-! ## A completing stage fulfils a stage completion promise -/

theorem SchedulerInv_EmplaceValue_tail {GPI : Bool} {Γ : FRoles} {Log : FLog}
    {Rest : List FCall} {s : TScheduler} {h0 : FFutureHandle}
    (hI : SchedulerInv GPI Γ Log (.EmplaceValue h0 :: Rest) s)
    (hT : TailOK Γ (.EmplaceValue h0 :: Rest)) :
    SchedulerInv GPI Γ Log ((EmplaceValue s h0).2 ++ Rest) (EmplaceValue s h0).1 := by
  have hT0 := hT
  obtain ⟨⟨p0, c0, hΓ, hTC0⟩, hT'⟩ := hT
  have hlt : h0 < s.Futures.length := lt_of_role hI hΓ
  cases hres : s.Result h0 with
  | some r =>
    rw [EmplaceValue_resolved hres]
    exact SchedulerInv_FailCheck (SchedulerInv_pop hI hT' hres)
  | none =>
    have hpend := hres
    have hF : Frame Γ Γ Log Log s (s.SetFuture h0 { Result := some (.Value none) }) :=
      Resolve_Frame _ hpend
    obtain ⟨hcell, hcbOK⟩ := hI.cells h0 hlt
    rw [EmplaceValue_pending hlt hpend]
    have hp0 : s.Find p0 = some (.Executing p0 true [] []) :=
      hI.calls.1 p0 (List.mem_cons_of_mem _ hTC0)
    have hprom : ∀ Y st, s.Find Y = some st → h0 ∉ st.Promises := by
      intro Y st hY hh
      obtain ⟨⟨c, hc⟩, _⟩ := StageOK_Promises (hI.stages Y st hY) h0 hh
      rw [hΓ, GetStageId_of_Find hY] at hc
      cases hc
      rw [hp0] at hY
      cases hY
      simp [TStageState.Promises] at hh
    have hTE : ∀ X j, Γ[h0]? ≠ some (.TaskExecution X j) := by
      intro X' j' hh; rw [hΓ] at hh; cases hh
    have hcellNew : ∀ Calls', FCall.Transition_Completed p0 ∈ Calls' →
        CellOK Γ Log Calls' (s.SetFuture h0 { Result := some (.Value none) }) h0 := by
      intro Calls' hh
      rw [CellOK_StageCompletion_iff hΓ]
      exact ⟨fun _ => Resolve_CompletionCallback_same s h0 _,
        Or.inr ⟨Resolve_Result_same s h0 _ hlt, Or.inr hh⟩⟩
    have hTCs : ∀ X, FCall.Transition_Completed X ∈ Rest →
        (s.SetFuture h0 { Result := some (.Value none) }).Find X =
          some (.Executing X true [] []) := by
      intro X hX
      rw [SetFuture_Find]
      exact hI.calls.1 X (List.mem_cons_of_mem _ hX)
    cases hcb : s.CompletionCallback h0 with
    | none =>
      simp only [List.nil_append]
      refine SchedulerInv_Resolve hI hlt hpend ?_ ?_ ?_ ?_ ?_ ?_ ?_ ?_ ?_ hprom hTE
        (hcellNew _ hTC0) ?_ ?_
      · intro h hne hh
        rcases List.mem_cons.1 hh with hh | hh
        · cases hh; exact absurd rfl hne
        · exact hh
      · intro T' f _ hh; simp at hh
      · intro f _ hh; simp at hh
      · intro T' f hh; rw [hcb] at hh; cases hh
      · intro Y hh; simp at hh
      · intro Y hh; simp at hh
      · intro Y hh; exact absurd hh (TailOK_head_ne_Invoke hT' _)
      · intro Y hh; exact absurd hh (TailOK_head_ne_Invoke hT' _)
      · intro Y; simp
      · intro Y st _ hh; rw [hcb] at hh; rcases hh with hh | hh <;> cases hh
      · exact CallsOK_of_TailOK hTCs hT'
    | some F =>
      cases F with
      | CompleteWhenTasksFinished Y =>
        obtain ⟨⟨j', hj'⟩, _⟩ := CallbackOK_CompleteWhen hcbOK hcb
        rcases hj' with hj' | hj' <;> rw [hΓ] at hj' <;> cases hj'
      | PostNotifyCompletion T' f =>
        obtain ⟨X', j', hh⟩ := CallbackOK_PostNotify hcbOK hcb
        rw [hΓ] at hh; cases hh
      | StartExecutingWhenPrerequisitesComplete Y =>
        obtain ⟨_, pd, F, hY⟩ := CallbackOK_StartExecuting hcbOK hcb
        simp only [List.singleton_append]
        refine SchedulerInv_Resolve hI hlt hpend ?_ ?_ ?_ ?_ ?_ ?_ ?_ ?_ ?_ hprom hTE
          (hcellNew _ (List.mem_cons_of_mem _ hTC0)) ?_ ?_
        · intro h hne hh
          rcases List.mem_cons.1 hh with hh | hh
          · cases hh; exact absurd rfl hne
          · exact List.mem_cons_of_mem _ hh
        · intro T' f _ hh; simp at hh
        · intro f _ hh; simp at hh
        · intro T' f hh; rw [hcb] at hh; cases hh
        · intro Z hh; simp at hh
        · intro Z hh; simp at hh
        · intro Z hh
          simp only [List.head?_cons, Option.some.injEq, FCall.Invoke.injEq,
            FContinuation.StartExecutingWhenPrerequisitesComplete.injEq] at hh
          rw [hh] at hcb; exact hcb
        · intro Z hh; simp at hh
        · intro Z; simp
        · intro Z st hZ hh
          rw [hcb] at hh
          rcases hh with hh | hh
          · cases hh
            exact StageOK_chain_token hI hT0 hlt hpend hcb hZ
          · cases hh
        · refine ⟨?_, hT', pd, F, ?_⟩
          · intro X hX
            rcases List.mem_cons.1 hX with hX | hX
            · cases hX
            · exact hTCs X hX
          · rw [SetFuture_Find]; exact hY

/-- `EmplaceValue`: every fulfilment of a promise preserves the invariant. -/
theorem SchedulerInv_EmplaceValue {GPI : Bool} {Γ : FRoles} {Log : FLog}
    {Rest : List FCall} {s : TScheduler} {h0 : FFutureHandle}
    (hI : SchedulerInv GPI Γ Log (.EmplaceValue h0 :: Rest) s) :
    SchedulerInv GPI Γ Log ((EmplaceValue s h0).2 ++ Rest) (EmplaceValue s h0).1 := by
  rcases hI.calls.2 with ⟨hR, hpend, X, j, hΓ⟩ | hT
  · subst hR
    rw [List.append_nil]
    exact SchedulerInv_EmplaceValue_user hI hpend hΓ
  · exact SchedulerInv_EmplaceValue_tail hI hT

/-- `Cancel`: every cancelation of a promise preserves the invariant. -/
theorem SchedulerInv_Cancel {GPI : Bool} {Γ : FRoles} {Log : FLog}
    {Rest : List FCall} {s : TScheduler} {h0 : FFutureHandle}
    (hI : SchedulerInv GPI Γ Log (.Cancel h0 :: Rest) s) :
    SchedulerInv GPI Γ Log ((Cancel s h0).2 ++ Rest) (Cancel s h0).1 := by
  obtain ⟨hR, hpend, hcase⟩ := hI.calls.2
  subst hR
  rw [List.append_nil]
  rcases hcase with ⟨X, j, hΓ⟩ | ⟨X, j, T, he, hc, hΓ, hL, hhe, hhc⟩
  · exact SchedulerInv_Cancel_user hI hpend hΓ
  · have hlt : h0 < s.Futures.length := lt_of_role hI hΓ
    have := SchedulerInv_PostNotify (T := T) hI hpend (Or.inl rfl) hΓ (Or.inr rfl) hL hhe hhc
    rw [Cancel_pending hlt hpend]
    have hcbOK := (hI.cells h0 hlt).2
    cases hcb : s.CompletionCallback h0 with
    | none => rw [hcb] at this; exact this
    | some F =>
      rw [hcb] at this
      cases F with
      | StartExecutingWhenPrerequisitesComplete Y =>
        obtain ⟨⟨p, j', hh⟩, _⟩ := CallbackOK_StartExecuting hcbOK hcb
        rw [hΓ] at hh; cases hh
      | PostNotifyCompletion T' f =>
        obtain ⟨X', j', hh⟩ := CallbackOK_PostNotify hcbOK hcb
        rw [hΓ] at hh; cases hh
      | CompleteWhenTasksFinished Y =>
        simpa [DestroyContinuation] using this

/-- The continuation of `ExecuteAllTasks` fulfils the post-notify promise. -/
theorem SchedulerInv_Invoke_PostNotify {GPI : Bool} {Γ : FRoles} {Log : FLog}
    {Rest : List FCall} {s : TScheduler} {T : IdType} {h0 : FFutureHandle}
    (hI : SchedulerInv GPI Γ Log (.Invoke (.PostNotifyCompletion T h0) :: Rest) s) :
    SchedulerInv GPI Γ Log ((EmplaceValue s h0).2 ++ Rest) (EmplaceValue s h0).1 := by
  obtain ⟨hR, X, j, he, hc, hΓ, hL, hhe, hhc, hpend⟩ := hI.calls.2
  subst hR
  rw [List.append_nil]
  have hlt : h0 < s.Futures.length := lt_of_role hI hΓ
  have := SchedulerInv_PostNotify (T := T) hI hpend (Or.inr rfl) hΓ (Or.inl rfl) hL hhe hhc
  rw [EmplaceValue_pending hlt hpend]
  have hcbOK := (hI.cells h0 hlt).2
  cases hcb : s.CompletionCallback h0 with
  | none => rw [hcb] at this; exact this
  | some F =>
    rw [hcb] at this
    cases F with
    | StartExecutingWhenPrerequisitesComplete Y =>
      obtain ⟨⟨p, j', hh⟩, _⟩ := CallbackOK_StartExecuting hcbOK hcb
      rw [hΓ] at hh; cases hh
    | PostNotifyCompletion T' f =>
      obtain ⟨X', j', hh⟩ := CallbackOK_PostNotify hcbOK hcb
      rw [hΓ] at hh; cases hh
    | CompleteWhenTasksFinished Y =>
      simpa using this

end Zkz.StagedExecution

namespace Zkz.StagedExecution

/-! ## A continuation of stage `X` runs: what holds of the rest of the scheduler -/

theorem StageOK_FuturePrerequisite_role {Γ : FRoles} {Log : FLog} {Calls : List FCall}
    {s : TScheduler} {st : TStageState} (hOK : StageOK Γ Log Calls s st) {f : FFutureHandle}
    (hf : f ∈ st.FuturePrerequisiteCompletions) :
    ∃ p j, Γ[f]? = some (.StageCompletion p (some (st.GetStageId, j))) := by
  cases st with
  | Undefined p => simp [TStageState.FuturePrerequisiteCompletions] at hf
  | Executing X b Ts Ps => simp [TStageState.FuturePrerequisiteCompletions] at hf
  | Completed X => simp [TStageState.FuturePrerequisiteCompletions] at hf
  | Defined pd F =>
    obtain ⟨⟨P, hP⟩, hch, _⟩ := hOK
    obtain ⟨_, h2, _⟩ := hch P hP
    obtain ⟨j, hj⟩ := List.getElem?_of_mem hf
    obtain ⟨p, _, h5, _⟩ := h2 j f hj
    exact ⟨p, j, h5⟩

theorem StageOK_Entry_role {Γ : FRoles} {Log : FLog} {Calls : List FCall}
    {s : TScheduler} {X : IdType} {b : Bool} {Ts : List FExecutingTaskEntry}
    {Ps : List FFutureHandle} (hOK : StageOK Γ Log Calls s (.Executing X b Ts Ps))
    {e : FExecutingTaskEntry} (he : e ∈ Ts) :
    ∃ j, Γ[e.FutureCompletion]? = some (.TaskCompletion X j) ∨
      Γ[e.FutureCompletion]? = some (.PostNotify X j) := by
  obtain ⟨_, _, _, _, _, hdr, _⟩ := hOK
  obtain ⟨j, hj⟩ := List.getElem?_of_mem he
  exact ⟨j, (hdr j e hj).2.1⟩

theorem StageOK_Task_role {Γ : FRoles} {Log : FLog} {Calls : List FCall}
    {s : TScheduler} {st : TStageState} (hOK : StageOK Γ Log Calls s st)
    {p : TStageState_Pending} {F : List FFutureHandle}
    (hst : st = .Undefined p ∨ st = .Defined p F) {t : FPendingTaskEntry} (ht : t ∈ p.Tasks) :
    ∃ j, Γ[t.ExecutionPromise]? = some (.TaskExecution p.StageId j) := by
  have hPT : PendingTasksOK Γ Log s p.StageId p.Tasks := by
    rcases hst with hst | hst
    · subst hst; exact hOK.2.2.1
    · subst hst; exact hOK.2.2.2.1
  obtain ⟨j, hj⟩ := List.getElem?_of_mem ht
  exact ⟨j, (hPT.2 j t hj).1⟩

theorem LogOK_of_Find {Log : FLog} {s s' : TScheduler} (hOK : LogOK Log s)
    (h : ∀ Y, s'.Find Y = none → s.Find Y = none) : LogOK Log s' :=
  fun Y hY => hOK Y (h Y hY)

theorem MapOK_of_eq {GPI : Bool} {Log : FLog} {s s' : TScheduler} (hOK : MapOK GPI Log s)
    (h : s'.PrerequisitesByStageId = s.PrerequisitesByStageId) : MapOK GPI Log s' := by
  intro hG Y P
  rw [h]
  exact hOK hG Y P

/-- While a continuation of stage `X` runs, the other stages and the shared states that
it leaves alone keep their invariant. -/
theorem SchedulerInv_change {GPI : Bool} {Γ : FRoles} {Log : FLog}
    {Calls : List FCall} {s : TScheduler} {X : IdType}
    (Γ' : FRoles) (Calls' : List FCall) (s' : TScheduler)
    (hI : SchedulerInv GPI Γ Log Calls s) (hF : Frame Γ Γ' Log Log s s')
    (hhead : Calls.head? = some (.Invoke (.StartExecutingWhenPrerequisitesComplete X)) ∨
      Calls.head? = some (.Invoke (.CompleteWhenTasksFinished X)))
    (hFindY : ∀ Y, Y ≠ X → s'.Find Y = s.Find Y)
    (hD : ∀ p, IsDone s Calls p → IsDone s' Calls' p)
    (hEV : ∀ h p, s.Result h = none → (h ∈ s.PromisesOf p ∨ FCall.EmplaceValue h ∈ Calls) →
      (h ∈ s'.PromisesOf p ∨ FCall.EmplaceValue h ∈ Calls'))
    (hTC : ∀ Y, Y ≠ X →
      (FCall.Transition_Completed Y ∈ Calls' ↔ FCall.Transition_Completed Y ∈ Calls))
    (hheadSE : ∀ Y, Y ≠ X →
      Calls'.head? ≠ some (.Invoke (.StartExecutingWhenPrerequisitesComplete Y)))
    (hheadCW : ∀ Y, Y ≠ X → Calls'.head? ≠ some (.Invoke (.CompleteWhenTasksFinished Y)))
    (hRes : ∀ h, s.Result h = none →
      (∃ j, Γ[h]? = some (.TaskExecution X j)) ∨ s'.Result h = none)
    (hCbSE : ∀ h Y, Y ≠ X →
      (s'.CompletionCallback h = some (.StartExecutingWhenPrerequisitesComplete Y) ↔
        s.CompletionCallback h = some (.StartExecutingWhenPrerequisitesComplete Y)))
    (hCbCW : ∀ h Y, Y ≠ X →
      (s'.CompletionCallback h = some (.CompleteWhenTasksFinished Y) ↔
        s.CompletionCallback h = some (.CompleteWhenTasksFinished Y)))
    (hCbPN : ∀ h T f, s.CompletionCallback h = some (.PostNotifyCompletion T f) →
      s'.CompletionCallback h = some (.PostNotifyCompletion T f))
    (hCbnone : ∀ h, h < s.Futures.length → s.CompletionCallback h = none →
      s'.CompletionCallback h = none ∨
      (∃ p j, Γ[h]? = some (.StageCompletion p (some (X, j)))) ∨
      (∃ j, Γ[h]? = some (.TaskCompletion X j) ∨ Γ[h]? = some (.PostNotify X j))) :
    (∀ Y st, Y ≠ X → s.Find Y = some st → StageOK Γ' Log Calls' s' st) ∧
    (∀ h, h < s.Futures.length → s'.Result h = s.Result h →
      s'.CompletionCallback h = s.CompletionCallback h → CellOK Γ' Log Calls' s' h) ∧
    (∀ h, h < s.Futures.length → s'.CompletionCallback h = s.CompletionCallback h →
      s.CompletionCallback h ≠ some (.StartExecutingWhenPrerequisitesComplete X) →
      s.CompletionCallback h ≠ some (.CompleteWhenTasksFinished X) → CallbackOK Γ' s' h) := by
  have hnoPN : ∀ T f, Calls.head? ≠ some (.Invoke (.PostNotifyCompletion T f)) := by
    intro T f hh
    rcases hhead with h1 | h1 <;> rw [h1] at hh <;> cases hh
  have hnoC : ∀ f, Calls.head? ≠ some (.Cancel f) := by
    intro f hh
    rcases hhead with h1 | h1 <;> rw [h1] at hh <;> cases hh
  refine ⟨?_, ?_, ?_⟩
  · intro Y st hYX hY
    have hid := GetStageId_of_Find hY
    have hOK := hI.stages Y st hY
    refine StageOK_frame hF hD (fun _ => Iff.rfl) Iff.rfl rfl ?_ ?_ ?_ ?_ ?_ ?_ ?_ ?_ ?_ ?_ ?_
      hOK
    · intro h hh hn
      rcases hRes h hn with ⟨j, hj⟩ | hr
      · obtain ⟨⟨c, hc⟩, _⟩ := StageOK_Promises hOK h hh
        rw [hc] at hj; cases hj
      · exact hr
    · intro p F hst t ht hn
      rcases hRes _ hn with ⟨j, hj⟩ | hr
      · obtain ⟨j', hj'⟩ := StageOK_Task_role hOK hst ht
        rw [hj'] at hj
        cases hj
        have : p.StageId = Y := by
          rcases hst with hst | hst <;> subst hst <;> exact hid
        exact absurd this.symm hYX
      · exact hr
    · intro f hf hn
      have hflt : f < s.Futures.length := by
        obtain ⟨p', j', h2⟩ := StageOK_FuturePrerequisite_role hOK hf
        exact lt_of_role hI h2
      rcases hCbnone f hflt hn with h1 | ⟨p, j, h1⟩ | ⟨j, h1⟩
      · exact h1
      · obtain ⟨p', j', h2⟩ := StageOK_FuturePrerequisite_role hOK hf
        rw [h2, hid] at h1
        cases h1
        exact absurd rfl hYX
      · obtain ⟨p', j', h2⟩ := StageOK_FuturePrerequisite_role hOK hf
        rcases h1 with h1 | h1 <;> rw [h2] at h1 <;> cases h1
    · intro X' b Ts Ps hst e he hn
      subst hst
      simp only [TStageState.GetStageId] at hid
      have helt : e.FutureCompletion < s.Futures.length := by
        obtain ⟨j', h2⟩ := StageOK_Entry_role hOK he
        rcases h2 with h2 | h2 <;> exact lt_of_role hI h2
      rcases hCbnone _ helt hn with h1 | ⟨p, j, h1⟩ | ⟨j, h1⟩
      · exact h1
      · obtain ⟨j', h2⟩ := StageOK_Entry_role hOK he
        rcases h2 with h2 | h2 <;> rw [h2] at h1 <;> cases h1
      · obtain ⟨j', h2⟩ := StageOK_Entry_role hOK he
        rcases h1 with h1 | h1 <;> rcases h2 with h2 | h2 <;> rw [h2] at h1 <;> cases h1 <;>
          exact absurd hid.symm hYX
    · intro h; rw [hid]; exact hCbSE h Y hYX
    · intro h; rw [hid]; exact hCbCW h Y hYX
    · intro a ha hn
      rw [hid] at ha
      rcases hRes a hn with ⟨j, hj⟩ | hr
      · obtain ⟨⟨p, j', h1⟩, _⟩ :=
          CallbackOK_StartExecuting (hI.cells a (lt_of_CompletionCallback ha)).2 ha
        rw [h1] at hj; cases hj
      · exact hr
    · intro a ha hn
      rw [hid] at ha
      rcases hRes a hn with ⟨j, hj⟩ | hr
      · obtain ⟨⟨j', h1⟩, _⟩ :=
          CallbackOK_CompleteWhen (hI.cells a (lt_of_CompletionCallback ha)).2 ha
        rcases h1 with h1 | h1 <;> rw [h1] at hj <;> cases hj
      · exact hr
    · rw [hid]
      constructor
      · intro hh; exact absurd hh (hheadSE Y hYX)
      · intro hh
        rcases hhead with h1 | h1 <;> rw [h1] at hh <;> cases hh
        exact absurd rfl hYX
    · rw [hid]
      constructor
      · intro hh; exact absurd hh (hheadCW Y hYX)
      · intro hh
        rcases hhead with h1 | h1 <;> rw [h1] at hh <;> cases hh
        exact absurd rfl hYX
    · rw [hid]; exact hTC Y hYX
  · intro h hlt hres hcb
    refine CellOK_frame hF hD hres hcb (fun p hn hp => hEV h p hn hp) ?_ (hI.cells h hlt).1
    intro X' j T hc hΓc hl
    refine LinkOK_frame hF.results ?_ ?_ ?_ ?_ hl
    · intro hn
      refine ⟨?_, hCbPN hc T h⟩
      rcases hRes hc hn with ⟨j', hj'⟩ | hr
      · rw [hΓc] at hj'; cases hj'
      · exact hr
    · intro hn; rw [hres]; exact hn
    · intro hh; exact absurd hh (hnoPN _ _)
    · intro hh; exact absurd hh (hnoC _)
  · intro h hlt hcb hne1 hne2
    refine CallbackOK_frame hF.roles hcb ?_ ?_ (hI.cells h hlt).2
    · intro Y hY p F hFind
      have hYX : Y ≠ X := by
        intro hYX; subst hYX; exact hne1 hY
      exact ⟨p, F, by rw [hFindY Y hYX]; exact hFind⟩
    · intro Y hY Ts Ps hFind
      have hYX : Y ≠ X := by
        intro hYX; subst hYX; exact hne2 hY
      exact ⟨Ts, Ps, by rw [hFindY Y hYX]; exact hFind⟩

end Zkz.StagedExecution

namespace Zkz.StagedExecution

/-! ## The drain of an executing stage: `CompleteWhenTasksFinished` -/

theorem IfNotCanceled_pending {s : TScheduler} {f : FFutureHandle} (F : FContinuation)
    (hlt : f < s.Futures.length) (hr : s.Result f = none) :
    IfNotCanceled s f F = (s.SetFuture f { Result := none, CompletionCallback := some F }, []) := by
  unfold IfNotCanceled
  unfold TScheduler.Result at hr
  cases hc : s.Futures[f]? with
  | none =>
    rw [List.getElem?_eq_none_iff] at hc
    exact absurd hlt (Nat.not_lt.2 hc)
  | some c =>
    rw [hc] at hr
    simp only at hr ⊢
    rw [hr]

theorem IfNotCanceled_Value {s : TScheduler} {f : FFutureHandle} (F : FContinuation)
    {v : Option FFutureHandle} (hr : s.Result f = some (.Value v)) :
    IfNotCanceled s f F = (s, [.Invoke F]) := by
  unfold IfNotCanceled
  unfold TScheduler.Result at hr
  cases hc : s.Futures[f]? with
  | none => rw [hc] at hr; cases hr
  | some c =>
    rw [hc] at hr
    simp only at hr ⊢
    rw [hr]

theorem IfNotCanceled_Canceled {s : TScheduler} {f : FFutureHandle} (F : FContinuation)
    (hr : s.Result f = some .Canceled) :
    IfNotCanceled s f F = (s, DestroyContinuation F) := by
  unfold IfNotCanceled
  unfold TScheduler.Result at hr
  cases hc : s.Futures[f]? with
  | none => rw [hc] at hr; cases hr
  | some c =>
    rw [hc] at hr
    simp only at hr ⊢
    rw [hr]

theorem Register_Result (s : TScheduler) (a : FFutureHandle) (F : FContinuation)
    (hr : s.Result a = none) (h : FFutureHandle) :
    (s.SetFuture a { Result := none, CompletionCallback := some F }).Result h = s.Result h := by
  by_cases hha : h = a
  · subst hha
    by_cases hlt : h < s.Futures.length
    · rw [Result_SetFuture_same s h _ hlt, hr]
    · rw [hr]
      apply Result_of_lt_none
      simpa using Nat.le_of_not_lt hlt
  · exact Result_SetFuture_other s a h _ hha

/-- The result of the completion future of an executing task entry is the one of the task
completion promise. -/
theorem Entry_result {GPI : Bool} {Γ : FRoles} {Log : FLog} {Calls : List FCall}
    {s : TScheduler} {X : IdType} {j : Nat} {e : FExecutingTaskEntry} {r : FCancelableResult}
    (hI : SchedulerInv GPI Γ Log Calls s) (hE : EntryOK Γ Log s X j e)
    (hr : s.Result e.FutureCompletion = some r) :
    (r = .Value none ∨ r = .Canceled) ∧
      ∃ T he hc, (TasksOf Log X)[j]? = some (T, he) ∧ s.Result he = some (.Value (some hc)) ∧
        s.Result hc = some r := by
  obtain ⟨_, hrole, _⟩ := hE
  have hlt := lt_of_Result hr
  have hcell := (hI.cells _ hlt).1
  rcases hrole with hΓ | hΓ
  · obtain ⟨_, T, he, hL, hhe, h3, _⟩ := (CellOK_TaskCompletion_iff hΓ).1 hcell
    refine ⟨?_, T, he, _, hL, hhe, hr⟩
    rcases h3 with h3 | h3 | h3 <;> rw [hr] at h3 <;> cases h3
    · exact Or.inl rfl
    · exact Or.inr rfl
  · obtain ⟨_, T, he, hc, hL, hhe, _, hl⟩ := (CellOK_PostNotify_iff hΓ).1 hcell
    rcases hl with ⟨_, _, h3⟩ | ⟨h1, h2⟩ | ⟨h1, h2⟩
    · rw [hr] at h3; cases h3
    · rcases h2 with h2 | ⟨h2, _⟩
      · rw [hr] at h2; cases h2
        exact ⟨Or.inl rfl, T, he, hc, hL, hhe, h1⟩
      · rw [hr] at h2; cases h2
    · rcases h2 with h2 | ⟨h2, _⟩
      · rw [hr] at h2; cases h2
        exact ⟨Or.inr rfl, T, he, hc, hL, hhe, h1⟩
      · rw [hr] at h2; cases h2

end Zkz.StagedExecution

namespace Zkz.StagedExecution

/-- `CompleteWhenTasksFinished` pops the last task entry `e` of the executing stage `X`
and registers on its completion future, continues, or stops. -/
theorem SchedulerInv_CW_pop {GPI : Bool} {Γ : FRoles} {Log : FLog} {Rest Calls' : List FCall}
    {s s' : TScheduler} {X : IdType} {Ts' : List FExecutingTaskEntry}
    {e : FExecutingTaskEntry} {Ps : List FFutureHandle}
    (hI : SchedulerInv GPI Γ Log (.Invoke (.CompleteWhenTasksFinished X) :: Rest) s)
    (hX : s.Find X = some (.Executing X true (Ts' ++ [e]) Ps))
    (hFindX : s'.Find X = some (.Executing X true Ts' Ps))
    (hFindY : ∀ Y, Y ≠ X → s'.Find Y = s.Find Y)
    (hRes : ∀ h, s'.Result h = s.Result h)
    (hCb : ∀ h, h ≠ e.FutureCompletion → s'.CompletionCallback h = s.CompletionCallback h)
    (hlen : s'.Futures.length = s.Futures.length)
    (hmap : s'.PrerequisitesByStageId = s.PrerequisitesByStageId)
    (hcase : (s.Result e.FutureCompletion = none ∧
        s'.CompletionCallback e.FutureCompletion = some (.CompleteWhenTasksFinished X) ∧
        Calls' = Rest) ∨
      (∃ v, s.Result e.FutureCompletion = some (.Value v) ∧
        s'.CompletionCallback e.FutureCompletion = none ∧
        Calls' = .Invoke (.CompleteWhenTasksFinished X) :: Rest) ∨
      (s.Result e.FutureCompletion = some .Canceled ∧
        s'.CompletionCallback e.FutureCompletion = none ∧ Calls' = Rest)) :
    SchedulerInv GPI Γ Log Calls' s' := by
  obtain ⟨hT, hTCX, _⟩ := hI.calls.2
  obtain ⟨hX0, hX1, hX2, hX3, hX4, hX5⟩ := hI.stages X _ hX
  obtain ⟨hE, hlenL, hdr⟩ := hX5
  have hlenTs : (Ts' ++ [e]).length = Ts'.length + 1 := by simp
  rw [hlenTs] at hlenL hdr
  -- the drain is being continued by the call at the head
  have hdr' : (∀ h, s.CompletionCallback h ≠ some (.CompleteWhenTasksFinished X)) ∧
      ∀ j, Ts'.length + 1 ≤ j → j < (TasksOf Log X).length → FinishedOK Log s X j := by
    rcases hdr with ⟨h4, _⟩ | ⟨_, h5, _⟩ | ⟨_, _, _, h7, h8⟩ | ⟨_, _, h6, _⟩
    · cases h4
    · rcases List.mem_cons.1 h5 with h5 | h5
      · cases h5
      · exact absurd h5 hTCX
    · exact ⟨h7, h8⟩
    · simp at h6
  obtain ⟨hnoCW, hfin⟩ := hdr'
  have hEe : EntryOK Γ Log s X Ts'.length e := by
    apply hE
    simp
  have hacb : s.CompletionCallback e.FutureCompletion = none := hEe.2.2
  have harole := hEe.2.1
  have halt : e.FutureCompletion < s.Futures.length := by
    rcases harole with h | h <;> exact lt_of_role hI h
  have hF : Frame Γ Γ Log Log s s' :=
    ⟨fun _ _ h => h, fun _ _ _ h => h, fun h r hr => by rw [hRes]; exact hr⟩
  -- the calls
  have hTC' : ∀ Y, FCall.Transition_Completed Y ∈ Calls' ↔
      FCall.Transition_Completed Y ∈ Rest := by
    intro Y
    rcases hcase with ⟨_, _, h⟩ | ⟨_, _, _, h⟩ | ⟨_, _, h⟩ <;> subst h <;> simp
  have hEV' : ∀ h, FCall.EmplaceValue h ∈ Rest → FCall.EmplaceValue h ∈ Calls' := by
    intro h hh
    rcases hcase with ⟨_, _, h⟩ | ⟨_, _, _, h⟩ | ⟨_, _, h⟩ <;> subst h <;> simp [hh]
  have hheadSE' : ∀ Y, Calls'.head? ≠
      some (.Invoke (.StartExecutingWhenPrerequisitesComplete Y)) := by
    intro Y hh
    rcases hcase with ⟨_, _, h⟩ | ⟨_, _, _, h⟩ | ⟨_, _, h⟩ <;> subst h
    · exact TailOK_head_ne_Invoke hT _ hh
    · simp at hh
    · exact TailOK_head_ne_Invoke hT _ hh
  have hheadCW' : ∀ Y, Y ≠ X → Calls'.head? ≠ some (.Invoke (.CompleteWhenTasksFinished Y)) := by
    intro Y hYX hh
    rcases hcase with ⟨_, _, h⟩ | ⟨_, _, _, h⟩ | ⟨_, _, h⟩ <;> subst h
    · exact TailOK_head_ne_Invoke hT _ hh
    · simp at hh; exact hYX hh.symm
    · exact TailOK_head_ne_Invoke hT _ hh
  have hacb' : s'.CompletionCallback e.FutureCompletion = none ∨
      s'.CompletionCallback e.FutureCompletion = some (.CompleteWhenTasksFinished X) := by
    rcases hcase with ⟨_, h, _⟩ | ⟨_, _, h, _⟩ | ⟨_, h, _⟩
    · exact Or.inr h
    · exact Or.inl h
    · exact Or.inl h
  have hGetId : ∀ p, s'.GetId p = s.GetId p := by
    intro p
    unfold TScheduler.GetId
    by_cases hpX : p = X
    · subst hpX; rw [hFindX, hX]; rfl
    · rw [hFindY p hpX]
  have hProm : ∀ p, s'.PromisesOf p = s.PromisesOf p := by
    intro p
    unfold TScheduler.PromisesOf
    by_cases hpX : p = X
    · subst hpX; rw [hFindX, hX]; rfl
    · rw [hFindY p hpX]
  have hD : ∀ p, IsDone s (.Invoke (.CompleteWhenTasksFinished X) :: Rest) p →
      IsDone s' Calls' p := by
    intro p hp
    rcases hp with hp | hp
    · left; rw [hGetId]; exact hp
    · rcases List.mem_cons.1 hp with hp | hp
      · cases hp
      · exact Or.inr ((hTC' p).2 hp)
  obtain ⟨hst, hcell, hcbk⟩ := SchedulerInv_change (Γ) (Calls') (s')
    (X := X) hI hF (Or.inr rfl) hFindY hD
    (by
      intro h p _ hp
      rcases hp with hp | hp
      · left; rw [hProm]; exact hp
      · rcases List.mem_cons.1 hp with hp | hp
        · cases hp
        · exact Or.inr (hEV' h hp))
    (by
      intro Y _
      rw [hTC' Y]
      simp)
    (fun Y _ => hheadSE' Y) hheadCW'
    (fun h hn => Or.inr (by rw [hRes]; exact hn))
    (by
      intro h Y hYX
      by_cases hha : h = e.FutureCompletion
      · subst hha
        rw [hacb]
        rcases hacb' with h1 | h1 <;> rw [h1] <;> simp
      · rw [hCb h hha])
    (by
      intro h Y hYX
      by_cases hha : h = e.FutureCompletion
      · subst hha
        rw [hacb]
        rcases hacb' with h1 | h1 <;> rw [h1] <;> simp
        exact fun hh => hYX hh.symm
      · rw [hCb h hha])
    (by
      intro h T f hh
      have hha : h ≠ e.FutureCompletion := by
        intro hha; subst hha; rw [hacb] at hh; cases hh
      rw [hCb h hha]; exact hh)
    (by
      intro h _ hh
      by_cases hha : h = e.FutureCompletion
      · subst hha
        exact Or.inr (Or.inr ⟨_, harole⟩)
      · left; rw [hCb h hha]; exact hh)
  have hnoSE : ∀ h, s.CompletionCallback h ≠
      some (.StartExecutingWhenPrerequisitesComplete X) := by
    intro h hh
    obtain ⟨_, pd, F, hdef⟩ :=
      CallbackOK_StartExecuting (hI.cells h (lt_of_CompletionCallback hh)).2 hh
    rw [hX] at hdef; cases hdef
  refine ⟨by rw [hlen]; exact hI.roles, ?_, ?_, ?_, ?_, MapOK_of_eq hI.map hmap⟩
  · -- cells
    intro h hlt
    rw [hlen] at hlt
    by_cases hha : h = e.FutureCompletion
    · subst hha
      rcases hacb' with h1 | h1
      · exact ⟨hcell _ hlt (hRes _) (by rw [h1, hacb]),
          hcbk _ hlt (by rw [h1, hacb]) (hnoSE _) (hnoCW _)⟩
      · have hpend : s.Result e.FutureCompletion = none := by
          rcases hcase with ⟨h, _, _⟩ | ⟨_, _, h, _⟩ | ⟨_, h, _⟩
          · exact h
          · rw [h1] at h; cases h
          · rw [h1] at h; cases h
        have hpend' : s'.Result e.FutureCompletion = none := by rw [hRes]; exact hpend
        constructor
        · have hold := (hI.cells _ hlt).1
          rcases harole with hΓ | hΓ
          · rw [CellOK_TaskCompletion_iff hΓ] at hold ⊢
            obtain ⟨_, T, he, hL, hhe, h3, _⟩ := hold
            refine ⟨fun hh => absurd hpend' hh, T, he, hL, hF.results _ _ hhe, ?_, ?_⟩
            · rw [hRes]; exact h3
            · intro T' f hh; rw [h1] at hh; cases hh
          · rw [CellOK_PostNotify_iff hΓ] at hold ⊢
            obtain ⟨_, T, he, hc, hL, hhe, hΓc, hl⟩ := hold
            refine ⟨fun hh => absurd hpend' hh, T, he, hc, hL, hF.results _ _ hhe, hΓc, ?_⟩
            have hcne : hc ≠ e.FutureCompletion := by
              intro hh; rw [hh, hΓ] at hΓc; cases hΓc
            refine LinkOK_frame hF.results ?_ ?_ ?_ ?_ hl
            · intro hn
              exact ⟨by rw [hRes]; exact hn, fun hh => by rw [hCb hc hcne]; exact hh⟩
            · intro hn; rw [hRes]; exact hn
            · intro hh; simp at hh
            · intro hh; simp at hh
        · unfold CallbackOK
          rw [h1]
          exact ⟨⟨_, harole⟩, Ts', Ps, hFindX⟩
    · exact ⟨hcell h hlt (hRes h) (hCb h hha), hcbk h hlt (hCb h hha) (hnoSE h) (hnoCW h)⟩
  · -- stages
    intro Y st hY
    by_cases hYX : Y = X
    · subst hYX
      rw [hFindX] at hY
      cases hY
      refine ⟨hX0, fun P hP p hp => hD p (hX1 P hP p hp), hX2,
        PromisesOK_frame hF.roles (fun h _ hn => by rw [hRes]; exact hn) hX3,
        ReleasedOK_frame hF rfl hX4, ?_, by omega, ?_⟩
      · intro j e' hj
        have hj' : (Ts' ++ [e])[j]? = some e' := by
          rw [List.getElem?_append_left (List.getElem?_eq_some.1 hj).1]
          exact hj
        have hE' := hE j e' hj'
        refine EntryOK_frame hF ?_ hE'
        intro hn
        have hne : e'.FutureCompletion ≠ e.FutureCompletion := by
          intro hh
          have hjlt : j < Ts'.length := (List.getElem?_eq_some.1 hj).1
          have h2 := hE'.2.1
          rw [hh] at h2
          rcases harole with h1 | h1 <;> rcases h2 with h2 | h2 <;> rw [h1] at h2 <;>
            cases h2 <;> omega
        rw [hCb _ hne]; exact hn
      · rcases hcase with ⟨hr, hcb1, hC⟩ | ⟨v, hr, hcb1, hC⟩ | ⟨hr, hcb1, hC⟩
        · subst hC
          refine Or.inr (Or.inr (Or.inr ⟨rfl, hTCX, TailOK_head_ne_Invoke hT _, by omega,
            fun j hj hj' => FinishedOK_frame hF (hfin j hj hj'),
            Or.inl ⟨e.FutureCompletion, ?_, by rw [hRes]; exact hr, harole⟩⟩))
          intro h
          constructor
          · intro hh
            by_contra hne
            rw [hCb h hne] at hh
            exact hnoCW h hh
          · intro hh; subst hh; exact hcb1
        · subst hC
          obtain ⟨_, T, he, hc, hL, hhe, hhc⟩ := Entry_result hI hEe hr
          have hv : FCancelableResult.Value v = .Value none := by
            have := (Entry_result hI hEe hr).1
            rcases this with h | h
            · exact h
            · cases h
          rw [hv] at hhc
          refine Or.inr (Or.inr (Or.inl ⟨rfl, ?_, rfl, ?_, ?_⟩))
          · intro hh
            rcases List.mem_cons.1 hh with hh | hh
            · cases hh
            · exact hTCX hh
          · intro h hh
            by_cases hne : h = e.FutureCompletion
            · subst hne; rw [hcb1] at hh; cases hh
            · rw [hCb h hne] at hh; exact hnoCW h hh
          · intro j hj hj'
            rcases Nat.eq_or_lt_of_le hj with hj | hj
            · rw [← hj]
              exact ⟨T, he, hc, hL, hF.results _ _ hhe, hF.results _ _ hhc⟩
            · exact FinishedOK_frame hF (hfin j hj hj')
        · subst hC
          obtain ⟨_, T, he, hc, hL, hhe, hhc⟩ := Entry_result hI hEe hr
          refine Or.inr (Or.inr (Or.inr ⟨rfl, hTCX, TailOK_head_ne_Invoke hT _, by omega,
            fun j hj hj' => FinishedOK_frame hF (hfin j hj hj'),
            Or.inr ⟨?_, T, he, hc, hL, hF.results _ _ hhe, hF.results _ _ hhc⟩⟩))
          intro h hh
          by_cases hne : h = e.FutureCompletion
          · subst hne; rw [hcb1] at hh; cases hh
          · rw [hCb h hne] at hh; exact hnoCW h hh
    · rw [hFindY Y hYX] at hY
      exact hst Y st hYX hY
  · -- log
    apply LogOK_of_Find hI.log
    intro Y hY
    by_cases hYX : Y = X
    · subst hYX; rw [hFindX] at hY; cases hY
    · rw [← hFindY Y hYX]; exact hY
  · -- calls
    have hTCs : ∀ Z, FCall.Transition_Completed Z ∈ Rest →
        s'.Find Z = some (.Executing Z true [] []) := by
      intro Z hZ
      have hZX : Z ≠ X := by
        intro hh; subst hh; exact hTCX hZ
      rw [hFindY Z hZX]
      exact hI.calls.1 Z (List.mem_cons_of_mem _ hZ)
    rcases hcase with ⟨_, _, hC⟩ | ⟨_, _, _, hC⟩ | ⟨_, _, hC⟩
    · subst hC; exact CallsOK_of_TailOK hTCs hT
    · subst hC
      refine ⟨?_, hT, hTCX, Ts', Ps, hFindX⟩
      intro Z hZ
      rcases List.mem_cons.1 hZ with hZ | hZ
      · cases hZ
      · exact hTCs Z hZ
    · subst hC; exact CallsOK_of_TailOK hTCs hT

end Zkz.StagedExecution

namespace Zkz.StagedExecution

theorem TailOK_completing {Γ : FRoles} {X : IdType} {Rest : List FCall} :
    ∀ Ps : List FFutureHandle, (∀ h, h ∈ Ps → ∃ c, Γ[h]? = some (.StageCompletion X c)) →
      TailOK Γ (.Transition_Completed X :: Rest) →
      TailOK Γ (Ps.map .EmplaceValue ++ .Transition_Completed X :: Rest) := by
  intro Ps
  induction Ps with
  | nil => intro _ h; exact h
  | cons h Ps ih =>
    intro hty hT
    obtain ⟨c, hc⟩ := hty h (List.mem_cons_self _ _)
    refine ⟨⟨X, c, hc, ?_⟩, ih (fun h' hh' => hty h' (List.mem_cons_of_mem _ hh')) hT⟩
    simp

/-- `CompleteWhenTasksFinished` finds no task left: the stage starts completing. -/
theorem SchedulerInv_CW_complete {GPI : Bool} {Γ : FRoles} {Log : FLog} {Rest : List FCall}
    {s : TScheduler} {X : IdType} {Ps : List FFutureHandle}
    (hI : SchedulerInv GPI Γ Log (.Invoke (.CompleteWhenTasksFinished X) :: Rest) s)
    (hX : s.Find X = some (.Executing X true [] Ps)) :
    SchedulerInv GPI Γ Log (Ps.map .EmplaceValue ++ .Transition_Completed X :: Rest)
      (s.Assign X (.Executing X true [] [])) := by
  obtain ⟨hT, hTCX, _⟩ := hI.calls.2
  obtain ⟨hX0, hX1, hX2, hX3, hX4, hX5⟩ := hI.stages X _ hX
  obtain ⟨hE, hlenL, hdr⟩ := hX5
  have hdr' : (∀ h, s.CompletionCallback h ≠ some (.CompleteWhenTasksFinished X)) ∧
      ∀ j, j < (TasksOf Log X).length → FinishedOK Log s X j := by
    rcases hdr with ⟨h4, _⟩ | ⟨_, h5, _⟩ | ⟨_, _, _, h7, h8⟩ | ⟨_, _, h6, _⟩
    · cases h4
    · rcases List.mem_cons.1 h5 with h5 | h5
      · cases h5
      · exact absurd h5 hTCX
    · exact ⟨h7, fun j hj => h8 j (Nat.zero_le _) hj⟩
    · simp at h6
  obtain ⟨hnoCW, hfin⟩ := hdr'
  have hFindX : (s.Assign X (.Executing X true [] [])).Find X = some (.Executing X true [] []) :=
    Find_Assign_same s X _ _ rfl hX
  have hFindY : ∀ Y, Y ≠ X → (s.Assign X (.Executing X true [] [])).Find Y = s.Find Y :=
    fun Y hY => Find_Assign_other s X Y _ rfl hY
  have hF : Frame Γ Γ Log Log s (s.Assign X (.Executing X true [] [])) :=
    Frame.of_Futures (Assign_Futures s X _)
  have hGetId : ∀ p, (s.Assign X (.Executing X true [] [])).GetId p = s.GetId p := by
    intro p
    unfold TScheduler.GetId
    by_cases hpX : p = X
    · subst hpX; rw [hFindX, hX]; rfl
    · rw [hFindY p hpX]
  have hD : ∀ p, IsDone s (.Invoke (.CompleteWhenTasksFinished X) :: Rest) p →
      IsDone (s.Assign X (.Executing X true [] []))
        (Ps.map .EmplaceValue ++ .Transition_Completed X :: Rest) p := by
    intro p hp
    rcases hp with hp | hp
    · left; rw [hGetId]; exact hp
    · rcases List.mem_cons.1 hp with hp | hp
      · cases hp
      · right
        simp [hp]
  have hhead : ∀ F, (Ps.map FCall.EmplaceValue ++ FCall.Transition_Completed X :: Rest).head? ≠
      some (.Invoke F) := by
    intro F hh
    cases Ps with
    | nil => simp at hh
    | cons h Ps => simp at hh
  have hTX : TailOK Γ (.Transition_Completed X :: Rest) := by
    refine ⟨hTCX, ?_, hT⟩
    intro h c hh hΓ
    obtain ⟨p, c', h1, h2⟩ := TailOK_EmplaceValue_mem hT h hh
    rw [hΓ] at h1
    cases h1
    exact hTCX h2
  have hTail := TailOK_completing Ps (fun h hh => (hX3 h hh).1) hTX
  obtain ⟨hst, hcell, hcbk⟩ := SchedulerInv_change (Γ)
    (Ps.map FCall.EmplaceValue ++ FCall.Transition_Completed X :: Rest)
    (s.Assign X (.Executing X true [] []))
    (X := X) hI hF (Or.inr rfl) hFindY hD
    (by
      intro h p _ hp
      rcases hp with hp | hp
      · by_cases hpX : p = X
        · subst hpX
          rw [PromisesOf_of_Find hX] at hp
          right
          simp only [TStageState.Promises] at hp
          simp [hp]
        · left
          unfold TScheduler.PromisesOf at hp ⊢
          rw [hFindY p hpX]; exact hp
      · rcases List.mem_cons.1 hp with hp | hp
        · cases hp
        · right; simp [hp])
    (by
      intro Y hYX
      simp only [List.mem_append, List.mem_map, List.mem_cons, FCall.Transition_Completed.injEq]
      constructor
      · intro hh
        rcases hh with ⟨_, _, hh⟩ | hh | hh
        · cases hh
        · exact absurd hh hYX
        · exact Or.inr hh
      · intro hh
        rcases hh with hh | hh
        · cases hh
        · exact Or.inr (Or.inr hh))
    (fun Y _ => hhead _) (fun Y _ => hhead _)
    (fun h hn => Or.inr hn)
    (fun h Y _ => Iff.rfl) (fun h Y _ => Iff.rfl) (fun h T f hh => hh)
    (fun h _ hh => Or.inl hh)
  have hnoSE : ∀ h, s.CompletionCallback h ≠
      some (.StartExecutingWhenPrerequisitesComplete X) := by
    intro h hh
    obtain ⟨_, pd, F, hdef⟩ :=
      CallbackOK_StartExecuting (hI.cells h (lt_of_CompletionCallback hh)).2 hh
    rw [hX] at hdef; cases hdef
  refine ⟨hI.roles, ?_, ?_, ?_, ?_, MapOK_of_eq hI.map rfl⟩
  · intro h hlt
    exact ⟨hcell h hlt rfl rfl, hcbk h hlt rfl (hnoSE h) (hnoCW h)⟩
  · intro Y st hY
    by_cases hYX : Y = X
    · subst hYX
      rw [hFindX] at hY
      cases hY
      refine ⟨hX0, fun P hP p hp => hD p (hX1 P hP p hp), hX2, ?_,
        ReleasedOK_frame hF rfl hX4, ?_, Nat.zero_le _, ?_⟩
      · intro h hh; simp at hh
      · intro j e hj; simp at hj
      · refine Or.inr (Or.inl ⟨rfl, by simp, rfl, rfl,
          fun j hj => FinishedOK_frame hF (hfin j hj), hnoCW, hhead _⟩)
    · rw [hFindY Y hYX] at hY
      exact hst Y st hYX hY
  · apply LogOK_of_Find hI.log
    intro Y hY
    by_cases hYX : Y = X
    · subst hYX; rw [hFindX] at hY; cases hY
    · rw [← hFindY Y hYX]; exact hY
  · apply CallsOK_of_TailOK _ hTail
    intro Z hZ
    simp only [List.mem_append, List.mem_map, List.mem_cons,
      FCall.Transition_Completed.injEq] at hZ
    rcases hZ with ⟨_, _, hZ⟩ | hZ | hZ
    · cases hZ
    · subst hZ; exact hFindX
    · have hZX : Z ≠ X := by
        intro hh; subst hh; exact hTCX hZ
      rw [hFindY Z hZX]
      exact hI.calls.1 Z (List.mem_cons_of_mem _ hZ)

/-- `Invoke (CompleteWhenTasksFinished X)`: the drain of an executing stage preserves the
invariant. -/
theorem SchedulerInv_Invoke_CW {GPI : Bool} {Γ : FRoles} {Log : FLog} {Rest : List FCall}
    {s : TScheduler} {X : IdType}
    (hI : SchedulerInv GPI Γ Log (.Invoke (.CompleteWhenTasksFinished X) :: Rest) s) :
    SchedulerInv GPI Γ Log ((CompleteWhenTasksFinished s X).2 ++ Rest)
      (CompleteWhenTasksFinished s X).1 := by
  obtain ⟨hT, hTCX, Ts, Ps, hX⟩ := hI.calls.2
  unfold CompleteWhenTasksFinished
  rw [hX]
  simp only
  cases hlast : Ts.getLast? with
  | none =>
    rw [getLast?_eq_none_iff'] at hlast
    subst hlast
    simp only [if_true, TransitionToStageState_Completed, List.append_assoc,
      List.singleton_append]
    exact SchedulerInv_CW_complete hI hX
  | some e =>
    have hTs := eq_concat_of_getLast? hlast
    simp only
    have hX' : s.Find X = some (.Executing X true (Ts.dropLast ++ [e]) Ps) := by
      rw [← hTs]; exact hX
    have hE : EntryOK Γ Log s X Ts.dropLast.length e := by
      obtain ⟨_, _, _, _, _, hE, _⟩ := hI.stages X _ hX'
      apply hE
      simp
    have halt : e.FutureCompletion < s.Futures.length := by
      rcases hE.2.1 with h | h <;> exact lt_of_role hI h
    have hFindX : ∀ s1 : TScheduler, s1.Stages = (s.Assign X
        (.Executing X true Ts.dropLast Ps)).Stages →
        s1.Find X = some (.Executing X true Ts.dropLast Ps) := by
      intro s1 h1
      rw [Find_of_Stages h1]
      exact Find_Assign_same s X _ _ rfl hX
    have hFindY : ∀ s1 : TScheduler, s1.Stages = (s.Assign X
        (.Executing X true Ts.dropLast Ps)).Stages → ∀ Y, Y ≠ X → s1.Find Y = s.Find Y := by
      intro s1 h1 Y hY
      rw [Find_of_Stages h1]
      exact Find_Assign_other s X Y _ rfl hY
    cases hres : s.Result e.FutureCompletion with
    | none =>
      rw [IfNotCanceled_pending _ (by simpa using halt) (by simpa using hres)]
      simp only [List.nil_append]
      refine SchedulerInv_CW_pop hI hX' (hFindX _ rfl) (hFindY _ rfl) ?_ ?_ ?_ rfl
        (Or.inl ⟨hres, ?_, rfl⟩)
      · intro h
        rw [Register_Result _ _ _ (by simpa using hres)]
        rfl
      · intro h hne
        rw [CompletionCallback_SetFuture_other _ _ _ _ hne]
        rfl
      · simp
      · rw [CompletionCallback_SetFuture_same _ _ _ (by simpa using halt)]
    | some r =>
      cases r with
      | Value v =>
        rw [IfNotCanceled_Value _ (by simpa using hres)]
        simp only [List.singleton_append]
        exact SchedulerInv_CW_pop hI hX' (hFindX _ rfl) (hFindY _ rfl) (fun h => rfl)
          (fun h _ => rfl) rfl rfl (Or.inr (Or.inl ⟨v, hres, hE.2.2, rfl⟩))
      | Canceled =>
        rw [IfNotCanceled_Canceled _ (by simpa using hres)]
        simp only [DestroyContinuation, List.nil_append]
        exact SchedulerInv_CW_pop hI hX' (hFindX _ rfl) (hFindY _ rfl) (fun h => rfl)
          (fun h _ => rfl) rfl rfl (Or.inr (Or.inr ⟨hres, hE.2.2, rfl⟩))

end Zkz.StagedExecution

namespace Zkz.StagedExecution

/-! ## The chain of a defined stage: `StartExecutingWhenPrerequisitesComplete` -/

/-- `StartExecutingWhenPrerequisitesComplete` pops the last prerequisite future `f` of the
defined stage `X` and registers on it, or continues. -/
theorem SchedulerInv_SE_pop {GPI : Bool} {Γ : FRoles} {Log : FLog} {Rest Calls' : List FCall}
    {s s' : TScheduler} {X : IdType} {pd : TStageState_Pending} {F' : List FFutureHandle}
    {f : FFutureHandle}
    (hI : SchedulerInv GPI Γ Log (.Invoke (.StartExecutingWhenPrerequisitesComplete X) :: Rest) s)
    (hX : s.Find X = some (.Defined pd (F' ++ [f])))
    (hFindX : s'.Find X = some (.Defined pd F'))
    (hFindY : ∀ Y, Y ≠ X → s'.Find Y = s.Find Y)
    (hRes : ∀ h, s'.Result h = s.Result h)
    (hCb : ∀ h, h ≠ f → s'.CompletionCallback h = s.CompletionCallback h)
    (hlen : s'.Futures.length = s.Futures.length)
    (hmap : s'.PrerequisitesByStageId = s.PrerequisitesByStageId)
    (hcase : (s.Result f = none ∧
        s'.CompletionCallback f = some (.StartExecutingWhenPrerequisitesComplete X) ∧
        Calls' = Rest) ∨
      (∃ v, s.Result f = some (.Value v) ∧ s'.CompletionCallback f = none ∧
        Calls' = .Invoke (.StartExecutingWhenPrerequisitesComplete X) :: Rest)) :
    SchedulerInv GPI Γ Log Calls' s' := by
  obtain ⟨hT, _⟩ := hI.calls.2
  have hid : pd.StageId = X := GetStageId_of_Find hX
  have hXok := hI.stages X _ hX
  obtain ⟨hX0, hX1, hX2, hX3, hX4⟩ := hXok
  rw [hid] at hX0 hX1 hX2 hX3 hX4
  have hTCX : FCall.Transition_Completed X ∉ Rest := by
    intro hh
    have := hI.calls.1 X (List.mem_cons_of_mem _ hh)
    rw [hX] at this; cases this
  have hlenF : (F' ++ [f]).length = F'.length + 1 := by simp
  -- the chain is being continued by the call at the head
  have hch : ∀ P, IsAddedWith Log X P → F'.length + 1 ≤ P.length ∧
      (∀ (j : Nat) (f' : FFutureHandle), (F' ++ [f])[j]? = some f' →
        ∃ p, P[j]? = some p ∧ Γ[f']? = some (.StageCompletion p (some (X, j))) ∧
          s.CompletionCallback f' = none) ∧
      (∀ h, s.CompletionCallback h ≠ some (.StartExecutingWhenPrerequisitesComplete X)) ∧
      ∀ (j : Nat) (p : IdType), F'.length + 1 ≤ j → P[j]? = some p →
        IsDone s (.Invoke (.StartExecutingWhenPrerequisitesComplete X) :: Rest) p := by
    intro P hP
    obtain ⟨h1, h2, h3⟩ := hX1 P hP
    rw [hlenF] at h1 h3
    rcases h3 with ⟨_, h5, h6⟩ | ⟨h4, _⟩
    · exact ⟨h1, h2, h5, h6⟩
    · simp at h4
  obtain ⟨P0, hP0⟩ := hX0
  have hnoSE : ∀ h, s.CompletionCallback h ≠
      some (.StartExecutingWhenPrerequisitesComplete X) := (hch P0 hP0).2.2.1
  have hnoCW : ∀ h, s.CompletionCallback h ≠ some (.CompleteWhenTasksFinished X) := by
    intro h hh
    obtain ⟨_, Ts, Ps, hex⟩ :=
      CallbackOK_CompleteWhen (hI.cells h (lt_of_CompletionCallback hh)).2 hh
    rw [hX] at hex; cases hex
  have hfrole : ∃ p, P0[F'.length]? = some p ∧
      Γ[f]? = some (.StageCompletion p (some (X, F'.length))) ∧
      s.CompletionCallback f = none := by
    apply (hch P0 hP0).2.1
    simp
  obtain ⟨p0, _, hΓf, hfcb⟩ := hfrole
  have hflt : f < s.Futures.length := lt_of_role hI hΓf
  have hF : Frame Γ Γ Log Log s s' :=
    ⟨fun _ _ h => h, fun _ _ _ h => h, fun h r hr => by rw [hRes]; exact hr⟩
  have hTC' : ∀ Y, FCall.Transition_Completed Y ∈ Calls' ↔
      FCall.Transition_Completed Y ∈ Rest := by
    intro Y
    rcases hcase with ⟨_, _, h⟩ | ⟨_, _, _, h⟩ <;> subst h <;> simp
  have hEV' : ∀ h, FCall.EmplaceValue h ∈ Rest → FCall.EmplaceValue h ∈ Calls' := by
    intro h hh
    rcases hcase with ⟨_, _, h⟩ | ⟨_, _, _, h⟩ <;> subst h <;> simp [hh]
  have hheadCW' : ∀ Y, Calls'.head? ≠ some (.Invoke (.CompleteWhenTasksFinished Y)) := by
    intro Y hh
    rcases hcase with ⟨_, _, h⟩ | ⟨_, _, _, h⟩ <;> subst h
    · exact TailOK_head_ne_Invoke hT _ hh
    · simp at hh
  have hheadSE' : ∀ Y, Y ≠ X →
      Calls'.head? ≠ some (.Invoke (.StartExecutingWhenPrerequisitesComplete Y)) := by
    intro Y hYX hh
    rcases hcase with ⟨_, _, h⟩ | ⟨_, _, _, h⟩ <;> subst h
    · exact TailOK_head_ne_Invoke hT _ hh
    · simp at hh; exact hYX hh.symm
  have hfcb' : s'.CompletionCallback f = none ∨
      s'.CompletionCallback f = some (.StartExecutingWhenPrerequisitesComplete X) := by
    rcases hcase with ⟨_, h, _⟩ | ⟨_, _, h, _⟩
    · exact Or.inr h
    · exact Or.inl h
  have hGetId : ∀ p, s'.GetId p = s.GetId p := by
    intro p
    unfold TScheduler.GetId
    by_cases hpX : p = X
    · subst hpX; rw [hFindX, hX]; rfl
    · rw [hFindY p hpX]
  have hProm : ∀ p, s'.PromisesOf p = s.PromisesOf p := by
    intro p
    unfold TScheduler.PromisesOf
    by_cases hpX : p = X
    · subst hpX; rw [hFindX, hX]; rfl
    · rw [hFindY p hpX]
  have hD : ∀ p, IsDone s (.Invoke (.StartExecutingWhenPrerequisitesComplete X) :: Rest) p →
      IsDone s' Calls' p := by
    intro p hp
    rcases hp with hp | hp
    · left; rw [hGetId]; exact hp
    · rcases List.mem_cons.1 hp with hp | hp
      · cases hp
      · exact Or.inr ((hTC' p).2 hp)
  have hEV : ∀ h p, s.Result h = none →
      (h ∈ s.PromisesOf p ∨ FCall.EmplaceValue h ∈
        FCall.Invoke (.StartExecutingWhenPrerequisitesComplete X) :: Rest) →
      (h ∈ s'.PromisesOf p ∨ FCall.EmplaceValue h ∈ Calls') := by
    intro h p _ hp
    rcases hp with hp | hp
    · left; rw [hProm]; exact hp
    · rcases List.mem_cons.1 hp with hp | hp
      · cases hp
      · exact Or.inr (hEV' h hp)
  obtain ⟨hst, hcell, hcbk⟩ := SchedulerInv_change (Γ) (Calls') (s')
    (X := X) hI hF (Or.inl rfl) hFindY hD hEV
    (by
      intro Y _
      rw [hTC' Y]
      simp)
    hheadSE' (fun Y _ => hheadCW' Y)
    (fun h hn => Or.inr (by rw [hRes]; exact hn))
    (by
      intro h Y hYX
      by_cases hha : h = f
      · subst hha
        rw [hfcb]
        rcases hfcb' with h1 | h1 <;> rw [h1] <;> simp
        exact fun hh => hYX hh.symm
      · rw [hCb h hha])
    (by
      intro h Y hYX
      by_cases hha : h = f
      · subst hha
        rw [hfcb]
        rcases hfcb' with h1 | h1 <;> rw [h1] <;> simp
      · rw [hCb h hha])
    (by
      intro h T f' hh
      have hha : h ≠ f := by
        intro hha; subst hha; rw [hfcb] at hh; cases hh
      rw [hCb h hha]; exact hh)
    (by
      intro h _ hh
      by_cases hha : h = f
      · subst hha
        exact Or.inr (Or.inl ⟨_, _, hΓf⟩)
      · left; rw [hCb h hha]; exact hh)
  have hfcell := (CellOK_StageCompletion_iff hΓf).1 (hI.cells f hflt).1
  refine ⟨by rw [hlen]; exact hI.roles, ?_, ?_, ?_, ?_, MapOK_of_eq hI.map hmap⟩
  · -- cells
    intro h hlt
    rw [hlen] at hlt
    by_cases hha : h = f
    · subst hha
      rcases hfcb' with h1 | h1
      · exact ⟨hcell _ hlt (hRes _) (by rw [h1, hfcb]),
          hcbk _ hlt (by rw [h1, hfcb]) (hnoSE _) (hnoCW _)⟩
      · have hpend : s.Result h = none := by
          rcases hcase with ⟨h', _, _⟩ | ⟨_, _, h', _⟩
          · exact h'
          · rw [h1] at h'; cases h'
        have hpend' : s'.Result h = none := by rw [hRes]; exact hpend
        constructor
        · rw [CellOK_StageCompletion_iff hΓf]
          refine ⟨fun hh => absurd hpend' hh, Or.inl ⟨hpend', ?_⟩⟩
          rcases hfcell.2 with ⟨_, h3⟩ | ⟨h3, _⟩
          · exact hEV h p0 hpend h3
          · rw [hpend] at h3; cases h3
        · unfold CallbackOK
          rw [h1]
          exact ⟨⟨_, _, hΓf⟩, pd, F', hFindX⟩
    · exact ⟨hcell h hlt (hRes h) (hCb h hha), hcbk h hlt (hCb h hha) (hnoSE h) (hnoCW h)⟩
  · -- stages
    intro Y st hY
    by_cases hYX : Y = X
    · subst hYX
      rw [hFindX] at hY
      cases hY
      show _ ∧ _ ∧ _ ∧ _ ∧ _
      rw [hid]
      refine ⟨⟨P0, hP0⟩, ?_, hX2,
        PendingTasksOK_frame hF.roles rfl (fun t _ hn => by rw [hRes]; exact hn) hX3,
        PromisesOK_frame hF.roles (fun h _ hn => by rw [hRes]; exact hn) hX4⟩
      intro P hP
      obtain ⟨h1, h2, h3, h4⟩ := hch P hP
      have hfP : ∃ p, P[F'.length]? = some p ∧
          Γ[f]? = some (.StageCompletion p (some (Y, F'.length))) ∧
          s.CompletionCallback f = none := by
        apply h2
        simp
      obtain ⟨p, hPp, hΓp, _⟩ := hfP
      rw [hΓf] at hΓp
      cases hΓp
      refine ⟨by omega, ?_, ?_⟩
      · intro j f' hj
        have hjlt : j < F'.length := (List.getElem?_eq_some.1 hj).1
        have hj' : (F' ++ [f])[j]? = some f' := by
          rw [List.getElem?_append_left hjlt]
          exact hj
        obtain ⟨p', h5, h6, h7⟩ := h2 j f' hj'
        refine ⟨p', h5, h6, ?_⟩
        have hne : f' ≠ f := by
          intro hh
          rw [hh, hΓf] at h6
          cases h6
          omega
        rw [hCb f' hne]; exact h7
      · rcases hcase with ⟨hr, hcb1, hC⟩ | ⟨v, hr, hcb1, hC⟩
        · subst hC
          refine Or.inr ⟨TailOK_head_ne_Invoke hT _, ⟨f, p0, hPp, hΓf, by rw [hRes]; exact hr, ?_⟩,
            fun j p hj hp => hD p (h4 j p hj hp)⟩
          intro h
          constructor
          · intro hh
            by_contra hne
            rw [hCb h hne] at hh
            exact hnoSE h hh
          · intro hh; subst hh; exact hcb1
        · subst hC
          refine Or.inl ⟨rfl, ?_, ?_⟩
          · intro h hh
            by_cases hne : h = f
            · subst hne; rw [hcb1] at hh; cases hh
            · rw [hCb h hne] at hh; exact hnoSE h hh
          · intro j p hj hp
            rcases Nat.eq_or_lt_of_le hj with hj | hj
            · rw [← hj, hPp] at hp
              cases hp
              rcases hfcell.2 with ⟨h3, _⟩ | ⟨_, h3⟩
              · rw [hr] at h3; cases h3
              · exact hD _ h3
            · exact hD p (h4 j p hj hp)
    · rw [hFindY Y hYX] at hY
      exact hst Y st hYX hY
  · -- log
    apply LogOK_of_Find hI.log
    intro Y hY
    by_cases hYX : Y = X
    · subst hYX; rw [hFindX] at hY; cases hY
    · rw [← hFindY Y hYX]; exact hY
  · -- calls
    have hTCs : ∀ Z, FCall.Transition_Completed Z ∈ Rest →
        s'.Find Z = some (.Executing Z true [] []) := by
      intro Z hZ
      have hZX : Z ≠ X := by
        intro hh; subst hh; exact hTCX hZ
      rw [hFindY Z hZX]
      exact hI.calls.1 Z (List.mem_cons_of_mem _ hZ)
    rcases hcase with ⟨_, _, hC⟩ | ⟨_, _, _, hC⟩
    · subst hC; exact CallsOK_of_TailOK hTCs hT
    · subst hC
      refine ⟨?_, hT, pd, F', hFindX⟩
      intro Z hZ
      rcases List.mem_cons.1 hZ with hZ | hZ
      · cases hZ
      · exact hTCs Z hZ

end Zkz.StagedExecution

namespace Zkz.StagedExecution

/-! ## `ExecuteAllTasks`: the shared states it creates -/

theorem SetValue_pending {s : TScheduler} {he : FFutureHandle} (hc : FFutureHandle)
    (hlt : he < s.Futures.length) (hr : s.Result he = none) :
    SetValue s he hc = s.SetFuture he { Result := some (.Value (some hc)) } := by
  unfold SetValue
  unfold TScheduler.Result at hr
  cases h : s.Futures[he]? with
  | none =>
    rw [List.getElem?_eq_none_iff] at h
    exact absurd hlt (Nat.not_lt.2 h)
  | some c =>
    rw [h] at hr
    simp only at hr ⊢
    rw [hr]

theorem ExecuteAllTasks_cons_false (t : FPendingTaskEntry) (R : List FPendingTaskEntry)
    (s : TScheduler) :
    ExecuteAllTasks false (t :: R) s =
      ({ Id := t.Id, FutureCompletion := s.Futures.length } ::
          (ExecuteAllTasks false R
            (SetValue (s.NewPromise {}).2 t.ExecutionPromise s.Futures.length)).1,
        (ExecuteAllTasks false R
          (SetValue (s.NewPromise {}).2 t.ExecutionPromise s.Futures.length)).2) := by
  simp only [ExecuteAllTasks]
  rfl

theorem ExecuteAllTasks_cons_true (t : FPendingTaskEntry) (R : List FPendingTaskEntry)
    (s : TScheduler) :
    ExecuteAllTasks true (t :: R) s =
      ({ Id := t.Id, FutureCompletion := s.Futures.length + 1 } ::
          (ExecuteAllTasks true R
            (SetValue (((s.NewPromise {}).2.NewPromise {}).2.SetFuture s.Futures.length
              { CompletionCallback :=
                  some (.PostNotifyCompletion t.Id (s.Futures.length + 1)) })
              t.ExecutionPromise s.Futures.length)).1,
        (ExecuteAllTasks true R
          (SetValue (((s.NewPromise {}).2.NewPromise {}).2.SetFuture s.Futures.length
            { CompletionCallback :=
                some (.PostNotifyCompletion t.Id (s.Futures.length + 1)) })
            t.ExecutionPromise s.Futures.length)).2) := by
  simp only [ExecuteAllTasks, if_true, NewPromise_fst, NewPromise_Futures, List.length_append,
    List.length_singleton]

/-- `ExecuteAllTasks` without a debug scheduler: the `j`-th task gets the new task
completion promise `n + j`, which is also its completion future. -/
theorem ExecuteAllTasks_false_spec : ∀ (L : List FPendingTaskEntry) (s : TScheduler),
    (∀ t, t ∈ L → t.ExecutionPromise < s.Futures.length ∧ s.Result t.ExecutionPromise = none) →
    (L.map (fun t => t.ExecutionPromise)).Nodup →
    (ExecuteAllTasks false L s).2.Futures.length = s.Futures.length + L.length ∧
    (∀ h, h < s.Futures.length → (∀ t, t ∈ L → t.ExecutionPromise ≠ h) →
      (ExecuteAllTasks false L s).2.Result h = s.Result h ∧
      (ExecuteAllTasks false L s).2.CompletionCallback h = s.CompletionCallback h) ∧
    (∀ (j : Nat) (t : FPendingTaskEntry), L[j]? = some t →
      (ExecuteAllTasks false L s).2.Result t.ExecutionPromise =
        some (.Value (some (s.Futures.length + j))) ∧
      (ExecuteAllTasks false L s).2.CompletionCallback t.ExecutionPromise = none ∧
      (ExecuteAllTasks false L s).1[j]? =
        some { Id := t.Id, FutureCompletion := s.Futures.length + j } ∧
      (ExecuteAllTasks false L s).2.Result (s.Futures.length + j) = none ∧
      (ExecuteAllTasks false L s).2.CompletionCallback (s.Futures.length + j) = none) := by
  intro L
  induction L with
  | nil =>
    intro s _ _
    refine ⟨rfl, fun h _ _ => ⟨rfl, rfl⟩, ?_⟩
    intro j t hj
    simp at hj
  | cons t R ih =>
    intro s hEP hnd
    rw [ExecuteAllTasks_cons_false]
    obtain ⟨htlt, htpend⟩ := hEP t (List.mem_cons_self _ _)
    have hlt1 : t.ExecutionPromise < (s.NewPromise {}).2.Futures.length := by
      simp only [NewPromise_Futures, List.length_append, List.length_singleton]
      exact Nat.lt_succ_of_lt htlt
    have hpend1 : (s.NewPromise {}).2.Result t.ExecutionPromise = none := by
      rw [Result_NewPromise_old s _ _ htlt]; exact htpend
    rw [SetValue_pending _ hlt1 hpend1]
    have hlen3 : ((s.NewPromise {}).2.SetFuture t.ExecutionPromise
        { Result := some (.Value (some s.Futures.length)) }).Futures.length
        = s.Futures.length + 1 := by
      simp
    have hnd' : t.ExecutionPromise ∉ R.map (fun t => t.ExecutionPromise) ∧
        (R.map (fun t => t.ExecutionPromise)).Nodup := by
      simpa using hnd
    have hne : ∀ t', t' ∈ R → t'.ExecutionPromise ≠ t.ExecutionPromise := by
      intro t' ht' hh
      apply hnd'.1
      rw [← hh]
      exact List.mem_map_of_mem _ ht'
    have hR3 : ∀ h, h ≠ t.ExecutionPromise → h < s.Futures.length →
        ((s.NewPromise {}).2.SetFuture t.ExecutionPromise
          { Result := some (.Value (some s.Futures.length)) }).Result h = s.Result h ∧
        ((s.NewPromise {}).2.SetFuture t.ExecutionPromise
          { Result := some (.Value (some s.Futures.length)) }).CompletionCallback h
          = s.CompletionCallback h := by
      intro h hh hlt
      rw [Result_SetFuture_other _ _ _ _ hh, CompletionCallback_SetFuture_other _ _ _ _ hh,
        Result_NewPromise_old s _ _ hlt, CompletionCallback_NewPromise_old s _ _ hlt]
      exact ⟨rfl, rfl⟩
    have hnne : s.Futures.length ≠ t.ExecutionPromise := Nat.ne_of_gt htlt
    have hN3 : ((s.NewPromise {}).2.SetFuture t.ExecutionPromise
          { Result := some (.Value (some s.Futures.length)) }).Result s.Futures.length = none ∧
        ((s.NewPromise {}).2.SetFuture t.ExecutionPromise
          { Result := some (.Value (some s.Futures.length)) }).CompletionCallback
          s.Futures.length = none := by
      rw [Result_SetFuture_other _ _ _ _ hnne, CompletionCallback_SetFuture_other _ _ _ _ hnne,
        Result_NewPromise_new, CompletionCallback_NewPromise_new]
      exact ⟨rfl, rfl⟩
    have hT3 : ((s.NewPromise {}).2.SetFuture t.ExecutionPromise
          { Result := some (.Value (some s.Futures.length)) }).Result t.ExecutionPromise
          = some (.Value (some s.Futures.length)) ∧
        ((s.NewPromise {}).2.SetFuture t.ExecutionPromise
          { Result := some (.Value (some s.Futures.length)) }).CompletionCallback
          t.ExecutionPromise = none := by
      rw [Result_SetFuture_same _ _ _ hlt1, CompletionCallback_SetFuture_same _ _ _ hlt1]
      exact ⟨rfl, rfl⟩
    obtain ⟨ih1, ih2, ih3⟩ := ih ((s.NewPromise {}).2.SetFuture t.ExecutionPromise
        { Result := some (.Value (some s.Futures.length)) })
      (by
        intro t' ht'
        obtain ⟨h1, h2⟩ := hEP t' (List.mem_cons_of_mem _ ht')
        rw [hlen3]
        refine ⟨Nat.lt_succ_of_lt h1, ?_⟩
        rw [(hR3 _ (hne t' ht') h1).1]
        exact h2)
      hnd'.2
    rw [hlen3] at ih1 ih2 ih3
    refine ⟨?_, ?_, ?_⟩
    · simp only at ih1 ⊢
      rw [ih1, List.length_cons]
      omega
    · intro h hlt hnot
      have hht : h ≠ t.ExecutionPromise := fun hh => hnot t (List.mem_cons_self _ _) hh.symm
      obtain ⟨h1, h2⟩ := ih2 h (Nat.lt_succ_of_lt hlt)
        (fun t' ht' => hnot t' (List.mem_cons_of_mem _ ht'))
      simp only at h1 h2 ⊢
      rw [h1, h2]
      exact hR3 h hht hlt
    · intro j t' hj
      cases j with
      | zero =>
        simp only [List.getElem?_cons_zero, Option.some.injEq] at hj
        subst hj
        obtain ⟨h1, h2⟩ := ih2 t.ExecutionPromise (Nat.lt_succ_of_lt htlt)
          (fun t' ht' => hne t' ht')
        obtain ⟨h3, h4⟩ := ih2 s.Futures.length (Nat.lt_succ_self _)
          (fun t' ht' => Nat.ne_of_lt (hEP t' (List.mem_cons_of_mem _ ht')).1)
        simp only at h1 h2 h3 h4 ⊢
        simp only [Nat.add_zero, List.getElem?_cons_zero]
        rw [h1, h2, h3, h4]
        exact ⟨hT3.1, hT3.2, trivial, hN3.1, hN3.2⟩
      | succ j =>
        simp only [List.getElem?_cons_succ] at hj
        obtain ⟨h1, h2, h3, h4, h5⟩ := ih3 j t' hj
        have harith : s.Futures.length + 1 + j = s.Futures.length + (j + 1) := by omega
        rw [harith] at h1 h3 h4 h5
        simp only at h1 h2 h3 h4 h5 ⊢
        simp only [List.getElem?_cons_succ]
        exact ⟨h1, h2, h3, h4, h5⟩

theorem DebugPromises_Futures (s : TScheduler) (c : FFutureState) :
    (((s.NewPromise {}).2.NewPromise {}).2.SetFuture s.Futures.length c).Futures
      = s.Futures ++ [c, {}] := by
  simp only [SetFuture_Futures, NewPromise_Futures, List.append_assoc]
  rw [List.set_append_right _ _ (Nat.le_refl _)]
  simp

theorem Result_of_append {s s' : TScheduler} {l : List FFutureState}
    (h : s'.Futures = s.Futures ++ l) {x : FFutureHandle} (hx : x < s.Futures.length) :
    s'.Result x = s.Result x ∧ s'.CompletionCallback x = s.CompletionCallback x := by
  rw [Result_eq, Result_eq, CompletionCallback_eq, CompletionCallback_eq, h,
    List.getElem?_append_left hx]
  exact ⟨rfl, rfl⟩

theorem Result_of_append_new {s s' : TScheduler} {l : List FFutureState}
    (h : s'.Futures = s.Futures ++ l) {i : Nat} {c : FFutureState} (hi : l[i]? = some c) :
    s'.Result (s.Futures.length + i) = c.Result ∧
      s'.CompletionCallback (s.Futures.length + i) = c.CompletionCallback := by
  rw [Result_eq, CompletionCallback_eq, h,
    List.getElem?_append_right (Nat.le_add_right _ _), Nat.add_sub_cancel_left, hi]
  exact ⟨rfl, rfl⟩

/-- `ExecuteAllTasks` with a debug scheduler: the `j`-th task gets the new task completion
promise `n + 2 j`, on which the continuation that fulfils the new post-notify promise
`n + 2 j + 1` is registered; the latter is its completion future. -/
theorem ExecuteAllTasks_true_spec : ∀ (L : List FPendingTaskEntry) (s : TScheduler),
    (∀ t, t ∈ L → t.ExecutionPromise < s.Futures.length ∧ s.Result t.ExecutionPromise = none) →
    (L.map (fun t => t.ExecutionPromise)).Nodup →
    (ExecuteAllTasks true L s).2.Futures.length = s.Futures.length + 2 * L.length ∧
    (∀ h, h < s.Futures.length → (∀ t, t ∈ L → t.ExecutionPromise ≠ h) →
      (ExecuteAllTasks true L s).2.Result h = s.Result h ∧
      (ExecuteAllTasks true L s).2.CompletionCallback h = s.CompletionCallback h) ∧
    (∀ (j : Nat) (t : FPendingTaskEntry), L[j]? = some t →
      (ExecuteAllTasks true L s).2.Result t.ExecutionPromise =
        some (.Value (some (s.Futures.length + 2 * j))) ∧
      (ExecuteAllTasks true L s).2.CompletionCallback t.ExecutionPromise = none ∧
      (ExecuteAllTasks true L s).1[j]? =
        some { Id := t.Id, FutureCompletion := s.Futures.length + 2 * j + 1 } ∧
      (ExecuteAllTasks true L s).2.Result (s.Futures.length + 2 * j) = none ∧
      (ExecuteAllTasks true L s).2.CompletionCallback (s.Futures.length + 2 * j) =
        some (.PostNotifyCompletion t.Id (s.Futures.length + 2 * j + 1)) ∧
      (ExecuteAllTasks true L s).2.Result (s.Futures.length + 2 * j + 1) = none ∧
      (ExecuteAllTasks true L s).2.CompletionCallback (s.Futures.length + 2 * j + 1) = none) := by
  intro L
  induction L with
  | nil =>
    intro s _ _
    refine ⟨rfl, fun h _ _ => ⟨rfl, rfl⟩, ?_⟩
    intro j t hj
    simp at hj
  | cons t R ih =>
    intro s hEP hnd
    rw [ExecuteAllTasks_cons_true]
    obtain ⟨htlt, htpend⟩ := hEP t (List.mem_cons_self _ _)
    obtain ⟨c, hc⟩ : ∃ c : FFutureState, c =
        { CompletionCallback := some (.PostNotifyCompletion t.Id (s.Futures.length + 1)) } :=
      ⟨_, rfl⟩
    rw [← hc]
    have hF2 := DebugPromises_Futures s c
    have hlt2 : t.ExecutionPromise <
        (((s.NewPromise {}).2.NewPromise {}).2.SetFuture s.Futures.length c).Futures.length := by
      rw [hF2, List.length_append]
      exact Nat.lt_add_right _ htlt
    have hpend2 : (((s.NewPromise {}).2.NewPromise {}).2.SetFuture s.Futures.length c).Result
        t.ExecutionPromise = none := by
      rw [(Result_of_append hF2 htlt).1]; exact htpend
    rw [SetValue_pending _ hlt2 hpend2]
    generalize hs2 : ((s.NewPromise {}).2.NewPromise {}).2.SetFuture s.Futures.length c = s2
      at hF2 hlt2 hpend2 ⊢
    have hlen3 : (s2.SetFuture t.ExecutionPromise
        { Result := some (.Value (some s.Futures.length)) }).Futures.length
        = s.Futures.length + 2 := by
      simp [hF2]
    have hnd' : t.ExecutionPromise ∉ R.map (fun t => t.ExecutionPromise) ∧
        (R.map (fun t => t.ExecutionPromise)).Nodup := by
      simpa using hnd
    have hne : ∀ t', t' ∈ R → t'.ExecutionPromise ≠ t.ExecutionPromise := by
      intro t' ht' hh
      apply hnd'.1
      rw [← hh]
      exact List.mem_map_of_mem _ ht'
    have hR3 : ∀ h, h ≠ t.ExecutionPromise → h < s.Futures.length →
        (s2.SetFuture t.ExecutionPromise
          { Result := some (.Value (some s.Futures.length)) }).Result h = s.Result h ∧
        (s2.SetFuture t.ExecutionPromise
          { Result := some (.Value (some s.Futures.length)) }).CompletionCallback h
          = s.CompletionCallback h := by
      intro h hh hlt
      rw [Result_SetFuture_other _ _ _ _ hh, CompletionCallback_SetFuture_other _ _ _ _ hh]
      exact Result_of_append hF2 hlt
    have hnne : s.Futures.length ≠ t.ExecutionPromise := Nat.ne_of_gt htlt
    have hnne1 : s.Futures.length + 1 ≠ t.ExecutionPromise :=
      Nat.ne_of_gt (Nat.lt_succ_of_lt htlt)
    have hN3 : (s2.SetFuture t.ExecutionPromise
          { Result := some (.Value (some s.Futures.length)) }).Result s.Futures.length = none ∧
        (s2.SetFuture t.ExecutionPromise
          { Result := some (.Value (some s.Futures.length)) }).CompletionCallback
          s.Futures.length = some (.PostNotifyCompletion t.Id (s.Futures.length + 1)) := by
      rw [Result_SetFuture_other _ _ _ _ hnne, CompletionCallback_SetFuture_other _ _ _ _ hnne]
      have := Result_of_append_new (i := 0) hF2 rfl
      rw [hc] at this
      exact this
    have hM3 : (s2.SetFuture t.ExecutionPromise
          { Result := some (.Value (some s.Futures.length)) }).Result (s.Futures.length + 1)
          = none ∧
        (s2.SetFuture t.ExecutionPromise
          { Result := some (.Value (some s.Futures.length)) }).CompletionCallback
          (s.Futures.length + 1) = none := by
      rw [Result_SetFuture_other _ _ _ _ hnne1, CompletionCallback_SetFuture_other _ _ _ _ hnne1]
      exact Result_of_append_new (i := 1) hF2 rfl
    have hT3 : (s2.SetFuture t.ExecutionPromise
          { Result := some (.Value (some s.Futures.length)) }).Result t.ExecutionPromise
          = some (.Value (some s.Futures.length)) ∧
        (s2.SetFuture t.ExecutionPromise
          { Result := some (.Value (some s.Futures.length)) }).CompletionCallback
          t.ExecutionPromise = none := by
      rw [Result_SetFuture_same _ _ _ hlt2, CompletionCallback_SetFuture_same _ _ _ hlt2]
      exact ⟨rfl, rfl⟩
    obtain ⟨ih1, ih2, ih3⟩ := ih (s2.SetFuture t.ExecutionPromise
        { Result := some (.Value (some s.Futures.length)) })
      (by
        intro t' ht'
        obtain ⟨h1, h2⟩ := hEP t' (List.mem_cons_of_mem _ ht')
        rw [hlen3]
        refine ⟨Nat.lt_add_right _ h1, ?_⟩
        rw [(hR3 _ (hne t' ht') h1).1]
        exact h2)
      hnd'.2
    rw [hlen3] at ih1 ih2 ih3
    refine ⟨?_, ?_, ?_⟩
    · simp only at ih1 ⊢
      rw [ih1, List.length_cons]
      omega
    · intro h hlt hnot
      have hht : h ≠ t.ExecutionPromise := fun hh => hnot t (List.mem_cons_self _ _) hh.symm
      obtain ⟨h1, h2⟩ := ih2 h (Nat.lt_add_right _ hlt)
        (fun t' ht' => hnot t' (List.mem_cons_of_mem _ ht'))
      simp only at h1 h2 ⊢
      rw [h1, h2]
      exact hR3 h hht hlt
    · intro j t' hj
      cases j with
      | zero =>
        simp only [List.getElem?_cons_zero, Option.some.injEq] at hj
        subst hj
        obtain ⟨h1, h2⟩ := ih2 t.ExecutionPromise (Nat.lt_add_right _ htlt)
          (fun t' ht' => hne t' ht')
        obtain ⟨h3, h4⟩ := ih2 s.Futures.length (Nat.lt_add_of_pos_right (by decide))
          (fun t' ht' => Nat.ne_of_lt (hEP t' (List.mem_cons_of_mem _ ht')).1)
        obtain ⟨h5, h6⟩ := ih2 (s.Futures.length + 1) (Nat.add_lt_add_left (by decide) _)
          (fun t' ht' => Nat.ne_of_lt
            (Nat.lt_succ_of_lt (hEP t' (List.mem_cons_of_mem _ ht')).1))
        simp only at h1 h2 h3 h4 h5 h6 ⊢
        simp only [Nat.mul_zero, Nat.add_zero, List.getElem?_cons_zero]
        rw [h1, h2, h3, h4, h5, h6]
        exact ⟨hT3.1, hT3.2, trivial, hN3.1, hN3.2, hM3.1, hM3.2⟩
      | succ j =>
        simp only [List.getElem?_cons_succ] at hj
        obtain ⟨h1, h2, h3, h4, h5, h6, h7⟩ := ih3 j t' hj
        have harith : s.Futures.length + 2 + 2 * j = s.Futures.length + 2 * (j + 1) := by omega
        rw [harith] at h1 h3 h4 h5 h6 h7
        simp only at h1 h2 h3 h4 h5 h6 h7 ⊢
        simp only [List.getElem?_cons_succ]
        exact ⟨h1, h2, h3, h4, h5, h6, h7⟩

end Zkz.StagedExecution

namespace Zkz.StagedExecution

/-! ## The transition of a defined stage to `Executing` -/

/-- `TransitionToStageState_Executing`, up to the call of `CompleteWhenTasksFinished`:
every task of the stage is released. `s1` and `Es` are the heap and the task entries that
`ExecuteAllTasks` returns, `Γ'` types the new shared states. -/
theorem SchedulerInv_SE_execute {GPI : Bool} {Γ Γ' : FRoles} {Log : FLog} {Rest : List FCall}
    {s s1 : TScheduler} {X : IdType} {pd : TStageState_Pending}
    {Es : List FExecutingTaskEntry}
    (hI : SchedulerInv GPI Γ Log (.Invoke (.StartExecutingWhenPrerequisitesComplete X) :: Rest) s)
    (hX : s.Find X = some (.Defined pd []))
    (hΓ1 : Γ'.length = s1.Futures.length)
    (hΓ2 : ∀ (h : Nat) (r : FRole), Γ[h]? = some r → Γ'[h]? = some r)
    (hStages : s1.Stages = s.Stages)
    (hMap : s1.PrerequisitesByStageId = s.PrerequisitesByStageId)
    (hOld : ∀ h, h < s.Futures.length → (∀ t, t ∈ pd.Tasks → t.ExecutionPromise ≠ h) →
      s1.Result h = s.Result h ∧ s1.CompletionCallback h = s.CompletionCallback h)
    (hEs : Es.length = pd.Tasks.length)
    (hTask : ∀ (j : Nat) (t : FPendingTaskEntry), pd.Tasks[j]? = some t → ∃ hc fc,
      s1.Result t.ExecutionPromise = some (.Value (some hc)) ∧
      s1.CompletionCallback t.ExecutionPromise = none ∧
      Es[j]? = some { Id := t.Id, FutureCompletion := fc } ∧
      Γ'[hc]? = some (.TaskCompletion X j) ∧
      (Γ'[fc]? = some (.TaskCompletion X j) ∨ Γ'[fc]? = some (.PostNotify X j)) ∧
      s1.CompletionCallback fc = none)
    (hNew : ∀ h, s.Futures.length ≤ h → h < s1.Futures.length →
      ∃ (j : Nat) (t : FPendingTaskEntry), pd.Tasks[j]? = some t ∧ s1.Result h = none ∧
        ((Γ'[h]? = some (.TaskCompletion X j) ∧
            s1.Result t.ExecutionPromise = some (.Value (some h)) ∧
            (s1.CompletionCallback h = none ∨
              ∃ f, s1.CompletionCallback h = some (.PostNotifyCompletion t.Id f) ∧
                Γ'[f]? = some (.PostNotify X j))) ∨
          (Γ'[h]? = some (.PostNotify X j) ∧ s1.CompletionCallback h = none ∧
            ∃ hc, s1.Result t.ExecutionPromise = some (.Value (some hc)) ∧
              Γ'[hc]? = some (.TaskCompletion X j) ∧ s1.Result hc = none ∧
              s1.CompletionCallback hc = some (.PostNotifyCompletion t.Id h)))) :
    SchedulerInv GPI Γ' Log
      (if pd.bAllTasksCollected then .Invoke (.CompleteWhenTasksFinished X) :: Rest else Rest)
      (s1.Transition X
        (.Executing X pd.bAllTasksCollected Es pd.StageCompletionPromises)) := by
  obtain ⟨hT, _⟩ := hI.calls.2
  have hid : pd.StageId = X := GetStageId_of_Find hX
  have hXok := hI.stages X _ hX
  obtain ⟨hX0, hX1, hX2, hX3, hX4⟩ := hXok
  rw [hid] at hX0 hX1 hX2 hX3 hX4
  obtain ⟨P0, hP0⟩ := hX0
  have hTCX : FCall.Transition_Completed X ∉ Rest := by
    intro hh
    have := hI.calls.1 X (List.mem_cons_of_mem _ hh)
    rw [hX] at this; cases this
  have hch : ∀ P, IsAddedWith Log X P →
      (∀ h, s.CompletionCallback h ≠ some (.StartExecutingWhenPrerequisitesComplete X)) ∧
      ∀ p, p ∈ P →
        IsDone s (.Invoke (.StartExecutingWhenPrerequisitesComplete X) :: Rest) p := by
    intro P hP
    obtain ⟨_, _, h3⟩ := hX1 P hP
    rcases h3 with ⟨_, h5, h6⟩ | ⟨h4, _⟩
    · refine ⟨h5, ?_⟩
      intro p hp
      obtain ⟨j, hj⟩ := List.getElem?_of_mem hp
      exact h6 j p (Nat.zero_le _) hj
    · simp at h4
  have hnoSE := (hch P0 hP0).1
  have hnoCW : ∀ h, s.CompletionCallback h ≠ some (.CompleteWhenTasksFinished X) := by
    intro h hh
    obtain ⟨_, Ts, Ps, hex⟩ :=
      CallbackOK_CompleteWhen (hI.cells h (lt_of_CompletionCallback hh)).2 hh
    rw [hX] at hex; cases hex
  -- the execution promises of the tasks
  have hEP : ∀ (j : Nat) (t : FPendingTaskEntry), pd.Tasks[j]? = some t →
      Γ[t.ExecutionPromise]? = some (.TaskExecution X j) ∧ s.Result t.ExecutionPromise = none ∧
      s.CompletionCallback t.ExecutionPromise = none ∧
      t.ExecutionPromise < s.Futures.length ∧
      (TasksOf Log X)[j]? = some (t.Id, t.ExecutionPromise) := by
    intro j t hj
    obtain ⟨h1, h2⟩ := hX3.2 j t hj
    have hlt := lt_of_role hI h1
    obtain ⟨_, T, _, h3, _⟩ := (CellOK_TaskExecution_iff h1).1 (hI.cells _ hlt).1
    refine ⟨h1, h2, h3, hlt, ?_⟩
    rw [← hX3.1, List.getElem?_map, hj]
    rfl
  have hLog : ∀ (j : Nat) (T : IdType) (he : FFutureHandle),
      (TasksOf Log X)[j]? = some (T, he) →
      ∃ t, pd.Tasks[j]? = some t ∧ t.Id = T ∧ t.ExecutionPromise = he := by
    intro j T he hj
    rw [← hX3.1, List.getElem?_map] at hj
    cases ht : pd.Tasks[j]? with
    | none => rw [ht] at hj; cases hj
    | some t =>
      rw [ht] at hj
      simp only [Option.map_some', Option.some.injEq, Prod.mk.injEq] at hj
      exact ⟨t, rfl, hj.1, hj.2⟩
  have hlenL : (TasksOf Log X).length = pd.Tasks.length := by
    rw [← hX3.1, List.length_map]
  have hle : s.Futures.length ≤ s1.Futures.length := by
    by_contra hlt
    have hlt' : s1.Futures.length < s.Futures.length := Nat.lt_of_not_le hlt
    have h1 : Γ[s1.Futures.length]? ≠ none := by
      rw [Ne, List.getElem?_eq_none_iff, hI.roles]
      exact Nat.not_le.2 hlt'
    cases hr : Γ[s1.Futures.length]? with
    | none => exact h1 hr
    | some r =>
      have := hΓ2 _ _ hr
      rw [List.getElem?_eq_none (Nat.le_of_eq hΓ1)] at this
      cases this
  -- the state after the transition
  have hFindX : (s1.Transition X (.Executing X pd.bAllTasksCollected Es
      pd.StageCompletionPromises)).Find X =
      some (.Executing X pd.bAllTasksCollected Es pd.StageCompletionPromises) :=
    Find_Transition_same s1 X _ rfl
  have hFindY : ∀ Y, Y ≠ X → (s1.Transition X (.Executing X pd.bAllTasksCollected Es
      pd.StageCompletionPromises)).Find Y = s.Find Y := by
    intro Y hY
    rw [Find_Transition_other s1 X Y
      (.Executing X pd.bAllTasksCollected Es pd.StageCompletionPromises) rfl hY,
      Find_of_Stages hStages]
  have hResOld : ∀ (h : FFutureHandle) (r : FCancelableResult), s.Result h = some r →
      s1.Result h = some r := by
    intro h r hr
    rw [(hOld h (lt_of_Result hr) ?_).1]
    · exact hr
    · intro t ht hh
      obtain ⟨j, hj⟩ := List.getElem?_of_mem ht
      have := (hEP j t hj).2.1
      rw [hh, hr] at this
      cases this
  have hF : Frame Γ Γ' Log Log s (s1.Transition X (.Executing X pd.bAllTasksCollected Es
      pd.StageCompletionPromises)) :=
    ⟨hΓ2, fun _ _ _ h => h, fun h r hr => by rw [Transition_Result]; exact hResOld h r hr⟩
  have hCbAll : ∀ h, s1.CompletionCallback h = s.CompletionCallback h ∨
      (s.CompletionCallback h = none ∧ (s1.CompletionCallback h = none ∨
        ∃ T f, s1.CompletionCallback h = some (.PostNotifyCompletion T f))) := by
    intro h
    by_cases hlt : h < s.Futures.length
    · by_cases hep : ∀ t, t ∈ pd.Tasks → t.ExecutionPromise ≠ h
      · exact Or.inl (hOld h hlt hep).2
      · right
        simp only [not_forall, not_not] at hep
        obtain ⟨t, ht, hth⟩ := hep
        obtain ⟨j, hj⟩ := List.getElem?_of_mem ht
        obtain ⟨hc, fc, _, h2, _⟩ := hTask j t hj
        rw [← hth]
        exact ⟨(hEP j t hj).2.2.1, Or.inl h2⟩
    · right
      have hge := Nat.le_of_not_lt hlt
      refine ⟨CompletionCallback_of_lt_none hge, ?_⟩
      by_cases hlt1 : h < s1.Futures.length
      · obtain ⟨j, t, _, _, h3⟩ := hNew h hge hlt1
        rcases h3 with ⟨_, _, h4⟩ | ⟨_, h4, _⟩
        · rcases h4 with h4 | ⟨f, h4, _⟩
          · exact Or.inl h4
          · exact Or.inr ⟨_, _, h4⟩
        · exact Or.inl h4
      · exact Or.inl (CompletionCallback_of_lt_none (Nat.le_of_not_lt hlt1))
  have hCbF : ∀ h F, (∀ T f, F ≠ FContinuation.PostNotifyCompletion T f) →
      (s1.CompletionCallback h = some F ↔ s.CompletionCallback h = some F) := by
    intro h F hF
    rcases hCbAll h with h1 | ⟨h1, h2⟩
    · rw [h1]
    · rw [h1]
      rcases h2 with h2 | ⟨T, f, h2⟩
      · rw [h2]
      · rw [h2]
        constructor
        · intro hh; cases hh; exact absurd rfl (hF T f)
        · intro hh; cases hh
  have hResNew : ∀ h, s.Result h = none →
      (∃ j, Γ[h]? = some (.TaskExecution X j)) ∨ s1.Result h = none := by
    intro h hn
    by_cases hlt : h < s.Futures.length
    · by_cases hep : ∀ t, t ∈ pd.Tasks → t.ExecutionPromise ≠ h
      · right; rw [(hOld h hlt hep).1]; exact hn
      · left
        simp only [not_forall, not_not] at hep
        obtain ⟨t, ht, hth⟩ := hep
        obtain ⟨j, hj⟩ := List.getElem?_of_mem ht
        rw [← hth]
        exact ⟨j, (hEP j t hj).1⟩
    · right
      have hge := Nat.le_of_not_lt hlt
      by_cases hlt1 : h < s1.Futures.length
      · obtain ⟨j, t, _, h2, _⟩ := hNew h hge hlt1
        exact h2
      · exact Result_of_lt_none (Nat.le_of_not_lt hlt1)
  have hGetId : ∀ p, s.GetId p = .Completed → (s1.Transition X (.Executing X
      pd.bAllTasksCollected Es pd.StageCompletionPromises)).GetId p = .Completed := by
    intro p hp
    rw [GetId_eq_Completed_iff] at hp ⊢
    have hpX : p ≠ X := by
      intro hh; subst hh; rw [hX] at hp; cases hp
    rw [hFindY p hpX]; exact hp
  have hTC' : ∀ Y, FCall.Transition_Completed Y ∈
      (if pd.bAllTasksCollected then FCall.Invoke (.CompleteWhenTasksFinished X) :: Rest
        else Rest) ↔ FCall.Transition_Completed Y ∈ Rest := by
    intro Y
    split <;> simp
  have hEV' : ∀ h, FCall.EmplaceValue h ∈
      (if pd.bAllTasksCollected then FCall.Invoke (.CompleteWhenTasksFinished X) :: Rest
        else Rest) ↔ FCall.EmplaceValue h ∈ Rest := by
    intro Y
    split <;> simp
  have hD : ∀ p, IsDone s (.Invoke (.StartExecutingWhenPrerequisitesComplete X) :: Rest) p →
      IsDone (s1.Transition X (.Executing X pd.bAllTasksCollected Es
        pd.StageCompletionPromises))
        (if pd.bAllTasksCollected then .Invoke (.CompleteWhenTasksFinished X) :: Rest
          else Rest) p := by
    intro p hp
    rcases hp with hp | hp
    · exact Or.inl (hGetId p hp)
    · rcases List.mem_cons.1 hp with hp | hp
      · cases hp
      · exact Or.inr ((hTC' p).2 hp)
  obtain ⟨hst, hcell, hcbk⟩ := SchedulerInv_change (Γ')
    (if pd.bAllTasksCollected then .Invoke (.CompleteWhenTasksFinished X) :: Rest
      else Rest)
    (s1.Transition X (.Executing X pd.bAllTasksCollected Es pd.StageCompletionPromises))
    (X := X) hI hF (Or.inl rfl) hFindY hD
    (by
      intro h p _ hp
      rcases hp with hp | hp
      · left
        by_cases hpX : p = X
        · subst hpX
          rw [PromisesOf_of_Find hX] at hp
          rw [PromisesOf_of_Find hFindX]
          exact hp
        · unfold TScheduler.PromisesOf at hp ⊢
          rw [hFindY p hpX]; exact hp
      · rcases List.mem_cons.1 hp with hp | hp
        · cases hp
        · exact Or.inr ((hEV' h).2 hp))
    (by
      intro Y _
      rw [hTC' Y]
      simp)
    (by
      intro Y _ hh
      split at hh
      · simp at hh
      · exact TailOK_head_ne_Invoke hT _ hh)
    (by
      intro Y hYX hh
      split at hh
      · simp at hh; exact hYX hh.symm
      · exact TailOK_head_ne_Invoke hT _ hh)
    (by
      intro h hn
      rw [Transition_Result]
      exact hResNew h hn)
    (by
      intro h Y _
      rw [Transition_CompletionCallback]
      exact hCbF h _ (fun T f hh => by cases hh))
    (by
      intro h Y _
      rw [Transition_CompletionCallback]
      exact hCbF h _ (fun T f hh => by cases hh))
    (by
      intro h T f hh
      rw [Transition_CompletionCallback]
      rcases hCbAll h with h1 | ⟨h1, _⟩
      · rw [h1]; exact hh
      · rw [h1] at hh; cases hh)
    (by
      intro h hlt hh
      left
      rw [Transition_CompletionCallback]
      by_cases hep : ∀ t, t ∈ pd.Tasks → t.ExecutionPromise ≠ h
      · rw [(hOld h hlt hep).2]; exact hh
      · simp only [not_forall, not_not] at hep
        obtain ⟨t, ht, hth⟩ := hep
        obtain ⟨j, hj⟩ := List.getElem?_of_mem ht
        obtain ⟨hc, fc, _, h2, _⟩ := hTask j t hj
        rw [← hth]
        exact h2)
  have hnoCW' : ∀ h, (s1.Transition X (.Executing X pd.bAllTasksCollected Es
      pd.StageCompletionPromises)).CompletionCallback h ≠
      some (.CompleteWhenTasksFinished X) := by
    intro h hh
    rw [Transition_CompletionCallback] at hh
    exact hnoCW h ((hCbF h _ (fun T f hh => by cases hh)).1 hh)
  have hTail : TailOK Γ' Rest := by
    refine TailOK_frame hΓ2 Rest ?_ hT
    intro h hh
    obtain ⟨p, c, h1, _⟩ := TailOK_EmplaceValue_mem hT h hh
    exact ⟨_, h1⟩
  refine ⟨by rw [Transition_Futures]; exact hΓ1, ?_, ?_, ?_, ?_,
    MapOK_of_eq hI.map (by rw [Transition_PrerequisitesByStageId]; exact hMap)⟩
  · -- cells
    intro h hlt1
    rw [Transition_Futures] at hlt1
    by_cases hlt : h < s.Futures.length
    · by_cases hep : ∀ t, t ∈ pd.Tasks → t.ExecutionPromise ≠ h
      · obtain ⟨h1, h2⟩ := hOld h hlt hep
        exact ⟨hcell h hlt (by rw [Transition_Result]; exact h1)
            (by rw [Transition_CompletionCallback]; exact h2),
          hcbk h hlt (by rw [Transition_CompletionCallback]; exact h2) (hnoSE h) (hnoCW h)⟩
      · simp only [not_forall, not_not] at hep
        obtain ⟨t, ht, hth⟩ := hep
        obtain ⟨j, hj⟩ := List.getElem?_of_mem ht
        obtain ⟨hc, fc, h1, h2, _, h4, _⟩ := hTask j t hj
        obtain ⟨h5, _, _, _, h9⟩ := hEP j t hj
        subst hth
        constructor
        · rw [CellOK_TaskExecution_iff (hΓ2 _ _ h5)]
          simp only [Transition_Result, Transition_CompletionCallback]
          exact ⟨fun _ => h2, t.Id, h9, h2, Or.inr ⟨hc, h1, h4⟩⟩
        · unfold CallbackOK
          rw [Transition_CompletionCallback, h2]
          trivial
    · obtain ⟨j, t, hj, h2, h3⟩ := hNew h (Nat.le_of_not_lt hlt) hlt1
      obtain ⟨_, _, _, _, h9⟩ := hEP j t hj
      rcases h3 with ⟨hΓh, h4, h5⟩ | ⟨hΓh, h4, hc, h5, h6, h7, h8⟩
      · constructor
        · rw [CellOK_TaskCompletion_iff hΓh]
          simp only [Transition_Result, Transition_CompletionCallback]
          refine ⟨fun hh => absurd h2 hh, t.Id, t.ExecutionPromise, h9, h4, Or.inl h2, ?_⟩
          intro T' f hh
          rcases h5 with h5 | ⟨f', h5, h6⟩
          · rw [h5] at hh; cases hh
          · rw [h5] at hh
            cases hh
            exact ⟨rfl, h6⟩
        · unfold CallbackOK
          rw [Transition_CompletionCallback]
          rcases h5 with h5 | ⟨f', h5, h6⟩
          · rw [h5]; trivial
          · rw [h5]; exact ⟨X, j, hΓh⟩
      · constructor
        · rw [CellOK_PostNotify_iff hΓh]
          simp only [Transition_Result, Transition_CompletionCallback]
          refine ⟨fun hh => absurd h2 hh, t.Id, t.ExecutionPromise, hc, h9, h5, h6, ?_⟩
          exact Or.inl ⟨by rw [Transition_Result]; exact h7,
            by rw [Transition_CompletionCallback]; exact h8,
            by rw [Transition_Result]; exact h2⟩
        · unfold CallbackOK
          rw [Transition_CompletionCallback, h4]
          trivial
  · -- stages
    intro Y st hY
    by_cases hYX : Y = X
    · subst hYX
      rw [hFindX] at hY
      cases hY
      refine ⟨⟨P0, hP0⟩, fun P hP p hp => hD p ((hch P hP).2 p hp), hX2, ?_, ?_, ?_, ?_, ?_⟩
      · refine PromisesOK_frame hΓ2 ?_ hX4
        intro h hh hn
        rcases hResNew h hn with ⟨j, hj⟩ | hr
        · obtain ⟨⟨c, hc⟩, _⟩ := hX4 h hh
          rw [hc] at hj; cases hj
        · rw [Transition_Result]; exact hr
      · intro j T he hj
        obtain ⟨t, ht, hT1, hT2⟩ := hLog j T he hj
        subst hT1 hT2
        obtain ⟨hc, fc, h1, _, _, h4, _⟩ := hTask j t ht
        exact ⟨hΓ2 _ _ (hEP j t ht).1, hc, by rw [Transition_Result]; exact h1, h4⟩
      · intro j e hj
        have hjlt : j < pd.Tasks.length := by
          rw [← hEs]; exact (List.getElem?_eq_some.1 hj).1
        obtain ⟨t, ht⟩ : ∃ t, pd.Tasks[j]? = some t :=
          ⟨pd.Tasks[j], List.getElem?_eq_getElem hjlt⟩
        obtain ⟨hc, fc, _, _, h3, _, h5, h6⟩ := hTask j t ht
        rw [h3] at hj
        cases hj
        exact ⟨⟨_, (hEP j t ht).2.2.2.2⟩, h5,
          by rw [Transition_CompletionCallback]; exact h6⟩
      · rw [hEs, hlenL]
      · rw [hEs, hlenL]
        by_cases hb : pd.bAllTasksCollected = true
        · refine Or.inr (Or.inr (Or.inl ⟨hb, ?_, ?_, hnoCW', ?_⟩))
          · rw [if_pos hb]
            intro hh
            rcases List.mem_cons.1 hh with hh | hh
            · cases hh
            · exact hTCX hh
          · rw [if_pos hb]
            rfl
          · intro j hj hj'
            omega
        · refine Or.inl ⟨by simpa using hb, rfl, hnoCW', ?_, ?_⟩
          · rw [if_neg hb]
            exact TailOK_head_ne_Invoke hT _
          · rw [if_neg hb]
            exact hTCX
    · rw [hFindY Y hYX] at hY
      exact hst Y st hYX hY
  · -- log
    apply LogOK_of_Find hI.log
    intro Y hY
    by_cases hYX : Y = X
    · subst hYX; rw [hFindX] at hY; cases hY
    · rw [← hFindY Y hYX]; exact hY
  · -- calls
    have hTCs : ∀ Z, FCall.Transition_Completed Z ∈ Rest →
        (s1.Transition X (.Executing X pd.bAllTasksCollected Es
          pd.StageCompletionPromises)).Find Z = some (.Executing Z true [] []) := by
      intro Z hZ
      have hZX : Z ≠ X := by
        intro hh; subst hh; exact hTCX hZ
      rw [hFindY Z hZX]
      exact hI.calls.1 Z (List.mem_cons_of_mem _ hZ)
    by_cases hb : pd.bAllTasksCollected = true
    · rw [if_pos hb]
      refine ⟨?_, hTail, hTCX, Es, pd.StageCompletionPromises, ?_⟩
      · intro Z hZ
        rcases List.mem_cons.1 hZ with hZ | hZ
        · cases hZ
        · exact hTCs Z hZ
      · rw [hFindX, hb]
    · rw [if_neg hb]
      exact CallsOK_of_TailOK hTCs hTail

end Zkz.StagedExecution

namespace Zkz.StagedExecution

/-! ## The roles of the shared states that `ExecuteAllTasks` creates -/

theorem ExecuteAllTasksRoles_false (X : IdType) : ∀ (c i : Nat),
    (ExecuteAllTasksRoles false X i c).length = c ∧
    ∀ j, j < c → (ExecuteAllTasksRoles false X i c)[j]? = some (.TaskCompletion X (i + j)) := by
  intro c
  induction c with
  | zero => intro i; exact ⟨rfl, fun j hj => absurd hj (Nat.not_lt_zero _)⟩
  | succ c ih =>
    intro i
    obtain ⟨ih1, ih2⟩ := ih (i + 1)
    simp only [ExecuteAllTasksRoles, Bool.false_eq_true, if_false, List.singleton_append,
      List.length_cons]
    refine ⟨by rw [ih1], ?_⟩
    intro j hj
    cases j with
    | zero => simp
    | succ j =>
      rw [List.getElem?_cons_succ, ih2 j (by omega)]
      congr 2
      omega

theorem ExecuteAllTasksRoles_true (X : IdType) : ∀ (c i : Nat),
    (ExecuteAllTasksRoles true X i c).length = 2 * c ∧
    ∀ j, j < c →
      (ExecuteAllTasksRoles true X i c)[2 * j]? = some (.TaskCompletion X (i + j)) ∧
      (ExecuteAllTasksRoles true X i c)[2 * j + 1]? = some (.PostNotify X (i + j)) := by
  intro c
  induction c with
  | zero => intro i; exact ⟨rfl, fun j hj => absurd hj (Nat.not_lt_zero _)⟩
  | succ c ih =>
    intro i
    obtain ⟨ih1, ih2⟩ := ih (i + 1)
    simp only [ExecuteAllTasksRoles, if_true, List.cons_append, List.nil_append,
      List.length_cons]
    refine ⟨by rw [ih1]; omega, ?_⟩
    intro j hj
    cases j with
    | zero => simp
    | succ j =>
      have h1 : 2 * (j + 1) = (2 * j) + 1 + 1 := by omega
      obtain ⟨h3, h4⟩ := ih2 j (by omega)
      have h5 : i + 1 + j = i + (j + 1) := by omega
      rw [h5] at h3 h4
      rw [h1, List.getElem?_cons_succ, List.getElem?_cons_succ, List.getElem?_cons_succ,
        List.getElem?_cons_succ]
      exact ⟨h3, h4⟩

theorem getElem?_append_new {α : Type} {Γ R : List α} {n : Nat} (hΓ : Γ.length = n) (i : Nat) :
    (Γ ++ R)[n + i]? = R[i]? := by
  rw [List.getElem?_append_right (by omega), hΓ, Nat.add_sub_cancel_left]

/-- Handles with distinct roles are distinct. -/
theorem Nodup_of_roles {Γ : FRoles} {X : IdType} (L : List FPendingTaskEntry)
    (h : ∀ (j : Nat) (t : FPendingTaskEntry), L[j]? = some t →
      Γ[t.ExecutionPromise]? = some (.TaskExecution X j)) :
    (L.map (fun t => t.ExecutionPromise)).Nodup := by
  rw [List.nodup_iff_getElem?_ne_getElem?]
  intro i j hij hj
  rw [List.length_map] at hj
  rw [List.getElem?_map, List.getElem?_map, List.getElem?_eq_getElem hj,
    List.getElem?_eq_getElem (Nat.lt_trans hij hj)]
  simp only [Option.map_some', ne_eq, Option.some.injEq]
  intro heq
  have h1 := h i _ (List.getElem?_eq_getElem (Nat.lt_trans hij hj))
  have h2 := h j _ (List.getElem?_eq_getElem hj)
  rw [heq, h2] at h1
  cases h1
  omega

end Zkz.StagedExecution

namespace Zkz.StagedExecution

/-- `TransitionToStageState_Executing`, up to the call of `CompleteWhenTasksFinished`. -/
theorem SchedulerInv_SE_start {GPI : Bool} {Γ : FRoles} {Log : FLog} {Rest : List FCall}
    {s : TScheduler} {X : IdType} {pd : TStageState_Pending}
    (hI : SchedulerInv GPI Γ Log (.Invoke (.StartExecutingWhenPrerequisitesComplete X) :: Rest) s)
    (hX : s.Find X = some (.Defined pd [])) :
    SchedulerInv GPI (Γ ++ ExecuteAllTasksRoles GPI X 0 pd.Tasks.length) Log
      (if pd.bAllTasksCollected then .Invoke (.CompleteWhenTasksFinished X) :: Rest else Rest)
      ((ExecuteAllTasks GPI pd.Tasks s).2.Transition X
        (.Executing X pd.bAllTasksCollected (ExecuteAllTasks GPI pd.Tasks s).1
          pd.StageCompletionPromises)) := by
  have hid : pd.StageId = X := GetStageId_of_Find hX
  have hX3 : PendingTasksOK Γ Log s X pd.Tasks := by
    have := (hI.stages X _ hX).2.2.2.1
    rw [hid] at this
    exact this
  have hEP : ∀ t, t ∈ pd.Tasks →
      t.ExecutionPromise < s.Futures.length ∧ s.Result t.ExecutionPromise = none := by
    intro t ht
    obtain ⟨j, hj⟩ := List.getElem?_of_mem ht
    obtain ⟨h1, h2⟩ := hX3.2 j t hj
    exact ⟨lt_of_role hI h1, h2⟩
  have hnd : (pd.Tasks.map (fun t => t.ExecutionPromise)).Nodup :=
    Nodup_of_roles pd.Tasks (fun j t hj => (hX3.2 j t hj).1)
  have hΓ2 : ∀ (R : FRoles) (h : Nat) (r : FRole), Γ[h]? = some r → (Γ ++ R)[h]? = some r := by
    intro R h r hr
    have hlt : h < Γ.length := by
      by_contra hh
      rw [List.getElem?_eq_none (Nat.le_of_not_lt hh)] at hr
      cases hr
    rw [List.getElem?_append_left hlt]
    exact hr
  cases GPI with
  | false =>
    obtain ⟨s1, s2, s3⟩ := ExecuteAllTasks_false_spec pd.Tasks s hEP hnd
    obtain ⟨r1, r2⟩ := ExecuteAllTasksRoles_false X pd.Tasks.length 0
    refine SchedulerInv_SE_execute hI hX ?_ (hΓ2 _) (ExecuteAllTasks_Stages _ _ _)
      (ExecuteAllTasks_PrerequisitesByStageId _ _ _) s2 (ExecuteAllTasks_length _ _ _) ?_ ?_
    · rw [List.length_append, r1, s1, hI.roles]
    · intro j t hj
      have hjlt : j < pd.Tasks.length := (List.getElem?_eq_some.1 hj).1
      obtain ⟨h1, h2, h3, h4, h5⟩ := s3 j t hj
      have hΓj : (Γ ++ ExecuteAllTasksRoles false X 0 pd.Tasks.length)[s.Futures.length + j]?
          = some (.TaskCompletion X j) := by
        rw [getElem?_append_new hI.roles, r2 j hjlt, Nat.zero_add]
      exact ⟨_, _, h1, h2, h3, hΓj, Or.inl hΓj, h5⟩
    · intro h hge hlt
      rw [s1] at hlt
      obtain ⟨j, hj⟩ : ∃ j, h = s.Futures.length + j := ⟨h - s.Futures.length, by omega⟩
      subst hj
      have hjlt : j < pd.Tasks.length := by omega
      have hj : pd.Tasks[j]? = some pd.Tasks[j] := List.getElem?_eq_getElem hjlt
      obtain ⟨h1, h2, h3, h4, h5⟩ := s3 j _ hj
      have hΓj : (Γ ++ ExecuteAllTasksRoles false X 0 pd.Tasks.length)[s.Futures.length + j]?
          = some (.TaskCompletion X j) := by
        rw [getElem?_append_new hI.roles, r2 j hjlt, Nat.zero_add]
      exact ⟨j, _, hj, h4, Or.inl ⟨hΓj, h1, Or.inl h5⟩⟩
  | true =>
    obtain ⟨s1, s2, s3⟩ := ExecuteAllTasks_true_spec pd.Tasks s hEP hnd
    obtain ⟨r1, r2⟩ := ExecuteAllTasksRoles_true X pd.Tasks.length 0
    have hΓj : ∀ j, j < pd.Tasks.length →
        (Γ ++ ExecuteAllTasksRoles true X 0 pd.Tasks.length)[s.Futures.length + 2 * j]?
          = some (.TaskCompletion X j) ∧
        (Γ ++ ExecuteAllTasksRoles true X 0 pd.Tasks.length)[s.Futures.length + 2 * j + 1]?
          = some (.PostNotify X j) := by
      intro j hjlt
      rw [Nat.add_assoc, getElem?_append_new hI.roles, getElem?_append_new hI.roles,
        (r2 j hjlt).1, (r2 j hjlt).2, Nat.zero_add]
      exact ⟨rfl, rfl⟩
    refine SchedulerInv_SE_execute hI hX ?_ (hΓ2 _) (ExecuteAllTasks_Stages _ _ _)
      (ExecuteAllTasks_PrerequisitesByStageId _ _ _) s2 (ExecuteAllTasks_length _ _ _) ?_ ?_
    · rw [List.length_append, r1, s1, hI.roles]
    · intro j t hj
      have hjlt : j < pd.Tasks.length := (List.getElem?_eq_some.1 hj).1
      obtain ⟨h1, h2, h3, h4, h5, h6, h7⟩ := s3 j t hj
      exact ⟨_, _, h1, h2, h3, (hΓj j hjlt).1, Or.inr (hΓj j hjlt).2, h7⟩
    · intro h hge hlt
      rw [s1] at hlt
      obtain ⟨j, hj⟩ : ∃ j, h = s.Futures.length + 2 * j ∨ h = s.Futures.length + 2 * j + 1 :=
        ⟨(h - s.Futures.length) / 2, by omega⟩
      have hjlt : j < pd.Tasks.length := by omega
      have hj' : pd.Tasks[j]? = some pd.Tasks[j] := List.getElem?_eq_getElem hjlt
      obtain ⟨h1, h2, h3, h4, h5, h6, h7⟩ := s3 j _ hj'
      rcases hj with hj | hj
      · subst hj
        exact ⟨j, _, hj', h4, Or.inl ⟨(hΓj j hjlt).1, h1, Or.inr ⟨_, h5, (hΓj j hjlt).2⟩⟩⟩
      · subst hj
        exact ⟨j, _, hj', h6, Or.inr ⟨(hΓj j hjlt).2, h7, _, h1, (hΓj j hjlt).1, h4, h5⟩⟩

end Zkz.StagedExecution

namespace Zkz.StagedExecution

theorem StepRoles_SE_nil {GPI : Bool} {Γ : FRoles} {s : TScheduler} {X : IdType}
    {pd : TStageState_Pending} (h : s.Find X = some (.Defined pd [])) :
    StepRoles GPI s Γ (.Invoke (.StartExecutingWhenPrerequisitesComplete X)) =
      Γ ++ ExecuteAllTasksRoles GPI X 0 pd.Tasks.length := by
  simp only [StepRoles, h]

theorem StepRoles_SE_cons {GPI : Bool} {Γ : FRoles} {s : TScheduler} {X : IdType}
    {pd : TStageState_Pending} {F : List FFutureHandle} (h : s.Find X = some (.Defined pd F))
    (hF : F ≠ []) :
    StepRoles GPI s Γ (.Invoke (.StartExecutingWhenPrerequisitesComplete X)) = Γ := by
  cases F with
  | nil => exact absurd rfl hF
  | cons a l => simp only [StepRoles, h]

/-- `Invoke (StartExecutingWhenPrerequisitesComplete X)`: the chain of a defined stage
preserves the invariant. -/
theorem SchedulerInv_Invoke_SE {GPI : Bool} {Γ : FRoles} {Log : FLog} {Rest : List FCall}
    {s : TScheduler} {X : IdType}
    (hI : SchedulerInv GPI Γ Log (.Invoke (.StartExecutingWhenPrerequisitesComplete X) :: Rest) s) :
    SchedulerInv GPI (StepRoles GPI s Γ (.Invoke (.StartExecutingWhenPrerequisitesComplete X)))
      Log ((StartExecutingWhenPrerequisitesComplete GPI s X).2 ++ Rest)
      (StartExecutingWhenPrerequisitesComplete GPI s X).1 := by
  obtain ⟨hT, pd, F, hX⟩ := hI.calls.2
  have hid : pd.StageId = X := GetStageId_of_Find hX
  cases hlast : F.getLast? with
  | none =>
    rw [getLast?_eq_none_iff'] at hlast
    subst hlast
    rw [StepRoles_SE_nil hX]
    unfold StartExecutingWhenPrerequisitesComplete
    rw [hX]
    simp only [List.getLast?_nil]
    have hS := SchedulerInv_SE_start hI hX
    unfold TransitionToStageState_Executing
    simp only [hid]
    by_cases hb : pd.bAllTasksCollected = true
    · rw [if_pos hb] at hS ⊢
      exact SchedulerInv_Invoke_CW hS
    · rw [if_neg hb] at hS ⊢
      simp only [List.nil_append]
      exact hS
  | some f =>
    have hFne : F ≠ [] := by
      intro hh; subst hh; simp at hlast
    rw [StepRoles_SE_cons hX hFne]
    unfold StartExecutingWhenPrerequisitesComplete
    rw [hX]
    simp only [hlast]
    have hF := eq_concat_of_getLast? hlast
    have hX' : s.Find X = some (.Defined pd (F.dropLast ++ [f])) := by
      rw [← hF]; exact hX
    -- the future popped
    obtain ⟨⟨P0, hP0⟩, hch, _⟩ := hI.stages X _ hX'
    obtain ⟨_, h2, _⟩ := hch P0 hP0
    obtain ⟨p0, _, hΓf, hfcb⟩ := h2 F.dropLast.length f (by simp)
    have hflt : f < s.Futures.length := lt_of_role hI hΓf
    have hfcell := (CellOK_StageCompletion_iff hΓf).1 (hI.cells f hflt).1
    have hFindX : ∀ s1 : TScheduler, s1.Stages = (s.Assign X
        (.Defined pd F.dropLast)).Stages → s1.Find X = some (.Defined pd F.dropLast) := by
      intro s1 h1
      rw [Find_of_Stages h1]
      exact Find_Assign_same s X _ _ hid hX
    have hFindY : ∀ s1 : TScheduler, s1.Stages = (s.Assign X
        (.Defined pd F.dropLast)).Stages → ∀ Y, Y ≠ X → s1.Find Y = s.Find Y := by
      intro s1 h1 Y hY
      rw [Find_of_Stages h1]
      exact Find_Assign_other s X Y _ hid hY
    cases hres : s.Result f with
    | none =>
      rw [IfNotCanceled_pending _ (by simpa using hflt) (by simpa using hres)]
      simp only [List.nil_append]
      refine SchedulerInv_SE_pop hI hX' (hFindX _ rfl) (hFindY _ rfl) ?_ ?_ ?_ rfl
        (Or.inl ⟨hres, ?_, rfl⟩)
      · intro h
        rw [Register_Result _ _ _ (by simpa using hres)]
        rfl
      · intro h hne
        rw [CompletionCallback_SetFuture_other _ _ _ _ hne]
        rfl
      · simp
      · rw [CompletionCallback_SetFuture_same _ _ _ (by simpa using hflt)]
    | some r =>
      cases r with
      | Value v =>
        rw [IfNotCanceled_Value _ (by simpa using hres)]
        simp only [List.singleton_append]
        exact SchedulerInv_SE_pop hI hX' (hFindX _ rfl) (hFindY _ rfl) (fun h => rfl)
          (fun h _ => rfl) rfl rfl (Or.inr ⟨v, hres, hfcb, rfl⟩)
      | Canceled =>
        rcases hfcell.2 with ⟨h3, _⟩ | ⟨h3, _⟩ <;> rw [hres] at h3 <;> cases h3

/-- Every pending call preserves the invariant. -/
theorem SchedulerInv_step {GPI : Bool} {Γ : FRoles} {Log : FLog} {c : FCall}
    {Rest : List FCall} {s : TScheduler} (hI : SchedulerInv GPI Γ Log (c :: Rest) s) :
    SchedulerInv GPI (StepRoles GPI s Γ c) Log ((StepCall GPI s c).2 ++ Rest)
      (StepCall GPI s c).1 := by
  cases c with
  | EmplaceValue h => exact SchedulerInv_EmplaceValue hI
  | Cancel h => exact SchedulerInv_Cancel hI
  | Transition_Completed X => exact SchedulerInv_Transition_Completed hI
  | Invoke F =>
    cases F with
    | StartExecutingWhenPrerequisitesComplete X => exact SchedulerInv_Invoke_SE hI
    | CompleteWhenTasksFinished X => exact SchedulerInv_Invoke_CW hI
    | PostNotifyCompletion T f => exact SchedulerInv_Invoke_PostNotify hI

/-- The typing of the heap only grows. -/
theorem StepRoles_append (GPI : Bool) (s : TScheduler) (Γ : FRoles) (c : FCall) :
    ∃ R, StepRoles GPI s Γ c = Γ ++ R := by
  cases c with
  | EmplaceValue h => exact ⟨[], (List.append_nil _).symm⟩
  | Cancel h => exact ⟨[], (List.append_nil _).symm⟩
  | Transition_Completed X => exact ⟨[], (List.append_nil _).symm⟩
  | Invoke F =>
    cases F with
    | CompleteWhenTasksFinished X => exact ⟨[], (List.append_nil _).symm⟩
    | PostNotifyCompletion T f => exact ⟨[], (List.append_nil _).symm⟩
    | StartExecutingWhenPrerequisitesComplete X =>
      cases hX : s.Find X with
      | none => exact ⟨[], by simp only [StepRoles, hX, List.append_nil]⟩
      | some st =>
        cases st with
        | Undefined pd => exact ⟨[], by simp only [StepRoles, hX, List.append_nil]⟩
        | Executing Id b Ts Ps => exact ⟨[], by simp only [StepRoles, hX, List.append_nil]⟩
        | Completed Id => exact ⟨[], by simp only [StepRoles, hX, List.append_nil]⟩
        | Defined pd F =>
          cases F with
          | nil => exact ⟨_, StepRoles_SE_nil hX⟩
          | cons a l =>
            exact ⟨[], by rw [StepRoles_SE_cons hX (List.cons_ne_nil a l), List.append_nil]⟩

/-- A cascade of calls preserves the invariant; the typing of the heap only grows. -/
theorem SchedulerInv_RunCalls {GPI : Bool} {Γ : FRoles} {Log : FLog} {Calls : List FCall}
    {s : TScheduler} (hI : SchedulerInv GPI Γ Log Calls s) :
    ∃ R, SchedulerInv GPI (Γ ++ R) Log [] (RunCalls GPI Calls s) := by
  refine RunCalls_induction GPI (fun Calls s => ∃ R, SchedulerInv GPI (Γ ++ R) Log Calls s)
    ?_ _ Calls s (Nat.le_refl _) ⟨[], by rw [List.append_nil]; exact hI⟩
  rintro c Rest s1 ⟨R, h1⟩
  have h2 := SchedulerInv_step h1
  obtain ⟨R2, hR2⟩ := StepRoles_append GPI s1 (Γ ++ R) c
  rw [hR2, List.append_assoc] at h2
  exact ⟨_, h2⟩

end Zkz.StagedExecution

namespace Zkz.StagedExecution

/-! ## The public operations: what holds of the stages they do not touch -/

/-- An operation that starts with no call pending, leaves the shared states that exist
alone and touches only the stages in `Sp`. -/
theorem SchedulerInv_op {GPI : Bool} {Γ Γ' : FRoles} {Log Log' : FLog}
    {s s' : TScheduler} (Calls' : List FCall) (Sp : IdType → Prop)
    (hI : SchedulerInv GPI Γ Log [] s) (hF : Frame Γ Γ' Log Log' s s')
    (hLogA : ∀ Y P, ¬ Sp Y → (IsAddedWith Log' Y P ↔ IsAddedWith Log Y P))
    (hLogC : ∀ Y, ¬ Sp Y → (IsCollected Log' Y ↔ IsCollected Log Y))
    (hLogT : ∀ Y, ¬ Sp Y → TasksOf Log' Y = TasksOf Log Y)
    (hGetId : ∀ p, s.GetId p = .Completed → s'.GetId p = .Completed)
    (hProm : ∀ h p, h ∈ s.PromisesOf p → h ∈ s'.PromisesOf p)
    (hOld : ∀ h, h < s.Futures.length →
      s'.Result h = s.Result h ∧ s'.CompletionCallback h = s.CompletionCallback h)
    (hNew : ∀ h, s.Futures.length ≤ h → s'.CompletionCallback h = none)
    (hDef : ∀ Y pd F, s.Find Y = some (.Defined pd F) →
      ∃ pd' F', s'.Find Y = some (.Defined pd' F'))
    (hExec : ∀ Y Ts Ps, s.Find Y = some (.Executing Y true Ts Ps) →
      ∃ Ts' Ps', s'.Find Y = some (.Executing Y true Ts' Ps'))
    (hTC : ∀ Y, ¬ Sp Y → FCall.Transition_Completed Y ∉ Calls')
    (hheadSE : ∀ Y, ¬ Sp Y →
      Calls'.head? ≠ some (.Invoke (.StartExecutingWhenPrerequisitesComplete Y)))
    (hheadCW : ∀ Y, ¬ Sp Y → Calls'.head? ≠ some (.Invoke (.CompleteWhenTasksFinished Y))) :
    (∀ Y st, ¬ Sp Y → s.Find Y = some st → StageOK Γ' Log' Calls' s' st) ∧
    (∀ h, h < s.Futures.length → CellOK Γ' Log' Calls' s' h ∧ CallbackOK Γ' s' h) := by
  have hD : ∀ p, IsDone s [] p → IsDone s' Calls' p := by
    intro p hp
    rcases hp with hp | hp
    · exact Or.inl (hGetId p hp)
    · simp at hp
  have hCbAll : ∀ h F, s'.CompletionCallback h = some F ↔ s.CompletionCallback h = some F := by
    intro h F
    by_cases hlt : h < s.Futures.length
    · rw [(hOld h hlt).2]
    · rw [hNew h (Nat.le_of_not_lt hlt), CompletionCallback_of_lt_none (Nat.le_of_not_lt hlt)]
  refine ⟨?_, ?_⟩
  · intro Y st hY hFind
    have hid := GetStageId_of_Find hFind
    have hOK := hI.stages Y st hFind
    refine StageOK_frame hF hD ?_ ?_ ?_ ?_ ?_ ?_ ?_ ?_ ?_ ?_ ?_ ?_ ?_ ?_ hOK
    · intro P; rw [hid]; exact hLogA Y P hY
    · rw [hid]; exact hLogC Y hY
    · rw [hid]; exact hLogT Y hY
    · intro h hh hn
      obtain ⟨⟨c, hc⟩, _⟩ := StageOK_Promises hOK h hh
      rw [(hOld h (lt_of_role hI hc)).1]; exact hn
    · intro p F hst t ht hn
      obtain ⟨j, hj⟩ := StageOK_Task_role hOK hst ht
      rw [(hOld _ (lt_of_role hI hj)).1]; exact hn
    · intro f hf hn
      obtain ⟨p, j, hj⟩ := StageOK_FuturePrerequisite_role hOK hf
      rw [(hOld _ (lt_of_role hI hj)).2]; exact hn
    · intro X' b Ts Ps hst e he hn
      subst hst
      obtain ⟨j, hj⟩ := StageOK_Entry_role hOK he
      have hlt : e.FutureCompletion < s.Futures.length := by
        rcases hj with hj | hj <;> exact lt_of_role hI hj
      rw [(hOld _ hlt).2]; exact hn
    · intro h; exact hCbAll h _
    · intro h; exact hCbAll h _
    · intro a ha hn
      rw [(hOld a (lt_of_CompletionCallback ha)).1]; exact hn
    · intro a ha hn
      rw [(hOld a (lt_of_CompletionCallback ha)).1]; exact hn
    · rw [hid]
      constructor
      · intro hh; exact absurd hh (hheadSE Y hY)
      · intro hh; simp at hh
    · rw [hid]
      constructor
      · intro hh; exact absurd hh (hheadCW Y hY)
      · intro hh; simp at hh
    · rw [hid]
      constructor
      · intro hh; exact absurd hh (hTC Y hY)
      · intro hh; simp at hh
  · intro h hlt
    obtain ⟨h1, h2⟩ := hOld h hlt
    refine ⟨CellOK_frame hF hD h1 h2 ?_ ?_ (hI.cells h hlt).1,
      CallbackOK_frame hF.roles h2 (fun Y _ pd F hY => hDef Y pd F hY)
        (fun Y _ Ts Ps hY => hExec Y Ts Ps hY) (hI.cells h hlt).2⟩
    · intro p _ hp
      rcases hp with hp | hp
      · exact Or.inl (hProm h p hp)
      · simp at hp
    · intro X j T hc hΓc hl
      have hclt := lt_of_role hI hΓc
      refine LinkOK_frame hF.results ?_ ?_ ?_ ?_ hl
      · intro hn
        exact ⟨by rw [(hOld hc hclt).1]; exact hn, fun hh => by rw [(hOld hc hclt).2]; exact hh⟩
      · intro hn; rw [h1]; exact hn
      · intro hh; simp at hh
      · intro hh; simp at hh

/-- The state is not changed, the log grows by calls that failed or had no effect, a call
of the client is started. -/
theorem SchedulerInv_same {GPI : Bool} {Γ : FRoles} {Log Log' : FLog} {Calls' : List FCall}
    {s : TScheduler} (hI : SchedulerInv GPI Γ Log [] s)
    (hLogA : ∀ Y P, IsAddedWith Log' Y P ↔ IsAddedWith Log Y P)
    (hLogC : ∀ Y, IsCollected Log' Y ↔ IsCollected Log Y)
    (hLogT : ∀ Y, TasksOf Log' Y = TasksOf Log Y)
    (hTC : ∀ Y, FCall.Transition_Completed Y ∉ Calls')
    (hhead : ∀ F, Calls'.head? ≠ some (.Invoke F))
    (hcalls : CallsOK Γ Log' s Calls') : SchedulerInv GPI Γ Log' Calls' s := by
  have hF : Frame Γ Γ Log Log' s s :=
    ⟨fun _ _ h => h, fun X j e h => by rw [hLogT]; exact h, fun _ _ h => h⟩
  obtain ⟨hst, hcell⟩ := SchedulerInv_op (Calls') (fun _ => False) hI hF
    (fun Y P _ => hLogA Y P) (fun Y _ => hLogC Y) (fun Y _ => hLogT Y) (fun p hp => hp)
    (fun h p hp => hp) (fun h _ => ⟨rfl, rfl⟩)
    (fun h hh => CompletionCallback_of_lt_none hh) (fun Y pd F hY => ⟨pd, F, hY⟩)
    (fun Y Ts Ps hY => ⟨Ts, Ps, hY⟩) (fun Y _ => hTC Y) (fun Y _ => hhead _)
    (fun Y _ => hhead _)
  refine ⟨hI.roles, hcell, fun Y st hY => hst Y st (fun h => h) hY, ?_, hcalls, ?_⟩
  · intro Y hY
    obtain ⟨h1, h2, h3⟩ := hI.log Y hY
    exact ⟨fun P hP => h1 P ((hLogA Y P).1 hP), fun hh => h2 ((hLogC Y).1 hh),
      by rw [hLogT]; exact h3⟩
  · intro hG Y P
    rw [hLogA]
    exact hI.map hG Y P

/-- The client holds a task completion promise: it is unresolved and typed as such. -/
theorem Holds_role {GPI : Bool} {Γ : FRoles} {Log : FLog} {s : TScheduler}
    {h : FFutureHandle} (hI : SchedulerInv GPI Γ Log [] s)
    (hh : s.HoldsTaskCompletionPromise h = true) :
    s.Result h = none ∧ ∃ X j, Γ[h]? = some (.TaskCompletion X j) := by
  unfold TScheduler.HoldsTaskCompletionPromise at hh
  simp only [Bool.and_eq_true, decide_eq_true_eq, List.any_eq_true] at hh
  obtain ⟨hpend, c, hc, hres⟩ := hh
  refine ⟨hpend, ?_⟩
  obtain ⟨he, hhe⟩ := List.getElem?_of_mem hc
  have hR : s.Result he = some (.Value (some h)) := by
    rw [Result_eq, hhe]
    exact hres
  have hlt := lt_of_Result hR
  obtain ⟨hcell, _⟩ := hI.cells he hlt
  cases hr : Γ[he]? with
  | none =>
    rw [← hI.roles] at hlt
    rw [List.getElem?_eq_none_iff] at hr
    exact absurd hlt (Nat.not_lt.2 hr)
  | some r =>
    cases r with
    | StageCompletion p c =>
      obtain ⟨_, h2⟩ := (CellOK_StageCompletion_iff hr).1 hcell
      rcases h2 with ⟨h2, _⟩ | ⟨h2, _⟩ <;> rw [hR] at h2 <;> cases h2
    | TaskExecution X j =>
      obtain ⟨_, T, _, _, h2⟩ := (CellOK_TaskExecution_iff hr).1 hcell
      rcases h2 with h2 | ⟨hc', h2, h3⟩
      · rw [hR] at h2; cases h2
      · rw [hR] at h2
        cases h2
        exact ⟨X, j, h3⟩
    | TaskCompletion X j =>
      obtain ⟨_, T, he', _, _, h2, _⟩ := (CellOK_TaskCompletion_iff hr).1 hcell
      rcases h2 with h2 | h2 | h2 <;> rw [hR] at h2 <;> cases h2
    | PostNotify X j =>
      obtain ⟨_, T, he', hc', _, _, _, hl⟩ := (CellOK_PostNotify_iff hr).1 hcell
      rcases hl with ⟨_, _, h3⟩ | ⟨_, h2⟩ | ⟨_, h2⟩
      · rw [hR] at h3; cases h3
      · rcases h2 with h2 | ⟨h2, _⟩ <;> rw [hR] at h2 <;> cases h2
      · rcases h2 with h2 | ⟨h2, _⟩ <;> rw [hR] at h2 <;> cases h2

/-- The client fulfils a task completion promise it holds. -/
theorem SchedulerInv_fulfil {GPI : Bool} {Γ : FRoles} {Log : FLog} {s : TScheduler}
    {h : FFutureHandle} (hI : SchedulerInv GPI Γ Log [] s)
    (hh : s.HoldsTaskCompletionPromise h = true) :
    SchedulerInv GPI Γ Log [.EmplaceValue h] s := by
  obtain ⟨hpend, X, j, hΓ⟩ := Holds_role hI hh
  refine SchedulerInv_same hI (fun _ _ => Iff.rfl) (fun _ => Iff.rfl) (fun _ => rfl) ?_ ?_ ?_
  · intro Y hY; simp at hY
  · intro F hF; simp at hF
  · exact ⟨fun Y hY => by simp at hY, Or.inl ⟨rfl, hpend, X, j, hΓ⟩⟩

/-- The client destroys a task completion promise it holds. -/
theorem SchedulerInv_drop {GPI : Bool} {Γ : FRoles} {Log : FLog} {s : TScheduler}
    {h : FFutureHandle} (hI : SchedulerInv GPI Γ Log [] s)
    (hh : s.HoldsTaskCompletionPromise h = true) :
    SchedulerInv GPI Γ Log [.Cancel h] s := by
  obtain ⟨hpend, X, j, hΓ⟩ := Holds_role hI hh
  refine SchedulerInv_same hI (fun _ _ => Iff.rfl) (fun _ => Iff.rfl) (fun _ => rfl) ?_ ?_ ?_
  · intro Y hY; simp at hY
  · intro F hF; simp at hF
  · exact ⟨fun Y hY => by simp at hY, rfl, hpend, Or.inl ⟨X, j, hΓ⟩⟩

theorem SchedulerInv_init (GPI : Bool) : SchedulerInv GPI [] [] [] {} := by
  refine ⟨rfl, ?_, ?_, ?_, ?_, ?_⟩
  · intro h hlt; simp at hlt
  · intro X st hX; simp [TScheduler.Find] at hX
  · intro X _
    refine ⟨fun P hP => ?_, fun hC => ?_, rfl⟩
    · simp [IsAddedWith] at hP
    · simp [IsCollected] at hC
  · exact ⟨fun X hX => by simp at hX, trivial⟩
  · intro _ X P
    simp [IsAddedWith, FPrerequisitesByStageId.Find]

end Zkz.StagedExecution

namespace Zkz.StagedExecution

/-! ## The log of observed calls -/

theorem TasksOf_append (Log : FLog) (o : FObservation) (Y : IdType) :
    TasksOf (Log ++ [o]) Y = TasksOf Log Y ++ TasksOf [o] Y := by
  unfold TasksOf
  rw [List.filterMap_append]

theorem TasksOf_AddStage (X : IdType) (P : List IdType) (r : TAddStageResult) (Y : IdType) :
    TasksOf [.AddStage X P r] Y = [] := rfl

theorem TasksOf_SetAllTasksAdded (X Y : IdType) : TasksOf [.SetAllTasksAdded X] Y = [] := rfl

theorem TasksOf_AddTaskToStage_error (X T : IdType) (e : TAllTasksCollectedError) (Y : IdType) :
    TasksOf [.AddTaskToStage X T (.error e)] Y = [] := rfl

theorem TasksOf_AddTaskToStage_ok (X T : IdType) (h : FFutureHandle) (Y : IdType) :
    TasksOf [.AddTaskToStage X T (.ok h)] Y = if X = Y then [(T, h)] else [] := by
  unfold TasksOf
  by_cases hXY : X = Y
  · simp [hXY]
  · simp [hXY]

theorem IsAddedWith_append (Log : FLog) (o : FObservation) (Y : IdType) (P : List IdType) :
    IsAddedWith (Log ++ [o]) Y P ↔ IsAddedWith Log Y P ∨ o = .AddStage Y P (.ok ()) := by
  unfold IsAddedWith
  simp only [List.mem_append, List.mem_singleton]
  constructor
  · rintro (h | h)
    · exact Or.inl h
    · exact Or.inr h.symm
  · rintro (h | h)
    · exact Or.inl h
    · exact Or.inr h.symm

theorem IsCollected_append (Log : FLog) (o : FObservation) (Y : IdType) :
    IsCollected (Log ++ [o]) Y ↔ IsCollected Log Y ∨ o = .SetAllTasksAdded Y := by
  unfold IsCollected
  simp only [List.mem_append, List.mem_singleton]
  constructor
  · rintro (h | h)
    · exact Or.inl h
    · exact Or.inr h.symm
  · rintro (h | h)
    · exact Or.inl h
    · exact Or.inr h.symm

/-! ## `FindOrAddStage` -/

theorem SchedulerInv_FindOrAddStage {GPI : Bool} {Γ : FRoles} {Log : FLog} {s : TScheduler}
    (hI : SchedulerInv GPI Γ Log [] s) (X : IdType) :
    SchedulerInv GPI Γ Log [] (s.FindOrAddStage X) := by
  cases hX : s.Find X with
  | some st => rw [Find_FindOrAddStage_same_of_some s X st hX]; exact hI
  | none =>
    have hFindX := Find_FindOrAddStage_same_of_none s X hX
    have hFindY : ∀ Y, Y ≠ X → (s.FindOrAddStage X).Find Y = s.Find Y :=
      fun Y hY => Find_FindOrAddStage_other s X Y hY
    have hF : Frame Γ Γ Log Log s (s.FindOrAddStage X) :=
      Frame.of_Futures (FindOrAddStage_Futures s X)
    obtain ⟨hst, hcell⟩ := SchedulerInv_op ([]) (fun _ => False) hI hF
      (fun Y P _ => Iff.rfl) (fun Y _ => Iff.rfl) (fun Y _ => rfl)
      (by
        intro p hp
        rw [GetId_eq_Completed_iff] at hp ⊢
        have hpX : p ≠ X := by
          intro hh; subst hh; rw [hX] at hp; cases hp
        rw [hFindY p hpX]; exact hp)
      (by
        intro h p hp
        unfold TScheduler.PromisesOf at hp ⊢
        by_cases hpX : p = X
        · subst hpX; rw [hX] at hp; simp at hp
        · rw [hFindY p hpX]; exact hp)
      (fun h _ => ⟨FindOrAddStage_Result s X h, FindOrAddStage_CompletionCallback s X h⟩)
      (by
        intro h hh
        rw [FindOrAddStage_CompletionCallback]
        exact CompletionCallback_of_lt_none hh)
      (by
        intro Y pd F hY
        have hYX : Y ≠ X := by
          intro hh; subst hh; rw [hX] at hY; cases hY
        exact ⟨pd, F, by rw [hFindY Y hYX]; exact hY⟩)
      (by
        intro Y Ts Ps hY
        have hYX : Y ≠ X := by
          intro hh; subst hh; rw [hX] at hY; cases hY
        exact ⟨Ts, Ps, by rw [hFindY Y hYX]; exact hY⟩)
      (fun Y _ hh => by simp at hh) (fun Y _ hh => by simp at hh) (fun Y _ hh => by simp at hh)
    refine ⟨by rw [FindOrAddStage_Futures]; exact hI.roles, ?_, ?_, ?_,
      ⟨fun Y hY => by simp at hY, trivial⟩,
      MapOK_of_eq hI.map (FindOrAddStage_PrerequisitesByStageId s X)⟩
    · intro h hlt
      rw [FindOrAddStage_Futures] at hlt
      exact hcell h hlt
    · intro Y st hY
      by_cases hYX : Y = X
      · subst hYX
        rw [hFindX] at hY
        cases hY
        obtain ⟨h1, h2, h3⟩ := hI.log Y hX
        refine ⟨h1, ?_, ⟨?_, ?_⟩, ?_⟩
        · constructor
          · intro hh; cases hh
          · intro hh; exact absurd hh h2
        · simp only [List.map_nil]
          exact h3.symm
        · intro j t hj; simp at hj
        · intro h hh; simp at hh
      · rw [hFindY Y hYX] at hY
        exact hst Y st (fun h => h) hY
    · intro Y hY
      have hYX : Y ≠ X := by
        intro hh; subst hh; rw [hFindX] at hY; cases hY
      rw [hFindY Y hYX] at hY
      exact hI.log Y hY

end Zkz.StagedExecution

namespace Zkz.StagedExecution

/-! ## `AddTaskToStage` -/

theorem Frame_AddTaskToStage_ok {Γ Γ' : FRoles} {Log : FLog} {s s' : TScheduler}
    {X T : IdType} {he : FFutureHandle}
    (hΓ : ∀ (h : Nat) (r : FRole), Γ[h]? = some r → Γ'[h]? = some r)
    (hR : ∀ (h : FFutureHandle) (r : FCancelableResult), s.Result h = some r →
      s'.Result h = some r) :
    Frame Γ Γ' Log (Log ++ [.AddTaskToStage X T (.ok he)]) s s' := by
  refine ⟨hΓ, ?_, hR⟩
  intro Y j e hj
  rw [TasksOf_append]
  have hlt : j < (TasksOf Log Y).length := (List.getElem?_eq_some.1 hj).1
  rw [List.getElem?_append_left hlt]
  exact hj

theorem getElem?_append_old {α : Type} (Γ R : List α) (h : Nat) (r : α)
    (hr : Γ[h]? = some r) : (Γ ++ R)[h]? = some r := by
  have hlt : h < Γ.length := (List.getElem?_eq_some.1 hr).1
  rw [List.getElem?_append_left hlt]
  exact hr

/-- `AddTaskToStage` on a stage that is `Undefined` or `Defined` and not collected. -/
theorem SchedulerInv_AddTask_pending {GPI : Bool} {Γ : FRoles} {Log : FLog} {s : TScheduler}
    {X T : IdType} {pd : TStageState_Pending} {st st' : TStageState}
    (hI : SchedulerInv GPI Γ Log [] s) (hX : s.Find X = some st)
    (hst : (st = .Undefined pd ∧ st' = .Undefined { pd with
        Tasks := pd.Tasks ++ [{ Id := T, ExecutionPromise := s.Futures.length }] }) ∨
      ∃ F, st = .Defined pd F ∧ st' = .Defined { pd with
        Tasks := pd.Tasks ++ [{ Id := T, ExecutionPromise := s.Futures.length }] } F) :
    SchedulerInv GPI (Γ ++ [.TaskExecution X pd.Tasks.length])
      (Log ++ [.AddTaskToStage X T (.ok s.Futures.length)]) []
      ((s.NewPromise {}).2.Assign X st') := by
  have hid : pd.StageId = X := by
    have := GetStageId_of_Find hX
    rcases hst with ⟨h1, _⟩ | ⟨F, h1, _⟩ <;> subst h1 <;> exact this
  have hid' : st'.GetStageId = X := by
    rcases hst with ⟨_, h1⟩ | ⟨F, _, h1⟩ <;> subst h1 <;> exact hid
  have hOld : ∀ h, h < s.Futures.length →
      ((s.NewPromise {}).2.Assign X st').Result h = s.Result h ∧
      ((s.NewPromise {}).2.Assign X st').CompletionCallback h = s.CompletionCallback h := by
    intro h hlt
    rw [Assign_Result, Assign_CompletionCallback]
    exact ⟨Result_NewPromise_old s _ h hlt, CompletionCallback_NewPromise_old s _ h hlt⟩
  have hNewR : ((s.NewPromise {}).2.Assign X st').Result s.Futures.length = none := by
    rw [Assign_Result]; exact Result_NewPromise_new s _
  have hNewC : ((s.NewPromise {}).2.Assign X st').CompletionCallback s.Futures.length = none := by
    rw [Assign_CompletionCallback]; exact CompletionCallback_NewPromise_new s _
  have hF : Frame Γ (Γ ++ [.TaskExecution X pd.Tasks.length]) Log
      (Log ++ [.AddTaskToStage X T (.ok s.Futures.length)]) s
      ((s.NewPromise {}).2.Assign X st') := by
    refine Frame_AddTaskToStage_ok (getElem?_append_old Γ _) ?_
    intro h r hr
    rw [(hOld h (lt_of_Result hr)).1]; exact hr
  have hFindX : ((s.NewPromise {}).2.Assign X st').Find X = some st' :=
    Find_Assign_same _ X st' st hid' (by rw [NewPromise_Find]; exact hX)
  have hFindY : ∀ Y, Y ≠ X → ((s.NewPromise {}).2.Assign X st').Find Y = s.Find Y := by
    intro Y hY
    rw [Find_Assign_other _ X Y st' hid' hY, NewPromise_Find]
  have hLogA : ∀ Y P, IsAddedWith (Log ++ [.AddTaskToStage X T (.ok s.Futures.length)]) Y P ↔
      IsAddedWith Log Y P := by
    intro Y P
    rw [IsAddedWith_append]
    simp
  have hLogC : ∀ Y, IsCollected (Log ++ [.AddTaskToStage X T (.ok s.Futures.length)]) Y ↔
      IsCollected Log Y := by
    intro Y
    rw [IsCollected_append]
    simp
  have hLogT : ∀ Y, Y ≠ X →
      TasksOf (Log ++ [.AddTaskToStage X T (.ok s.Futures.length)]) Y = TasksOf Log Y := by
    intro Y hY
    rw [TasksOf_append, TasksOf_AddTaskToStage_ok, if_neg (fun h => hY h.symm), List.append_nil]
  have hLogX : TasksOf (Log ++ [.AddTaskToStage X T (.ok s.Futures.length)]) X =
      TasksOf Log X ++ [(T, s.Futures.length)] := by
    rw [TasksOf_append, TasksOf_AddTaskToStage_ok, if_pos rfl]
  have hD0 : ∀ p, s.GetId p = .Completed →
      ((s.NewPromise {}).2.Assign X st').GetId p = .Completed := by
    intro p hp
    rw [GetId_eq_Completed_iff] at hp ⊢
    have hpX : p ≠ X := by
      intro hh; subst hh; rw [hX] at hp
      rcases hst with ⟨h1, _⟩ | ⟨F, h1, _⟩ <;> subst h1 <;> cases hp
    rw [hFindY p hpX]; exact hp
  have hD : ∀ p, IsDone s [] p → IsDone ((s.NewPromise {}).2.Assign X st') [] p := by
    intro p hp
    rcases hp with hp | hp
    · exact Or.inl (hD0 p hp)
    · simp at hp
  have hNew : ∀ h, s.Futures.length ≤ h →
      ((s.NewPromise {}).2.Assign X st').CompletionCallback h = none := by
    intro h hh
    rcases Nat.eq_or_lt_of_le hh with hh | hh
    · rw [← hh]; exact hNewC
    · apply CompletionCallback_of_lt_none
      simp only [Assign_Futures, NewPromise_Futures, List.length_append, List.length_singleton]
      exact hh
  have hPromX : st'.Promises = st.Promises := by
    rcases hst with ⟨h1, h2⟩ | ⟨F, h1, h2⟩ <;> subst h1 h2 <;> rfl
  obtain ⟨hstg, hcell⟩ := SchedulerInv_op ([]) (fun Y => Y = X) hI hF
    (fun Y P _ => hLogA Y P) (fun Y _ => hLogC Y) hLogT hD0
    (by
      intro h p hp
      by_cases hpX : p = X
      · subst hpX
        rw [PromisesOf_of_Find hX] at hp
        rw [PromisesOf_of_Find hFindX, hPromX]
        exact hp
      · unfold TScheduler.PromisesOf at hp ⊢
        rw [hFindY p hpX]; exact hp)
    hOld hNew
    (by
      intro Y pd' F hY
      by_cases hYX : Y = X
      · subst hYX
        rw [hX] at hY
        rcases hst with ⟨h1, _⟩ | ⟨F', h1, h2⟩
        · subst h1; cases hY
        · subst h2; exact ⟨_, _, hFindX⟩
      · exact ⟨pd', F, by rw [hFindY Y hYX]; exact hY⟩)
    (by
      intro Y Ts Ps hY
      have hYX : Y ≠ X := by
        intro hh; subst hh; rw [hX] at hY
        rcases hst with ⟨h1, _⟩ | ⟨F, h1, _⟩ <;> subst h1 <;> cases hY
      exact ⟨Ts, Ps, by rw [hFindY Y hYX]; exact hY⟩)
    (fun Y _ hh => by simp at hh) (fun Y _ hh => by simp at hh) (fun Y _ hh => by simp at hh)
  have hΓn : (Γ ++ [FRole.TaskExecution X pd.Tasks.length])[s.Futures.length]? =
      some (.TaskExecution X pd.Tasks.length) := by
    rw [← hI.roles, List.getElem?_append_right (Nat.le_refl _)]
    simp
  have hOKX := hI.stages X st hX
  have hPT : PendingTasksOK Γ Log s X pd.Tasks := by
    rcases hst with ⟨h1, _⟩ | ⟨F, h1, _⟩
    · subst h1; have := hOKX.2.2.1; rw [hid] at this; exact this
    · subst h1; have := hOKX.2.2.2.1; rw [hid] at this; exact this
  have hlenT : (TasksOf Log X).length = pd.Tasks.length := by
    rw [← hPT.1, List.length_map]
  have hPT' : PendingTasksOK (Γ ++ [.TaskExecution X pd.Tasks.length])
      (Log ++ [.AddTaskToStage X T (.ok s.Futures.length)])
      ((s.NewPromise {}).2.Assign X st') X
      (pd.Tasks ++ [{ Id := T, ExecutionPromise := s.Futures.length }]) := by
    refine ⟨?_, ?_⟩
    · rw [hLogX, List.map_append, hPT.1]
      rfl
    · intro j t hj
      by_cases hjlt : j < pd.Tasks.length
      · rw [List.getElem?_append_left hjlt] at hj
        obtain ⟨h1, h2⟩ := hPT.2 j t hj
        exact ⟨hF.roles _ _ h1, by rw [(hOld _ (lt_of_role hI h1)).1]; exact h2⟩
      · have hjeq : j = pd.Tasks.length := by
          have := (List.getElem?_eq_some.1 hj).1
          simp only [List.length_append, List.length_singleton] at this
          omega
        subst hjeq
        rw [List.getElem?_append_right (Nat.le_refl _)] at hj
        simp only [Nat.sub_self, List.getElem?_cons_zero, Option.some.injEq] at hj
        subst hj
        exact ⟨hΓn, hNewR⟩
  have hPr : PromisesOK Γ s X pd.StageCompletionPromises := by
    rcases hst with ⟨h1, _⟩ | ⟨F, h1, _⟩
    · subst h1; have := hOKX.2.2.2; rw [hid] at this; exact this
    · subst h1; have := hOKX.2.2.2.2; rw [hid] at this; exact this
  have hPr' : PromisesOK (Γ ++ [.TaskExecution X pd.Tasks.length])
      ((s.NewPromise {}).2.Assign X st') X pd.StageCompletionPromises := by
    refine PromisesOK_frame hF.roles ?_ hPr
    intro h hh hn
    obtain ⟨⟨c, hc⟩, _⟩ := hPr h hh
    rw [(hOld h (lt_of_role hI hc)).1]; exact hn
  have hflag : pd.bAllTasksCollected = true ↔
      IsCollected (Log ++ [.AddTaskToStage X T (.ok s.Futures.length)]) X := by
    rw [hLogC]
    rcases hst with ⟨h1, _⟩ | ⟨F, h1, _⟩
    · subst h1; have := hOKX.2.1; rw [hid] at this; exact this
    · subst h1; have := hOKX.2.2.1; rw [hid] at this; exact this
  have hlen' : ((s.NewPromise {}).2.Assign X st').Futures.length = s.Futures.length + 1 := by
    simp
  have hmap' : ((s.NewPromise {}).2.Assign X st').PrerequisitesByStageId =
      s.PrerequisitesByStageId := rfl
  generalize (s.NewPromise {}).2.Assign X st' = s' at *
  refine ⟨?_, ?_, ?_, ?_, ⟨fun Y hY => by simp at hY, trivial⟩, ?_⟩
  · rw [hlen', List.length_append, List.length_singleton, hI.roles]
  · intro h hlt
    rw [hlen'] at hlt
    by_cases hlt' : h < s.Futures.length
    · exact hcell h hlt'
    · have hh : h = s.Futures.length := by omega
      subst hh
      constructor
      · rw [CellOK_TaskExecution_iff hΓn]
        refine ⟨fun hh => absurd hNewR hh, T, ?_, hNewC, Or.inl hNewR⟩
        rw [hLogX, ← hlenT, List.getElem?_append_right (Nat.le_refl _)]
        simp
      · unfold CallbackOK
        rw [hNewC]
        trivial
  · intro Y st2 hY
    by_cases hYX : Y = X
    · subst hYX
      rw [hFindX] at hY
      cases hY
      rcases hst with ⟨h1, h2⟩ | ⟨F, h1, h2⟩
      · subst h1 h2
        show _ ∧ _ ∧ _ ∧ _
        simp only [hid]
        refine ⟨?_, hflag, hPT', hPr'⟩
        intro P hP
        have := hOKX.1 P
        rw [hid] at this
        exact this ((hLogA Y P).1 hP)
      · subst h1 h2
        show _ ∧ _ ∧ _ ∧ _ ∧ _
        simp only [hid]
        obtain ⟨⟨P0, hP0⟩, hch, _⟩ := hOKX
        rw [hid] at hP0 hch
        refine ⟨⟨P0, (hLogA Y P0).2 hP0⟩, ?_, hflag, hPT', hPr'⟩
        intro P hP
        have hc := hch P ((hLogA Y P).1 hP)
        refine ChainOK_frame hF.roles hD ?_ ?_ ?_ Iff.rfl hc
        · intro f hf hn
          obtain ⟨j, hj⟩ := List.getElem?_of_mem hf
          obtain ⟨p, _, h5, _⟩ := hc.2.1 j f hj
          rw [(hOld f (lt_of_role hI h5)).2]; exact hn
        · intro h
          by_cases hlt : h < s.Futures.length
          · rw [(hOld h hlt).2]
          · rw [hNew h (Nat.le_of_not_lt hlt),
              CompletionCallback_of_lt_none (Nat.le_of_not_lt hlt)]
        · intro a ha hn
          rw [(hOld a (lt_of_CompletionCallback ha)).1]; exact hn
    · rw [hFindY Y hYX] at hY
      exact hstg Y st2 hYX hY
  · intro Y hY
    have hYX : Y ≠ X := by
      intro hh; subst hh; rw [hFindX] at hY; cases hY
    rw [hFindY Y hYX] at hY
    obtain ⟨h1, h2, h3⟩ := hI.log Y hY
    exact ⟨fun P hP => h1 P ((hLogA Y P).1 hP), fun hh => h2 ((hLogC Y).1 hh),
      by rw [hLogT Y hYX]; exact h3⟩
  · intro hG Y P
    rw [hLogA, hmap']
    exact hI.map hG Y P

/-- `AddTaskToStage` on a stage that is `Executing` and not collected: the task is released
at once. -/
theorem SchedulerInv_AddTask_executing {GPI : Bool} {Γ : FRoles} {Log : FLog} {s s' : TScheduler}
    {X T : IdType} {Ts : List FExecutingTaskEntry} {Ps : List FFutureHandle}
    (hI : SchedulerInv GPI Γ Log [] s) (hX : s.Find X = some (.Executing X false Ts Ps))
    (hlen' : s'.Futures.length = s.Futures.length + 2)
    (hmap' : s'.PrerequisitesByStageId = s.PrerequisitesByStageId)
    (hFindX : s'.Find X = some (.Executing X false
      (Ts ++ [{ Id := T, FutureCompletion := s.Futures.length + 1 }]) Ps))
    (hFindY : ∀ Y, Y ≠ X → s'.Find Y = s.Find Y)
    (hOld : ∀ h, h < s.Futures.length →
      s'.Result h = s.Result h ∧ s'.CompletionCallback h = s.CompletionCallback h)
    (hR0 : s'.Result s.Futures.length = some (.Value (some (s.Futures.length + 1))))
    (hC0 : s'.CompletionCallback s.Futures.length = none)
    (hR1 : s'.Result (s.Futures.length + 1) = none)
    (hC1 : s'.CompletionCallback (s.Futures.length + 1) = none) :
    SchedulerInv GPI (Γ ++ [.TaskExecution X Ts.length, .TaskCompletion X Ts.length])
      (Log ++ [.AddTaskToStage X T (.ok s.Futures.length)]) [] s' := by
  have hF : Frame Γ (Γ ++ [.TaskExecution X Ts.length, .TaskCompletion X Ts.length]) Log
      (Log ++ [.AddTaskToStage X T (.ok s.Futures.length)]) s s' := by
    refine Frame_AddTaskToStage_ok (getElem?_append_old Γ _) ?_
    intro h r hr
    rw [(hOld h (lt_of_Result hr)).1]; exact hr
  have hLogA : ∀ Y P, IsAddedWith (Log ++ [.AddTaskToStage X T (.ok s.Futures.length)]) Y P ↔
      IsAddedWith Log Y P := by
    intro Y P
    rw [IsAddedWith_append]
    simp
  have hLogC : ∀ Y, IsCollected (Log ++ [.AddTaskToStage X T (.ok s.Futures.length)]) Y ↔
      IsCollected Log Y := by
    intro Y
    rw [IsCollected_append]
    simp
  have hLogT : ∀ Y, Y ≠ X →
      TasksOf (Log ++ [.AddTaskToStage X T (.ok s.Futures.length)]) Y = TasksOf Log Y := by
    intro Y hY
    rw [TasksOf_append, TasksOf_AddTaskToStage_ok, if_neg (fun h => hY h.symm), List.append_nil]
  have hLogX : TasksOf (Log ++ [.AddTaskToStage X T (.ok s.Futures.length)]) X =
      TasksOf Log X ++ [(T, s.Futures.length)] := by
    rw [TasksOf_append, TasksOf_AddTaskToStage_ok, if_pos rfl]
  have hD0 : ∀ p, s.GetId p = .Completed → s'.GetId p = .Completed := by
    intro p hp
    rw [GetId_eq_Completed_iff] at hp ⊢
    have hpX : p ≠ X := by
      intro hh; subst hh; rw [hX] at hp; cases hp
    rw [hFindY p hpX]; exact hp
  have hD : ∀ p, IsDone s [] p → IsDone s' [] p := by
    intro p hp
    rcases hp with hp | hp
    · exact Or.inl (hD0 p hp)
    · simp at hp
  have hNew : ∀ h, s.Futures.length ≤ h → s'.CompletionCallback h = none := by
    intro h hh
    by_cases h0 : h = s.Futures.length
    · rw [h0]; exact hC0
    · by_cases h1 : h = s.Futures.length + 1
      · rw [h1]; exact hC1
      · apply CompletionCallback_of_lt_none
        rw [hlen']
        omega
  obtain ⟨hstg, hcell⟩ := SchedulerInv_op ([]) (fun Y => Y = X) hI hF
    (fun Y P _ => hLogA Y P) (fun Y _ => hLogC Y) hLogT hD0
    (by
      intro h p hp
      by_cases hpX : p = X
      · subst hpX
        rw [PromisesOf_of_Find hX] at hp
        rw [PromisesOf_of_Find hFindX]
        exact hp
      · unfold TScheduler.PromisesOf at hp ⊢
        rw [hFindY p hpX]; exact hp)
    hOld hNew
    (by
      intro Y pd' F hY
      have hYX : Y ≠ X := by
        intro hh; subst hh; rw [hX] at hY; cases hY
      exact ⟨pd', F, by rw [hFindY Y hYX]; exact hY⟩)
    (by
      intro Y Ts' Ps' hY
      have hYX : Y ≠ X := by
        intro hh; subst hh; rw [hX] at hY; cases hY
      exact ⟨Ts', Ps', by rw [hFindY Y hYX]; exact hY⟩)
    (fun Y _ hh => by simp at hh) (fun Y _ hh => by simp at hh) (fun Y _ hh => by simp at hh)
  have hΓ0 : (Γ ++ [FRole.TaskExecution X Ts.length, .TaskCompletion X Ts.length])[
      s.Futures.length]? = some (.TaskExecution X Ts.length) := by
    rw [← hI.roles, List.getElem?_append_right (Nat.le_refl _)]
    simp
  have hΓ1 : (Γ ++ [FRole.TaskExecution X Ts.length, .TaskCompletion X Ts.length])[
      s.Futures.length + 1]? = some (.TaskCompletion X Ts.length) := by
    rw [← hI.roles, List.getElem?_append_right (Nat.le_add_right _ _)]
    simp
  obtain ⟨hX0, hX1, hX2, hX3, hX4, hE, hlenL, hdr⟩ := hI.stages X _ hX
  have hdr' : Ts.length = (TasksOf Log X).length ∧
      ∀ h, s.CompletionCallback h ≠ some (.CompleteWhenTasksFinished X) := by
    rcases hdr with ⟨_, h5, h6, _⟩ | ⟨h4, _⟩ | ⟨h4, _⟩ | ⟨h4, _⟩
    · exact ⟨h5, h6⟩
    · cases h4
    · cases h4
    · cases h4
  obtain ⟨hlenT, hnoCW⟩ := hdr'
  have hLj : (TasksOf (Log ++ [.AddTaskToStage X T (.ok s.Futures.length)]) X)[Ts.length]? =
      some (T, s.Futures.length) := by
    rw [hLogX, hlenT, List.getElem?_append_right (Nat.le_refl _)]
    simp
  refine ⟨?_, ?_, ?_, ?_, ⟨fun Y hY => by simp at hY, trivial⟩, ?_⟩
  · rw [hlen', List.length_append, hI.roles]
    rfl
  · intro h hlt
    rw [hlen'] at hlt
    by_cases hlt' : h < s.Futures.length
    · exact hcell h hlt'
    · by_cases h0 : h = s.Futures.length
      · subst h0
        constructor
        · rw [CellOK_TaskExecution_iff hΓ0]
          exact ⟨fun _ => hC0, T, hLj, hC0, Or.inr ⟨_, hR0, hΓ1⟩⟩
        · unfold CallbackOK
          rw [hC0]
          trivial
      · have h1 : h = s.Futures.length + 1 := by omega
        subst h1
        constructor
        · rw [CellOK_TaskCompletion_iff hΓ1]
          refine ⟨fun hh => absurd hR1 hh, T, _, hLj, hR0, Or.inl hR1, ?_⟩
          intro T' f hh
          rw [hC1] at hh; cases hh
        · unfold CallbackOK
          rw [hC1]
          trivial
  · intro Y st2 hY
    by_cases hYX : Y = X
    · subst hYX
      rw [hFindX] at hY
      cases hY
      obtain ⟨P0, hP0⟩ := hX0
      refine ⟨⟨P0, (hLogA Y P0).2 hP0⟩,
        fun P hP p hp => hD p (hX1 P ((hLogA Y P).1 hP) p hp), by rw [hLogC]; exact hX2, ?_,
        ?_, ?_, ?_, ?_⟩
      · refine PromisesOK_frame hF.roles ?_ hX3
        intro h hh hn
        obtain ⟨⟨c, hc⟩, _⟩ := hX3 h hh
        rw [(hOld h (lt_of_role hI hc)).1]; exact hn
      · intro j T' he hj
        rw [hLogX] at hj
        by_cases hjlt : j < (TasksOf Log Y).length
        · rw [List.getElem?_append_left hjlt] at hj
          obtain ⟨h1, hc, h2, h3⟩ := hX4 j T' he hj
          exact ⟨hF.roles _ _ h1, hc, hF.results _ _ h2, hF.roles _ _ h3⟩
        · have hjeq : j = (TasksOf Log Y).length := by
            have := (List.getElem?_eq_some.1 hj).1
            simp only [List.length_append, List.length_singleton] at this
            omega
          subst hjeq
          rw [List.getElem?_append_right (Nat.le_refl _)] at hj
          simp only [Nat.sub_self, List.getElem?_cons_zero, Option.some.injEq,
            Prod.mk.injEq] at hj
          obtain ⟨hj1, hj2⟩ := hj
          subst hj1 hj2
          rw [← hlenT]
          exact ⟨hΓ0, _, hR0, hΓ1⟩
      · intro j e hj
        by_cases hjlt : j < Ts.length
        · rw [List.getElem?_append_left hjlt] at hj
          refine EntryOK_frame hF ?_ (hE j e hj)
          intro hn
          have hlt : e.FutureCompletion < s.Futures.length := by
            rcases (hE j e hj).2.1 with h | h <;> exact lt_of_role hI h
          rw [(hOld _ hlt).2]; exact hn
        · have hjeq : j = Ts.length := by
            have := (List.getElem?_eq_some.1 hj).1
            simp only [List.length_append, List.length_singleton] at this
            omega
          subst hjeq
          rw [List.getElem?_append_right (Nat.le_refl _)] at hj
          simp only [Nat.sub_self, List.getElem?_cons_zero, Option.some.injEq] at hj
          subst hj
          exact ⟨⟨_, hLj⟩, Or.inl hΓ1, hC1⟩
      · rw [hLogX]
        simp only [List.length_append, List.length_singleton]
        omega
      · refine Or.inl ⟨rfl, ?_, ?_, by simp, by simp⟩
        · rw [hLogX]
          simp only [List.length_append, List.length_singleton]
          omega
        · intro h hh
          by_cases hlt : h < s.Futures.length
          · rw [(hOld h hlt).2] at hh; exact hnoCW h hh
          · rw [hNew h (Nat.le_of_not_lt hlt)] at hh; cases hh
    · rw [hFindY Y hYX] at hY
      exact hstg Y st2 hYX hY
  · intro Y hY
    have hYX : Y ≠ X := by
      intro hh; subst hh; rw [hFindX] at hY; cases hY
    rw [hFindY Y hYX] at hY
    obtain ⟨h1, h2, h3⟩ := hI.log Y hY
    exact ⟨fun P hP => h1 P ((hLogA Y P).1 hP), fun hh => h2 ((hLogC Y).1 hh),
      by rw [hLogT Y hYX]; exact h3⟩
  · intro hG Y P
    rw [hLogA, hmap']
    exact hI.map hG Y P

end Zkz.StagedExecution

namespace Zkz.StagedExecution

/-- A failed `AddTaskToStage` changes nothing. -/
theorem SchedulerInv_AddTask_error {GPI : Bool} {Γ : FRoles} {Log : FLog} {s : TScheduler}
    (hI : SchedulerInv GPI Γ Log [] s) (X T : IdType) (e : TAllTasksCollectedError) :
    SchedulerInv GPI Γ (Log ++ [.AddTaskToStage X T (.error e)]) [] s := by
  refine SchedulerInv_same hI ?_ ?_ ?_ (fun Y hY => by simp at hY) (fun F hF => by simp at hF)
    ⟨fun Y hY => by simp at hY, trivial⟩
  · intro Y P
    rw [IsAddedWith_append]
    simp
  · intro Y
    rw [IsCollected_append]
    simp
  · intro Y
    rw [TasksOf_append, TasksOf_AddTaskToStage_error, List.append_nil]

/-- `StageState::AddTaskToStage` preserves the invariant. -/
theorem SchedulerInv_StageState_AddTaskToStage {GPI : Bool} {Γ : FRoles} {Log : FLog}
    {s : TScheduler} {st : TStageState} (hI : SchedulerInv GPI Γ Log [] s) (X T : IdType)
    (hX : s.Find X = some st) :
    ∃ R, SchedulerInv GPI (Γ ++ R)
      (Log ++ [.AddTaskToStage X T (StageState_AddTaskToStage s X T).1]) []
      (StageState_AddTaskToStage s X T).2 := by
  have hid := GetStageId_of_Find hX
  unfold StageState_AddTaskToStage
  rw [hX]
  cases st with
  | Undefined pd =>
    simp only
    by_cases hb : pd.bAllTasksCollected = true
    · rw [if_pos hb]
      exact ⟨[], by rw [List.append_nil]; exact SchedulerInv_AddTask_error hI X T _⟩
    · rw [if_neg hb]
      exact ⟨_, SchedulerInv_AddTask_pending hI hX (Or.inl ⟨rfl, rfl⟩)⟩
  | Defined pd F =>
    simp only
    by_cases hb : pd.bAllTasksCollected = true
    · rw [if_pos hb]
      exact ⟨[], by rw [List.append_nil]; exact SchedulerInv_AddTask_error hI X T _⟩
    · rw [if_neg hb]
      exact ⟨_, SchedulerInv_AddTask_pending hI hX (Or.inr ⟨F, rfl, rfl⟩)⟩
  | Completed Id =>
    exact ⟨[], by rw [List.append_nil]; exact SchedulerInv_AddTask_error hI X T _⟩
  | Executing Id b Ts Ps =>
    simp only [TStageState.GetStageId] at hid
    subst hid
    simp only
    by_cases hb : b = true
    · rw [if_pos hb]
      exact ⟨[], by rw [List.append_nil]; exact SchedulerInv_AddTask_error hI Id T _⟩
    · rw [if_neg hb]
      have hb' : b = false := by simpa using hb
      subst hb'
      simp only [NewPromise_fst, NewPromise_Futures, List.length_append, List.length_singleton]
      have hF3 : (((s.NewPromise {}).2.NewPromise {}).2.Assign Id (.Executing Id false
          (Ts ++ [{ Id := T, FutureCompletion := s.Futures.length + 1 }]) Ps)).Futures =
          s.Futures ++ [FFutureState.mk none none, FFutureState.mk none none] := by
        simp
      have hlt3 : s.Futures.length < (((s.NewPromise {}).2.NewPromise {}).2.Assign Id
          (.Executing Id false
            (Ts ++ [{ Id := T, FutureCompletion := s.Futures.length + 1 }]) Ps)).Futures.length := by
        rw [hF3, List.length_append]
        exact Nat.lt_add_of_pos_right (by decide)
      have hR3 : (((s.NewPromise {}).2.NewPromise {}).2.Assign Id (.Executing Id false
          (Ts ++ [{ Id := T, FutureCompletion := s.Futures.length + 1 }]) Ps)).Result
          s.Futures.length = none := by
        have := (Result_of_append_new (i := 0) hF3 rfl).1
        exact this
      rw [SetValue_pending _ hlt3 hR3]
      have hFind3 : (((s.NewPromise {}).2.NewPromise {}).2.Assign Id (.Executing Id false
          (Ts ++ [{ Id := T, FutureCompletion := s.Futures.length + 1 }]) Ps)).Find Id =
          some (.Executing Id false
            (Ts ++ [{ Id := T, FutureCompletion := s.Futures.length + 1 }]) Ps) :=
        Find_Assign_same _ Id _ _ rfl (by rw [NewPromise_Find, NewPromise_Find]; exact hX)
      have hFindY3 : ∀ Y, Y ≠ Id → (((s.NewPromise {}).2.NewPromise {}).2.Assign Id
          (.Executing Id false
            (Ts ++ [{ Id := T, FutureCompletion := s.Futures.length + 1 }]) Ps)).Find Y =
          s.Find Y := by
        intro Y hY
        have := Find_Assign_other ((s.NewPromise {}).2.NewPromise {}).2 Id Y
          (TStageState.Executing Id false
            (Ts ++ [FExecutingTaskEntry.mk T (s.Futures.length + 1)]) Ps) rfl hY
        rw [this, NewPromise_Find, NewPromise_Find]
      have hmap3 : (((s.NewPromise {}).2.NewPromise {}).2.Assign Id (.Executing Id false
          (Ts ++ [{ Id := T, FutureCompletion := s.Futures.length + 1 }]) Ps)).PrerequisitesByStageId
          = s.PrerequisitesByStageId := rfl
      generalize ((s.NewPromise {}).2.NewPromise {}).2.Assign Id (.Executing Id false
          (Ts ++ [{ Id := T, FutureCompletion := s.Futures.length + 1 }]) Ps) = s3
        at hF3 hlt3 hR3 hFind3 hFindY3 hmap3 ⊢
      refine ⟨_, SchedulerInv_AddTask_executing hI hX ?_ ?_ ?_ ?_ ?_ ?_ ?_ ?_ ?_⟩
      · simp [hF3]
      · rw [SetFuture_PrerequisitesByStageId]; exact hmap3
      · rw [SetFuture_Find]; exact hFind3
      · intro Y hY; rw [SetFuture_Find]; exact hFindY3 Y hY
      · intro h hlt
        have hne : h ≠ s.Futures.length := Nat.ne_of_lt hlt
        rw [Result_SetFuture_other _ _ _ _ hne, CompletionCallback_SetFuture_other _ _ _ _ hne]
        exact Result_of_append hF3 hlt
      · rw [Result_SetFuture_same _ _ _ hlt3]
      · rw [CompletionCallback_SetFuture_same _ _ _ hlt3]
      · have hne : s.Futures.length + 1 ≠ s.Futures.length := Nat.succ_ne_self _
        rw [Result_SetFuture_other _ _ _ _ hne]
        exact (Result_of_append_new (i := 1) hF3 rfl).1
      · have hne : s.Futures.length + 1 ≠ s.Futures.length := Nat.succ_ne_self _
        rw [CompletionCallback_SetFuture_other _ _ _ _ hne]
        exact (Result_of_append_new (i := 1) hF3 rfl).2

end Zkz.StagedExecution

namespace Zkz.StagedExecution

/-! ## `SetAllTasksAdded` -/

/-- `SetAllTasksAdded` on a stage that is collected already changes nothing. -/
theorem SchedulerInv_SetAllTasksAdded_again {GPI : Bool} {Γ : FRoles} {Log : FLog}
    {s : TScheduler} (hI : SchedulerInv GPI Γ Log [] s) (X : IdType)
    (hC : IsCollected Log X) :
    SchedulerInv GPI Γ (Log ++ [.SetAllTasksAdded X]) [] s := by
  refine SchedulerInv_same hI ?_ ?_ ?_ (fun Y hY => by simp at hY) (fun F hF => by simp at hF)
    ⟨fun Y hY => by simp at hY, trivial⟩
  · intro Y P
    rw [IsAddedWith_append]
    simp
  · intro Y
    rw [IsCollected_append]
    constructor
    · rintro (h | h)
      · exact h
      · cases h; exact hC
    · intro h; exact Or.inl h
  · intro Y
    rw [TasksOf_append, TasksOf_SetAllTasksAdded, List.append_nil]

/-- `SetAllTasksAdded` sets the flag of a stage that is not collected yet; on an executing
stage `CompleteWhenTasksFinished` is about to be called. -/
theorem SchedulerInv_SetAllTasksAdded_set {GPI : Bool} {Γ : FRoles} {Log : FLog}
    {s : TScheduler} {X : IdType} {st st' : TStageState} {Calls' : List FCall}
    (hI : SchedulerInv GPI Γ Log [] s) (hX : s.Find X = some st)
    (hst : (∃ pd, st = .Undefined pd ∧ st' = .Undefined { pd with bAllTasksCollected := true } ∧
        Calls' = []) ∨
      (∃ pd F, st = .Defined pd F ∧ st' = .Defined { pd with bAllTasksCollected := true } F ∧
        Calls' = []) ∨
      (∃ Ts Ps, st = .Executing X false Ts Ps ∧ st' = .Executing X true Ts Ps ∧
        Calls' = [.Invoke (.CompleteWhenTasksFinished X)])) :
    SchedulerInv GPI Γ (Log ++ [.SetAllTasksAdded X]) Calls' (s.Assign X st') := by
  have hid := GetStageId_of_Find hX
  have hid' : st'.GetStageId = X := by
    rcases hst with ⟨pd, h1, h2, _⟩ | ⟨pd, F, h1, h2, _⟩ | ⟨Ts, Ps, h1, h2, _⟩ <;>
      subst h1 h2 <;> exact hid
  have hFindX : (s.Assign X st').Find X = some st' := Find_Assign_same s X st' st hid' hX
  have hFindY : ∀ Y, Y ≠ X → (s.Assign X st').Find Y = s.Find Y :=
    fun Y hY => Find_Assign_other s X Y st' hid' hY
  have hLogA : ∀ Y P, IsAddedWith (Log ++ [.SetAllTasksAdded X]) Y P ↔ IsAddedWith Log Y P := by
    intro Y P
    rw [IsAddedWith_append]
    simp
  have hLogC : ∀ Y, Y ≠ X →
      (IsCollected (Log ++ [.SetAllTasksAdded X]) Y ↔ IsCollected Log Y) := by
    intro Y hY
    rw [IsCollected_append]
    constructor
    · rintro (h | h)
      · exact h
      · cases h; exact absurd rfl hY
    · intro h; exact Or.inl h
  have hLogCX : IsCollected (Log ++ [.SetAllTasksAdded X]) X := by
    rw [IsCollected_append]; exact Or.inr rfl
  have hLogT : ∀ Y, TasksOf (Log ++ [.SetAllTasksAdded X]) Y = TasksOf Log Y := by
    intro Y
    rw [TasksOf_append, TasksOf_SetAllTasksAdded, List.append_nil]
  have hF : Frame Γ Γ Log (Log ++ [.SetAllTasksAdded X]) s (s.Assign X st') :=
    ⟨fun _ _ h => h, fun Y j e h => by rw [hLogT]; exact h, fun _ _ h => h⟩
  have hD0 : ∀ p, s.GetId p = .Completed → (s.Assign X st').GetId p = .Completed := by
    intro p hp
    rw [GetId_eq_Completed_iff] at hp ⊢
    have hpX : p ≠ X := by
      intro hh; subst hh; rw [hX] at hp
      rcases hst with ⟨pd, h1, _⟩ | ⟨pd, F, h1, _⟩ | ⟨Ts, Ps, h1, _⟩ <;> subst h1 <;> cases hp
    rw [hFindY p hpX]; exact hp
  have hD : ∀ p, IsDone s [] p → IsDone (s.Assign X st') Calls' p := by
    intro p hp
    rcases hp with hp | hp
    · exact Or.inl (hD0 p hp)
    · simp at hp
  have hPromX : st'.Promises = st.Promises := by
    rcases hst with ⟨pd, h1, h2, _⟩ | ⟨pd, F, h1, h2, _⟩ | ⟨Ts, Ps, h1, h2, _⟩ <;>
      subst h1 h2 <;> rfl
  have hTC' : ∀ Y, FCall.Transition_Completed Y ∉ Calls' := by
    intro Y hh
    rcases hst with ⟨pd, _, _, h3⟩ | ⟨pd, F, _, _, h3⟩ | ⟨Ts, Ps, _, _, h3⟩ <;> subst h3 <;>
      simp at hh
  obtain ⟨hstg, hcell⟩ := SchedulerInv_op (Calls') (fun Y => Y = X) hI hF
    (fun Y P _ => hLogA Y P) hLogC (fun Y _ => hLogT Y) hD0
    (by
      intro h p hp
      by_cases hpX : p = X
      · subst hpX
        rw [PromisesOf_of_Find hX] at hp
        rw [PromisesOf_of_Find hFindX, hPromX]
        exact hp
      · unfold TScheduler.PromisesOf at hp ⊢
        rw [hFindY p hpX]; exact hp)
    (fun h _ => ⟨rfl, rfl⟩)
    (fun h hh => CompletionCallback_of_lt_none hh)
    (by
      intro Y pd' F hY
      by_cases hYX : Y = X
      · subst hYX
        rw [hX] at hY
        rcases hst with ⟨pd, h1, _⟩ | ⟨pd, F', h1, h2, _⟩ | ⟨Ts, Ps, h1, _⟩
        · subst h1; cases hY
        · subst h2; exact ⟨_, _, hFindX⟩
        · subst h1; cases hY
      · exact ⟨pd', F, by rw [hFindY Y hYX]; exact hY⟩)
    (by
      intro Y Ts Ps hY
      have hYX : Y ≠ X := by
        intro hh; subst hh; rw [hX] at hY
        rcases hst with ⟨pd, h1, _⟩ | ⟨pd, F, h1, _⟩ | ⟨Ts', Ps', h1, _⟩ <;> subst h1 <;>
          cases hY
      exact ⟨Ts, Ps, by rw [hFindY Y hYX]; exact hY⟩)
    (fun Y _ => hTC' Y)
    (by
      intro Y _ hh
      rcases hst with ⟨pd, _, _, h3⟩ | ⟨pd, F, _, _, h3⟩ | ⟨Ts, Ps, _, _, h3⟩ <;> subst h3 <;>
        simp at hh)
    (by
      intro Y hY hh
      rcases hst with ⟨pd, _, _, h3⟩ | ⟨pd, F, _, _, h3⟩ | ⟨Ts, Ps, _, _, h3⟩ <;> subst h3 <;>
        simp at hh
      exact hY hh.symm)
  have hOKX := hI.stages X st hX
  have hRes' : ∀ h, (s.Assign X st').Result h = s.Result h := fun _ => rfl
  have hCb' : ∀ h, (s.Assign X st').CompletionCallback h = s.CompletionCallback h :=
    fun _ => rfl
  have hlen' : (s.Assign X st').Futures.length = s.Futures.length := rfl
  have hmap' : (s.Assign X st').PrerequisitesByStageId = s.PrerequisitesByStageId := rfl
  generalize s.Assign X st' = s' at *
  have hres : ∀ h, s.Result h = none → s'.Result h = none :=
    fun h hn => by rw [hRes']; exact hn
  have hcb : ∀ h, s.CompletionCallback h = none → s'.CompletionCallback h = none :=
    fun h hn => by rw [hCb']; exact hn
  have hcbi : ∀ h F, s'.CompletionCallback h = some F ↔ s.CompletionCallback h = some F :=
    fun h F => by rw [hCb']
  refine ⟨by rw [hlen']; exact hI.roles, fun h hlt => hcell h (by rw [← hlen']; exact hlt),
    ?_, ?_, ?_, ?_⟩
  · intro Y st2 hY
    by_cases hYX : Y = X
    · subst hYX
      rw [hFindX] at hY
      cases hY
      rcases hst with ⟨pd, h1, h2, h3⟩ | ⟨pd, F, h1, h2, h3⟩ | ⟨Ts, Ps, h1, h2, h3⟩
      · subst h1 h2 h3
        simp only [TStageState.GetStageId] at hid
        obtain ⟨h4, _, h6, h7⟩ := hOKX
        rw [hid] at h4 h6 h7
        show _ ∧ _ ∧ _ ∧ _
        refine ⟨?_, ?_, ?_, ?_⟩
        · intro P hP; rw [hid] at hP; exact h4 P ((hLogA Y P).1 hP)
        · rw [hid]; exact ⟨fun _ => hLogCX, fun _ => rfl⟩
        · rw [hid]; exact PendingTasksOK_frame hF.roles (hLogT Y) (fun _ _ hn => hres _ hn) h6
        · rw [hid]; exact PromisesOK_frame hF.roles (fun _ _ hn => hres _ hn) h7
      · subst h1 h2 h3
        simp only [TStageState.GetStageId] at hid
        obtain ⟨⟨P0, hP0⟩, h5, _, h6, h7⟩ := hOKX
        rw [hid] at hP0 h5 h6 h7
        show _ ∧ _ ∧ _ ∧ _ ∧ _
        refine ⟨?_, ?_, ?_, ?_, ?_⟩
        · rw [hid]; exact ⟨P0, (hLogA Y P0).2 hP0⟩
        · intro P hP
          rw [hid] at hP ⊢
          exact ChainOK_frame hF.roles hD (fun _ _ hn => hcb _ hn) (fun h => hcbi h _)
            (fun _ _ hn => hres _ hn) Iff.rfl (h5 P ((hLogA Y P).1 hP))
        · rw [hid]; exact ⟨fun _ => hLogCX, fun _ => rfl⟩
        · rw [hid]; exact PendingTasksOK_frame hF.roles (hLogT Y) (fun _ _ hn => hres _ hn) h6
        · rw [hid]; exact PromisesOK_frame hF.roles (fun _ _ hn => hres _ hn) h7
      · subst h1 h2 h3
        obtain ⟨⟨P0, hP0⟩, h5, _, h6, h7, hE, hlenL, hdr⟩ := hOKX
        have hdr' : Ts.length = (TasksOf Log Y).length ∧
            ∀ h, s.CompletionCallback h ≠ some (.CompleteWhenTasksFinished Y) := by
          rcases hdr with ⟨_, h8, h9, _⟩ | ⟨h4, _⟩ | ⟨h4, _⟩ | ⟨h4, _⟩
          · exact ⟨h8, h9⟩
          · cases h4
          · cases h4
          · cases h4
        refine ⟨⟨P0, (hLogA Y P0).2 hP0⟩,
          fun P hP p hp => hD p (h5 P ((hLogA Y P).1 hP) p hp),
          ⟨fun _ => hLogCX, fun _ => rfl⟩,
          PromisesOK_frame hF.roles (fun _ _ hn => hres _ hn) h6,
          ReleasedOK_frame hF (hLogT Y) h7,
          fun j e hj => EntryOK_frame hF (fun hn => hcb _ hn) (hE j e hj),
          by rw [hLogT]; exact hlenL, ?_⟩
        refine Or.inr (Or.inr (Or.inl ⟨rfl, by simp, rfl,
          fun h hh => hdr'.2 h ((hcbi h _).1 hh), ?_⟩))
        intro j hj hj'
        rw [hLogT] at hj'
        omega
    · rw [hFindY Y hYX] at hY
      exact hstg Y st2 hYX hY
  · intro Y hY
    have hYX : Y ≠ X := by
      intro hh; subst hh; rw [hFindX] at hY; cases hY
    rw [hFindY Y hYX] at hY
    obtain ⟨h1, h2, h3⟩ := hI.log Y hY
    exact ⟨fun P hP => h1 P ((hLogA Y P).1 hP), fun hh => h2 ((hLogC Y hYX).1 hh),
      by rw [hLogT Y]; exact h3⟩
  · rcases hst with ⟨pd, _, _, h3⟩ | ⟨pd, F, _, _, h3⟩ | ⟨Ts, Ps, h1, h2, h3⟩
    · subst h3; exact ⟨fun Y hY => by simp at hY, trivial⟩
    · subst h3; exact ⟨fun Y hY => by simp at hY, trivial⟩
    · subst h1 h2 h3
      exact ⟨fun Y hY => by simp at hY, trivial, by simp, Ts, Ps, hFindX⟩
  · intro hG Y P
    rw [hLogA, hmap']
    exact hI.map hG Y P

/-- `StageState::SetAllTasksAdded` preserves the invariant. -/
theorem SchedulerInv_StageState_SetAllTasksAdded {GPI : Bool} {Γ : FRoles} {Log : FLog}
    {s : TScheduler} {st : TStageState} (hI : SchedulerInv GPI Γ Log [] s) (X : IdType)
    (hX : s.Find X = some st) :
    SchedulerInv GPI Γ (Log ++ [.SetAllTasksAdded X])
      (StageState_SetAllTasksAdded s X).2 (StageState_SetAllTasksAdded s X).1 := by
  have hid := GetStageId_of_Find hX
  have hOKX := hI.stages X st hX
  unfold StageState_SetAllTasksAdded
  rw [hX]
  cases st with
  | Undefined pd =>
    simp only [TStageState.GetStageId] at hid
    simp only
    by_cases hb : pd.bAllTasksCollected = true
    · rw [if_pos hb]
      have hC := hOKX.2.1.1 hb
      rw [hid] at hC
      exact SchedulerInv_SetAllTasksAdded_again hI X hC
    · rw [if_neg hb]
      exact SchedulerInv_SetAllTasksAdded_set hI hX (Or.inl ⟨pd, rfl, rfl, rfl⟩)
  | Defined pd F =>
    simp only [TStageState.GetStageId] at hid
    simp only
    by_cases hb : pd.bAllTasksCollected = true
    · rw [if_pos hb]
      have hC := hOKX.2.2.1.1 hb
      rw [hid] at hC
      exact SchedulerInv_SetAllTasksAdded_again hI X hC
    · rw [if_neg hb]
      exact SchedulerInv_SetAllTasksAdded_set hI hX (Or.inr (Or.inl ⟨pd, F, rfl, rfl, rfl⟩))
  | Completed Id =>
    simp only [TStageState.GetStageId] at hid
    subst hid
    exact SchedulerInv_SetAllTasksAdded_again hI Id hOKX.2.2.1
  | Executing Id b Ts Ps =>
    simp only [TStageState.GetStageId] at hid
    subst hid
    simp only
    by_cases hb : b = true
    · rw [if_pos hb]
      exact SchedulerInv_SetAllTasksAdded_again hI Id (hOKX.2.2.1.1 hb)
    · rw [if_neg hb]
      have hb' : b = false := by simpa using hb
      subst hb'
      have h1 := SchedulerInv_SetAllTasksAdded_set hI hX
        (Or.inr (Or.inr ⟨Ts, Ps, rfl, rfl, rfl⟩))
      have h2 := SchedulerInv_Invoke_CW h1
      rw [List.append_nil] at h2
      exact h2

end Zkz.StagedExecution

namespace Zkz.StagedExecution

/-! ## `AddFollowUp` -/

/-- A new unfulfilled stage completion promise is queued in a stage state. -/
theorem StageOK_add_promise {Γ : FRoles} {Log : FLog} {s : TScheduler} {st st' : TStageState}
    {n : FFutureHandle} {c : Option (IdType × Nat)}
    (hOK : StageOK Γ Log [] s st)
    (hΓ : Γ[n]? = some (.StageCompletion st.GetStageId c)) (hR : s.Result n = none)
    (hst : (∃ pd, st = .Undefined pd ∧ st' = .Undefined { pd with
        StageCompletionPromises := pd.StageCompletionPromises ++ [n] }) ∨
      (∃ pd F, st = .Defined pd F ∧ st' = .Defined { pd with
        StageCompletionPromises := pd.StageCompletionPromises ++ [n] } F) ∨
      (∃ X b Ts Ps, st = .Executing X b Ts Ps ∧ st' = .Executing X b Ts (Ps ++ [n]))) :
    StageOK Γ Log [] s st' := by
  have hP : ∀ X Ps, X = st.GetStageId → PromisesOK Γ s X Ps → PromisesOK Γ s X (Ps ++ [n]) := by
    intro X Ps hX hPs h hh
    rcases List.mem_append.1 hh with hh | hh
    · exact hPs h hh
    · simp only [List.mem_singleton] at hh
      subst hh
      rw [hX]
      exact ⟨⟨c, hΓ⟩, hR⟩
  rcases hst with ⟨pd, h1, h2⟩ | ⟨pd, F, h1, h2⟩ | ⟨X, b, Ts, Ps, h1, h2⟩
  · subst h1 h2
    obtain ⟨h3, h4, h5, h6⟩ := hOK
    exact ⟨h3, h4, h5, hP _ _ rfl h6⟩
  · subst h1 h2
    obtain ⟨h3, h4, h5, h6, h7⟩ := hOK
    exact ⟨h3, h4, h5, h6, hP _ _ rfl h7⟩
  · subst h1 h2
    obtain ⟨h3, h4, h5, h6, h7, h8, h9, h10⟩ := hOK
    refine ⟨h3, h4, h5, hP _ _ rfl h6, h7, h8, h9, ?_⟩
    rcases h10 with h10 | ⟨_, h11, _⟩ | h10 | h10
    · exact Or.inl h10
    · simp at h11
    · exact Or.inr (Or.inr (Or.inl h10))
    · exact Or.inr (Or.inr (Or.inr h10))

/-- `AddFollowUp` on a registered stage: one new shared state, typed as a stage completion
promise of the stage. -/
theorem SchedulerInv_new_promise {GPI : Bool} {Γ : FRoles} {Log : FLog} {s s' : TScheduler}
    {p : IdType} {st st' : TStageState} (c : Option (IdType × Nat))
    (hI : SchedulerInv GPI Γ Log [] s) (hX : s.Find p = some st)
    (hlen' : s'.Futures.length = s.Futures.length + 1)
    (hmap' : s'.PrerequisitesByStageId = s.PrerequisitesByStageId)
    (hFindX : s'.Find p = some st') (hFindY : ∀ Y, Y ≠ p → s'.Find Y = s.Find Y)
    (hOld : ∀ h, h < s.Futures.length →
      s'.Result h = s.Result h ∧ s'.CompletionCallback h = s.CompletionCallback h)
    (hC : s'.CompletionCallback s.Futures.length = none)
    (hcase : (s'.Result s.Futures.length = none ∧
        ((∃ pd, st = .Undefined pd ∧ st' = .Undefined { pd with
            StageCompletionPromises := pd.StageCompletionPromises ++ [s.Futures.length] }) ∨
          (∃ pd F, st = .Defined pd F ∧ st' = .Defined { pd with
            StageCompletionPromises := pd.StageCompletionPromises ++ [s.Futures.length] } F) ∨
          (∃ X b Ts Ps, st = .Executing X b Ts Ps ∧
            st' = .Executing X b Ts (Ps ++ [s.Futures.length])))) ∨
      (s'.Result s.Futures.length = some (.Value none) ∧ st = .Completed p ∧ st' = st)) :
    SchedulerInv GPI (Γ ++ [.StageCompletion p c]) Log [] s' := by
  have hid := GetStageId_of_Find hX
  have hF : Frame Γ (Γ ++ [.StageCompletion p c]) Log Log s s' :=
    ⟨getElem?_append_old Γ _, fun _ _ _ h => h,
      fun h r hr => by rw [(hOld h (lt_of_Result hr)).1]; exact hr⟩
  have hPromX : ∀ h, h ∈ st.Promises → h ∈ st'.Promises := by
    intro h hh
    rcases hcase with ⟨_, ⟨pd, h1, h2⟩ | ⟨pd, F, h1, h2⟩ | ⟨X, b, Ts, Ps, h1, h2⟩⟩ | ⟨_, _, h2⟩
    · subst h1 h2; exact List.mem_append_left _ hh
    · subst h1 h2; exact List.mem_append_left _ hh
    · subst h1 h2; exact List.mem_append_left _ hh
    · subst h2; exact hh
  have hKind : st'.GetId = st.GetId := by
    rcases hcase with ⟨_, ⟨pd, h1, h2⟩ | ⟨pd, F, h1, h2⟩ | ⟨X, b, Ts, Ps, h1, h2⟩⟩ | ⟨_, _, h2⟩
    · subst h1 h2; rfl
    · subst h1 h2; rfl
    · subst h1 h2; rfl
    · subst h2; rfl
  have hGetId : ∀ q, s'.GetId q = s.GetId q := by
    intro q
    unfold TScheduler.GetId
    by_cases hq : q = p
    · subst hq; rw [hFindX, hX]; exact hKind
    · rw [hFindY q hq]
  have hNew : ∀ h, s.Futures.length ≤ h → s'.CompletionCallback h = none := by
    intro h hh
    rcases Nat.eq_or_lt_of_le hh with hh | hh
    · rw [← hh]; exact hC
    · apply CompletionCallback_of_lt_none
      rw [hlen']
      exact hh
  obtain ⟨hstg, hcell⟩ := SchedulerInv_op ([]) (fun _ => False) hI hF
    (fun Y P _ => Iff.rfl) (fun Y _ => Iff.rfl) (fun Y _ => rfl)
    (fun q hq => by rw [hGetId]; exact hq)
    (by
      intro h q hq
      by_cases hqp : q = p
      · subst hqp
        rw [PromisesOf_of_Find hX] at hq
        rw [PromisesOf_of_Find hFindX]
        exact hPromX h hq
      · unfold TScheduler.PromisesOf at hq ⊢
        rw [hFindY q hqp]; exact hq)
    hOld hNew
    (by
      intro Y pd' F hY
      by_cases hYp : Y = p
      · subst hYp
        rw [hX] at hY
        rcases hcase with ⟨_, ⟨pd, h1, h2⟩ | ⟨pd, F', h1, h2⟩ | ⟨X, b, Ts, Ps, h1, h2⟩⟩ |
          ⟨_, h1, h2⟩
        · subst h1; cases hY
        · subst h2; exact ⟨_, _, hFindX⟩
        · subst h1; cases hY
        · subst h1; cases hY
      · exact ⟨pd', F, by rw [hFindY Y hYp]; exact hY⟩)
    (by
      intro Y Ts' Ps' hY
      by_cases hYp : Y = p
      · subst hYp
        rw [hX] at hY
        rcases hcase with ⟨_, ⟨pd, h1, h2⟩ | ⟨pd, F', h1, h2⟩ | ⟨X, b, Ts, Ps, h1, h2⟩⟩ |
          ⟨_, h1, h2⟩
        · subst h1; cases hY
        · subst h1; cases hY
        · subst h1 h2
          cases hY
          exact ⟨_, _, hFindX⟩
        · subst h1; cases hY
      · exact ⟨Ts', Ps', by rw [hFindY Y hYp]; exact hY⟩)
    (fun Y _ hh => by simp at hh) (fun Y _ hh => by simp at hh) (fun Y _ hh => by simp at hh)
  have hΓn : (Γ ++ [FRole.StageCompletion p c])[s.Futures.length]? =
      some (.StageCompletion p c) := by
    rw [← hI.roles, List.getElem?_append_right (Nat.le_refl _)]
    simp
  refine ⟨?_, ?_, ?_, ?_, ⟨fun Y hY => by simp at hY, trivial⟩, MapOK_of_eq hI.map hmap'⟩
  · rw [hlen', List.length_append, List.length_singleton, hI.roles]
  · intro h hlt
    rw [hlen'] at hlt
    by_cases hlt' : h < s.Futures.length
    · exact hcell h hlt'
    · have hh : h = s.Futures.length := by omega
      subst hh
      constructor
      · rw [CellOK_StageCompletion_iff hΓn]
        refine ⟨fun _ => hC, ?_⟩
        rcases hcase with ⟨hR, hc⟩ | ⟨hR, h1, h2⟩
        · refine Or.inl ⟨hR, Or.inl ?_⟩
          rw [PromisesOf_of_Find hFindX]
          rcases hc with ⟨pd, h1, h2⟩ | ⟨pd, F, h1, h2⟩ | ⟨X, b, Ts, Ps, h1, h2⟩ <;>
            subst h2 <;> simp [TStageState.Promises]
        · refine Or.inr ⟨hR, Or.inl ?_⟩
          rw [GetId_eq_Completed_iff, hFindX, h2, h1]
      · unfold CallbackOK
        rw [hC]
        trivial
  · intro Y st2 hY
    by_cases hYp : Y = p
    · subst hYp
      rw [hFindX] at hY
      cases hY
      have hOK := hstg Y st (fun h => h) hX
      rcases hcase with ⟨hR, hc⟩ | ⟨hR, h1, h2⟩
      · refine StageOK_add_promise (c := c) hOK ?_ hR hc
        rw [hid]; exact hΓn
      · rw [h2]; exact hOK
    · rw [hFindY Y hYp] at hY
      exact hstg Y st2 (fun h => h) hY
  · apply LogOK_of_Find hI.log
    intro Y hY
    by_cases hYp : Y = p
    · subst hYp; rw [hFindX] at hY; cases hY
    · rw [← hFindY Y hYp]; exact hY

end Zkz.StagedExecution

namespace Zkz.StagedExecution

theorem NewPromise_Assign_facts (s : TScheduler) (c0 : FFutureState) (p : IdType)
    (st st' : TStageState) (hX : s.Find p = some st) (hid' : st'.GetStageId = p) :
    ((s.NewPromise c0).2.Assign p st').Futures.length = s.Futures.length + 1 ∧
    ((s.NewPromise c0).2.Assign p st').PrerequisitesByStageId = s.PrerequisitesByStageId ∧
    ((s.NewPromise c0).2.Assign p st').Find p = some st' ∧
    (∀ Y, Y ≠ p → ((s.NewPromise c0).2.Assign p st').Find Y = s.Find Y) ∧
    (∀ h, h < s.Futures.length →
      ((s.NewPromise c0).2.Assign p st').Result h = s.Result h ∧
      ((s.NewPromise c0).2.Assign p st').CompletionCallback h = s.CompletionCallback h) ∧
    ((s.NewPromise c0).2.Assign p st').Result s.Futures.length = c0.Result ∧
    ((s.NewPromise c0).2.Assign p st').CompletionCallback s.Futures.length =
      c0.CompletionCallback := by
  refine ⟨by simp, rfl, ?_, ?_, ?_, ?_, ?_⟩
  · exact Find_Assign_same _ p st' st hid' (by rw [NewPromise_Find]; exact hX)
  · intro Y hY
    rw [Find_Assign_other _ p Y st' hid' hY, NewPromise_Find]
  · intro h hlt
    rw [Assign_Result, Assign_CompletionCallback]
    exact ⟨Result_NewPromise_old s _ h hlt, CompletionCallback_NewPromise_old s _ h hlt⟩
  · rw [Assign_Result]; exact Result_NewPromise_new s _
  · rw [Assign_CompletionCallback]; exact CompletionCallback_NewPromise_new s _

/-- `StageState::AddFollowUp` on a registered stage preserves the invariant; the future it
returns is the new shared state. -/
theorem SchedulerInv_AddFollowUp {GPI : Bool} {Γ : FRoles} {Log : FLog} {s : TScheduler}
    {p : IdType} {st : TStageState} (c : Option (IdType × Nat))
    (hI : SchedulerInv GPI Γ Log [] s) (hX : s.Find p = some st) :
    SchedulerInv GPI (Γ ++ [.StageCompletion p c]) Log [] (AddFollowUp s p).2 ∧
    (AddFollowUp s p).1 = s.Futures.length ∧
    (AddFollowUp s p).2.Futures.length = s.Futures.length + 1 ∧
    (AddFollowUp s p).2.PrerequisitesByStageId = s.PrerequisitesByStageId ∧
    (∀ h, h < s.Futures.length →
      (AddFollowUp s p).2.Result h = s.Result h ∧
      (AddFollowUp s p).2.CompletionCallback h = s.CompletionCallback h) ∧
    (AddFollowUp s p).2.CompletionCallback s.Futures.length = none := by
  have hid := GetStageId_of_Find hX
  unfold AddFollowUp
  rw [hX]
  cases st with
  | Undefined pd =>
    simp only [TStageState.GetStageId] at hid
    simp only [NewPromise_fst]
    obtain ⟨h1, h2, h3, h4, h5, h6, h7⟩ := NewPromise_Assign_facts s {} p (.Undefined pd)
      (.Undefined { pd with
        StageCompletionPromises := pd.StageCompletionPromises ++ [s.Futures.length] }) hX hid
    exact ⟨SchedulerInv_new_promise c hI hX h1 h2 h3 h4 h5 h7
      (Or.inl ⟨h6, Or.inl ⟨pd, rfl, rfl⟩⟩), trivial, h1, h2, h5, h7⟩
  | Defined pd F =>
    simp only [TStageState.GetStageId] at hid
    simp only [NewPromise_fst]
    obtain ⟨h1, h2, h3, h4, h5, h6, h7⟩ := NewPromise_Assign_facts s {} p (.Defined pd F)
      (.Defined { pd with
        StageCompletionPromises := pd.StageCompletionPromises ++ [s.Futures.length] } F) hX hid
    exact ⟨SchedulerInv_new_promise c hI hX h1 h2 h3 h4 h5 h7
      (Or.inl ⟨h6, Or.inr (Or.inl ⟨pd, F, rfl, rfl⟩)⟩), trivial, h1, h2, h5, h7⟩
  | Executing Id b Ts Ps =>
    simp only [TStageState.GetStageId] at hid
    simp only [NewPromise_fst]
    obtain ⟨h1, h2, h3, h4, h5, h6, h7⟩ := NewPromise_Assign_facts s {} p
      (.Executing Id b Ts Ps) (.Executing Id b Ts (Ps ++ [s.Futures.length])) hX hid
    exact ⟨SchedulerInv_new_promise c hI hX h1 h2 h3 h4 h5 h7
      (Or.inl ⟨h6, Or.inr (Or.inr ⟨Id, b, Ts, Ps, rfl, rfl⟩)⟩), trivial, h1, h2, h5, h7⟩
  | Completed Id =>
    simp only [TStageState.GetStageId] at hid
    subst hid
    simp only
    have h5 : ∀ h, h < s.Futures.length →
        (s.NewPromise { Result := some (.Value none) }).2.Result h = s.Result h ∧
        (s.NewPromise { Result := some (.Value none) }).2.CompletionCallback h =
          s.CompletionCallback h :=
      fun h hlt => ⟨Result_NewPromise_old s _ h hlt, CompletionCallback_NewPromise_old s _ h hlt⟩
    have h7 := CompletionCallback_NewPromise_new s { Result := some (.Value none) }
    have h1 : (s.NewPromise { Result := some (.Value none) }).2.Futures.length =
        s.Futures.length + 1 := by simp
    exact ⟨SchedulerInv_new_promise c hI hX h1 rfl (by rw [NewPromise_Find]; exact hX)
      (fun Y _ => NewPromise_Find s _ Y) h5 h7
      (Or.inr ⟨Result_NewPromise_new s _, rfl, rfl⟩), rfl, h1, rfl, h5, h7⟩

end Zkz.StagedExecution

namespace Zkz.StagedExecution

/-! ## `AddStage` -/

/-- A failed `AddStage` leaves the log of successful calls alone. -/
theorem SchedulerInv_AddStage_error {GPI : Bool} {Γ : FRoles} {Log : FLog} {s : TScheduler}
    (hI : SchedulerInv GPI Γ Log [] s) (X : IdType) (P : List IdType) (e : TAddStageError) :
    SchedulerInv GPI Γ (Log ++ [.AddStage X P (.error e)]) [] s := by
  refine SchedulerInv_same hI ?_ ?_ ?_ (fun Y hY => by simp at hY) (fun F hF => by simp at hF)
    ⟨fun Y hY => by simp at hY, trivial⟩
  · intro Y P'
    rw [IsAddedWith_append]
    simp
  · intro Y
    rw [IsCollected_append]
    simp
  · intro Y
    rw [TasksOf_append, TasksOf_AddStage, List.append_nil]

/-- `TransitionToStageState_Defined`, up to the call of
`StartExecutingWhenPrerequisitesComplete`: the undefined stage `X` becomes `Defined` with
the futures `F` of its prerequisites `P`. -/
theorem SchedulerInv_Define {GPI : Bool} {Γ : FRoles} {Log : FLog} {s s2 : TScheduler}
    {X : IdType} {pd : TStageState_Pending} {P : List IdType} {F : List FFutureHandle}
    (hI : SchedulerInv GPI Γ Log [] s) (hX : s.Find X = some (.Undefined pd))
    (hS : s2.Stages = s.Stages) (hFu : s2.Futures = s.Futures)
    (hM : MapOK GPI (Log ++ [.AddStage X P (.ok ())]) s2)
    (hlen : F.length = P.length)
    (hFty : ∀ (j : Nat) (f : FFutureHandle), F[j]? = some f →
      ∃ p, P[j]? = some p ∧ Γ[f]? = some (.StageCompletion p (some (X, j))) ∧
        s.CompletionCallback f = none) :
    SchedulerInv GPI Γ (Log ++ [.AddStage X P (.ok ())])
      [.Invoke (.StartExecutingWhenPrerequisitesComplete X)]
      (s2.Transition X (.Defined pd F)) := by
  have hid : pd.StageId = X := GetStageId_of_Find hX
  have hFindX : (s2.Transition X (.Defined pd F)).Find X = some (.Defined pd F) :=
    Find_Transition_same s2 X _ hid
  have hFindY : ∀ Y, Y ≠ X → (s2.Transition X (.Defined pd F)).Find Y = s.Find Y := by
    intro Y hY
    rw [Find_Transition_other s2 X Y (.Defined pd F) hid hY, Find_of_Stages hS]
  have hRes' : ∀ h, (s2.Transition X (.Defined pd F)).Result h = s.Result h := by
    intro h; rw [Transition_Result]; exact Result_of_Futures hFu h
  have hCb' : ∀ h, (s2.Transition X (.Defined pd F)).CompletionCallback h =
      s.CompletionCallback h := by
    intro h; rw [Transition_CompletionCallback]; exact CompletionCallback_of_Futures hFu h
  have hlen' : (s2.Transition X (.Defined pd F)).Futures.length = s.Futures.length := by
    rw [Transition_Futures, hFu]
  have hLogA : ∀ Y P', Y ≠ X →
      (IsAddedWith (Log ++ [.AddStage X P (.ok ())]) Y P' ↔ IsAddedWith Log Y P') := by
    intro Y P' hY
    rw [IsAddedWith_append]
    constructor
    · rintro (h | h)
      · exact h
      · cases h; exact absurd rfl hY
    · intro h; exact Or.inl h
  have hLogC : ∀ Y, IsCollected (Log ++ [.AddStage X P (.ok ())]) Y ↔ IsCollected Log Y := by
    intro Y
    rw [IsCollected_append]
    simp
  have hLogT : ∀ Y, TasksOf (Log ++ [.AddStage X P (.ok ())]) Y = TasksOf Log Y := by
    intro Y
    rw [TasksOf_append, TasksOf_AddStage, List.append_nil]
  obtain ⟨hX1, hX2, hX3, hX4⟩ := hI.stages X _ hX
  rw [hid] at hX1 hX2 hX3 hX4
  have hLogAX : ∀ P', IsAddedWith (Log ++ [.AddStage X P (.ok ())]) X P' ↔ P' = P := by
    intro P'
    rw [IsAddedWith_append]
    constructor
    · rintro (h | h)
      · exact absurd h (hX1 P')
      · cases h; rfl
    · intro h; subst h; exact Or.inr rfl
  have hF : Frame Γ Γ Log (Log ++ [.AddStage X P (.ok ())]) s
      (s2.Transition X (.Defined pd F)) :=
    ⟨fun _ _ h => h, fun Y j e h => by rw [hLogT]; exact h,
      fun h r hr => by rw [hRes']; exact hr⟩
  have hD0 : ∀ p, s.GetId p = .Completed →
      (s2.Transition X (.Defined pd F)).GetId p = .Completed := by
    intro p hp
    rw [GetId_eq_Completed_iff] at hp ⊢
    have hpX : p ≠ X := by
      intro hh; subst hh; rw [hX] at hp; cases hp
    rw [hFindY p hpX]; exact hp
  have hnoSE : ∀ h, s.CompletionCallback h ≠
      some (.StartExecutingWhenPrerequisitesComplete X) := by
    intro h hh
    obtain ⟨_, pd', F', hdef⟩ :=
      CallbackOK_StartExecuting (hI.cells h (lt_of_CompletionCallback hh)).2 hh
    rw [hX] at hdef; cases hdef
  obtain ⟨hstg, hcell⟩ := SchedulerInv_op
    ([.Invoke (.StartExecutingWhenPrerequisitesComplete X)]) (fun Y => Y = X) hI hF
    hLogA (fun Y _ => hLogC Y) (fun Y _ => hLogT Y) hD0
    (by
      intro h p hp
      by_cases hpX : p = X
      · subst hpX
        rw [PromisesOf_of_Find hX] at hp
        rw [PromisesOf_of_Find hFindX]
        exact hp
      · unfold TScheduler.PromisesOf at hp ⊢
        rw [hFindY p hpX]; exact hp)
    (fun h _ => ⟨hRes' h, hCb' h⟩)
    (by
      intro h hh
      rw [hCb']
      exact CompletionCallback_of_lt_none hh)
    (by
      intro Y pd' F' hY
      have hYX : Y ≠ X := by
        intro hh; subst hh; rw [hX] at hY; cases hY
      exact ⟨pd', F', by rw [hFindY Y hYX]; exact hY⟩)
    (by
      intro Y Ts Ps hY
      have hYX : Y ≠ X := by
        intro hh; subst hh; rw [hX] at hY; cases hY
      exact ⟨Ts, Ps, by rw [hFindY Y hYX]; exact hY⟩)
    (fun Y _ hh => by simp at hh)
    (by
      intro Y hY hh
      simp at hh
      exact hY hh.symm)
    (fun Y _ hh => by simp at hh)
  refine ⟨by rw [hlen']; exact hI.roles, fun h hlt => hcell h (by rw [← hlen']; exact hlt),
    ?_, ?_, ?_, MapOK_of_eq hM (Transition_PrerequisitesByStageId s2 X _)⟩
  · intro Y st2 hY
    by_cases hYX : Y = X
    · subst hYX
      rw [hFindX] at hY
      cases hY
      show _ ∧ _ ∧ _ ∧ _ ∧ _
      rw [hid]
      refine ⟨⟨P, (hLogAX P).2 rfl⟩, ?_, by rw [hLogC]; exact hX2,
        PendingTasksOK_frame hF.roles (hLogT Y) (fun _ _ hn => by rw [hRes']; exact hn) hX3,
        PromisesOK_frame hF.roles (fun _ _ hn => by rw [hRes']; exact hn) hX4⟩
      intro P' hP'
      have := (hLogAX P').1 hP'
      subst this
      refine ⟨Nat.le_of_eq hlen, ?_, Or.inl ⟨rfl, ?_, ?_⟩⟩
      · intro j f hj
        obtain ⟨p, h1, h2, h3⟩ := hFty j f hj
        exact ⟨p, h1, h2, by rw [hCb']; exact h3⟩
      · intro h hh
        rw [hCb'] at hh
        exact hnoSE h hh
      · intro j p hj hp
        have := (List.getElem?_eq_some.1 hp).1
        omega
    · rw [hFindY Y hYX] at hY
      exact hstg Y st2 hYX hY
  · intro Y hY
    have hYX : Y ≠ X := by
      intro hh; subst hh; rw [hFindX] at hY; cases hY
    rw [hFindY Y hYX] at hY
    obtain ⟨h1, h2, h3⟩ := hI.log Y hY
    exact ⟨fun P' hP' => h1 P' ((hLogA Y P' hYX).1 hP'), fun hh => h2 ((hLogC Y).1 hh),
      by rw [hLogT Y]; exact h3⟩
  · exact ⟨fun Y hY => by simp at hY, trivial, pd, F, hFindX⟩

end Zkz.StagedExecution

namespace Zkz.StagedExecution

/-- The first loop of `AddStage`: one new stage completion future per prerequisite, in
order; `tag` is the consumer recorded in the typing of the new shared states. -/
theorem SchedulerInv_Collect {GPI : Bool} {Log : FLog} (tag : Nat → Option (IdType × Nat)) :
    ∀ (P : List IdType) (i : Nat) (Γ : FRoles) (s : TScheduler),
      SchedulerInv GPI Γ Log [] s →
      ∃ R, SchedulerInv GPI (Γ ++ R) Log [] (CollectFuturePrerequisiteCompletions P s).2 ∧
        (CollectFuturePrerequisiteCompletions P s).2.PrerequisitesByStageId =
          s.PrerequisitesByStageId ∧
        s.Futures.length ≤ (CollectFuturePrerequisiteCompletions P s).2.Futures.length ∧
        (∀ h, h < s.Futures.length →
          (CollectFuturePrerequisiteCompletions P s).2.Result h = s.Result h ∧
          (CollectFuturePrerequisiteCompletions P s).2.CompletionCallback h =
            s.CompletionCallback h) ∧
        (CollectFuturePrerequisiteCompletions P s).1.length = P.length ∧
        ∀ (j : Nat) (f : FFutureHandle),
          (CollectFuturePrerequisiteCompletions P s).1[j]? = some f →
          ∃ p, P[j]? = some p ∧ (Γ ++ R)[f]? = some (.StageCompletion p (tag (i + j))) ∧
            (CollectFuturePrerequisiteCompletions P s).2.CompletionCallback f = none := by
  intro P
  induction P with
  | nil =>
    intro i Γ s hI
    refine ⟨[], by rw [List.append_nil]; exact hI, rfl, Nat.le_refl _, fun h _ => ⟨rfl, rfl⟩,
      rfl, ?_⟩
    intro j f hj
    simp [CollectFuturePrerequisiteCompletions] at hj
  | cons p Rest ih =>
    intro i Γ s hI
    have hI0 := SchedulerInv_FindOrAddStage hI p
    obtain ⟨st, hst⟩ := Find_FindOrAddStage_isSome s p
    obtain ⟨h1, h2, h3, h4, h5, h6⟩ := SchedulerInv_AddFollowUp (tag i) hI0 hst
    rw [FindOrAddStage_Futures] at h2 h3 h5 h6
    rw [FindOrAddStage_PrerequisitesByStageId] at h4
    obtain ⟨R, r1, r2, r3, r4, r5, r6⟩ := ih (i + 1) _ _ h1
    have hC : CollectFuturePrerequisiteCompletions (p :: Rest) s =
        ((AddFollowUp (s.FindOrAddStage p) p).1 ::
          (CollectFuturePrerequisiteCompletions Rest (AddFollowUp (s.FindOrAddStage p) p).2).1,
          (CollectFuturePrerequisiteCompletions Rest (AddFollowUp (s.FindOrAddStage p) p).2).2) :=
      rfl
    rw [hC]
    rw [h3] at r3 r4
    refine ⟨.StageCompletion p (tag i) :: R, ?_, ?_, ?_, ?_, ?_, ?_⟩
    · have : Γ ++ FRole.StageCompletion p (tag i) :: R =
          (Γ ++ [FRole.StageCompletion p (tag i)]) ++ R := by simp
      rw [this]; exact r1
    · simp only
      rw [r2, h4]
    · simp only
      omega
    · intro h hlt
      simp only
      obtain ⟨h7, h8⟩ := r4 h (Nat.lt_succ_of_lt hlt)
      obtain ⟨h9, h10⟩ := h5 h (by simpa using hlt)
      simp only [FindOrAddStage_Result, FindOrAddStage_CompletionCallback] at h9 h10
      rw [h7, h8, h9, h10]
      exact ⟨rfl, rfl⟩
    · simp only [List.length_cons, r5]
    · intro j f hj
      have hΓeq : Γ ++ FRole.StageCompletion p (tag i) :: R =
          (Γ ++ [FRole.StageCompletion p (tag i)]) ++ R := by simp
      cases j with
      | zero =>
        simp only [List.getElem?_cons_zero, Option.some.injEq] at hj
        subst hj
        refine ⟨p, by simp, ?_, ?_⟩
        · rw [h2, hΓeq]
          apply getElem?_append_old
          rw [← hI.roles, List.getElem?_append_right (Nat.le_refl _)]
          simp
        · simp only
          rw [h2, (r4 _ (Nat.lt_succ_self _)).2]
          exact h6
      | succ j =>
        simp only [List.getElem?_cons_succ] at hj
        obtain ⟨p', h7, h8, h9⟩ := r6 j f hj
        refine ⟨p', by simpa using h7, ?_, h9⟩
        rw [hΓeq]
        have : i + (j + 1) = i + 1 + j := by omega
        rw [this]
        exact h8

/-! ### The inspection data -/

theorem DebugAddStage_error {M : FPrerequisitesByStageId} {X : IdType} {P : List IdType}
    {e : TAddStageError} (h : (DebugAddStage M X P).1 = .error e) :
    (DebugAddStage M X P).2 = M := by
  unfold DebugAddStage at h ⊢
  split
  · rfl
  · split
    · rfl
    · rename_i h1 _ h2
      rw [if_neg h1, h2] at h
      cases h

theorem DebugAddStage_ok {M : FPrerequisitesByStageId} {X : IdType} {P : List IdType}
    {u : Unit} (h : (DebugAddStage M X P).1 = .ok u) :
    M.Contains X = false ∧ (DebugAddStage M X P).2 = M.Emplace X P := by
  unfold DebugAddStage at h ⊢
  split
  · rename_i h1
    rw [if_pos h1] at h
    cases h
  · rename_i h1
    split
    · rename_i h2
      rw [if_neg h1, h2] at h
      cases h
    · exact ⟨by simpa using h1, rfl⟩

theorem Emplace_Find {M : FPrerequisitesByStageId} {X : IdType} (P : List IdType)
    (h : M.Contains X = false) (Y : IdType) :
    (M.Emplace X P).Find Y = if Y = X then some P else M.Find Y := by
  unfold FPrerequisitesByStageId.Emplace
  rw [if_neg (by rw [h]; exact Bool.false_ne_true)]
  unfold FPrerequisitesByStageId.Find
  unfold FPrerequisitesByStageId.Contains at h
  rw [List.lookup_append]
  by_cases hYX : Y = X
  · subst hYX
    rw [if_pos rfl]
    cases hl : List.lookup Y M with
    | none => simp [List.lookup]
    | some v => rw [hl] at h; simp at h
  · rw [if_neg hYX]
    cases hl : List.lookup Y M with
    | none =>
      have hne : (Y == X) = false := by simpa using hYX
      simp [List.lookup, hne]
    | some v => rfl

end Zkz.StagedExecution

namespace Zkz.StagedExecution

theorem FindOrAddStage_Stages_of_eq {s s2 : TScheduler} (h : s2.Stages = s.Stages)
    (X : IdType) : (s2.FindOrAddStage X).Stages = (s.FindOrAddStage X).Stages := by
  unfold TScheduler.FindOrAddStage
  rw [Find_of_Stages h]
  cases s.Find X with
  | some st => exact h
  | none => simp only [h]

/-- `StageState::AddStage` on an undefined stage succeeds and preserves the invariant. -/
theorem SchedulerInv_StageState_AddStage {GPI : Bool} {Γ : FRoles} {Log : FLog}
    {s s2 : TScheduler} {X : IdType} {pd : TStageState_Pending} {P : List IdType}
    {F : List FFutureHandle}
    (hI : SchedulerInv GPI Γ Log [] s) (hX : s.Find X = some (.Undefined pd))
    (hS : s2.Stages = s.Stages) (hFu : s2.Futures = s.Futures)
    (hM : MapOK GPI (Log ++ [.AddStage X P (.ok ())]) s2)
    (hlen : F.length = P.length)
    (hFty : ∀ (j : Nat) (f : FFutureHandle), F[j]? = some f →
      ∃ p, P[j]? = some p ∧ Γ[f]? = some (.StageCompletion p (some (X, j))) ∧
        s.CompletionCallback f = none) :
    (StageState_AddStage GPI s2 X F).1 = .ok () ∧
    ∃ R, SchedulerInv GPI (Γ ++ R) (Log ++ [.AddStage X P (.ok ())])
      (StageState_AddStage GPI s2 X F).2.2 (StageState_AddStage GPI s2 X F).2.1 := by
  have hid : pd.StageId = X := GetStageId_of_Find hX
  have hX2 : s2.Find X = some (.Undefined pd) := by rw [Find_of_Stages hS]; exact hX
  have hDef := SchedulerInv_Define hI hX hS hFu hM hlen hFty
  have hStep := SchedulerInv_step hDef
  rw [List.append_nil] at hStep
  obtain ⟨R, hR⟩ := StepRoles_append GPI (s2.Transition X (.Defined pd F)) Γ
    (.Invoke (.StartExecutingWhenPrerequisitesComplete X))
  rw [hR] at hStep
  unfold StageState_AddStage
  rw [hX2]
  simp only [TransitionToStageState_Defined, hid]
  exact ⟨trivial, R, hStep⟩

/-- The body of `TScheduler::AddStage` preserves the invariant. -/
theorem SchedulerInv_AddStageCalls {GPI : Bool} {Γ : FRoles} {Log : FLog} {s : TScheduler}
    (hI : SchedulerInv GPI Γ Log [] s) (X : IdType) (P : List IdType) :
    ∃ R, SchedulerInv GPI (Γ ++ R) (Log ++ [.AddStage X P (s.AddStageCalls GPI X P).1])
        (s.AddStageCalls GPI X P).2.2 (s.AddStageCalls GPI X P).2.1 ∧
      ∀ (j : Nat) (f : FFutureHandle),
        (CollectFuturePrerequisiteCompletions P s).1[j]? = some f →
        ∃ p, P[j]? = some p ∧ (Γ ++ R)[f]? = some (.StageCompletion p (some (X, j))) := by
  obtain ⟨R, r1, r2, r3, r4, r5, r6⟩ :=
    SchedulerInv_Collect (fun j => some (X, j)) P 0 Γ s hI
  have hI2 := SchedulerInv_FindOrAddStage r1 X
  obtain ⟨st, hst⟩ := Find_FindOrAddStage_isSome (CollectFuturePrerequisiteCompletions P s).2 X
  have hFty : ∀ (j : Nat) (f : FFutureHandle),
      (CollectFuturePrerequisiteCompletions P s).1[j]? = some f →
      ∃ p, P[j]? = some p ∧ (Γ ++ R)[f]? = some (.StageCompletion p (some (X, j))) ∧
        ((CollectFuturePrerequisiteCompletions P s).2.FindOrAddStage X).CompletionCallback f
          = none := by
    intro j f hj
    obtain ⟨p, h1, h2, h3⟩ := r6 j f hj
    rw [Nat.zero_add] at h2
    exact ⟨p, h1, h2, by rw [FindOrAddStage_CompletionCallback]; exact h3⟩
  have hTy : ∀ (j : Nat) (f : FFutureHandle),
      (CollectFuturePrerequisiteCompletions P s).1[j]? = some f →
      ∃ p, P[j]? = some p ∧ (Γ ++ R)[f]? = some (.StageCompletion p (some (X, j))) := by
    intro j f hj
    obtain ⟨p, h1, h2, _⟩ := hFty j f hj
    exact ⟨p, h1, h2⟩
  have hTy2 : ∀ R2 : FRoles, ∀ (j : Nat) (f : FFutureHandle),
      (CollectFuturePrerequisiteCompletions P s).1[j]? = some f →
      ∃ p, P[j]? = some p ∧
        (Γ ++ (R ++ R2))[f]? = some (.StageCompletion p (some (X, j))) := by
    intro R2 j f hj
    obtain ⟨p, h1, h2⟩ := hTy j f hj
    refine ⟨p, h1, ?_⟩
    rw [← List.append_assoc]
    exact getElem?_append_old _ _ _ _ h2
  have hAS : s.AddStageCalls GPI X P =
      if GPI = true then
        match DebugAddStage (CollectFuturePrerequisiteCompletions P s).2.PrerequisitesByStageId
            X P with
        | (.error Error, _) => (.error Error, (CollectFuturePrerequisiteCompletions P s).2, [])
        | (.ok _, NewPrerequisitesByStageId) =>
          StageState_AddStage GPI
            ({ (CollectFuturePrerequisiteCompletions P s).2 with
                PrerequisitesByStageId := NewPrerequisitesByStageId }.FindOrAddStage X)
            X (CollectFuturePrerequisiteCompletions P s).1
      else
        StageState_AddStage GPI ((CollectFuturePrerequisiteCompletions P s).2.FindOrAddStage X)
          X (CollectFuturePrerequisiteCompletions P s).1 := rfl
  rw [hAS]
  by_cases hG : GPI = true
  · rw [if_pos hG]
    cases hD : DebugAddStage (CollectFuturePrerequisiteCompletions P s).2.PrerequisitesByStageId
        X P with
    | mk res New =>
      cases res with
      | error e =>
        simp only
        exact ⟨R, SchedulerInv_AddStage_error r1 X P e, hTy⟩
      | ok u =>
        simp only
        have hres : (DebugAddStage
            (CollectFuturePrerequisiteCompletions P s).2.PrerequisitesByStageId X P).1 = .ok u := by
          rw [hD]
        obtain ⟨hnc, hnew⟩ := DebugAddStage_ok hres
        rw [hD] at hnew
        simp only at hnew
        -- the stage is not added yet, so it is undefined
        have hnoP : ∀ P', ¬ IsAddedWith Log X P' := by
          intro P' hP'
          have := (hI2.map hG X P').2 hP'
          rw [FindOrAddStage_PrerequisitesByStageId] at this
          unfold FPrerequisitesByStageId.Contains at hnc
          unfold FPrerequisitesByStageId.Find at this
          rw [this] at hnc
          simp at hnc
        have hOK := hI2.stages X st hst
        have hid := GetStageId_of_Find hst
        cases st with
        | Defined pd F =>
          simp only [TStageState.GetStageId] at hid
          obtain ⟨⟨P', hP'⟩, _⟩ := hOK
          rw [hid] at hP'
          exact absurd hP' (hnoP P')
        | Executing Id b Ts Ps =>
          simp only [TStageState.GetStageId] at hid
          obtain ⟨⟨P', hP'⟩, _⟩ := hOK
          rw [hid] at hP'
          exact absurd hP' (hnoP P')
        | Completed Id =>
          simp only [TStageState.GetStageId] at hid
          obtain ⟨⟨P', hP'⟩, _⟩ := hOK
          rw [hid] at hP'
          exact absurd hP' (hnoP P')
        | Undefined pd =>
          have hM : MapOK GPI (Log ++ [.AddStage X P (.ok ())])
              ({ (CollectFuturePrerequisiteCompletions P s).2 with
                PrerequisitesByStageId := New }.FindOrAddStage X) := by
            intro _ Y P'
            rw [FindOrAddStage_PrerequisitesByStageId]
            simp only
            rw [hnew, Emplace_Find P hnc Y, IsAddedWith_append]
            by_cases hYX : Y = X
            · subst hYX
              rw [if_pos rfl]
              constructor
              · intro hh; cases hh; exact Or.inr rfl
              · rintro (hh | hh)
                · exact absurd hh (hnoP P')
                · cases hh; rfl
            · rw [if_neg hYX]
              have := hI2.map hG Y P'
              rw [FindOrAddStage_PrerequisitesByStageId] at this
              rw [this]
              constructor
              · intro hh; exact Or.inl hh
              · rintro (hh | hh)
                · exact hh
                · cases hh; exact absurd rfl hYX
          obtain ⟨h1, Γ', h2⟩ := @SchedulerInv_StageState_AddStage GPI _ _ _
            ({ (CollectFuturePrerequisiteCompletions P s).2 with
              PrerequisitesByStageId := New }.FindOrAddStage X) _ _ P _
            hI2 hst
            (@FindOrAddStage_Stages_of_eq (CollectFuturePrerequisiteCompletions P s).2
              { (CollectFuturePrerequisiteCompletions P s).2 with
                PrerequisitesByStageId := New } rfl X)
            (by rw [FindOrAddStage_Futures, FindOrAddStage_Futures]) hM r5 hFty
          rw [h1]
          rw [List.append_assoc] at h2
          exact ⟨_, h2, hTy2 Γ'⟩
  · rw [if_neg hG]
    cases st with
    | Undefined pd =>
      have hM : MapOK GPI (Log ++ [.AddStage X P (.ok ())])
          ((CollectFuturePrerequisiteCompletions P s).2.FindOrAddStage X) :=
        fun hG' => absurd hG' hG
      obtain ⟨h1, Γ', h2⟩ := @SchedulerInv_StageState_AddStage GPI _ _ _ _ _ _ P _
        hI2 hst rfl rfl hM r5 hFty
      rw [h1]
      rw [List.append_assoc] at h2
      exact ⟨_, h2, hTy2 Γ'⟩
    | Defined pd F =>
      unfold StageState_AddStage
      rw [hst]
      exact ⟨R, SchedulerInv_AddStage_error hI2 X P _, hTy⟩
    | Executing Id b Ts Ps =>
      unfold StageState_AddStage
      rw [hst]
      exact ⟨R, SchedulerInv_AddStage_error hI2 X P _, hTy⟩
    | Completed Id =>
      unfold StageState_AddStage
      rw [hst]
      exact ⟨R, SchedulerInv_AddStage_error hI2 X P _, hTy⟩

end Zkz.StagedExecution

namespace Zkz.StagedExecution

/-! ## The invariant holds after every run -/

theorem foldl_ApplyEventFollowUps_fst (GPI : Bool) (Events : List FEvent) :
    (Events.foldl (ApplyEventFollowUps GPI) (some {}, [])).1 = Exec GPI Events := by
  induction Events using List.reverseRecOn with
  | nil => rfl
  | append_singleton Events e ih =>
    rw [List.foldl_append, Exec_concat, ← ih]
    simp only [List.foldl_cons, List.foldl_nil, ApplyEventFollowUps]
    generalize Events.foldl (ApplyEventFollowUps GPI) (some {}, []) = a
    obtain ⟨o, l⟩ := a
    cases o <;> rfl

theorem FollowUps_concat (GPI : Bool) (Events : List FEvent) (e : FEvent) (r : FRun)
    (h : Exec GPI Events = some r) :
    FollowUps GPI (Events ++ [e]) = FollowUps GPI Events ++ FollowUpsOfEvent r.Scheduler e := by
  unfold FollowUps
  rw [List.foldl_append]
  have h1 := foldl_ApplyEventFollowUps_fst GPI Events
  rw [h] at h1
  simp only [List.foldl_cons, List.foldl_nil, ApplyEventFollowUps, h1]

theorem mem_zip_getElem? {α β : Type} (a : α) (b : β) :
    ∀ (l1 : List α) (l2 : List β), (a, b) ∈ l1.zip l2 →
      ∃ j : Nat, l1[j]? = some a ∧ l2[j]? = some b := by
  intro l1
  induction l1 with
  | nil => intro l2 h; simp at h
  | cons x l1 ih =>
    intro l2 h
    cases l2 with
    | nil => simp at h
    | cons y l2 =>
      rw [List.zip_cons_cons, List.mem_cons] at h
      rcases h with h | h
      · cases h; exact ⟨0, by simp, by simp⟩
      · obtain ⟨j, h1, h2⟩ := ih l2 h
        exact ⟨j + 1, by simpa using h1, by simpa using h2⟩

/-- `AddStage` preserves the invariant; the futures it obtains from `AddFollowUp` are
stage completion futures of the prerequisites. -/
theorem SchedulerInv_AddStage {GPI : Bool} {Γ : FRoles} {Log : FLog} {s : TScheduler}
    (hI : SchedulerInv GPI Γ Log [] s) (X : IdType) (P : List IdType) :
    ∃ R, SchedulerInv GPI (Γ ++ R) (Log ++ [.AddStage X P (s.AddStage GPI X P).1]) []
        (s.AddStage GPI X P).2 ∧
      ∀ S f, (S, f) ∈ P.zip (CollectFuturePrerequisiteCompletions P s).1 →
        ∃ c, (Γ ++ R)[f]? = some (.StageCompletion S c) := by
  obtain ⟨R, h1, h2⟩ := SchedulerInv_AddStageCalls hI X P
  obtain ⟨R2, h3⟩ := SchedulerInv_RunCalls h1
  rw [List.append_assoc] at h3
  refine ⟨_, h3, ?_⟩
  intro S f hm
  obtain ⟨j, hj1, hj2⟩ := mem_zip_getElem? _ _ _ _ hm
  obtain ⟨p, hp1, hp2⟩ := h2 j f hj2
  rw [hj1] at hp1
  cases hp1
  refine ⟨some (X, j), ?_⟩
  rw [← List.append_assoc]
  exact getElem?_append_old _ _ _ _ hp2

/-- `AddTaskToStage` preserves the invariant. -/
theorem SchedulerInv_AddTaskToStage {GPI : Bool} {Γ : FRoles} {Log : FLog} {s : TScheduler}
    (hI : SchedulerInv GPI Γ Log [] s) (X T : IdType) :
    ∃ R, SchedulerInv GPI (Γ ++ R) (Log ++ [.AddTaskToStage X T (s.AddTaskToStage X T).1]) []
      (s.AddTaskToStage X T).2 := by
  obtain ⟨st, hst⟩ := Find_FindOrAddStage_isSome s X
  exact SchedulerInv_StageState_AddTaskToStage (SchedulerInv_FindOrAddStage hI X) X T hst

/-- `SetAllTasksAdded` preserves the invariant. -/
theorem SchedulerInv_SetAllTasksAdded {GPI : Bool} {Γ : FRoles} {Log : FLog} {s : TScheduler}
    (hI : SchedulerInv GPI Γ Log [] s) (X : IdType) :
    ∃ R, SchedulerInv GPI (Γ ++ R) (Log ++ [.SetAllTasksAdded X]) []
      (s.SetAllTasksAdded GPI X) := by
  obtain ⟨st, hst⟩ := Find_FindOrAddStage_isSome s X
  exact SchedulerInv_RunCalls
    (SchedulerInv_StageState_SetAllTasksAdded (SchedulerInv_FindOrAddStage hI X) X hst)

/-- Every event of a run preserves the invariant; the typing of the heap only grows and
the futures handed out by `AddFollowUp` are typed as stage completion futures. -/
theorem SchedulerInv_ApplyEvent {GPI : Bool} {Γ : FRoles} {r r' : FRun} {e : FEvent}
    (hI : SchedulerInv GPI Γ r.Observations [] r.Scheduler)
    (h : ApplyEvent GPI r e = some r') :
    ∃ R, SchedulerInv GPI (Γ ++ R) r'.Observations [] r'.Scheduler ∧
      ∀ S f, (S, f) ∈ FollowUpsOfEvent r.Scheduler e →
        ∃ c, (Γ ++ R)[f]? = some (.StageCompletion S c) := by
  cases e with
  | AddStage X P =>
    simp only [ApplyEvent] at h
    replace h := Checked_some h
    cases h
    exact SchedulerInv_AddStage hI X P
  | AddTaskToStage X T =>
    simp only [ApplyEvent] at h
    replace h := Checked_some h
    cases h
    obtain ⟨R, h1⟩ := SchedulerInv_AddTaskToStage hI X T
    exact ⟨R, h1, fun S f hm => by simp [FollowUpsOfEvent] at hm⟩
  | SetAllTasksAdded X =>
    simp only [ApplyEvent] at h
    replace h := Checked_some h
    cases h
    obtain ⟨R, h1⟩ := SchedulerInv_SetAllTasksAdded hI X
    exact ⟨R, h1, fun S f hm => by simp [FollowUpsOfEvent] at hm⟩
  | AddTask T P =>
    simp only [ApplyEvent] at h
    obtain ⟨R, h1, hty⟩ := SchedulerInv_AddStage hI T P
    cases hA : r.Scheduler.AddStage GPI T P with
    | mk res s1 =>
      rw [hA] at h h1
      cases res with
      | error e =>
        simp only at h
        replace h := Checked_some h
        cases h
        exact ⟨R, h1, hty⟩
      | ok u =>
        simp only at h h1
        obtain ⟨R2, h2⟩ := SchedulerInv_AddTaskToStage h1 T T
        cases hB : s1.AddTaskToStage T T with
        | mk res2 s2 =>
          rw [hB] at h h2
          cases res2 with
          | error e => simp at h
          | ok f =>
            simp only at h h2
            replace h := Checked_some h
            cases h
            obtain ⟨R3, h3⟩ := SchedulerInv_SetAllTasksAdded h2 T
            rw [List.append_assoc, List.append_assoc] at h3
            refine ⟨_, by simpa using h3, ?_⟩
            intro S f' hm
            obtain ⟨c, hc⟩ := hty S f' hm
            refine ⟨c, ?_⟩
            rw [← List.append_assoc]
            exact getElem?_append_old _ _ _ _ hc
  | FulfilTaskCompletion p =>
    simp only [ApplyEvent] at h
    split at h
    · rename_i hp
      replace h := Checked_some h
      cases h
      obtain ⟨R, h1⟩ := SchedulerInv_RunCalls (SchedulerInv_fulfil hI hp)
      exact ⟨R, h1, fun S f hm => by simp [FollowUpsOfEvent] at hm⟩
    · cases h
      exact ⟨[], by rw [List.append_nil]; exact hI,
        fun S f hm => by simp [FollowUpsOfEvent] at hm⟩
  | DropTaskCompletion p =>
    simp only [ApplyEvent] at h
    split at h
    · rename_i hp
      replace h := Checked_some h
      cases h
      obtain ⟨R, h1⟩ := SchedulerInv_RunCalls (SchedulerInv_drop hI hp)
      exact ⟨R, h1, fun S f hm => by simp [FollowUpsOfEvent] at hm⟩
    · cases h
      exact ⟨[], by rw [List.append_nil]; exact hI,
        fun S f hm => by simp [FollowUpsOfEvent] at hm⟩

/-- After every run of the scheduler the invariant holds, for some typing of the heap, with
no call pending; every future handed out by `AddFollowUp` on a stage is typed as a stage
completion future of that stage. -/
theorem Exec_SchedulerInv_FollowUps (GPI : Bool) :
    ∀ (Events : List FEvent) (r : FRun), Exec GPI Events = some r →
      ∃ Γ, SchedulerInv GPI Γ r.Observations [] r.Scheduler ∧
        ∀ S f, (S, f) ∈ FollowUps GPI Events → ∃ c, Γ[f]? = some (.StageCompletion S c) := by
  intro Events
  induction Events using List.reverseRecOn with
  | nil =>
    intro r h
    rw [Exec_nil] at h
    cases h
    exact ⟨[], SchedulerInv_init GPI, fun S f hm => by simp [FollowUps] at hm⟩
  | append_singleton Events e ih =>
    intro r h
    rw [Exec_concat] at h
    cases hE : Exec GPI Events with
    | none => rw [hE] at h; cases h
    | some r0 =>
      rw [hE] at h
      simp only [Option.bind] at h
      obtain ⟨Γ, h0, hty0⟩ := ih r0 hE
      obtain ⟨R, h1, hty1⟩ := SchedulerInv_ApplyEvent h0 h
      refine ⟨_, h1, ?_⟩
      intro S f hm
      rw [FollowUps_concat GPI Events e r0 hE, List.mem_append] at hm
      rcases hm with hm | hm
      · obtain ⟨c, hc⟩ := hty0 S f hm
        exact ⟨c, getElem?_append_old _ _ _ _ hc⟩
      · exact hty1 S f hm

/-- After every run of the scheduler the invariant holds, for some typing of the heap, with
no call pending. -/
theorem Exec_SchedulerInv (GPI : Bool) (Events : List FEvent) (r : FRun)
    (h : Exec GPI Events = some r) :
    ∃ Γ, SchedulerInv GPI Γ r.Observations [] r.Scheduler := by
  obtain ⟨Γ, h1, _⟩ := Exec_SchedulerInv_FollowUps GPI Events r h
  exact ⟨Γ, h1⟩

end Zkz.StagedExecution

namespace Zkz.StagedExecution

/-! ## Basic facts on the promise operations and the registry -/

theorem HeldBy_of_Find_none {s : TScheduler} {X : IdType} (h : s.Find X = none) :
    s.HeldBy X = [] := by
  unfold TScheduler.HeldBy
  rw [h]

@[simp] theorem FailCheck_Result (s : TScheduler) (h : FFutureHandle) :
    s.FailCheck.Result h = s.Result h := rfl

@[simp] theorem FailCheck_CompletionCallback (s : TScheduler) (h : FFutureHandle) :
    s.FailCheck.CompletionCallback h = s.CompletionCallback h := rfl

@[simp] theorem FailCheck_Find (s : TScheduler) (X : IdType) :
    s.FailCheck.Find X = s.Find X := rfl

@[simp] theorem FailCheck_GetId (s : TScheduler) (X : IdType) :
    s.FailCheck.GetId X = s.GetId X := rfl

@[simp] theorem FailCheck_PromisesOf (s : TScheduler) (X : IdType) :
    s.FailCheck.PromisesOf X = s.PromisesOf X := rfl

@[simp] theorem FailCheck_HeldBy (s : TScheduler) (X : IdType) :
    s.FailCheck.HeldBy X = s.HeldBy X := rfl

theorem IfNotCanceled_unallocated {s : TScheduler} {h : FFutureHandle} (G : FContinuation)
    (hge : s.Futures.length ≤ h) : IfNotCanceled s h G = (s, []) := by
  unfold IfNotCanceled
  rw [List.getElem?_eq_none hge]

theorem IfNotCanceled_Stages (s : TScheduler) (f : FFutureHandle) (F : FContinuation) :
    (IfNotCanceled s f F).1.Stages = s.Stages := by
  unfold IfNotCanceled
  split
  · rfl
  · split <;> rfl

theorem GetId_of_Find {s : TScheduler} {X : IdType} {st : TStageState}
    (h : s.Find X = some st) : s.GetId X = st.GetId := by
  unfold TScheduler.GetId
  rw [h]

theorem SetValue_resolved {s : TScheduler} {h0 : FFutureHandle} {r : FCancelableResult}
    (p : FFutureHandle) (hr : s.Result h0 = some r) : SetValue s h0 p = s.FailCheck := by
  unfold SetValue
  unfold TScheduler.Result at hr
  cases hc : s.Futures[h0]? with
  | none => rw [hc] at hr; cases hr
  | some c =>
    rw [hc] at hr
    simp only at hr ⊢
    rw [hr]

theorem SetValue_unallocated {s : TScheduler} {h : FFutureHandle} (p : FFutureHandle)
    (hge : s.Futures.length ≤ h) : SetValue s h p = s := by
  unfold SetValue
  rw [List.getElem?_eq_none hge]

theorem Result_SetFuture (s : TScheduler) (h x : FFutureHandle) (c : FFutureState) :
    (s.SetFuture h c).Result x
      = if x = h ∧ h < s.Futures.length then c.Result else s.Result x := by
  by_cases hx : x = h
  · by_cases hlt : h < s.Futures.length
    · rw [if_pos ⟨hx, hlt⟩, hx]
      exact Result_SetFuture_same s h c hlt
    · rw [if_neg (fun hc => hlt hc.2)]
      unfold TScheduler.Result TScheduler.SetFuture
      simp only
      rw [List.set_eq_of_length_le (Nat.le_of_not_lt hlt)]
  · rw [if_neg (fun hc => hx hc.1)]
    exact Result_SetFuture_other s h x c hx

theorem Result_NewPromise_empty (s : TScheduler) (x : FFutureHandle) :
    (s.NewPromise {}).2.Result x = s.Result x := by
  rcases Nat.lt_trichotomy x s.Futures.length with h | h | h
  · exact Result_NewPromise_old s _ x h
  · rw [h, Result_NewPromise_new, Result_of_lt_none (Nat.le_refl _)]
  · rw [Result_of_lt_none (Nat.le_of_lt h), Result_of_lt_none]
    simp only [NewPromise_Futures, List.length_append, List.length_singleton]
    exact h

theorem EmplaceValue_unallocated {s : TScheduler} {h : FFutureHandle}
    (hge : s.Futures.length ≤ h) : EmplaceValue s h = (s, []) := by
  unfold EmplaceValue
  rw [List.getElem?_eq_none hge]

theorem Cancel_resolved {s : TScheduler} {h0 : FFutureHandle} {r : FCancelableResult}
    (hr : s.Result h0 = some r) : Cancel s h0 = (s, []) := by
  unfold Cancel
  unfold TScheduler.Result at hr
  cases hc : s.Futures[h0]? with
  | none => rfl
  | some c =>
    rw [hc] at hr
    simp only at hr ⊢
    rw [hr]

theorem Cancel_unallocated {s : TScheduler} {h : FFutureHandle}
    (hge : s.Futures.length ≤ h) : Cancel s h = (s, []) := by
  unfold Cancel
  rw [List.getElem?_eq_none hge]

theorem HeldBy_of_Find {s : TScheduler} {X : IdType} {st : TStageState}
    (h : s.Find X = some st) : s.HeldBy X = st.HeldPromises := by
  unfold TScheduler.HeldBy
  rw [h]

/-- The promises that a stage holds are typed as its task execution promises and its stage
completion promises, and are unresolved. -/
theorem Inv_HeldBy_role {GPI : Bool} {Γ : FRoles} {Log : FLog} {Calls : List FCall}
    {s : TScheduler} (hI : SchedulerInv GPI Γ Log Calls s) {Y : IdType} {h : FFutureHandle}
    (hh : h ∈ s.HeldBy Y) :
    ((∃ j, Γ[h]? = some (.TaskExecution Y j)) ∨ (∃ c, Γ[h]? = some (.StageCompletion Y c))) ∧
      s.Result h = none := by
  cases hF : s.Find Y with
  | none =>
    rw [HeldBy_of_Find_none hF] at hh
    cases hh
  | some st =>
    have hOK := hI.stages Y st hF
    have hId := GetStageId_of_Find hF
    rw [HeldBy_of_Find hF] at hh
    have hPend : ∀ (P : TStageState_Pending), P.StageId = Y →
        PendingTasksOK Γ Log s P.StageId P.Tasks →
        PromisesOK Γ s P.StageId P.StageCompletionPromises →
        h ∈ P.Tasks.map (fun t => t.ExecutionPromise) ++ P.StageCompletionPromises →
        ((∃ j, Γ[h]? = some (.TaskExecution Y j)) ∨
          (∃ c, Γ[h]? = some (.StageCompletion Y c))) ∧ s.Result h = none := by
      intro P hP hT hPs hm
      rw [hP] at hT hPs
      rcases List.mem_append.mp hm with h1 | h1
      · obtain ⟨t, ht, hte⟩ := List.mem_map.mp h1
        obtain ⟨j, hj⟩ := List.getElem?_of_mem ht
        have := hT.2 j t hj
        rw [hte] at this
        exact ⟨Or.inl ⟨j, this.1⟩, this.2⟩
      · have := hPs h h1
        exact ⟨Or.inr this.1, this.2⟩
    cases st with
    | Undefined P => exact hPend P hId hOK.2.2.1 hOK.2.2.2 hh
    | Defined P F' => exact hPend P hId hOK.2.2.2.1 hOK.2.2.2.2 hh
    | Executing Z b Ts Ps =>
      have hZ : Z = Y := hId
      subst hZ
      have := hOK.2.2.2.1 h hh
      exact ⟨Or.inr this.1, this.2⟩
    | Completed Z => cases hh

theorem EmplaceValue_Stages (s : TScheduler) (f : FFutureHandle) :
    (EmplaceValue s f).1.Stages = s.Stages := by
  unfold EmplaceValue
  split
  · rfl
  · split <;> rfl

theorem Cancel_Stages (s : TScheduler) (f : FFutureHandle) :
    (Cancel s f).1.Stages = s.Stages := by
  unfold Cancel
  split
  · rfl
  · split <;> rfl

/-- The calls below the head are the rest of running loops. -/
theorem CallsOK_TailOK_rest {Γ : FRoles} {Log : FLog} {s : TScheduler} {c : FCall}
    {Rest : List FCall} (h : CallsOK Γ Log s (c :: Rest)) : TailOK Γ Rest := by
  obtain ⟨_, h2⟩ := h
  cases c with
  | EmplaceValue x =>
    rcases h2 with ⟨h3, _⟩ | h3
    · rw [h3]; trivial
    · exact h3.2
  | Cancel x => rw [h2.1]; trivial
  | Transition_Completed p => exact h2.2.2
  | Invoke F =>
    cases F with
    | StartExecutingWhenPrerequisitesComplete X => exact h2.1
    | CompleteWhenTasksFinished X => exact h2.1
    | PostNotifyCompletion T f => rw [h2.1]; trivial

end Zkz.StagedExecution

namespace Zkz.StagedExecution

/-! ## What a pending call changes -/

theorem IfNotCanceled_Result (s : TScheduler) (f : FFutureHandle) (G : FContinuation)
    (h : FFutureHandle) : (IfNotCanceled s f G).1.Result h = s.Result h := by
  by_cases hlt : f < s.Futures.length
  · cases hr : s.Result f with
    | none =>
      rw [IfNotCanceled_pending G hlt hr]
      exact Register_Result s f G hr h
    | some r =>
      cases r with
      | Value v => rw [IfNotCanceled_Value G hr]
      | Canceled => rw [IfNotCanceled_Canceled G hr]
  · rw [IfNotCanceled_unallocated G (Nat.le_of_not_lt hlt)]

theorem IfNotCanceled_length (s : TScheduler) (f : FFutureHandle) (G : FContinuation) :
    (IfNotCanceled s f G).1.Futures.length = s.Futures.length := by
  by_cases hlt : f < s.Futures.length
  · cases hr : s.Result f with
    | none =>
      rw [IfNotCanceled_pending G hlt hr]
      simp
    | some r =>
      cases r with
      | Value v => rw [IfNotCanceled_Value G hr]
      | Canceled => rw [IfNotCanceled_Canceled G hr]
  · rw [IfNotCanceled_unallocated G (Nat.le_of_not_lt hlt)]

theorem IfNotCanceled_calls {s : TScheduler} {f : FFutureHandle} {G : FContinuation}
    {c : FCall} (hc : c ∈ (IfNotCanceled s f G).2) : c = .Invoke G ∨ c ∈ DestroyContinuation G := by
  by_cases hlt : f < s.Futures.length
  · cases hr : s.Result f with
    | none =>
      rw [IfNotCanceled_pending G hlt hr] at hc
      cases hc
    | some r =>
      cases r with
      | Value v =>
        rw [IfNotCanceled_Value G hr] at hc
        exact Or.inl (List.mem_singleton.mp hc)
      | Canceled =>
        rw [IfNotCanceled_Canceled G hr] at hc
        exact Or.inr hc
  · rw [IfNotCanceled_unallocated G (Nat.le_of_not_lt hlt)] at hc
    cases hc

theorem IfNotCanceled_Find (s : TScheduler) (f : FFutureHandle) (G : FContinuation)
    (Y : IdType) : (IfNotCanceled s f G).1.Find Y = s.Find Y :=
  Find_of_Stages (IfNotCanceled_Stages s f G) Y

/-! ### `CompleteWhenTasksFinished` -/

theorem CW_Result (s : TScheduler) (Y : IdType) (h : FFutureHandle) :
    (CompleteWhenTasksFinished s Y).1.Result h = s.Result h := by
  unfold CompleteWhenTasksFinished
  split
  · split
    · split
      · rfl
      · rfl
    · rw [IfNotCanceled_Result]
      rfl
  · rfl

theorem CW_length (s : TScheduler) (Y : IdType) :
    (CompleteWhenTasksFinished s Y).1.Futures.length = s.Futures.length := by
  unfold CompleteWhenTasksFinished
  split
  · split
    · split
      · rfl
      · rfl
    · rw [IfNotCanceled_length]
      rfl
  · rfl

theorem CW_Find_other (s : TScheduler) {Y Z : IdType} (hZ : Z ≠ Y) :
    (CompleteWhenTasksFinished s Y).1.Find Z = s.Find Z := by
  unfold CompleteWhenTasksFinished
  split
  · rename_i Id b Ts Ps hF
    have hId : Id = Y := GetStageId_of_find hF
    subst hId
    split
    · split
      · exact Find_Assign_other s Id Z _ rfl hZ
      · rfl
    · rw [IfNotCanceled_Find]
      exact Find_Assign_other s Id Z (.Executing Id b Ts.dropLast Ps) rfl hZ
  · rfl

theorem CW_GetId (s : TScheduler) (Y Z : IdType) :
    (CompleteWhenTasksFinished s Y).1.GetId Z = s.GetId Z := by
  by_cases hZ : Z = Y
  · subst hZ
    unfold CompleteWhenTasksFinished
    split
    · rename_i Id b Ts Ps hF
      have hId : Id = Z := GetStageId_of_find hF
      subst hId
      rw [GetId_of_Find hF]
      split
      · split
        · have h1 : (TransitionToStageState_Completed s Id b Ps).1.Find Id
              = some (.Executing Id b [] []) :=
            Find_Assign_same s Id (.Executing Id b [] []) _ rfl hF
          rw [GetId_of_Find h1]
          rfl
        · exact GetId_of_Find hF
      · rename_i Task hT
        have h1 : (IfNotCanceled (s.Assign Id (.Executing Id b Ts.dropLast Ps))
            Task.FutureCompletion (.CompleteWhenTasksFinished Id)).1.Find Id
            = some (.Executing Id b Ts.dropLast Ps) := by
          rw [IfNotCanceled_Find]
          exact Find_Assign_same s Id _ _ rfl hF
        rw [GetId_of_Find h1]
        rfl
    · rfl
  · unfold TScheduler.GetId
    rw [CW_Find_other s hZ]

theorem CW_calls {s : TScheduler} {Y : IdType} {c : FCall}
    (hc : c ∈ (CompleteWhenTasksFinished s Y).2) :
    c = .Invoke (.CompleteWhenTasksFinished Y) ∨ c = .Transition_Completed Y ∨
      ∃ h, h ∈ s.PromisesOf Y ∧ c = .EmplaceValue h := by
  unfold CompleteWhenTasksFinished at hc
  split at hc
  · rename_i Id b Ts Ps hF
    have hId : Id = Y := GetStageId_of_find hF
    subst hId
    split at hc
    · split at hc
      · unfold TransitionToStageState_Completed at hc
        rcases List.mem_append.mp hc with h1 | h1
        · obtain ⟨p, hp, hpc⟩ := List.mem_map.mp h1
          refine Or.inr (Or.inr ⟨p, ?_, hpc.symm⟩)
          rw [PromisesOf_of_Find hF]
          exact hp
        · exact Or.inr (Or.inl (List.mem_singleton.mp h1))
      · cases hc
    · rcases IfNotCanceled_calls hc with h1 | h1
      · exact Or.inl h1
      · cases h1
  · cases hc

/-! ### `ExecuteAllTasks` -/

theorem SetValue_Result_other (s : TScheduler) (he hc h : FFutureHandle) (hh : h ≠ he) :
    (SetValue s he hc).Result h = s.Result h := by
  by_cases hlt : he < s.Futures.length
  · cases hr : s.Result he with
    | some r => rw [SetValue_resolved hc hr, FailCheck_Result]
    | none =>
      rw [SetValue_pending hc hlt hr]
      exact Result_SetFuture_other s he h _ hh
  · rw [SetValue_unallocated hc (Nat.le_of_not_lt hlt)]

theorem SetValue_Result_same (s : TScheduler) (he hc : FFutureHandle) :
    (SetValue s he hc).Result he = s.Result he ∨
      (s.Result he = none ∧ (SetValue s he hc).Result he = some (.Value (some hc))) := by
  by_cases hlt : he < s.Futures.length
  · cases hr : s.Result he with
    | some r =>
      rw [SetValue_resolved hc hr]
      exact Or.inl ((FailCheck_Result s he).trans hr)
    | none =>
      rw [SetValue_pending hc hlt hr]
      exact Or.inr ⟨rfl, Result_SetFuture_same s he _ hlt⟩
  · rw [SetValue_unallocated hc (Nat.le_of_not_lt hlt)]
    exact Or.inl rfl

theorem SetValue_length (s : TScheduler) (he hc : FFutureHandle) :
    (SetValue s he hc).Futures.length = s.Futures.length := by
  by_cases hlt : he < s.Futures.length
  · cases hr : s.Result he with
    | some r => rw [SetValue_resolved hc hr, FailCheck_Futures]
    | none =>
      rw [SetValue_pending hc hlt hr]
      simp
  · rw [SetValue_unallocated hc (Nat.le_of_not_lt hlt)]

end Zkz.StagedExecution

namespace Zkz.StagedExecution

/-! ### `ExecuteAllTasks` -/

/-- The state in which `ExecuteAllTasks` fulfils the execution promise of a task, after it
has created the shared states of the task: no result has changed. -/
theorem ExecuteAllTasks_prepared_Result (s : TScheduler) (T : IdType) (x : FFutureHandle) :
    (((s.NewPromise {}).2.NewPromise {}).2.SetFuture s.Futures.length
      { CompletionCallback := some (.PostNotifyCompletion T (s.Futures.length + 1)) }).Result x
      = s.Result x := by
  rw [Result_SetFuture]
  by_cases hc : x = s.Futures.length ∧
      s.Futures.length < ((s.NewPromise {}).2.NewPromise {}).2.Futures.length
  · rw [if_pos hc, hc.1, Result_of_lt_none (Nat.le_refl _)]
  · rw [if_neg hc, Result_NewPromise_empty, Result_NewPromise_empty]

theorem ExecuteAllTasks_footprint (b : Bool) (n : Nat) :
    ∀ (Tasks : List FPendingTaskEntry) (s : TScheduler),
      (∀ t, t ∈ Tasks → t.ExecutionPromise < n) → n ≤ s.Futures.length →
      s.Futures.length ≤ (ExecuteAllTasks b Tasks s).2.Futures.length ∧
      (∀ h r, s.Result h = some r → (ExecuteAllTasks b Tasks s).2.Result h = some r) ∧
      (∀ h, (ExecuteAllTasks b Tasks s).2.Result h ≠ s.Result h →
        h ∈ Tasks.map (fun t => t.ExecutionPromise)) ∧
      (∀ h, n ≤ h → s.Result h = none → (ExecuteAllTasks b Tasks s).2.Result h = none) ∧
      (∀ he hc, (ExecuteAllTasks b Tasks s).2.Result he = some (.Value (some hc)) →
        s.Result he = some (.Value (some hc)) ∨ n ≤ hc) := by
  intro Tasks
  induction Tasks with
  | nil =>
    intro s _ _
    exact ⟨Nat.le_refl _, fun _ _ h => h, fun h hc => absurd rfl hc, fun _ _ h => h,
      fun _ _ h => Or.inl h⟩
  | cons t R ih =>
    intro s hT hn
    -- the state before the execution promise of `t` is fulfilled
    have key : ∀ (X : TScheduler), (∀ x, X.Result x = s.Result x) →
        s.Futures.length ≤ X.Futures.length →
        s.Futures.length ≤
            (ExecuteAllTasks b R (SetValue X t.ExecutionPromise s.Futures.length)).2.Futures.length ∧
        (∀ h r, s.Result h = some r →
          (ExecuteAllTasks b R (SetValue X t.ExecutionPromise s.Futures.length)).2.Result h
            = some r) ∧
        (∀ h, (ExecuteAllTasks b R (SetValue X t.ExecutionPromise s.Futures.length)).2.Result h
            ≠ s.Result h → h ∈ (t :: R).map (fun t => t.ExecutionPromise)) ∧
        (∀ h, n ≤ h → s.Result h = none →
          (ExecuteAllTasks b R (SetValue X t.ExecutionPromise s.Futures.length)).2.Result h
            = none) ∧
        (∀ he hc,
          (ExecuteAllTasks b R (SetValue X t.ExecutionPromise s.Futures.length)).2.Result he
            = some (.Value (some hc)) →
          s.Result he = some (.Value (some hc)) ∨ n ≤ hc) := by
      intro X hX hlen
      have hA : ∀ h, h ≠ t.ExecutionPromise →
          (SetValue X t.ExecutionPromise s.Futures.length).Result h = s.Result h := by
        intro h hh
        rw [SetValue_Result_other X _ _ h hh, hX]
      have hB := SetValue_Result_same X t.ExecutionPromise s.Futures.length
      rw [hX] at hB
      have hlen3 : s.Futures.length
          ≤ (SetValue X t.ExecutionPromise s.Futures.length).Futures.length := by
        rw [SetValue_length]
        exact hlen
      obtain ⟨i1, i2, i3, i4, i5⟩ := ih (SetValue X t.ExecutionPromise s.Futures.length)
        (fun t' ht' => hT t' (List.mem_cons_of_mem _ ht')) (Nat.le_trans hn hlen3)
      have hEP : t.ExecutionPromise < n := hT t (List.mem_cons_self _ _)
      refine ⟨Nat.le_trans hlen3 i1, ?_, ?_, ?_, ?_⟩
      · intro h r hr
        apply i2
        by_cases hh : h = t.ExecutionPromise
        · subst hh
          rcases hB with h1 | ⟨h1, _⟩
          · rw [h1]
            exact hr
          · rw [h1] at hr
            cases hr
        · rw [hA h hh]
          exact hr
      · intro h hh
        by_cases h3 : (ExecuteAllTasks b R
            (SetValue X t.ExecutionPromise s.Futures.length)).2.Result h
            = (SetValue X t.ExecutionPromise s.Futures.length).Result h
        · by_cases hh' : h = t.ExecutionPromise
          · rw [hh']
            exact List.mem_cons_self _ _
          · rw [h3, hA h hh'] at hh
            exact absurd rfl hh
        · exact List.mem_cons_of_mem _ (i3 h h3)
      · intro h hh hnone
        apply i4 h hh
        have hne : h ≠ t.ExecutionPromise := by
          intro hc
          rw [hc] at hh
          exact Nat.lt_irrefl _ (Nat.lt_of_lt_of_le hEP hh)
        rw [hA h hne]
        exact hnone
      · intro he hc hp
        rcases i5 he hc hp with h1 | h1
        · by_cases hh : he = t.ExecutionPromise
          · subst hh
            rcases hB with h2 | ⟨_, h2⟩
            · rw [h2] at h1
              exact Or.inl h1
            · rw [h2] at h1
              have : s.Futures.length = hc := by
                injection h1 with h1
                injection h1 with h1
                injection h1
              rw [← this]
              exact Or.inr hn
          · rw [hA he hh] at h1
            exact Or.inl h1
        · exact Or.inr h1
    cases b with
    | false =>
      rw [ExecuteAllTasks_cons_false]
      exact key _ (Result_NewPromise_empty s) (by simp)
    | true =>
      rw [ExecuteAllTasks_cons_true]
      exact key _ (ExecuteAllTasks_prepared_Result s t.Id) (by simp)

/-! ### The footprint of one pending call -/

/-- A call that leaves the results alone and creates no shared state. -/
theorem IsStepFootprint_of_Result {s s' : TScheduler} {c : FCall} {Calls' : List FCall}
    (hlen : s'.Futures.length = s.Futures.length) (hR : ∀ h, s'.Result h = s.Result h)
    (hS : ∀ Y, c.Stage ≠ some Y → s'.Find Y = s.Find Y)
    (hC : ∀ Y, s'.GetId Y = .Completed → s.GetId Y = .Completed ∨ c = .Transition_Completed Y)
    (hT : ∀ Y, FCall.Transition_Completed Y ∈ Calls' →
      c = .Invoke (.CompleteWhenTasksFinished Y) ∨
        (c = .Invoke (.StartExecutingWhenPrerequisitesComplete Y) ∧
          ∃ Pending, s.Find Y = some (.Defined Pending [])))
    (hE : ∀ h, FCall.EmplaceValue h ∈ Calls' → ∃ Y, h ∈ s.PromisesOf Y)
    (hX : ∀ h, FCall.Cancel h ∈ Calls' →
      ∃ Cell T, s.CompletionCallback Cell = some (.PostNotifyCompletion T h)) :
    IsStepFootprint s s' c Calls' := by
  refine ⟨Nat.le_of_eq hlen.symm, ?_, ?_, ?_, ?_, hS, hC, hT, hE, hX⟩
  · intro h r hr
    rw [hR]
    exact hr
  · intro h hh
    exact absurd (hR h) hh
  · intro h hh
    rw [hR]
    exact Result_of_lt_none hh
  · intro he hc hp
    rw [hR] at hp
    exact Or.inl hp

/-- A call that resolves its target and nothing else. -/
theorem IsStepFootprint_resolve {s : TScheduler} {c : FCall} {Calls' : List FCall}
    {p : FFutureHandle} {r : FCancelableResult} (hlt : p < s.Futures.length)
    (hp : s.Result p = none) (hr : ∀ hc, r ≠ .Value (some hc)) (hc : c.Target = some p)
    (hT : ∀ Y, FCall.Transition_Completed Y ∉ Calls')
    (hE : ∀ h, FCall.EmplaceValue h ∉ Calls')
    (hX : ∀ h, FCall.Cancel h ∈ Calls' →
      ∃ Cell T, s.CompletionCallback Cell = some (.PostNotifyCompletion T h)) :
    IsStepFootprint s (s.SetFuture p { Result := some r }) c Calls' := by
  refine ⟨by simp, ?_, ?_, ?_, ?_, fun _ _ => rfl, fun Y hY => Or.inl hY,
    fun Y hY => absurd hY (hT Y), fun h hh => absurd hh (hE h), hX⟩
  · intro h r0 hr0
    have hne : h ≠ p := by
      intro hh
      rw [hh, hp] at hr0
      cases hr0
    rw [Result_SetFuture_other s p h _ hne]
    exact hr0
  · intro h hh
    left
    by_cases hne : h = p
    · rw [hne]
      exact hc
    · exact absurd (Result_SetFuture_other s p h _ hne) hh
  · intro h hh
    have hne : h ≠ p := fun hc' => Nat.lt_irrefl _ (Nat.lt_of_lt_of_le (hc' ▸ hlt) hh)
    rw [Result_SetFuture_other s p h _ hne]
    exact Result_of_lt_none hh
  · intro he hc' hpay
    by_cases hne : he = p
    · rw [hne, Result_SetFuture_same s p _ hlt] at hpay
      exact absurd (Option.some.inj hpay) (hr hc')
    · rw [Result_SetFuture_other s p he _ hne] at hpay
      exact Or.inl hpay

/-- A call that does nothing. -/
theorem IsStepFootprint_nothing (s : TScheduler) (c : FCall) : IsStepFootprint s s c [] :=
  IsStepFootprint_of_Result rfl (fun _ => rfl) (fun _ _ => rfl) (fun _ h => Or.inl h)
    (fun _ h => by cases h) (fun _ h => by cases h) (fun _ h => by cases h)

/-- A call that fails the `check` of the engine. -/
theorem IsStepFootprint_FailCheck (s : TScheduler) (c : FCall) :
    IsStepFootprint s s.FailCheck c [] :=
  IsStepFootprint_of_Result rfl (fun _ => rfl) (fun _ _ => rfl) (fun _ h => Or.inl h)
    (fun _ h => by cases h) (fun _ h => by cases h) (fun _ h => by cases h)

/-- `EmplaceValue` as the body of a call with target `p`. -/
theorem IsStepFootprint_EmplaceValue (s : TScheduler) (c : FCall) (p : FFutureHandle)
    (hc : c.Target = some p) :
    IsStepFootprint s (EmplaceValue s p).1 c (EmplaceValue s p).2 := by
  by_cases hlt : p < s.Futures.length
  · cases hr : s.Result p with
    | some r =>
      rw [EmplaceValue_resolved hr]
      exact IsStepFootprint_FailCheck s c
    | none =>
      rw [EmplaceValue_pending hlt hr]
      refine IsStepFootprint_resolve hlt hr (fun _ h => by cases h) hc ?_ ?_ ?_
      · intro Y hY
        cases hcb : s.CompletionCallback p with
        | none => rw [hcb] at hY; cases hY
        | some G =>
          rw [hcb] at hY
          simp at hY
      · intro h hh
        cases hcb : s.CompletionCallback p with
        | none => rw [hcb] at hh; cases hh
        | some G =>
          rw [hcb] at hh
          simp at hh
      · intro h hh
        cases hcb : s.CompletionCallback p with
        | none => rw [hcb] at hh; cases hh
        | some G =>
          rw [hcb] at hh
          simp at hh
  · rw [EmplaceValue_unallocated (Nat.le_of_not_lt hlt)]
    exact IsStepFootprint_nothing s c

/-- `Cancel` as the body of a call with target `p`. -/
theorem IsStepFootprint_Cancel (s : TScheduler) (p : FFutureHandle) :
    IsStepFootprint s (Cancel s p).1 (.Cancel p) (Cancel s p).2 := by
  by_cases hlt : p < s.Futures.length
  · cases hr : s.Result p with
    | some r =>
      rw [Cancel_resolved hr]
      exact IsStepFootprint_nothing s _
    | none =>
      rw [Cancel_pending hlt hr]
      have hD : ∀ c', c' ∈ (match s.CompletionCallback p with
          | some F => DestroyContinuation F
          | none => []) → ∃ T h, c' = .Cancel h ∧
            s.CompletionCallback p = some (.PostNotifyCompletion T h) := by
        intro c' hc'
        cases hcb : s.CompletionCallback p with
        | none => rw [hcb] at hc'; cases hc'
        | some G =>
          rw [hcb] at hc'
          cases G with
          | StartExecutingWhenPrerequisitesComplete Y => cases hc'
          | CompleteWhenTasksFinished Y => cases hc'
          | PostNotifyCompletion T h =>
            exact ⟨T, h, List.mem_singleton.mp hc', rfl⟩
      refine IsStepFootprint_resolve hlt hr (fun _ h => by cases h) rfl ?_ ?_ ?_
      · intro Y hY
        obtain ⟨T, h, h1, _⟩ := hD _ hY
        cases h1
      · intro h hh
        obtain ⟨T, h', h1, _⟩ := hD _ hh
        cases h1
      · intro h hh
        obtain ⟨T, h', h1, h2⟩ := hD _ hh
        cases h1
        exact ⟨p, T, h2⟩
  · rw [Cancel_unallocated (Nat.le_of_not_lt hlt)]
    exact IsStepFootprint_nothing s _

/-- The drain. -/
theorem IsStepFootprint_CW (s : TScheduler) (Y : IdType) :
    IsStepFootprint s (CompleteWhenTasksFinished s Y).1 (.Invoke (.CompleteWhenTasksFinished Y))
      (CompleteWhenTasksFinished s Y).2 := by
  refine IsStepFootprint_of_Result (CW_length s Y) (CW_Result s Y) ?_ ?_ ?_ ?_ ?_
  · intro Z hZ
    exact CW_Find_other s (fun hc => hZ (by rw [hc]; rfl))
  · intro Z hZ
    rw [CW_GetId] at hZ
    exact Or.inl hZ
  · intro Z hZ
    rcases CW_calls hZ with h1 | h1 | ⟨h, _, h1⟩
    · cases h1
    · cases h1
      exact Or.inl rfl
    · cases h1
  · intro h hh
    rcases CW_calls hh with h1 | h1 | ⟨h', hp, h1⟩
    · cases h1
    · cases h1
    · cases h1
      exact ⟨Y, hp⟩
  · intro h hh
    rcases CW_calls hh with h1 | h1 | ⟨h', hp, h1⟩
    · cases h1
    · cases h1
    · cases h1

/-- The closing transition. -/
theorem IsStepFootprint_Transition_Completed (s : TScheduler) (Y : IdType) :
    IsStepFootprint s (s.Transition Y (.Completed Y)) (.Transition_Completed Y) [] := by
  refine IsStepFootprint_of_Result (by simp) (fun h => by simp) ?_ ?_
    (fun _ h => by cases h) (fun _ h => by cases h) (fun _ h => by cases h)
  · intro Z hZ
    exact Find_Transition_other s Y Z (.Completed Y) rfl (fun hc => hZ (by rw [hc]; rfl))
  · intro Z hZ
    by_cases hZY : Z = Y
    · rw [hZY]
      exact Or.inr rfl
    · unfold TScheduler.GetId at hZ ⊢
      rw [Find_Transition_other s Y Z (.Completed Y) rfl hZY] at hZ
      exact Or.inl hZ

end Zkz.StagedExecution

namespace Zkz.StagedExecution

/-! ### The chain of a defined stage -/

theorem PromisesOf_Transition_same (s : TScheduler) (Y : IdType) (st : TStageState)
    (hst : st.GetStageId = Y) : (s.Transition Y st).PromisesOf Y = st.Promises :=
  PromisesOf_of_Find (Find_Transition_same s Y st hst)

/-- `TransitionToStageState_Executing`, called by the chain when no prerequisite future is
left. -/
theorem IsStepFootprint_TTSE (GPI : Bool) (s : TScheduler) (P : TStageState_Pending)
    (hF : s.Find P.StageId = some (.Defined P []))
    (hEP : ∀ t, t ∈ P.Tasks → t.ExecutionPromise < s.Futures.length) :
    IsStepFootprint s (TransitionToStageState_Executing GPI s P).1
      (.Invoke (.StartExecutingWhenPrerequisitesComplete P.StageId))
      (TransitionToStageState_Executing GPI s P).2 := by
  obtain ⟨e1, e2, e3, e4, e5⟩ :=
    ExecuteAllTasks_footprint GPI s.Futures.length P.Tasks s hEP (Nat.le_refl _)
  -- the state after the transition, before the drain is started
  have hR2 : ∀ h, ((ExecuteAllTasks GPI P.Tasks s).2.Transition P.StageId
      (.Executing P.StageId P.bAllTasksCollected (ExecuteAllTasks GPI P.Tasks s).1
        P.StageCompletionPromises)).Result h = (ExecuteAllTasks GPI P.Tasks s).2.Result h :=
    fun h => Transition_Result _ _ _ h
  have hFind2 : ∀ Z, Z ≠ P.StageId →
      ((ExecuteAllTasks GPI P.Tasks s).2.Transition P.StageId
        (.Executing P.StageId P.bAllTasksCollected (ExecuteAllTasks GPI P.Tasks s).1
          P.StageCompletionPromises)).Find Z = s.Find Z := by
    intro Z hZ
    rw [Find_Transition_other (ExecuteAllTasks GPI P.Tasks s).2 P.StageId Z
      (.Executing P.StageId P.bAllTasksCollected (ExecuteAllTasks GPI P.Tasks s).1
        P.StageCompletionPromises) rfl hZ, Find_ExecuteAllTasks]
  have hFindX : ((ExecuteAllTasks GPI P.Tasks s).2.Transition P.StageId
      (.Executing P.StageId P.bAllTasksCollected (ExecuteAllTasks GPI P.Tasks s).1
        P.StageCompletionPromises)).Find P.StageId
      = some (.Executing P.StageId P.bAllTasksCollected (ExecuteAllTasks GPI P.Tasks s).1
        P.StageCompletionPromises) :=
    Find_Transition_same (ExecuteAllTasks GPI P.Tasks s).2 P.StageId
      (.Executing P.StageId P.bAllTasksCollected (ExecuteAllTasks GPI P.Tasks s).1
        P.StageCompletionPromises) rfl
  have hlen2 : ((ExecuteAllTasks GPI P.Tasks s).2.Transition P.StageId
      (.Executing P.StageId P.bAllTasksCollected (ExecuteAllTasks GPI P.Tasks s).1
        P.StageCompletionPromises)).Futures.length
      = (ExecuteAllTasks GPI P.Tasks s).2.Futures.length := by simp
  have hHeld : ∀ h, h ∈ P.Tasks.map (fun t => t.ExecutionPromise) → h ∈ s.HeldBy P.StageId := by
    intro h hh
    rw [HeldBy_of_Find hF]
    exact List.mem_append_left _ hh
  -- the state and the calls of the whole transition
  have main : ∀ (s' : TScheduler) (Calls' : List FCall),
      (s'.Futures.length = (ExecuteAllTasks GPI P.Tasks s).2.Futures.length) →
      (∀ h, s'.Result h = (ExecuteAllTasks GPI P.Tasks s).2.Result h) →
      (∀ Z, Z ≠ P.StageId → s'.Find Z = s.Find Z) →
      s'.GetId P.StageId = .Executing →
      (∀ c, c ∈ Calls' → c = .Invoke (.CompleteWhenTasksFinished P.StageId) ∨
        c = .Transition_Completed P.StageId ∨
        ∃ h, h ∈ P.StageCompletionPromises ∧ c = .EmplaceValue h) →
      IsStepFootprint s s' (.Invoke (.StartExecutingWhenPrerequisitesComplete P.StageId))
        Calls' := by
    intro s' Calls' hlen hR hFind hG hCalls
    refine ⟨by rw [hlen]; exact e1, ?_, ?_, ?_, ?_, ?_, ?_, ?_, ?_, ?_⟩
    · intro h r hr
      rw [hR]
      exact e2 h r hr
    · intro h hh
      rw [hR] at hh
      exact Or.inr ⟨P.StageId, rfl, hHeld h (e3 h hh)⟩
    · intro h hh
      rw [hR]
      exact e4 h hh (Result_of_lt_none hh)
    · intro he hc hp
      rw [hR] at hp
      exact e5 he hc hp
    · intro Z hZ
      exact hFind Z (fun hc => hZ (by rw [hc]; rfl))
    · intro Z hZ
      by_cases hZX : Z = P.StageId
      · rw [hZX, hG] at hZ
        cases hZ
      · unfold TScheduler.GetId at hZ ⊢
        rw [hFind Z hZX] at hZ
        exact Or.inl hZ
    · intro Z hZ
      rcases hCalls _ hZ with h1 | h1 | ⟨h, _, h1⟩
      · cases h1
      · cases h1
        exact Or.inr ⟨rfl, P, hF⟩
      · cases h1
    · intro h hh
      rcases hCalls _ hh with h1 | h1 | ⟨h', hp, h1⟩
      · cases h1
      · cases h1
      · cases h1
        refine ⟨P.StageId, ?_⟩
        rw [PromisesOf_of_Find hF]
        exact hp
    · intro h hh
      rcases hCalls _ hh with h1 | h1 | ⟨h', hp, h1⟩
      · cases h1
      · cases h1
      · cases h1
  unfold TransitionToStageState_Executing
  simp only
  split
  · refine main _ _ ?_ ?_ ?_ ?_ ?_
    · rw [CW_length, hlen2]
    · intro h
      rw [CW_Result, hR2]
    · intro Z hZ
      rw [CW_Find_other _ hZ]
      exact hFind2 Z hZ
    · rw [CW_GetId]
      exact GetId_of_Find hFindX
    · intro c hc
      rcases CW_calls hc with h1 | h1 | ⟨h, hp, h1⟩
      · exact Or.inl h1
      · exact Or.inr (Or.inl h1)
      · refine Or.inr (Or.inr ⟨h, ?_, h1⟩)
        rw [PromisesOf_of_Find hFindX] at hp
        exact hp
  · exact main _ _ hlen2 hR2 hFind2 (GetId_of_Find hFindX) (fun c hc => by cases hc)

/-- `StartExecutingWhenPrerequisitesComplete`. -/
theorem IsStepFootprint_SE (GPI : Bool) (s : TScheduler) (Y : IdType)
    (hEP : ∀ P F, s.Find Y = some (.Defined P F) →
      ∀ t, t ∈ P.Tasks → t.ExecutionPromise < s.Futures.length) :
    IsStepFootprint s (StartExecutingWhenPrerequisitesComplete GPI s Y).1
      (.Invoke (.StartExecutingWhenPrerequisitesComplete Y))
      (StartExecutingWhenPrerequisitesComplete GPI s Y).2 := by
  unfold StartExecutingWhenPrerequisitesComplete
  split
  · rename_i P F hF
    have hId : P.StageId = Y := GetStageId_of_find hF
    subst hId
    split
    · rename_i hT
      have hnil : F = [] := by
        rcases List.eq_nil_or_concat F with h | ⟨l, a, h⟩
        · exact h
        · subst h; simp at hT
      subst hnil
      exact IsStepFootprint_TTSE GPI s P hF (hEP P [] hF)
    · rename_i Future hT
      have hFindX : (IfNotCanceled (s.Assign P.StageId (.Defined P F.dropLast)) Future
          (.StartExecutingWhenPrerequisitesComplete P.StageId)).1.Find P.StageId
          = some (.Defined P F.dropLast) := by
        rw [IfNotCanceled_Find]
        exact Find_Assign_same s P.StageId _ _ rfl hF
      refine IsStepFootprint_of_Result ?_ ?_ ?_ ?_ ?_ ?_ ?_
      · rw [IfNotCanceled_length]
        rfl
      · intro h
        rw [IfNotCanceled_Result]
        rfl
      · intro Z hZ
        rw [IfNotCanceled_Find]
        exact Find_Assign_other s P.StageId Z (.Defined P F.dropLast) rfl
          (fun hc => hZ (by rw [hc]; rfl))
      · intro Z hZ
        by_cases hZX : Z = P.StageId
        · rw [hZX, GetId_of_Find hFindX] at hZ
          cases hZ
        · unfold TScheduler.GetId at hZ ⊢
          rw [IfNotCanceled_Find,
            Find_Assign_other s P.StageId Z (.Defined P F.dropLast) rfl hZX] at hZ
          exact Or.inl hZ
      · intro Z hZ
        rcases IfNotCanceled_calls hZ with h1 | h1
        · cases h1
        · cases h1
      · intro h hh
        rcases IfNotCanceled_calls hh with h1 | h1
        · cases h1
        · cases h1
      · intro h hh
        rcases IfNotCanceled_calls hh with h1 | h1
        · cases h1
        · cases h1
  · exact IsStepFootprint_nothing s _

/-- Every pending call has the footprint. -/
theorem StepCall_IsStepFootprint (GPI : Bool) (s : TScheduler) (c : FCall)
    (hEP : ∀ Y P F, s.Find Y = some (.Defined P F) →
      ∀ t, t ∈ P.Tasks → t.ExecutionPromise < s.Futures.length) :
    IsStepFootprint s (StepCall GPI s c).1 c (StepCall GPI s c).2 := by
  cases c with
  | EmplaceValue p => exact IsStepFootprint_EmplaceValue s _ p rfl
  | Cancel p => exact IsStepFootprint_Cancel s p
  | Invoke G =>
    cases G with
    | StartExecutingWhenPrerequisitesComplete Y => exact IsStepFootprint_SE GPI s Y (hEP Y)
    | CompleteWhenTasksFinished Y => exact IsStepFootprint_CW s Y
    | PostNotifyCompletion T p => exact IsStepFootprint_EmplaceValue s _ p rfl
  | Transition_Completed Y => exact IsStepFootprint_Transition_Completed s Y

/-- In a configuration of the scheduler every pending call has the footprint. -/
theorem Inv_IsStepFootprint {GPI : Bool} {Γ : FRoles} {Log : FLog} {Calls : List FCall}
    {s : TScheduler} (hI : SchedulerInv GPI Γ Log Calls s) (c : FCall) :
    IsStepFootprint s (StepCall GPI s c).1 c (StepCall GPI s c).2 := by
  refine StepCall_IsStepFootprint GPI s c ?_
  intro Y P F hF t ht
  have hh : t.ExecutionPromise ∈ s.HeldBy Y := by
    rw [HeldBy_of_Find hF]
    exact List.mem_append_left _ (List.mem_map_of_mem _ ht)
  rcases (Inv_HeldBy_role hI hh).1 with ⟨j, hj⟩ | ⟨c', hc'⟩
  · exact lt_of_role hI hj
  · exact lt_of_role hI hc'

end Zkz.StagedExecution

namespace Zkz.StagedExecution

/-! ## The `check` of the engine

Only `EmplaceValue` and `SetValue` on a promise that is set already fail the `check`. -/

@[simp] theorem SetFuture_bCheckFailed (s : TScheduler) (h : FFutureHandle) (c : FFutureState) :
    (s.SetFuture h c).bCheckFailed = s.bCheckFailed := rfl

@[simp] theorem NewPromise_bCheckFailed (s : TScheduler) (c : FFutureState) :
    (s.NewPromise c).2.bCheckFailed = s.bCheckFailed := rfl

@[simp] theorem Assign_bCheckFailed (s : TScheduler) (X : IdType) (st : TStageState) :
    (s.Assign X st).bCheckFailed = s.bCheckFailed := rfl

@[simp] theorem FindOrAddStage_bCheckFailed (s : TScheduler) (X : IdType) :
    (s.FindOrAddStage X).bCheckFailed = s.bCheckFailed := by
  unfold TScheduler.FindOrAddStage
  split <;> rfl

@[simp] theorem Transition_bCheckFailed (s : TScheduler) (X : IdType) (st : TStageState) :
    (s.Transition X st).bCheckFailed = s.bCheckFailed := by
  unfold TScheduler.Transition
  rw [Assign_bCheckFailed, FindOrAddStage_bCheckFailed]

theorem IfNotCanceled_bCheckFailed (s : TScheduler) (f : FFutureHandle) (G : FContinuation) :
    (IfNotCanceled s f G).1.bCheckFailed = s.bCheckFailed := by
  by_cases hlt : f < s.Futures.length
  · cases hr : s.Result f with
    | none => rw [IfNotCanceled_pending G hlt hr]; rfl
    | some r =>
      cases r with
      | Value v => rw [IfNotCanceled_Value G hr]
      | Canceled => rw [IfNotCanceled_Canceled G hr]
  · rw [IfNotCanceled_unallocated G (Nat.le_of_not_lt hlt)]

theorem Cancel_bCheckFailed (s : TScheduler) (p : FFutureHandle) :
    (Cancel s p).1.bCheckFailed = s.bCheckFailed := by
  unfold Cancel
  split
  · rfl
  · split <;> rfl

theorem EmplaceValue_bCheckFailed {s : TScheduler} {p : FFutureHandle}
    (hr : s.Result p = none) : (EmplaceValue s p).1.bCheckFailed = s.bCheckFailed := by
  by_cases hlt : p < s.Futures.length
  · rw [EmplaceValue_pending hlt hr]
    rfl
  · rw [EmplaceValue_unallocated (Nat.le_of_not_lt hlt)]

theorem SetValue_bCheckFailed {s : TScheduler} {he : FFutureHandle} (hc : FFutureHandle)
    (hr : s.Result he = none) : (SetValue s he hc).bCheckFailed = s.bCheckFailed := by
  by_cases hlt : he < s.Futures.length
  · rw [SetValue_pending hc hlt hr]
    rfl
  · rw [SetValue_unallocated hc (Nat.le_of_not_lt hlt)]

/-- A failed `check` stays failed: the flag is never reset. -/
theorem EmplaceValue_bCheckFailed_of_failed {s : TScheduler} (p : FFutureHandle)
    (h : s.bCheckFailed = true) : (EmplaceValue s p).1.bCheckFailed = true := by
  by_cases hlt : p < s.Futures.length
  · cases hr : s.Result p with
    | none => rw [EmplaceValue_bCheckFailed hr]; exact h
    | some r => rw [EmplaceValue_resolved hr]; rfl
  · rw [EmplaceValue_unallocated (Nat.le_of_not_lt hlt)]
    exact h

theorem SetValue_bCheckFailed_of_failed {s : TScheduler} (he hc : FFutureHandle)
    (h : s.bCheckFailed = true) : (SetValue s he hc).bCheckFailed = true := by
  cases hr : s.Result he with
  | none => rw [SetValue_bCheckFailed hc hr]; exact h
  | some r => rw [SetValue_resolved hc hr]; rfl

theorem CW_bCheckFailed (s : TScheduler) (Y : IdType) :
    (CompleteWhenTasksFinished s Y).1.bCheckFailed = s.bCheckFailed := by
  unfold CompleteWhenTasksFinished
  split
  · split
    · split
      · rfl
      · rfl
    · rw [IfNotCanceled_bCheckFailed]
      rfl
  · rfl

/-- `ExecuteAllTasks` passes the `check` when the execution promises of the pending tasks
are distinct and unset. -/
theorem ExecuteAllTasks_bCheckFailed (b : Bool) :
    ∀ (Tasks : List FPendingTaskEntry) (s : TScheduler),
      (Tasks.map (fun t => t.ExecutionPromise)).Nodup →
      (∀ t, t ∈ Tasks → s.Result t.ExecutionPromise = none) →
      (ExecuteAllTasks b Tasks s).2.bCheckFailed = s.bCheckFailed := by
  intro Tasks
  induction Tasks with
  | nil =>
    intro s _ _
    rfl
  | cons t R ih =>
    intro s hN hU
    rw [List.map_cons, List.nodup_cons] at hN
    have key : ∀ (X : TScheduler), (∀ x, X.Result x = s.Result x) →
        X.bCheckFailed = s.bCheckFailed →
        (ExecuteAllTasks b R (SetValue X t.ExecutionPromise s.Futures.length)).2.bCheckFailed
          = s.bCheckFailed := by
      intro X hX hflag
      have h0 : X.Result t.ExecutionPromise = none := by
        rw [hX]
        exact hU t (List.mem_cons_self _ _)
      rw [ih _ hN.2, SetValue_bCheckFailed _ h0, hflag]
      intro t' ht'
      have hne : t'.ExecutionPromise ≠ t.ExecutionPromise := by
        intro hc
        apply hN.1
        rw [← hc]
        exact List.mem_map_of_mem _ ht'
      rw [SetValue_Result_other X _ _ _ hne, hX]
      exact hU t' (List.mem_cons_of_mem _ ht')
    cases b with
    | false =>
      rw [ExecuteAllTasks_cons_false]
      exact key _ (Result_NewPromise_empty s) rfl
    | true =>
      rw [ExecuteAllTasks_cons_true]
      exact key _ (ExecuteAllTasks_prepared_Result s t.Id) rfl

theorem TTSE_bCheckFailed (GPI : Bool) (s : TScheduler) (P : TStageState_Pending)
    (hN : (P.Tasks.map (fun t => t.ExecutionPromise)).Nodup)
    (hU : ∀ t, t ∈ P.Tasks → s.Result t.ExecutionPromise = none) :
    (TransitionToStageState_Executing GPI s P).1.bCheckFailed = s.bCheckFailed := by
  unfold TransitionToStageState_Executing
  simp only
  split
  · rw [CW_bCheckFailed, Transition_bCheckFailed, ExecuteAllTasks_bCheckFailed GPI _ _ hN hU]
  · rw [Transition_bCheckFailed, ExecuteAllTasks_bCheckFailed GPI _ _ hN hU]

theorem SE_bCheckFailed (GPI : Bool) (s : TScheduler) (Y : IdType)
    (hT : ∀ P F, s.Find Y = some (.Defined P F) →
      (P.Tasks.map (fun t => t.ExecutionPromise)).Nodup ∧
        ∀ t, t ∈ P.Tasks → s.Result t.ExecutionPromise = none) :
    (StartExecutingWhenPrerequisitesComplete GPI s Y).1.bCheckFailed = s.bCheckFailed := by
  unfold StartExecutingWhenPrerequisitesComplete
  split
  · rename_i P F hF
    split
    · exact TTSE_bCheckFailed GPI s P (hT P F hF).1 (hT P F hF).2
    · rw [IfNotCanceled_bCheckFailed]
      rfl
  · rfl

end Zkz.StagedExecution

namespace Zkz.StagedExecution

/-! ## The promises that a pending call takes out of a queue -/

theorem EmplacedBy_append (A B : List FCall) :
    EmplacedBy (A ++ B) = EmplacedBy A ++ EmplacedBy B := by
  induction A with
  | nil => rfl
  | cons c A ih => cases c <;> simp [EmplacedBy, ih]

theorem mem_EmplacedBy {Calls : List FCall} {h : FFutureHandle} :
    h ∈ EmplacedBy Calls ↔ FCall.EmplaceValue h ∈ Calls := by
  induction Calls with
  | nil => simp [EmplacedBy]
  | cons c R ih => cases c <;> simp [EmplacedBy, ih]

theorem EmplacedBy_map (Ps : List FFutureHandle) :
    EmplacedBy (Ps.map FCall.EmplaceValue) = Ps := by
  induction Ps with
  | nil => rfl
  | cons p Ps ih => simp [EmplacedBy, ih]

theorem EmplacedBy_eq_nil {Calls : List FCall} (h : ∀ x, FCall.EmplaceValue x ∉ Calls) :
    EmplacedBy Calls = [] := by
  cases hE : EmplacedBy Calls with
  | nil => rfl
  | cons a L =>
    have : a ∈ EmplacedBy Calls := by rw [hE]; exact List.mem_cons_self _ _
    exact absurd (mem_EmplacedBy.mp this) (h a)

theorem PromisesOf_of_Find_eq {s s' : TScheduler} {Z : IdType} (h : s'.Find Z = s.Find Z) :
    s'.PromisesOf Z = s.PromisesOf Z := by
  unfold TScheduler.PromisesOf
  rw [h]

theorem IfNotCanceled_EmplacedBy (s : TScheduler) (f : FFutureHandle) (G : FContinuation) :
    EmplacedBy (IfNotCanceled s f G).2 = [] := by
  apply EmplacedBy_eq_nil
  intro x hx
  rcases IfNotCanceled_calls hx with h1 | h1
  · cases h1
  · cases G with
    | StartExecutingWhenPrerequisitesComplete Y => cases h1
    | CompleteWhenTasksFinished Y => cases h1
    | PostNotifyCompletion T p =>
      simp only [DestroyContinuation, List.mem_singleton] at h1
      cases h1

/-! ### `CompleteWhenTasksFinished` -/

theorem CW_PromisesOf (s : TScheduler) (Y Z : IdType) :
    ((CompleteWhenTasksFinished s Y).1.PromisesOf Z).Sublist (s.PromisesOf Z) := by
  by_cases hZ : Z = Y
  · subst hZ
    unfold CompleteWhenTasksFinished
    split
    · rename_i Id b Ts Ps hF
      have hId : Id = Z := GetStageId_of_find hF
      subst hId
      split
      · split
        · have h1 : (TransitionToStageState_Completed s Id b Ps).1.Find Id
              = some (.Executing Id b [] []) :=
            Find_Assign_same s Id (.Executing Id b [] []) _ rfl hF
          rw [PromisesOf_of_Find h1]
          exact List.nil_sublist _
        · exact List.Sublist.refl _
      · rename_i Task hT
        have h1 : (IfNotCanceled (s.Assign Id (.Executing Id b Ts.dropLast Ps))
            Task.FutureCompletion (.CompleteWhenTasksFinished Id)).1.Find Id
            = some (.Executing Id b Ts.dropLast Ps) := by
          rw [IfNotCanceled_Find]
          exact Find_Assign_same s Id _ _ rfl hF
        rw [PromisesOf_of_Find h1, PromisesOf_of_Find hF]
        exact List.Sublist.refl _
    · exact List.Sublist.refl _
  · rw [PromisesOf_of_Find_eq (CW_Find_other s hZ)]

theorem CW_EmplacedBy (s : TScheduler) (Y : IdType) :
    EmplacedBy (CompleteWhenTasksFinished s Y).2 = [] ∨
      EmplacedBy (CompleteWhenTasksFinished s Y).2 = s.PromisesOf Y := by
  unfold CompleteWhenTasksFinished
  split
  · rename_i Id b Ts Ps hF
    have hId : Id = Y := GetStageId_of_find hF
    subst hId
    split
    · split
      · right
        unfold TransitionToStageState_Completed
        rw [EmplacedBy_append, EmplacedBy_map, PromisesOf_of_Find hF]
        simp [EmplacedBy, TStageState.Promises]
      · exact Or.inl rfl
    · exact Or.inl (IfNotCanceled_EmplacedBy _ _ _)
  · exact Or.inl rfl

/-! ### `TransitionToStageState_Executing` and `StartExecutingWhenPrerequisitesComplete` -/

theorem TTSE_PromisesOf (GPI : Bool) (s : TScheduler) (P : TStageState_Pending)
    (F : List FFutureHandle) (hF : s.Find P.StageId = some (.Defined P F)) (Z : IdType) :
    ((TransitionToStageState_Executing GPI s P).1.PromisesOf Z).Sublist (s.PromisesOf Z) := by
  have h2 : ((ExecuteAllTasks GPI P.Tasks s).2.Transition P.StageId
      (.Executing P.StageId P.bAllTasksCollected (ExecuteAllTasks GPI P.Tasks s).1
        P.StageCompletionPromises)).PromisesOf Z = s.PromisesOf Z := by
    by_cases hZ : Z = P.StageId
    · rw [hZ, PromisesOf_Transition_same _ P.StageId
        (.Executing P.StageId P.bAllTasksCollected (ExecuteAllTasks GPI P.Tasks s).1
          P.StageCompletionPromises) rfl, PromisesOf_of_Find hF]
      rfl
    · apply PromisesOf_of_Find_eq
      rw [Find_Transition_other (ExecuteAllTasks GPI P.Tasks s).2 P.StageId Z
        (.Executing P.StageId P.bAllTasksCollected (ExecuteAllTasks GPI P.Tasks s).1
          P.StageCompletionPromises) rfl hZ, Find_ExecuteAllTasks]
  unfold TransitionToStageState_Executing
  simp only
  split
  · rw [← h2]
    exact CW_PromisesOf _ _ _
  · rw [h2]

theorem TTSE_EmplacedBy (GPI : Bool) (s : TScheduler) (P : TStageState_Pending)
    (F : List FFutureHandle) (hF : s.Find P.StageId = some (.Defined P F)) :
    EmplacedBy (TransitionToStageState_Executing GPI s P).2 = [] ∨
      EmplacedBy (TransitionToStageState_Executing GPI s P).2 = s.PromisesOf P.StageId := by
  have h2 : ((ExecuteAllTasks GPI P.Tasks s).2.Transition P.StageId
      (.Executing P.StageId P.bAllTasksCollected (ExecuteAllTasks GPI P.Tasks s).1
        P.StageCompletionPromises)).PromisesOf P.StageId = s.PromisesOf P.StageId := by
    rw [PromisesOf_Transition_same _ P.StageId
      (.Executing P.StageId P.bAllTasksCollected (ExecuteAllTasks GPI P.Tasks s).1
        P.StageCompletionPromises) rfl, PromisesOf_of_Find hF]
    rfl
  unfold TransitionToStageState_Executing
  simp only
  split
  · rw [← h2]
    exact CW_EmplacedBy _ _
  · exact Or.inl rfl

theorem SE_PromisesOf (GPI : Bool) (s : TScheduler) (Y Z : IdType) :
    ((StartExecutingWhenPrerequisitesComplete GPI s Y).1.PromisesOf Z).Sublist
      (s.PromisesOf Z) := by
  unfold StartExecutingWhenPrerequisitesComplete
  split
  · rename_i P F hF
    have hId : P.StageId = Y := GetStageId_of_find hF
    subst hId
    split
    · exact TTSE_PromisesOf GPI s P F hF Z
    · rename_i Future hT
      by_cases hZ : Z = P.StageId
      · have h1 : (IfNotCanceled (s.Assign P.StageId (.Defined P F.dropLast)) Future
            (.StartExecutingWhenPrerequisitesComplete P.StageId)).1.Find P.StageId
            = some (.Defined P F.dropLast) := by
          rw [IfNotCanceled_Find]
          exact Find_Assign_same s P.StageId _ _ rfl hF
        rw [hZ, PromisesOf_of_Find h1, PromisesOf_of_Find hF]
        exact List.Sublist.refl _
      · have h1 : (IfNotCanceled (s.Assign P.StageId (.Defined P F.dropLast)) Future
            (.StartExecutingWhenPrerequisitesComplete P.StageId)).1.Find Z = s.Find Z := by
          rw [IfNotCanceled_Find]
          exact Find_Assign_other s P.StageId Z (.Defined P F.dropLast) rfl hZ
        rw [PromisesOf_of_Find_eq h1]
  · exact List.Sublist.refl _

theorem SE_EmplacedBy (GPI : Bool) (s : TScheduler) (Y : IdType) :
    EmplacedBy (StartExecutingWhenPrerequisitesComplete GPI s Y).2 = [] ∨
      EmplacedBy (StartExecutingWhenPrerequisitesComplete GPI s Y).2 = s.PromisesOf Y := by
  unfold StartExecutingWhenPrerequisitesComplete
  split
  · rename_i P F hF
    have hId : P.StageId = Y := GetStageId_of_find hF
    subst hId
    split
    · exact TTSE_EmplacedBy GPI s P F hF
    · exact Or.inl (IfNotCanceled_EmplacedBy _ _ _)
  · exact Or.inl rfl

/-- The results that the chain changes are those of the execution promises of the pending
tasks of its stage. -/
theorem SE_Result_changed (GPI : Bool) (s : TScheduler) (Y : IdType)
    (hEP : ∀ P F, s.Find Y = some (.Defined P F) →
      ∀ t, t ∈ P.Tasks → t.ExecutionPromise < s.Futures.length)
    (h : FFutureHandle)
    (hh : (StartExecutingWhenPrerequisitesComplete GPI s Y).1.Result h ≠ s.Result h) :
    ∃ P F, s.Find Y = some (.Defined P F) ∧
      h ∈ P.Tasks.map (fun t => t.ExecutionPromise) := by
  unfold StartExecutingWhenPrerequisitesComplete at hh
  split at hh
  · rename_i P F hF
    refine ⟨P, F, hF, ?_⟩
    split at hh
    · obtain ⟨_, _, e3, _, _⟩ :=
        ExecuteAllTasks_footprint GPI s.Futures.length P.Tasks s (hEP P F hF) (Nat.le_refl _)
      apply e3
      intro hc
      apply hh
      rw [← hc]
      unfold TransitionToStageState_Executing
      simp only
      split
      · rw [CW_Result, Transition_Result]
      · rw [Transition_Result]
    · rw [IfNotCanceled_Result] at hh
      exact absurd rfl hh
  · exact absurd rfl hh

/-! ### Every pending call -/

theorem StepCall_PromisesOf (GPI : Bool) (s : TScheduler) (c : FCall) (Z : IdType) :
    ((StepCall GPI s c).1.PromisesOf Z).Sublist (s.PromisesOf Z) := by
  cases c with
  | EmplaceValue p =>
    rw [show (StepCall GPI s (.EmplaceValue p)) = EmplaceValue s p from rfl,
      PromisesOf_of_Stages (EmplaceValue_Stages s p)]
  | Cancel p =>
    rw [show (StepCall GPI s (.Cancel p)) = Cancel s p from rfl,
      PromisesOf_of_Stages (Cancel_Stages s p)]
  | Invoke G =>
    cases G with
    | StartExecutingWhenPrerequisitesComplete Y => exact SE_PromisesOf GPI s Y Z
    | CompleteWhenTasksFinished Y => exact CW_PromisesOf s Y Z
    | PostNotifyCompletion T p =>
      rw [show (StepCall GPI s (.Invoke (.PostNotifyCompletion T p))) = EmplaceValue s p from rfl,
        PromisesOf_of_Stages (EmplaceValue_Stages s p)]
  | Transition_Completed Y =>
    by_cases hZ : Z = Y
    · rw [hZ, show (StepCall GPI s (.Transition_Completed Y)).1
          = s.Transition Y (.Completed Y) from rfl, PromisesOf_Transition_same s Y (.Completed Y) rfl]
      exact List.nil_sublist _
    · rw [show (StepCall GPI s (.Transition_Completed Y)).1
          = s.Transition Y (.Completed Y) from rfl,
        PromisesOf_of_Find_eq (Find_Transition_other s Y Z (.Completed Y) rfl hZ)]

theorem EmplaceValue_EmplacedBy (s : TScheduler) (p : FFutureHandle) :
    EmplacedBy (EmplaceValue s p).2 = [] := by
  unfold EmplaceValue
  split
  · rfl
  · split
    · rfl
    · split <;> rfl

theorem Cancel_EmplacedBy (s : TScheduler) (p : FFutureHandle) :
    EmplacedBy (Cancel s p).2 = [] := by
  unfold Cancel
  split
  · rfl
  · split
    · rfl
    · split
      · rename_i G _
        cases G <;> rfl
      · rfl

theorem StepCall_EmplacedBy (GPI : Bool) (s : TScheduler) (c : FCall) :
    EmplacedBy (StepCall GPI s c).2 = [] ∨
      ∃ Y, (c = .Invoke (.StartExecutingWhenPrerequisitesComplete Y) ∨
          c = .Invoke (.CompleteWhenTasksFinished Y)) ∧
        EmplacedBy (StepCall GPI s c).2 = s.PromisesOf Y := by
  cases c with
  | EmplaceValue p => exact Or.inl (EmplaceValue_EmplacedBy s p)
  | Cancel p => exact Or.inl (Cancel_EmplacedBy s p)
  | Invoke G =>
    cases G with
    | StartExecutingWhenPrerequisitesComplete Y =>
      rcases SE_EmplacedBy GPI s Y with h | h
      · exact Or.inl h
      · exact Or.inr ⟨Y, Or.inl rfl, h⟩
    | CompleteWhenTasksFinished Y =>
      rcases CW_EmplacedBy s Y with h | h
      · exact Or.inl h
      · exact Or.inr ⟨Y, Or.inr rfl, h⟩
    | PostNotifyCompletion T p => exact Or.inl (EmplaceValue_EmplacedBy s p)
  | Transition_Completed Y => exact Or.inl rfl

end Zkz.StagedExecution

namespace Zkz.StagedExecution

/-! ## No promise is fulfilled twice -/

/-- In a configuration of the scheduler the execution promises of the tasks pending in a
defined stage are distinct, allocated, unset and typed as task execution promises. -/
theorem Inv_pending_tasks {GPI : Bool} {Γ : FRoles} {Log : FLog} {Calls : List FCall}
    {s : TScheduler} (hI : SchedulerInv GPI Γ Log Calls s) {Y : IdType}
    {P : TStageState_Pending} {F : List FFutureHandle}
    (hF : s.Find Y = some (.Defined P F)) :
    (P.Tasks.map (fun t => t.ExecutionPromise)).Nodup ∧
      ∀ t, t ∈ P.Tasks → s.Result t.ExecutionPromise = none ∧
        t.ExecutionPromise < s.Futures.length ∧
        ∃ j, Γ[t.ExecutionPromise]? = some (.TaskExecution P.StageId j) := by
  have hOK := hI.stages Y _ hF
  obtain ⟨_, _, _, ⟨_, hT⟩, _⟩ := hOK
  constructor
  · rw [List.nodup_iff_getElem?_ne_getElem?]
    intro i j hij hj heq
    rw [List.length_map] at hj
    have hi : i < P.Tasks.length := Nat.lt_trans hij hj
    rw [List.getElem?_map, List.getElem?_map, List.getElem?_eq_getElem hi,
      List.getElem?_eq_getElem hj] at heq
    simp only [Option.map_some'] at heq
    have h1 := (hT i P.Tasks[i] (List.getElem?_eq_getElem hi)).1
    have h2 := (hT j P.Tasks[j] (List.getElem?_eq_getElem hj)).1
    rw [Option.some.inj heq, h2] at h1
    injection h1 with h1
    injection h1 with _ h1
    omega
  · intro t ht
    obtain ⟨j, hj⟩ := List.getElem?_of_mem ht
    obtain ⟨h1, h2⟩ := hT j t hj
    exact ⟨h2, lt_of_role hI h1, j, h1⟩

/-- In a configuration of the scheduler a queued stage completion promise is typed as one
and is unset. -/
theorem Inv_PromisesOf_role {GPI : Bool} {Γ : FRoles} {Log : FLog} {Calls : List FCall}
    {s : TScheduler} (hI : SchedulerInv GPI Γ Log Calls s) {Y : IdType} {h : FFutureHandle}
    (hh : h ∈ s.PromisesOf Y) :
    (∃ c, Γ[h]? = some (.StageCompletion Y c)) ∧ s.Result h = none := by
  cases hF : s.Find Y with
  | none =>
    rw [TScheduler.PromisesOf, hF] at hh
    cases hh
  | some st =>
    have hOK := hI.stages Y st hF
    have hId := GetStageId_of_Find hF
    rw [PromisesOf_of_Find hF] at hh
    cases st with
    | Undefined P =>
      have hP : P.StageId = Y := hId
      rw [← hP]
      exact hOK.2.2.2 h hh
    | Defined P F =>
      have hP : P.StageId = Y := hId
      rw [← hP]
      exact hOK.2.2.2.2 h hh
    | Executing Z b Ts Ps =>
      have hP : Z = Y := hId
      rw [← hP]
      exact hOK.2.2.2.1 h hh
    | Completed Z => cases hh

theorem mem_EmplacedBy_cons {c : FCall} {Rest : List FCall} {h : FFutureHandle}
    (hh : h ∈ EmplacedBy Rest) : h ∈ EmplacedBy (c :: Rest) :=
  mem_EmplacedBy.mpr (List.mem_cons_of_mem _ (mem_EmplacedBy.mp hh))

theorem EmplacedBy_cons_Nodup {c : FCall} {Rest : List FCall}
    (h : (EmplacedBy (c :: Rest)).Nodup) : (EmplacedBy Rest).Nodup := by
  cases c with
  | EmplaceValue x => exact (List.nodup_cons.mp h).2
  | Cancel x => exact h
  | Invoke G => exact h
  | Transition_Completed Y => exact h

/-- Every pending call keeps the promises fulfilled at most once. -/
theorem IsFulfilledOnce_step {GPI : Bool} {Γ : FRoles} {Log : FLog} {c : FCall}
    {Rest : List FCall} {s : TScheduler} (hI : SchedulerInv GPI Γ Log (c :: Rest) s)
    (hU : IsFulfilledOnce (c :: Rest) s) :
    IsFulfilledOnce ((StepCall GPI s c).2 ++ Rest) (StepCall GPI s c).1 := by
  have hTail := CallsOK_TailOK_rest hI.calls
  have fp := Inv_IsStepFootprint hI c
  -- the promises that the calls below the head fulfil
  have hRest : ∀ h, h ∈ EmplacedBy Rest →
      ∃ p d, Γ[h]? = some (.StageCompletion p d) ∧ FCall.Transition_Completed p ∈ Rest ∧
        s.Result h = none ∧ c.Target ≠ some h := by
    intro h hh
    obtain ⟨p, d, h1, h2⟩ := TailOK_EmplaceValue_mem hTail h (mem_EmplacedBy.mp hh)
    refine ⟨p, d, h1, h2, hU.pending h (mem_EmplacedBy_cons hh), ?_⟩
    intro hT
    have hc := hI.calls.2
    cases c with
    | EmplaceValue x =>
      cases hT
      exact (List.nodup_cons.mp hU.once).1 hh
    | Cancel x =>
      rw [hc.1] at hh
      cases hh
    | Transition_Completed Y => cases hT
    | Invoke G =>
      cases G with
      | StartExecutingWhenPrerequisitesComplete Y => cases hT
      | CompleteWhenTasksFinished Y => cases hT
      | PostNotifyCompletion T f =>
        rw [hc.1] at hh
        cases hh
  -- a call changes the result of a stage completion future only when it fulfils it
  have hKeep : ∀ h p d, Γ[h]? = some (.StageCompletion p d) → c.Target ≠ some h →
      (StepCall GPI s c).1.Result h = s.Result h := by
    intro h p d hΓ hT
    by_contra hne
    cases c with
    | EmplaceValue x =>
      rcases fp.resolved h hne with h1 | ⟨Y, hY, _⟩
      · exact hT h1
      · cases hY
    | Cancel x =>
      rcases fp.resolved h hne with h1 | ⟨Y, hY, _⟩
      · exact hT h1
      · cases hY
    | Transition_Completed Y => exact hne (Transition_Result s Y _ h)
    | Invoke G =>
      cases G with
      | StartExecutingWhenPrerequisitesComplete Y =>
        obtain ⟨P, F, hF, hm⟩ := SE_Result_changed GPI s Y
          (fun P F hF t ht => ((Inv_pending_tasks hI hF).2 t ht).2.1) h hne
        obtain ⟨t, ht, hte⟩ := List.mem_map.mp hm
        obtain ⟨_, _, j, hj⟩ := (Inv_pending_tasks hI hF).2 t ht
        rw [hte, hΓ] at hj
        cases hj
      | CompleteWhenTasksFinished Y => exact hne (CW_Result s Y h)
      | PostNotifyCompletion T f =>
        rcases fp.resolved h hne with h1 | ⟨Y, hY, _⟩
        · exact hT h1
        · cases hY
  refine ⟨?_, ?_, ?_, ?_⟩
  · have hc := hI.calls.2
    cases c with
    | EmplaceValue x =>
      exact (EmplaceValue_bCheckFailed
        (hU.pending x (List.mem_cons_self _ _))).trans hU.check
    | Cancel x => exact (Cancel_bCheckFailed s x).trans hU.check
    | Transition_Completed Y => exact (Transition_bCheckFailed s Y _).trans hU.check
    | Invoke G =>
      cases G with
      | StartExecutingWhenPrerequisitesComplete Y =>
        refine (SE_bCheckFailed GPI s Y ?_).trans hU.check
        intro P F hF
        exact ⟨(Inv_pending_tasks hI hF).1, fun t ht => ((Inv_pending_tasks hI hF).2 t ht).1⟩
      | CompleteWhenTasksFinished Y => exact (CW_bCheckFailed s Y).trans hU.check
      | PostNotifyCompletion T f =>
        obtain ⟨_, X, j, he, hcc, _, _, _, _, hf⟩ := hc
        exact (EmplaceValue_bCheckFailed hf).trans hU.check
  · intro h hh
    rw [EmplacedBy_append] at hh
    rcases List.mem_append.mp hh with h1 | h1
    · rcases StepCall_EmplacedBy GPI s c with h0 | ⟨Y, hc, h0⟩
      · rw [h0] at h1
        cases h1
      · rw [h0] at h1
        obtain ⟨⟨d, hd⟩, hr⟩ := Inv_PromisesOf_role hI h1
        rw [hKeep h Y d hd ?_]
        · exact hr
        · rcases hc with hc | hc
          · rw [hc]
            intro hT
            cases hT
          · rw [hc]
            intro hT
            cases hT
    · obtain ⟨p, d, hd, _, hr, hT⟩ := hRest h h1
      rw [hKeep h p d hd hT]
      exact hr
  · rw [EmplacedBy_append]
    refine List.nodup_append.mpr ⟨?_, EmplacedBy_cons_Nodup hU.once, ?_⟩
    · rcases StepCall_EmplacedBy GPI s c with h0 | ⟨Y, _, h0⟩
      · rw [h0]
        exact List.nodup_nil
      · rw [h0]
        exact hU.queued Y
    · intro h h1 h2
      rcases StepCall_EmplacedBy GPI s c with h0 | ⟨Y, hc, h0⟩
      · rw [h0] at h1
        cases h1
      · rw [h0] at h1
        obtain ⟨⟨d, hd⟩, _⟩ := Inv_PromisesOf_role hI h1
        obtain ⟨p, d', hd', hTC, _, _⟩ := hRest h h2
        rw [hd] at hd'
        injection hd' with hd'
        injection hd' with hYp _
        rw [← hYp] at hTC
        rcases hc with hc | hc
        · subst hc
          have h3 := hI.calls.1 Y (List.mem_cons_of_mem _ hTC)
          obtain ⟨_, Pd, Fd, h4⟩ := hI.calls.2
          rw [h3] at h4
          cases h4
        · subst hc
          exact hI.calls.2.2.1 hTC
  · intro Z
    exact List.Nodup.sublist (StepCall_PromisesOf GPI s c Z) (hU.queued Z)

/-- A cascade keeps the promises fulfilled at most once: it passes every `check`. -/
theorem IsFulfilledOnce_RunCalls {GPI : Bool} {Γ : FRoles} {Log : FLog} {Calls : List FCall}
    {s : TScheduler} (hI : SchedulerInv GPI Γ Log Calls s) (hU : IsFulfilledOnce Calls s) :
    IsFulfilledOnce [] (RunCalls GPI Calls s) := by
  have h := RunCalls_induction GPI
    (fun Calls1 s1 => (∃ Γ1, SchedulerInv GPI Γ1 Log Calls1 s1) ∧ IsFulfilledOnce Calls1 s1)
    ?_ _ Calls s (Nat.le_refl _) ⟨⟨Γ, hI⟩, hU⟩
  · exact h.2
  · rintro c Rest s1 ⟨⟨Γ1, h1⟩, h2⟩
    exact ⟨⟨_, SchedulerInv_step h1⟩, IsFulfilledOnce_step h1 h2⟩

/-- Calls that fulfil no promise: the queues are all that matters. -/
theorem IsFulfilledOnce_of_queued {Calls : List FCall} {s : TScheduler}
    (hC : s.bCheckFailed = false) (hE : EmplacedBy Calls = [])
    (hQ : ∀ Y, (s.PromisesOf Y).Nodup) : IsFulfilledOnce Calls s := by
  refine ⟨hC, ?_, ?_, hQ⟩
  · intro h hh
    rw [hE] at hh
    cases hh
  · rw [hE]
    exact List.nodup_nil

end Zkz.StagedExecution

namespace Zkz.StagedExecution

/-! ## The queues and the `check` in the bodies of the operations -/

theorem PromisesOf_FindOrAddStage (s : TScheduler) (X Z : IdType) :
    (s.FindOrAddStage X).PromisesOf Z = s.PromisesOf Z := by
  cases hF : s.Find X with
  | some st => rw [Find_FindOrAddStage_same_of_some s X st hF]
  | none =>
    by_cases hZ : Z = X
    · subst hZ
      unfold TScheduler.PromisesOf
      rw [Find_FindOrAddStage_same_of_none s Z hF, hF]
      rfl
    · exact PromisesOf_of_Find_eq (Find_FindOrAddStage_other s X Z hZ)

theorem PromisesOf_NewPromise_Assign (s : TScheduler) (c0 : FFutureState) (p : IdType)
    (st st' : TStageState) (hX : s.Find p = some st) (hid' : st'.GetStageId = p)
    (Z : IdType) :
    ((s.NewPromise c0).2.Assign p st').PromisesOf Z
      = if Z = p then st'.Promises else s.PromisesOf Z := by
  obtain ⟨_, _, h3, h4, _⟩ := NewPromise_Assign_facts s c0 p st st' hX hid'
  by_cases hZ : Z = p
  · rw [if_pos hZ, hZ, PromisesOf_of_Find h3]
  · rw [if_neg hZ, PromisesOf_of_Find_eq (h4 Z hZ)]

theorem AddFollowUp_bCheckFailed (s : TScheduler) (p : IdType) :
    (AddFollowUp s p).2.bCheckFailed = s.bCheckFailed := by
  unfold AddFollowUp
  split <;> rfl

/-- `AddFollowUp` appends the new promise to the queue of its stage, or leaves the queues
as they are. -/
theorem AddFollowUp_PromisesOf (s : TScheduler) (p Z : IdType) :
    (AddFollowUp s p).2.PromisesOf Z = s.PromisesOf Z ∨
      (AddFollowUp s p).2.PromisesOf Z = s.PromisesOf Z ++ [s.Futures.length] := by
  cases hX : s.Find p with
  | none =>
    left
    unfold AddFollowUp
    rw [hX]
    exact PromisesOf_of_Stages (NewPromise_Stages s _) Z
  | some st =>
    have hid := GetStageId_of_Find hX
    unfold AddFollowUp
    rw [hX]
    cases st with
    | Undefined pd =>
      simp only [TStageState.GetStageId] at hid
      simp only [NewPromise_fst]
      rw [PromisesOf_NewPromise_Assign s {} p (.Undefined pd) _ hX ?_ Z]
      swap
      · exact hid
      by_cases hZ : Z = p
      · rw [if_pos hZ, hZ, PromisesOf_of_Find hX]
        exact Or.inr rfl
      · rw [if_neg hZ]
        exact Or.inl rfl
    | Defined pd F =>
      simp only [TStageState.GetStageId] at hid
      simp only [NewPromise_fst]
      rw [PromisesOf_NewPromise_Assign s {} p (.Defined pd F) _ hX ?_ Z]
      swap
      · exact hid
      by_cases hZ : Z = p
      · rw [if_pos hZ, hZ, PromisesOf_of_Find hX]
        exact Or.inr rfl
      · rw [if_neg hZ]
        exact Or.inl rfl
    | Executing Id b Ts Ps =>
      simp only [TStageState.GetStageId] at hid
      simp only [NewPromise_fst]
      rw [PromisesOf_NewPromise_Assign s {} p (.Executing Id b Ts Ps) _ hX ?_ Z]
      swap
      · exact hid
      by_cases hZ : Z = p
      · rw [if_pos hZ, hZ, PromisesOf_of_Find hX]
        exact Or.inr rfl
      · rw [if_neg hZ]
        exact Or.inl rfl
    | Completed Id =>
      left
      exact PromisesOf_of_Stages (NewPromise_Stages s _) Z

/-- `AddFollowUp` keeps the promises fulfilled at most once: the promise it queues is
new. -/
theorem IsFulfilledOnce_AddFollowUp {GPI : Bool} {Γ : FRoles} {Log : FLog} {s : TScheduler}
    (hI : SchedulerInv GPI Γ Log [] s) (hU : IsFulfilledOnce [] s) (p : IdType) :
    IsFulfilledOnce [] (AddFollowUp s p).2 := by
  refine IsFulfilledOnce_of_queued ((AddFollowUp_bCheckFailed s p).trans hU.check) rfl ?_
  intro Z
  rcases AddFollowUp_PromisesOf s p Z with h | h
  · rw [h]
    exact hU.queued Z
  · rw [h]
    refine List.nodup_append.mpr ⟨hU.queued Z, List.nodup_singleton _, ?_⟩
    intro a ha hb
    rw [List.mem_singleton] at hb
    obtain ⟨⟨d, hd⟩, _⟩ := Inv_PromisesOf_role hI ha
    have := lt_of_role hI hd
    rw [hb] at this
    exact Nat.lt_irrefl _ this

/-- The first loop of `AddStage` keeps the promises fulfilled at most once. -/
theorem IsFulfilledOnce_Collect {GPI : Bool} {Log : FLog} :
    ∀ (P : List IdType) (Γ : FRoles) (s : TScheduler),
      SchedulerInv GPI Γ Log [] s → IsFulfilledOnce [] s →
      IsFulfilledOnce [] (CollectFuturePrerequisiteCompletions P s).2 := by
  intro P
  induction P with
  | nil =>
    intro Γ s _ hU
    exact hU
  | cons p R ih =>
    intro Γ s hI hU
    have hI1 := SchedulerInv_FindOrAddStage hI p
    have hU1 : IsFulfilledOnce [] (s.FindOrAddStage p) := by
      refine IsFulfilledOnce_of_queued ((FindOrAddStage_bCheckFailed s p).trans hU.check) rfl ?_
      intro Z
      rw [PromisesOf_FindOrAddStage]
      exact hU.queued Z
    obtain ⟨st, hst⟩ := Find_FindOrAddStage_isSome s p
    have hI2 := (SchedulerInv_AddFollowUp (none : Option (IdType × Nat)) hI1 hst).1
    have hU2 := IsFulfilledOnce_AddFollowUp hI1 hU1 p
    exact ih _ _ hI2 hU2

/-! ### `AddTaskToStage` -/

theorem StageState_AddTaskToStage_PromisesOf (s : TScheduler) (X T Z : IdType) :
    (StageState_AddTaskToStage s X T).2.PromisesOf Z = s.PromisesOf Z := by
  cases hX : s.Find X with
  | none =>
    unfold StageState_AddTaskToStage
    rw [hX]
  | some st =>
    have hid := GetStageId_of_Find hX
    unfold StageState_AddTaskToStage
    rw [hX]
    cases st with
    | Undefined pd =>
      simp only [TStageState.GetStageId] at hid
      simp only [NewPromise_fst]
      split
      · rfl
      · rw [PromisesOf_NewPromise_Assign s {} X (.Undefined pd) _ hX ?_ Z]
        swap
        · exact hid
        by_cases hZ : Z = X
        · rw [if_pos hZ, hZ, PromisesOf_of_Find hX]
          rfl
        · rw [if_neg hZ]
    | Defined pd F =>
      simp only [TStageState.GetStageId] at hid
      simp only [NewPromise_fst]
      split
      · rfl
      · rw [PromisesOf_NewPromise_Assign s {} X (.Defined pd F) _ hX ?_ Z]
        swap
        · exact hid
        by_cases hZ : Z = X
        · rw [if_pos hZ, hZ, PromisesOf_of_Find hX]
          rfl
        · rw [if_neg hZ]
    | Executing Id b Ts Ps =>
      simp only [TStageState.GetStageId] at hid
      simp only [NewPromise_fst]
      split
      · rfl
      · rw [PromisesOf_of_Stages (SetValue_Stages _ _ _)]
        have hX1 : (s.NewPromise {}).2.Find X = some (.Executing Id b Ts Ps) := by
          rw [NewPromise_Find]
          exact hX
        rw [PromisesOf_NewPromise_Assign (s.NewPromise {}).2 {} X (.Executing Id b Ts Ps) _
          hX1 ?_ Z]
        swap
        · exact hid
        by_cases hZ : Z = X
        · rw [if_pos hZ, hZ, PromisesOf_of_Find hX]
          rfl
        · rw [if_neg hZ]
          exact PromisesOf_of_Stages (NewPromise_Stages s _) Z
    | Completed Id => rfl

theorem StageState_AddTaskToStage_bCheckFailed (s : TScheduler) (X T : IdType) :
    (StageState_AddTaskToStage s X T).2.bCheckFailed = s.bCheckFailed := by
  unfold StageState_AddTaskToStage
  split
  · split <;> rfl
  · split <;> rfl
  · split
    · rfl
    · simp only [NewPromise_fst]
      rw [SetValue_bCheckFailed]
      · rfl
      · rw [Assign_Result, Result_NewPromise_old _ _ _ (by simp)]
        exact Result_NewPromise_new s _
  · rfl
  · rfl

/-- `AddTaskToStage` keeps the promises fulfilled at most once. -/
theorem IsFulfilledOnce_AddTaskToStage {s : TScheduler} (hU : IsFulfilledOnce [] s)
    (X T : IdType) : IsFulfilledOnce [] (s.AddTaskToStage X T).2 := by
  unfold TScheduler.AddTaskToStage
  refine IsFulfilledOnce_of_queued ?_ rfl ?_
  · rw [StageState_AddTaskToStage_bCheckFailed, FindOrAddStage_bCheckFailed]
    exact hU.check
  · intro Z
    rw [StageState_AddTaskToStage_PromisesOf, PromisesOf_FindOrAddStage]
    exact hU.queued Z

end Zkz.StagedExecution

namespace Zkz.StagedExecution

/-! ## The operations fulfil no promise twice -/

theorem DebugAddStage_error_cases {M : FPrerequisitesByStageId} {X : IdType}
    {P : List IdType} {e : TAddStageError} (h : (DebugAddStage M X P).1 = .error e) :
    (e = .StageAlreadyAdded X ∧ M.Contains X = true) ∨ ∃ C, e = .CircularDependency X P C := by
  unfold DebugAddStage at h
  by_cases h1 : M.Contains X = true
  · rw [if_pos h1] at h
    cases h
    exact Or.inl ⟨rfl, h1⟩
  · rw [if_neg h1] at h
    cases h2 : DebugAddStageLoop M P [X] with
    | none => rw [h2] at h; cases h
    | some C =>
      rw [h2] at h
      cases h
      exact Or.inr ⟨C, rfl⟩

/-- The body of `AddStage`: either it fails after its first loop and calls nothing, or it
transitions the stage to `Defined` and calls `StartExecutingWhenPrerequisitesComplete`. -/
theorem AddStageCalls_cases {GPI : Bool} {Γ : FRoles} {Log : FLog} {s : TScheduler}
    (hI : SchedulerInv GPI Γ Log [] s) (X : IdType) (P : List IdType) :
    (∃ e, s.AddStageCalls GPI X P =
          (.error e, (CollectFuturePrerequisiteCompletions P s).2, []) ∧
        ((GPI = true ∧ ∃ C, e = .CircularDependency X P C) ∨
          (e = .StageAlreadyAdded X ∧ ∃ P', IsAddedWith Log X P')) ∧
        ∃ Γ0, SchedulerInv GPI Γ0 (Log ++ [.AddStage X P (.error e)]) []
          (CollectFuturePrerequisiteCompletions P s).2) ∨
    (∃ s3 Γ3, s.AddStageCalls GPI X P =
          (.ok (), StepCall GPI s3 (.Invoke (.StartExecutingWhenPrerequisitesComplete X))) ∧
        (∀ P', ¬ IsAddedWith Log X P') ∧
        s3.Futures = (CollectFuturePrerequisiteCompletions P s).2.Futures ∧
        s3.bCheckFailed = (CollectFuturePrerequisiteCompletions P s).2.bCheckFailed ∧
        s3.PromisesOf X = (CollectFuturePrerequisiteCompletions P s).2.PromisesOf X ∧
        (∀ Y, Y ≠ X → s3.Find Y = (CollectFuturePrerequisiteCompletions P s).2.Find Y) ∧
        (∃ pd F, s3.Find X = some (.Defined pd F)) ∧
        SchedulerInv GPI Γ3 (Log ++ [.AddStage X P (.ok ())])
          [.Invoke (.StartExecutingWhenPrerequisitesComplete X)] s3) := by
  obtain ⟨R, r1, r2, r3, r4, r5, r6⟩ :=
    SchedulerInv_Collect (fun j => some (X, j)) P 0 Γ s hI
  have hI2 := SchedulerInv_FindOrAddStage r1 X
  obtain ⟨st, hst⟩ := Find_FindOrAddStage_isSome (CollectFuturePrerequisiteCompletions P s).2 X
  have hFty : ∀ (j : Nat) (f : FFutureHandle),
      (CollectFuturePrerequisiteCompletions P s).1[j]? = some f →
      ∃ p, P[j]? = some p ∧ (Γ ++ R)[f]? = some (.StageCompletion p (some (X, j))) ∧
        ((CollectFuturePrerequisiteCompletions P s).2.FindOrAddStage X).CompletionCallback f
          = none := by
    intro j f hj
    obtain ⟨p, h1, h2, h3⟩ := r6 j f hj
    rw [Nat.zero_add] at h2
    exact ⟨p, h1, h2, by rw [FindOrAddStage_CompletionCallback]; exact h3⟩
  have hAS : s.AddStageCalls GPI X P =
      if GPI = true then
        match DebugAddStage (CollectFuturePrerequisiteCompletions P s).2.PrerequisitesByStageId
            X P with
        | (.error Error, _) => (.error Error, (CollectFuturePrerequisiteCompletions P s).2, [])
        | (.ok _, NewPrerequisitesByStageId) =>
          StageState_AddStage GPI
            ({ (CollectFuturePrerequisiteCompletions P s).2 with
                PrerequisitesByStageId := NewPrerequisitesByStageId }.FindOrAddStage X)
            X (CollectFuturePrerequisiteCompletions P s).1
      else
        StageState_AddStage GPI ((CollectFuturePrerequisiteCompletions P s).2.FindOrAddStage X)
          X (CollectFuturePrerequisiteCompletions P s).1 := rfl
  -- the stage is undefined: it becomes `Defined`
  have hok : ∀ (pd : TStageState_Pending) (s2 : TScheduler),
      ((CollectFuturePrerequisiteCompletions P s).2.FindOrAddStage X).Find X =
        some (.Undefined pd) →
      s2.Stages = ((CollectFuturePrerequisiteCompletions P s).2.FindOrAddStage X).Stages →
      s2.Futures = ((CollectFuturePrerequisiteCompletions P s).2.FindOrAddStage X).Futures →
      s2.bCheckFailed = (CollectFuturePrerequisiteCompletions P s).2.bCheckFailed →
      MapOK GPI (Log ++ [.AddStage X P (.ok ())]) s2 →
      ∃ s3 Γ3,
        StageState_AddStage GPI s2 X (CollectFuturePrerequisiteCompletions P s).1 =
          (.ok (), StepCall GPI s3 (.Invoke (.StartExecutingWhenPrerequisitesComplete X))) ∧
        (∀ P', ¬ IsAddedWith Log X P') ∧
        s3.Futures = (CollectFuturePrerequisiteCompletions P s).2.Futures ∧
        s3.bCheckFailed = (CollectFuturePrerequisiteCompletions P s).2.bCheckFailed ∧
        s3.PromisesOf X = (CollectFuturePrerequisiteCompletions P s).2.PromisesOf X ∧
        (∀ Y, Y ≠ X → s3.Find Y = (CollectFuturePrerequisiteCompletions P s).2.Find Y) ∧
        (∃ pd F, s3.Find X = some (.Defined pd F)) ∧
        SchedulerInv GPI Γ3 (Log ++ [.AddStage X P (.ok ())])
          [.Invoke (.StartExecutingWhenPrerequisitesComplete X)] s3 := by
    intro pd s2 hX hS hFu hCk hM
    have hid : pd.StageId = X := GetStageId_of_Find hX
    have hX2 : s2.Find X = some (.Undefined pd) := by rw [Find_of_Stages hS]; exact hX
    have hDef := SchedulerInv_Define hI2 hX hS hFu hM r5 hFty
    have hnoP : ∀ P', ¬ IsAddedWith Log X P' := by
      have := (hI2.stages X _ hX).1
      rw [hid] at this
      exact this
    refine ⟨s2.Transition X (.Defined pd (CollectFuturePrerequisiteCompletions P s).1), _,
      ?_, hnoP, ?_, ?_, ?_, ?_, ⟨pd, _, Find_Transition_same s2 X _ hid⟩, hDef⟩
    · unfold StageState_AddStage
      rw [hX2]
      simp only [TransitionToStageState_Defined, hid]
      rfl
    · rw [Transition_Futures, hFu, FindOrAddStage_Futures]
    · rw [Transition_bCheckFailed, hCk]
    · rw [PromisesOf_Transition_same s2 X
          (.Defined pd (CollectFuturePrerequisiteCompletions P s).1) hid,
        ← PromisesOf_FindOrAddStage (CollectFuturePrerequisiteCompletions P s).2 X X,
        PromisesOf_of_Find hX]
      rfl
    · intro Y hY
      rw [Find_Transition_other s2 X Y
          (.Defined pd (CollectFuturePrerequisiteCompletions P s).1) hid hY, Find_of_Stages hS,
        Find_FindOrAddStage_other _ X Y hY]
  -- the stage was added before: the state is not undefined
  have herr : ∀ st', ((CollectFuturePrerequisiteCompletions P s).2.FindOrAddStage X).Find X =
        some st' → (∃ P', IsAddedWith Log X P') →
      (CollectFuturePrerequisiteCompletions P s).2.FindOrAddStage X =
        (CollectFuturePrerequisiteCompletions P s).2 := by
    intro st' hst' hadd
    cases hF : (CollectFuturePrerequisiteCompletions P s).2.Find X with
    | some st0 => exact Find_FindOrAddStage_same_of_some _ X st0 hF
    | none =>
      obtain ⟨P', hP'⟩ := hadd
      exact absurd hP' ((r1.log X hF).1 P')
  rw [hAS]
  by_cases hG : GPI = true
  · rw [if_pos hG]
    cases hD : DebugAddStage (CollectFuturePrerequisiteCompletions P s).2.PrerequisitesByStageId
        X P with
    | mk res New =>
      cases res with
      | error e =>
        simp only
        refine Or.inl ⟨e, rfl, ?_, _, SchedulerInv_AddStage_error r1 X P e⟩
        have hres : (DebugAddStage
            (CollectFuturePrerequisiteCompletions P s).2.PrerequisitesByStageId X P).1 =
              .error e := by
          rw [hD]
        rcases DebugAddStage_error_cases hres with ⟨h1, h2⟩ | h1
        · refine Or.inr ⟨h1, ?_⟩
          unfold FPrerequisitesByStageId.Contains at h2
          cases hl : List.lookup X
              (CollectFuturePrerequisiteCompletions P s).2.PrerequisitesByStageId with
          | none => rw [hl] at h2; cases h2
          | some P' => exact ⟨P', (r1.map hG X P').1 hl⟩
        · exact Or.inl ⟨hG, h1⟩
      | ok u =>
        simp only
        have hres : (DebugAddStage
            (CollectFuturePrerequisiteCompletions P s).2.PrerequisitesByStageId X P).1 = .ok u := by
          rw [hD]
        obtain ⟨hnc, hnew⟩ := DebugAddStage_ok hres
        rw [hD] at hnew
        simp only at hnew
        have hnoP : ∀ P', ¬ IsAddedWith Log X P' := by
          intro P' hP'
          have := (hI2.map hG X P').2 hP'
          rw [FindOrAddStage_PrerequisitesByStageId] at this
          unfold FPrerequisitesByStageId.Contains at hnc
          unfold FPrerequisitesByStageId.Find at this
          rw [this] at hnc
          simp at hnc
        have hOK := hI2.stages X st hst
        have hid := GetStageId_of_Find hst
        cases st with
        | Defined pd F =>
          simp only [TStageState.GetStageId] at hid
          obtain ⟨⟨P', hP'⟩, _⟩ := hOK
          rw [hid] at hP'
          exact absurd hP' (hnoP P')
        | Executing Id b Ts Ps =>
          simp only [TStageState.GetStageId] at hid
          obtain ⟨⟨P', hP'⟩, _⟩ := hOK
          rw [hid] at hP'
          exact absurd hP' (hnoP P')
        | Completed Id =>
          simp only [TStageState.GetStageId] at hid
          obtain ⟨⟨P', hP'⟩, _⟩ := hOK
          rw [hid] at hP'
          exact absurd hP' (hnoP P')
        | Undefined pd =>
          have hM : MapOK GPI (Log ++ [.AddStage X P (.ok ())])
              ({ (CollectFuturePrerequisiteCompletions P s).2 with
                PrerequisitesByStageId := New }.FindOrAddStage X) := by
            intro _ Y P'
            rw [FindOrAddStage_PrerequisitesByStageId]
            simp only
            rw [hnew, Emplace_Find P hnc Y, IsAddedWith_append]
            by_cases hYX : Y = X
            · subst hYX
              rw [if_pos rfl]
              constructor
              · intro hh; cases hh; exact Or.inr rfl
              · rintro (hh | hh)
                · exact absurd hh (hnoP P')
                · cases hh; rfl
            · rw [if_neg hYX]
              have := hI2.map hG Y P'
              rw [FindOrAddStage_PrerequisitesByStageId] at this
              rw [this]
              constructor
              · intro hh; exact Or.inl hh
              · rintro (hh | hh)
                · exact hh
                · cases hh; exact absurd rfl hYX
          exact Or.inr (hok pd _ hst
            (@FindOrAddStage_Stages_of_eq (CollectFuturePrerequisiteCompletions P s).2
              { (CollectFuturePrerequisiteCompletions P s).2 with
                PrerequisitesByStageId := New } rfl X)
            (by rw [FindOrAddStage_Futures, FindOrAddStage_Futures])
            (FindOrAddStage_bCheckFailed _ X) hM)
  · rw [if_neg hG]
    have hid := GetStageId_of_Find hst
    have hOK := hI2.stages X st hst
    have hE : ∀ st', st = st' → (∀ pd, st' ≠ .Undefined pd) →
        (∃ P', IsAddedWith Log X P') →
        StageState_AddStage GPI ((CollectFuturePrerequisiteCompletions P s).2.FindOrAddStage X)
          X (CollectFuturePrerequisiteCompletions P s).1 =
          (.error (.StageAlreadyAdded X), (CollectFuturePrerequisiteCompletions P s).2, []) := by
      intro st' hst' hU hadd
      subst hst'
      have h1 := herr st hst hadd
      unfold StageState_AddStage
      rw [hst]
      cases st with
      | Undefined pd => exact absurd rfl (hU pd)
      | Defined pd F => simp only [hid, h1]
      | Executing Id b Ts Ps => simp only [hid, h1]
      | Completed Id => simp only [hid, h1]
    cases st with
    | Undefined pd =>
      exact Or.inr (hok pd _ hst rfl rfl (FindOrAddStage_bCheckFailed _ X)
        (fun hG' => absurd hG' hG))
    | Defined pd F =>
      simp only [TStageState.GetStageId] at hid
      have hadd : ∃ P', IsAddedWith Log X P' := by
        obtain ⟨⟨P', hP'⟩, _⟩ := hOK
        rw [hid] at hP'
        exact ⟨P', hP'⟩
      exact Or.inl ⟨_, hE _ rfl (fun pd h => by cases h) hadd, Or.inr ⟨rfl, hadd⟩, _,
        SchedulerInv_AddStage_error r1 X P _⟩
    | Executing Id b Ts Ps =>
      simp only [TStageState.GetStageId] at hid
      have hadd : ∃ P', IsAddedWith Log X P' := by
        obtain ⟨⟨P', hP'⟩, _⟩ := hOK
        rw [hid] at hP'
        exact ⟨P', hP'⟩
      exact Or.inl ⟨_, hE _ rfl (fun pd h => by cases h) hadd, Or.inr ⟨rfl, hadd⟩, _,
        SchedulerInv_AddStage_error r1 X P _⟩
    | Completed Id =>
      simp only [TStageState.GetStageId] at hid
      have hadd : ∃ P', IsAddedWith Log X P' := by
        obtain ⟨⟨P', hP'⟩, _⟩ := hOK
        rw [hid] at hP'
        exact ⟨P', hP'⟩
      exact Or.inl ⟨_, hE _ rfl (fun pd h => by cases h) hadd, Or.inr ⟨rfl, hadd⟩, _,
        SchedulerInv_AddStage_error r1 X P _⟩

end Zkz.StagedExecution

namespace Zkz.StagedExecution

theorem PromisesOf_Assign (s : TScheduler) (X : IdType) (st st' : TStageState)
    (hX : s.Find X = some st) (hid : st'.GetStageId = X) (hP : st'.Promises = st.Promises)
    (Z : IdType) : (s.Assign X st').PromisesOf Z = s.PromisesOf Z := by
  by_cases hZ : Z = X
  · rw [hZ, PromisesOf_of_Find (Find_Assign_same s X st' st hid hX), PromisesOf_of_Find hX, hP]
  · exact PromisesOf_of_Find_eq (Find_Assign_other s X Z st' hid hZ)

theorem IsFulfilledOnce_FindOrAddStage {s : TScheduler} (hU : IsFulfilledOnce [] s)
    (X : IdType) : IsFulfilledOnce [] (s.FindOrAddStage X) := by
  refine IsFulfilledOnce_of_queued ((FindOrAddStage_bCheckFailed s X).trans hU.check) rfl ?_
  intro Z
  rw [PromisesOf_FindOrAddStage]
  exact hU.queued Z

/-- `AddStage` keeps the promises fulfilled at most once. -/
theorem IsFulfilledOnce_AddStage {GPI : Bool} {Γ : FRoles} {Log : FLog} {s : TScheduler}
    (hI : SchedulerInv GPI Γ Log [] s) (hU : IsFulfilledOnce [] s) (X : IdType)
    (P : List IdType) : IsFulfilledOnce [] (s.AddStage GPI X P).2 := by
  have hA2 : (s.AddStage GPI X P).2 =
      RunCalls GPI (s.AddStageCalls GPI X P).2.2 (s.AddStageCalls GPI X P).2.1 := rfl
  have hC := IsFulfilledOnce_Collect P Γ s hI hU
  rcases AddStageCalls_cases hI X P with
    ⟨e, hE, _, Γ0, hInv⟩ | ⟨s3, Γ3, hE, _, _, hCk, hPX, hO, _, hInv⟩
  · rw [hA2, hE]
    simp only [RunCalls_nil]
    exact hC
  · rw [hA2, hE]
    have hU3 : IsFulfilledOnce [.Invoke (.StartExecutingWhenPrerequisitesComplete X)] s3 := by
      refine IsFulfilledOnce_of_queued (hCk.trans hC.check) rfl ?_
      intro Z
      by_cases hZ : Z = X
      · rw [hZ, hPX]
        exact hC.queued X
      · rw [PromisesOf_of_Find_eq (hO Z hZ)]
        exact hC.queued Z
    have h := IsFulfilledOnce_RunCalls hInv hU3
    rw [RunCalls_cons, List.append_nil] at h
    exact h

/-- The body of `SetAllTasksAdded` keeps the promises fulfilled at most once. -/
theorem IsFulfilledOnce_StageState_SetAllTasksAdded {GPI : Bool} {Γ : FRoles} {Log : FLog}
    {s : TScheduler} {st : TStageState} (hI : SchedulerInv GPI Γ Log [] s)
    (hU : IsFulfilledOnce [] s) (X : IdType) (hX : s.Find X = some st) :
    IsFulfilledOnce (StageState_SetAllTasksAdded s X).2 (StageState_SetAllTasksAdded s X).1 := by
  have hid := GetStageId_of_Find hX
  have hA : ∀ st', st'.GetStageId = X → st'.Promises = st.Promises →
      ∀ Calls, EmplacedBy Calls = [] → IsFulfilledOnce Calls (s.Assign X st') := by
    intro st' h1 h2 Calls hC
    refine IsFulfilledOnce_of_queued hU.check hC ?_
    intro Z
    rw [PromisesOf_Assign s X st st' hX h1 h2 Z]
    exact hU.queued Z
  unfold StageState_SetAllTasksAdded
  rw [hX]
  cases st with
  | Undefined pd =>
    simp only [TStageState.GetStageId] at hid
    simp only
    split
    · exact hU
    · exact hA (.Undefined { pd with bAllTasksCollected := true }) hid rfl [] rfl
  | Defined pd F =>
    simp only [TStageState.GetStageId] at hid
    simp only
    split
    · exact hU
    · exact hA (.Defined { pd with bAllTasksCollected := true } F) hid rfl [] rfl
  | Executing Id b Ts Ps =>
    simp only [TStageState.GetStageId] at hid
    subst hid
    simp only
    split
    · exact hU
    · rename_i hb
      have hb' : b = false := by
        cases b with
        | false => rfl
        | true => exact absurd rfl hb
      subst hb'
      have hI2 : SchedulerInv GPI Γ (Log ++ [.SetAllTasksAdded Id])
          [.Invoke (.CompleteWhenTasksFinished Id)]
          (s.Assign Id (.Executing Id true Ts Ps)) :=
        SchedulerInv_SetAllTasksAdded_set hI hX (Or.inr (Or.inr ⟨Ts, Ps, rfl, rfl, rfl⟩))
      have hU2 := hA (.Executing Id true Ts Ps) rfl rfl
        [.Invoke (.CompleteWhenTasksFinished Id)] rfl
      have h := IsFulfilledOnce_step hI2 hU2
      rw [List.append_nil] at h
      exact h
  | Completed Id => exact hU

/-- `SetAllTasksAdded` keeps the promises fulfilled at most once. -/
theorem IsFulfilledOnce_SetAllTasksAdded {GPI : Bool} {Γ : FRoles} {Log : FLog}
    {s : TScheduler} (hI : SchedulerInv GPI Γ Log [] s) (hU : IsFulfilledOnce [] s)
    (X : IdType) : IsFulfilledOnce [] (s.SetAllTasksAdded GPI X) := by
  obtain ⟨st, hst⟩ := Find_FindOrAddStage_isSome s X
  have hI1 := SchedulerInv_FindOrAddStage hI X
  exact IsFulfilledOnce_RunCalls (SchedulerInv_StageState_SetAllTasksAdded hI1 X hst)
    (IsFulfilledOnce_StageState_SetAllTasksAdded hI1 (IsFulfilledOnce_FindOrAddStage hU X) X hst)

/-- The client fulfils a task completion promise that it holds: no `check` fails. -/
theorem IsFulfilledOnce_fulfil {GPI : Bool} {Γ : FRoles} {Log : FLog} {s : TScheduler}
    {h : FFutureHandle} (hI : SchedulerInv GPI Γ Log [] s) (hU : IsFulfilledOnce [] s)
    (hh : s.HoldsTaskCompletionPromise h = true) :
    IsFulfilledOnce [] (RunCalls GPI [.EmplaceValue h] s) := by
  refine IsFulfilledOnce_RunCalls (SchedulerInv_fulfil hI hh) ⟨hU.check, ?_, ?_, hU.queued⟩
  · intro x hx
    simp only [EmplacedBy, List.mem_singleton] at hx
    rw [hx]
    exact (Holds_role hI hh).1
  · simp [EmplacedBy]

/-- The client destroys a task completion promise that it holds: no `check` fails. -/
theorem IsFulfilledOnce_drop {GPI : Bool} {Γ : FRoles} {Log : FLog} {s : TScheduler}
    {h : FFutureHandle} (hI : SchedulerInv GPI Γ Log [] s) (hU : IsFulfilledOnce [] s)
    (hh : s.HoldsTaskCompletionPromise h = true) :
    IsFulfilledOnce [] (RunCalls GPI [.Cancel h] s) :=
  IsFulfilledOnce_RunCalls (SchedulerInv_drop hI hh)
    (IsFulfilledOnce_of_queued hU.check rfl hU.queued)

theorem IsFulfilledOnce_init : IsFulfilledOnce [] {} :=
  IsFulfilledOnce_of_queued rfl rfl (fun _ => List.nodup_nil)

/-! ### The events of a run

In a configuration of the scheduler in which no promise was fulfilled twice, every
operation returns: no `check` of the engine fails in it. -/

theorem ApplyEvent_AddStage {GPI : Bool} {Γ : FRoles} {r : FRun}
    (hI : SchedulerInv GPI Γ r.Observations [] r.Scheduler)
    (hU : IsFulfilledOnce [] r.Scheduler) (X : IdType) (P : List IdType) :
    ApplyEvent GPI r (.AddStage X P) =
      some ⟨r.Observations ++ [.AddStage X P (r.Scheduler.AddStage GPI X P).1],
        (r.Scheduler.AddStage GPI X P).2⟩ := by
  simp only [ApplyEvent]
  exact Checked_of_flag (IsFulfilledOnce_AddStage hI hU X P).check

theorem ApplyEvent_AddTaskToStage {GPI : Bool} {r : FRun}
    (hU : IsFulfilledOnce [] r.Scheduler) (X T : IdType) :
    ApplyEvent GPI r (.AddTaskToStage X T) =
      some ⟨r.Observations ++ [.AddTaskToStage X T (r.Scheduler.AddTaskToStage X T).1],
        (r.Scheduler.AddTaskToStage X T).2⟩ := by
  simp only [ApplyEvent]
  exact Checked_of_flag (IsFulfilledOnce_AddTaskToStage hU X T).check

theorem ApplyEvent_SetAllTasksAdded {GPI : Bool} {Γ : FRoles} {r : FRun}
    (hI : SchedulerInv GPI Γ r.Observations [] r.Scheduler)
    (hU : IsFulfilledOnce [] r.Scheduler) (X : IdType) :
    ApplyEvent GPI r (.SetAllTasksAdded X) =
      some ⟨r.Observations ++ [.SetAllTasksAdded X], r.Scheduler.SetAllTasksAdded GPI X⟩ := by
  simp only [ApplyEvent]
  exact Checked_of_flag (IsFulfilledOnce_SetAllTasksAdded hI hU X).check

theorem ApplyEvent_FulfilTaskCompletion {GPI : Bool} {Γ : FRoles} {r : FRun}
    (hI : SchedulerInv GPI Γ r.Observations [] r.Scheduler)
    (hU : IsFulfilledOnce [] r.Scheduler) {p : FFutureHandle}
    (hh : r.Scheduler.HoldsTaskCompletionPromise p = true) :
    ApplyEvent GPI r (.FulfilTaskCompletion p) =
      some ⟨r.Observations, RunCalls GPI [.EmplaceValue p] r.Scheduler⟩ := by
  simp only [ApplyEvent, hh, if_true]
  exact Checked_of_flag (IsFulfilledOnce_fulfil hI hU hh).check

theorem ApplyEvent_DropTaskCompletion {GPI : Bool} {Γ : FRoles} {r : FRun}
    (hI : SchedulerInv GPI Γ r.Observations [] r.Scheduler)
    (hU : IsFulfilledOnce [] r.Scheduler) {p : FFutureHandle}
    (hh : r.Scheduler.HoldsTaskCompletionPromise p = true) :
    ApplyEvent GPI r (.DropTaskCompletion p) =
      some ⟨r.Observations, RunCalls GPI [.Cancel p] r.Scheduler⟩ := by
  simp only [ApplyEvent, hh, if_true]
  exact Checked_of_flag (IsFulfilledOnce_drop hI hU hh).check

/-- Every event of a run keeps the promises fulfilled at most once. -/
theorem IsFulfilledOnce_ApplyEvent {GPI : Bool} {Γ : FRoles} {r r' : FRun} {e : FEvent}
    (hI : SchedulerInv GPI Γ r.Observations [] r.Scheduler)
    (hU : IsFulfilledOnce [] r.Scheduler) (h : ApplyEvent GPI r e = some r') :
    IsFulfilledOnce [] r'.Scheduler := by
  cases e with
  | AddStage X P =>
    rw [ApplyEvent_AddStage hI hU X P] at h
    cases h
    exact IsFulfilledOnce_AddStage hI hU X P
  | AddTaskToStage X T =>
    rw [ApplyEvent_AddTaskToStage hU X T] at h
    cases h
    exact IsFulfilledOnce_AddTaskToStage hU X T
  | SetAllTasksAdded X =>
    rw [ApplyEvent_SetAllTasksAdded hI hU X] at h
    cases h
    exact IsFulfilledOnce_SetAllTasksAdded hI hU X
  | AddTask T P =>
    simp only [ApplyEvent] at h
    obtain ⟨R, h1, _⟩ := SchedulerInv_AddStage hI T P
    have u1 := IsFulfilledOnce_AddStage hI hU T P
    cases hA : r.Scheduler.AddStage GPI T P with
    | mk res s1 =>
      rw [hA] at h h1 u1
      cases res with
      | error e =>
        simp only at h
        replace h := Checked_some h
        cases h
        exact u1
      | ok u =>
        simp only at h h1 u1
        obtain ⟨R2, h2⟩ := SchedulerInv_AddTaskToStage h1 T T
        have u2 := IsFulfilledOnce_AddTaskToStage u1 T T
        cases hB : s1.AddTaskToStage T T with
        | mk res2 s2 =>
          rw [hB] at h h2 u2
          cases res2 with
          | error e => simp at h
          | ok f =>
            simp only at h h2 u2
            replace h := Checked_some h
            cases h
            exact IsFulfilledOnce_SetAllTasksAdded h2 u2 T
  | FulfilTaskCompletion p =>
    cases hh : r.Scheduler.HoldsTaskCompletionPromise p with
    | true =>
      rw [ApplyEvent_FulfilTaskCompletion hI hU hh] at h
      cases h
      exact IsFulfilledOnce_fulfil hI hU hh
    | false =>
      simp only [ApplyEvent, hh] at h
      cases h
      exact hU
  | DropTaskCompletion p =>
    cases hh : r.Scheduler.HoldsTaskCompletionPromise p with
    | true =>
      rw [ApplyEvent_DropTaskCompletion hI hU hh] at h
      cases h
      exact IsFulfilledOnce_drop hI hU hh
    | false =>
      simp only [ApplyEvent, hh] at h
      cases h
      exact hU

/-- After every run no promise was fulfilled twice and no stage has queued a promise
twice. -/
theorem Exec_IsFulfilledOnce (GPI : Bool) :
    ∀ (Events : List FEvent) (r : FRun), Exec GPI Events = some r →
      IsFulfilledOnce [] r.Scheduler := by
  intro Events
  induction Events using List.reverseRecOn with
  | nil =>
    intro r h
    cases h
    exact IsFulfilledOnce_init
  | append_singleton Events e ih =>
    intro r h
    rw [Exec_concat] at h
    cases hE : Exec GPI Events with
    | none => rw [hE] at h; cases h
    | some r0 =>
      rw [hE] at h
      obtain ⟨Γ, hI⟩ := Exec_SchedulerInv GPI Events r0 hE
      exact IsFulfilledOnce_ApplyEvent hI (ih r0 hE) h

/-- After a run, `AddStage` returns: no `check` fails in it. -/
theorem Exec_AddStage (GPI : Bool) (Events : List FEvent) (r : FRun)
    (h : Exec GPI Events = some r) (X : IdType) (P : List IdType) :
    Exec GPI (Events ++ [.AddStage X P]) =
      some ⟨r.Observations ++ [.AddStage X P (r.Scheduler.AddStage GPI X P).1],
        (r.Scheduler.AddStage GPI X P).2⟩ := by
  obtain ⟨Γ, hI⟩ := Exec_SchedulerInv GPI Events r h
  rw [Exec_concat, h]
  exact ApplyEvent_AddStage hI (Exec_IsFulfilledOnce GPI Events r h) X P

/-- After a run, `AddTaskToStage` returns: no `check` fails in it. -/
theorem Exec_AddTaskToStage (GPI : Bool) (Events : List FEvent) (r : FRun)
    (h : Exec GPI Events = some r) (X T : IdType) :
    Exec GPI (Events ++ [.AddTaskToStage X T]) =
      some ⟨r.Observations ++ [.AddTaskToStage X T (r.Scheduler.AddTaskToStage X T).1],
        (r.Scheduler.AddTaskToStage X T).2⟩ := by
  rw [Exec_concat, h]
  exact @ApplyEvent_AddTaskToStage GPI r (Exec_IsFulfilledOnce GPI Events r h) X T

/-- After a run, `SetAllTasksAdded` returns: no `check` fails in it. -/
theorem Exec_SetAllTasksAdded (GPI : Bool) (Events : List FEvent) (r : FRun)
    (h : Exec GPI Events = some r) (X : IdType) :
    Exec GPI (Events ++ [.SetAllTasksAdded X]) =
      some ⟨r.Observations ++ [.SetAllTasksAdded X], r.Scheduler.SetAllTasksAdded GPI X⟩ := by
  obtain ⟨Γ, hI⟩ := Exec_SchedulerInv GPI Events r h
  rw [Exec_concat, h]
  exact ApplyEvent_SetAllTasksAdded hI (Exec_IsFulfilledOnce GPI Events r h) X

end Zkz.StagedExecution

namespace Zkz.StagedExecution

/-! ## Consequences of the invariant between the operations -/

theorem GetId_of_Find_none {s : TScheduler} {X : IdType} (h : s.Find X = none) :
    s.GetId X = .Unknown := by
  unfold TScheduler.GetId
  rw [h]

theorem mem_getElem? {α : Type} {a : α} {l : List α} (h : a ∈ l) :
    ∃ j : Nat, j < l.length ∧ l[j]? = some a := by
  obtain ⟨j, hj, hja⟩ := List.getElem_of_mem h
  exact ⟨j, hj, by rw [List.getElem?_eq_getElem hj, hja]⟩

theorem mem_of_getElem?_some {α : Type} {a : α} {l : List α} {j : Nat}
    (h : l[j]? = some a) : a ∈ l := by
  obtain ⟨hj, hja⟩ := List.getElem?_eq_some.1 h
  rw [← hja]
  exact List.getElem_mem hj

/-- A stage about which something was observed is registered. -/
theorem Inv_registered {GPI : Bool} {Γ : FRoles} {Log : FLog} {s : TScheduler}
    (hI : SchedulerInv GPI Γ Log [] s) (X : IdType)
    (h : (∃ P, IsAddedWith Log X P) ∨ IsCollected Log X ∨ TasksOf Log X ≠ []) :
    ∃ st, s.Find X = some st := by
  cases hX : s.Find X with
  | some st => exact ⟨st, rfl⟩
  | none =>
    obtain ⟨h1, h2, h3⟩ := hI.log X hX
    rcases h with ⟨P, hP⟩ | h | h
    · exact absurd hP (h1 P)
    · exact absurd h h2
    · exact absurd h3 h

/-- A stage is undefined (or not registered) exactly as long as no `AddStage` succeeded
for it. -/
theorem Inv_added_iff {GPI : Bool} {Γ : FRoles} {Log : FLog} {s : TScheduler}
    (hI : SchedulerInv GPI Γ Log [] s) (X : IdType) :
    (∃ P, IsAddedWith Log X P) ↔
      (s.GetId X = .Defined ∨ s.GetId X = .Executing ∨ s.GetId X = .Completed) := by
  cases hX : s.Find X with
  | none =>
    rw [GetId_of_Find_none hX]
    constructor
    · rintro ⟨P, hP⟩; exact absurd hP ((hI.log X hX).1 P)
    · rintro (h | h | h) <;> cases h
  | some st =>
    rw [GetId_of_Find hX]
    have hid := GetStageId_of_Find hX
    have hOK := hI.stages X st hX
    cases st with
    | Undefined pd =>
      simp only [TStageState.GetStageId] at hid
      constructor
      · rintro ⟨P, hP⟩
        rw [← hid] at hP
        exact absurd hP (hOK.1 P)
      · rintro (h | h | h) <;> cases h
    | Defined pd F =>
      simp only [TStageState.GetStageId] at hid
      simp only [StageOK] at hOK
      rw [hid] at hOK
      exact ⟨fun _ => Or.inl rfl, fun _ => hOK.1⟩
    | Executing Id b Ts Ps =>
      simp only [TStageState.GetStageId] at hid
      subst hid
      exact ⟨fun _ => Or.inr (Or.inl rfl), fun _ => hOK.1⟩
    | Completed Id =>
      simp only [TStageState.GetStageId] at hid
      subst hid
      exact ⟨fun _ => Or.inr (Or.inr rfl), fun _ => hOK.1⟩

/-- A queued stage completion promise belongs to a stage that is not completed. -/
theorem not_Completed_of_mem_PromisesOf {s : TScheduler} {p : IdType} {a : FFutureHandle}
    (h : a ∈ s.PromisesOf p) : s.GetId p ≠ .Completed := by
  intro hC
  rw [GetId_eq_Completed_iff] at hC
  rw [PromisesOf_of_Find hC] at h
  simp [TStageState.Promises] at h

/-- A defined stage waits for a declared prerequisite that is not completed. -/
theorem Inv_Defined_waits {GPI : Bool} {Γ : FRoles} {Log : FLog} {s : TScheduler}
    (hI : SchedulerInv GPI Γ Log [] s) (X : IdType) (P : List IdType)
    (hDef : s.GetId X = .Defined) (hP : IsAddedWith Log X P) :
    ∃ p, p ∈ P ∧ s.GetId p ≠ .Completed := by
  cases hX : s.Find X with
  | none => rw [GetId_of_Find_none hX] at hDef; cases hDef
  | some st =>
    rw [GetId_of_Find hX] at hDef
    have hid := GetStageId_of_Find hX
    have hOK := hI.stages X st hX
    cases st with
    | Undefined pd => cases hDef
    | Executing Id b Ts Ps => cases hDef
    | Completed Id => cases hDef
    | Defined pd F =>
      simp only [TStageState.GetStageId] at hid
      simp only [StageOK] at hOK
      rw [hid] at hOK
      obtain ⟨_, hChain, _⟩ := hOK
      obtain ⟨_, _, hC⟩ := hChain P hP
      rcases hC with ⟨hhead, _⟩ | ⟨_, ⟨a, p, hp, hΓa, hRa, _⟩, _⟩
      · simp at hhead
      · refine ⟨p, mem_of_getElem?_some hp, ?_⟩
        have hlt : a < s.Futures.length := by
          rw [← hI.roles]
          exact (List.getElem?_eq_some.1 hΓa).1
        have hcell := (hI.cells a hlt).1.2
        rw [hΓa] at hcell
        rcases hcell with ⟨_, hm | hm⟩ | ⟨hv, _⟩
        · exact not_Completed_of_mem_PromisesOf hm
        · simp at hm
        · rw [hRa] at hv; cases hv

/-- The prerequisites of a stage that is executing or completed are completed. -/
theorem Inv_prerequisites_Completed {GPI : Bool} {Γ : FRoles} {Log : FLog} {s : TScheduler}
    (hI : SchedulerInv GPI Γ Log [] s) (X : IdType) (P : List IdType)
    (hSt : s.GetId X = .Executing ∨ s.GetId X = .Completed) (hP : IsAddedWith Log X P) :
    ∀ p, p ∈ P → s.GetId p = .Completed := by
  intro p hp
  cases hX : s.Find X with
  | none => rw [GetId_of_Find_none hX] at hSt; rcases hSt with h | h <;> cases h
  | some st =>
    rw [GetId_of_Find hX] at hSt
    have hid := GetStageId_of_Find hX
    have hOK := hI.stages X st hX
    cases st with
    | Undefined pd => rcases hSt with h | h <;> cases h
    | Defined pd F => rcases hSt with h | h <;> cases h
    | Executing Id b Ts Ps =>
      simp only [TStageState.GetStageId] at hid
      subst hid
      rcases hOK.2.1 P hP p hp with h | h
      · exact h
      · simp at h
    | Completed Id =>
      simp only [TStageState.GetStageId] at hid
      subst hid
      rcases hOK.2.1 P hP p hp with h | h
      · exact h
      · simp at h

/-- What holds of a completed stage. -/
theorem Inv_Completed {GPI : Bool} {Γ : FRoles} {Log : FLog} {s : TScheduler}
    (hI : SchedulerInv GPI Γ Log [] s) (X : IdType) (hC : s.GetId X = .Completed) :
    IsCollected Log X ∧ (∃ P, IsAddedWith Log X P) ∧
      ∀ T he, (T, he) ∈ TasksOf Log X → s.IsFinished he := by
  rw [GetId_eq_Completed_iff] at hC
  obtain ⟨h1, _, h3, _, h5, _⟩ := hI.stages X _ hC
  refine ⟨h3, h1, ?_⟩
  intro T he hm
  obtain ⟨j, hj, hjm⟩ := mem_getElem? hm
  obtain ⟨T', he', hc, h6, h7, h8⟩ := h5 j hj
  rw [hjm] at h6
  cases h6
  exact ⟨hc, h7, h8⟩

/-- The `allTasksCollected` flag of a stage is set exactly when `SetAllTasksAdded` was
called for it. -/
theorem Inv_IsAllTasksCollected {GPI : Bool} {Γ : FRoles} {Log : FLog} {s : TScheduler}
    (hI : SchedulerInv GPI Γ Log [] s) (X : IdType) :
    s.IsAllTasksCollected X = true ↔ IsCollected Log X := by
  unfold TScheduler.IsAllTasksCollected
  cases hX : s.Find X with
  | none =>
    constructor
    · intro h; cases h
    · intro h; exact absurd h (hI.log X hX).2.1
  | some st =>
    simp only
    have hid := GetStageId_of_Find hX
    have hOK := hI.stages X st hX
    cases st with
    | Undefined pd =>
      simp only [TStageState.GetStageId] at hid
      simp only [StageOK] at hOK
      rw [hid] at hOK
      exact hOK.2.1
    | Defined pd F =>
      simp only [TStageState.GetStageId] at hid
      simp only [StageOK] at hOK
      rw [hid] at hOK
      exact hOK.2.2.1
    | Executing Id b Ts Ps =>
      simp only [TStageState.GetStageId] at hid
      subst hid
      exact hOK.2.2.1
    | Completed Id =>
      simp only [TStageState.GetStageId] at hid
      subst hid
      exact ⟨fun _ => hOK.2.2.1, fun _ => rfl⟩

/-- The execution future of a task is resolved exactly when its stage is executing or
completed, and then with a task completion promise. -/
theorem Inv_task_released {GPI : Bool} {Γ : FRoles} {Log : FLog} {s : TScheduler}
    (hI : SchedulerInv GPI Γ Log [] s) (X T : IdType) (he : FFutureHandle)
    (hm : (T, he) ∈ TasksOf Log X) :
    (s.Result he ≠ none ↔ (s.GetId X = .Executing ∨ s.GetId X = .Completed)) ∧
      (s.Result he ≠ none → s.IsReleased he) := by
  obtain ⟨st, hX⟩ := Inv_registered hI X (Or.inr (Or.inr (List.ne_nil_of_mem hm)))
  obtain ⟨j, hj, hjm⟩ := mem_getElem? hm
  rw [GetId_of_Find hX]
  have hid := GetStageId_of_Find hX
  have hOK := hI.stages X st hX
  have hpending : ∀ pd : TStageState_Pending, PendingTasksOK Γ Log s X pd.Tasks →
      s.Result he = none := by
    intro pd hPT
    obtain ⟨h1, h2⟩ := hPT
    have h3 : (pd.Tasks.map (fun t => (t.Id, t.ExecutionPromise)))[j]? = some (T, he) := by
      rw [h1]; exact hjm
    rw [List.getElem?_map] at h3
    cases ht : pd.Tasks[j]? with
    | none => rw [ht] at h3; cases h3
    | some t =>
      rw [ht] at h3
      simp only [Option.map] at h3
      have h4 := (h2 j t ht).2
      cases h3
      exact h4
  have hreleased : ReleasedOK Γ Log s X → ∃ hc, s.Result he = some (.Value (some hc)) := by
    intro hR
    obtain ⟨_, hc, h1, _⟩ := hR j T he hjm
    exact ⟨hc, h1⟩
  cases st with
  | Undefined pd =>
    simp only [TStageState.GetStageId] at hid
    simp only [StageOK] at hOK
    rw [hid] at hOK
    have h0 := hpending pd hOK.2.2.1
    refine ⟨⟨fun h => absurd h0 h, ?_⟩, fun h => absurd h0 h⟩
    rintro (h | h) <;> cases h
  | Defined pd F =>
    simp only [TStageState.GetStageId] at hid
    simp only [StageOK] at hOK
    rw [hid] at hOK
    have h0 := hpending pd hOK.2.2.2.1
    refine ⟨⟨fun h => absurd h0 h, ?_⟩, fun h => absurd h0 h⟩
    rintro (h | h) <;> cases h
  | Executing Id b Ts Ps =>
    simp only [TStageState.GetStageId] at hid
    subst hid
    obtain ⟨hc, h1⟩ := hreleased hOK.2.2.2.2.1
    refine ⟨⟨fun _ => Or.inl rfl, fun _ => by rw [h1]; simp⟩, fun _ => ⟨hc, h1⟩⟩
  | Completed Id =>
    simp only [TStageState.GetStageId] at hid
    subst hid
    obtain ⟨hc, h1⟩ := hreleased hOK.2.2.2.1
    refine ⟨⟨fun _ => Or.inr rfl, fun _ => by rw [h1]; simp⟩, fun _ => ⟨hc, h1⟩⟩

/-- An executing stage that was collected and all of whose tasks have finished does not
exist between the operations: it is completed. -/
theorem Inv_Executing_unfinished {GPI : Bool} {Γ : FRoles} {Log : FLog} {s : TScheduler}
    (hI : SchedulerInv GPI Γ Log [] s) (X : IdType) (hE : s.GetId X = .Executing)
    (hC : IsCollected Log X) :
    ∃ T he, (T, he) ∈ TasksOf Log X ∧ ¬ s.IsFinished he := by
  cases hX : s.Find X with
  | none => rw [GetId_of_Find_none hX] at hE; cases hE
  | some st =>
    rw [GetId_of_Find hX] at hE
    have hid := GetStageId_of_Find hX
    have hOK := hI.stages X st hX
    cases st with
    | Undefined pd => cases hE
    | Defined pd F => cases hE
    | Completed Id => cases hE
    | Executing Id b Ts Ps =>
      simp only [TStageState.GetStageId] at hid
      subst hid
      obtain ⟨_, _, hb, _, hRel, hEnt, hlen, hD⟩ := hOK
      rcases hD with ⟨hb0, _⟩ | ⟨_, hTC, _⟩ | ⟨_, _, hhead, _⟩ | ⟨_, _, _, hlt, _, hW⟩
      · rw [hb.2 hC] at hb0; cases hb0
      · simp at hTC
      · simp at hhead
      · cases hT : (TasksOf Log Id)[Ts.length]? with
        | none =>
          rw [List.getElem?_eq_none_iff] at hT
          exact absurd hlt (Nat.not_lt.2 hT)
        | some e =>
          obtain ⟨T, he⟩ := e
          refine ⟨T, he, mem_of_getElem?_some hT, ?_⟩
          rintro ⟨hc, hr1, hr2⟩
          rcases hW with ⟨a, _, hRa, hΓa | hΓa⟩ | ⟨_, T', he', hc', h1, h2, h3⟩
          · have hlta : a < s.Futures.length := by
              rw [← hI.roles]
              exact (List.getElem?_eq_some.1 hΓa).1
            have hcell := (hI.cells a hlta).1.2
            rw [hΓa] at hcell
            obtain ⟨T', he', h1, h2, _⟩ := hcell
            rw [hT] at h1
            cases h1
            rw [hr1] at h2
            cases h2
            rw [hRa] at hr2
            cases hr2
          · have hlta : a < s.Futures.length := by
              rw [← hI.roles]
              exact (List.getElem?_eq_some.1 hΓa).1
            have hcell := (hI.cells a hlta).1.2
            rw [hΓa] at hcell
            obtain ⟨T', he', hc', h1, h2, _, hL⟩ := hcell
            rw [hT] at h1
            cases h1
            rw [hr1] at h2
            cases h2
            rcases hL with ⟨h4, _⟩ | ⟨_, h5 | ⟨_, h5⟩⟩ | ⟨h4, _⟩
            · rw [hr2] at h4; cases h4
            · rw [hRa] at h5; cases h5
            · simp at h5
            · rw [hr2] at h4; cases h4
          · rw [hT] at h1
            cases h1
            rw [hr1] at h2
            cases h2
            rw [hr2] at h3
            cases h3

end Zkz.StagedExecution

namespace Zkz.StagedExecution

/-! ## Ordering of the stages -/

/-- C1 (prerequisite ordering). In every state reached by a run, a stage that was added
successfully with the prerequisites `P` and is `Executing` or `Completed` has all stages of
`P` in state `Completed`; and when the execution future of one of its tasks is resolved,
every task added to a stage of `P` has finished. -/
theorem Prerequisites_Completed_before_Executing (GPI : Bool) (Events : List FEvent)
    (r : FRun) (h : Exec GPI Events = some r) (X : IdType) (P : List IdType)
    (hAdd : IsAddedWith r.Observations X P) :
    ((r.Scheduler.GetId X = .Executing ∨ r.Scheduler.GetId X = .Completed) →
      ∀ p, p ∈ P → r.Scheduler.GetId p = .Completed) ∧
    ∀ T he, (T, he) ∈ TasksOf r.Observations X → r.Scheduler.Result he ≠ none →
      ∀ p, p ∈ P → ∀ T' he', (T', he') ∈ TasksOf r.Observations p →
        r.Scheduler.IsFinished he' := by
  obtain ⟨Γ, hI⟩ := Exec_SchedulerInv GPI Events r h
  refine ⟨fun hSt => Inv_prerequisites_Completed hI X P hSt hAdd, ?_⟩
  intro T he hm hres p hp T' he' hm'
  have hSt := (Inv_task_released hI X T he hm).1.1 hres
  have hC := Inv_prerequisites_Completed hI X P hSt hAdd p hp
  exact (Inv_Completed hI p hC).2.2 T' he' hm'

theorem Prerequisites_Completed_before_Executing_witness :
    (ExecD true ExampleDependentTask).Scheduler.GetId 2 = .Executing ∧
    (ExecD true ExampleDependentTask).Scheduler.GetId 1 = .Completed ∧
    (ExecD true ExampleDependentTask).Scheduler.IsFinished 0 :=
  ⟨by decide,
    (Prerequisites_Completed_before_Executing true ExampleDependentTask
      (ExecD true ExampleDependentTask) rfl 2 [1] (by unfold IsAddedWith; decide)).1
      (Or.inl (by decide)) 1 (by decide),
    (Prerequisites_Completed_before_Executing true ExampleDependentTask
      (ExecD true ExampleDependentTask) rfl 2 [1] (by unfold IsAddedWith; decide)).2
      2 3 (by decide) (by decide) 1 (by decide) 1 0 (by decide)⟩

/-- C2 (prompt release). After every run a stage is `Defined` only if `AddStage` succeeded
for it and one of the prerequisites declared in that call is not `Completed`; a stage that
was added successfully and all of whose declared prerequisites are `Completed` is
`Executing` or `Completed`. -/
theorem Defined_only_while_prerequisite_not_Completed (GPI : Bool) (Events : List FEvent)
    (r : FRun) (h : Exec GPI Events = some r) (X : IdType) :
    (r.Scheduler.GetId X = .Defined →
      ∃ P, IsAddedWith r.Observations X P ∧
        ∃ p, p ∈ P ∧ r.Scheduler.GetId p ≠ .Completed) ∧
    ∀ P, IsAddedWith r.Observations X P →
      (r.Scheduler.GetId X = .Defined → ∃ p, p ∈ P ∧ r.Scheduler.GetId p ≠ .Completed) ∧
      ((∀ p, p ∈ P → r.Scheduler.GetId p = .Completed) →
        (r.Scheduler.GetId X = .Executing ∨ r.Scheduler.GetId X = .Completed)) := by
  obtain ⟨Γ, hI⟩ := Exec_SchedulerInv GPI Events r h
  constructor
  · intro hDef
    obtain ⟨P, hP⟩ := (Inv_added_iff hI X).2 (Or.inl hDef)
    exact ⟨P, hP, Inv_Defined_waits hI X P hDef hP⟩
  · intro P hP
    refine ⟨fun hDef => Inv_Defined_waits hI X P hDef hP, ?_⟩
    intro hall
    rcases (Inv_added_iff hI X).1 ⟨P, hP⟩ with hD | hE | hC
    · obtain ⟨p, hp, hne⟩ := Inv_Defined_waits hI X P hD hP
      exact absurd (hall p hp) hne
    · exact Or.inl hE
    · exact Or.inr hC

theorem Defined_only_while_prerequisite_not_Completed_witness :
    (ExecD true ExampleWaitingStage).Scheduler.GetId 2 = .Defined ∧
    (∃ P, IsAddedWith (ExecD true ExampleWaitingStage).Observations 2 P ∧
      ∃ p, p ∈ P ∧ (ExecD true ExampleWaitingStage).Scheduler.GetId p ≠ .Completed) ∧
    ((ExecD true ExampleDependentTask).Scheduler.GetId 2 = .Executing ∨
      (ExecD true ExampleDependentTask).Scheduler.GetId 2 = .Completed) :=
  ⟨by decide,
    (Defined_only_while_prerequisite_not_Completed true ExampleWaitingStage
      (ExecD true ExampleWaitingStage) rfl 2).1 (by decide),
    ((Defined_only_while_prerequisite_not_Completed true ExampleDependentTask
      (ExecD true ExampleDependentTask) rfl 2).2 [1] (by unfold IsAddedWith; decide)).2
      (by decide)⟩

/-- C3 (completion is sound). After every run, for a `Completed` stage `SetAllTasksAdded`
was called, `AddStage` succeeded, and every task added to it was released and its task
completion promise fulfilled with a value; a stage with a task whose task completion
promise was canceled is not `Completed`. -/
theorem Completed_only_when_all_tasks_finished (GPI : Bool) (Events : List FEvent)
    (r : FRun) (h : Exec GPI Events = some r) (X : IdType) :
    (r.Scheduler.GetId X = .Completed →
      IsCollected r.Observations X ∧ (∃ P, IsAddedWith r.Observations X P) ∧
        ∀ T he, (T, he) ∈ TasksOf r.Observations X → r.Scheduler.IsFinished he) ∧
    ∀ T he hc, (T, he) ∈ TasksOf r.Observations X →
      r.Scheduler.Result he = some (.Value (some hc)) →
      r.Scheduler.Result hc = some .Canceled → r.Scheduler.GetId X ≠ .Completed := by
  obtain ⟨Γ, hI⟩ := Exec_SchedulerInv GPI Events r h
  refine ⟨fun hC => Inv_Completed hI X hC, ?_⟩
  intro T he hc hm h1 h2 hC
  obtain ⟨hc', h3, h4⟩ := (Inv_Completed hI X hC).2.2 T he hm
  rw [h1] at h3
  cases h3
  rw [h2] at h4
  cases h4

theorem Completed_only_when_all_tasks_finished_witness :
    (IsCollected (ExecD true ExampleDependentTask).Observations 1 ∧
      (∃ P, IsAddedWith (ExecD true ExampleDependentTask).Observations 1 P) ∧
      ∀ T he, (T, he) ∈ TasksOf (ExecD true ExampleDependentTask).Observations 1 →
        (ExecD true ExampleDependentTask).Scheduler.IsFinished he) ∧
    (ExecD true ExampleDroppedTask).Scheduler.GetId 1 ≠ .Completed :=
  ⟨(Completed_only_when_all_tasks_finished true ExampleDependentTask
      (ExecD true ExampleDependentTask) rfl 1).1 (by decide),
    (Completed_only_when_all_tasks_finished true ExampleDroppedTask
      (ExecD true ExampleDroppedTask) rfl 1).2 1 0 1 (by decide) (by decide) (by decide)⟩

/-- C4 (completion is complete). After every run a stage that has reached `Executing`, for
which `SetAllTasksAdded` was called and all of whose tasks were released and finished, is
`Completed`; in particular an executing stage without tasks for which `SetAllTasksAdded`
was called. -/
theorem Completed_when_all_tasks_finished (GPI : Bool) (Events : List FEvent)
    (r : FRun) (h : Exec GPI Events = some r) (X : IdType)
    (hE : r.Scheduler.GetId X = .Executing ∨ r.Scheduler.GetId X = .Completed)
    (hC : IsCollected r.Observations X)
    (hF : ∀ T he, (T, he) ∈ TasksOf r.Observations X → r.Scheduler.IsFinished he) :
    r.Scheduler.GetId X = .Completed := by
  obtain ⟨Γ, hI⟩ := Exec_SchedulerInv GPI Events r h
  rcases hE with hE | hE
  · obtain ⟨T, he, hm, hn⟩ := Inv_Executing_unfinished hI X hE hC
    exact absurd (hF T he hm) hn
  · exact hE

theorem Completed_when_all_tasks_finished_witness :
    (ExecD true [.AddStage 1 [], .AddTaskToStage 1 7, .SetAllTasksAdded 1,
      .FulfilTaskCompletion 1]).Scheduler.GetId 1 = .Completed :=
  Completed_when_all_tasks_finished true
    [.AddStage 1 [], .AddTaskToStage 1 7, .SetAllTasksAdded 1, .FulfilTaskCompletion 1]
    (ExecD true [.AddStage 1 [], .AddTaskToStage 1 7, .SetAllTasksAdded 1,
      .FulfilTaskCompletion 1]) rfl 1 (Or.inr (by decide)) (by unfold IsCollected; decide)
    (by
      have hT : TasksOf (ExecD true [.AddStage 1 [], .AddTaskToStage 1 7,
          .SetAllTasksAdded 1, .FulfilTaskCompletion 1]).Observations 1 = [(7, 0)] := by
        decide
      intro T he hm
      rw [hT, List.mem_singleton] at hm
      cases hm
      exact ⟨1, by decide, by decide⟩)

end Zkz.StagedExecution

namespace Zkz.StagedExecution

/-! ## `AddTaskToStage` -/

theorem TaskIdsOf_of_Find {s : TScheduler} {X : IdType} {st : TStageState}
    (h : s.Find X = some st) : s.TaskIdsOf X = st.TaskIds := by
  unfold TScheduler.TaskIdsOf
  rw [h]

theorem IsAllTasksCollected_of_Find {s : TScheduler} {X : IdType} {st : TStageState}
    (h : s.Find X = some st) : s.IsAllTasksCollected X = st.IsAllTasksCollected := by
  unfold TScheduler.IsAllTasksCollected
  rw [h]

/-- `StageState::AddTaskToStage` on a stage whose flag is set. -/
theorem StageState_AddTaskToStage_collected (s : TScheduler) (X T : IdType) (st : TStageState)
    (hX : s.Find X = some st) (hb : st.IsAllTasksCollected = true) :
    StageState_AddTaskToStage s X T = (.error ⟨X, T⟩, s) := by
  have hid := GetStageId_of_Find hX
  unfold StageState_AddTaskToStage
  rw [hX]
  cases st with
  | Undefined pd =>
    simp only [TStageState.IsAllTasksCollected] at hb
    simp only [TStageState.GetStageId] at hid
    simp only [hb, if_true, hid]
  | Defined pd F =>
    simp only [TStageState.IsAllTasksCollected] at hb
    simp only [TStageState.GetStageId] at hid
    simp only [hb, if_true, hid]
  | Executing Id b Ts Ps =>
    simp only [TStageState.IsAllTasksCollected] at hb
    simp only [TStageState.GetStageId] at hid
    simp only [hb, if_true, hid]
  | Completed Id =>
    simp only [TStageState.GetStageId] at hid
    simp only [hid]

/-- `StageState::AddTaskToStage` on a stage whose flag is not set. -/
theorem StageState_AddTaskToStage_not_collected (s : TScheduler) (X T : IdType)
    (st : TStageState) (hX : s.Find X = some st) (hb : st.IsAllTasksCollected = false) :
    (StageState_AddTaskToStage s X T).1 = .ok s.Futures.length ∧
      ∃ st', (StageState_AddTaskToStage s X T).2.Find X = some st' ∧
        st'.TaskIds = st.TaskIds ++ [T] ∧ st'.GetId = st.GetId ∧
        st'.IsAllTasksCollected = false := by
  have hid := GetStageId_of_Find hX
  unfold StageState_AddTaskToStage
  rw [hX]
  cases st with
  | Undefined pd =>
    simp only [TStageState.IsAllTasksCollected] at hb
    simp only [TStageState.GetStageId] at hid
    simp only [hb, Bool.false_eq_true, if_false, NewPromise_fst, true_and]
    refine ⟨_, Find_Assign_same _ X _ _ hid (by rw [NewPromise_Find]; exact hX), ?_, rfl, rfl⟩
    simp [TStageState.TaskIds]
  | Defined pd F =>
    simp only [TStageState.IsAllTasksCollected] at hb
    simp only [TStageState.GetStageId] at hid
    simp only [hb, Bool.false_eq_true, if_false, NewPromise_fst, true_and]
    refine ⟨_, Find_Assign_same _ X _ _ hid (by rw [NewPromise_Find]; exact hX), ?_, rfl, rfl⟩
    simp [TStageState.TaskIds]
  | Executing Id b Ts Ps =>
    simp only [TStageState.IsAllTasksCollected] at hb
    simp only [TStageState.GetStageId] at hid
    simp only [hb, Bool.false_eq_true, if_false, NewPromise_fst, true_and, SetValue_Find]
    refine ⟨_, Find_Assign_same _ X _ _ hid
      (by rw [NewPromise_Find, NewPromise_Find]; exact hX), ?_, rfl, rfl⟩
    simp [TStageState.TaskIds]
  | Completed Id =>
    simp [TStageState.IsAllTasksCollected] at hb

/-- `TScheduler::AddTaskToStage` on a stage whose flag is set: the error, nothing
changes. -/
theorem AddTaskToStage_collected (s : TScheduler) (X T : IdType)
    (hb : s.IsAllTasksCollected X = true) :
    s.AddTaskToStage X T = (.error ⟨X, T⟩, s) := by
  cases hX : s.Find X with
  | none =>
    unfold TScheduler.IsAllTasksCollected at hb
    rw [hX] at hb
    cases hb
  | some st =>
    rw [IsAllTasksCollected_of_Find hX] at hb
    unfold TScheduler.AddTaskToStage
    rw [Find_FindOrAddStage_same_of_some s X st hX]
    exact StageState_AddTaskToStage_collected s X T st hX hb

/-- `TScheduler::AddTaskToStage` on a stage whose flag is not set (or that is not
registered): the new execution future is returned and one task entry is appended. -/
theorem AddTaskToStage_not_collected (s : TScheduler) (X T : IdType)
    (hb : s.IsAllTasksCollected X = false) :
    (s.AddTaskToStage X T).1 = .ok s.Futures.length ∧
      (s.AddTaskToStage X T).2.TaskIdsOf X = s.TaskIdsOf X ++ [T] ∧
      (s.AddTaskToStage X T).2.IsAllTasksCollected X = false ∧
      (s.GetId X ≠ .Unknown → (s.AddTaskToStage X T).2.GetId X = s.GetId X) := by
  cases hX : s.Find X with
  | none =>
    have hX' := Find_FindOrAddStage_same_of_none s X hX
    obtain ⟨h1, st', h2, h3, _, h5⟩ :=
      StageState_AddTaskToStage_not_collected (s.FindOrAddStage X) X T _ hX' rfl
    unfold TScheduler.AddTaskToStage
    rw [FindOrAddStage_Futures] at h1
    refine ⟨h1, ?_, ?_, ?_⟩
    · rw [TaskIdsOf_of_Find h2, h3]
      unfold TScheduler.TaskIdsOf
      rw [hX]
      rfl
    · rw [IsAllTasksCollected_of_Find h2, h5]
    · intro hne
      exact absurd (GetId_of_Find_none hX) hne
  | some st =>
    rw [IsAllTasksCollected_of_Find hX] at hb
    obtain ⟨h1, st', h2, h3, h4, h5⟩ :=
      StageState_AddTaskToStage_not_collected s X T st hX hb
    unfold TScheduler.AddTaskToStage
    rw [Find_FindOrAddStage_same_of_some s X st hX]
    refine ⟨h1, ?_, ?_, ?_⟩
    · rw [TaskIdsOf_of_Find h2, h3, TaskIdsOf_of_Find hX]
    · rw [IsAllTasksCollected_of_Find h2, h5]
    · intro _
      rw [GetId_of_Find h2, h4, GetId_of_Find hX]

/-- C5 (pre-definition independence). After every run, `AddTaskToStage(X, T)` returns a
value on a stage for which `SetAllTasksAdded` was never called (in particular one that was
never mentioned) and on a stage that is not registered, `Undefined` or `Defined` and whose
`allTasksCollected` flag is not set; and the execution future that a successful
`AddTaskToStage` on `X` returned is resolved exactly when `X` is `Executing` or
`Completed`, and then with a task completion promise. -/
theorem AddTaskToStage_before_definition (GPI : Bool) (Events : List FEvent) (r : FRun)
    (h : Exec GPI Events = some r) (X : IdType) :
    (∀ T, ¬ IsCollected r.Observations X →
        ∃ he, (r.Scheduler.AddTaskToStage X T).1 = .ok he) ∧
    (∀ T, (r.Scheduler.GetId X = .Unknown ∨ r.Scheduler.GetId X = .Undefined ∨
          r.Scheduler.GetId X = .Defined) →
        r.Scheduler.IsAllTasksCollected X = false →
        ∃ he, (r.Scheduler.AddTaskToStage X T).1 = .ok he) ∧
    ∀ T he, (T, he) ∈ TasksOf r.Observations X →
      (r.Scheduler.Result he ≠ none ↔
        (r.Scheduler.GetId X = .Executing ∨ r.Scheduler.GetId X = .Completed)) ∧
      (r.Scheduler.Result he ≠ none → r.Scheduler.IsReleased he) := by
  obtain ⟨Γ, hI⟩ := Exec_SchedulerInv GPI Events r h
  refine ⟨?_, fun T _ hb => ⟨_, (AddTaskToStage_not_collected r.Scheduler X T hb).1⟩, ?_⟩
  · intro T hC
    have hb : r.Scheduler.IsAllTasksCollected X = false := by
      cases hb : r.Scheduler.IsAllTasksCollected X with
      | false => rfl
      | true => exact absurd ((Inv_IsAllTasksCollected hI X).1 hb) hC
    exact ⟨_, (AddTaskToStage_not_collected r.Scheduler X T hb).1⟩
  · intro T he hm
    exact Inv_task_released hI X T he hm

theorem AddTaskToStage_before_definition_witness :
    (∃ he, ((ExecD true ExampleWaitingStage).Scheduler.AddTaskToStage 7 5).1 = .ok he) ∧
    (∃ he, ((ExecD true ExampleWaitingStage).Scheduler.AddTaskToStage 2 5).1 = .ok he) ∧
    ((ExecD true ExampleDependentTask).Scheduler.Result 3 ≠ none ↔
      ((ExecD true ExampleDependentTask).Scheduler.GetId 2 = .Executing ∨
        (ExecD true ExampleDependentTask).Scheduler.GetId 2 = .Completed)) ∧
    ((ExecD true ExampleDroppedTask).Scheduler.Result 3 ≠ none ↔
      ((ExecD true ExampleDroppedTask).Scheduler.GetId 2 = .Executing ∨
        (ExecD true ExampleDroppedTask).Scheduler.GetId 2 = .Completed)) :=
  ⟨(AddTaskToStage_before_definition true ExampleWaitingStage (ExecD true ExampleWaitingStage)
      rfl 7).1 5 (by unfold IsCollected; decide),
    (AddTaskToStage_before_definition true ExampleWaitingStage (ExecD true ExampleWaitingStage)
      rfl 2).2.1 5 (Or.inr (Or.inr (by decide))) (by decide),
    ((AddTaskToStage_before_definition true ExampleDependentTask
      (ExecD true ExampleDependentTask) rfl 2).2.2 2 3 (by decide)).1,
    ((AddTaskToStage_before_definition true ExampleDroppedTask
      (ExecD true ExampleDroppedTask) rfl 2).2.2 2 3 (by decide)).1⟩

/-- C6 (`AllTasksCollected`). After every run, `AddTaskToStage(X, T)` returns the error
`AllTasksCollected(X, T)` exactly when `SetAllTasksAdded(X)` was called before, which is
the case for every `Completed` stage, and then the scheduler is unchanged; otherwise it
returns a value and appends one entry with id `T` at the end of the task list of `X`. -/
theorem AddTaskToStage_error_iff_collected (GPI : Bool) (Events : List FEvent) (r : FRun)
    (h : Exec GPI Events = some r) (X T : IdType) :
    ((r.Scheduler.AddTaskToStage X T).1 = .error ⟨X, T⟩ ↔ IsCollected r.Observations X) ∧
    (IsCollected r.Observations X → (r.Scheduler.AddTaskToStage X T).2 = r.Scheduler) ∧
    (¬ IsCollected r.Observations X →
      (∃ he, (r.Scheduler.AddTaskToStage X T).1 = .ok he) ∧
      (r.Scheduler.AddTaskToStage X T).2.TaskIdsOf X = r.Scheduler.TaskIdsOf X ++ [T]) ∧
    (r.Scheduler.GetId X = .Completed → IsCollected r.Observations X) := by
  obtain ⟨Γ, hI⟩ := Exec_SchedulerInv GPI Events r h
  have hflag := Inv_IsAllTasksCollected hI X
  refine ⟨?_, ?_, ?_, fun hC => (Inv_Completed hI X hC).1⟩
  · constructor
    · intro he
      by_cases hb : r.Scheduler.IsAllTasksCollected X = true
      · exact hflag.1 hb
      · have hb' : r.Scheduler.IsAllTasksCollected X = false := by simpa using hb
        rw [(AddTaskToStage_not_collected r.Scheduler X T hb').1] at he
        cases he
    · intro hC
      rw [AddTaskToStage_collected r.Scheduler X T (hflag.2 hC)]
  · intro hC
    rw [AddTaskToStage_collected r.Scheduler X T (hflag.2 hC)]
  · intro hC
    have hb' : r.Scheduler.IsAllTasksCollected X = false := by
      cases hb : r.Scheduler.IsAllTasksCollected X with
      | false => rfl
      | true => exact absurd (hflag.1 hb) hC
    obtain ⟨h1, h2, _⟩ := AddTaskToStage_not_collected r.Scheduler X T hb'
    exact ⟨⟨_, h1⟩, h2⟩

theorem AddTaskToStage_error_iff_collected_witness :
    (((ExecD true ExampleDependentTask).Scheduler.AddTaskToStage 1 9).1 = .error ⟨1, 9⟩ ↔
      IsCollected (ExecD true ExampleDependentTask).Observations 1) ∧
    ((ExecD true ExampleWaitingStage).Scheduler.AddTaskToStage 2 9).2.TaskIdsOf 2 =
      (ExecD true ExampleWaitingStage).Scheduler.TaskIdsOf 2 ++ [9] :=
  ⟨(AddTaskToStage_error_iff_collected true ExampleDependentTask
      (ExecD true ExampleDependentTask) rfl 1 9).1,
    ((AddTaskToStage_error_iff_collected true ExampleWaitingStage
      (ExecD true ExampleWaitingStage) rfl 2 9).2.2.1 (by unfold IsCollected; decide)).2⟩

end Zkz.StagedExecution

namespace Zkz.StagedExecution

/-! ## `AddFollowUp` and the first loop of `AddStage` -/

@[simp] theorem QueuePromises_nil (st : TStageState) : st.QueuePromises [] = st := by
  cases st <;> simp [TStageState.QueuePromises]

@[simp] theorem QueuePromises_QueuePromises (st : TStageState) (A B : List FFutureHandle) :
    (st.QueuePromises A).QueuePromises B = st.QueuePromises (A ++ B) := by
  cases st <;> simp [TStageState.QueuePromises]

@[simp] theorem QueuePromises_GetId (st : TStageState) (A : List FFutureHandle) :
    (st.QueuePromises A).GetId = st.GetId := by
  cases st <;> rfl

@[simp] theorem QueuePromises_GetStageId (st : TStageState) (A : List FFutureHandle) :
    (st.QueuePromises A).GetStageId = st.GetStageId := by
  cases st <;> rfl

@[simp] theorem QueuePromises_TaskIds (st : TStageState) (A : List FFutureHandle) :
    (st.QueuePromises A).TaskIds = st.TaskIds := by
  cases st <;> rfl

@[simp] theorem QueuePromises_IsAllTasksCollected (st : TStageState) (A : List FFutureHandle) :
    (st.QueuePromises A).IsAllTasksCollected = st.IsAllTasksCollected := by
  cases st <;> rfl

@[simp] theorem QueuePromises_FuturePrerequisiteCompletions (st : TStageState)
    (A : List FFutureHandle) :
    (st.QueuePromises A).FuturePrerequisiteCompletions = st.FuturePrerequisiteCompletions := by
  cases st <;> rfl

theorem QueuePromises_Promises (st : TStageState) (A : List FFutureHandle)
    (h : st.GetId ≠ .Completed) : (st.QueuePromises A).Promises = st.Promises ++ A := by
  cases st with
  | Completed Id => exact absurd rfl h
  | Undefined pd => rfl
  | Defined pd F => rfl
  | Executing Id b Ts Ps => rfl

theorem QueuePromises_Completed (st : TStageState) (A : List FFutureHandle)
    (h : st.GetId = .Completed) : st.QueuePromises A = st := by
  cases st with
  | Completed Id => rfl
  | Undefined pd => cases h
  | Defined pd F => cases h
  | Executing Id b Ts Ps => cases h

/-- `AddFollowUp` on a registered stage that is not completed. -/
theorem AddFollowUp_pending (s : TScheduler) (X : IdType) (st : TStageState)
    (hX : s.Find X = some st) (hC : st.GetId ≠ .Completed) :
    AddFollowUp s X =
      (s.Futures.length, (s.NewPromise {}).2.Assign X (st.QueuePromises [s.Futures.length])) := by
  unfold AddFollowUp
  rw [hX]
  cases st with
  | Completed Id => exact absurd rfl hC
  | Undefined pd => rfl
  | Defined pd F => rfl
  | Executing Id b Ts Ps => rfl

/-- `AddFollowUp` on a completed stage. -/
theorem AddFollowUp_Completed (s : TScheduler) (X : IdType) (st : TStageState)
    (hX : s.Find X = some st) (hC : st.GetId = .Completed) :
    AddFollowUp s X = s.NewPromise { Result := some (.Value none) } := by
  unfold AddFollowUp
  rw [hX]
  cases st with
  | Completed Id => rfl
  | Undefined pd => cases hC
  | Defined pd F => cases hC
  | Executing Id b Ts Ps => cases hC

theorem AddFollowUp_Find_other (s : TScheduler) (X Y : IdType) (hY : Y ≠ X) :
    (AddFollowUp s X).2.Find Y = s.Find Y := by
  cases hX : s.Find X with
  | none =>
    unfold AddFollowUp
    rw [hX]
    exact NewPromise_Find s _ Y
  | some st =>
    by_cases hC : st.GetId = .Completed
    · rw [AddFollowUp_Completed s X st hX hC]
      exact NewPromise_Find s _ Y
    · rw [AddFollowUp_pending s X st hX hC]
      have hid : (st.QueuePromises [s.Futures.length]).GetStageId = X := by
        rw [QueuePromises_GetStageId]; exact GetStageId_of_Find hX
      show ((s.NewPromise {}).2.Assign X (st.QueuePromises [s.Futures.length])).Find Y = s.Find Y
      rw [Find_Assign_other _ X Y _ hid hY, NewPromise_Find]

theorem AddFollowUp_Find_same (s : TScheduler) (X : IdType) (st : TStageState)
    (hX : s.Find X = some st) :
    (AddFollowUp s X).2.Find X =
      some (st.QueuePromises (if st.GetId = .Completed then [] else [s.Futures.length])) := by
  by_cases hC : st.GetId = .Completed
  · rw [AddFollowUp_Completed s X st hX hC, if_pos hC, QueuePromises_nil, NewPromise_Find]
    exact hX
  · rw [AddFollowUp_pending s X st hX hC, if_neg hC]
    have hid : (st.QueuePromises [s.Futures.length]).GetStageId = X := by
      rw [QueuePromises_GetStageId]; exact GetStageId_of_Find hX
    exact Find_Assign_same _ X _ st hid (by rw [NewPromise_Find]; exact hX)

/-- C15 (`AddFollowUp`). On a stage that is `Undefined`, `Defined` or `Executing`,
`AddFollowUp` allocates one new unfulfilled promise, queues it after the stage completion
promises of the stage, leaves the rest of the stage state, the other stages and the other
shared states as they are and returns the new promise; on a `Completed` stage it leaves
the registry as it is and returns a new promise that is already resolved with a value. -/
theorem AddFollowUp_queues_one_promise (s : TScheduler) (X : IdType) (st : TStageState)
    (hX : s.Find X = some st) :
    (st.GetId ≠ .Completed →
      (AddFollowUp s X).2.Find X = some (st.QueuePromises [(AddFollowUp s X).1]) ∧
      (st.QueuePromises [(AddFollowUp s X).1]).Promises =
        st.Promises ++ [(AddFollowUp s X).1] ∧
      (AddFollowUp s X).2.Futures = s.Futures ++ [FFutureState.mk none none] ∧
      (AddFollowUp s X).2.Result (AddFollowUp s X).1 = none) ∧
    (st.GetId = .Completed →
      (AddFollowUp s X).2.Stages = s.Stages ∧
      (AddFollowUp s X).2.Futures = s.Futures ++ [FFutureState.mk (some (.Value none)) none] ∧
      (AddFollowUp s X).2.Result (AddFollowUp s X).1 = some (.Value none)) ∧
    (AddFollowUp s X).1 = s.Futures.length ∧
    (∀ Y, Y ≠ X → (AddFollowUp s X).2.Find Y = s.Find Y) ∧
    (AddFollowUp s X).2.PrerequisitesByStageId = s.PrerequisitesByStageId := by
  refine ⟨?_, ?_, ?_, fun Y hY => AddFollowUp_Find_other s X Y hY,
    AddFollowUp_PrerequisitesByStageId s X⟩
  · intro hC
    have hF := AddFollowUp_Find_same s X st hX
    rw [if_neg hC] at hF
    rw [AddFollowUp_pending s X st hX hC] at hF ⊢
    refine ⟨hF, QueuePromises_Promises st _ hC, rfl, ?_⟩
    show ((s.NewPromise {}).2.Assign X _).Result s.Futures.length = none
    rw [Assign_Result, Result_NewPromise_new]
  · intro hC
    rw [AddFollowUp_Completed s X st hX hC]
    refine ⟨rfl, rfl, ?_⟩
    show (s.NewPromise _).2.Result s.Futures.length = some (.Value none)
    rw [Result_NewPromise_new]
  · by_cases hC : st.GetId = .Completed
    · rw [AddFollowUp_Completed s X st hX hC]; rfl
    · rw [AddFollowUp_pending s X st hX hC]

theorem AddFollowUp_queues_one_promise_witness :
    (AddFollowUp (ExecD true ExampleWaitingStage).Scheduler 1).2.Find 1 =
        some (.Undefined { StageId := 1, StageCompletionPromises := [0, 1] }) ∧
    (AddFollowUp (ExecD true ExampleDependentTask).Scheduler 1).2.Result
        (AddFollowUp (ExecD true ExampleDependentTask).Scheduler 1).1 =
      some (.Value none) :=
  ⟨((AddFollowUp_queues_one_promise (ExecD true ExampleWaitingStage).Scheduler 1
      (.Undefined { StageId := 1, StageCompletionPromises := [0] }) (by decide)).1
      (by decide)).1,
    ((AddFollowUp_queues_one_promise (ExecD true ExampleDependentTask).Scheduler 1
      (.Completed 1) (by decide)).2.1 rfl).2.2⟩

end Zkz.StagedExecution

namespace Zkz.StagedExecution

/-! ## `AddStage` on a stage that was added before -/

theorem Collect_cons_snd (p : IdType) (Rest : List IdType) (s : TScheduler) :
    (CollectFuturePrerequisiteCompletions (p :: Rest) s).2 =
      (CollectFuturePrerequisiteCompletions Rest (AddFollowUp (s.FindOrAddStage p) p).2).2 :=
  rfl

/-- The first loop of `AddStage` only queues stage completion promises: one in the stage
`Y` for every occurrence of `Y` among the prerequisites, none when `Y` is completed. -/
theorem Collect_Find_registered (Y : IdType) :
    ∀ (P : List IdType) (s : TScheduler) (st : TStageState), s.Find Y = some st →
      ∃ New, (CollectFuturePrerequisiteCompletions P s).2.Find Y =
          some (st.QueuePromises New) ∧
        New.length = if st.GetId = .Completed then 0 else P.count Y := by
  intro P
  induction P with
  | nil =>
    intro s st hY
    exact ⟨[], by rw [QueuePromises_nil]; exact hY, by simp⟩
  | cons p Rest ih =>
    intro s st hY
    rw [Collect_cons_snd]
    by_cases hp : p = Y
    · subst hp
      have h1 := AddFollowUp_Find_same (s.FindOrAddStage p) p st
        (by rw [Find_FindOrAddStage_same_of_some s p st hY]; exact hY)
      obtain ⟨New, h2, h3⟩ := ih _ _ h1
      rw [QueuePromises_QueuePromises] at h2
      refine ⟨_, h2, ?_⟩
      rw [QueuePromises_GetId] at h3
      by_cases hC : st.GetId = .Completed
      · rw [if_pos hC] at h3 ⊢
        rw [if_pos hC, List.length_append, h3]
        rfl
      · rw [if_neg hC] at h3 ⊢
        rw [if_neg hC, List.length_append, h3, List.count_cons_self]
        simp [Nat.add_comm]
    · have h1 : (AddFollowUp (s.FindOrAddStage p) p).2.Find Y = some st := by
        rw [AddFollowUp_Find_other _ p Y (Ne.symm hp),
          Find_FindOrAddStage_other s p Y (Ne.symm hp)]
        exact hY
      obtain ⟨New, h2, h3⟩ := ih _ _ h1
      refine ⟨New, h2, ?_⟩
      rw [h3, List.count_cons_of_ne (Ne.symm hp)]

theorem FindOrAddStage_TaskIdsOf (s : TScheduler) (X Y : IdType) :
    (s.FindOrAddStage X).TaskIdsOf Y = s.TaskIdsOf Y ∧
      (s.FindOrAddStage X).IsAllTasksCollected Y = s.IsAllTasksCollected Y := by
  cases hX : s.Find X with
  | some st => rw [Find_FindOrAddStage_same_of_some s X st hX]; exact ⟨rfl, rfl⟩
  | none =>
    by_cases hY : Y = X
    · subst hY
      unfold TScheduler.TaskIdsOf TScheduler.IsAllTasksCollected
      rw [Find_FindOrAddStage_same_of_none s Y hX, hX]
      exact ⟨rfl, rfl⟩
    · unfold TScheduler.TaskIdsOf TScheduler.IsAllTasksCollected
      rw [Find_FindOrAddStage_other s X Y hY]
      exact ⟨rfl, rfl⟩

theorem Collect_TaskIdsOf (Y : IdType) :
    ∀ (P : List IdType) (s : TScheduler),
      (CollectFuturePrerequisiteCompletions P s).2.TaskIdsOf Y = s.TaskIdsOf Y ∧
        (CollectFuturePrerequisiteCompletions P s).2.IsAllTasksCollected Y =
          s.IsAllTasksCollected Y := by
  intro P
  induction P with
  | nil => intro s; exact ⟨rfl, rfl⟩
  | cons p Rest ih =>
    intro s
    rw [Collect_cons_snd]
    obtain ⟨h1, h2⟩ := ih (AddFollowUp (s.FindOrAddStage p) p).2
    obtain ⟨h3, h4⟩ := FindOrAddStage_TaskIdsOf s p Y
    rw [h1, h2, ← h3, ← h4]
    by_cases hp : Y = p
    · subst hp
      obtain ⟨st, hst⟩ := Find_FindOrAddStage_isSome s Y
      have h5 := AddFollowUp_Find_same (s.FindOrAddStage Y) Y st hst
      rw [TaskIdsOf_of_Find h5, IsAllTasksCollected_of_Find h5, TaskIdsOf_of_Find hst,
        IsAllTasksCollected_of_Find hst, QueuePromises_TaskIds,
        QueuePromises_IsAllTasksCollected]
      exact ⟨rfl, rfl⟩
    · unfold TScheduler.TaskIdsOf TScheduler.IsAllTasksCollected
      rw [AddFollowUp_Find_other _ p Y hp]
      exact ⟨rfl, rfl⟩

/-- When `StageState::AddStage` fails nothing changes and no call is made. -/
theorem StageState_AddStage_error (GPI : Bool) (s : TScheduler) (X : IdType)
    (F : List FFutureHandle) (e : TAddStageError)
    (h : (StageState_AddStage GPI s X F).1 = .error e) :
    (StageState_AddStage GPI s X F).2 = (s, []) := by
  unfold StageState_AddStage at h ⊢
  cases hX : s.Find X with
  | none => rfl
  | some st =>
    rw [hX] at h
    cases st with
    | Undefined pd => simp at h
    | Defined pd F' => rfl
    | Executing Id b Ts Ps => rfl
    | Completed Id => rfl

/-- `StageState::AddStage` on a stage that is not `Undefined`. -/
theorem StageState_AddStage_added (GPI : Bool) (s : TScheduler) (X : IdType)
    (F : List FFutureHandle) (st : TStageState) (hX : s.Find X = some st)
    (hU : st.GetId ≠ .Undefined) :
    StageState_AddStage GPI s X F = (.error (.StageAlreadyAdded X), s, []) := by
  have hid := GetStageId_of_Find hX
  unfold StageState_AddStage
  rw [hX]
  cases st with
  | Undefined pd => exact absurd rfl hU
  | Defined pd F' => simp only [hid]
  | Executing Id b Ts Ps => simp only [hid]
  | Completed Id => simp only [hid]

/-- `AddStage` on a stage that is `Defined`, `Executing` or `Completed`, between the
operations of a run: the error, and only the stage completion promises that the first
loop queued are added to the stage. -/
theorem AddStage_of_added {GPI : Bool} {Γ : FRoles} {Log : FLog} {s : TScheduler}
    (hI : SchedulerInv GPI Γ Log [] s) (X : IdType) (P : List IdType) (st : TStageState)
    (hX : s.Find X = some st) (hU : st.GetId ≠ .Undefined) :
    (s.AddStage GPI X P).1 = .error (.StageAlreadyAdded X) ∧
    ∃ New, (s.AddStage GPI X P).2.Find X = some (st.QueuePromises New) ∧
      New.length = if st.GetId = .Completed then 0 else P.count X := by
  obtain ⟨New, hN1, hN2⟩ := Collect_Find_registered X P s st hX
  have hU' : (st.QueuePromises New).GetId ≠ .Undefined := by
    rw [QueuePromises_GetId]; exact hU
  have hAS : s.AddStageCalls GPI X P =
      if GPI = true then
        match DebugAddStage (CollectFuturePrerequisiteCompletions P s).2.PrerequisitesByStageId
            X P with
        | (.error Error, _) => (.error Error, (CollectFuturePrerequisiteCompletions P s).2, [])
        | (.ok _, NewPrerequisitesByStageId) =>
          StageState_AddStage GPI
            ({ (CollectFuturePrerequisiteCompletions P s).2 with
                PrerequisitesByStageId := NewPrerequisitesByStageId }.FindOrAddStage X)
            X (CollectFuturePrerequisiteCompletions P s).1
      else
        StageState_AddStage GPI ((CollectFuturePrerequisiteCompletions P s).2.FindOrAddStage X)
          X (CollectFuturePrerequisiteCompletions P s).1 := rfl
  have hA : s.AddStage GPI X P =
      ((s.AddStageCalls GPI X P).1,
        RunCalls GPI (s.AddStageCalls GPI X P).2.2 (s.AddStageCalls GPI X P).2.1) := rfl
  have hCalls : s.AddStageCalls GPI X P =
      (.error (.StageAlreadyAdded X), (CollectFuturePrerequisiteCompletions P s).2, []) := by
    rw [hAS]
    by_cases hG : GPI = true
    · rw [if_pos hG]
      have hadd : ∃ P0, IsAddedWith Log X P0 := by
        apply (Inv_added_iff hI X).2
        rw [GetId_of_Find hX]
        cases st with
        | Undefined pd => exact absurd rfl hU
        | Defined pd F' => exact Or.inl rfl
        | Executing Id b Ts Ps => exact Or.inr (Or.inl rfl)
        | Completed Id => exact Or.inr (Or.inr rfl)
      obtain ⟨P0, hP0⟩ := hadd
      have hm := (hI.map hG X P0).2 hP0
      have hc : (CollectFuturePrerequisiteCompletions P s).2.PrerequisitesByStageId.Contains X
          = true := by
        rw [Collect_PrerequisitesByStageId]
        unfold FPrerequisitesByStageId.Contains
        unfold FPrerequisitesByStageId.Find at hm
        rw [hm]
        rfl
      unfold DebugAddStage
      rw [if_pos hc]
    · rw [if_neg hG,
        Find_FindOrAddStage_same_of_some _ X _ hN1]
      exact StageState_AddStage_added GPI _ X _ _ hN1 hU'
  rw [hA, hCalls]
  simp only [RunCalls_nil]
  exact ⟨trivial, New, hN1, hN2⟩

/-- C7, as the code has it. After every run, `AddStage(X, P)` on a stage that is `Defined`,
`Executing` or `Completed` returns the error `StageAlreadyAdded(X)`; the state of the stage
is what it was (same kind, tasks, flag and futures of the prerequisites), except that one
new stage completion promise is queued for every occurrence of `X` in `P` when the stage
is not `Completed`; it is unchanged when `X` does not occur in `P`. -/
theorem AddStage_already_added_only_queues_promises (GPI : Bool) (Events : List FEvent)
    (r : FRun) (h : Exec GPI Events = some r) (X : IdType) (P : List IdType)
    (st : TStageState) (hX : r.Scheduler.Find X = some st) (hU : st.GetId ≠ .Undefined) :
    (r.Scheduler.AddStage GPI X P).1 = .error (.StageAlreadyAdded X) ∧
    (∃ New, (r.Scheduler.AddStage GPI X P).2.Find X = some (st.QueuePromises New) ∧
      New.length = if st.GetId = .Completed then 0 else P.count X) ∧
    (X ∉ P → (r.Scheduler.AddStage GPI X P).2.Find X = some st) := by
  obtain ⟨Γ, hI⟩ := Exec_SchedulerInv GPI Events r h
  obtain ⟨h1, New, h2, h3⟩ := AddStage_of_added hI X P st hX hU
  refine ⟨h1, ⟨New, h2, h3⟩, ?_⟩
  intro hn
  rw [List.count_eq_zero_of_not_mem hn] at h3
  have h0 : New = [] := by
    apply List.eq_nil_of_length_eq_zero
    rw [h3]
    split <;> rfl
  rw [h2, h0, QueuePromises_nil]

theorem AddStage_already_added_only_queues_promises_witness :
    ((ExecD true [.AddStage 1 [2]]).Scheduler.AddStage true 1 [3]).1 =
        .error (.StageAlreadyAdded 1) ∧
    ((ExecD true [.AddStage 1 [2]]).Scheduler.AddStage true 1 [3]).2.Find 1 =
      some (.Defined { StageId := 1 } []) :=
  ⟨(AddStage_already_added_only_queues_promises true [.AddStage 1 [2]]
      (ExecD true [.AddStage 1 [2]]) rfl 1 [3] (.Defined { StageId := 1 } []) (by decide)
      (by decide)).1,
    (AddStage_already_added_only_queues_promises true [.AddStage 1 [2]]
      (ExecD true [.AddStage 1 [2]]) rfl 1 [3] (.Defined { StageId := 1 } []) (by decide)
      (by decide)).2.2 (by decide)⟩

/-- C7, counterexample. `AddStage(1, [2])` succeeds; `AddStage(1, [1])` then returns
`StageAlreadyAdded(1)` but the list of queued stage completion promises of stage `1` has
grown by the promise allocated for the prerequisite `1`. -/
theorem AddStage_already_added_queues_own_promise :
    (ExecD true [.AddStage 1 [2]]).Scheduler.GetId 1 = .Defined ∧
    ((ExecD true [.AddStage 1 [2]]).Scheduler.AddStage true 1 [1]).1 =
      .error (.StageAlreadyAdded 1) ∧
    (ExecD true [.AddStage 1 [2]]).Scheduler.PromisesOf 1 = [] ∧
    ((ExecD true [.AddStage 1 [2]]).Scheduler.AddStage true 1 [1]).2.PromisesOf 1 = [1] := by
  decide

end Zkz.StagedExecution

namespace Zkz.StagedExecution

/-! ## The stages only move forward -/

theorem Progress_refl (s : TScheduler) : Progress s s :=
  fun _ => ⟨Nat.le_refl _, fun h => h⟩

theorem Progress_trans {s1 s2 s3 : TScheduler} (h12 : Progress s1 s2) (h23 : Progress s2 s3) :
    Progress s1 s3 :=
  fun X => ⟨Nat.le_trans (h12 X).1 (h23 X).1, fun h => (h23 X).2 ((h12 X).2 h)⟩

theorem Progress_of_Stages {s s' : TScheduler} (h : s'.Stages = s.Stages) : Progress s s' := by
  intro X
  unfold TScheduler.IsAllTasksCollected
  rw [GetId_of_Stages h, Find_of_Stages h]
  exact ⟨Nat.le_refl _, fun h => h⟩

theorem Index_le_Completed (i : EStageStateId) : i.Index ≤ EStageStateId.Completed.Index := by
  cases i <;> decide

theorem Progress_Assign (s : TScheduler) (X : IdType) (st old : TStageState)
    (hX : s.Find X = some old) (hid : st.GetStageId = X)
    (h1 : old.GetId.Index ≤ st.GetId.Index)
    (h2 : old.IsAllTasksCollected = true → st.IsAllTasksCollected = true) :
    Progress s (s.Assign X st) := by
  intro Y
  by_cases hY : Y = X
  · subst hY
    have hF := Find_Assign_same s Y st old hid hX
    rw [GetId_of_Find hF, GetId_of_Find hX, IsAllTasksCollected_of_Find hF,
      IsAllTasksCollected_of_Find hX]
    exact ⟨h1, h2⟩
  · have hF := Find_Assign_other s X Y st hid hY
    unfold TScheduler.GetId TScheduler.IsAllTasksCollected
    rw [hF]
    exact ⟨Nat.le_refl _, fun h => h⟩

theorem Progress_FindOrAddStage (s : TScheduler) (X : IdType) :
    Progress s (s.FindOrAddStage X) := by
  cases hX : s.Find X with
  | some st => rw [Find_FindOrAddStage_same_of_some s X st hX]; exact Progress_refl s
  | none =>
    intro Y
    by_cases hY : Y = X
    · subst hY
      unfold TScheduler.IsAllTasksCollected
      rw [GetId_of_Find_none hX, hX]
      exact ⟨Nat.zero_le _, fun h => by cases h⟩
    · have hF := Find_FindOrAddStage_other s X Y hY
      unfold TScheduler.GetId TScheduler.IsAllTasksCollected
      rw [hF]
      exact ⟨Nat.le_refl _, fun h => h⟩

theorem Progress_Transition (s : TScheduler) (X : IdType) (st : TStageState)
    (hid : st.GetStageId = X)
    (h1 : ∀ old, s.Find X = some old → old.GetId.Index ≤ st.GetId.Index ∧
      (old.IsAllTasksCollected = true → st.IsAllTasksCollected = true))
    (h0 : EStageStateId.Undefined.Index ≤ st.GetId.Index) :
    Progress s (s.Transition X st) := by
  unfold TScheduler.Transition
  refine Progress_trans (Progress_FindOrAddStage s X) ?_
  cases hX : s.Find X with
  | some old =>
    have hX' : (s.FindOrAddStage X).Find X = some old := by
      rw [Find_FindOrAddStage_same_of_some s X old hX]; exact hX
    exact Progress_Assign _ X st old hX' hid (h1 old hX).1 (h1 old hX).2
  | none =>
    have hX' := Find_FindOrAddStage_same_of_none s X hX
    exact Progress_Assign _ X st _ hX' hid h0 (fun h => by cases h)

theorem Progress_CompleteWhenTasksFinished (s : TScheduler) (X : IdType) :
    Progress s (CompleteWhenTasksFinished s X).1 := by
  unfold CompleteWhenTasksFinished
  cases hX : s.Find X with
  | none => exact Progress_refl s
  | some st =>
    have hid := GetStageId_of_Find hX
    cases st with
    | Undefined pd => exact Progress_refl s
    | Defined pd F => exact Progress_refl s
    | Completed Id => exact Progress_refl s
    | Executing Id b Ts Ps =>
      simp only [TStageState.GetStageId] at hid
      subst hid
      simp only
      cases hT : Ts.getLast? with
      | none =>
        simp only
        by_cases hb : b = true
        · rw [if_pos hb]
          exact Progress_Assign s Id _ _ hX rfl (Nat.le_refl _) (fun h => h)
        · rw [if_neg hb]
          exact Progress_refl s
      | some Task =>
        simp only
        exact Progress_trans
          (Progress_Assign s Id (.Executing Id b Ts.dropLast Ps) _ hX rfl (Nat.le_refl _)
            (fun h => h))
          (Progress_of_Stages (IfNotCanceled_Stages _ _ _))

theorem Progress_TransitionToStageState_Executing (GPI : Bool) (s : TScheduler)
    (pd : TStageState_Pending) (F : List FFutureHandle)
    (hX : s.Find pd.StageId = some (.Defined pd F)) :
    Progress s (TransitionToStageState_Executing GPI s pd).1 := by
  have h1 : Progress s ((ExecuteAllTasks GPI pd.Tasks s).2.Transition pd.StageId
      (.Executing pd.StageId pd.bAllTasksCollected (ExecuteAllTasks GPI pd.Tasks s).1
        pd.StageCompletionPromises)) := by
    refine Progress_trans (Progress_of_Stages (ExecuteAllTasks_Stages GPI pd.Tasks s)) ?_
    refine Progress_Transition _ _ _ rfl ?_ (by simp [TStageState.GetId, EStageStateId.Index])
    intro old hold
    rw [Find_ExecuteAllTasks, hX] at hold
    cases hold
    exact ⟨by simp [TStageState.GetId, EStageStateId.Index], fun h => h⟩
  unfold TransitionToStageState_Executing
  simp only
  by_cases hb : pd.bAllTasksCollected = true
  · rw [if_pos hb]
    exact Progress_trans h1 (Progress_CompleteWhenTasksFinished _ _)
  · rw [if_neg hb]
    exact h1

theorem Progress_StartExecutingWhenPrerequisitesComplete (GPI : Bool) (s : TScheduler)
    (X : IdType) : Progress s (StartExecutingWhenPrerequisitesComplete GPI s X).1 := by
  unfold StartExecutingWhenPrerequisitesComplete
  cases hX : s.Find X with
  | none => exact Progress_refl s
  | some st =>
    have hid := GetStageId_of_Find hX
    cases st with
    | Undefined pd => exact Progress_refl s
    | Executing Id b Ts Ps => exact Progress_refl s
    | Completed Id => exact Progress_refl s
    | Defined pd F =>
      simp only [TStageState.GetStageId] at hid
      simp only
      cases hF : F.getLast? with
      | none =>
        simp only
        rw [← hid] at hX
        exact Progress_TransitionToStageState_Executing GPI s pd F hX
      | some f =>
        simp only
        exact Progress_trans
          (Progress_Assign s X (.Defined pd F.dropLast) _ hX hid (Nat.le_refl _) (fun h => h))
          (Progress_of_Stages (IfNotCanceled_Stages _ _ _))

/-- No pending call moves a stage backward. -/
theorem Progress_StepCall (GPI : Bool) (s : TScheduler) (c : FCall) :
    Progress s (StepCall GPI s c).1 := by
  cases c with
  | EmplaceValue h => exact Progress_of_Stages (EmplaceValue_Stages s h)
  | Cancel h => exact Progress_of_Stages (Cancel_Stages s h)
  | Transition_Completed X =>
    exact Progress_Transition s X (.Completed X) rfl
      (fun old _ => ⟨Index_le_Completed _, fun _ => rfl⟩)
      (by simp [TStageState.GetId, EStageStateId.Index])
  | Invoke F =>
    cases F with
    | StartExecutingWhenPrerequisitesComplete X =>
      exact Progress_StartExecutingWhenPrerequisitesComplete GPI s X
    | CompleteWhenTasksFinished X => exact Progress_CompleteWhenTasksFinished s X
    | PostNotifyCompletion T f => exact Progress_of_Stages (EmplaceValue_Stages s f)

theorem Progress_RunCalls (GPI : Bool) (Calls : List FCall) (s : TScheduler) :
    Progress s (RunCalls GPI Calls s) := by
  refine RunCalls_induction GPI (fun _ s' => Progress s s') ?_ _ Calls s (Nat.le_refl _)
    (Progress_refl s)
  intro c Rest s1 h1
  exact Progress_trans h1 (Progress_StepCall GPI s1 c)

theorem Progress_AddFollowUp (s : TScheduler) (X : IdType) :
    Progress s (AddFollowUp s X).2 := by
  cases hX : s.Find X with
  | none =>
    unfold AddFollowUp
    rw [hX]
    exact Progress_of_Stages (NewPromise_Stages s _)
  | some st =>
    intro Y
    by_cases hY : Y = X
    · subst hY
      have hF := AddFollowUp_Find_same s Y st hX
      rw [GetId_of_Find hF, GetId_of_Find hX, IsAllTasksCollected_of_Find hF,
        IsAllTasksCollected_of_Find hX, QueuePromises_GetId,
        QueuePromises_IsAllTasksCollected]
      exact ⟨Nat.le_refl _, fun h => h⟩
    · have hF := AddFollowUp_Find_other s X Y hY
      unfold TScheduler.GetId TScheduler.IsAllTasksCollected
      rw [hF]
      exact ⟨Nat.le_refl _, fun h => h⟩

theorem Progress_Collect :
    ∀ (P : List IdType) (s : TScheduler),
      Progress s (CollectFuturePrerequisiteCompletions P s).2 := by
  intro P
  induction P with
  | nil => intro s; exact Progress_refl s
  | cons p Rest ih =>
    intro s
    rw [Collect_cons_snd]
    exact Progress_trans (Progress_trans (Progress_FindOrAddStage s p)
      (Progress_AddFollowUp _ p)) (ih _)

theorem Progress_StageState_AddStage (GPI : Bool) (s : TScheduler) (X : IdType)
    (F : List FFutureHandle) : Progress s (StageState_AddStage GPI s X F).2.1 := by
  unfold StageState_AddStage
  cases hX : s.Find X with
  | none => exact Progress_refl s
  | some st =>
    have hid := GetStageId_of_Find hX
    cases st with
    | Defined pd F' => exact Progress_refl s
    | Executing Id b Ts Ps => exact Progress_refl s
    | Completed Id => exact Progress_refl s
    | Undefined pd =>
      simp only [TStageState.GetStageId] at hid
      simp only [TransitionToStageState_Defined]
      refine Progress_trans ?_ (Progress_StartExecutingWhenPrerequisitesComplete GPI _ _)
      refine Progress_Transition s pd.StageId (.Defined pd F) rfl ?_
        (by simp [TStageState.GetId, EStageStateId.Index])
      intro old hold
      rw [hid, hX] at hold
      cases hold
      exact ⟨by simp [TStageState.GetId, EStageStateId.Index], fun h => h⟩

theorem Progress_AddStage (GPI : Bool) (s : TScheduler) (X : IdType) (P : List IdType) :
    Progress s (s.AddStage GPI X P).2 := by
  have hA : s.AddStage GPI X P =
      ((s.AddStageCalls GPI X P).1,
        RunCalls GPI (s.AddStageCalls GPI X P).2.2 (s.AddStageCalls GPI X P).2.1) := rfl
  rw [hA]
  refine Progress_trans ?_ (Progress_RunCalls GPI _ _)
  have hAS : s.AddStageCalls GPI X P =
      if GPI = true then
        match DebugAddStage (CollectFuturePrerequisiteCompletions P s).2.PrerequisitesByStageId
            X P with
        | (.error Error, _) => (.error Error, (CollectFuturePrerequisiteCompletions P s).2, [])
        | (.ok _, NewPrerequisitesByStageId) =>
          StageState_AddStage GPI
            ({ (CollectFuturePrerequisiteCompletions P s).2 with
                PrerequisitesByStageId := NewPrerequisitesByStageId }.FindOrAddStage X)
            X (CollectFuturePrerequisiteCompletions P s).1
      else
        StageState_AddStage GPI ((CollectFuturePrerequisiteCompletions P s).2.FindOrAddStage X)
          X (CollectFuturePrerequisiteCompletions P s).1 := rfl
  rw [hAS]
  refine Progress_trans (Progress_Collect P s) ?_
  by_cases hG : GPI = true
  · rw [if_pos hG]
    cases hD : DebugAddStage (CollectFuturePrerequisiteCompletions P s).2.PrerequisitesByStageId
        X P with
    | mk res New =>
      cases res with
      | error e => exact Progress_refl _
      | ok u =>
        simp only
        refine Progress_trans ?_ (Progress_StageState_AddStage GPI _ X _)
        exact Progress_trans
          (show Progress (CollectFuturePrerequisiteCompletions P s).2
              { (CollectFuturePrerequisiteCompletions P s).2 with
                PrerequisitesByStageId := New } from Progress_of_Stages rfl)
          (Progress_FindOrAddStage _ X)
  · rw [if_neg hG]
    exact Progress_trans (Progress_FindOrAddStage _ X) (Progress_StageState_AddStage GPI _ X _)

theorem Progress_AddTaskToStage (s : TScheduler) (X T : IdType) :
    Progress s (s.AddTaskToStage X T).2 := by
  cases hb : s.IsAllTasksCollected X with
  | true => rw [AddTaskToStage_collected s X T hb]; exact Progress_refl s
  | false =>
    unfold TScheduler.AddTaskToStage
    refine Progress_trans (Progress_FindOrAddStage s X) ?_
    obtain ⟨st, hst⟩ := Find_FindOrAddStage_isSome s X
    have hb' : st.IsAllTasksCollected = false := by
      rw [← IsAllTasksCollected_of_Find hst, (FindOrAddStage_TaskIdsOf s X X).2]
      exact hb
    obtain ⟨_, st', h2, _, h4, _⟩ :=
      StageState_AddTaskToStage_not_collected (s.FindOrAddStage X) X T st hst hb'
    intro Y
    by_cases hY : Y = X
    · subst hY
      rw [GetId_of_Find h2, GetId_of_Find hst, h4, IsAllTasksCollected_of_Find hst, hb']
      exact ⟨Nat.le_refl _, fun h => by cases h⟩
    · have hF : (StageState_AddTaskToStage (s.FindOrAddStage X) X T).2.Find Y =
          (s.FindOrAddStage X).Find Y := by
        have hid := GetStageId_of_Find hst
        unfold StageState_AddTaskToStage
        rw [hst]
        cases st with
        | Undefined pd =>
          simp only [TStageState.IsAllTasksCollected] at hb'
          simp only [TStageState.GetStageId] at hid
          simp only [hb', Bool.false_eq_true, if_false]
          refine (Find_Assign_other _ X Y _ ?_ hY).trans (NewPromise_Find _ _ _)
          exact hid
        | Defined pd F =>
          simp only [TStageState.IsAllTasksCollected] at hb'
          simp only [TStageState.GetStageId] at hid
          simp only [hb', Bool.false_eq_true, if_false]
          refine (Find_Assign_other _ X Y _ ?_ hY).trans (NewPromise_Find _ _ _)
          exact hid
        | Executing Id b Ts Ps =>
          simp only [TStageState.IsAllTasksCollected] at hb'
          simp only [TStageState.GetStageId] at hid
          simp only [hb', Bool.false_eq_true, if_false, SetValue_Find]
          refine (Find_Assign_other _ X Y _ ?_ hY).trans ?_
          · exact hid
          · rw [NewPromise_Find, NewPromise_Find]
        | Completed Id => simp [TStageState.IsAllTasksCollected] at hb'
      unfold TScheduler.GetId TScheduler.IsAllTasksCollected
      rw [hF]
      exact ⟨Nat.le_refl _, fun h => h⟩

theorem Progress_StageState_SetAllTasksAdded (s : TScheduler) (X : IdType) :
    Progress s (StageState_SetAllTasksAdded s X).1 := by
  unfold StageState_SetAllTasksAdded
  cases hX : s.Find X with
  | none => exact Progress_refl s
  | some st =>
    have hid := GetStageId_of_Find hX
    cases st with
    | Completed Id => exact Progress_refl s
    | Undefined pd =>
      simp only [TStageState.GetStageId] at hid
      simp only
      split
      · exact Progress_refl s
      · exact Progress_Assign s X _ _ hX hid (Nat.le_refl _) (fun _ => rfl)
    | Defined pd F =>
      simp only [TStageState.GetStageId] at hid
      simp only
      split
      · exact Progress_refl s
      · exact Progress_Assign s X _ _ hX hid (Nat.le_refl _) (fun _ => rfl)
    | Executing Id b Ts Ps =>
      simp only [TStageState.GetStageId] at hid
      simp only
      split
      · exact Progress_refl s
      · exact Progress_trans
          (Progress_Assign s X (.Executing Id true Ts Ps) _ hX hid (Nat.le_refl _)
            (fun _ => rfl))
          (Progress_CompleteWhenTasksFinished _ X)

theorem Progress_SetAllTasksAdded (GPI : Bool) (s : TScheduler) (X : IdType) :
    Progress s (s.SetAllTasksAdded GPI X) := by
  have hA : s.SetAllTasksAdded GPI X =
      RunCalls GPI (StageState_SetAllTasksAdded (s.FindOrAddStage X) X).2
        (StageState_SetAllTasksAdded (s.FindOrAddStage X) X).1 := rfl
  rw [hA]
  exact Progress_trans (Progress_trans (Progress_FindOrAddStage s X)
    (Progress_StageState_SetAllTasksAdded _ X)) (Progress_RunCalls GPI _ _)

/-- No event of a run moves a stage backward. -/
theorem Progress_ApplyEvent (GPI : Bool) (r r' : FRun) (e : FEvent)
    (h : ApplyEvent GPI r e = some r') : Progress r.Scheduler r'.Scheduler := by
  cases e with
  | AddStage X P =>
    simp only [ApplyEvent] at h
    replace h := Checked_some h
    cases h
    exact Progress_AddStage GPI _ X P
  | AddTaskToStage X T =>
    simp only [ApplyEvent] at h
    replace h := Checked_some h
    cases h
    exact Progress_AddTaskToStage _ X T
  | SetAllTasksAdded X =>
    simp only [ApplyEvent] at h
    replace h := Checked_some h
    cases h
    exact Progress_SetAllTasksAdded GPI _ X
  | AddTask T P =>
    simp only [ApplyEvent] at h
    have h1 := Progress_AddStage GPI r.Scheduler T P
    cases hA : r.Scheduler.AddStage GPI T P with
    | mk res s1 =>
      rw [hA] at h h1
      cases res with
      | error e =>
        simp only at h
        replace h := Checked_some h
        cases h
        exact h1
      | ok u =>
        simp only at h h1
        have h2 := Progress_AddTaskToStage s1 T T
        cases hB : s1.AddTaskToStage T T with
        | mk res2 s2 =>
          rw [hB] at h h2
          cases res2 with
          | error e => simp at h
          | ok f =>
            simp only at h h2
            replace h := Checked_some h
            cases h
            exact Progress_trans (Progress_trans h1 h2) (Progress_SetAllTasksAdded GPI s2 T)
  | FulfilTaskCompletion p =>
    simp only [ApplyEvent] at h
    split at h
    · replace h := Checked_some h; cases h; exact Progress_RunCalls GPI _ _
    · cases h; exact Progress_refl _
  | DropTaskCompletion p =>
    simp only [ApplyEvent] at h
    split at h
    · replace h := Checked_some h; cases h; exact Progress_RunCalls GPI _ _
    · cases h; exact Progress_refl _

theorem Progress_foldlM (GPI : Bool) :
    ∀ (Events : List FEvent) (r r' : FRun),
      Events.foldlM (ApplyEvent GPI) r = some r' → Progress r.Scheduler r'.Scheduler := by
  intro Events
  induction Events with
  | nil =>
    intro r r' h
    simp only [List.foldlM_nil] at h
    cases h
    exact Progress_refl _
  | cons e Rest ih =>
    intro r r' h
    simp only [List.foldlM_cons] at h
    cases hE : ApplyEvent GPI r e with
    | none => rw [hE] at h; cases h
    | some r1 =>
      rw [hE] at h
      exact Progress_trans (Progress_ApplyEvent GPI r r1 e hE) (ih r1 r' h)

theorem Exec_append (GPI : Bool) (Events Later : List FEvent) :
    Exec GPI (Events ++ Later) =
      (Exec GPI Events).bind (fun r => Later.foldlM (ApplyEvent GPI) r) := by
  unfold Exec
  rw [List.foldlM_append]
  rfl

/-- C13 (monotone progress). Between a state of a run and any later state of the run no
stage moves backward in the order `Unknown < Undefined < Defined < Executing < Completed`
of the state ids, a registered stage stays registered, and an `allTasksCollected` flag
that is set stays set (a completed stage counts as set). -/
theorem Stage_state_and_flag_monotone (GPI : Bool) (Events Later : List FEvent)
    (r r' : FRun) (h : Exec GPI Events = some r) (h' : Exec GPI (Events ++ Later) = some r')
    (X : IdType) :
    (r.Scheduler.GetId X).Index ≤ (r'.Scheduler.GetId X).Index ∧
    (r.Scheduler.GetId X ≠ .Unknown → r'.Scheduler.GetId X ≠ .Unknown) ∧
    (r.Scheduler.IsAllTasksCollected X = true →
      r'.Scheduler.IsAllTasksCollected X = true) := by
  rw [Exec_append, h] at h'
  have hP := Progress_foldlM GPI Later r r' h' X
  refine ⟨hP.1, ?_, hP.2⟩
  intro hne hU
  have h1 := hP.1
  rw [hU] at h1
  apply hne
  cases hG : r.Scheduler.GetId X with
  | Unknown => rfl
  | Undefined => rw [hG] at h1; exact absurd h1 (by decide)
  | Defined => rw [hG] at h1; exact absurd h1 (by decide)
  | Executing => rw [hG] at h1; exact absurd h1 (by decide)
  | Completed => rw [hG] at h1; exact absurd h1 (by decide)

theorem Stage_state_and_flag_monotone_witness :
    ((ExecD true [.AddTask 1 []]).Scheduler.GetId 1).Index ≤
      ((ExecD true ExampleDependentTask).Scheduler.GetId 1).Index ∧
    (ExecD true ExampleDependentTask).Scheduler.IsAllTasksCollected 1 = true :=
  ⟨(Stage_state_and_flag_monotone true [.AddTask 1 []] [.FulfilTaskCompletion 1, .AddTask 2 [1]]
      (ExecD true [.AddTask 1 []]) (ExecD true ExampleDependentTask) rfl rfl 1).1,
    (Stage_state_and_flag_monotone true [.AddTask 1 []] [.FulfilTaskCompletion 1, .AddTask 2 [1]]
      (ExecD true [.AddTask 1 []]) (ExecD true ExampleDependentTask) rfl rfl 1).2.2
      (by decide)⟩

end Zkz.StagedExecution

namespace Zkz.StagedExecution

/-! ## The inspection data and the rendering of the errors -/

/-- C11 (the prerequisite map is updated only on success). When `DebugAddStage` returns an
error the map is unchanged; when it succeeds the new map is the old one followed by the
entry of the new stage, which `GetDebugPrerequisiteIds` then returns, and the entries of
the other stages read as before. After every run with inspections,
`GetDebugPrerequisiteIds` returns `P` for a stage exactly when `AddStage` succeeded for it
with the prerequisites `P`, hence nothing for a stage that was never added successfully. -/
theorem DebugAddStage_updates_map_only_on_success (Events : List FEvent) (r : FRun)
    (h : Exec true Events = some r) (M : FPrerequisitesByStageId) (X : IdType)
    (P : List IdType) :
    (∀ e, (DebugAddStage M X P).1 = .error e → (DebugAddStage M X P).2 = M) ∧
    ((DebugAddStage M X P).1 = .ok () →
      (DebugAddStage M X P).2 = M ++ [(X, P)] ∧
      GetDebugPrerequisiteIds (DebugAddStage M X P).2 X = some P ∧
      ∀ Y, Y ≠ X → GetDebugPrerequisiteIds (DebugAddStage M X P).2 Y =
        GetDebugPrerequisiteIds M Y) ∧
    (∀ Y Q, GetDebugPrerequisiteIds r.Scheduler.PrerequisitesByStageId Y = some Q ↔
      IsAddedWith r.Observations Y Q) ∧
    ((∀ Q, ¬ IsAddedWith r.Observations X Q) →
      GetDebugPrerequisiteIds r.Scheduler.PrerequisitesByStageId X = none) := by
  obtain ⟨Γ, hI⟩ := Exec_SchedulerInv true Events r h
  refine ⟨fun e he => DebugAddStage_error he, ?_, fun Y Q => hI.map rfl Y Q, ?_⟩
  · intro hok
    obtain ⟨hnc, hnew⟩ := DebugAddStage_ok hok
    have hE : M.Emplace X P = M ++ [(X, P)] := by
      unfold FPrerequisitesByStageId.Emplace
      rw [hnc]
      rfl
    refine ⟨by rw [hnew, hE], ?_, ?_⟩
    · unfold GetDebugPrerequisiteIds
      rw [hnew, Emplace_Find P hnc X, if_pos rfl]
    · intro Y hY
      unfold GetDebugPrerequisiteIds
      rw [hnew, Emplace_Find P hnc Y, if_neg hY]
  · intro hno
    cases hG : GetDebugPrerequisiteIds r.Scheduler.PrerequisitesByStageId X with
    | none => rfl
    | some Q => exact absurd ((hI.map rfl X Q).1 hG) (hno Q)

theorem DebugAddStage_updates_map_only_on_success_witness :
    (DebugAddStage [(1, [2])] 1 [3]).2 = [(1, [2])] ∧
    (DebugAddStage [(1, [2])] 3 [1]).2 = [(1, [2]), (3, [1])] ∧
    GetDebugPrerequisiteIds (ExecD true ExampleWaitingStage).Scheduler.PrerequisitesByStageId 1
      = none :=
  ⟨(DebugAddStage_updates_map_only_on_success ExampleWaitingStage
      (ExecD true ExampleWaitingStage) rfl [(1, [2])] 1 [3]).1 (.StageAlreadyAdded 1) (by decide),
    ((DebugAddStage_updates_map_only_on_success ExampleWaitingStage
      (ExecD true ExampleWaitingStage) rfl [(1, [2])] 3 [1]).2.1 (by decide)).1,
    (DebugAddStage_updates_map_only_on_success ExampleWaitingStage
      (ExecD true ExampleWaitingStage) rfl [] 1 []).2.2.2
      (fun Q hQ => by
        have hObs : (ExecD true ExampleWaitingStage).Observations =
            [.AddStage 2 [1] (.ok ())] := by decide
        unfold IsAddedWith at hQ
        rw [hObs] at hQ
        simp at hQ)⟩

theorem intercalate_go_append (Separator R a : String) :
    ∀ l : List String, String.intercalate.go (R ++ a) Separator l =
      R ++ String.intercalate.go a Separator l := by
  intro l
  induction l generalizing a with
  | nil => rfl
  | cons b l ih =>
    show String.intercalate.go (R ++ a ++ Separator ++ b) Separator l =
      R ++ String.intercalate.go (a ++ Separator ++ b) Separator l
    rw [← ih, String.append_assoc, String.append_assoc, String.append_assoc]

theorem AppendQuotedIds_false (GetLogString : IdType → String) (Separator : String) :
    ∀ (l : List IdType) (R : String),
      AppendQuotedIds GetLogString Separator l false R =
        String.intercalate.go R Separator
          (l.map fun Id => "\"" ++ GetLogString Id ++ "\"") := by
  intro l
  induction l with
  | nil => intro R; rfl
  | cons a l ih =>
    intro R
    show AppendQuotedIds GetLogString Separator l false
        (R ++ Separator ++ "\"" ++ GetLogString a ++ "\"") = _
    rw [ih]
    show _ = String.intercalate.go (R ++ Separator ++ ("\"" ++ GetLogString a ++ "\""))
      Separator _
    rw [String.append_assoc (R ++ Separator), String.append_assoc (R ++ Separator)]

/-- The loop of `ToString` appends the quoted ids joined by the separator. -/
theorem AppendQuotedIds_true (GetLogString : IdType → String) (Separator : String)
    (l : List IdType) (R : String) :
    AppendQuotedIds GetLogString Separator l true R =
      R ++ Separator.intercalate (l.map fun Id => "\"" ++ GetLogString Id ++ "\"") := by
  cases l with
  | nil =>
    show R = R ++ ""
    rw [String.append_empty]
  | cons a l =>
    show AppendQuotedIds GetLogString Separator l false (R ++ "\"" ++ GetLogString a ++ "\"")
      = R ++ String.intercalate.go ("\"" ++ GetLogString a ++ "\"") Separator _
    rw [AppendQuotedIds_false, ← intercalate_go_append, String.append_assoc R,
      String.append_assoc R, String.append_assoc "\""]

/-- C12 (rendering of the errors). `ToString` of an `AddStage` error is the documented
text: for `StageAlreadyAdded` the sentence with the quoted stage id; for
`CircularDependency` the quoted stage id, the quoted prerequisites joined by a comma and a
blank between braces and the quoted ids of the cycle joined by an arrow, with no separator
before the first or after the last id and nothing between the braces for no
prerequisite. -/
theorem ToString_renders_documented_text (GetLogString : IdType → String)
    (e : TAddStageError) :
    e.ToString GetLogString = DocumentedErrorString GetLogString e ∧
    (TAddStageError.StageAlreadyAdded 7).ToString toString =
      "Stage \"7\" has already been added. Aborting operation." ∧
    (TAddStageError.CircularDependency 2 [4, 3, 5] [2, 3, 1, 2]).ToString toString =
      "Adding stage \"2\" with prerequisite(s) \x7b\"4\", \"3\", \"5\"\x7d would introduce cycle \"2\" -> \"3\" -> \"1\" -> \"2\". Aborting operation." ∧
    (TAddStageError.CircularDependency 2 [] []).ToString toString =
      "Adding stage \"2\" with prerequisite(s) \x7b\x7d would introduce cycle . Aborting operation." := by
  refine ⟨?_, by decide, by decide, by decide⟩
  cases e with
  | StageAlreadyAdded X => rfl
  | CircularDependency X P C =>
    show AppendQuotedIds GetLogString " -> " C true
        (AppendQuotedIds GetLogString ", " P true
          ("Adding stage \"" ++ GetLogString X ++ "\" with prerequisite(s) \x7b") ++
          "\x7d would introduce cycle ") ++ ". Aborting operation." = _
    rw [AppendQuotedIds_true, AppendQuotedIds_true]
    rfl

end Zkz.StagedExecution

namespace Zkz.StagedExecution

/-! ## The stage completion futures -/

end Zkz.StagedExecution

namespace Zkz.StagedExecution

/-! ## `AddTask` -/

theorem AddStageCalls_eq (GPI : Bool) (s : TScheduler) (X : IdType) (P : List IdType) :
    s.AddStageCalls GPI X P =
      if GPI = true then
        match DebugAddStage (CollectFuturePrerequisiteCompletions P s).2.PrerequisitesByStageId
            X P with
        | (.error Error, _) => (.error Error, (CollectFuturePrerequisiteCompletions P s).2, [])
        | (.ok _, NewPrerequisitesByStageId) =>
          StageState_AddStage GPI
            ({ (CollectFuturePrerequisiteCompletions P s).2 with
                PrerequisitesByStageId := NewPrerequisitesByStageId }.FindOrAddStage X)
            X (CollectFuturePrerequisiteCompletions P s).1
      else
        StageState_AddStage GPI ((CollectFuturePrerequisiteCompletions P s).2.FindOrAddStage X)
          X (CollectFuturePrerequisiteCompletions P s).1 := rfl

theorem AddStage_eq (GPI : Bool) (s : TScheduler) (X : IdType) (P : List IdType) :
    s.AddStage GPI X P =
      ((s.AddStageCalls GPI X P).1,
        RunCalls GPI (s.AddStageCalls GPI X P).2.2 (s.AddStageCalls GPI X P).2.1) := rfl

/-- When `AddStage` fails, no task list and no flag has changed. -/
theorem AddStage_error_TaskIdsOf (GPI : Bool) (s : TScheduler) (X : IdType) (P : List IdType)
    (e : TAddStageError) (he : (s.AddStage GPI X P).1 = .error e) (Y : IdType) :
    (s.AddStage GPI X P).2.TaskIdsOf Y = s.TaskIdsOf Y ∧
      (s.AddStage GPI X P).2.IsAllTasksCollected Y = s.IsAllTasksCollected Y := by
  rw [AddStage_eq] at he ⊢
  simp only at he ⊢
  obtain ⟨hC1, hC2⟩ := Collect_TaskIdsOf Y P s
  rw [AddStageCalls_eq] at he ⊢
  by_cases hG : GPI = true
  · rw [if_pos hG] at he ⊢
    cases hD : DebugAddStage (CollectFuturePrerequisiteCompletions P s).2.PrerequisitesByStageId
        X P with
    | mk res New =>
      rw [hD] at he
      cases res with
      | error e' =>
        simp only [RunCalls_nil]
        exact ⟨hC1, hC2⟩
      | ok u =>
        simp only at he ⊢
        rw [StageState_AddStage_error GPI _ X _ e he]
        simp only [RunCalls_nil]
        obtain ⟨h3, h4⟩ := FindOrAddStage_TaskIdsOf
          { (CollectFuturePrerequisiteCompletions P s).2 with PrerequisitesByStageId := New } X Y
        rw [h3, h4]
        exact ⟨hC1, hC2⟩
  · rw [if_neg hG] at he ⊢
    rw [StageState_AddStage_error GPI _ X _ e he]
    simp only [RunCalls_nil]
    obtain ⟨h3, h4⟩ := FindOrAddStage_TaskIdsOf (CollectFuturePrerequisiteCompletions P s).2 X Y
    rw [h3, h4]
    exact ⟨hC1, hC2⟩

/-- `AddTask` returns an error exactly when its `AddStage` does, the same one. -/
theorem AddTask_error_iff (GPI : Bool) (s : TScheduler) (T : IdType) (P : List IdType)
    (e : TAddStageError) (s1 : TScheduler) :
    s.AddTask GPI T P = some (.error e, s1) ↔ s.AddStage GPI T P = (.error e, s1) := by
  unfold TScheduler.AddTask
  cases hA : s.AddStage GPI T P with
  | mk res s2 =>
    cases res with
    | error e' =>
      simp only
      constructor
      · intro h; cases h; rfl
      · intro h; cases h; rfl
    | ok u =>
      simp only
      constructor
      · intro h
        cases hB : s2.AddTaskToStage T T with
        | mk res2 s3 =>
          rw [hB] at h
          cases res2 with
          | error e2 => simp at h
          | ok f => simp at h
      · intro h; cases h

/-- A successful `AddTask` is observed as its three calls. -/
theorem ApplyEvent_AddTask_ok (GPI : Bool) (Events : List FEvent) (r : FRun)
    (hE : Exec GPI Events = some r) (T : IdType) (P : List IdType)
    (he : FFutureHandle) (s1 : TScheduler)
    (h : r.Scheduler.AddTask GPI T P = some (.ok he, s1)) :
    ApplyEvent GPI r (.AddTask T P) =
      some ⟨r.Observations ++ [.AddStage T P (.ok ()), .AddTaskToStage T T (.ok he),
        .SetAllTasksAdded T], s1⟩ := by
  obtain ⟨Γ, hI⟩ := Exec_SchedulerInv GPI Events r hE
  have hU := Exec_IsFulfilledOnce GPI Events r hE
  unfold TScheduler.AddTask at h
  simp only [ApplyEvent]
  obtain ⟨R, h1, _⟩ := SchedulerInv_AddStage hI T P
  have u1 := IsFulfilledOnce_AddStage hI hU T P
  cases hA : r.Scheduler.AddStage GPI T P with
  | mk res s2 =>
    rw [hA] at h h1 u1
    cases res with
    | error e => simp at h
    | ok u =>
      simp only at h h1 u1 ⊢
      obtain ⟨R2, h2⟩ := SchedulerInv_AddTaskToStage h1 T T
      have u2 := IsFulfilledOnce_AddTaskToStage u1 T T
      cases hB : s2.AddTaskToStage T T with
      | mk res2 s3 =>
        rw [hB] at h h2 u2
        cases res2 with
        | error e2 => simp at h
        | ok f =>
          simp only at h h2 u2 ⊢
          cases h
          exact Checked_of_flag (IsFulfilledOnce_SetAllTasksAdded h2 u2 T).check

/-- The observations of a run are kept by every longer run. -/
theorem Observations_ApplyEvent (GPI : Bool) (r r' : FRun) (e : FEvent)
    (h : ApplyEvent GPI r e = some r') : ∃ L, r'.Observations = r.Observations ++ L := by
  cases e with
  | AddStage X P => simp only [ApplyEvent] at h; replace h := Checked_some h; cases h; exact ⟨_, rfl⟩
  | AddTaskToStage X T => simp only [ApplyEvent] at h; replace h := Checked_some h; cases h; exact ⟨_, rfl⟩
  | SetAllTasksAdded X => simp only [ApplyEvent] at h; replace h := Checked_some h; cases h; exact ⟨_, rfl⟩
  | AddTask T P =>
    simp only [ApplyEvent] at h
    cases hA : r.Scheduler.AddStage GPI T P with
    | mk res s1 =>
      rw [hA] at h
      cases res with
      | error e => simp only at h; replace h := Checked_some h; cases h; exact ⟨_, rfl⟩
      | ok u =>
        simp only at h
        cases hB : s1.AddTaskToStage T T with
        | mk res2 s2 =>
          rw [hB] at h
          cases res2 with
          | error e => simp at h
          | ok f => simp only at h; replace h := Checked_some h; cases h; exact ⟨_, rfl⟩
  | FulfilTaskCompletion p =>
    simp only [ApplyEvent] at h
    split at h
    · replace h := Checked_some h; cases h; exact ⟨[], (List.append_nil _).symm⟩
    · cases h; exact ⟨[], (List.append_nil _).symm⟩
  | DropTaskCompletion p =>
    simp only [ApplyEvent] at h
    split at h
    · replace h := Checked_some h; cases h; exact ⟨[], (List.append_nil _).symm⟩
    · cases h; exact ⟨[], (List.append_nil _).symm⟩

theorem Observations_foldlM (GPI : Bool) :
    ∀ (Events : List FEvent) (r r' : FRun),
      Events.foldlM (ApplyEvent GPI) r = some r' →
      ∃ L, r'.Observations = r.Observations ++ L := by
  intro Events
  induction Events with
  | nil =>
    intro r r' h
    simp only [List.foldlM_nil] at h
    cases h
    exact ⟨[], (List.append_nil _).symm⟩
  | cons e Rest ih =>
    intro r r' h
    simp only [List.foldlM_cons] at h
    cases hE : ApplyEvent GPI r e with
    | none => rw [hE] at h; cases h
    | some r1 =>
      rw [hE] at h
      obtain ⟨L1, h1⟩ := Observations_ApplyEvent GPI r r1 e hE
      obtain ⟨L2, h2⟩ := ih r1 r' h
      exact ⟨L1 ++ L2, by rw [h2, h1, List.append_assoc]⟩

/-- After every run, `AddStage` without prerequisites succeeds for a stage for which no
`AddStage` succeeded before. -/
theorem AddStage_nil_of_not_added {GPI : Bool} {Γ : FRoles} {Log : FLog} {s : TScheduler}
    (hI : SchedulerInv GPI Γ Log [] s) (T : IdType) (hA : ∀ Q, ¬ IsAddedWith Log T Q) :
    (s.AddStage GPI T []).1 = .ok () := by
  rw [AddStage_eq]
  simp only
  rw [AddStageCalls_eq]
  have hSS : ∀ s2 : TScheduler, s2.Stages = s.Stages →
      (StageState_AddStage GPI (s2.FindOrAddStage T) T
        (CollectFuturePrerequisiteCompletions [] s).1).1 = .ok () := by
    intro s2 hs2
    have hF : ∃ pd, (s2.FindOrAddStage T).Find T = some (.Undefined pd) := by
      cases hT : s.Find T with
      | none =>
        exact ⟨_, Find_FindOrAddStage_same_of_none s2 T (by rw [Find_of_Stages hs2]; exact hT)⟩
      | some st =>
        have hT2 : s2.Find T = some st := by rw [Find_of_Stages hs2]; exact hT
        rw [Find_FindOrAddStage_same_of_some s2 T st hT2, hT2]
        have hn : ¬ (s.GetId T = .Defined ∨ s.GetId T = .Executing ∨ s.GetId T = .Completed) :=
          fun hh => by
            obtain ⟨Q, hQ⟩ := (Inv_added_iff hI T).2 hh
            exact hA Q hQ
        rw [GetId_of_Find hT] at hn
        cases st with
        | Undefined pd => exact ⟨pd, rfl⟩
        | Defined pd F => exact absurd (Or.inl rfl) hn
        | Executing Id b Ts Ps => exact absurd (Or.inr (Or.inl rfl)) hn
        | Completed Id => exact absurd (Or.inr (Or.inr rfl)) hn
    obtain ⟨pd, hF⟩ := hF
    unfold StageState_AddStage
    rw [hF]
  by_cases hG : GPI = true
  · rw [if_pos hG]
    have hc : s.PrerequisitesByStageId.Contains T = false := by
      unfold FPrerequisitesByStageId.Contains
      cases hm : s.PrerequisitesByStageId.lookup T with
      | none => rfl
      | some Q => exact absurd ((hI.map hG T Q).1 hm) (hA Q)
    have hD : DebugAddStage (CollectFuturePrerequisiteCompletions [] s).2.PrerequisitesByStageId
        T [] = (.ok (), s.PrerequisitesByStageId.Emplace T []) := by
      show DebugAddStage s.PrerequisitesByStageId T [] = _
      unfold DebugAddStage
      rw [hc]
      rfl
    rw [hD]
    exact hSS _ rfl
  · rw [if_neg hG]
    exact hSS _ rfl

theorem mem_TasksOf_append_left {Log L : FLog} {X : IdType} {e : IdType × FFutureHandle}
    (h : e ∈ TasksOf Log X) : e ∈ TasksOf (Log ++ L) X := by
  unfold TasksOf at h ⊢
  rw [List.filterMap_append]
  exact List.mem_append_left _ h

/-- After every run, the execution future of a task of a stage that was added successfully
is resolved exactly when all prerequisites of the stage are completed. -/
theorem Inv_task_released_iff_prerequisites {GPI : Bool} {Γ : FRoles} {Log : FLog}
    {s : TScheduler} (hI : SchedulerInv GPI Γ Log [] s) (X T : IdType) (P : List IdType)
    (he : FFutureHandle) (hP : IsAddedWith Log X P) (hm : (T, he) ∈ TasksOf Log X) :
    (s.Result he ≠ none ↔ ∀ p, p ∈ P → s.GetId p = .Completed) ∧
      (s.Result he ≠ none → s.IsReleased he) := by
  obtain ⟨h1, h2⟩ := Inv_task_released hI X T he hm
  refine ⟨?_, h2⟩
  rw [h1]
  constructor
  · intro hSt
    exact Inv_prerequisites_Completed hI X P hSt hP
  · intro hall
    rcases (Inv_added_iff hI X).1 ⟨P, hP⟩ with hD | hE | hC
    · obtain ⟨p, hp, hne⟩ := Inv_Defined_waits hI X P hD hP
      exact absurd (hall p hp) hne
    · exact Or.inl hE
    · exact Or.inr hC

/-- What holds of the future that a successful `AddTask` returned, in every later state of
the run. -/
theorem AddTask_ok_later (GPI : Bool) (Events : List FEvent) (r : FRun)
    (h : Exec GPI Events = some r) (T : IdType) (P : List IdType) (he : FFutureHandle)
    (s1 : TScheduler) (hAT : r.Scheduler.AddTask GPI T P = some (.ok he, s1))
    (Later : List FEvent) (r' : FRun)
    (h' : Exec GPI (Events ++ [.AddTask T P] ++ Later) = some r') :
    (r'.Scheduler.Result he ≠ none ↔ ∀ p, p ∈ P → r'.Scheduler.GetId p = .Completed) ∧
      (r'.Scheduler.Result he ≠ none → r'.Scheduler.IsReleased he) := by
  obtain ⟨Γ, hI⟩ := Exec_SchedulerInv GPI _ r' h'
  have h1 := h'
  rw [Exec_append, Exec_concat, h] at h1
  simp only [Option.bind] at h1
  rw [ApplyEvent_AddTask_ok GPI Events r h T P he s1 hAT] at h1
  obtain ⟨L, hL⟩ := Observations_foldlM GPI Later _ r' h1
  simp only at hL
  have hP : IsAddedWith r'.Observations T P := by
    unfold IsAddedWith
    rw [hL]
    simp
  have hm : (T, he) ∈ TasksOf r'.Observations T := by
    rw [hL]
    apply mem_TasksOf_append_left
    unfold TasksOf
    rw [List.filterMap_append]
    apply List.mem_append_right
    simp
  exact Inv_task_released_iff_prerequisites hI T T P he hP hm

/-- C18 (no-prerequisite ready). After every run, `AddTask(T, [])` for a stage `T` for
which neither a successful `AddStage` nor `SetAllTasksAdded` was observed (in particular
one that was never mentioned) returns a value whose execution future is resolved with a
task completion promise when the call returns. For the future that a successful
`AddTask(T, P)` returned:
it is resolved at return when `P` is empty, it is not resolved at return when a
prerequisite in `P` is not `Completed`, and in every later state of the run it is resolved
(with a task completion promise) exactly when every prerequisite in `P` is `Completed`. -/
theorem AddTask_ready_iff_prerequisites_Completed (GPI : Bool) (Events : List FEvent)
    (r : FRun) (h : Exec GPI Events = some r) (T : IdType) :
    ((∀ Q, ¬ IsAddedWith r.Observations T Q) → ¬ IsCollected r.Observations T →
      ∃ he s1, r.Scheduler.AddTask GPI T [] = some (.ok he, s1) ∧ s1.IsReleased he) ∧
    ∀ P he s1, r.Scheduler.AddTask GPI T P = some (.ok he, s1) →
      (P = [] → s1.IsReleased he) ∧
      ((∃ p, p ∈ P ∧ s1.GetId p ≠ .Completed) → s1.Result he = none) ∧
      ∀ Later r', Exec GPI (Events ++ [.AddTask T P] ++ Later) = some r' →
        (r'.Scheduler.Result he ≠ none ↔ ∀ p, p ∈ P → r'.Scheduler.GetId p = .Completed) ∧
        (r'.Scheduler.Result he ≠ none → r'.Scheduler.IsReleased he) := by
  have hret : ∀ P he s1, r.Scheduler.AddTask GPI T P = some (.ok he, s1) →
      (s1.Result he ≠ none ↔ ∀ p, p ∈ P → s1.GetId p = .Completed) ∧
        (s1.Result he ≠ none → s1.IsReleased he) := by
    intro P he s1 hAT
    have hE : Exec GPI (Events ++ [.AddTask T P] ++ []) =
        some ⟨r.Observations ++ [.AddStage T P (.ok ()), .AddTaskToStage T T (.ok he),
          .SetAllTasksAdded T], s1⟩ := by
      rw [List.append_nil, Exec_concat, h]
      exact ApplyEvent_AddTask_ok GPI Events r h T P he s1 hAT
    exact AddTask_ok_later GPI Events r h T P he s1 hAT [] _ hE
  constructor
  · intro hA hC
    obtain ⟨Γ, hI⟩ := Exec_SchedulerInv GPI Events r h
    have hok := AddStage_nil_of_not_added hI T hA
    have hE1 : Exec GPI (Events ++ [.AddStage T []]) =
        some ⟨r.Observations ++ [.AddStage T [] (r.Scheduler.AddStage GPI T []).1],
          (r.Scheduler.AddStage GPI T []).2⟩ := Exec_AddStage GPI Events r h T []
    obtain ⟨Γ1, hI1⟩ := Exec_SchedulerInv GPI _ _ hE1
    simp only at hI1
    have hflag : (r.Scheduler.AddStage GPI T []).2.IsAllTasksCollected T = false := by
      cases hb : (r.Scheduler.AddStage GPI T []).2.IsAllTasksCollected T with
      | false => rfl
      | true =>
        have hc := (Inv_IsAllTasksCollected hI1 T).1 hb
        rw [IsCollected_append] at hc
        rcases hc with hc | hc
        · exact absurd hc hC
        · cases hc
    obtain ⟨hres, _⟩ := AddTaskToStage_not_collected _ T T hflag
    have hAT : r.Scheduler.AddTask GPI T [] =
        some (.ok (r.Scheduler.AddStage GPI T []).2.Futures.length,
          ((r.Scheduler.AddStage GPI T []).2.AddTaskToStage T T).2.SetAllTasksAdded GPI T) := by
      unfold TScheduler.AddTask
      cases hA : r.Scheduler.AddStage GPI T [] with
      | mk res s2 =>
        rw [hA] at hok hres
        simp only at hok hres
        cases hok
        simp only
        cases hB : s2.AddTaskToStage T T with
        | mk res2 s3 =>
          rw [hB] at hres
          simp only at hres
          cases hres
          rfl
    refine ⟨_, _, hAT, ?_⟩
    obtain ⟨h1, h2⟩ := hret [] _ _ hAT
    exact h2 (h1.2 (fun p hp => by cases hp))
  · intro P he s1 hAT
    obtain ⟨h1, h2⟩ := hret P he s1 hAT
    refine ⟨?_, ?_, fun Later r' h' => AddTask_ok_later GPI Events r h T P he s1 hAT Later r' h'⟩
    · intro hP
      subst hP
      exact h2 (h1.2 (fun p hp => by cases hp))
    · rintro ⟨p, hp, hne⟩
      cases hr : s1.Result he with
      | none => rfl
      | some v =>
        have : s1.Result he ≠ none := by rw [hr]; simp
        exact absurd (h1.1 this p hp) hne

theorem AddTask_ready_iff_prerequisites_Completed_witness :
    (∃ he s1, (ExecD true ExampleWaitingStage).Scheduler.AddTask true 7 [] =
      some (.ok he, s1) ∧ s1.IsReleased he) ∧
    (ExecD true [.AddTask 1 [], .AddTask 2 [1]]).Scheduler.Result 3 = none ∧
    ((ExecD true ExampleDependentTask).Scheduler.Result 0 ≠ none ↔
      ∀ p, p ∈ ([] : List IdType) →
        (ExecD true ExampleDependentTask).Scheduler.GetId p = .Completed) :=
  ⟨(AddTask_ready_iff_prerequisites_Completed true ExampleWaitingStage
      (ExecD true ExampleWaitingStage) rfl 7).1
      (fun Q hQ => by
        have hObs : (ExecD true ExampleWaitingStage).Observations =
            [.AddStage 2 [1] (.ok ())] := by decide
        unfold IsAddedWith at hQ
        rw [hObs] at hQ
        simp at hQ)
      (by unfold IsCollected; decide),
    ((AddTask_ready_iff_prerequisites_Completed true [.AddTask 1 []]
      (ExecD true [.AddTask 1 []]) rfl 2).2 [1] 3
        (ExecD true [.AddTask 1 [], .AddTask 2 [1]]).Scheduler (by decide)).2.1
      ⟨1, by decide, by decide⟩,
    (((AddTask_ready_iff_prerequisites_Completed true [] (ExecD true []) rfl 1).2 [] 0
        (ExecD true [.AddTask 1 []]).Scheduler (by decide)).2.2
      [.FulfilTaskCompletion 1, .AddTask 2 [1]] (ExecD true ExampleDependentTask) rfl).1⟩

/-- C17, failing input. `SetAllTasksAdded(1)` on a fresh scheduler, then `AddTask(1, [])`:
the `AddStage(1, [])` inside `AddTask` succeeds, the `AddTaskToStage(1, 1)` inside
`AddTask` returns `AllTasksCollected`, and `check(AddTaskToStageResult.HasValue())`
fails, with and without inspections. -/
theorem AddTask_check_fails_after_SetAllTasksAdded :
    ((ExecD true [.SetAllTasksAdded 1]).Scheduler.AddStage true 1 []).1 = .ok () ∧
    (((ExecD true [.SetAllTasksAdded 1]).Scheduler.AddStage true 1 []).2.AddTaskToStage 1 1).1
      = .error ⟨1, 1⟩ ∧
    (ExecD true [.SetAllTasksAdded 1]).Scheduler.AddTask true 1 [] = none ∧
    Exec true [.SetAllTasksAdded 1, .AddTask 1 []] = none ∧
    Exec false [.SetAllTasksAdded 1, .AddTask 1 []] = none := by
  decide

/-- C19 (`AddTask` returns the errors of `AddStage`). After every run, `AddTask(T, P)`
returns an error exactly when its `AddStage(T, P)` does, the same error in the same state;
then the task list and the `allTasksCollected` flag of stage `T` are what they were; and
`AddTask` on a stage for which `AddStage` succeeded before, in particular right after a
successful `AddTask` for the same id, returns `StageAlreadyAdded(T)`. -/
theorem AddTask_returns_AddStage_error (GPI : Bool) (Events : List FEvent) (r : FRun)
    (h : Exec GPI Events = some r) (T : IdType) (P : List IdType) :
    (∀ e s1, r.Scheduler.AddTask GPI T P = some (.error e, s1) ↔
      r.Scheduler.AddStage GPI T P = (.error e, s1)) ∧
    (∀ e s1, r.Scheduler.AddTask GPI T P = some (.error e, s1) →
      s1.TaskIdsOf T = r.Scheduler.TaskIdsOf T ∧
      s1.IsAllTasksCollected T = r.Scheduler.IsAllTasksCollected T) ∧
    ((∃ P0, IsAddedWith r.Observations T P0) →
      ∃ s2, r.Scheduler.AddTask GPI T P = some (.error (.StageAlreadyAdded T), s2)) ∧
    (∀ P0 he s1, r.Scheduler.AddTask GPI T P0 = some (.ok he, s1) →
      ∃ s2, s1.AddTask GPI T P = some (.error (.StageAlreadyAdded T), s2)) := by
  have hadded : ∀ (Events' : List FEvent) (r' : FRun), Exec GPI Events' = some r' →
      (∃ P0, IsAddedWith r'.Observations T P0) →
      ∃ s2, r'.Scheduler.AddTask GPI T P = some (.error (.StageAlreadyAdded T), s2) := by
    intro Events' r' hE hP0
    obtain ⟨Γ, hI⟩ := Exec_SchedulerInv GPI Events' r' hE
    obtain ⟨st, hst⟩ := Inv_registered hI T (Or.inl hP0)
    have hU : st.GetId ≠ .Undefined := by
      have := (Inv_added_iff hI T).1 hP0
      rw [GetId_of_Find hst] at this
      intro hU
      rw [hU] at this
      rcases this with h1 | h1 | h1 <;> cases h1
    obtain ⟨h1, _⟩ := AddStage_of_added hI T P st hst hU
    refine ⟨(r'.Scheduler.AddStage GPI T P).2, ?_⟩
    rw [AddTask_error_iff]
    exact Prod.ext h1 rfl
  refine ⟨fun e s1 => AddTask_error_iff GPI r.Scheduler T P e s1, ?_, hadded Events r h, ?_⟩
  · intro e s1 hAT
    rw [AddTask_error_iff] at hAT
    have he : (r.Scheduler.AddStage GPI T P).1 = .error e := by rw [hAT]
    have := AddStage_error_TaskIdsOf GPI r.Scheduler T P e he T
    rw [hAT] at this
    exact this
  · intro P0 he s1 hAT
    have hE : Exec GPI (Events ++ [.AddTask T P0]) =
        some ⟨r.Observations ++ [.AddStage T P0 (.ok ()), .AddTaskToStage T T (.ok he),
          .SetAllTasksAdded T], s1⟩ := by
      rw [Exec_concat, h]
      exact ApplyEvent_AddTask_ok GPI Events r h T P0 he s1 hAT
    exact hadded _ _ hE ⟨P0, by unfold IsAddedWith; simp⟩

theorem AddTask_returns_AddStage_error_witness :
    ∃ s2, (ExecD true [.AddTask 1 []]).Scheduler.AddTask true 1 [] =
      some (.error (.StageAlreadyAdded 1), s2) :=
  (AddTask_returns_AddStage_error true [] (ExecD true []) rfl 1 []).2.2.2 [] 0
    (ExecD true [.AddTask 1 []]).Scheduler (by decide)

end Zkz.StagedExecution

namespace Zkz.StagedExecution

/-! ## Runs in which a stage that is its own prerequisite was accepted -/

/-- C14, failing input. With inspections, `AddStage(1, [1])` is accepted and
`AddStage(2, [1])` then returns `CircularDependency`: `AddStage` returns before
`FindOrAddStage(2)`, so stage `2`, which was passed to `AddStage`, has no entry in the
registry. -/
theorem Failed_AddStage_leaves_stage_unregistered :
    Exec true [.AddStage 1 [1], .AddStage 2 [1]] =
      some (ExecD true [.AddStage 1 [1], .AddStage 2 [1]]) ∧
    (ExecD true [.AddStage 1 [1], .AddStage 2 [1]]).Observations =
      [.AddStage 1 [1] (.ok ()),
        .AddStage 2 [1] (.error (.CircularDependency 2 [1] [2, 1, 1]))] ∧
    (ExecD true [.AddStage 1 [1], .AddStage 2 [1]]).Scheduler.Find 2 = none ∧
    (ExecD true [.AddStage 1 [1], .AddStage 2 [1]]).Scheduler.Stages.map
      TStageState.GetStageId = [1] := by
  decide

/-- C20, failing input. With inspections, after `AddStage(1, [1])` was accepted, stage `2`
is not registered and `AddStage(2, [1])` returns `CircularDependency` in each of the three
orders of `AddStage(2, [1])`, `AddTaskToStage(2, 5)`, `SetAllTasksAdded(2)` in which
`AddTaskToStage` precedes `SetAllTasksAdded`. -/
theorem AddStage_fails_in_every_order_after_self_prerequisite :
    (ExecD true [.AddStage 1 [1]]).Scheduler.Find 2 = none ∧
    ((ExecD true [.AddStage 1 [1]]).Scheduler.AddStage true 2 [1]).1 =
      .error (.CircularDependency 2 [1] [2, 1, 1]) ∧
    (((ExecD true [.AddStage 1 [1]]).Scheduler.AddTaskToStage 2 5).2.AddStage true 2 [1]).1 =
      .error (.CircularDependency 2 [1] [2, 1, 1]) ∧
    ((((ExecD true [.AddStage 1 [1]]).Scheduler.AddTaskToStage 2 5).2.SetAllTasksAdded
      true 2).AddStage true 2 [1]).1 = .error (.CircularDependency 2 [1] [2, 1, 1]) := by
  decide

end Zkz.StagedExecution

namespace Zkz

/-! ## Results (`Result.h`) -/

@[simp] theorem HasValue_ok {V E : Type} (v : V) : TResult.HasValue (Except.ok v : TResult V E) = true :=
  rfl

@[simp] theorem HasValue_error {V E : Type} (e : E) :
    TResult.HasValue (Except.error e : TResult V E) = false := rfl

@[simp] theorem HasError_ok {V E : Type} (v : V) : TResult.HasError (Except.ok v : TResult V E) = false :=
  rfl

@[simp] theorem HasError_error {V E : Type} (e : E) :
    TResult.HasError (Except.error e : TResult V E) = true := rfl

theorem AndThenImpl_ok {V E V' E' σ : Type} (ErrorCast : E → E') (v : V)
    (Function : V → σ → TResult V' E' × σ) (s : σ) :
    ResultPrivate.AndThenImpl ErrorCast (.ok v) Function s = Function v s := rfl

theorem AndThenImpl_error {V E V' E' σ : Type} (ErrorCast : E → E') (e : E)
    (Function : V → σ → TResult V' E' × σ) (s : σ) :
    ResultPrivate.AndThenImpl ErrorCast (.error e) Function s = (.error (ErrorCast e), s) := rfl

theorem OrElseImpl_error {V E V' E' σ : Type} (ValueCast : V → V') (e : E)
    (Function : E → σ → TResult V' E' × σ) (s : σ) :
    ResultPrivate.OrElseImpl ValueCast (.error e) Function s = Function e s := rfl

theorem OrElseImpl_ok {V E V' E' σ : Type} (ValueCast : V → V') (v : V)
    (Function : E → σ → TResult V' E' × σ) (s : σ) :
    ResultPrivate.OrElseImpl ValueCast (.ok v) Function s = (.ok (ValueCast v), s) := rfl

theorem CollapseNestedResults_ok {V InnerE OuterE : Type} (Inner : TResult V InnerE)
    (ConversionFunction : OuterE → InnerE) :
    CollapseNestedResults (.ok Inner) ConversionFunction = Inner := rfl

theorem CollapseNestedResults_error {V InnerE OuterE : Type} (e : OuterE)
    (ConversionFunction : OuterE → InnerE) :
    CollapseNestedResults (.error e : TResult (TResult V InnerE) OuterE) ConversionFunction
      = .error (ConversionFunction e) := rfl

/-- C28. Result chaining. For a result `r`, a callable `f` (possibly with effects on the
program state `s`) and a callable `g`: `r.AndThen(f)` is `f(v)` when `r` is `Value(v)`; when
`r` is `Err(e)` it is `Err(e)` (the error converted to the error type of the result of `f`,
which is `e` itself when the error types agree) and `f` is not invoked: the state is handed
through unchanged. Dually `r.OrElse(g)` is `g(e)` when `r` is `Err(e)`, and `Value(v)`
without invoking `g` when `r` is `Value(v)`. `HasError` is the negation of `HasValue`, and
`GetValueOr(d)` is `v` for `Value(v)` and `d` for an error. -/
theorem Result_chaining {V E V' E' σ : Type} (ErrorCast : E → E') (ValueCast : V → V')
    (f : V → σ → TResult V' E' × σ) (g : E → σ → TResult V' E' × σ)
    (f' : V → σ → TResult V' E × σ) (g' : E → σ → TResult V E' × σ)
    (r : TResult V E) (v d : V) (e : E) (s : σ) :
    TResult.AndThen ErrorCast (.ok v) f s = f v s
    ∧ TResult.AndThen ErrorCast (.error e) f s = (.error (ErrorCast e), s)
    ∧ TResult.AndThen id (.error e) f' s = (.error e, s)
    ∧ TResult.OrElse ValueCast (.error e) g s = g e s
    ∧ TResult.OrElse ValueCast (.ok v) g s = (.ok (ValueCast v), s)
    ∧ TResult.OrElse id (.ok v) g' s = (.ok v, s)
    ∧ TResult.HasError r = !TResult.HasValue r
    ∧ TResult.GetValueOr (Except.ok v : TResult V E) d = v
    ∧ TResult.GetValueOr (Except.error e : TResult V E) d = d :=
  ⟨rfl, rfl, rfl, rfl, rfl, rfl, rfl, rfl, rfl⟩

end Zkz

namespace Zkz

/-! ## Range minima (`Algo.h`) -/

theorem MinBy_append_singleton {A B : Type} (Range : List A) (Element : A) (Projection : A → B)
    (Comparator : B → B → Bool) :
    AlgoImpl.MinBy (Range ++ [Element]) Projection Comparator
      = AlgoImpl.MinByStep Projection Comparator
          (AlgoImpl.MinBy Range Projection Comparator) Element := by
  simp [AlgoImpl.MinBy, List.foldl_append]

/-- The loop invariant of `AlgoImpl::MinBy`: after a non-empty prefix the result is the
projection of the first minimal element of the prefix. -/
theorem MinBy_invariant {A B : Type} (Projection : A → B) (Comparator : B → B → Bool)
    (hOrder : IsStrictWeakOrder B (fun a b => Comparator a b = true)) (Range : List A) :
    Range ≠ [] →
    ∃ Before x After, Range = Before ++ x :: After
      ∧ AlgoImpl.MinBy Range Projection Comparator = some (Projection x)
      ∧ IsMinimalIn Range Projection Comparator x
      ∧ ∀ y ∈ Before, ¬ IsMinimalIn Range Projection Comparator y := by
  induction Range using List.reverseRecOn with
  | nil => intro h; exact absurd rfl h
  | append_singleton Range e ih =>
    intro _
    have hirr : ∀ b : B, Comparator b b = false := fun b => by
      have := hOrder.irrefl b
      simpa using this
    by_cases hR : Range = []
    · subst hR
      refine ⟨[], e, [], rfl, rfl, ?_, ?_⟩
      · intro y hy
        simp only [List.nil_append, List.mem_singleton] at hy
        subst hy
        exact hirr _
      · intro y hy; cases hy
    · obtain ⟨Before, x, After, hEq, hMin, hx, hFirst⟩ := ih hR
      have hxmem : x ∈ Range := by rw [hEq]; simp
      rw [MinBy_append_singleton, hMin]
      cases hc : Comparator (Projection e) (Projection x)
      · -- the current minimum stays
        refine ⟨Before, x, After ++ [e], by rw [hEq]; simp, ?_, ?_, ?_⟩
        · simp [AlgoImpl.MinByStep, hc]
        · intro y hy
          rcases List.mem_append.1 hy with hy | hy
          · exact hx y hy
          · rw [List.mem_singleton] at hy; subst hy; exact hc
        · intro y hy hmin
          exact hFirst y hy (fun z hz => hmin z (List.mem_append_left _ hz))
      · -- the new element is smaller than every element before
        refine ⟨Range, e, [], rfl, ?_, ?_, ?_⟩
        · simp [AlgoImpl.MinByStep, hc]
        · intro y hy
          rcases List.mem_append.1 hy with hy | hy
          · cases hy' : Comparator (Projection y) (Projection e)
            · rfl
            · have h1 : Comparator (Projection y) (Projection x) = true :=
                hOrder.trans _ _ _ hy' hc
              rw [hx y hy] at h1; cases h1
          · rw [List.mem_singleton] at hy; subst hy; exact hirr _
        · intro y hy hmin
          have h1 : Comparator (Projection x) (Projection y) = false :=
            hmin x (List.mem_append_left _ hxmem)
          have h2 : Comparator (Projection e) (Projection y) = false :=
            hmin e (List.mem_append_right _ (List.mem_singleton.2 rfl))
          have h3 : Comparator (Projection y) (Projection x) = false := hx y hy
          have h4 : ¬ Comparator (Projection y) (Projection e) = true := by
            intro h
            have := hOrder.trans _ _ _ h hc
            rw [h3] at this; cases this
          have h5 := hOrder.incomp_trans (Projection e) (Projection y) (Projection x)
            ⟨by rw [h2]; simp, h4⟩ ⟨by rw [h3]; simp, by rw [h1]; simp⟩
          exact h5.1 hc

/-- C30. `Min` / `MinBy`. For an empty range the result is `NullOpt`. For a non-empty range,
a projection and a comparator that is a strict weak ordering the result is the projection
`p(x)` of an element `x` of the range such that no element `y` has
`Comparator(p(y), p(x))`, and no element before `x` in iteration order has that property
(`x` is the first minimum). `Min` is `MinBy` with the identity projection, and the comparator
defaults to less-than. -/
theorem MinBy_returns_first_minimum {A B : Type} [LT A] [DecidableRel (fun a b : A => a < b)]
    [LT B] [DecidableRel (fun a b : B => a < b)]
    (Range : List A) (Projection : A → B) (Comparator : B → B → Bool)
    (Comparator' : A → A → Bool)
    (hOrder : IsStrictWeakOrder B (fun a b => Comparator a b = true)) :
    MinByWith ([] : List A) Projection Comparator = none
    ∧ (Range ≠ [] →
        ∃ Before x After, Range = Before ++ x :: After
          ∧ MinByWith Range Projection Comparator = some (Projection x)
          ∧ IsMinimalIn Range Projection Comparator x
          ∧ ∀ y ∈ Before, ¬ IsMinimalIn Range Projection Comparator y)
    ∧ Min Range = MinBy Range FIdentityFunctor
    ∧ MinWith Range Comparator' = MinByWith Range FIdentityFunctor Comparator'
    ∧ Min Range = MinWith Range TLess
    ∧ MinBy Range Projection = MinByWith Range Projection TLess
    ∧ (∀ a b : B, TLess a b = true ↔ a < b) :=
  ⟨rfl, MinBy_invariant Projection Comparator hOrder Range, rfl, rfl, rfl, rfl,
    fun _ _ => by simp [TLess]⟩

/-- The comparator `TLess<>` on the integers is a strict weak ordering. -/
theorem TLess_Int_IsStrictWeakOrder :
    IsStrictWeakOrder Int (fun a b => TLess a b = true) where
  irrefl a := by simp [TLess]
  trans a b c := by simp only [TLess, decide_eq_true_eq]; omega
  incomp_trans a b c := by simp only [TLess, decide_eq_true_eq]; omega

/-- The ranges of `AlgoTest.cpp`: `{0, 1, 2, 3, 4, -90, 6, 7, 8, 9}` negated has its first
minimum `-9` at the end. -/
theorem MinBy_returns_first_minimum_witness :
    MinByWith ([] : List Int) (fun V => -V) TLess = none
    ∧ (∃ Before x After, ([0, 1, 2, 3, 4, -90, 6, 7, 8, 9] : List Int) = Before ++ x :: After
          ∧ MinByWith [0, 1, 2, 3, 4, -90, 6, 7, 8, 9] (fun V => -V) TLess
              = some ((fun V => -V) x)
          ∧ IsMinimalIn [0, 1, 2, 3, 4, -90, 6, 7, 8, 9] (fun V => -V) TLess x
          ∧ ∀ y ∈ Before, ¬ IsMinimalIn [0, 1, 2, 3, 4, -90, 6, 7, 8, 9] (fun V => -V) TLess y)
    ∧ Min ([0, 1, 2, 3, 4, -90, 6, 7, 8, 9] : List Int) = some (-90)
    ∧ MinWith ([0, 1, 2, 3, 4, -90, 6, 7, 8, 9] : List Int) TGreater = some 9
    ∧ MinBy ([0, 1, 2, 3, 4, -90, 6, 7, 8, 9] : List Int) (fun V => -V) = some (-9)
    ∧ MinByWith ([0, 1, 2, 3, 4, -90, 6, 7, 8, 9] : List Int) (fun V => -V) TGreater
        = some 90 :=
  have h := MinBy_returns_first_minimum ([0, 1, 2, 3, 4, -90, 6, 7, 8, 9] : List Int)
    (fun V => -V) TLess TLess TLess_Int_IsStrictWeakOrder
  ⟨h.1, h.2.1 (by simp), by decide, by decide, by decide, by decide⟩

end Zkz

namespace Zkz.StagedExecution

/-! ## `SetAllTasksAdded` is idempotent -/

theorem IsAllTasksCollected_Find {s : TScheduler} {X : IdType}
    (h : s.IsAllTasksCollected X = true) :
    ∃ st, s.Find X = some st ∧ st.IsAllTasksCollected = true := by
  unfold TScheduler.IsAllTasksCollected at h
  cases hX : s.Find X with
  | none => rw [hX] at h; cases h
  | some st => rw [hX] at h; exact ⟨st, rfl, h⟩

/-- `StageState::SetAllTasksAdded` on a stage whose flag is set (or that is completed). -/
theorem StageState_SetAllTasksAdded_collected (s : TScheduler) (X : IdType)
    (h : s.IsAllTasksCollected X = true) : StageState_SetAllTasksAdded s X = (s, []) := by
  obtain ⟨st, hX, hst⟩ := IsAllTasksCollected_Find h
  unfold StageState_SetAllTasksAdded
  rw [hX]
  cases st with
  | Undefined pd =>
    have hb : pd.bAllTasksCollected = true := hst
    simp only [hb, if_true]
  | Defined pd F =>
    have hb : pd.bAllTasksCollected = true := hst
    simp only [hb, if_true]
  | Executing Id b T P =>
    have hb : b = true := hst
    subst hb
    simp only [if_true]
  | Completed Id => rfl

/-- `SetAllTasksAdded` on a stage whose flag is set (or that is completed) changes nothing. -/
theorem SetAllTasksAdded_collected (GPI : Bool) (s : TScheduler) (X : IdType)
    (h : s.IsAllTasksCollected X = true) : s.SetAllTasksAdded GPI X = s := by
  obtain ⟨st, hX, _⟩ := IsAllTasksCollected_Find h
  unfold TScheduler.SetAllTasksAdded
  rw [Find_FindOrAddStage_same_of_some s X st hX, StageState_SetAllTasksAdded_collected s X h]
  exact RunCalls_nil GPI s

/-- After `StageState::SetAllTasksAdded` on a registered stage the flag is set. -/
theorem StageState_SetAllTasksAdded_sets (s : TScheduler) (X : IdType) (st : TStageState)
    (hX : s.Find X = some st) :
    (StageState_SetAllTasksAdded s X).1.IsAllTasksCollected X = true := by
  have hid := GetStageId_of_Find hX
  by_cases hc : s.IsAllTasksCollected X = true
  · rw [StageState_SetAllTasksAdded_collected s X hc]; exact hc
  · rw [IsAllTasksCollected_of_Find hX] at hc
    unfold StageState_SetAllTasksAdded
    rw [hX]
    cases st with
    | Undefined pd =>
      have hb : pd.bAllTasksCollected = false := by
        cases hb : pd.bAllTasksCollected
        · rfl
        · exact absurd hb hc
      simp only [hb, Bool.false_eq_true, if_false]
      exact (IsAllTasksCollected_of_Find (Find_Assign_same s X
        (.Undefined { pd with bAllTasksCollected := true }) _ hid hX)).trans rfl
    | Defined pd F =>
      have hb : pd.bAllTasksCollected = false := by
        cases hb : pd.bAllTasksCollected
        · rfl
        · exact absurd hb hc
      simp only [hb, Bool.false_eq_true, if_false]
      exact (IsAllTasksCollected_of_Find (Find_Assign_same s X
        (.Defined { pd with bAllTasksCollected := true } F) _ hid hX)).trans rfl
    | Executing Id b T P =>
      have hb : b = false := by
        cases b
        · rfl
        · exact absurd rfl hc
      subst hb
      simp only [Bool.false_eq_true, if_false]
      refine (Progress_CompleteWhenTasksFinished _ X X).2 ?_
      exact (IsAllTasksCollected_of_Find (Find_Assign_same s X
        (.Executing Id true T P) _ hid hX)).trans rfl
    | Completed Id => exact absurd rfl hc

/-- After `SetAllTasksAdded(X)` the flag of `X` is set. -/
theorem SetAllTasksAdded_sets (GPI : Bool) (s : TScheduler) (X : IdType) :
    (s.SetAllTasksAdded GPI X).IsAllTasksCollected X = true := by
  obtain ⟨st, hst⟩ := Find_FindOrAddStage_isSome s X
  have h1 := StageState_SetAllTasksAdded_sets (s.FindOrAddStage X) X st hst
  unfold TScheduler.SetAllTasksAdded
  generalize StageState_SetAllTasksAdded (s.FindOrAddStage X) X = r at h1 ⊢
  obtain ⟨s1, Calls⟩ := r
  exact (Progress_RunCalls GPI Calls s1 X).2 h1

/-- `SetAllTasksAdded` on an undefined stage whose flag is not set. -/
theorem SetAllTasksAdded_Undefined (GPI : Bool) (s : TScheduler) (X : IdType)
    (Pending : TStageState_Pending) (hX : s.Find X = some (.Undefined Pending))
    (hb : Pending.bAllTasksCollected = false) :
    s.SetAllTasksAdded GPI X
      = s.Assign X (.Undefined { Pending with bAllTasksCollected := true }) := by
  unfold TScheduler.SetAllTasksAdded
  rw [Find_FindOrAddStage_same_of_some s X _ hX]
  unfold StageState_SetAllTasksAdded
  rw [hX]
  simp only [hb, Bool.false_eq_true, if_false]
  exact RunCalls_nil GPI _

/-- `SetAllTasksAdded` on a defined stage whose flag is not set. -/
theorem SetAllTasksAdded_Defined (GPI : Bool) (s : TScheduler) (X : IdType)
    (Pending : TStageState_Pending) (F : List FFutureHandle)
    (hX : s.Find X = some (.Defined Pending F)) (hb : Pending.bAllTasksCollected = false) :
    s.SetAllTasksAdded GPI X
      = s.Assign X (.Defined { Pending with bAllTasksCollected := true } F) := by
  unfold TScheduler.SetAllTasksAdded
  rw [Find_FindOrAddStage_same_of_some s X _ hX]
  unfold StageState_SetAllTasksAdded
  rw [hX]
  simp only [hb, Bool.false_eq_true, if_false]
  exact RunCalls_nil GPI _

/-- C21. `SetAllTasksAdded` is idempotent: for every scheduler state `s` and stage id `X`,
calling `SetAllTasksAdded(X)` twice in a row gives exactly the state reached after the
first call. On a completed stage, and on any stage whose flag is already set, the call
changes nothing. On an undefined or defined stage whose flag is not set, the call only
sets the flag in the stage's entry: the entry keeps its kind, task list, promises and
prerequisite futures, so the state id of every stage, the heap of futures and the
prerequisite map are unchanged. -/
theorem SetAllTasksAdded_idempotent (GPI : Bool) (s : TScheduler) (X : IdType) :
    (s.SetAllTasksAdded GPI X).SetAllTasksAdded GPI X = s.SetAllTasksAdded GPI X
    ∧ (s.GetId X = .Completed → s.SetAllTasksAdded GPI X = s)
    ∧ (s.IsAllTasksCollected X = true → s.SetAllTasksAdded GPI X = s)
    ∧ (∀ Pending, s.Find X = some (.Undefined Pending) → Pending.bAllTasksCollected = false →
        s.SetAllTasksAdded GPI X
          = s.Assign X (.Undefined { Pending with bAllTasksCollected := true }))
    ∧ (∀ Pending F, s.Find X = some (.Defined Pending F) →
        Pending.bAllTasksCollected = false →
        s.SetAllTasksAdded GPI X
          = s.Assign X (.Defined { Pending with bAllTasksCollected := true } F))
    ∧ ((s.GetId X = .Undefined ∨ s.GetId X = .Defined) →
        (∀ Y, (s.SetAllTasksAdded GPI X).GetId Y = s.GetId Y)
        ∧ (s.SetAllTasksAdded GPI X).Futures = s.Futures
        ∧ (s.SetAllTasksAdded GPI X).PrerequisitesByStageId = s.PrerequisitesByStageId
        ∧ (s.SetAllTasksAdded GPI X).TaskIdsOf X = s.TaskIdsOf X) := by
  refine ⟨SetAllTasksAdded_collected GPI _ X (SetAllTasksAdded_sets GPI s X), ?_,
    SetAllTasksAdded_collected GPI s X, SetAllTasksAdded_Undefined GPI s X,
    SetAllTasksAdded_Defined GPI s X, ?_⟩
  · intro hC
    apply SetAllTasksAdded_collected
    unfold TScheduler.GetId at hC
    cases hX : s.Find X with
    | none => rw [hX] at hC; cases hC
    | some st =>
      rw [hX] at hC
      rw [IsAllTasksCollected_of_Find hX]
      cases st <;> first | rfl | cases hC
  · intro hU
    by_cases hc : s.IsAllTasksCollected X = true
    · rw [SetAllTasksAdded_collected GPI s X hc]
      exact ⟨fun _ => rfl, rfl, rfl, rfl⟩
    · cases hX : s.Find X with
      | none =>
        rw [GetId_of_Find_none hX] at hU
        rcases hU with h | h <;> cases h
      | some st =>
        have hid := GetStageId_of_Find hX
        rw [IsAllTasksCollected_of_Find hX] at hc
        rw [GetId_of_Find hX] at hU
        have key : ∀ st' : TStageState, st'.GetStageId = X → st'.GetId = st.GetId →
            st'.TaskIds = st.TaskIds → s.SetAllTasksAdded GPI X = s.Assign X st' →
            (∀ Y, (s.SetAllTasksAdded GPI X).GetId Y = s.GetId Y)
            ∧ (s.SetAllTasksAdded GPI X).Futures = s.Futures
            ∧ (s.SetAllTasksAdded GPI X).PrerequisitesByStageId = s.PrerequisitesByStageId
            ∧ (s.SetAllTasksAdded GPI X).TaskIdsOf X = s.TaskIdsOf X := by
          intro st' hid' hk ht he
          rw [he]
          refine ⟨?_, rfl, rfl, ?_⟩
          · intro Y
            by_cases hY : Y = X
            · subst hY
              rw [GetId_of_Find (Find_Assign_same s Y st' st hid' hX), GetId_of_Find hX, hk]
            · unfold TScheduler.GetId
              rw [Find_Assign_other s X Y st' hid' hY]
          · rw [TaskIdsOf_of_Find (Find_Assign_same s X st' st hid' hX), TaskIdsOf_of_Find hX,
              ht]
        cases st with
        | Undefined pd =>
          have hb : pd.bAllTasksCollected = false := by
            cases hb : pd.bAllTasksCollected
            · rfl
            · exact absurd hb hc
          exact key (.Undefined { pd with bAllTasksCollected := true }) hid rfl rfl
            (SetAllTasksAdded_Undefined GPI s X pd hX hb)
        | Defined pd F =>
          have hb : pd.bAllTasksCollected = false := by
            cases hb : pd.bAllTasksCollected
            · rfl
            · exact absurd hb hc
          exact key (.Defined { pd with bAllTasksCollected := true } F) hid rfl rfl
            (SetAllTasksAdded_Defined GPI s X pd F hX hb)
        | Executing Id b T P => rcases hU with h | h <;> cases h
        | Completed Id => rcases hU with h | h <;> cases h

end Zkz.StagedExecution

namespace Zkz.StagedExecution

/-- Stage 2 of `ExampleWaitingStage` is defined and waits for stage 1, which is undefined;
stage 1 of `ExampleDependentTask` is completed. -/
theorem SetAllTasksAdded_idempotent_witness :
    (((ExecD true ExampleWaitingStage).Scheduler.SetAllTasksAdded true 2).SetAllTasksAdded true 2
        = (ExecD true ExampleWaitingStage).Scheduler.SetAllTasksAdded true 2)
    ∧ (ExecD true ExampleWaitingStage).Scheduler.GetId 2 = .Defined
    ∧ (∀ Y, ((ExecD true ExampleWaitingStage).Scheduler.SetAllTasksAdded true 2).GetId Y
        = (ExecD true ExampleWaitingStage).Scheduler.GetId Y)
    ∧ ((ExecD true ExampleWaitingStage).Scheduler.SetAllTasksAdded true 2).IsAllTasksCollected 2
        = true
    ∧ (ExecD true ExampleWaitingStage).Scheduler.IsAllTasksCollected 2 = false
    ∧ (ExecD true ExampleDependentTask).Scheduler.GetId 1 = .Completed
    ∧ (ExecD true ExampleDependentTask).Scheduler.SetAllTasksAdded true 1
        = (ExecD true ExampleDependentTask).Scheduler
    ∧ (ExecD true ExampleDependentTask).Scheduler.SetAllTasksAdded true 2
        = (ExecD true ExampleDependentTask).Scheduler :=
  have h := SetAllTasksAdded_idempotent true (ExecD true ExampleWaitingStage).Scheduler 2
  have h1 := SetAllTasksAdded_idempotent true (ExecD true ExampleDependentTask).Scheduler 1
  have h2 := SetAllTasksAdded_idempotent true (ExecD true ExampleDependentTask).Scheduler 2
  ⟨h.1, by decide, (h.2.2.2.2.2 (Or.inr (by decide))).1, by decide, by decide, by decide,
    h1.2.1 (by decide), h2.2.2.1 (by decide)⟩

end Zkz.StagedExecution

namespace Zkz

/-! ## Scoped promises (`Future.h`) -/

theorem Object_lt {T : Type} {w : FPromiseWorld T} {p : FObjectId} {P : TScopedPromise}
    (h : w.Object p = some P) : p < w.Objects.length := by
  unfold FPromiseWorld.Object at h
  by_contra hlt
  rw [List.getElem?_eq_none (Nat.le_of_not_lt hlt)] at h
  cases h

theorem Object_SetObject {T : Type} (w : FPromiseWorld T) (p q : FObjectId) (o : Option TScopedPromise)
    (hp : p < w.Objects.length) :
    (w.SetObject p o).Object q = if q = p then o else w.Object q := by
  unfold FPromiseWorld.Object FPromiseWorld.SetObject
  simp only [List.getElem?_set]
  by_cases hq : q = p
  · subst hq
    simp only [if_true, hp]
    cases o <;> rfl
  · rw [if_neg (Ne.symm hq), if_neg hq]

@[simp] theorem States_SetObject (w : FPromiseWorld T) (p : FObjectId)
    (o : Option TScopedPromise) : (w.SetObject p o).States = w.States := rfl

@[simp] theorem Futures_SetObject (w : FPromiseWorld T) (p : FObjectId)
    (o : Option TScopedPromise) : (w.SetObject p o).Futures = w.Futures := rfl

@[simp] theorem Result_SetObject (w : FPromiseWorld T) (p : FObjectId)
    (o : Option TScopedPromise) (h : FStateHandle) : (w.SetObject p o).Result h = w.Result h :=
  rfl

@[simp] theorem IsResolved_SetObject (w : FPromiseWorld T) (p : FObjectId)
    (o : Option TScopedPromise) (h : FStateHandle) :
    (w.SetObject p o).IsResolved h = w.IsResolved h := rfl

theorem Result_of_ge {T : Type} (w : FPromiseWorld T) (h : FStateHandle) (hge : w.States.length ≤ h) :
    w.Result h = none := by
  unfold FPromiseWorld.Result
  rw [List.getElem?_eq_none hge]

/-- What `TPromise::EmplaceValue` does when it returns. -/
theorem EmplaceValue_some {T : Type} {P : TResultPromise} {w w' : FPromiseWorld T}
    {r : TCancelableFutureResult T} (h : P.EmplaceValue w r = some w') :
    ∃ s, P.State = some s ∧ s < w.States.length ∧ w.Result s = none
      ∧ w'.Objects = w.Objects ∧ w'.Futures = w.Futures
      ∧ w'.States.length = w.States.length
      ∧ ∀ k, w'.Result k = if k = s then some r else w.Result k := by
  unfold TResultPromise.EmplaceValue at h
  cases hs : P.State with
  | none => rw [hs] at h; cases h
  | some s =>
    rw [hs] at h
    simp only at h
    cases hg : w.States[s]? with
    | none => rw [hg] at h; cases h
    | some o =>
      rw [hg] at h
      cases o with
      | some x => cases h
      | none =>
        simp only [Option.some.injEq] at h
        subst h
        have hlt : s < w.States.length := by
          by_contra hlt
          rw [List.getElem?_eq_none (Nat.le_of_not_lt hlt)] at hg
          cases hg
        refine ⟨s, rfl, hlt, ?_, rfl, rfl, by simp, ?_⟩
        · unfold FPromiseWorld.Result; rw [hg]
        · intro k
          unfold FPromiseWorld.Result
          simp only [List.getElem?_set]
          by_cases hk : k = s
          · subst hk; simp [hlt]
          · rw [if_neg (Ne.symm hk), if_neg hk]

/-- `TPromise::EmplaceValue` returns when the promise has a state that is not complete. -/
theorem EmplaceValue_isSome {T : Type} (P : TResultPromise) (w : FPromiseWorld T)
    (r : TCancelableFutureResult T) (s : FStateHandle) (hs : P.State = some s)
    (hlt : s < w.States.length) (hr : w.Result s = none) :
    ∃ w', P.EmplaceValue w r = some w' := by
  unfold TResultPromise.EmplaceValue
  rw [hs]
  simp only
  unfold FPromiseWorld.Result at hr
  have hg : w.States[s]? = some (w.States[s]) := List.getElem?_eq_getElem hlt
  rw [hg] at hr ⊢
  cases hx : w.States[s] with
  | none => exact ⟨_, rfl⟩
  | some x => rw [hx] at hr; cases hr

theorem Object_Construct {T : Type} (w : FPromiseWorld T) (q : FObjectId) :
    (TScopedPromise.Construct w).2.Object q
      = if q = w.Objects.length then
          some { Promise := { State := some w.States.length }, bFulfilled := false }
        else w.Object q := by
  unfold TScopedPromise.Construct FPromiseWorld.Object
  simp only [List.getElem?_append]
  by_cases hq : q = w.Objects.length
  · subst hq; simp
  · rw [if_neg hq]
    by_cases hlt : q < w.Objects.length
    · rw [if_pos hlt]
    · rw [if_neg hlt]
      have h2 : q - w.Objects.length ≠ 0 :=
        Nat.sub_ne_zero_of_lt (Nat.lt_of_le_of_ne (Nat.le_of_not_lt hlt) (Ne.symm hq))
      rw [List.getElem?_eq_none (Nat.le_of_not_lt hlt)]
      cases hd : q - w.Objects.length with
      | zero => exact absurd hd h2
      | succ n => rfl

theorem Result_Construct {T : Type} (w : FPromiseWorld T) (h : FStateHandle) :
    (TScopedPromise.Construct w).2.Result h = w.Result h := by
  unfold TScopedPromise.Construct FPromiseWorld.Result
  simp only [List.getElem?_append]
  by_cases hlt : h < w.States.length
  · rw [if_pos hlt]
  · rw [if_neg hlt, List.getElem?_eq_none (Nat.le_of_not_lt hlt)]
    cases hd : h - w.States.length with
    | zero => rfl
    | succ n => rfl

theorem Object_append {T : Type} (w : FPromiseWorld T) (N : TScopedPromise) (q : FObjectId) :
    ({ w with Objects := w.Objects ++ [some N] } : FPromiseWorld T).Object q
      = if q = w.Objects.length then some N else w.Object q := by
  unfold FPromiseWorld.Object
  simp only [List.getElem?_append]
  by_cases hq : q = w.Objects.length
  · subst hq; simp
  · rw [if_neg hq]
    by_cases hlt : q < w.Objects.length
    · rw [if_pos hlt]
    · rw [if_neg hlt]
      have h2 : q - w.Objects.length ≠ 0 :=
        Nat.sub_ne_zero_of_lt (Nat.lt_of_le_of_ne (Nat.le_of_not_lt hlt) (Ne.symm hq))
      rw [List.getElem?_eq_none (Nat.le_of_not_lt hlt)]
      cases hd : q - w.Objects.length with
      | zero => exact absurd hd h2
      | succ n => rfl

end Zkz

namespace Zkz

theorem IsResolved_eq {T : Type} {w w' : FPromiseWorld T} {h : FStateHandle}
    (hr : w'.Result h = w.Result h) : w'.IsResolved h = w.IsResolved h := by
  unfold FPromiseWorld.IsResolved; rw [hr]

/-- The start of every program is consistent. -/
theorem Consistent_empty {T : Type} : ({} : FPromiseWorld T).Consistent where
  valid := fun p P h hp _ => by cases hp
  fulfilled := fun p P h hp _ => by cases hp
  unique := fun p q P Q h hp _ _ _ => by cases hp
  moved := fun p P hp _ => by cases hp

/-- Consistency is kept when the objects are rearranged: every state held afterwards was held
by one object before, with the same `bFulfilled`. -/
theorem Consistent_objects {T : Type} {w w' : FPromiseWorld T} (hw : w.Consistent)
    (hS : w'.States = w.States) (src : FObjectId → FObjectId)
    (hsrc : ∀ q Q' h, w'.Object q = some Q' → Q'.Promise.State = some h →
      ∃ Q0, w.Object (src q) = some Q0 ∧ Q0.Promise.State = some h
        ∧ Q0.bFulfilled = Q'.bFulfilled)
    (hinj : ∀ q q' Q Q' h, w'.Object q = some Q → w'.Object q' = some Q' →
      Q.Promise.State = some h → Q'.Promise.State = some h → src q = src q' → q = q')
    (hmoved : ∀ q Q', w'.Object q = some Q' → Q'.Promise.State = none →
      Q'.bFulfilled = true) : w'.Consistent where
  valid := fun p P h hp hh => by
    obtain ⟨Q0, h0, hs0, _⟩ := hsrc p P h hp hh
    rw [hS]; exact hw.valid _ _ _ h0 hs0
  fulfilled := fun p P h hp hh => by
    obtain ⟨Q0, h0, hs0, hf0⟩ := hsrc p P h hp hh
    have hr : w'.IsResolved h = w.IsResolved h := by
      unfold FPromiseWorld.IsResolved FPromiseWorld.Result; rw [hS]
    rw [hr, ← hf0]
    exact hw.fulfilled _ _ _ h0 hs0
  unique := fun p q P Q h hp hq hP hQ => by
    obtain ⟨P0, hp0, hsp, _⟩ := hsrc p P h hp hP
    obtain ⟨Q0, hq0, hsq, _⟩ := hsrc q Q h hq hQ
    exact hinj p q P Q h hp hq hP hQ (hw.unique _ _ _ _ _ hp0 hq0 hsp hsq)
  moved := hmoved

theorem Consistent_Construct {T : Type} {w : FPromiseWorld T} (hw : w.Consistent) :
    (TScopedPromise.Construct w).2.Consistent := by
  have hlen : (TScopedPromise.Construct w).2.States.length = w.States.length + 1 := by
    simp [TScopedPromise.Construct]
  have hnew : ∀ p P h, (TScopedPromise.Construct w).2.Object p = some P →
      P.Promise.State = some h →
      (p = w.Objects.length ∧ h = w.States.length ∧ P.bFulfilled = false)
      ∨ (p ≠ w.Objects.length ∧ w.Object p = some P) := by
    intro p P h hp hh
    rw [Object_Construct] at hp
    by_cases hpn : p = w.Objects.length
    · rw [if_pos hpn] at hp
      simp only [Option.some.injEq] at hp
      subst hp
      simp only [Option.some.injEq] at hh
      exact Or.inl ⟨hpn, hh.symm, rfl⟩
    · rw [if_neg hpn] at hp
      exact Or.inr ⟨hpn, hp⟩
  refine ⟨?_, ?_, ?_, ?_⟩
  · intro p P h hp hh
    rw [hlen]
    rcases hnew p P h hp hh with ⟨_, h2, _⟩ | ⟨_, h2⟩
    · rw [h2]; exact Nat.lt_succ_self _
    · exact Nat.lt_succ_of_lt (hw.valid _ _ _ h2 hh)
  · intro p P h hp hh
    rw [IsResolved_eq (Result_Construct w h)]
    rcases hnew p P h hp hh with ⟨_, h2, h3⟩ | ⟨_, h2⟩
    · rw [h3, h2]
      unfold FPromiseWorld.IsResolved
      rw [Result_of_ge w _ (Nat.le_refl _)]
      simp
    · exact hw.fulfilled _ _ _ h2 hh
  · intro p q P Q h hp hq hP hQ
    rcases hnew p P h hp hP with ⟨h1, h2, _⟩ | ⟨h1, h2⟩
    · rcases hnew q Q h hq hQ with ⟨h3, _, _⟩ | ⟨_, h4⟩
      · rw [h1, h3]
      · have := hw.valid _ _ _ h4 hQ
        rw [h2] at this
        exact absurd this (Nat.lt_irrefl _)
    · rcases hnew q Q h hq hQ with ⟨_, h3, _⟩ | ⟨_, h4⟩
      · have := hw.valid _ _ _ h2 hP
        rw [h3] at this
        exact absurd this (Nat.lt_irrefl _)
      · exact hw.unique _ _ _ _ _ h2 h4 hP hQ
  · intro p P hp hh
    rw [Object_Construct] at hp
    by_cases hpn : p = w.Objects.length
    · rw [if_pos hpn] at hp
      simp only [Option.some.injEq] at hp
      subst hp
      cases hh
    · rw [if_neg hpn] at hp
      exact hw.moved _ _ hp hh

/-- Consistency is kept when the object `p` fulfils its promise. -/
theorem Consistent_emplace {T : Type} {w w' : FPromiseWorld T} (hw : w.Consistent) (p : FObjectId)
    (P : TScopedPromise) (r : TCancelableFutureResult T) (hp : w.Object p = some P)
    (he : P.Promise.EmplaceValue (w.SetObject p (some { P with bFulfilled := true })) r
      = some w') : w'.Consistent := by
  obtain ⟨s, hs, hlt, hres, hO, _, hlen, hR⟩ := EmplaceValue_some he
  have hplt := Object_lt hp
  have hObj : ∀ q, w'.Object q
      = if q = p then some { P with bFulfilled := true } else w.Object q := by
    intro q
    rw [← Object_SetObject w p q _ hplt]
    unfold FPromiseWorld.Object
    rw [hO]
  have hold : ∀ q Q h, w'.Object q = some Q → Q.Promise.State = some h →
      (q = p ∧ h = s ∧ Q.bFulfilled = true)
      ∨ (q ≠ p ∧ h ≠ s ∧ w.Object q = some Q) := by
    intro q Q h hq hh
    rw [hObj] at hq
    by_cases hqp : q = p
    · rw [if_pos hqp] at hq
      simp only [Option.some.injEq] at hq
      subst hq
      simp only at hh
      rw [hs] at hh
      simp only [Option.some.injEq] at hh
      exact Or.inl ⟨hqp, hh.symm, rfl⟩
    · rw [if_neg hqp] at hq
      refine Or.inr ⟨hqp, ?_, hq⟩
      intro hEq
      subst hEq
      exact hqp (hw.unique _ _ _ _ _ hq hp hh hs)
  have hstate : ∀ q Q, w'.Object q = some Q →
      ∃ Q0, w.Object q = some Q0 ∧ Q0.Promise.State = Q.Promise.State
        ∧ (Q.Promise.State = none → Q0.bFulfilled = Q.bFulfilled) := by
    intro q Q hq
    rw [hObj] at hq
    by_cases hqp : q = p
    · rw [if_pos hqp] at hq
      simp only [Option.some.injEq] at hq
      subst hq
      refine ⟨P, by rw [hqp]; exact hp, rfl, ?_⟩
      intro hn
      simp only at hn
      rw [hs] at hn; cases hn
    · rw [if_neg hqp] at hq
      exact ⟨Q, hq, rfl, fun _ => rfl⟩
  refine ⟨?_, ?_, ?_, ?_⟩
  · intro q Q h hq hh
    obtain ⟨Q0, h0, hs0, _⟩ := hstate q Q hq
    rw [hlen]
    exact hw.valid _ _ _ h0 (hs0.trans hh)
  · intro q Q h hq hh
    unfold FPromiseWorld.IsResolved
    rw [hR]
    rcases hold q Q h hq hh with ⟨_, h2, h3⟩ | ⟨_, h2, h3⟩
    · rw [if_pos h2, h3]; simp
    · rw [if_neg h2]
      exact hw.fulfilled _ _ _ h3 hh
  · intro q q' Q Q' h hq hq' hQ hQ'
    obtain ⟨Q0, h0, hs0, _⟩ := hstate q Q hq
    obtain ⟨Q0', h0', hs0', _⟩ := hstate q' Q' hq'
    exact hw.unique _ _ _ _ _ h0 h0' (hs0.trans hQ) (hs0'.trans hQ')
  · intro q Q hq hh
    obtain ⟨Q0, h0, hs0, hf0⟩ := hstate q Q hq
    rw [← hf0 hh]
    exact hw.moved _ _ h0 (hs0.trans hh)

end Zkz

namespace Zkz

theorem Consistent_EmplaceValue {T : Type} {w w' : FPromiseWorld T} (hw : w.Consistent) (p : FObjectId)
    (v : T) (h : TScopedPromise.EmplaceValue w p v = some w') : w'.Consistent := by
  unfold TScopedPromise.EmplaceValue at h
  cases hp : w.Object p with
  | none => rw [hp] at h; cases h
  | some P => rw [hp] at h; exact Consistent_emplace hw p P _ hp h

theorem SetValue_eq_EmplaceValue {T : Type} (w : FPromiseWorld T) (p : FObjectId) (v : T) :
    TScopedPromise.SetValue w p v = TScopedPromise.EmplaceValue w p v := rfl

theorem Consistent_Cancel {T : Type} {w w' : FPromiseWorld T} (hw : w.Consistent) (p : FObjectId)
    (h : TScopedPromise.Cancel w p = some w') : w'.Consistent := by
  unfold TScopedPromise.Cancel at h
  cases hp : w.Object p with
  | none => rw [hp] at h; cases h
  | some P =>
    rw [hp] at h
    simp only at h
    by_cases hf : P.bFulfilled = true
    · rw [if_pos hf] at h
      simp only [Option.some.injEq] at h
      subst h; exact hw
    · rw [if_neg hf] at h
      exact Consistent_emplace hw p P _ hp h

/-- Removing an object keeps consistency. -/
theorem Consistent_remove {T : Type} {w : FPromiseWorld T} (hw : w.Consistent) (p : FObjectId)
    (hlt : p < w.Objects.length) : (w.SetObject p none).Consistent := by
  have hObj : ∀ q Q, (w.SetObject p none).Object q = some Q → w.Object q = some Q := by
    intro q Q hq
    rw [Object_SetObject w p q none hlt] at hq
    by_cases hqp : q = p
    · rw [if_pos hqp] at hq; cases hq
    · rw [if_neg hqp] at hq; exact hq
  refine Consistent_objects hw rfl id ?_ ?_ ?_
  · intro q Q' h hq hh
    exact ⟨Q', hObj q Q' hq, hh, rfl⟩
  · intro q q' Q Q' h _ _ _ _ he
    exact he
  · intro q Q' hq hh
    exact hw.moved _ _ (hObj q Q' hq) hh

theorem Destruct_some {T : Type} {w w' : FPromiseWorld T} {p : FObjectId}
    (h : TScopedPromise.Destruct w p = some w') :
    ∃ w1, TScopedPromise.Cancel w p = some w1 ∧ w' = w1.SetObject p none
      ∧ ∃ P, w1.Object p = some P := by
  unfold TScopedPromise.Destruct at h
  cases hc : TScopedPromise.Cancel w p with
  | none => rw [hc] at h; cases h
  | some w1 =>
    rw [hc] at h
    simp only at h
    cases hp : w1.Object p with
    | none => rw [hp] at h; cases h
    | some P =>
      rw [hp] at h
      simp only at h
      cases hd : P.Promise.Destruct w1 with
      | none => rw [hd] at h; cases h
      | some w2 =>
        rw [hd] at h
        simp only [Option.some.injEq] at h
        have : w2 = w1 := by
          unfold TResultPromise.Destruct at hd
          cases hs : P.Promise.State with
          | none => rw [hs] at hd; simp only [Option.some.injEq] at hd; exact hd.symm
          | some s =>
            rw [hs] at hd
            simp only at hd
            by_cases hr : w1.IsResolved s = true
            · rw [if_pos hr] at hd; simp only [Option.some.injEq] at hd; exact hd.symm
            · rw [if_neg hr] at hd; cases hd
        subst this
        exact ⟨w2, rfl, h.symm, P, hp⟩

theorem Consistent_Destruct {T : Type} {w w' : FPromiseWorld T} (hw : w.Consistent) (p : FObjectId)
    (h : TScopedPromise.Destruct w p = some w') : w'.Consistent := by
  obtain ⟨w1, hc, he, P, hP⟩ := Destruct_some h
  subst he
  exact Consistent_remove (Consistent_Cancel hw p hc) p (Object_lt hP)

/-- Replacing an object by one with the same state and the same `bFulfilled` keeps
consistency. -/
theorem Consistent_replace {T : Type} {w w' : FPromiseWorld T} (hw : w.Consistent) {p : FObjectId}
    {P : TScopedPromise} (hp : w.Object p = some P) (N : TScopedPromise)
    (hNs : N.Promise.State = P.Promise.State) (hNf : N.bFulfilled = P.bFulfilled)
    (hS : w'.States = w.States) (hO : w'.Objects = (w.SetObject p (some N)).Objects) :
    w'.Consistent := by
  have hlt := Object_lt hp
  have hObj : ∀ q Q, w'.Object q = some Q →
      ∃ Q0, w.Object q = some Q0 ∧ Q0.Promise.State = Q.Promise.State
        ∧ Q0.bFulfilled = Q.bFulfilled := by
    intro q Q hq
    have : w'.Object q = (w.SetObject p (some N)).Object q := by
      unfold FPromiseWorld.Object; rw [hO]
    rw [this, Object_SetObject w p q _ hlt] at hq
    by_cases hqp : q = p
    · rw [if_pos hqp] at hq
      simp only [Option.some.injEq] at hq
      subst hq
      exact ⟨P, by rw [hqp]; exact hp, hNs.symm, hNf.symm⟩
    · rw [if_neg hqp] at hq
      exact ⟨Q, hq, rfl, rfl⟩
  refine Consistent_objects hw hS id ?_ ?_ ?_
  · intro q Q' h hq hh
    obtain ⟨Q0, h0, hs0, hf0⟩ := hObj q Q' hq
    exact ⟨Q0, h0, hs0.trans hh, hf0⟩
  · intro q q' Q Q' h _ _ _ _ he
    exact he
  · intro q Q' hq hh
    obtain ⟨Q0, h0, hs0, hf0⟩ := hObj q Q' hq
    rw [← hf0]
    exact hw.moved _ _ h0 (hs0.trans hh)

theorem Consistent_GetFuture {T : Type} {w : FPromiseWorld T} {r : FStateHandle × FPromiseWorld T}
    (hw : w.Consistent) (p : FObjectId) (h : TScopedPromise.GetFuture w p = some r) :
    r.2.Consistent := by
  unfold TScopedPromise.GetFuture at h
  cases hp : w.Object p with
  | none => rw [hp] at h; cases h
  | some P =>
    rw [hp] at h
    simp only at h
    by_cases hf : P.Promise.bFutureRetrieved = true
    · rw [if_pos hf] at h; cases h
    · rw [if_neg hf] at h
      cases hs : P.Promise.State with
      | none => rw [hs] at h; cases h
      | some s =>
        rw [hs] at h
        simp only [Option.some.injEq] at h
        subst h
        exact Consistent_replace hw hp
          { Promise := { State := some s, bFutureRetrieved := true }, bFulfilled := P.bFulfilled }
          hs.symm rfl rfl rfl

end Zkz

namespace Zkz

@[simp] theorem length_SetObject (w : FPromiseWorld T) (p : FObjectId)
    (o : Option TScopedPromise) : (w.SetObject p o).Objects.length = w.Objects.length := by
  simp [FPromiseWorld.SetObject]

/-- The object a promise leaves behind when it is moved from. -/
theorem MovedFrom_State (O : TScopedPromise) :
    ({ Promise := { O.Promise with State := none }, bFulfilled := true } :
      TScopedPromise).Promise.State = none := rfl

/-- What the move constructor does: the new object `q` takes over the members of `Other`,
which is left without state and fulfilled. -/
theorem MoveConstruct_some {T : Type} {w : FPromiseWorld T} {o : FObjectId} {O : TScopedPromise}
    (ho : w.Object o = some O) :
    ∃ w', TScopedPromise.MoveConstruct w o = some (w.Objects.length, w')
      ∧ w'.States = w.States ∧ w'.Futures = w.Futures
      ∧ ∀ k, w'.Object k
          = if k = w.Objects.length then some O
            else if k = o then
              some { Promise := { O.Promise with State := none }, bFulfilled := true }
            else w.Object k := by
  have hlt := Object_lt ho
  unfold TScopedPromise.MoveConstruct
  rw [ho]
  simp only [length_SetObject]
  refine ⟨_, rfl, rfl, rfl, ?_⟩
  intro k
  rw [Object_append]
  simp only [length_SetObject]
  by_cases hk : k = w.Objects.length
  · rw [if_pos hk, if_pos hk]
  · rw [if_neg hk, if_neg hk, Object_SetObject w o k _ hlt]

/-- What the move assignment does when the objects differ: `This` takes over the members of
`Other`, which is left without state and fulfilled. -/
theorem MoveAssign_some {T : Type} {w : FPromiseWorld T} {t o : FObjectId} {P O : TScopedPromise}
    (ht : w.Object t = some P) (ho : w.Object o = some O) (hne : t ≠ o) :
    ∃ w', TScopedPromise.MoveAssign w t o = some w'
      ∧ w'.States = w.States ∧ w'.Futures = w.Futures
      ∧ ∀ k, w'.Object k
          = if k = o then
              some { Promise := { O.Promise with State := none }, bFulfilled := true }
            else if k = t then some O
            else w.Object k := by
  have hlt := Object_lt ho
  have hlt' := Object_lt ht
  unfold TScopedPromise.MoveAssign
  rw [ht, ho]
  simp only [if_neg hne]
  refine ⟨_, rfl, rfl, rfl, ?_⟩
  intro k
  rw [Object_SetObject _ o k _ (by rw [length_SetObject]; exact hlt),
    Object_SetObject w t k _ hlt']

/-- Self move assignment changes nothing. -/
theorem MoveAssign_self {T : Type} {w : FPromiseWorld T} {p : FObjectId} {P : TScopedPromise}
    (hp : w.Object p = some P) : TScopedPromise.MoveAssign w p p = some w := by
  unfold TScopedPromise.MoveAssign
  rw [hp]
  simp

/-- Consistency is kept when the members of `o` move to the object `t` (new or assigned). -/
theorem Consistent_move {T : Type} {w w' : FPromiseWorld T} (hw : w.Consistent) {t o : FObjectId}
    {O : TScopedPromise} (ho : w.Object o = some O) (hS : w'.States = w.States)
    (hObj : ∀ k, w'.Object k
      = if k = o then some { Promise := { O.Promise with State := none }, bFulfilled := true }
        else if k = t then some O
        else w.Object k) : w'.Consistent := by
  have hcase : ∀ q Q h, w'.Object q = some Q → Q.Promise.State = some h →
      (q = t ∧ Q = O) ∨ (q ≠ t ∧ q ≠ o ∧ w.Object q = some Q) := by
    intro q Q h hq hh
    rw [hObj] at hq
    by_cases hqo : q = o
    · rw [if_pos hqo] at hq
      simp only [Option.some.injEq] at hq
      subst hq
      cases hh
    · rw [if_neg hqo] at hq
      by_cases hqt : q = t
      · rw [if_pos hqt] at hq
        simp only [Option.some.injEq] at hq
        exact Or.inl ⟨hqt, hq.symm⟩
      · rw [if_neg hqt] at hq
        exact Or.inr ⟨hqt, hqo, hq⟩
  refine Consistent_objects hw hS (fun q => if q = t then o else q) ?_ ?_ ?_
  · intro q Q' h hq hh
    rcases hcase q Q' h hq hh with ⟨h1, h2⟩ | ⟨h1, _, h3⟩
    · subst h2
      simp only [if_pos h1]
      exact ⟨Q', ho, hh, rfl⟩
    · simp only [if_neg h1]
      exact ⟨Q', h3, hh, rfl⟩
  · intro q q' Q Q' h hq hq' hQ hQ' he
    rcases hcase q Q h hq hQ with ⟨h1, _⟩ | ⟨h1, h2, _⟩
    · rcases hcase q' Q' h hq' hQ' with ⟨h3, _⟩ | ⟨h3, h4, _⟩
      · rw [h1, h3]
      · simp only [if_pos h1, if_neg h3] at he
        exact absurd he.symm h4
    · rcases hcase q' Q' h hq' hQ' with ⟨h3, _⟩ | ⟨h3, _, _⟩
      · simp only [if_neg h1, if_pos h3] at he
        exact absurd he h2
      · simp only [if_neg h1, if_neg h3] at he
        exact he
  · intro q Q' hq hh
    rw [hObj] at hq
    by_cases hqo : q = o
    · rw [if_pos hqo] at hq
      simp only [Option.some.injEq] at hq
      subst hq
      rfl
    · rw [if_neg hqo] at hq
      by_cases hqt : q = t
      · rw [if_pos hqt] at hq
        simp only [Option.some.injEq] at hq
        subst hq
        exact hw.moved _ _ ho hh
      · rw [if_neg hqt] at hq
        exact hw.moved _ _ hq hh

theorem Consistent_MoveConstruct {T : Type} {w : FPromiseWorld T} {r : FObjectId × FPromiseWorld T}
    (hw : w.Consistent) (o : FObjectId) (h : TScopedPromise.MoveConstruct w o = some r) :
    r.2.Consistent := by
  cases ho : w.Object o with
  | none => unfold TScopedPromise.MoveConstruct at h; rw [ho] at h; cases h
  | some O =>
    obtain ⟨w', he, hS, _, hObj⟩ := MoveConstruct_some ho
    rw [he] at h
    simp only [Option.some.injEq] at h
    subst h
    refine @Consistent_move T w _ hw w.Objects.length o O ho hS ?_
    intro k
    rw [hObj k]
    by_cases hk : k = w.Objects.length
    · have hko : k ≠ o := by rw [hk]; exact Nat.ne_of_gt (Object_lt ho)
      rw [if_pos hk, if_neg hko, if_pos hk]
    · rw [if_neg hk, if_neg hk]

theorem Consistent_MoveAssign {T : Type} {w w' : FPromiseWorld T} (hw : w.Consistent) (t o : FObjectId)
    (h : TScopedPromise.MoveAssign w t o = some w') : w'.Consistent := by
  cases ht : w.Object t with
  | none => unfold TScopedPromise.MoveAssign at h; rw [ht] at h; cases h
  | some P =>
    cases ho : w.Object o with
    | none => unfold TScopedPromise.MoveAssign at h; rw [ht, ho] at h; cases h
    | some O =>
      by_cases hne : t = o
      · subst hne
        rw [MoveAssign_self ht] at h
        simp only [Option.some.injEq] at h
        subst h; exact hw
      · obtain ⟨w1, he, hS, _, hObj⟩ := MoveAssign_some ht ho hne
        rw [he] at h
        simp only [Option.some.injEq] at h
        subst h
        exact Consistent_move hw ho hS hObj

/-- Every operation keeps consistency. -/
theorem Consistent_Apply {T : Type} {w w' : FPromiseWorld T} (hw : w.Consistent) (Op : FPromiseOp T)
    (h : w.Apply Op = some w') : w'.Consistent := by
  cases Op with
  | Construct =>
    simp only [FPromiseWorld.Apply, Option.some.injEq] at h
    subst h; exact Consistent_Construct hw
  | MoveConstruct o =>
    simp only [FPromiseWorld.Apply, Option.map_eq_some'] at h
    obtain ⟨r, hr, he⟩ := h
    subst he; exact Consistent_MoveConstruct hw o hr
  | MoveAssign t o => exact Consistent_MoveAssign hw t o h
  | Destruct p => exact Consistent_Destruct hw p h
  | Cancel p => exact Consistent_Cancel hw p h
  | EmplaceValue p v => exact Consistent_EmplaceValue hw p v h
  | SetValue p v => exact Consistent_EmplaceValue hw p v h
  | GetFuture p =>
    simp only [FPromiseWorld.Apply, Option.map_eq_some'] at h
    obtain ⟨r, hr, he⟩ := h
    subst he; exact Consistent_GetFuture hw p hr

theorem Run_nil {T : Type} (w : FPromiseWorld T) : w.Run [] = some w := rfl

theorem Run_cons {T : Type} (w : FPromiseWorld T) (Op : FPromiseOp T) (Ops : List (FPromiseOp T)) :
    w.Run (Op :: Ops) = (w.Apply Op).bind (fun w1 => w1.Run Ops) := by
  unfold FPromiseWorld.Run
  rw [List.foldlM_cons]
  rfl

/-- Every program keeps consistency. -/
theorem Consistent_Run {T : Type} (Ops : List (FPromiseOp T)) :
    ∀ {w w' : FPromiseWorld T}, w.Consistent → w.Run Ops = some w' → w'.Consistent := by
  induction Ops with
  | nil =>
    intro w w' hw h
    rw [Run_nil] at h
    simp only [Option.some.injEq] at h
    subst h; exact hw
  | cons Op Ops ih =>
    intro w w' hw h
    rw [Run_cons] at h
    cases ha : w.Apply Op with
    | none => rw [ha] at h; cases h
    | some w1 =>
      rw [ha] at h
      exact ih (Consistent_Apply hw Op ha) h

/-- Every state that a program reaches is consistent. -/
theorem Consistent_RunPromiseOps {T : Type} {Ops : List (FPromiseOp T)} {w : FPromiseWorld T}
    (h : RunPromiseOps Ops = some w) : w.Consistent :=
  Consistent_Run Ops Consistent_empty h

end Zkz

namespace Zkz

/-- A result, once set, is never changed by an operation. -/
theorem Result_Apply {T : Type} {w w' : FPromiseWorld T} (Op : FPromiseOp T) (h : w.Apply Op = some w')
    (f : FStateHandle) (r : TCancelableFutureResult T) (hr : w.Result f = some r) :
    w'.Result f = some r := by
  have hemplace : ∀ (P : TResultPromise) (p : FObjectId) (o : Option TScopedPromise)
      (x : TCancelableFutureResult T) (w1 : FPromiseWorld T),
      P.EmplaceValue (w.SetObject p o) x = some w1 → w1.Result f = some r := by
    intro P p o x w1 he
    obtain ⟨s, _, _, hres, _, _, _, hR⟩ := EmplaceValue_some he
    rw [hR]
    by_cases hfs : f = s
    · subst hfs
      rw [Result_SetObject, hr] at hres
      cases hres
    · rw [if_neg hfs, Result_SetObject]; exact hr
  have hcancel : ∀ (p : FObjectId) (w1 : FPromiseWorld T),
      TScopedPromise.Cancel w p = some w1 → w1.Result f = some r := by
    intro p w1 hc
    unfold TScopedPromise.Cancel at hc
    cases hp : w.Object p with
    | none => rw [hp] at hc; cases hc
    | some P =>
      rw [hp] at hc
      simp only at hc
      by_cases hf : P.bFulfilled = true
      · rw [if_pos hf] at hc
        simp only [Option.some.injEq] at hc
        subst hc; exact hr
      · rw [if_neg hf] at hc
        exact hemplace _ _ _ _ _ hc
  have hvalue : ∀ (p : FObjectId) (v : T) (w1 : FPromiseWorld T),
      TScopedPromise.EmplaceValue w p v = some w1 → w1.Result f = some r := by
    intro p v w1 hc
    unfold TScopedPromise.EmplaceValue at hc
    cases hp : w.Object p with
    | none => rw [hp] at hc; cases hc
    | some P =>
      rw [hp] at hc
      exact hemplace _ _ _ _ _ hc
  cases Op with
  | Construct =>
    simp only [FPromiseWorld.Apply, Option.some.injEq] at h
    subst h
    rw [Result_Construct]; exact hr
  | MoveConstruct o =>
    simp only [FPromiseWorld.Apply, Option.map_eq_some'] at h
    obtain ⟨x, hx, he⟩ := h
    subst he
    cases ho : w.Object o with
    | none => unfold TScopedPromise.MoveConstruct at hx; rw [ho] at hx; cases hx
    | some O =>
      obtain ⟨w1, he, hS, _, _⟩ := MoveConstruct_some ho
      rw [he] at hx
      simp only [Option.some.injEq] at hx
      subst hx
      unfold FPromiseWorld.Result at hr ⊢
      rw [hS]; exact hr
  | MoveAssign t o =>
    simp only [FPromiseWorld.Apply] at h
    cases ht : w.Object t with
    | none => unfold TScopedPromise.MoveAssign at h; rw [ht] at h; cases h
    | some P =>
      cases ho : w.Object o with
      | none => unfold TScopedPromise.MoveAssign at h; rw [ht, ho] at h; cases h
      | some O =>
        by_cases hne : t = o
        · subst hne
          rw [MoveAssign_self ht] at h
          simp only [Option.some.injEq] at h
          subst h; exact hr
        · obtain ⟨w1, he, hS, _, _⟩ := MoveAssign_some ht ho hne
          rw [he] at h
          simp only [Option.some.injEq] at h
          subst h
          unfold FPromiseWorld.Result at hr ⊢
          rw [hS]; exact hr
  | Destruct p =>
    simp only [FPromiseWorld.Apply] at h
    obtain ⟨w1, hc, he, _⟩ := Destruct_some h
    subst he
    rw [Result_SetObject]
    exact hcancel p w1 hc
  | Cancel p => exact hcancel p w' h
  | EmplaceValue p v => exact hvalue p v w' h
  | SetValue p v => exact hvalue p v w' h
  | GetFuture p =>
    simp only [FPromiseWorld.Apply, Option.map_eq_some'] at h
    obtain ⟨x, hx, he⟩ := h
    subst he
    unfold TScopedPromise.GetFuture at hx
    cases hp : w.Object p with
    | none => rw [hp] at hx; cases hx
    | some P =>
      rw [hp] at hx
      simp only at hx
      by_cases hf : P.Promise.bFutureRetrieved = true
      · rw [if_pos hf] at hx; cases hx
      · rw [if_neg hf] at hx
        cases hs : P.Promise.State with
        | none => rw [hs] at hx; cases hx
        | some s =>
          rw [hs] at hx
          simp only [Option.some.injEq] at hx
          subst hx
          exact hr

/-- A result, once set, is never changed by a program. -/
theorem Result_Run {T : Type} (Ops : List (FPromiseOp T)) :
    ∀ {w w' : FPromiseWorld T}, w.Run Ops = some w' →
      ∀ (f : FStateHandle) (r : TCancelableFutureResult T), w.Result f = some r →
        w'.Result f = some r := by
  induction Ops with
  | nil =>
    intro w w' h f r hr
    rw [Run_nil] at h
    simp only [Option.some.injEq] at h
    subst h; exact hr
  | cons Op Ops ih =>
    intro w w' h f r hr
    rw [Run_cons] at h
    cases ha : w.Apply Op with
    | none => rw [ha] at h; cases h
    | some w1 =>
      rw [ha] at h
      exact ih h f r (Result_Apply Op ha f r hr)

/-- An unfulfilled object of a consistent world has a state, which is not complete. -/
theorem Unfulfilled_state {T : Type} {w : FPromiseWorld T} (hw : w.Consistent) {p : FObjectId}
    {P : TScopedPromise} (hp : w.Object p = some P) (hf : P.bFulfilled = false) :
    ∃ f, P.Promise.State = some f ∧ f < w.States.length ∧ w.Result f = none := by
  cases hs : P.Promise.State with
  | none =>
    have := hw.moved _ _ hp hs
    rw [hf] at this; cases this
  | some f =>
    refine ⟨f, rfl, hw.valid _ _ _ hp hs, ?_⟩
    have h1 := hw.fulfilled _ _ _ hp hs
    rw [hf] at h1
    unfold FPromiseWorld.IsResolved at h1
    cases hr : w.Result f with
    | none => rfl
    | some r =>
      rw [hr] at h1
      exact absurd (h1.2 rfl) (by simp)

/-- Fulfilling an unfulfilled object resolves its future with the value. -/
theorem EmplaceValue_unfulfilled {T : Type} {w : FPromiseWorld T} (hw : w.Consistent) {p : FObjectId}
    {P : TScopedPromise} (hp : w.Object p = some P) (hf : P.bFulfilled = false) (v : T) :
    ∃ w1 f, TScopedPromise.EmplaceValue w p v = some w1 ∧ P.Promise.State = some f
      ∧ w1.Object p = some { P with bFulfilled := true }
      ∧ (∀ k, w1.Result k = if k = f then some (.ok v) else w.Result k)
      ∧ w1.Consistent := by
  obtain ⟨f, hs, hlt, hr⟩ := Unfulfilled_state hw hp hf
  obtain ⟨w1, he⟩ := EmplaceValue_isSome P.Promise
    (w.SetObject p (some { P with bFulfilled := true })) (.ok v) f hs hlt hr
  have he' : TScopedPromise.EmplaceValue w p v = some w1 := by
    unfold TScopedPromise.EmplaceValue
    rw [hp]; exact he
  obtain ⟨s, hs', _, _, hO, _, _, hR⟩ := EmplaceValue_some he
  have hsf : s = f := by
    rw [hs] at hs'
    simp only [Option.some.injEq] at hs'
    exact hs'.symm
  subst hsf
  refine ⟨w1, s, he', hs, ?_, hR, Consistent_EmplaceValue hw p v he'⟩
  have : w1.Object p = (w.SetObject p (some { P with bFulfilled := true })).Object p := by
    unfold FPromiseWorld.Object; rw [hO]
  rw [this, Object_SetObject w p p _ (Object_lt hp), if_pos rfl]

/-- The destructor of a fulfilled object writes no shared state. -/
theorem Destruct_fulfilled {T : Type} {w : FPromiseWorld T} (hw : w.Consistent) {p : FObjectId}
    {P : TScopedPromise} (hp : w.Object p = some P) (hf : P.bFulfilled = true) :
    TScopedPromise.Destruct w p = some (w.SetObject p none) := by
  have hc : TScopedPromise.Cancel w p = some w := by
    unfold TScopedPromise.Cancel
    rw [hp]
    simp only [hf, if_true]
  unfold TScopedPromise.Destruct
  rw [hc]
  simp only
  rw [hp]
  simp only
  unfold TResultPromise.Destruct
  cases hs : P.Promise.State with
  | none => rfl
  | some s =>
    simp only
    rw [if_pos ((hw.fulfilled _ _ _ hp hs).1 hf)]

/-- The destructor of an unfulfilled object resolves its future with `PromiseCanceled`. -/
theorem Destruct_unfulfilled {T : Type} {w : FPromiseWorld T} (hw : w.Consistent) {p : FObjectId}
    {P : TScopedPromise} (hp : w.Object p = some P) (hf : P.bFulfilled = false) :
    ∃ w2 f, TScopedPromise.Destruct w p = some w2 ∧ P.Promise.State = some f
      ∧ (∀ k, w2.Result k = if k = f then some (.error PromiseCanceled) else w.Result k)
      ∧ w2.Consistent := by
  obtain ⟨f, hs, hlt, hr⟩ := Unfulfilled_state hw hp hf
  obtain ⟨w1, he⟩ := EmplaceValue_isSome P.Promise
    (w.SetObject p (some { P with bFulfilled := true })) (.error PromiseCanceled) f hs hlt hr
  have hc : TScopedPromise.Cancel w p = some w1 := by
    unfold TScopedPromise.Cancel
    rw [hp]
    simp only [hf, Bool.false_eq_true, if_false]
    exact he
  have hw1 := Consistent_Cancel hw p hc
  obtain ⟨s, hs', _, _, hO, _, _, hR⟩ := EmplaceValue_some he
  have hsf : s = f := by
    rw [hs] at hs'
    simp only [Option.some.injEq] at hs'
    exact hs'.symm
  subst hsf
  have hp1 : w1.Object p = some { P with bFulfilled := true } := by
    have : w1.Object p = (w.SetObject p (some { P with bFulfilled := true })).Object p := by
      unfold FPromiseWorld.Object; rw [hO]
    rw [this, Object_SetObject w p p _ (Object_lt hp), if_pos rfl]
  have hd : TScopedPromise.Destruct w p = some (w1.SetObject p none) := by
    have h2 := Destruct_fulfilled hw1 hp1 rfl
    unfold TScopedPromise.Destruct at h2 ⊢
    rw [hc]
    have hc1 : TScopedPromise.Cancel w1 p = some w1 := by
      unfold TScopedPromise.Cancel
      rw [hp1]
      simp
    rw [hc1] at h2
    exact h2
  refine ⟨_, s, hd, hs, ?_, ?_⟩
  · intro k
    rw [Result_SetObject, hR, Result_SetObject]
  · exact Consistent_Destruct hw p hd

/-- The destructor of an object of a consistent world fails no `check`. -/
theorem Destruct_isSome {T : Type} {w : FPromiseWorld T} (hw : w.Consistent) {p : FObjectId}
    {P : TScopedPromise} (hp : w.Object p = some P) :
    ∃ w2, TScopedPromise.Destruct w p = some w2 := by
  cases hf : P.bFulfilled with
  | true => exact ⟨_, Destruct_fulfilled hw hp hf⟩
  | false =>
    obtain ⟨w2, f, hd, _⟩ := Destruct_unfulfilled hw hp hf
    exact ⟨w2, hd⟩

/-- An unfulfilled object of a consistent world is responsible for the future of its
state. -/
theorem IsResponsibleFor_unfulfilled {T : Type} {w : FPromiseWorld T} (hw : w.Consistent)
    {p : FObjectId} {P : TScopedPromise} (hp : w.Object p = some P)
    (hf : P.bFulfilled = false) {f : FStateHandle} (hs : P.Promise.State = some f) :
    w.IsResponsibleFor p f := by
  obtain ⟨f', hs', _, hr⟩ := Unfulfilled_state hw hp hf
  have hff : f' = f := by
    rw [hs] at hs'
    simp only [Option.some.injEq] at hs'
    exact hs'.symm
  subst hff
  refine ⟨hr, ?_, ?_⟩
  · intro v
    obtain ⟨w1, f2, he, hs2, hp1, hR, hw1⟩ := EmplaceValue_unfulfilled hw hp hf v
    have hff : f2 = f' := by
      rw [hs] at hs2
      simp only [Option.some.injEq] at hs2
      exact hs2.symm
    subst hff
    refine ⟨w1, he, he, by rw [hR, if_pos rfl], _, Destruct_fulfilled hw1 hp1 rfl, rfl, ?_⟩
    rw [Result_SetObject, hR, if_pos rfl]
  · obtain ⟨w2, f2, hd, hs2, hR, _⟩ := Destruct_unfulfilled hw hp hf
    have hff : f2 = f' := by
      rw [hs] at hs2
      simp only [Option.some.injEq] at hs2
      exact hs2.symm
    subst hff
    exact ⟨w2, hd, by rw [hR, if_pos rfl]⟩

end Zkz

namespace Zkz

/-- The members of `o` moved to `t`: the facts of `IsTransferred`. -/
theorem IsTransferred_move {T : Type} {w w1 : FPromiseWorld T} (hw : w.Consistent) {t o : FObjectId}
    {O : TScopedPromise} (ho : w.Object o = some O) (hne : t ≠ o)
    (hS : w1.States = w.States)
    (hObj : ∀ k, w1.Object k
      = if k = o then some { Promise := { O.Promise with State := none }, bFulfilled := true }
        else if k = t then some O
        else w.Object k) : w.IsTransferred w1 o t O := by
  have hw1 : w1.Consistent := Consistent_move hw ho hS hObj
  have ht1 : w1.Object t = some O := by rw [hObj, if_neg hne, if_pos rfl]
  have ho1 : w1.Object o
      = some { Promise := { O.Promise with State := none }, bFulfilled := true } := by
    rw [hObj, if_pos rfl]
  have hd := Destruct_fulfilled hw1 ho1 rfl
  have hw2 : (w1.SetObject o none).Consistent := Consistent_Destruct hw1 o hd
  have ht2 : (w1.SetObject o none).Object t = some O := by
    rw [Object_SetObject w1 o t none (Object_lt ho1), if_neg hne]; exact ht1
  refine ⟨hS, ht1, ho1, ⟨_, hd, rfl, ht2, ?_⟩, ?_⟩
  · intro f hf hs
    exact IsResponsibleFor_unfulfilled hw2 ht2 hf hs
  · intro f hf hs
    exact IsResponsibleFor_unfulfilled hw1 ht1 hf hs

/-- C22. ScopedPromise law. Let `p` be a scoped promise of a state `w` reached by a program,
not yet fulfilled. Then `p` has a paired future `f`, which is not resolved, and
* fulfilling `p` with a value `v` (`EmplaceValue` or `SetValue`) resolves `f` with
  `Value(v)`; destroying `p` afterwards, at once or after any further operations of the
  program, fails no `check` and leaves `f` at `Value(v)` (at once it writes no shared state);
* destroying `p` without fulfilling it resolves `f` with `Err(Cancelled)`, and `f` keeps that
  result.
A future has one outcome: a result that is set is not changed by any later operation. -/
theorem ScopedPromise_law {T : Type} (Ops : List (FPromiseOp T)) (w : FPromiseWorld T)
    (hRun : RunPromiseOps Ops = some w) (p : FObjectId) (P : TScopedPromise)
    (hp : w.Object p = some P) (hf : P.bFulfilled = false) :
    ∃ f, P.Promise.State = some f ∧ w.Result f = none
      ∧ (∀ v : T, ∃ w1, TScopedPromise.EmplaceValue w p v = some w1
          ∧ TScopedPromise.SetValue w p v = some w1
          ∧ w1.Result f = some (.ok v)
          ∧ (∃ w2, TScopedPromise.Destruct w1 p = some w2 ∧ w2.States = w1.States
              ∧ w2.Result f = some (.ok v))
          ∧ ∀ Ops' w2, w1.Run Ops' = some w2 →
              w2.Result f = some (.ok v)
              ∧ ∀ P2, w2.Object p = some P2 →
                  ∃ w3, TScopedPromise.Destruct w2 p = some w3
                    ∧ w3.Result f = some (.ok v))
      ∧ ∃ w2, TScopedPromise.Destruct w p = some w2
          ∧ w2.Result f = some (.error PromiseCanceled)
          ∧ ∀ Ops' w3, w2.Run Ops' = some w3 →
              w3.Result f = some (.error PromiseCanceled) := by
  have hw := Consistent_RunPromiseOps hRun
  obtain ⟨f, hs, _, hr⟩ := Unfulfilled_state hw hp hf
  obtain ⟨_, hV, hD⟩ := IsResponsibleFor_unfulfilled hw hp hf hs
  refine ⟨f, hs, hr, ?_, ?_⟩
  · intro v
    obtain ⟨w1, he, hsv, hr1, hd1⟩ := hV v
    refine ⟨w1, he, hsv, hr1, hd1, ?_⟩
    intro Ops' w2 hrun
    have hw1 := Consistent_EmplaceValue hw p v he
    have hw2 := Consistent_Run Ops' hw1 hrun
    have hr2 := Result_Run Ops' hrun f _ hr1
    refine ⟨hr2, ?_⟩
    intro P2 hp2
    obtain ⟨w3, hd3⟩ := Destruct_isSome hw2 hp2
    exact ⟨w3, hd3, Result_Apply (.Destruct p) hd3 f _ hr2⟩
  · obtain ⟨w2, hd, hr2⟩ := hD
    exact ⟨w2, hd, hr2, fun Ops' w3 hrun => Result_Run Ops' hrun f _ hr2⟩

/-- The promise of `ExamplePromise`: its future is the state 0. -/
theorem ScopedPromise_law_witness :
    ∃ f, (TScopedPromise.mk (TResultPromise.mk (some 0) true) false).Promise.State = some f
      ∧ (RunPromiseOpsD ExamplePromise).Result f = none
      ∧ (∀ v : Nat, ∃ w1, TScopedPromise.EmplaceValue (RunPromiseOpsD ExamplePromise) 0 v
            = some w1
          ∧ TScopedPromise.SetValue (RunPromiseOpsD ExamplePromise) 0 v = some w1
          ∧ w1.Result f = some (.ok v)
          ∧ (∃ w2, TScopedPromise.Destruct w1 0 = some w2 ∧ w2.States = w1.States
              ∧ w2.Result f = some (.ok v))
          ∧ ∀ Ops' w2, w1.Run Ops' = some w2 →
              w2.Result f = some (.ok v)
              ∧ ∀ P2, w2.Object 0 = some P2 →
                  ∃ w3, TScopedPromise.Destruct w2 0 = some w3
                    ∧ w3.Result f = some (.ok v))
      ∧ ∃ w2, TScopedPromise.Destruct (RunPromiseOpsD ExamplePromise) 0 = some w2
          ∧ w2.Result f = some (.error PromiseCanceled)
          ∧ ∀ Ops' w3, w2.Run Ops' = some w3 →
              w3.Result f = some (.error PromiseCanceled) :=
  ScopedPromise_law ExamplePromise (RunPromiseOpsD ExamplePromise) rfl 0
    (TScopedPromise.mk (TResultPromise.mk (some 0) true) false) rfl rfl

/-- C24. Moving a scoped promise transfers the responsibility for its future. Let `p` be a
scoped promise, with members `P`, of a state `w` reached by a program. Move construction
from `p`, and move assignment from `p` onto any other promise `q`, write no shared state
and give the destination the promise and the fulfilled bit of `p`; `p` is left without
state, with its bit true, so that destroying it fails no `check`, writes no shared state and
does not resolve the future. When `p` was not fulfilled the destination is then responsible
for the future of `p`: fulfilled with `v` it resolves the future with `Value(v)` and its
destructor writes nothing more, destroyed unfulfilled it resolves the future with
`Err(Cancelled)`; no operation of these runs fails the `check` against a second write of
the shared state. Self move assignment changes nothing. -/
theorem Move_transfers_fulfilment {T : Type} (Ops : List (FPromiseOp T)) (w : FPromiseWorld T)
    (hRun : RunPromiseOps Ops = some w) (p : FObjectId) (P : TScopedPromise)
    (hp : w.Object p = some P) :
    (∃ q w1, TScopedPromise.MoveConstruct w p = some (q, w1) ∧ q ≠ p
      ∧ w.Object q = none ∧ w.IsTransferred w1 p q P)
    ∧ (∀ q Q, q ≠ p → w.Object q = some Q →
        ∃ w1, TScopedPromise.MoveAssign w q p = some w1 ∧ w.IsTransferred w1 p q P)
    ∧ TScopedPromise.MoveAssign w p p = some w
    ∧ (P.bFulfilled = false → ∃ f, P.Promise.State = some f ∧ w.IsResponsibleFor p f) := by
  have hw := Consistent_RunPromiseOps hRun
  refine ⟨?_, ?_, MoveAssign_self hp, ?_⟩
  · obtain ⟨w1, he, hS, _, hObj⟩ := MoveConstruct_some hp
    have hne : w.Objects.length ≠ p := Nat.ne_of_gt (Object_lt hp)
    refine ⟨w.Objects.length, w1, he, hne, ?_, ?_⟩
    · unfold FPromiseWorld.Object
      rw [List.getElem?_eq_none (Nat.le_refl _)]
    · refine IsTransferred_move hw hp hne hS ?_
      intro k
      rw [hObj k]
      by_cases hk : k = w.Objects.length
      · have hko : k ≠ p := by rw [hk]; exact hne
        rw [if_pos hk, if_neg hko, if_pos hk]
      · rw [if_neg hk, if_neg hk]
  · intro q Q hne hq
    obtain ⟨w1, he, hS, _, hObj⟩ := MoveAssign_some hq hp hne
    exact ⟨w1, he, IsTransferred_move hw hp hne hS hObj⟩
  · intro hf
    obtain ⟨f, hs, _, _⟩ := Unfulfilled_state hw hp hf
    exact ⟨f, hs, IsResponsibleFor_unfulfilled hw hp hf hs⟩

/-- The first promise of `ExampleTwoPromises` is moved to a new object and onto the second
promise. -/
theorem Move_transfers_fulfilment_witness :
    (∃ q w1, TScopedPromise.MoveConstruct (RunPromiseOpsD ExampleTwoPromises) 0 = some (q, w1)
      ∧ q ≠ 0 ∧ (RunPromiseOpsD ExampleTwoPromises).Object q = none
      ∧ (RunPromiseOpsD ExampleTwoPromises).IsTransferred w1 0 q
          (TScopedPromise.mk (TResultPromise.mk (some 0) true) false))
    ∧ (∃ w1, TScopedPromise.MoveAssign (RunPromiseOpsD ExampleTwoPromises) 1 0 = some w1
        ∧ (RunPromiseOpsD ExampleTwoPromises).IsTransferred w1 0 1
            (TScopedPromise.mk (TResultPromise.mk (some 0) true) false))
    ∧ TScopedPromise.MoveAssign (RunPromiseOpsD ExampleTwoPromises) 0 0
        = some (RunPromiseOpsD ExampleTwoPromises)
    ∧ ∃ f, (TScopedPromise.mk (TResultPromise.mk (some 0) true) false).Promise.State = some f
        ∧ (RunPromiseOpsD ExampleTwoPromises).IsResponsibleFor 0 f :=
  have h := Move_transfers_fulfilment ExampleTwoPromises (RunPromiseOpsD ExampleTwoPromises)
    rfl 0 (TScopedPromise.mk (TResultPromise.mk (some 0) true) false) rfl
  ⟨h.1, h.2.1 1 (TScopedPromise.mk (TResultPromise.mk (some 1) false) false) (by decide) rfl,
    h.2.2.1, h.2.2.2 rfl⟩

/-- C23, failing input. In `ExampleOverwrittenPromise` the future of the first
promise is obtained, another promise is move-assigned over the first one while it is
unfulfilled, and both objects are destroyed. No `check` fails, every promise object is
destroyed, and the future that was obtained is not resolved: the move assignment released
the state of the first promise without `Cancel()`. -/
theorem MoveAssign_leaves_overwritten_future_unresolved :
    (RunPromiseOps ExampleOverwrittenPromise).map
        (fun w => (w.AllDestroyed, w.Futures, w.Futures.map w.IsResolved))
      = some (true, [0], [false]) := by
  decide

end Zkz

namespace Zkz

/-! ## Continuations on futures (`Future.h`) -/

theorem Next_resolved {R C σ : Type} (Invoke : C → R → σ → Option σ) (w : TFutureWorld R C σ)
    (f : FStateHandle) (c : C) (State : TFutureState R C) (r : R)
    (hf : w.States[f]? = some State) (hr : State.Result = some r) :
    TFuture.Next Invoke w f c
      = (Invoke c r w.Program).map (fun p => { w with Program := p }) := by
  unfold TFuture.Next
  rw [hf]
  simp only
  rw [hr]

theorem Next_pending {R C σ : Type} (Invoke : C → R → σ → Option σ) (w : TFutureWorld R C σ)
    (f : FStateHandle) (c : C) (State : TFutureState R C)
    (hf : w.States[f]? = some State) (hr : State.Result = none) :
    TFuture.Next Invoke w f c
      = some { w with
          States := w.States.set f { State with CompletionCallback := some c } } := by
  unfold TFuture.Next
  rw [hf]
  simp only
  rw [hr]

theorem getElem?_lt {α : Type} {l : List α} {i : Nat} {a : α} (h : l[i]? = some a) :
    i < l.length := by
  by_contra hlt
  rw [List.getElem?_eq_none (Nat.le_of_not_lt hlt)] at h
  cases h

/-- Resolving a future on which a continuation waits stores the result and calls the
continuation with it. -/
theorem EmplaceValue_waiting {R C σ : Type} (Invoke : C → R → σ → Option σ)
    (w : TFutureWorld R C σ) (f : FStateHandle) (c : C) (State : TFutureState R C) (r : R)
    (hf : w.States[f]? = some State) (hr : State.Result = none) :
    TPromise.EmplaceValue Invoke
        { w with States := w.States.set f { State with CompletionCallback := some c } } f r
      = (Invoke c r w.Program).map
          (fun p => { States := w.States.set f { Result := some r }, Program := p }) := by
  have hlt := getElem?_lt hf
  unfold TPromise.EmplaceValue
  simp only [List.getElem?_set, hlt, if_true, hr, List.set_set]

theorem Result_set {R C σ : Type} (w : TFutureWorld R C σ) (f : FStateHandle)
    (State : TFutureState R C) (p : σ) (hlt : f < w.States.length) :
    TFutureWorld.Result { States := w.States.set f State, Program := p } f = State.Result := by
  unfold TFutureWorld.Result
  simp [List.getElem?_set, hlt]

theorem CompletionCallback_set {R C σ : Type} (w : TFutureWorld R C σ) (f : FStateHandle)
    (State : TFutureState R C) (p : σ) (hlt : f < w.States.length) :
    TFutureWorld.CompletionCallback { States := w.States.set f State, Program := p } f
      = State.CompletionCallback := by
  unfold TFutureWorld.CompletionCallback
  simp [List.getElem?_set, hlt]

/-- A promise is set once: `EmplaceValue` on a resolved future fails the `check`. -/
theorem TPromise_EmplaceValue_resolved {R C σ : Type} (Invoke : C → R → σ → Option σ)
    (w : TFutureWorld R C σ) (f : FStateHandle) (r r' : R) (hr : w.Result f = some r) :
    TPromise.EmplaceValue Invoke w f r' = none := by
  unfold TFutureWorld.Result at hr
  unfold TPromise.EmplaceValue
  cases hf : w.States[f]? with
  | none => rfl
  | some State =>
    rw [hf] at hr
    simp only at hr ⊢
    rw [hr]

theorem IfNotCanceledLambda_ok {T : Type} (F : FFunctionId) (v : T) (I : FInvocations T) :
    IfNotCanceledLambda F (.ok v) I = some (I ++ [(F, v)]) := rfl

theorem IfNotCanceledLambda_error {T : Type} (F : FFunctionId) (c : FPromiseCanceled)
    (I : FInvocations T) : IfNotCanceledLambda F (.error c) I = some I := rfl

theorem InvocationCount_append {T : Type} (I J : FInvocations T) (F : FFunctionId) :
    InvocationCount (I ++ J) F = InvocationCount I F + InvocationCount J F := by
  simp [InvocationCount, List.filter_append]

/-- C27. `IfNotCanceled(future, F)` on a future `f`:
* when `f` is already resolved with a value `v`, `F` is called at once, once, with `v`;
* when `f` is already resolved as canceled, `F` is not called;
* when `f` is not resolved, `F` is not called by `IfNotCanceled` itself; when `f` then
  resolves with a value `v`, `F` is called once, with `v`, and when `f` resolves as
  canceled, `F` is not called. After that nothing waits on `f` and `f` cannot resolve
  again, so `F` is not called a second time. -/
theorem IfNotCanceled_invokes_once {T : Type}
    (w : TFutureWorld (TCancelableFutureResult T) FFunctionId (FInvocations T))
    (f : FStateHandle) (F : FFunctionId)
    (State : TFutureState (TCancelableFutureResult T) FFunctionId)
    (hf : w.States[f]? = some State) :
    (∀ v, State.Result = some (.ok v) →
      IfNotCanceled w f F = some { w with Program := w.Program ++ [(F, v)] })
    ∧ (∀ c, State.Result = some (.error c) → IfNotCanceled w f F = some w)
    ∧ (State.Result = none →
        ∃ w1, IfNotCanceled w f F = some w1 ∧ w1.Program = w.Program ∧ w1.Result f = none
          ∧ (∀ v, ∃ w2, TPromise.EmplaceValue IfNotCanceledLambda w1 f (.ok v) = some w2
              ∧ w2.Program = w.Program ++ [(F, v)]
              ∧ InvocationCount w2.Program F = InvocationCount w.Program F + 1
              ∧ w2.Result f = some (.ok v) ∧ w2.CompletionCallback f = none
              ∧ ∀ r, TPromise.EmplaceValue IfNotCanceledLambda w2 f r = none)
          ∧ (∀ c, ∃ w2, TPromise.EmplaceValue IfNotCanceledLambda w1 f (.error c) = some w2
              ∧ w2.Program = w.Program
              ∧ w2.Result f = some (.error c) ∧ w2.CompletionCallback f = none
              ∧ ∀ r, TPromise.EmplaceValue IfNotCanceledLambda w2 f r = none)) := by
  have hlt := getElem?_lt hf
  refine ⟨?_, ?_, ?_⟩
  · intro v hr
    unfold IfNotCanceled
    rw [Next_resolved _ w f F State _ hf hr]
    rfl
  · intro c hr
    unfold IfNotCanceled
    rw [Next_resolved _ w f F State _ hf hr]
    rfl
  · intro hr
    refine ⟨_, Next_pending _ w f F State hf hr, rfl, ?_, ?_, ?_⟩
    · rw [Result_set w f _ _ hlt]; exact hr
    · intro v
      refine ⟨_, (EmplaceValue_waiting _ w f F State (.ok v) hf hr).trans rfl, rfl, ?_, ?_, ?_,
        ?_⟩
      · rw [InvocationCount_append]
        simp [InvocationCount]
      · exact Result_set w f _ _ hlt
      · exact CompletionCallback_set w f _ _ hlt
      · intro r
        exact TPromise_EmplaceValue_resolved _ _ f (.ok v) r (Result_set w f _ _ hlt)
    · intro c
      refine ⟨_, (EmplaceValue_waiting _ w f F State (.error c) hf hr).trans rfl, rfl, ?_, ?_,
        ?_⟩
      · exact Result_set w f _ _ hlt
      · exact CompletionCallback_set w f _ _ hlt
      · intro r
        exact TPromise_EmplaceValue_resolved _ _ f (.error c) r (Result_set w f _ _ hlt)

end Zkz

namespace Zkz

/-- The futures of `ExampleCancelableFutures`: resolved with 7, canceled, not resolved. -/
theorem IfNotCanceled_invokes_once_witness :
    IfNotCanceled ExampleCancelableFutures 0 3
        = some { ExampleCancelableFutures with
            Program := ExampleCancelableFutures.Program ++ [(3, 7)] }
    ∧ IfNotCanceled ExampleCancelableFutures 1 3 = some ExampleCancelableFutures
    ∧ ∃ w1, IfNotCanceled ExampleCancelableFutures 2 3 = some w1
        ∧ w1.Program = ExampleCancelableFutures.Program ∧ w1.Result 2 = none
        ∧ (∀ v, ∃ w2, TPromise.EmplaceValue IfNotCanceledLambda w1 2 (.ok v) = some w2
            ∧ w2.Program = ExampleCancelableFutures.Program ++ [(3, v)]
            ∧ InvocationCount w2.Program 3
                = InvocationCount ExampleCancelableFutures.Program 3 + 1
            ∧ w2.Result 2 = some (.ok v) ∧ w2.CompletionCallback 2 = none
            ∧ ∀ r, TPromise.EmplaceValue IfNotCanceledLambda w2 2 r = none)
        ∧ (∀ c, ∃ w2, TPromise.EmplaceValue IfNotCanceledLambda w1 2 (.error c) = some w2
            ∧ w2.Program = ExampleCancelableFutures.Program
            ∧ w2.Result 2 = some (.error c) ∧ w2.CompletionCallback 2 = none
            ∧ ∀ r, TPromise.EmplaceValue IfNotCanceledLambda w2 2 r = none) :=
  ⟨(IfNotCanceled_invokes_once ExampleCancelableFutures 0 3 { Result := some (.ok 7) } rfl).1
      7 rfl,
    (IfNotCanceled_invokes_once ExampleCancelableFutures 1 3
      { Result := some (.error PromiseCanceled) } rfl).2.1 PromiseCanceled rfl,
    (IfNotCanceled_invokes_once ExampleCancelableFutures 2 3 {} rfl).2.2 rfl⟩

theorem CollapseLambda_eq {T E : Type} (e : E) (r : TCancelableFutureResult (TResult T E)) :
    CollapseLambda e r = CollapseNestedResults r (fun _ => e) := by
  cases r <;> rfl

theorem ChainResult_append_none {B : Type} (ChainStates : FChainStates B) :
    ChainResult (ChainStates ++ [none]) ChainStates.length = none := by
  unfold ChainResult
  simp

theorem Invoke_fresh {A B : Type} (ChainStates : FChainStates B) (Continuation : A → B)
    (Value : A) :
    FNextLambda.Invoke { ChainPromise := ChainStates.length, Continuation := Continuation }
        Value (ChainStates ++ [none])
      = some (ChainStates ++ [some (Continuation Value)]) := by
  unfold FNextLambda.Invoke
  simp

theorem ChainResult_append_some {B : Type} (ChainStates : FChainStates B) (b : B) :
    ChainResult (ChainStates ++ [some b]) ChainStates.length = some b := by
  unfold ChainResult
  simp

/-- What `Next(Future, Continuation)` does on a future `f`: the chain future is new; when `f`
is resolved with `r` the chain future is resolved at once with `Continuation(r)`; when `f`
is not resolved the chain future is not resolved, and it is resolved with `Continuation(r)`
when `f` resolves with `r`. -/
theorem Next_chains {A B : Type} (w : TFutureWorld A (FNextLambda A B) (FChainStates B))
    (f : FStateHandle) (Continuation : A → B) (State : TFutureState A (FNextLambda A B))
    (hf : w.States[f]? = some State) :
    ∃ w1, Next w f Continuation = some (w.Program.length, w1)
      ∧ (∀ r, State.Result = some r →
          w1.Result f = some r
          ∧ ChainResult w1.Program w.Program.length = some (Continuation r))
      ∧ (State.Result = none →
          w1.Result f = none ∧ ChainResult w1.Program w.Program.length = none
          ∧ ∀ r, ∃ w2, TPromise.EmplaceValue FNextLambda.Invoke w1 f r = some w2
              ∧ w2.Result f = some r
              ∧ ChainResult w2.Program w.Program.length = some (Continuation r)) := by
  have hlt := getElem?_lt hf
  cases hr : State.Result with
  | some r =>
    have h1 := Next_resolved FNextLambda.Invoke { w with Program := w.Program ++ [none] } f
      { ChainPromise := w.Program.length, Continuation := Continuation } State r hf hr
    simp only [Invoke_fresh, Option.map_some'] at h1
    refine ⟨{ States := w.States, Program := w.Program ++ [some (Continuation r)] }, ?_, ?_, ?_⟩
    · unfold Next
      simp only
      rw [h1]
      rfl
    · intro r' hr'
      simp only [Option.some.injEq] at hr'
      subst hr'
      refine ⟨?_, ChainResult_append_some _ _⟩
      unfold TFutureWorld.Result
      simp only [hf, hr]
    · intro h; cases h
  | none =>
    have h1 := Next_pending FNextLambda.Invoke { w with Program := w.Program ++ [none] } f
      { ChainPromise := w.Program.length, Continuation := Continuation } State hf hr
    refine ⟨{ States := w.States.set f
                (TFutureState.mk State.Result
                  (some (FNextLambda.mk w.Program.length Continuation))),
              Program := w.Program ++ [none] }, ?_, ?_, ?_⟩
    · unfold Next
      simp only
      rw [h1]
      rfl
    · intro r' hr'; cases hr'
    · intro _
      refine ⟨?_, ChainResult_append_none _, ?_⟩
      · rw [Result_set { w with Program := w.Program ++ [none] } f _ _ hlt]; exact hr
      · intro r
        have h2 := EmplaceValue_waiting FNextLambda.Invoke
          { w with Program := w.Program ++ [none] } f
          { ChainPromise := w.Program.length, Continuation := Continuation } State r hf hr
        simp only [Invoke_fresh, Option.map_some'] at h2
        exact ⟨_, h2, Result_set { w with Program := w.Program ++ [none] } f _ _ hlt,
          ChainResult_append_some _ _⟩

/-- C26. `CollapseFutureCanceledToError(f, e)` returns a new future `c` that resolves when
`f` resolves: when `f` is already resolved with a result `r`, `c` is resolved at once, and
when `f` is not resolved, `c` is not resolved and resolves when `f` resolves with `r`. In
both cases `c` carries `CollapseNestedResults(r, c -> e)`, which is the inner result unchanged
(`Value(v)` or `Err(inner)`) when `r` is a value and `Err(e)` when `r` is canceled. -/
theorem CollapseFutureCanceledToError_collapses {T E : Type}
    (w : TFutureWorld (TCancelableFutureResult (TResult T E))
      (FNextLambda (TCancelableFutureResult (TResult T E)) (TResult T E))
      (FChainStates (TResult T E)))
    (f : FStateHandle) (e : E)
    (State : TFutureState (TCancelableFutureResult (TResult T E))
      (FNextLambda (TCancelableFutureResult (TResult T E)) (TResult T E)))
    (hf : w.States[f]? = some State) :
    (∃ w1, CollapseFutureCanceledToError w f e = some (w.Program.length, w1)
      ∧ ChainResult w.Program w.Program.length = none
      ∧ (∀ r, State.Result = some r →
          ChainResult w1.Program w.Program.length
            = some (CollapseNestedResults r (fun _ => e)))
      ∧ (State.Result = none →
          ChainResult w1.Program w.Program.length = none
          ∧ ∀ r, ∃ w2, TPromise.EmplaceValue FNextLambda.Invoke w1 f r = some w2
              ∧ w2.Result f = some r
              ∧ ChainResult w2.Program w.Program.length
                  = some (CollapseNestedResults r (fun _ => e))))
    ∧ (∀ r : TCancelableFutureResult (TResult T E),
        CollapseNestedResults r (fun _ => e) = CollapsedResultSpec e r)
    ∧ (∀ Inner : TResult T E,
        CollapseNestedResults (.ok Inner : TCancelableFutureResult (TResult T E))
          (fun _ => e) = Inner)
    ∧ (∀ c : FPromiseCanceled,
        CollapseNestedResults (.error c : TCancelableFutureResult (TResult T E))
          (fun _ => e) = .error e) := by
  refine ⟨?_, ?_, fun _ => rfl, fun _ => rfl⟩
  · obtain ⟨w1, h1, h2, h3⟩ := Next_chains w f (CollapseLambda e) State hf
    refine ⟨w1, h1, ?_, ?_, ?_⟩
    · unfold ChainResult
      rw [List.getElem?_eq_none (Nat.le_refl _)]
    · intro r hr
      rw [(h2 r hr).2, CollapseLambda_eq]
    · intro hr
      obtain ⟨_, h4, h5⟩ := h3 hr
      refine ⟨h4, ?_⟩
      intro r
      obtain ⟨w2, h6, h7, h8⟩ := h5 r
      exact ⟨w2, h6, h7, by rw [h8, CollapseLambda_eq]⟩
  · intro r
    rcases r with c | Inner
    · rfl
    · cases Inner <;> rfl

/-- The futures of `ExampleNestedFutures`: resolved with the inner error 5, canceled, not
resolved. -/
theorem CollapseFutureCanceledToError_collapses_witness :
    (∃ w1, CollapseFutureCanceledToError ExampleNestedFutures 0 9 = some (0, w1)
      ∧ ChainResult w1.Program 0 = some (.error 5))
    ∧ (∃ w1, CollapseFutureCanceledToError ExampleNestedFutures 1 9 = some (0, w1)
      ∧ ChainResult w1.Program 0 = some (.error 9))
    ∧ (∃ w1, CollapseFutureCanceledToError ExampleNestedFutures 2 9 = some (0, w1)
      ∧ ChainResult w1.Program 0 = none
      ∧ ∀ r, ∃ w2, TPromise.EmplaceValue FNextLambda.Invoke w1 2 r = some w2
          ∧ w2.Result 2 = some r
          ∧ ChainResult w2.Program 0 = some (CollapseNestedResults r (fun _ => 9))) :=
  have h0 := (CollapseFutureCanceledToError_collapses ExampleNestedFutures 0 9
    { Result := some (.ok (.error 5)) } rfl).1
  have h1 := (CollapseFutureCanceledToError_collapses ExampleNestedFutures 1 9
    { Result := some (.error PromiseCanceled) } rfl).1
  have h2 := (CollapseFutureCanceledToError_collapses ExampleNestedFutures 2 9 {} rfl).1
  ⟨h0.elim fun w1 h => ⟨w1, h.1, h.2.2.1 _ rfl⟩,
    h1.elim fun w1 h => ⟨w1, h.1, h.2.2.1 _ rfl⟩,
    h2.elim fun w1 h => ⟨w1, h.1, (h.2.2.2 rfl).1, (h.2.2.2 rfl).2⟩⟩

end Zkz

namespace Zkz.StagedExecution

/-! ## Mutual exclusion (`Scheduler.tpp`) -/

/-- C29, failing input. Thread 0 calls `AddStage(A, {})` while thread 1 calls
`AddTaskToStage(A, T)`. After thread 1 has taken the mutex, the next step of both threads is
an access to the stage registry: `AddStage` takes no lock. The same holds for `AddStage`
against `SetAllTasksAdded`, `AddTask`, an inspection query and `AddStage` itself, whereas no
two of the operations that take the lock can race. -/
theorem AddStage_races_with_locked_operations :
    (FSyncConfig.RunSchedule { Thread0 := AddStageSteps 0, Thread1 := AddTaskToStageSteps }
        [true]).map FSyncConfig.IsRace = some true
    ∧ (FSyncConfig.RunSchedule { Thread0 := AddStageSteps 0, Thread1 := AddTaskToStageSteps }
        [true]).map (fun c => c.Owner) = some (some true)
    ∧ OperationsCanRace (AddStageSteps 0) AddTaskToStageSteps = true
    ∧ OperationsCanRace (AddStageSteps 0) SetAllTasksAddedSteps = true
    ∧ OperationsCanRace (AddStageSteps 0) (AddTaskSteps 0) = true
    ∧ OperationsCanRace (AddStageSteps 0) InspectionQuerySteps = true
    ∧ OperationsCanRace (AddStageSteps 0) (AddStageSteps 0) = true
    ∧ OperationsCanRace AddTaskToStageSteps AddTaskToStageSteps = false
    ∧ OperationsCanRace AddTaskToStageSteps SetAllTasksAddedSteps = false
    ∧ OperationsCanRace AddTaskToStageSteps (AddTaskSteps 0) = false
    ∧ OperationsCanRace (AddTaskSteps 0) (AddTaskSteps 0) = false
    ∧ OperationsCanRace InspectionQuerySteps (AddTaskSteps 0) = false := by
  decide

end Zkz.StagedExecution

namespace Zkz

/-! ## Aggregation of futures (`Future.h`) -/

theorem getElem?_append_singleton_lt {α : Type} (l : List α) (a : α) (p : Nat)
    (h : p < l.length) : (l ++ [a])[p]? = l[p]? :=
  List.getElem?_append_left h

theorem getElem?_append_singleton_eq {α : Type} (l : List α) (a : α) :
    (l ++ [a])[l.length]? = some a := by
  simp

theorem getElem?_set_ne' {α : Type} (l : List α) (a : α) {p q : Nat} (h : p ≠ q) :
    (l.set q a)[p]? = l[p]? := by
  rw [List.getElem?_set]
  rw [if_neg (Ne.symm h)]

theorem getElem?_set_eq' {α : Type} (l : List α) (a : α) {q : Nat} (h : q < l.length) :
    (l.set q a)[q]? = some a := by
  rw [List.getElem?_set]
  simp [h]

/-! ### The fold of the results -/

theorem FoldResults_Inputs {FutureType ResultType : Type} (F : ResultType → FutureType → ResultType)
    {w w' : FAggregateWorld FutureType ResultType}
    (h : ∀ i, w'.InputResult i = w.InputResult i) (L : List FStateHandle) :
    ∀ acc, w'.FoldResults F L acc = w.FoldResults F L acc := by
  induction L with
  | nil => intro acc; rfl
  | cons f L ih =>
    intro acc
    simp only [FAggregateWorld.FoldResults, h f]
    cases w.InputResult f with
    | none => rfl
    | some r => exact ih _

theorem FoldResults_congr {FutureType ResultType : Type} (F : ResultType → FutureType → ResultType)
    {w w' : FAggregateWorld FutureType ResultType} (L : List FStateHandle)
    (h : ∀ i ∈ L, w'.InputResult i = w.InputResult i) :
    ∀ acc, w'.FoldResults F L acc = w.FoldResults F L acc := by
  induction L with
  | nil => intro acc; rfl
  | cons f L ih =>
    intro acc
    simp only [FAggregateWorld.FoldResults, h f (List.mem_cons_self _ _)]
    cases w.InputResult f with
    | none => rfl
    | some r => exact ih (fun i hi => h i (List.mem_cons_of_mem _ hi)) _

theorem FoldResults_append {FutureType ResultType : Type} (F : ResultType → FutureType → ResultType)
    (w : FAggregateWorld FutureType ResultType) (A B : List FStateHandle) :
    ∀ acc, w.FoldResults F (A ++ B) acc
      = (w.FoldResults F A acc).bind (w.FoldResults F B) := by
  induction A with
  | nil => intro acc; rfl
  | cons f A ih =>
    intro acc
    simp only [List.cons_append, FAggregateWorld.FoldResults]
    cases w.InputResult f with
    | none => rfl
    | some r => exact ih _

/-- Either every future of the list is resolved, or the list splits at its first future that
is not resolved. -/
theorem FoldResults_cases {FutureType ResultType : Type} (F : ResultType → FutureType → ResultType)
    (w : FAggregateWorld FutureType ResultType) (L : List FStateHandle) :
    ∀ acc, (∃ v, w.FoldResults F L acc = some v)
      ∨ ∃ (Pre : List FStateHandle) (f : Nat) (Post : List FStateHandle) (acc' : ResultType),
          L = Pre ++ f :: Post ∧ w.FoldResults F Pre acc = some acc'
          ∧ w.InputResult f = none := by
  induction L with
  | nil => intro acc; exact Or.inl ⟨acc, rfl⟩
  | cons f L ih =>
    intro acc
    cases hf : w.InputResult f with
    | none => exact Or.inr ⟨[], f, L, acc, rfl, rfl, hf⟩
    | some r =>
      rcases ih (F acc r) with ⟨v, hv⟩ | ⟨Pre, g, Post, acc', hL, hPre, hg⟩
      · refine Or.inl ⟨v, ?_⟩
        simp only [FAggregateWorld.FoldResults, hf]
        exact hv
      · refine Or.inr ⟨f :: Pre, g, Post, acc', by rw [hL]; rfl, ?_, hg⟩
        simp only [FAggregateWorld.FoldResults, hf]
        exact hPre

/-- The fold is undefined as long as a future of the list is not resolved. -/
theorem FoldResults_none {FutureType ResultType : Type} (F : ResultType → FutureType → ResultType)
    (w : FAggregateWorld FutureType ResultType) (L : List FStateHandle) :
    ∀ acc, (∃ f ∈ L, w.InputResult f = none) → w.FoldResults F L acc = none := by
  induction L with
  | nil => intro acc ⟨f, hf, _⟩; cases hf
  | cons g L ih =>
    intro acc ⟨f, hf, hr⟩
    simp only [FAggregateWorld.FoldResults]
    cases hg : w.InputResult g with
    | none => rfl
    | some r =>
      simp only
      apply ih
      rcases List.mem_cons.1 hf with h | h
      · subst h; rw [hg] at hr; cases hr
      · exact ⟨f, h, hr⟩

/-- When the futures of the list are resolved with `Results`, the fold is the left fold of
`Results`. -/
theorem FoldResults_some {FutureType ResultType : Type} (F : ResultType → FutureType → ResultType)
    (w : FAggregateWorld FutureType ResultType) (L : List FStateHandle) :
    ∀ (Results : List FutureType) acc, L.map w.InputResult = Results.map some →
      w.FoldResults F L acc = some (Results.foldl F acc) := by
  induction L with
  | nil =>
    intro Results acc h
    cases Results with
    | nil => rfl
    | cons r Rs => cases h
  | cons g L ih =>
    intro Results acc h
    cases Results with
    | nil => cases h
    | cons r Rs =>
      simp only [List.map_cons, List.cons.injEq] at h
      simp only [FAggregateWorld.FoldResults, h.1, List.foldl_cons]
      exact ih Rs _ h.2

/-! ### Promises of the aggregation -/

theorem EmplaceValueFuel_succ_none {FutureType ResultType : Type} (w : FAggregateWorld FutureType ResultType) (Fuel P : Nat)
    (v : ResultType) (State : TFutureState ResultType FAggregateForwardLambda)
    (hP : w.Promises[P]? = some State) (hr : State.Result = none)
    (hc : State.CompletionCallback = none) :
    FAggregateWorld.EmplaceValueFuel (Fuel + 1) w P v
      = some { w with Promises := w.Promises.set P { Result := some v } } := by
  rw [FAggregateWorld.EmplaceValueFuel]
  simp only [hP, hr, hc]

theorem EmplaceValueFuel_succ_some {FutureType ResultType : Type} (w : FAggregateWorld FutureType ResultType) (Fuel P : Nat)
    (v : ResultType) (State : TFutureState ResultType FAggregateForwardLambda)
    (Lambda : FAggregateForwardLambda)
    (hP : w.Promises[P]? = some State) (hr : State.Result = none)
    (hc : State.CompletionCallback = some Lambda) :
    FAggregateWorld.EmplaceValueFuel (Fuel + 1) w P v
      = FAggregateWorld.EmplaceValueFuel Fuel
          { w with Promises := w.Promises.set P { Result := some v } } Lambda.Promise v := by
  rw [FAggregateWorld.EmplaceValueFuel]
  simp only [hP, hr, hc]

/-- Fulfilling a promise on whose future nothing waits stores the result. -/
theorem EmplaceValue_fresh {FutureType ResultType : Type} (w : FAggregateWorld FutureType ResultType) (P : Nat)
    (v : ResultType) (State : TFutureState ResultType FAggregateForwardLambda)
    (hP : w.Promises[P]? = some State) (hr : State.Result = none)
    (hc : State.CompletionCallback = none) :
    w.EmplaceValue P v = some { w with Promises := w.Promises.set P { Result := some v } } := by
  unfold FAggregateWorld.EmplaceValue
  rw [EmplaceValueFuel_succ_none w _ P v State hP hr hc]

theorem NextForward_resolved {FutureType ResultType : Type} (w : FAggregateWorld FutureType ResultType) (Future : Nat)
    (Lambda : FAggregateForwardLambda) (State : TFutureState ResultType FAggregateForwardLambda)
    (v : ResultType) (hP : w.Promises[Future]? = some State) (hr : State.Result = some v) :
    w.NextForward Future Lambda = w.EmplaceValue Lambda.Promise v := by
  unfold FAggregateWorld.NextForward
  simp only [hP, hr]

theorem NextForward_pending {FutureType ResultType : Type} (w : FAggregateWorld FutureType ResultType) (Future : Nat)
    (Lambda : FAggregateForwardLambda) (State : TFutureState ResultType FAggregateForwardLambda)
    (hP : w.Promises[Future]? = some State) (hr : State.Result = none) :
    w.NextForward Future Lambda
      = some { w with
          Promises := w.Promises.set Future
            { State with CompletionCallback := some Lambda } } := by
  unfold FAggregateWorld.NextForward
  simp only [hP, hr]

/-- Fulfilling the last promise of a chain of forwarding lambdas fulfils the promise `Agg` at
the head of the chain. -/
theorem EmplaceValueFuel_chain {FutureType ResultType : Type} (Agg : Nat) (v : ResultType) :
    ∀ (m Fuel : Nat) (w : FAggregateWorld FutureType ResultType), m + 2 ≤ Fuel →
      (∃ State, w.Promises[Agg]? = some State ∧ State.Result = none
        ∧ State.CompletionCallback = none) →
      (∃ State, w.Promises[Agg + 1]? = some State ∧ State.Result = none
        ∧ State.CompletionCallback = some (.SetValue Agg)) →
      (∀ j, 1 ≤ j → j ≤ m →
        ∃ State, w.Promises[Agg + 1 + j]? = some State ∧ State.Result = none
          ∧ State.CompletionCallback = some (.EmplaceValue (Agg + j))) →
      ∃ w', FAggregateWorld.EmplaceValueFuel Fuel w (Agg + 1 + m) v = some w'
        ∧ w'.Inputs = w.Inputs ∧ w'.PromiseResult Agg = some v := by
  intro m
  induction m with
  | zero =>
    intro Fuel w hFuel hAgg h1 _
    obtain ⟨n, rfl⟩ : ∃ n, Fuel = n + 2 := ⟨Fuel - 2, by omega⟩
    obtain ⟨S1, hS1, hr1, hc1⟩ := h1
    obtain ⟨S0, hS0, hr0, hc0⟩ := hAgg
    rw [Nat.add_zero, EmplaceValueFuel_succ_some w _ _ v S1 _ hS1 hr1 hc1]
    simp only [FAggregateForwardLambda.Promise]
    have hS0' : (w.Promises.set (Agg + 1) { Result := some v })[Agg]? = some S0 := by
      rw [getElem?_set_ne' _ _ (by omega)]; exact hS0
    rw [EmplaceValueFuel_succ_none _ _ _ v S0 hS0' hr0 hc0]
    refine ⟨_, rfl, rfl, ?_⟩
    unfold FAggregateWorld.PromiseResult
    have hlt : Agg < (w.Promises.set (Agg + 1)
        ({ Result := some v } : TFutureState ResultType FAggregateForwardLambda)).length := by
      rw [List.length_set]; exact getElem?_lt hS0
    simp only
    rw [getElem?_set_eq' _ _ hlt]
  | succ m ih =>
    intro Fuel w hFuel hAgg h1 hj
    obtain ⟨n, rfl⟩ : ∃ n, Fuel = n + 1 := ⟨Fuel - 1, by omega⟩
    obtain ⟨S, hS, hr, hc⟩ := hj (m + 1) (by omega) (Nat.le_refl _)
    rw [EmplaceValueFuel_succ_some w _ _ v S _ hS hr hc]
    simp only [FAggregateForwardLambda.Promise]
    have hkeep : ∀ p, p ≠ Agg + 1 + (m + 1) →
        (w.Promises.set (Agg + 1 + (m + 1))
          ({ Result := some v } : TFutureState ResultType FAggregateForwardLambda))[p]?
          = w.Promises[p]? := fun p hp => getElem?_set_ne' _ _ hp
    have := ih n { w with Promises := w.Promises.set (Agg + 1 + (m + 1)) { Result := some v } }
      (by omega)
      (by obtain ⟨S0, h0⟩ := hAgg; exact ⟨S0, by rw [← h0.1]; exact hkeep _ (by omega), h0.2⟩)
      (by obtain ⟨S1, h1'⟩ := h1; exact ⟨S1, by rw [← h1'.1]; exact hkeep _ (by omega), h1'.2⟩)
      (by
        intro j hj1 hjm
        obtain ⟨Sj, hSj⟩ := hj j hj1 (by omega)
        exact ⟨Sj, by rw [← hSj.1]; exact hkeep _ (by omega), hSj.2⟩)
    have he : Agg + (m + 1) = Agg + 1 + m := by omega
    rw [he]
    exact this

end Zkz

namespace Zkz

theorem InputResult_some {FutureType ResultType : Type} {w : FAggregateWorld FutureType ResultType} {f : Nat} {r : FutureType}
    (h : w.InputResult f = some r) : ∃ State, w.Inputs[f]? = some State ∧ State.Result = some r := by
  unfold FAggregateWorld.InputResult at h
  cases hS : w.Inputs[f]? with
  | none => rw [hS] at h; cases h
  | some State => rw [hS] at h; exact ⟨State, rfl, h⟩

theorem InputResult_of_getElem? {FutureType ResultType : Type} {w : FAggregateWorld FutureType ResultType} {f : Nat}
    {State : TFutureState FutureType (FAggregateHeadLambda ResultType)}
    (h : w.Inputs[f]? = some State) : w.InputResult f = State.Result := by
  unfold FAggregateWorld.InputResult
  rw [h]

/-- `DoAggregateFutures` on futures that are all resolved: the future it returns is new and
is resolved with the fold of their results; the inputs and the older promises are left
alone. -/
theorem DoAggregateFutures_resolved {FutureType ResultType : Type} (F : ResultType → FutureType → ResultType) :
    ∀ (L : List FStateHandle) (acc : ResultType) (w : FAggregateWorld FutureType ResultType)
      (v : ResultType), w.FoldResults F L acc = some v →
      ∃ w', DoAggregateFutures F L acc w = some (w.Promises.length, w')
        ∧ w'.Inputs = w.Inputs
        ∧ w.Promises.length < w'.Promises.length
        ∧ (∀ p, p < w.Promises.length → w'.Promises[p]? = w.Promises[p]?)
        ∧ ∃ State, w'.Promises[w.Promises.length]? = some State ∧ State.Result = some v := by
  intro L
  induction L with
  | nil =>
    intro acc w v h
    simp only [FAggregateWorld.FoldResults, Option.some.injEq] at h
    subst h
    have hfresh := EmplaceValue_fresh
      ({ w with Promises := w.Promises ++ [{}] } : FAggregateWorld FutureType ResultType)
      w.Promises.length acc {} (getElem?_append_singleton_eq _ _) rfl rfl
    refine ⟨FAggregateWorld.mk w.Inputs
      ((w.Promises ++ [TFutureState.mk none none]).set w.Promises.length
        (TFutureState.mk (some acc) none)),
      ?_, ?_, ?_, ?_, ?_⟩
    · rw [DoAggregateFutures]
      simp only [FAggregateWorld.NewPromise]
      rw [hfresh]
      rfl
    · rfl
    · simp
    · intro p hp
      simp only
      rw [getElem?_set_ne' _ _ (Nat.ne_of_lt hp), getElem?_append_singleton_lt _ _ _ hp]
    · refine ⟨{ Result := some acc }, ?_, rfl⟩
      simp only
      rw [getElem?_set_eq' _ _ (by simp)]
  | cons Head Tail ih =>
    intro acc w v h
    simp only [FAggregateWorld.FoldResults] at h
    cases hr : w.InputResult Head with
    | none => rw [hr] at h; cases h
    | some r =>
      rw [hr] at h
      simp only at h
      obtain ⟨State, hS, hres⟩ := InputResult_some hr
      have hfold : FAggregateWorld.FoldResults F
          ({ w with Promises := w.Promises ++ [{}] } : FAggregateWorld FutureType ResultType)
          Tail (F acc r) = some v := by
        exact (@FoldResults_Inputs _ _ F w
          (FAggregateWorld.mk w.Inputs (w.Promises ++ [TFutureState.mk none none]))
          (fun _ => rfl) Tail _).trans h
      obtain ⟨w2, hD, hI, hlen, hframe, S2, hS2, hres2⟩ := ih (F acc r) _ v hfold
      simp only [List.length_append, List.length_singleton] at hD hlen hframe hS2
      have hcell : w2.Promises[w.Promises.length]?
          = some ({} : TFutureState ResultType FAggregateForwardLambda) := by
        rw [hframe _ (Nat.lt_succ_self _)]
        exact getElem?_append_singleton_eq _ _
      have hN := NextForward_resolved w2 (w.Promises.length + 1)
        (.EmplaceValue w.Promises.length) S2 v hS2 hres2
      simp only [FAggregateForwardLambda.Promise] at hN
      rw [EmplaceValue_fresh w2 w.Promises.length v {} hcell rfl rfl] at hN
      refine ⟨FAggregateWorld.mk w2.Inputs
        (w2.Promises.set w.Promises.length (TFutureState.mk (some v) none)),
        ?_, ?_, ?_, ?_, ?_⟩
      · rw [DoAggregateFutures]
        simp only [FAggregateWorld.NewPromise, hS, hres, hD, hN]
        rfl
      · exact hI
      · simp only [List.length_set]
        omega
      · intro p hp
        simp only
        rw [getElem?_set_ne' _ _ (Nat.ne_of_lt hp), hframe p (Nat.lt_succ_of_lt hp),
          getElem?_append_singleton_lt _ _ _ hp]
      · refine ⟨{ Result := some v }, ?_, rfl⟩
        simp only
        rw [getElem?_set_eq' _ _ (by omega)]

/-- `DoAggregateFutures` on a list whose first future that is not resolved is `f`: the lambda
is registered on `f` with the fold of the results before it, and the promises created on the
way forward to one another. -/
theorem DoAggregateFutures_waiting {FutureType ResultType : Type} (F : ResultType → FutureType → ResultType)
    (f : Nat) (Post : List FStateHandle) :
    ∀ (Pre : List FStateHandle) (acc : ResultType) (w : FAggregateWorld FutureType ResultType)
      (acc' : ResultType) (State : TFutureState FutureType (FAggregateHeadLambda ResultType)),
      w.FoldResults F Pre acc = some acc' → w.Inputs[f]? = some State → State.Result = none →
      ∃ w', DoAggregateFutures F (Pre ++ f :: Post) acc w = some (w.Promises.length, w')
        ∧ w'.Inputs = w.Inputs.set f
            { State with
              CompletionCallback :=
                some { Tail := Post, Promise := w.Promises.length + Pre.length,
                       Initial := acc' } }
        ∧ w'.Promises.length = w.Promises.length + Pre.length + 1
        ∧ (∀ p, p < w.Promises.length → w'.Promises[p]? = w.Promises[p]?)
        ∧ (∃ S, w'.Promises[w.Promises.length]? = some S ∧ S.Result = none
            ∧ S.CompletionCallback = none)
        ∧ ∀ j, 1 ≤ j → j ≤ Pre.length →
            ∃ S, w'.Promises[w.Promises.length + j]? = some S ∧ S.Result = none
              ∧ S.CompletionCallback = some (.EmplaceValue (w.Promises.length + j - 1)) := by
  intro Pre
  induction Pre with
  | nil =>
    intro acc w acc' State h hS hres
    simp only [FAggregateWorld.FoldResults, Option.some.injEq] at h
    subst h
    refine ⟨FAggregateWorld.mk
      (w.Inputs.set f (TFutureState.mk State.Result
        (some (FAggregateHeadLambda.mk Post w.Promises.length acc))))
      (w.Promises ++ [TFutureState.mk none none]), ?_, ?_, ?_, ?_, ?_, ?_⟩
    · rw [List.nil_append, DoAggregateFutures]
      simp only [FAggregateWorld.NewPromise, hS, hres]
    · rfl
    · simp
    · intro p hp
      exact getElem?_append_singleton_lt _ _ _ hp
    · exact ⟨{}, getElem?_append_singleton_eq _ _, rfl, rfl⟩
    · intro j h1 h2
      simp only [List.length_nil] at h2
      omega
  | cons Head Pre ih =>
    intro acc w acc' State h hS hres
    simp only [FAggregateWorld.FoldResults] at h
    cases hr : w.InputResult Head with
    | none => rw [hr] at h; cases h
    | some r =>
      rw [hr] at h
      simp only at h
      obtain ⟨SH, hSH, hresH⟩ := InputResult_some hr
      have hfold : FAggregateWorld.FoldResults F
          ({ w with Promises := w.Promises ++ [{}] } : FAggregateWorld FutureType ResultType)
          Pre (F acc r) = some acc' := by
        exact (@FoldResults_Inputs _ _ F w
          (FAggregateWorld.mk w.Inputs (w.Promises ++ [TFutureState.mk none none]))
          (fun _ => rfl) Pre _).trans h
      obtain ⟨w2, hD, hI, hlen, hframe, ⟨S2, hS2, hres2, hcb2⟩, hchain⟩ :=
        ih (F acc r) _ acc' State hfold hS hres
      simp only [List.length_append, List.length_singleton] at hD hI hlen hframe hS2 hchain
      have hN := NextForward_pending w2 (w.Promises.length + 1)
        (.EmplaceValue w.Promises.length) S2 hS2 hres2
      have hlt1 : w.Promises.length + 1 < w2.Promises.length := by omega
      refine ⟨FAggregateWorld.mk w2.Inputs
        (w2.Promises.set (w.Promises.length + 1)
          (TFutureState.mk S2.Result (some (.EmplaceValue w.Promises.length)))),
        ?_, ?_, ?_, ?_, ?_, ?_⟩
      · rw [List.cons_append, DoAggregateFutures]
        simp only [FAggregateWorld.NewPromise, hSH, hresH, hD, hN]
        rfl
      · simp only
        rw [hI]
        have : w.Promises.length + 1 + Pre.length
            = w.Promises.length + (Head :: Pre).length := by
          simp only [List.length_cons]; omega
        rw [this]
      · simp only [List.length_set, List.length_cons]
        omega
      · intro p hp
        simp only
        rw [getElem?_set_ne' _ _ (by omega), hframe p (Nat.lt_succ_of_lt hp),
          getElem?_append_singleton_lt _ _ _ hp]
      · refine ⟨{}, ?_, rfl, rfl⟩
        simp only
        rw [getElem?_set_ne' _ _ (by omega), hframe _ (Nat.lt_succ_self _)]
        exact getElem?_append_singleton_eq _ _
      · intro j h1 h2
        simp only [List.length_cons] at h2
        by_cases hj : j = 1
        · subst hj
          refine ⟨{ S2 with CompletionCallback := some (.EmplaceValue w.Promises.length) }, ?_,
            hres2, ?_⟩
          · simp only
            rw [getElem?_set_eq' _ _ (by omega)]
          · simp
        · obtain ⟨S, hSj, hrj, hcj⟩ := hchain (j - 1) (by omega) (by omega)
          refine ⟨S, ?_, hrj, ?_⟩
          · simp only
            rw [getElem?_set_ne' _ _ (by omega)]
            have : w.Promises.length + j = w.Promises.length + 1 + (j - 1) := by omega
            rw [this]; exact hSj
          · rw [hcj]
            have : w.Promises.length + 1 + (j - 1) - 1 = w.Promises.length + j - 1 := by omega
            rw [this]

end Zkz

namespace Zkz

theorem InputResult_set {FutureType ResultType : Type} (Inputs : List (TFutureState FutureType (FAggregateHeadLambda ResultType)))
    (Promises : List (TFutureState ResultType FAggregateForwardLambda)) (i : Nat)
    (S : TFutureState FutureType (FAggregateHeadLambda ResultType)) (hi : i < Inputs.length)
    (j : Nat) :
    (FAggregateWorld.mk (Inputs.set i S) Promises).InputResult j
      = if j = i then S.Result else (FAggregateWorld.mk Inputs Promises).InputResult j := by
  unfold FAggregateWorld.InputResult
  simp only [List.getElem?_set]
  by_cases hj : j = i
  · subst hj; simp [hi]
  · rw [if_neg (Ne.symm hj), if_neg hj]

theorem getElem?_of_lt_InputResult_none {FutureType ResultType : Type} {w : FAggregateWorld FutureType ResultType} {f : Nat}
    (hlt : f < w.Inputs.length) (hr : w.InputResult f = none) :
    ∃ State, w.Inputs[f]? = some State ∧ State.Result = none := by
  refine ⟨w.Inputs[f], List.getElem?_eq_getElem hlt, ?_⟩
  rw [← InputResult_of_getElem? (List.getElem?_eq_getElem hlt)]
  exact hr

theorem FoldResults_resolved {FutureType ResultType : Type} (F : ResultType → FutureType → ResultType)
    (w : FAggregateWorld FutureType ResultType) (L : List FStateHandle) (acc v : ResultType)
    (h : w.FoldResults F L acc = some v) : ∀ g ∈ L, w.InputResult g ≠ none := by
  intro g hg hr
  rw [FoldResults_none F w L acc ⟨g, hg, hr⟩] at h
  cases h

theorem PromiseResult_of_getElem? {FutureType ResultType : Type} {w : FAggregateWorld FutureType ResultType} {p : Nat}
    {State : TFutureState ResultType FAggregateForwardLambda}
    (h : w.Promises[p]? = some State) : w.PromiseResult p = State.Result := by
  unfold FAggregateWorld.PromiseResult
  rw [h]

/-- While the aggregation waits, the aggregated future is not resolved and a future of the
list is not resolved; when it is done, the aggregated future holds the fold. -/
theorem PromiseResult_of_inv {FutureType ResultType : Type} (F : ResultType → FutureType → ResultType)
    (Futures : List FStateHandle) (Initial : ResultType) (Agg : Nat)
    (w : FAggregateWorld FutureType ResultType)
    (h : w.IsWaiting F Futures Initial Agg ∨ w.IsDone F Futures Initial Agg) :
    w.PromiseResult Agg = w.FoldResults F Futures Initial := by
  rcases h with ⟨Pre, f, Post, acc, hF, hPre, ⟨S, hS, hr, _⟩, _, _, ⟨S0, hS0, hr0, _⟩, _⟩
    | ⟨v, hv, hp, _⟩
  · rw [PromiseResult_of_getElem? hS0, hr0, hF, FoldResults_append, hPre]
    simp only [Option.bind, FAggregateWorld.FoldResults]
    rw [InputResult_of_getElem? hS, hr]
  · rw [hp, hv]

/-- `AggregateFutures` returns a new future and leaves the aggregation waiting or done. -/
theorem AggregateFutures_inv {FutureType ResultType : Type} (F : ResultType → FutureType → ResultType)
    (Futures : List FStateHandle) (Initial : ResultType)
    (w : FAggregateWorld FutureType ResultType) (hNo : w.NoCallbackExcept none)
    (hValid : ∀ f ∈ Futures, f < w.Inputs.length) :
    ∃ w1, AggregateFutures F Futures Initial w = some (w.Promises.length, w1)
      ∧ (w1.IsWaiting F Futures Initial w.Promises.length
          ∨ w1.IsDone F Futures Initial w.Promises.length)
      ∧ w1.Inputs.length = w.Inputs.length
      ∧ ∀ i, w1.InputResult i = w.InputResult i := by
  have hw0 : ∀ i, (FAggregateWorld.mk w.Inputs
      (w.Promises ++ [TFutureState.mk none none])).InputResult i = w.InputResult i :=
    fun _ => rfl
  rcases FoldResults_cases F w Futures Initial with ⟨v, hv⟩ | ⟨Pre, f, Post, acc, hF, hPre, hf⟩
  · -- every future is resolved already
    obtain ⟨w2, hD, hI, hlen, hframe, S2, hS2, hres2⟩ := DoAggregateFutures_resolved F Futures
      Initial (FAggregateWorld.mk w.Inputs (w.Promises ++ [TFutureState.mk none none])) v
      ((FoldResults_Inputs F hw0 Futures _).trans hv)
    simp only [List.length_append, List.length_singleton] at hD hlen hframe hS2
    have hcell : w2.Promises[w.Promises.length]?
        = some ({} : TFutureState ResultType FAggregateForwardLambda) := by
      rw [hframe _ (Nat.lt_succ_self _)]
      exact getElem?_append_singleton_eq _ _
    have hN := NextForward_resolved w2 (w.Promises.length + 1)
      (.SetValue w.Promises.length) S2 v hS2 hres2
    simp only [FAggregateForwardLambda.Promise] at hN
    rw [EmplaceValue_fresh w2 w.Promises.length v {} hcell rfl rfl] at hN
    refine ⟨FAggregateWorld.mk w2.Inputs
      (w2.Promises.set w.Promises.length (TFutureState.mk (some v) none)), ?_, Or.inr ?_, ?_, ?_⟩
    · unfold AggregateFutures
      simp only [FAggregateWorld.NewPromise, hD, hN]
      rfl
    · refine ⟨v, ?_, ?_, ?_⟩
      · refine (FoldResults_Inputs F ?_ Futures _).trans hv
        intro i
        unfold FAggregateWorld.InputResult
        simp only [hI]
      · unfold FAggregateWorld.PromiseResult
        simp only
        rw [getElem?_set_eq' _ _ (by omega)]
      · intro i State _ hS
        simp only [hI] at hS
        exact hNo i State (by simp) hS
    · simp only [hI]
    · intro i
      unfold FAggregateWorld.InputResult
      simp only [hI]
  · -- the aggregation waits for the future f
    have hfmem : f ∈ Futures := by rw [hF]; simp
    have hD' : ∀ x, DoAggregateFutures F (Pre ++ f :: Post) Initial x
        = DoAggregateFutures F Futures Initial x := fun x => by rw [hF]
    obtain ⟨State, hS, hres⟩ := getElem?_of_lt_InputResult_none (hValid f hfmem) hf
    have hcb := hNo f State (by simp) hS
    obtain ⟨w2, hD, hI, hlen, hframe, ⟨S2, hS2, hres2, hcb2⟩, hchain⟩ :=
      DoAggregateFutures_waiting F f Post Pre Initial
        (FAggregateWorld.mk w.Inputs (w.Promises ++ [TFutureState.mk none none])) acc State
        ((FoldResults_Inputs F hw0 Pre _).trans hPre) hS hres
    simp only [List.length_append, List.length_singleton] at hD hI hlen hframe hS2 hchain
    rw [hD'] at hD
    have hN := NextForward_pending w2 (w.Promises.length + 1)
      (.SetValue w.Promises.length) S2 hS2 hres2
    have hflt : f < w.Inputs.length := hValid f hfmem
    have hRes : ∀ i, (FAggregateWorld.mk w2.Inputs
        (w2.Promises.set (w.Promises.length + 1)
          (TFutureState.mk S2.Result (some (.SetValue w.Promises.length))))).InputResult i
        = w.InputResult i := by
      intro i
      have := InputResult_set w.Inputs w.Promises f
        (TFutureState.mk State.Result
          (some (FAggregateHeadLambda.mk Post (w.Promises.length + 1 + Pre.length) acc))) hflt i
      unfold FAggregateWorld.InputResult at this ⊢
      simp only [hI]
      rw [this]
      by_cases hi : i = f
      · rw [if_pos hi, hi, hS]
      · rw [if_neg hi]
    refine ⟨FAggregateWorld.mk w2.Inputs
      (w2.Promises.set (w.Promises.length + 1)
        (TFutureState.mk S2.Result (some (.SetValue w.Promises.length)))), ?_, Or.inl ?_, ?_,
      hRes⟩
    · unfold AggregateFutures
      simp only [FAggregateWorld.NewPromise, hD, hN]
      rfl
    · refine ⟨Pre, f, Post, acc, hF, (FoldResults_Inputs F hRes Pre _).trans hPre, ?_, ?_, ?_, ?_,
        ?_, ?_⟩
      · refine ⟨TFutureState.mk State.Result
          (some (FAggregateHeadLambda.mk Post (w.Promises.length + 1 + Pre.length) acc)), ?_,
          hres, rfl⟩
        simp only [hI]
        rw [getElem?_set_eq' _ _ hflt]
      · intro i Si hne hSi
        simp only [hI] at hSi
        have hif : i ≠ f := fun h => hne (by rw [h])
        rw [getElem?_set_ne' _ _ hif] at hSi
        exact hNo i Si (by simp) hSi
      · simp only [List.length_set]
        omega
      · refine ⟨{}, ?_, rfl, rfl⟩
        simp only
        rw [getElem?_set_ne' _ _ (by omega), hframe _ (Nat.lt_succ_self _)]
        exact getElem?_append_singleton_eq _ _
      · refine ⟨TFutureState.mk S2.Result (some (.SetValue w.Promises.length)), ?_, hres2,
          rfl⟩
        simp only
        rw [getElem?_set_eq' _ _ (by omega)]
      · intro j h1 h2
        obtain ⟨Sj, hSj, hrj, hcj⟩ := hchain j h1 h2
        refine ⟨Sj, ?_, hrj, ?_⟩
        · simp only
          rw [getElem?_set_ne' _ _ (by omega)]
          exact hSj
        · rw [hcj]
          have : w.Promises.length + 1 + j - 1 = w.Promises.length + j := by omega
          rw [this]
    · simp only [hI, List.length_set]

end Zkz

namespace Zkz

theorem ResolveInput_plain {FutureType ResultType : Type} (F : ResultType → FutureType → ResultType)
    (w : FAggregateWorld FutureType ResultType) (i : Nat) (r : FutureType)
    (S : TFutureState FutureType (FAggregateHeadLambda ResultType))
    (hS : w.Inputs[i]? = some S) (hr : S.Result = none) (hc : S.CompletionCallback = none) :
    w.ResolveInput F i r
      = some (FAggregateWorld.mk (w.Inputs.set i (TFutureState.mk (some r) none))
          w.Promises) := by
  unfold FAggregateWorld.ResolveInput
  simp only [hS, hr, hc]

theorem ResolveInput_callback {FutureType ResultType : Type} (F : ResultType → FutureType → ResultType)
    (w : FAggregateWorld FutureType ResultType) (i : Nat) (r : FutureType)
    (S : TFutureState FutureType (FAggregateHeadLambda ResultType))
    (Lambda : FAggregateHeadLambda ResultType)
    (hS : w.Inputs[i]? = some S) (hr : S.Result = none)
    (hc : S.CompletionCallback = some Lambda) :
    w.ResolveInput F i r
      = Lambda.Invoke F r
          (FAggregateWorld.mk (w.Inputs.set i (TFutureState.mk (some r) none))
            w.Promises) := by
  unfold FAggregateWorld.ResolveInput
  simp only [hS, hr, hc]

theorem InputResult_resolved {FutureType ResultType : Type} (w : FAggregateWorld FutureType ResultType) (i : Nat)
    (r : FutureType) (hi : i < w.Inputs.length) (j : Nat) :
    (FAggregateWorld.mk (w.Inputs.set i (TFutureState.mk (some r) none))
        w.Promises).InputResult j
      = if j = i then some r else w.InputResult j :=
  InputResult_set w.Inputs w.Promises i _ hi j

/-- Resolving an input on which nothing waits keeps a finished aggregation finished. -/
theorem IsDone_resolve {FutureType ResultType : Type} (F : ResultType → FutureType → ResultType)
    (Futures : List FStateHandle) (Initial : ResultType) (Agg : Nat)
    (w : FAggregateWorld FutureType ResultType) (i : Nat) (r : FutureType)
    (hDone : w.IsDone F Futures Initial Agg) (hi : i < w.Inputs.length)
    (hr : w.InputResult i = none) :
    (FAggregateWorld.mk (w.Inputs.set i (TFutureState.mk (some r) none))
      w.Promises).IsDone F Futures Initial Agg := by
  obtain ⟨v, hv, hp, hNo⟩ := hDone
  refine ⟨v, ?_, hp, ?_⟩
  · refine (FoldResults_congr F Futures ?_ _).trans hv
    intro g hg
    rw [InputResult_resolved w i r hi g]
    have hne : g ≠ i := by
      intro h
      rw [h] at hg
      exact FoldResults_resolved F w Futures Initial v hv i hg hr
    rw [if_neg hne]
  · intro j Sj _ hSj
    simp only at hSj
    by_cases hji : j = i
    · rw [hji, getElem?_set_eq' _ _ hi] at hSj
      simp only [Option.some.injEq] at hSj
      rw [← hSj]
    · rw [getElem?_set_ne' _ _ hji] at hSj
      exact hNo j Sj (by simp) hSj

/-- Resolving an input other than the one the aggregation waits for keeps it waiting. -/
theorem IsWaiting_resolve_other {FutureType ResultType : Type} (F : ResultType → FutureType → ResultType)
    (Initial : ResultType) (Agg : Nat)
    (w : FAggregateWorld FutureType ResultType) (i : Nat) (r : FutureType)
    (Pre : List FStateHandle) (f : Nat) (Post : List FStateHandle) (acc : ResultType)
    (hPre : w.FoldResults F Pre Initial = some acc)
    (hf : ∃ State, w.Inputs[f]? = some State ∧ State.Result = none
        ∧ State.CompletionCallback
            = some { Tail := Post, Promise := Agg + 1 + Pre.length, Initial := acc })
    (hNo : w.NoCallbackExcept (some f))
    (hi : i < w.Inputs.length) (hr : w.InputResult i = none) (hif : i ≠ f) :
    (FAggregateWorld.mk (w.Inputs.set i (TFutureState.mk (some r) none))
        w.Promises).FoldResults F Pre Initial = some acc
    ∧ (∃ State, (w.Inputs.set i (TFutureState.mk (some r) none))[f]? = some State
        ∧ State.Result = none
        ∧ State.CompletionCallback
            = some { Tail := Post, Promise := Agg + 1 + Pre.length, Initial := acc })
    ∧ (FAggregateWorld.mk (w.Inputs.set i (TFutureState.mk (some r) none))
        w.Promises).NoCallbackExcept (some f) := by
  refine ⟨?_, ?_, ?_⟩
  · refine (FoldResults_congr F Pre ?_ _).trans hPre
    intro g hg
    rw [InputResult_resolved w i r hi g]
    have hne : g ≠ i := by
      intro h
      rw [h] at hg
      exact FoldResults_resolved F w Pre Initial acc hPre i hg hr
    rw [if_neg hne]
  · obtain ⟨S, hS, h2⟩ := hf
    exact ⟨S, by rw [getElem?_set_ne' _ _ (Ne.symm hif)]; exact hS, h2⟩
  · intro j Sj hjf hSj
    simp only at hSj
    by_cases hji : j = i
    · rw [hji, getElem?_set_eq' _ _ hi] at hSj
      simp only [Option.some.injEq] at hSj
      rw [← hSj]
    · rw [getElem?_set_ne' _ _ hji] at hSj
      exact hNo j Sj hjf hSj

end Zkz

namespace Zkz

/-- Resolving the input the aggregation waits for: the lambda folds the result in and the
aggregation waits for the next input that is not resolved, or is done. -/
theorem IsWaiting_resolve_head {FutureType ResultType : Type} (F : ResultType → FutureType → ResultType)
    (Initial : ResultType) (Agg : Nat)
    (w : FAggregateWorld FutureType ResultType) (r : FutureType)
    (Pre : List FStateHandle) (f : Nat) (Post : List FStateHandle) (acc : ResultType)
    (hValid : ∀ g ∈ Pre ++ f :: Post, g < w.Inputs.length)
    (hPre : w.FoldResults F Pre Initial = some acc)
    (hf : ∃ State, w.Inputs[f]? = some State ∧ State.Result = none
        ∧ State.CompletionCallback
            = some { Tail := Post, Promise := Agg + 1 + Pre.length, Initial := acc })
    (hNo : w.NoCallbackExcept (some f))
    (hLen : w.Promises.length = Agg + Pre.length + 2)
    (hAgg : ∃ State, w.Promises[Agg]? = some State ∧ State.Result = none
        ∧ State.CompletionCallback = none)
    (h1 : ∃ State, w.Promises[Agg + 1]? = some State ∧ State.Result = none
        ∧ State.CompletionCallback = some (.SetValue Agg))
    (hChain : ∀ j, 1 ≤ j → j ≤ Pre.length →
        ∃ State, w.Promises[Agg + 1 + j]? = some State ∧ State.Result = none
          ∧ State.CompletionCallback = some (.EmplaceValue (Agg + j))) :
    ∃ w', w.ResolveInput F f r = some w'
      ∧ (w'.IsWaiting F (Pre ++ f :: Post) Initial Agg
          ∨ w'.IsDone F (Pre ++ f :: Post) Initial Agg)
      ∧ w'.Inputs.length = w.Inputs.length
      ∧ ∀ j, w'.InputResult j = if j = f then some r else w.InputResult j := by
  obtain ⟨Sf, hSf, hrf, hcf⟩ := hf
  have hflt : f < w.Inputs.length := getElem?_lt hSf
  have hwf : w.InputResult f = none := by rw [InputResult_of_getElem? hSf]; exact hrf
  have hR1 := InputResult_resolved w f r hflt
  have hNo1 : (FAggregateWorld.mk (w.Inputs.set f (TFutureState.mk (some r) none))
      w.Promises).NoCallbackExcept none := by
    intro j Sj _ hSj
    simp only at hSj
    by_cases hjf : j = f
    · rw [hjf, getElem?_set_eq' _ _ hflt] at hSj
      simp only [Option.some.injEq] at hSj
      rw [← hSj]
    · rw [getElem?_set_ne' _ _ hjf] at hSj
      exact hNo j Sj (fun h => hjf (Option.some.inj h)) hSj
  have hPre1 : (FAggregateWorld.mk (w.Inputs.set f (TFutureState.mk (some r) none))
      w.Promises).FoldResults F Pre Initial = some acc := by
    refine (FoldResults_congr F Pre ?_ _).trans hPre
    intro g hg
    rw [hR1 g]
    have hne : g ≠ f := by
      intro h
      rw [h] at hg
      exact FoldResults_resolved F w Pre Initial acc hPre f hg hwf
    rw [if_neg hne]
  have hInv := ResolveInput_callback F w f r Sf _ hSf hrf hcf
  unfold FAggregateHeadLambda.Invoke at hInv
  simp only at hInv
  rcases FoldResults_cases F
      (FAggregateWorld.mk (w.Inputs.set f (TFutureState.mk (some r) none)) w.Promises)
      Post (F acc r) with ⟨v, hv⟩ | ⟨Pre2, f2, Post2, acc2, hPost, hPre2, hf2⟩
  · -- every later input is resolved: the chain of promises is fulfilled
    obtain ⟨w2, hD, hI, hlen, hframe, S2, hS2, hres2⟩ :=
      DoAggregateFutures_resolved F Post (F acc r) _ v hv
    simp only at hD hI hlen hframe hS2
    have hN := NextForward_resolved w2 w.Promises.length
      (.EmplaceValue (Agg + 1 + Pre.length)) S2 v hS2 hres2
    simp only [FAggregateForwardLambda.Promise] at hN
    have hkeep : ∀ p, p < w.Promises.length → w2.Promises[p]? = w.Promises[p]? := hframe
    obtain ⟨w3, hE, hI3, hP3⟩ := EmplaceValueFuel_chain Agg v Pre.length
      (w2.Promises.length + 1) w2 (by omega)
      (by obtain ⟨S, hS⟩ := hAgg; exact ⟨S, by rw [hkeep _ (by omega)]; exact hS.1, hS.2⟩)
      (by obtain ⟨S, hS⟩ := h1; exact ⟨S, by rw [hkeep _ (by omega)]; exact hS.1, hS.2⟩)
      (by
        intro j hj1 hj2
        obtain ⟨S, hS⟩ := hChain j hj1 hj2
        exact ⟨S, by rw [hkeep _ (by omega)]; exact hS.1, hS.2⟩)
    have hE' : w2.EmplaceValue (Agg + 1 + Pre.length) v = some w3 := hE
    have hRes3 : ∀ j, w3.InputResult j
        = (FAggregateWorld.mk (w.Inputs.set f (TFutureState.mk (some r) none))
            w.Promises).InputResult j := by
      intro j
      unfold FAggregateWorld.InputResult
      simp only [hI3, hI]
    refine ⟨w3, ?_, Or.inr ?_, ?_, ?_⟩
    · rw [hInv, hD]
      simp only
      rw [hN, hE']
    · refine ⟨v, ?_, hP3, ?_⟩
      · rw [FoldResults_Inputs F hRes3, FoldResults_append, hPre1]
        simp only [Option.bind, FAggregateWorld.FoldResults]
        rw [hR1 f, if_pos rfl]
        exact hv
      · intro j Sj hj hSj
        rw [hI3, hI] at hSj
        exact hNo1 j Sj hj hSj
    · rw [hI3, hI]
      simp
    · intro j
      rw [hRes3 j, hR1 j]
  · -- the aggregation waits for the next input that is not resolved
    subst hPost
    have hf2mem : f2 ∈ Pre ++ f :: (Pre2 ++ f2 :: Post2) := by simp
    have hf2lt : f2 < (FAggregateWorld.mk (w.Inputs.set f (TFutureState.mk (some r) none))
        w.Promises).Inputs.length := by
      simp only [List.length_set]
      exact hValid f2 hf2mem
    obtain ⟨Sf2, hSf2, hrf2⟩ := getElem?_of_lt_InputResult_none hf2lt hf2
    obtain ⟨w2, hD, hI, hlen, hframe, ⟨S, hS, hres, hcb⟩, hchain2⟩ :=
      DoAggregateFutures_waiting F f2 Post2 Pre2 (F acc r) _ acc2 Sf2 hPre2 hSf2 hrf2
    simp only at hD hI hlen hframe hS hchain2 hSf2 hf2lt
    have hN := NextForward_pending w2 w.Promises.length
      (.EmplaceValue (Agg + 1 + Pre.length)) S hS hres
    have hRes' : ∀ j, (FAggregateWorld.mk w2.Inputs
        (w2.Promises.set w.Promises.length
          (TFutureState.mk S.Result
            (some (.EmplaceValue (Agg + 1 + Pre.length)))))).InputResult j
        = (FAggregateWorld.mk (w.Inputs.set f (TFutureState.mk (some r) none))
            w.Promises).InputResult j := by
      intro j
      have := InputResult_set (w.Inputs.set f (TFutureState.mk (some r) none)) w.Promises f2
        (TFutureState.mk Sf2.Result
          (some (FAggregateHeadLambda.mk Post2 (w.Promises.length + Pre2.length) acc2)))
        hf2lt j
      unfold FAggregateWorld.InputResult at this ⊢
      simp only [hI]
      rw [this]
      by_cases hj : j = f2
      · rw [if_pos hj, hj, hSf2]
      · rw [if_neg hj]
    refine ⟨FAggregateWorld.mk w2.Inputs
      (w2.Promises.set w.Promises.length
        (TFutureState.mk S.Result (some (.EmplaceValue (Agg + 1 + Pre.length))))), ?_,
      Or.inl ?_, ?_, ?_⟩
    · rw [hInv, hD]
      simp only
      rw [hN]
    · refine ⟨Pre ++ f :: Pre2, f2, Post2, acc2, by simp, ?_, ?_, ?_, ?_, ?_, ?_, ?_⟩
      · rw [FoldResults_Inputs F hRes', FoldResults_append, hPre1]
        simp only [Option.bind, FAggregateWorld.FoldResults]
        rw [hR1 f, if_pos rfl]
        exact hPre2
      · refine ⟨TFutureState.mk Sf2.Result
          (some (FAggregateHeadLambda.mk Post2 (w.Promises.length + Pre2.length) acc2)), ?_,
          hrf2, ?_⟩
        · simp only [hI]
          rw [getElem?_set_eq' _ _ hf2lt]
        · simp only [List.length_append, List.length_cons, hLen]
          have : Agg + Pre.length + 2 + Pre2.length = Agg + 1 + (Pre.length + (Pre2.length + 1)) := by
            omega
          rw [this]
      · intro j Sj hj hSj
        simp only [hI] at hSj
        have hjf2 : j ≠ f2 := fun h => hj (by rw [h])
        rw [getElem?_set_ne' _ _ hjf2] at hSj
        exact hNo1 j Sj (by simp) hSj
      · simp only [List.length_set, List.length_append, List.length_cons, hlen, hLen]
        omega
      · obtain ⟨S0, hS0, h0⟩ := hAgg
        refine ⟨S0, ?_, h0⟩
        simp only
        rw [getElem?_set_ne' _ _ (by omega), hframe _ (by omega)]
        exact hS0
      · obtain ⟨S1, hS1, h1'⟩ := h1
        refine ⟨S1, ?_, h1'⟩
        simp only
        rw [getElem?_set_ne' _ _ (by omega), hframe _ (by omega)]
        exact hS1
      · intro j hj1 hj2
        simp only [List.length_append, List.length_cons] at hj2
        by_cases hjle : j ≤ Pre.length
        · obtain ⟨Sj, hSj, hj'⟩ := hChain j hj1 hjle
          refine ⟨Sj, ?_, hj'⟩
          simp only
          rw [getElem?_set_ne' _ _ (by omega), hframe _ (by omega)]
          exact hSj
        · by_cases hjeq : j = Pre.length + 1
          · refine ⟨TFutureState.mk S.Result (some (.EmplaceValue (Agg + 1 + Pre.length))), ?_,
              hres, ?_⟩
            · simp only
              have : Agg + 1 + j = w.Promises.length := by omega
              rw [this, getElem?_set_eq' _ _ (by omega)]
            · simp only
              have : Agg + 1 + Pre.length = Agg + j := by omega
              rw [this]
          · obtain ⟨Sj, hSj, hrj, hcj⟩ := hchain2 (j - Pre.length - 1) (by omega) (by omega)
            refine ⟨Sj, ?_, hrj, ?_⟩
            · simp only
              rw [getElem?_set_ne' _ _ (by omega)]
              have : Agg + 1 + j = w.Promises.length + (j - Pre.length - 1) := by omega
              rw [this]; exact hSj
            · rw [hcj]
              have : w.Promises.length + (j - Pre.length - 1) - 1 = Agg + j := by omega
              rw [this]
    · simp only [hI, List.length_set]
    · intro j
      rw [hRes' j, hR1 j]

end Zkz

namespace Zkz

/-- Resolving any input that is not resolved keeps the aggregation waiting or done, and
changes the result of that input only. -/
theorem ResolveInput_inv {FutureType ResultType : Type} (F : ResultType → FutureType → ResultType)
    (Futures : List FStateHandle) (Initial : ResultType) (Agg : Nat)
    (w : FAggregateWorld FutureType ResultType) (i : Nat) (r : FutureType)
    (hInv : w.IsWaiting F Futures Initial Agg ∨ w.IsDone F Futures Initial Agg)
    (hValid : ∀ f ∈ Futures, f < w.Inputs.length)
    (hi : i < w.Inputs.length) (hr : w.InputResult i = none) :
    ∃ w', w.ResolveInput F i r = some w'
      ∧ (w'.IsWaiting F Futures Initial Agg ∨ w'.IsDone F Futures Initial Agg)
      ∧ w'.Inputs.length = w.Inputs.length
      ∧ ∀ j, w'.InputResult j = if j = i then some r else w.InputResult j := by
  obtain ⟨Si, hSi, hri⟩ := getElem?_of_lt_InputResult_none hi hr
  rcases hInv with ⟨Pre, f, Post, acc, hF, hPre, hf, hNo, hLen, hAgg, h1, hChain⟩ | hDone
  · by_cases hif : i = f
    · subst hif
      subst hF
      exact IsWaiting_resolve_head F Initial Agg w r Pre i Post acc hValid hPre hf hNo hLen hAgg
        h1 hChain
    · have hci := hNo i Si (fun h => hif (Option.some.inj h)) hSi
      obtain ⟨hPre', hf', hNo'⟩ := IsWaiting_resolve_other F Initial Agg w i r Pre f Post acc
        hPre hf hNo hi hr hif
      refine ⟨_, ResolveInput_plain F w i r Si hSi hri hci, Or.inl ?_, ?_,
        InputResult_resolved w i r hi⟩
      · exact ⟨Pre, f, Post, acc, hF, hPre', hf', hNo', hLen, hAgg, h1, hChain⟩
      · simp
  · obtain ⟨v, hv, hp, hNoD⟩ := hDone
    have hci := hNoD i Si (by simp) hSi
    refine ⟨_, ResolveInput_plain F w i r Si hSi hri hci, Or.inr ?_, ?_,
      InputResult_resolved w i r hi⟩
    · exact IsDone_resolve F Futures Initial Agg w i r ⟨v, hv, hp, hNoD⟩ hi hr
    · simp

theorem ResolveInputs_nil {FutureType ResultType : Type} (F : ResultType → FutureType → ResultType)
    (w : FAggregateWorld FutureType ResultType) : w.ResolveInputs F [] = some w := rfl

theorem ResolveInputs_cons {FutureType ResultType : Type} (F : ResultType → FutureType → ResultType)
    (w : FAggregateWorld FutureType ResultType) (e : FStateHandle × FutureType)
    (Events : List (FStateHandle × FutureType)) :
    w.ResolveInputs F (e :: Events)
      = (w.ResolveInput F e.1 e.2).bind (fun w1 => w1.ResolveInputs F Events) := by
  unfold FAggregateWorld.ResolveInputs
  rw [List.foldlM_cons]
  rfl

/-- Resolving inputs that are not resolved, each once, in any order, keeps the aggregation
waiting or done; every input of `Events` ends up with its result and the other inputs are
left alone. -/
theorem ResolveInputs_inv {FutureType ResultType : Type} (F : ResultType → FutureType → ResultType)
    (Futures : List FStateHandle) (Initial : ResultType) (Agg : Nat) :
    ∀ (Events : List (FStateHandle × FutureType)) (w : FAggregateWorld FutureType ResultType),
      (w.IsWaiting F Futures Initial Agg ∨ w.IsDone F Futures Initial Agg) →
      (∀ f ∈ Futures, f < w.Inputs.length) →
      (Events.map Prod.fst).Nodup →
      (∀ e ∈ Events, e.1 < w.Inputs.length ∧ w.InputResult e.1 = none) →
      ∃ w', w.ResolveInputs F Events = some w'
        ∧ (w'.IsWaiting F Futures Initial Agg ∨ w'.IsDone F Futures Initial Agg)
        ∧ (∀ e ∈ Events, w'.InputResult e.1 = some e.2)
        ∧ ∀ j, j ∉ Events.map Prod.fst → w'.InputResult j = w.InputResult j := by
  intro Events
  induction Events with
  | nil =>
    intro w hInv _ _ _
    exact ⟨w, ResolveInputs_nil F w, hInv, fun e he => absurd he (List.not_mem_nil _),
      fun _ _ => rfl⟩
  | cons e Events ih =>
    intro w hInv hValid hNodup hEvents
    simp only [List.map_cons, List.nodup_cons] at hNodup
    obtain ⟨he1, he2⟩ := hEvents e (List.mem_cons_self _ _)
    obtain ⟨w1, hR, hInv1, hLen1, hRes1⟩ :=
      ResolveInput_inv F Futures Initial Agg w e.1 e.2 hInv hValid he1 he2
    have hne : ∀ e' ∈ Events, e'.1 ≠ e.1 := by
      intro e' he' h
      exact hNodup.1 (by rw [← h]; exact List.mem_map_of_mem _ he')
    obtain ⟨w2, hRun, hInv2, hEv2, hOther2⟩ := ih w1 hInv1
      (fun f hf => by rw [hLen1]; exact hValid f hf) hNodup.2
      (fun e' he' => by
        obtain ⟨h1, h2⟩ := hEvents e' (List.mem_cons_of_mem _ he')
        refine ⟨by rw [hLen1]; exact h1, ?_⟩
        rw [hRes1, if_neg (hne e' he')]
        exact h2)
    refine ⟨w2, ?_, hInv2, ?_, ?_⟩
    · rw [ResolveInputs_cons, hR]
      exact hRun
    · intro e' he'
      rcases List.mem_cons.1 he' with h | h
      · subst h
        rw [hOther2 e'.1 hNodup.1, hRes1, if_pos rfl]
      · exact hEv2 e' h
    · intro j hj
      simp only [List.map_cons, List.mem_cons, not_or] at hj
      rw [hOther2 j hj.2, hRes1, if_neg hj.1]

/-- C25. Aggregate order. Let `Futures` be a list of input futures on which no continuation
waits (it may be empty, and some of its futures may be resolved already), `Initial` an
initial value and `AggregateFunc` a fold function. `AggregateFutures` returns a new future
`Agg`. After the call, and after the promises of any inputs that were not resolved have been
fulfilled, each once, in any order `Events`:
* `Agg` is not resolved as long as a future of `Futures` is not resolved;
* once the futures of `Futures` are resolved with the results `Results` (in the order of the
  list), `Agg` is resolved with the left fold of `AggregateFunc` over `Results` from
  `Initial`, whatever the order of `Events`;
* for the empty list `Agg` is resolved with `Initial` when `AggregateFutures` returns.
The result of an input is whatever its promise was fulfilled with; for a scoped promise that
was dropped it is `Err(Cancelled)`, which the fold receives like every other result. -/
theorem AggregateFutures_folds_in_list_order {FutureType ResultType : Type} (AggregateFunc : ResultType → FutureType → ResultType)
    (Futures : List FStateHandle) (Initial : ResultType)
    (w : FAggregateWorld FutureType ResultType) (hNo : w.NoCallbackExcept none)
    (hValid : ∀ f ∈ Futures, f < w.Inputs.length)
    (Events : List (FStateHandle × FutureType)) (hNodup : (Events.map Prod.fst).Nodup)
    (hEvents : ∀ e ∈ Events, e.1 < w.Inputs.length ∧ w.InputResult e.1 = none) :
    ∃ Agg w1 w2, AggregateFutures AggregateFunc Futures Initial w = some (Agg, w1)
      ∧ w.PromiseResult Agg = none
      ∧ (∀ j, w1.InputResult j = w.InputResult j)
      ∧ ((∃ f ∈ Futures, w.InputResult f = none) → w1.PromiseResult Agg = none)
      ∧ (∀ Results : List FutureType, Futures.map w.InputResult = Results.map some →
          w1.PromiseResult Agg = some (Results.foldl AggregateFunc Initial))
      ∧ (Futures = [] → w1.PromiseResult Agg = some Initial)
      ∧ w1.ResolveInputs AggregateFunc Events = some w2
      ∧ (∀ e ∈ Events, w2.InputResult e.1 = some e.2)
      ∧ (∀ j, j ∉ Events.map Prod.fst → w2.InputResult j = w.InputResult j)
      ∧ ((∃ f ∈ Futures, w2.InputResult f = none) → w2.PromiseResult Agg = none)
      ∧ ∀ Results : List FutureType, Futures.map w2.InputResult = Results.map some →
          w2.PromiseResult Agg = some (Results.foldl AggregateFunc Initial) := by
  obtain ⟨w1, hA, hInv1, hLen1, hRes1⟩ :=
    AggregateFutures_inv AggregateFunc Futures Initial w hNo hValid
  obtain ⟨w2, hRun, hInv2, hEv2, hOther2⟩ :=
    ResolveInputs_inv AggregateFunc Futures Initial w.Promises.length Events w1 hInv1
      (fun f hf => by rw [hLen1]; exact hValid f hf) hNodup
      (fun e he => by
        obtain ⟨h1, h2⟩ := hEvents e he
        exact ⟨by rw [hLen1]; exact h1, by rw [hRes1]; exact h2⟩)
  have hP1 := PromiseResult_of_inv AggregateFunc Futures Initial w.Promises.length w1 hInv1
  have hP2 := PromiseResult_of_inv AggregateFunc Futures Initial w.Promises.length w2 hInv2
  have hmap1 : Futures.map w1.InputResult = Futures.map w.InputResult :=
    List.map_congr_left (fun f _ => hRes1 f)
  refine ⟨w.Promises.length, w1, w2, hA, ?_, hRes1, ?_, ?_, ?_, hRun, hEv2, ?_, ?_, ?_⟩
  · unfold FAggregateWorld.PromiseResult
    rw [List.getElem?_eq_none (Nat.le_refl _)]
  · intro ⟨f, hf, hr⟩
    rw [hP1]
    exact FoldResults_none AggregateFunc w1 Futures Initial ⟨f, hf, by rw [hRes1]; exact hr⟩
  · intro Results hR
    rw [hP1]
    exact FoldResults_some AggregateFunc w1 Futures Results Initial (hmap1.trans hR)
  · intro hF
    rw [hP1, hF]
    rfl
  · intro j hj
    rw [hOther2 j hj, hRes1]
  · intro h
    rw [hP2]
    exact FoldResults_none AggregateFunc w2 Futures Initial h
  · intro Results hR
    rw [hP2]
    exact FoldResults_some AggregateFunc w2 Futures Results Initial hR

end Zkz

namespace Zkz

/-- The test `AggregateFuturesCanUseScopedPromise`: the promises with an odd index are
fulfilled before the call, the others are dropped after it (here last first); the sum is
`1 + 3 + 5 + 7 + 9 - 5 = 20`. -/
theorem AggregateFutures_folds_in_list_order_witness :
    ∃ Agg w1 w2,
      AggregateFutures ExampleSum [0, 1, 2, 3, 4, 5, 6, 7, 8, 9] 0 ExampleScopedInputs
        = some (Agg, w1)
      ∧ w1.PromiseResult Agg = none
      ∧ w1.ResolveInputs ExampleSum ExampleDrops = some w2
      ∧ w2.PromiseResult Agg = some 20 := by
  obtain ⟨Agg, w1, w2, hA, _, _, h1, _, _, hRun, hEv, hOther, _, h2⟩ :=
    AggregateFutures_folds_in_list_order ExampleSum [0, 1, 2, 3, 4, 5, 6, 7, 8, 9] 0
      ExampleScopedInputs
      (fun i State _ hS => by
        have hmem : State ∈ ExampleScopedInputs.Inputs := StagedExecution.mem_of_getElem?_some hS
        have hall : ∀ S ∈ ExampleScopedInputs.Inputs, S.CompletionCallback = none := by
          intro S hSm
          simp only [ExampleScopedInputs, List.mem_cons, List.mem_singleton,
            List.not_mem_nil, or_false] at hSm
          rcases hSm with h | h | h | h | h | h | h | h | h | h <;> rw [h]
        exact hall State hmem)
      (by decide) ExampleDrops (by decide) (by decide)
  refine ⟨Agg, w1, w2, hA, h1 ⟨0, by decide, by decide⟩, hRun, ?_⟩
  have e0 := hEv (0, ScopedPromiseResult none) (by decide)
  have e2 := hEv (2, ScopedPromiseResult none) (by decide)
  have e4 := hEv (4, ScopedPromiseResult none) (by decide)
  have e6 := hEv (6, ScopedPromiseResult none) (by decide)
  have e8 := hEv (8, ScopedPromiseResult none) (by decide)
  have o1 := hOther 1 (by decide)
  have o3 := hOther 3 (by decide)
  have o5 := hOther 5 (by decide)
  have o7 := hOther 7 (by decide)
  have o9 := hOther 9 (by decide)
  exact h2 [ScopedPromiseResult none, .ok 1, ScopedPromiseResult none, .ok 3,
      ScopedPromiseResult none, .ok 5, ScopedPromiseResult none, .ok 7,
      ScopedPromiseResult none, .ok 9]
    (by
      simp only [List.map_cons, List.map_nil, e0, e2, e4, e6, e8, o1, o3, o5, o7, o9]
      rfl)

end Zkz

namespace Zkz

/-! ## Scoped assignment (`RAII.h`) -/

theorem AssignmentObject_eq {T : Type} (w : FAssignmentWorld T) (o : Nat) :
    w.Object o = (w.Objects[o]?).join := by
  unfold FAssignmentWorld.Object
  cases h : w.Objects[o]? with
  | none => rfl
  | some x => cases x <;> rfl

theorem AssignmentObject_lt {T : Type} {w : FAssignmentWorld T} {o : Nat} {a : TScopedAssignment T}
    (h : w.Object o = some a) : o < w.Objects.length := by
  rw [AssignmentObject_eq] at h
  by_contra hlt
  rw [List.getElem?_eq_none (Nat.le_of_not_lt hlt)] at h
  cases h

theorem AssignmentObject_getElem? {T : Type} {w : FAssignmentWorld T} {o : Nat} {a : TScopedAssignment T}
    (h : w.Object o = some a) : w.Objects[o]? = some (some a) := by
  rw [AssignmentObject_eq] at h
  cases hx : w.Objects[o]? with
  | none => rw [hx] at h; cases h
  | some x =>
    rw [hx] at h
    cases x with
    | none => cases h
    | some b =>
      have : b = a := Option.some.inj h
      rw [this]

/-- The object `o` of a world whose object list is `Objs` with `x` stored at `i`. -/
theorem AssignmentObject_set {T : Type} (V : List T) (Objs : List (Option (TScopedAssignment T)))
    (i o : Nat) (x : Option (TScopedAssignment T)) :
    FAssignmentWorld.Object (FAssignmentWorld.mk V (Objs.set i x)) o
      = if i = o ∧ i < Objs.length then x else FAssignmentWorld.Object (FAssignmentWorld.mk V Objs) o := by
  rw [AssignmentObject_eq, AssignmentObject_eq]
  simp only [List.getElem?_set]
  by_cases hio : i = o
  · subst hio
    by_cases hlt : i < Objs.length
    · simp [hlt]
    · simp [hlt, List.getElem?_eq_none (Nat.le_of_not_lt hlt)]
  · simp [hio]

/-- The object `o` of a world whose object list is `Objs` followed by `x`. -/
theorem AssignmentObject_append {T : Type} (V : List T) (Objs : List (Option (TScopedAssignment T)))
    (o : Nat) (x : Option (TScopedAssignment T)) :
    FAssignmentWorld.Object (FAssignmentWorld.mk V (Objs ++ [x])) o
      = if o = Objs.length then x else FAssignmentWorld.Object (FAssignmentWorld.mk V Objs) o := by
  rw [AssignmentObject_eq, AssignmentObject_eq]
  by_cases ho : o = Objs.length
  · subst ho
    simp
  · simp only [ho, if_false]
    by_cases hlt : o < Objs.length
    · rw [List.getElem?_append_left hlt]
    · have hge : Objs.length + 1 ≤ o := by omega
      rw [List.getElem?_eq_none (by simpa using hge),
        List.getElem?_eq_none (Nat.le_of_not_lt hlt)]

theorem AssignmentObject_Variables {T : Type} (V V' : List T)
    (Objs : List (Option (TScopedAssignment T))) (o : Nat) :
    FAssignmentWorld.Object (FAssignmentWorld.mk V Objs) o
      = FAssignmentWorld.Object (FAssignmentWorld.mk V' Objs) o := rfl

theorem getElem?_set_other {α : Type} (l : List α) (a : α) {p q : Nat} (h : q ≠ p) :
    (l.set q a)[p]? = l[p]? := by
  rw [List.getElem?_set]
  rw [if_neg h]

theorem Construct_IsHeldBy {T : Type} (w : FAssignmentWorld T) (Target : Nat)
    (Original NewValue : T) (hTarget : w.Variables[Target]? = some Original)
    (hNone : w.NoAssignmentTo Target) :
    ∃ w1, TScopedAssignment.Construct w Target NewValue = some (w.Objects.length, w1) ∧
      w1.Variables = w.Variables.set Target NewValue ∧
      w1.IsHeldBy Target w.Objects.length Original NewValue := by
  refine ⟨_, by unfold TScopedAssignment.Construct; rw [hTarget], rfl, ?_, ?_, ?_⟩
  · rw [AssignmentObject_append]
    simp
  · intro o a ho ha
    rw [AssignmentObject_append, if_neg ho] at ha
    exact hNone o a ha
  · show (w.Variables.set Target NewValue)[Target]? = some NewValue
    exact getElem?_set_eq' _ _ (getElem?_lt hTarget)

theorem Destruct_holder {T : Type} {w : FAssignmentWorld T} {Target Holder : Nat}
    {Original NewValue : T} (h : w.IsHeldBy Target Holder Original NewValue) :
    ∃ w1, TScopedAssignment.Destruct w Holder = some w1 ∧
      w1.Variables = w.Variables.set Target Original ∧
      w1.Variables[Target]? = some Original ∧ w1.NoAssignmentTo Target := by
  refine ⟨_, by unfold TScopedAssignment.Destruct; rw [h.holder], rfl, ?_, ?_⟩
  · show (w.Variables.set Target Original)[Target]? = some Original
    exact getElem?_set_eq' _ _ (getElem?_lt h.target)
  · intro o a ha
    rw [AssignmentObject_set] at ha
    by_cases ho : Holder = o ∧ Holder < w.Objects.length
    · rw [if_pos ho] at ha
      cases ha
    · rw [if_neg ho] at ha
      have hne : o ≠ Holder := by
        intro heq
        exact ho ⟨heq.symm, AssignmentObject_lt h.holder⟩
      exact h.others o a hne ha

/-! ### What one operation does to the objects and the variables -/

theorem Construct_spec {T : Type} {w : FAssignmentWorld T} {InTarget : Nat} {Original : T}
    (NewValue : T) (h : w.Variables[InTarget]? = some Original) :
    ∃ w1, TScopedAssignment.Construct w InTarget NewValue = some (w.Objects.length, w1) ∧
      w1.Variables = w.Variables.set InTarget NewValue ∧
      w1.Objects.length = w.Objects.length + 1 ∧
      ∀ x, w1.Object x = if x = w.Objects.length
        then some { Target := some InTarget, Value := Original } else w.Object x := by
  refine ⟨_, by unfold TScopedAssignment.Construct; rw [h], rfl, by simp, fun x => ?_⟩
  rw [AssignmentObject_append]
  rfl

theorem MoveConstruct_spec {T : Type} (MovedFrom : T → T) {w : FAssignmentWorld T} {Other : Nat}
    {a : TScopedAssignment T} (h : w.Object Other = some a) :
    ∃ w1, TScopedAssignment.MoveConstruct MovedFrom w Other = some (w.Objects.length, w1) ∧
      w1.Variables = w.Variables ∧
      w1.Objects.length = w.Objects.length + 1 ∧
      ∀ x, w1.Object x = if x = w.Objects.length
        then some { Target := a.Target, Value := a.Value }
        else if x = Other then some { Target := none, Value := MovedFrom a.Value }
        else w.Object x := by
  refine ⟨FAssignmentWorld.mk w.Variables
      ((w.Objects.set Other (some { Target := none, Value := MovedFrom a.Value }))
        ++ [some { Target := a.Target, Value := a.Value }]),
    by unfold TScopedAssignment.MoveConstruct; rw [h], rfl, by simp, fun x => ?_⟩
  rw [AssignmentObject_append, List.length_set, AssignmentObject_set]
  have hlt := AssignmentObject_lt h
  by_cases hx : x = w.Objects.length
  · rw [if_pos hx, if_pos hx]
  · rw [if_neg hx, if_neg hx]
    by_cases hxo : x = Other
    · rw [if_pos ⟨hxo.symm, hlt⟩, if_pos hxo]
    · rw [if_neg (fun hc => hxo hc.1.symm), if_neg hxo]

theorem Destruct_spec {T : Type} {w : FAssignmentWorld T} {This : Nat}
    {a : TScopedAssignment T} (h : w.Object This = some a) :
    ∃ w1, TScopedAssignment.Destruct w This = some w1 ∧
      (w1.Variables = match a.Target with
        | none => w.Variables
        | some Target => w.Variables.set Target a.Value) ∧
      w1.Objects.length = w.Objects.length ∧
      ∀ x, w1.Object x = if x = This then none else w.Object x := by
  have hlt := AssignmentObject_lt h
  have hobj : ∀ (V : List T) x,
      FAssignmentWorld.Object (FAssignmentWorld.mk V (w.Objects.set This none)) x
        = if x = This then none else w.Object x := by
    intro V x
    rw [AssignmentObject_set]
    by_cases hx : x = This
    · rw [if_pos ⟨hx.symm, hlt⟩, if_pos hx]
    · rw [if_neg (fun hc => hx hc.1.symm), if_neg hx]
      rfl
  unfold TScopedAssignment.Destruct
  rw [h]
  cases hT : a.Target with
  | none =>
    exact ⟨FAssignmentWorld.mk w.Variables (w.Objects.set This none),
      by simp only [hT], rfl, by simp, hobj _⟩
  | some Target =>
    exact ⟨FAssignmentWorld.mk (w.Variables.set Target a.Value) (w.Objects.set This none),
      by simp only [hT], rfl, by simp, hobj _⟩

theorem Swap_spec {T : Type} {w : FAssignmentWorld T} {Lhs Rhs : Nat}
    {L R : TScopedAssignment T} (hL : w.Object Lhs = some L) (hR : w.Object Rhs = some R) :
    ∃ w1, TScopedAssignment.Swap w Lhs Rhs = some w1 ∧
      w1.Variables = w.Variables ∧
      w1.Objects.length = w.Objects.length ∧
      ∀ x, w1.Object x = if x = Rhs then some L else if x = Lhs then some R else w.Object x := by
  have hltL := AssignmentObject_lt hL
  have hltR := AssignmentObject_lt hR
  refine ⟨FAssignmentWorld.mk w.Variables ((w.Objects.set Lhs (some R)).set Rhs (some L)),
    by unfold TScopedAssignment.Swap; rw [hL, hR], rfl, by simp, fun x => ?_⟩
  rw [AssignmentObject_set, List.length_set, AssignmentObject_set]
  by_cases hx : x = Rhs
  · rw [if_pos ⟨hx.symm, hltR⟩, if_pos hx]
  · rw [if_neg (fun hc => hx hc.1.symm), if_neg hx]
    by_cases hxl : x = Lhs
    · rw [if_pos ⟨hxl.symm, hltL⟩, if_pos hxl]
    · rw [if_neg (fun hc => hxl hc.1.symm), if_neg hxl]

theorem MoveConstruct_alive {T : Type} (MovedFrom : T → T) {w : FAssignmentWorld T} {Other : Nat}
    {r : Nat × FAssignmentWorld T}
    (h : TScopedAssignment.MoveConstruct MovedFrom w Other = some r) :
    ∃ a, w.Object Other = some a := by
  unfold TScopedAssignment.MoveConstruct at h
  cases ha : w.Object Other with
  | none => rw [ha] at h; cases h
  | some a => exact ⟨a, rfl⟩

theorem Destruct_alive {T : Type} {w w1 : FAssignmentWorld T} {This : Nat}
    (h : TScopedAssignment.Destruct w This = some w1) : ∃ a, w.Object This = some a := by
  unfold TScopedAssignment.Destruct at h
  cases ha : w.Object This with
  | none => rw [ha] at h; cases h
  | some a => exact ⟨a, rfl⟩

theorem Swap_alive {T : Type} {w w1 : FAssignmentWorld T} {Lhs Rhs : Nat}
    (h : TScopedAssignment.Swap w Lhs Rhs = some w1) :
    ∃ L R, w.Object Lhs = some L ∧ w.Object Rhs = some R := by
  unfold TScopedAssignment.Swap at h
  cases hL : w.Object Lhs with
  | none => rw [hL] at h; cases h
  | some L =>
    cases hR : w.Object Rhs with
    | none => rw [hL, hR] at h; cases h
    | some R => exact ⟨L, R, rfl, rfl⟩

/-- Move assignment: the parameter takes the assignment of `Other`, is swapped with `This`
and restores, when it is destroyed, what `This` held before. -/
theorem MoveAssign_spec {T : Type} (MovedFrom : T → T) {w w3 : FAssignmentWorld T}
    {This Other : Nat} (h : TScopedAssignment.MoveAssign MovedFrom w This Other = some w3) :
    ∃ a b, w.Object Other = some a ∧ w.Object This = some b ∧
      (w3.Variables = if This = Other then w.Variables else
        match b.Target with
        | none => w.Variables
        | some Target => w.Variables.set Target b.Value) ∧
      ∀ x, w3.Object x = if x = w.Objects.length then none
        else if x = This then some { Target := a.Target, Value := a.Value }
        else if x = Other then some { Target := none, Value := MovedFrom a.Value }
        else w.Object x := by
  obtain ⟨b, hb⟩ : ∃ b, w.Object This = some b := by
    unfold TScopedAssignment.MoveAssign at h
    cases hb : w.Object This with
    | none => rw [hb] at h; cases h
    | some b => exact ⟨b, rfl⟩
  unfold TScopedAssignment.MoveAssign at h
  rw [hb] at h
  simp only at h
  cases hm : TScopedAssignment.MoveConstruct MovedFrom w Other with
  | none => rw [hm] at h; cases h
  | some r =>
    obtain ⟨a, ha⟩ := MoveConstruct_alive MovedFrom hm
    obtain ⟨w1, hm1, hV1, hlen1, hO1⟩ := MoveConstruct_spec MovedFrom ha
    rw [hm1] at h
    simp only at h
    cases hs : TScopedAssignment.Swap w1 This w.Objects.length with
    | none => rw [hs] at h; cases h
    | some w2 =>
      rw [hs] at h
      simp only at h
      obtain ⟨L, R, hL, hR⟩ := Swap_alive hs
      obtain ⟨w2', hs2, hV2, hlen2, hO2⟩ := Swap_spec hL hR
      rw [hs] at hs2
      cases Option.some.inj hs2
      obtain ⟨w3', hd3, hV3, hlen3, hO3⟩ := Destruct_spec
        (show w2.Object w.Objects.length = some L by rw [hO2, if_pos rfl])
      rw [h] at hd3
      cases Option.some.inj hd3
      have hR' : R = { Target := a.Target, Value := a.Value } := by
        rw [hO1, if_pos rfl] at hR
        exact (Option.some.inj hR).symm
      have hThis : This ≠ w.Objects.length := Nat.ne_of_lt (AssignmentObject_lt hb)
      rw [hO1, if_neg hThis] at hL
      by_cases hTO : This = Other
      · subst hTO
        rw [if_pos rfl] at hL
        have hLe : L = { Target := none, Value := MovedFrom a.Value } := (Option.some.inj hL).symm
        refine ⟨a, a, ha, ha, ?_, ?_⟩
        · rw [if_pos rfl, hV3, hLe, hV2, hV1]
        · intro x
          rw [hO3, hO2, hO1, hR']
          by_cases hx : x = w.Objects.length
          · rw [if_pos hx, if_pos hx]
          · simp only [hx, if_false]
      · rw [if_neg hTO, hb] at hL
        cases Option.some.inj hL
        refine ⟨a, b, ha, hb, ?_, ?_⟩
        · rw [if_neg hTO, hV3, hV2, hV1]
        · intro x
          rw [hO3, hO2, hO1, hR']
          by_cases hx : x = w.Objects.length
          · rw [if_pos hx, if_pos hx]
          · simp only [hx, if_false]

/-! ### The assignment while it is held and after it was restored -/

theorem Variables_Destruct_other {T : Type} {w w1 : FAssignmentWorld T} {Target : Nat}
    {a : TScopedAssignment T} (ha : a.Target ≠ some Target)
    (hV : w1.Variables = match a.Target with
      | none => w.Variables
      | some Target => w.Variables.set Target a.Value) :
    w1.Variables[Target]? = w.Variables[Target]? := by
  rw [hV]
  cases hT : a.Target with
  | none => rfl
  | some t2 =>
    simp only
    apply getElem?_set_other
    intro hc
    apply ha
    rw [hT, hc]

theorem Apply_IsHeldBy {T : Type} (MovedFrom : T → T) {w w1 : FAssignmentWorld T}
    {Target Holder : Nat} {Original NewValue : T} (Op : FAssignmentOp T)
    (h : w.IsHeldBy Target Holder Original NewValue) (hk : Op.Keeps Target Holder = true)
    (hA : w.Apply MovedFrom Op = some w1) :
    w1.IsHeldBy Target (Op.Holder w Holder) Original NewValue := by
  have hH := AssignmentObject_lt h.holder
  cases Op with
  | Construct InTarget Value =>
    have hne : InTarget ≠ Target := by simpa [FAssignmentOp.Keeps] using hk
    simp only [FAssignmentWorld.Apply] at hA
    cases hv : w.Variables[InTarget]? with
    | none =>
      unfold TScopedAssignment.Construct at hA
      rw [hv] at hA
      cases hA
    | some Old =>
      obtain ⟨w2, hc, hV, _, hO⟩ := Construct_spec Value hv
      rw [hc] at hA
      cases Option.some.inj hA
      refine ⟨?_, ?_, ?_⟩
      · show w2.Object Holder = _
        rw [hO, if_neg (Nat.ne_of_lt hH)]
        exact h.holder
      · intro o a ho hoa
        change o ≠ Holder at ho
        rw [hO] at hoa
        by_cases hx : o = w.Objects.length
        · rw [if_pos hx] at hoa
          cases Option.some.inj hoa
          intro hc
          exact hne (Option.some.inj hc)
        · rw [if_neg hx] at hoa
          exact h.others o a ho hoa
      · show w2.Variables[Target]? = _
        rw [hV, getElem?_set_other _ _ hne]
        exact h.target
  | MoveConstruct Other =>
    simp only [FAssignmentWorld.Apply] at hA
    cases hm : TScopedAssignment.MoveConstruct MovedFrom w Other with
    | none => rw [hm] at hA; cases hA
    | some r =>
      obtain ⟨a, ha⟩ := MoveConstruct_alive MovedFrom hm
      obtain ⟨w2, hc, hV, _, hO⟩ := MoveConstruct_spec MovedFrom ha
      rw [hc] at hA
      cases Option.some.inj hA
      have hOther := AssignmentObject_lt ha
      by_cases hOH : Other = Holder
      · subst hOH
        rw [h.holder] at ha
        cases Option.some.inj ha
        refine ⟨?_, ?_, ?_⟩
        · show w2.Object (if Other = Other then w.Objects.length else Other) = _
          rw [if_pos rfl, hO, if_pos rfl]
        · intro o a ho hoa
          change o ≠ (if Other = Other then w.Objects.length else Other) at ho
          rw [if_pos rfl] at ho
          rw [hO, if_neg ho] at hoa
          by_cases hx : o = Other
          · rw [if_pos hx] at hoa
            cases Option.some.inj hoa
            intro hc
            cases hc
          · rw [if_neg hx] at hoa
            exact h.others o a hx hoa
        · show w2.Variables[Target]? = _
          rw [hV]
          exact h.target
      · have haT := h.others Other a hOH ha
        refine ⟨?_, ?_, ?_⟩
        · show w2.Object (if Other = Holder then w.Objects.length else Holder) = _
          rw [if_neg hOH, hO, if_neg (Nat.ne_of_lt hH), if_neg (Ne.symm hOH)]
          exact h.holder
        · intro o b ho hob
          change o ≠ (if Other = Holder then w.Objects.length else Holder) at ho
          rw [if_neg hOH] at ho
          rw [hO] at hob
          by_cases hx : o = w.Objects.length
          · rw [if_pos hx] at hob
            cases Option.some.inj hob
            exact haT
          · rw [if_neg hx] at hob
            by_cases hxo : o = Other
            · rw [if_pos hxo] at hob
              cases Option.some.inj hob
              intro hc
              cases hc
            · rw [if_neg hxo] at hob
              exact h.others o b ho hob
        · show w2.Variables[Target]? = _
          rw [hV]
          exact h.target
  | MoveAssign This Other =>
    have himp : This = Holder → Other = Holder := of_decide_eq_true hk
    simp only [FAssignmentWorld.Apply] at hA
    obtain ⟨a, b, ha, hb, hV, hO⟩ := MoveAssign_spec MovedFrom hA
    have hThis := AssignmentObject_lt hb
    by_cases hOH : Other = Holder
    · subst hOH
      rw [h.holder] at ha
      cases Option.some.inj ha
      refine ⟨?_, ?_, ?_⟩
      · show w1.Object (if Other = Other then This else Other) = _
        rw [if_pos rfl, hO, if_neg (Nat.ne_of_lt hThis), if_pos rfl]
      · intro o c ho hoc
        change o ≠ (if Other = Other then This else Other) at ho
        rw [if_pos rfl] at ho
        rw [hO] at hoc
        by_cases hx : o = w.Objects.length
        · rw [if_pos hx] at hoc
          cases hoc
        · rw [if_neg hx, if_neg ho] at hoc
          by_cases hxo : o = Other
          · rw [if_pos hxo] at hoc
            cases Option.some.inj hoc
            intro hc
            cases hc
          · rw [if_neg hxo] at hoc
            exact h.others o c hxo hoc
      · rw [hV]
        by_cases hTO : This = Other
        · rw [if_pos hTO]
          exact h.target
        · rw [if_neg hTO]
          exact (@Variables_Destruct_other T w (FAssignmentWorld.mk _ []) Target b
            (h.others This b hTO hb) rfl).trans h.target
    · have hTH : This ≠ Holder := fun hc => hOH (himp hc)
      have haT := h.others Other a hOH ha
      have hbT := h.others This b hTH hb
      refine ⟨?_, ?_, ?_⟩
      · show w1.Object (if Other = Holder then This else Holder) = _
        rw [if_neg hOH, hO, if_neg (Nat.ne_of_lt hH), if_neg (Ne.symm hTH),
          if_neg (Ne.symm hOH)]
        exact h.holder
      · intro o c ho hoc
        change o ≠ (if Other = Holder then This else Holder) at ho
        rw [if_neg hOH] at ho
        rw [hO] at hoc
        by_cases hx : o = w.Objects.length
        · rw [if_pos hx] at hoc
          cases hoc
        · rw [if_neg hx] at hoc
          by_cases hxt : o = This
          · rw [if_pos hxt] at hoc
            cases Option.some.inj hoc
            exact haT
          · rw [if_neg hxt] at hoc
            by_cases hxo : o = Other
            · rw [if_pos hxo] at hoc
              cases Option.some.inj hoc
              intro hc
              cases hc
            · rw [if_neg hxo] at hoc
              exact h.others o c ho hoc
      · rw [hV]
        by_cases hTO : This = Other
        · rw [if_pos hTO]
          exact h.target
        · rw [if_neg hTO]
          exact (@Variables_Destruct_other T w (FAssignmentWorld.mk _ []) Target b
            hbT rfl).trans h.target
  | Destruct This =>
    have hne : This ≠ Holder := by simpa [FAssignmentOp.Keeps] using hk
    simp only [FAssignmentWorld.Apply] at hA
    obtain ⟨a, ha⟩ := Destruct_alive hA
    obtain ⟨w2, hd, hV, _, hO⟩ := Destruct_spec ha
    rw [hd] at hA
    cases Option.some.inj hA
    refine ⟨?_, ?_, ?_⟩
    · show w1.Object Holder = _
      rw [hO, if_neg (Ne.symm hne)]
      exact h.holder
    · intro o c ho hoc
      change o ≠ Holder at ho
      rw [hO] at hoc
      by_cases hx : o = This
      · rw [if_pos hx] at hoc
        cases hoc
      · rw [if_neg hx] at hoc
        exact h.others o c ho hoc
    · exact (Variables_Destruct_other (h.others This a hne ha) hV).trans h.target

theorem Apply_IsRestored {T : Type} (MovedFrom : T → T) {w w1 : FAssignmentWorld T}
    {Target : Nat} {Value : T} (Op : FAssignmentOp T) (h : w.IsRestored Target Value)
    (hk : ∀ InTarget NewValue, Op = .Construct InTarget NewValue → InTarget ≠ Target)
    (hA : w.Apply MovedFrom Op = some w1) : w1.IsRestored Target Value := by
  cases Op with
  | Construct InTarget NewValue =>
    have hne : InTarget ≠ Target := hk InTarget NewValue rfl
    simp only [FAssignmentWorld.Apply] at hA
    cases hv : w.Variables[InTarget]? with
    | none =>
      unfold TScopedAssignment.Construct at hA
      rw [hv] at hA
      cases hA
    | some Old =>
      obtain ⟨w2, hc, hV, _, hO⟩ := Construct_spec NewValue hv
      rw [hc] at hA
      cases Option.some.inj hA
      refine ⟨?_, ?_⟩
      · intro o a hoa
        change w2.Object o = some a at hoa
        rw [hO] at hoa
        by_cases hx : o = w.Objects.length
        · rw [if_pos hx] at hoa
          cases Option.some.inj hoa
          intro hc
          exact hne (Option.some.inj hc)
        · rw [if_neg hx] at hoa
          exact h.free o a hoa
      · show w2.Variables[Target]? = _
        rw [hV, getElem?_set_other _ _ hne]
        exact h.target
  | MoveConstruct Other =>
    simp only [FAssignmentWorld.Apply] at hA
    cases hm : TScopedAssignment.MoveConstruct MovedFrom w Other with
    | none => rw [hm] at hA; cases hA
    | some r =>
      obtain ⟨a, ha⟩ := MoveConstruct_alive MovedFrom hm
      obtain ⟨w2, hc, hV, _, hO⟩ := MoveConstruct_spec MovedFrom ha
      rw [hc] at hA
      cases Option.some.inj hA
      refine ⟨?_, ?_⟩
      · intro o b hob
        change w2.Object o = some b at hob
        rw [hO] at hob
        by_cases hx : o = w.Objects.length
        · rw [if_pos hx] at hob
          cases Option.some.inj hob
          exact h.free Other a ha
        · rw [if_neg hx] at hob
          by_cases hxo : o = Other
          · rw [if_pos hxo] at hob
            cases Option.some.inj hob
            intro hc
            cases hc
          · rw [if_neg hxo] at hob
            exact h.free o b hob
      · show w2.Variables[Target]? = _
        rw [hV]
        exact h.target
  | MoveAssign This Other =>
    simp only [FAssignmentWorld.Apply] at hA
    obtain ⟨a, b, ha, hb, hV, hO⟩ := MoveAssign_spec MovedFrom hA
    refine ⟨?_, ?_⟩
    · intro o c hoc
      rw [hO] at hoc
      by_cases hx : o = w.Objects.length
      · rw [if_pos hx] at hoc
        cases hoc
      · rw [if_neg hx] at hoc
        by_cases hxt : o = This
        · rw [if_pos hxt] at hoc
          cases Option.some.inj hoc
          exact h.free Other a ha
        · rw [if_neg hxt] at hoc
          by_cases hxo : o = Other
          · rw [if_pos hxo] at hoc
            cases Option.some.inj hoc
            intro hc
            cases hc
          · rw [if_neg hxo] at hoc
            exact h.free o c hoc
    · rw [hV]
      by_cases hTO : This = Other
      · rw [if_pos hTO]
        exact h.target
      · rw [if_neg hTO]
        exact (@Variables_Destruct_other T w (FAssignmentWorld.mk _ []) Target b
          (h.free This b hb) rfl).trans h.target
  | Destruct This =>
    simp only [FAssignmentWorld.Apply] at hA
    obtain ⟨a, ha⟩ := Destruct_alive hA
    obtain ⟨w2, hd, hV, _, hO⟩ := Destruct_spec ha
    rw [hd] at hA
    cases Option.some.inj hA
    refine ⟨?_, ?_⟩
    · intro o c hoc
      rw [hO] at hoc
      by_cases hx : o = This
      · rw [if_pos hx] at hoc
        cases hoc
      · rw [if_neg hx] at hoc
        exact h.free o c hoc
    · exact (Variables_Destruct_other (h.free This a ha) hV).trans h.target

theorem HolderAfter_IsHeldBy {T : Type} (MovedFrom : T → T) {Target : Nat}
    {Original NewValue : T} :
    ∀ (Ops : List (FAssignmentOp T)) (w : FAssignmentWorld T) (Holder Holder' : Nat)
      (w' : FAssignmentWorld T), w.IsHeldBy Target Holder Original NewValue →
      w.HolderAfter MovedFrom Target Holder Ops = some (Holder', w') →
      w'.IsHeldBy Target Holder' Original NewValue := by
  intro Ops
  induction Ops with
  | nil =>
    intro w Holder Holder' w' h hr
    simp only [FAssignmentWorld.HolderAfter] at hr
    cases hr
    exact h
  | cons Op Ops ih =>
    intro w Holder Holder' w' h hr
    simp only [FAssignmentWorld.HolderAfter] at hr
    by_cases hk : Op.Keeps Target Holder = true
    · rw [if_pos hk] at hr
      cases hA : w.Apply MovedFrom Op with
      | none => rw [hA] at hr; cases hr
      | some w1 =>
        rw [hA] at hr
        exact ih w1 _ Holder' w' (Apply_IsHeldBy MovedFrom Op h hk hA) hr
    · rw [if_neg hk] at hr
      cases hr

theorem Run_IsRestored {T : Type} (MovedFrom : T → T) {Target : Nat} {Value : T} :
    ∀ (Ops : List (FAssignmentOp T)) (w w' : FAssignmentWorld T), w.IsRestored Target Value →
      ConstructsNoAssignmentTo Target Ops → w.Run MovedFrom Ops = some w' →
      w'.IsRestored Target Value := by
  intro Ops
  induction Ops with
  | nil =>
    intro w w' h _ hr
    cases hr
    exact h
  | cons Op Ops ih =>
    intro w w' h hc hr
    unfold FAssignmentWorld.Run at hr
    rw [List.foldlM_cons] at hr
    cases hA : w.Apply MovedFrom Op with
    | none => rw [hA] at hr; cases hr
    | some w1 =>
      rw [hA] at hr
      refine ih w1 w' (Apply_IsRestored MovedFrom Op h ?_ hA) ?_ hr
      · intro InTarget NewValue hOp
        exact hc InTarget NewValue (by rw [hOp]; exact List.mem_cons_self _ _)
      · intro InTarget NewValue hmem
        exact hc InTarget NewValue (List.mem_cons_of_mem _ hmem)

theorem set_set_original {α : Type} (l : List α) (i : Nat) (a b : α) (h : l[i]? = some a) :
    (l.set i b).set i a = l := by
  rw [List.set_set]
  apply List.ext_getElem?
  intro j
  rw [List.getElem?_set]
  by_cases hij : i = j
  · subst hij
    rw [if_pos rfl, if_pos (getElem?_lt h), h]
  · rw [if_neg hij]

theorem NoAssignmentTo_nil {T : Type} (V : List T) (Target : Nat) :
    (FAssignmentWorld.mk V []).NoAssignmentTo Target := by
  intro o a h
  rw [AssignmentObject_eq] at h
  simp at h

/-- C31. `TScopedAssignment` restores the original value. Constructing an assignment to a
variable that no live assignment object targets sets the variable to the new value and
leaves the other variables alone; destroying the object at once gives back the variables as
they were. After any operations that leave the assignment alone (move constructions, move
assignments and destructions of other objects, moves of the holder itself, among them the
destruction of every moved-from object) the variable still holds the new value; destroying
the object that the assignment was last moved into then writes the original value back, and
no later operation on the remaining objects changes it again. -/
theorem ScopedAssignment_restores_original_value {T : Type} (MovedFrom : T → T)
    (w : FAssignmentWorld T) (Target : Nat) (Original NewValue : T)
    (hTarget : w.Variables[Target]? = some Original) (hNone : w.NoAssignmentTo Target) :
    ∃ This w1, TScopedAssignment.Construct w Target NewValue = some (This, w1) ∧
      w1.Variables = w.Variables.set Target NewValue ∧
      w1.Variables[Target]? = some NewValue ∧
      (∃ w2, TScopedAssignment.Destruct w1 This = some w2 ∧ w2.Variables = w.Variables) ∧
      ∀ Ops Holder w2, w1.HolderAfter MovedFrom Target This Ops = some (Holder, w2) →
        w2.Variables[Target]? = some NewValue ∧
        ∃ w3, TScopedAssignment.Destruct w2 Holder = some w3 ∧
          w3.Variables = w2.Variables.set Target Original ∧
          w3.Variables[Target]? = some Original ∧
          ∀ Rest w4, ConstructsNoAssignmentTo Target Rest →
            w3.Run MovedFrom Rest = some w4 → w4.Variables[Target]? = some Original := by
  obtain ⟨w1, hc, hV, hH⟩ := Construct_IsHeldBy w Target Original NewValue hTarget hNone
  refine ⟨_, w1, hc, hV, hH.target, ?_, ?_⟩
  · obtain ⟨w2, hd, hV2, _, _⟩ := Destruct_holder hH
    exact ⟨w2, hd, by rw [hV2, hV, set_set_original _ _ _ _ hTarget]⟩
  · intro Ops Holder w2 hr
    have hH2 := HolderAfter_IsHeldBy MovedFrom Ops w1 _ Holder w2 hH hr
    obtain ⟨w3, hd, hV3, hT3, hN3⟩ := Destruct_holder hH2
    refine ⟨hH2.target, w3, hd, hV3, hT3, ?_⟩
    intro Rest w4 hRest hrun
    exact (Run_IsRestored MovedFrom Rest w3 w4 ⟨hN3, hT3⟩ hRest hrun).target

/-- C31, witness: the variable `I = 42` of the tests in `RAIITest.cpp`, assigned 666. -/
theorem ScopedAssignment_restores_original_value_witness :
    (FAssignmentWorld.mk [(42 : Int)] []).Variables[0]? = some 42 ∧
    (FAssignmentWorld.mk [(42 : Int)] []).NoAssignmentTo 0 ∧
    ∃ This w1, TScopedAssignment.Construct (FAssignmentWorld.mk [(42 : Int)] []) 0 666
        = some (This, w1) ∧
      w1.Variables = [(42 : Int)].set 0 666 ∧
      w1.Variables[0]? = some 666 ∧
      (∃ w2, TScopedAssignment.Destruct w1 This = some w2 ∧ w2.Variables = [42]) ∧
      ∀ Ops Holder w2, w1.HolderAfter id 0 This Ops = some (Holder, w2) →
        w2.Variables[0]? = some 666 ∧
        ∃ w3, TScopedAssignment.Destruct w2 Holder = some w3 ∧
          w3.Variables = w2.Variables.set 0 42 ∧
          w3.Variables[0]? = some 42 ∧
          ∀ Rest w4, ConstructsNoAssignmentTo 0 Rest →
            w3.Run id Rest = some w4 → w4.Variables[0]? = some 42 :=
  ⟨rfl, NoAssignmentTo_nil _ _,
    ScopedAssignment_restores_original_value id (FAssignmentWorld.mk [(42 : Int)] []) 0 42 666
      rfl (NoAssignmentTo_nil _ _)⟩

/-- The test `ScopedAssignmentIsMoveable`: after the move and the destruction of
`InnerAssignment` the variable holds 666 and the new object holds the assignment; destroying
that object restores 42. -/
theorem ScopedAssignmentIsMoveable :
    (FAssignmentWorld.HolderAfter id 0 (FAssignmentWorld.mk [(666 : Int)] [some ⟨some 0, 42⟩]) 0
        ExampleMoveOps).map (fun r => (r.1, r.2.Variables)) = some (1, [666]) ∧
    ((FAssignmentWorld.Run id (FAssignmentWorld.mk [(42 : Int)] [])
        [.Construct 0 666, .MoveConstruct 0, .Destruct 0, .Destruct 1]).map
      (fun r => r.Variables)) = some [42] :=
  ⟨rfl, rfl⟩

end Zkz

namespace Zkz.StagedExecution

/-! ## Termination of the cycle search -/

theorem CheckDependencyCycleLoopCalls_fst
    (Recurse' : FCycle → Option ((Bool × FCycle) × List FCycle))
    (Recurse : FCycle → Option (Bool × FCycle))
    (h : ∀ C, (Recurse' C).map Prod.fst = Recurse C) :
    ∀ (Ps : List IdType) (C : FCycle),
      (CheckDependencyCycleLoopCalls Recurse' Ps C).map Prod.fst
        = CheckDependencyCycleLoop Recurse Ps C := by
  intro Ps
  induction Ps with
  | nil => intro C; rfl
  | cons q Rest ih =>
    intro C
    unfold CheckDependencyCycleLoopCalls CheckDependencyCycleLoop
    by_cases hq : q ∈ C
    · simp only [hq, if_true]
      rfl
    · simp only [hq, if_false]
      rw [← h (C ++ [q])]
      cases hr : Recurse' (C ++ [q]) with
      | none => rfl
      | some r =>
        obtain ⟨⟨b, C'⟩, Calls⟩ := r
        cases b with
        | true => rfl
        | false =>
          simp only [Option.map_some']
          rw [← ih C'.dropLast]
          cases CheckDependencyCycleLoopCalls Recurse' Rest C'.dropLast with
          | none => rfl
          | some r2 => rfl

/-- Without the recorded stacks, `CheckDependencyCycleCallsFuel` is
`CheckDependencyCycleFuel`. -/
theorem CheckDependencyCycleCallsFuel_fst (M : FPrerequisitesByStageId) :
    ∀ (Fuel : Nat) (Cycle : FCycle),
      (CheckDependencyCycleCallsFuel M Fuel Cycle).map Prod.fst
        = CheckDependencyCycleFuel M Fuel Cycle := by
  intro Fuel
  induction Fuel with
  | zero => intro Cycle; rfl
  | succ Fuel ih =>
    intro Cycle
    unfold CheckDependencyCycleCallsFuel CheckDependencyCycleFuel
    cases hl : Cycle.getLast? with
    | none => rfl
    | some Last =>
      simp only
      cases hf : M.Find Last with
      | none => rfl
      | some Ps =>
        simp only
        rw [← CheckDependencyCycleLoopCalls_fst _ _ ih Ps Cycle]
        cases CheckDependencyCycleLoopCalls (CheckDependencyCycleCallsFuel M Fuel) Ps Cycle with
        | none => rfl
        | some r => rfl

theorem CheckDependencyCycleLoop_mono (Recurse Recurse' : FCycle → Option (Bool × FCycle))
    (h : ∀ C r, Recurse C = some r → Recurse' C = some r) :
    ∀ (Ps : List IdType) (C : FCycle) (r : Bool × FCycle),
      CheckDependencyCycleLoop Recurse Ps C = some r →
      CheckDependencyCycleLoop Recurse' Ps C = some r := by
  intro Ps
  induction Ps with
  | nil => intro C r hr; exact hr
  | cons q Rest ih =>
    intro C r hr
    unfold CheckDependencyCycleLoop at hr ⊢
    by_cases hq : q ∈ C
    · simp only [hq, if_true] at hr ⊢
      exact hr
    · simp only [hq, if_false] at hr ⊢
      cases hrec : Recurse (C ++ [q]) with
      | none => rw [hrec] at hr; cases hr
      | some r1 =>
        rw [hrec] at hr
        rw [h _ _ hrec]
        obtain ⟨b, C'⟩ := r1
        cases b with
        | true => exact hr
        | false => exact ih _ _ hr

/-- A larger budget gives the same result. -/
theorem CheckDependencyCycleFuel_mono (M : FPrerequisitesByStageId) :
    ∀ (Fuel Fuel' : Nat) (Cycle : FCycle) (r : Bool × FCycle), Fuel ≤ Fuel' →
      CheckDependencyCycleFuel M Fuel Cycle = some r →
      CheckDependencyCycleFuel M Fuel' Cycle = some r := by
  intro Fuel
  induction Fuel with
  | zero => intro Fuel' Cycle r _ hr; cases hr
  | succ Fuel ih =>
    intro Fuel' Cycle r hle hr
    obtain ⟨Fuel'', rfl⟩ : ∃ k, Fuel' = k + 1 := ⟨Fuel' - 1, by omega⟩
    unfold CheckDependencyCycleFuel at hr ⊢
    cases hl : Cycle.getLast? with
    | none => rw [hl] at hr; exact hr
    | some Last =>
      rw [hl] at hr
      simp only at hr ⊢
      cases hf : M.Find Last with
      | none => rw [hf] at hr; exact hr
      | some Ps =>
        rw [hf] at hr
        simp only at hr ⊢
        exact CheckDependencyCycleLoop_mono _ _
          (fun C r1 h1 => ih Fuel'' C r1 (by omega) h1) Ps Cycle r hr

theorem mem_Ids_of_Find {M : FPrerequisitesByStageId} {x q : IdType} {Ps : List IdType}
    (h : M.Find x = some Ps) (hq : q ∈ Ps) : q ∈ M.Ids := by
  unfold FPrerequisitesByStageId.Ids
  rw [List.mem_dedup, List.mem_append]
  right
  rw [List.mem_flatten]
  exact ⟨Ps, List.mem_map.2 ⟨(x, Ps), mem_keys_of_Find h, rfl⟩, hq⟩

theorem IsPushedFrom_refl (M : FPrerequisitesByStageId) (Cycle : FCycle) :
    IsPushedFrom M Cycle Cycle :=
  ⟨[], by simp, List.nodup_nil, fun x hx => absurd hx (List.not_mem_nil x)⟩

theorem IsPushedFrom_push {M : FPrerequisitesByStageId} {Cycle Stack : FCycle} {q : IdType}
    (h : IsPushedFrom M Cycle Stack) (hq : q ∉ Stack) (hM : q ∈ M.Ids) :
    IsPushedFrom M Cycle (Stack ++ [q]) := by
  obtain ⟨Pushed, hS, hN, hP⟩ := h
  subst hS
  refine ⟨Pushed ++ [q], by simp, ?_, ?_⟩
  · rw [List.nodup_append]
    refine ⟨hN, List.nodup_singleton q, ?_⟩
    intro x hx hx'
    rw [List.mem_singleton] at hx'
    subst hx'
    exact hq (List.mem_append_right _ hx)
  · intro x hx
    rcases List.mem_append.1 hx with h1 | h1
    · exact hP x h1
    · rw [List.mem_singleton] at h1
      subst h1
      exact ⟨fun hc => hq (List.mem_append_left _ hc), hM⟩

theorem IsPushedFrom_length {M : FPrerequisitesByStageId} {Cycle Stack : FCycle}
    (h : IsPushedFrom M Cycle Stack) : Stack.length ≤ M.Ids.length + Cycle.length := by
  obtain ⟨Pushed, hS, hN, hP⟩ := h
  subst hS
  have := (List.subperm_of_subset hN (fun x hx => (hP x hx).2)).length_le
  rw [List.length_append]
  omega

theorem CheckDependencyCycleLoopCalls_pushed (M : FPrerequisitesByStageId) (Cycle : FCycle)
    (Recurse : FCycle → Option ((Bool × FCycle) × List FCycle)) (Stack : FCycle) :
    ∀ (Ps : List IdType),
      (∀ q, q ∈ Ps → q ∉ Stack → ∀ r Calls, Recurse (Stack ++ [q]) = some (r, Calls) →
        (r.1 = false → r.2 = Stack ++ [q]) ∧ ∀ S ∈ Calls, IsPushedFrom M Cycle S) →
      ∀ r Calls, CheckDependencyCycleLoopCalls Recurse Ps Stack = some (r, Calls) →
        (r.1 = false → r.2 = Stack) ∧ ∀ S ∈ Calls, IsPushedFrom M Cycle S := by
  intro Ps
  induction Ps with
  | nil =>
    intro _ r Calls h
    unfold CheckDependencyCycleLoopCalls at h
    cases Option.some.inj h
    exact ⟨fun _ => rfl, fun S hS => absurd hS (List.not_mem_nil S)⟩
  | cons q Rest ih =>
    intro hrec r Calls h
    unfold CheckDependencyCycleLoopCalls at h
    by_cases hq : q ∈ Stack
    · simp only [hq, if_true] at h
      cases Option.some.inj h
      exact ⟨fun hc => Bool.noConfusion hc, fun S hS => absurd hS (List.not_mem_nil S)⟩
    · simp only [hq, if_false] at h
      cases hr : Recurse (Stack ++ [q]) with
      | none => rw [hr] at h; cases h
      | some r1 =>
        obtain ⟨⟨b, C'⟩, Calls1⟩ := r1
        rw [hr] at h
        obtain ⟨hC', hCalls1⟩ := hrec q (List.mem_cons_self _ _) hq _ _ hr
        cases b with
        | true =>
          simp only at h
          cases Option.some.inj h
          exact ⟨fun hc => Bool.noConfusion hc, hCalls1⟩
        | false =>
          simp only at h
          have hC'' : C' = Stack ++ [q] := hC' rfl
          rw [hC'', List.dropLast_concat] at h
          cases hl : CheckDependencyCycleLoopCalls Recurse Rest Stack with
          | none => rw [hl] at h; cases h
          | some r2 =>
            obtain ⟨Result, MoreCalls⟩ := r2
            rw [hl] at h
            simp only at h
            have e1 : Result = r := congrArg Prod.fst (Option.some.inj h)
            have e2 : Calls1 ++ MoreCalls = Calls := congrArg Prod.snd (Option.some.inj h)
            obtain ⟨h1, h2⟩ := ih
              (fun q' hq' => hrec q' (List.mem_cons_of_mem _ hq')) Result MoreCalls hl
            rw [← e1, ← e2]
            refine ⟨h1, ?_⟩
            intro S hS
            rcases List.mem_append.1 hS with hS | hS
            · exact hCalls1 S hS
            · exact h2 S hS

/-- Every call of the search is entered with a stack that was reached from the starting
stack by pushing ids that were not on the stack; a call that returns false leaves the stack
as it found it. -/
theorem CheckDependencyCycleCallsFuel_pushed (M : FPrerequisitesByStageId) (Cycle : FCycle) :
    ∀ (Fuel : Nat) (Stack : FCycle), IsPushedFrom M Cycle Stack →
      ∀ r Calls, CheckDependencyCycleCallsFuel M Fuel Stack = some (r, Calls) →
        (r.1 = false → r.2 = Stack) ∧ ∀ S ∈ Calls, IsPushedFrom M Cycle S := by
  intro Fuel
  induction Fuel with
  | zero => intro Stack _ r Calls h; cases h
  | succ Fuel ih =>
    intro Stack hStack r Calls h
    unfold CheckDependencyCycleCallsFuel at h
    have hself : ∀ S ∈ [Stack], IsPushedFrom M Cycle S := by
      intro S hS
      rw [List.mem_singleton] at hS
      rw [hS]
      exact hStack
    cases hl : Stack.getLast? with
    | none =>
      rw [hl] at h
      cases Option.some.inj h
      exact ⟨fun _ => rfl, hself⟩
    | some Last =>
      rw [hl] at h
      simp only at h
      cases hf : M.Find Last with
      | none =>
        rw [hf] at h
        cases Option.some.inj h
        exact ⟨fun _ => rfl, hself⟩
      | some Ps =>
        rw [hf] at h
        simp only at h
        cases hloop : CheckDependencyCycleLoopCalls (CheckDependencyCycleCallsFuel M Fuel)
            Ps Stack with
        | none => rw [hloop] at h; cases h
        | some r1 =>
          obtain ⟨Result, Calls1⟩ := r1
          rw [hloop] at h
          simp only at h
          have e1 : Result = r := congrArg Prod.fst (Option.some.inj h)
          have e2 : Stack :: Calls1 = Calls := congrArg Prod.snd (Option.some.inj h)
          rw [← e1, ← e2]
          obtain ⟨h1, h2⟩ := CheckDependencyCycleLoopCalls_pushed M Cycle _ Stack Ps
            (fun q hq hqS r' Calls' hr' =>
              ih (Stack ++ [q]) (IsPushedFrom_push hStack hqS (mem_Ids_of_Find hf hq))
                r' Calls' hr')
            Result Calls1 hloop
          refine ⟨h1, ?_⟩
          intro S hS
          rcases List.mem_cons.1 hS with hS | hS
          · rw [hS]
            exact hStack
          · exact h2 S hS

theorem CheckDependencyCycleCallsFuel_total (M : FPrerequisitesByStageId) (Cycle : FCycle) :
    CheckDependencyCycleCallsFuel M (CheckDependencyCycleBudget M) Cycle
      = some (CheckDependencyCycle Cycle M, CheckDependencyCycleCalls Cycle M) := by
  have h1 := CheckDependencyCycleCallsFuel_fst M (CheckDependencyCycleBudget M) Cycle
  rw [CheckDependencyCycleFuel_total] at h1
  unfold CheckDependencyCycleCalls
  cases hc : CheckDependencyCycleCallsFuel M (CheckDependencyCycleBudget M) Cycle with
  | none => rw [hc] at h1; cases h1
  | some r =>
    rw [hc] at h1
    obtain ⟨r1, Calls⟩ := r
    have : r1 = CheckDependencyCycle Cycle M := Option.some.inj h1
    rw [this]

/-- C39. `CheckDependencyCycle` terminates for every prerequisite map, also one with cycles
or self-loops, and every starting stack: the recursion budget `CheckDependencyCycleBudget`
is never exhausted, and every larger budget gives the same result. Every call of the search,
the outer one and the nested ones, is entered with the starting stack followed by pairwise
distinct ids of the map that are not on the starting stack (a nested call is only made
after pushing an id that was not on the stack), so the stack of every call, and with it the
depth of the recursion, is bounded by the number of distinct ids in the map plus the length
of the starting stack. When the search returns false, the stack is what it was on entry. -/
theorem CheckDependencyCycle_terminates (M : FPrerequisitesByStageId) (Cycle : FCycle) :
    (∀ Fuel, CheckDependencyCycleBudget M ≤ Fuel →
      CheckDependencyCycleFuel M Fuel Cycle = some (CheckDependencyCycle Cycle M)) ∧
    CheckDependencyCycleCallsFuel M (CheckDependencyCycleBudget M) Cycle
      = some (CheckDependencyCycle Cycle M, CheckDependencyCycleCalls Cycle M) ∧
    (∀ Stack ∈ CheckDependencyCycleCalls Cycle M,
      IsPushedFrom M Cycle Stack ∧ Stack.length ≤ M.Ids.length + Cycle.length) ∧
    ((CheckDependencyCycle Cycle M).1 = false → (CheckDependencyCycle Cycle M).2 = Cycle) := by
  refine ⟨?_, CheckDependencyCycleCallsFuel_total M Cycle, ?_, CheckDependencyCycle_false M Cycle⟩
  · intro Fuel hle
    exact CheckDependencyCycleFuel_mono M _ Fuel Cycle _ hle (CheckDependencyCycleFuel_total M Cycle)
  · intro Stack hS
    have h := (CheckDependencyCycleCallsFuel_pushed M Cycle _ Cycle (IsPushedFrom_refl M Cycle)
      _ _ (CheckDependencyCycleCallsFuel_total M Cycle)).2 Stack hS
    exact ⟨h, IsPushedFrom_length h⟩

/-- C39, witness: the search from stage 3 in a map with the self-loop 1 → 1 and the cycle
2 → 3 → 2 makes two calls and returns true with the stack `[3, 2, 3]`; from stage 5, which
has no entry, it returns false and leaves the stack alone. -/
theorem CheckDependencyCycle_terminates_witness :
    CheckDependencyCycle [3] ExampleCyclicMap = (true, [3, 2, 3]) ∧
    CheckDependencyCycleCalls [3] ExampleCyclicMap = [[3], [3, 2]] ∧
    CheckDependencyCycle [4, 5] ExampleCyclicMap = (false, [4, 5]) ∧
    ((∀ Fuel, CheckDependencyCycleBudget ExampleCyclicMap ≤ Fuel →
      CheckDependencyCycleFuel ExampleCyclicMap Fuel [3]
        = some (CheckDependencyCycle [3] ExampleCyclicMap)) ∧
    CheckDependencyCycleCallsFuel ExampleCyclicMap (CheckDependencyCycleBudget ExampleCyclicMap) [3]
      = some (CheckDependencyCycle [3] ExampleCyclicMap,
          CheckDependencyCycleCalls [3] ExampleCyclicMap) ∧
    (∀ Stack ∈ CheckDependencyCycleCalls [3] ExampleCyclicMap,
      IsPushedFrom ExampleCyclicMap [3] Stack ∧
        Stack.length ≤ ExampleCyclicMap.Ids.length + [3].length) ∧
    ((CheckDependencyCycle [3] ExampleCyclicMap).1 = false →
      (CheckDependencyCycle [3] ExampleCyclicMap).2 = [3])) :=
  ⟨by decide, by decide, by decide, CheckDependencyCycle_terminates ExampleCyclicMap [3]⟩

end Zkz.StagedExecution

namespace Zkz.StagedExecution

/-! ## The reported cycle is a path of recorded prerequisites -/

theorem CheckDependencyCycleLoop_path (M : FPrerequisitesByStageId)
    (Recurse : FCycle → Option (Bool × FCycle)) (Stack : FCycle) (Last : IdType)
    (hrec : ∀ q, q ∉ Stack → ∀ b C', Recurse (Stack ++ [q]) = some (b, C') →
      (b = false → C' = Stack ++ [q]) ∧
      (b = true → ∃ Ext, Ext ≠ [] ∧ C' = Stack ++ [q] ++ Ext ∧
        List.Chain (IsRecordedPrerequisite M) q Ext)) :
    ∀ Ps : List IdType, (∀ q ∈ Ps, IsRecordedPrerequisite M Last q) →
      ∀ b C', CheckDependencyCycleLoop Recurse Ps Stack = some (b, C') →
        (b = false → C' = Stack) ∧
        (b = true → ∃ Ext, Ext ≠ [] ∧ C' = Stack ++ Ext ∧
          List.Chain (IsRecordedPrerequisite M) Last Ext) := by
  intro Ps
  induction Ps with
  | nil =>
    intro _ b C' h
    unfold CheckDependencyCycleLoop at h
    have e1 : false = b := congrArg Prod.fst (Option.some.inj h)
    have e2 : Stack = C' := congrArg Prod.snd (Option.some.inj h)
    rw [← e1, ← e2]
    exact ⟨fun _ => rfl, fun hc => Bool.noConfusion hc⟩
  | cons q Rest ih =>
    intro hPs b C' h
    have hq0 : IsRecordedPrerequisite M Last q := hPs q (List.mem_cons_self _ _)
    unfold CheckDependencyCycleLoop at h
    by_cases hq : q ∈ Stack
    · simp only [hq, if_true] at h
      have e1 : true = b := congrArg Prod.fst (Option.some.inj h)
      have e2 : Stack ++ [q] = C' := congrArg Prod.snd (Option.some.inj h)
      rw [← e1, ← e2]
      exact ⟨fun hc => Bool.noConfusion hc,
        fun _ => ⟨[q], by simp, rfl, List.Chain.cons hq0 List.Chain.nil⟩⟩
    · simp only [hq, if_false] at h
      cases hr : Recurse (Stack ++ [q]) with
      | none => rw [hr] at h; cases h
      | some r1 =>
        obtain ⟨b1, C1⟩ := r1
        rw [hr] at h
        obtain ⟨hf, ht⟩ := hrec q hq b1 C1 hr
        cases b1 with
        | true =>
          simp only at h
          have e1 : true = b := congrArg Prod.fst (Option.some.inj h)
          have e2 : C1 = C' := congrArg Prod.snd (Option.some.inj h)
          rw [← e1, ← e2]
          obtain ⟨Ext, _, hC1, hchain⟩ := ht rfl
          exact ⟨fun hc => Bool.noConfusion hc,
            fun _ => ⟨q :: Ext, by simp, by rw [hC1]; simp, List.Chain.cons hq0 hchain⟩⟩
        | false =>
          simp only at h
          rw [hf rfl, List.dropLast_concat] at h
          exact ih (fun q' hq' => hPs q' (List.mem_cons_of_mem _ hq')) b C' h

/-- A search that returns true has pushed a path of recorded prerequisites that starts at
the prerequisites of the last id of the stack; one that returns false leaves the stack. -/
theorem CheckDependencyCycleFuel_path (M : FPrerequisitesByStageId) :
    ∀ (Fuel : Nat) (Stack : FCycle) (b : Bool) (C' : FCycle),
      CheckDependencyCycleFuel M Fuel Stack = some (b, C') →
      (b = false → C' = Stack) ∧
      (b = true → ∃ Last Ext, Stack.getLast? = some Last ∧ Ext ≠ [] ∧ C' = Stack ++ Ext ∧
        List.Chain (IsRecordedPrerequisite M) Last Ext) := by
  intro Fuel
  induction Fuel with
  | zero => intro Stack b C' h; cases h
  | succ Fuel ih =>
    intro Stack b C' h
    unfold CheckDependencyCycleFuel at h
    cases hl : Stack.getLast? with
    | none =>
      rw [hl] at h
      have e1 : false = b := congrArg Prod.fst (Option.some.inj h)
      have e2 : Stack = C' := congrArg Prod.snd (Option.some.inj h)
      rw [← e1, ← e2]
      exact ⟨fun _ => rfl, fun hc => Bool.noConfusion hc⟩
    | some Last =>
      rw [hl] at h
      simp only at h
      cases hf : M.Find Last with
      | none =>
        rw [hf] at h
        have e1 : false = b := congrArg Prod.fst (Option.some.inj h)
        have e2 : Stack = C' := congrArg Prod.snd (Option.some.inj h)
        rw [← e1, ← e2]
        exact ⟨fun _ => rfl, fun hc => Bool.noConfusion hc⟩
      | some Ps =>
        rw [hf] at h
        simp only at h
        obtain ⟨h1, h2⟩ := CheckDependencyCycleLoop_path M _ Stack Last
          (fun q _ b1 C1 hr => by
            obtain ⟨g1, g2⟩ := ih (Stack ++ [q]) b1 C1 hr
            refine ⟨g1, fun hb => ?_⟩
            obtain ⟨Last', Ext, hl', hne, hC, hch⟩ := g2 hb
            rw [List.getLast?_concat] at hl'
            cases Option.some.inj hl'
            exact ⟨Ext, hne, hC, hch⟩)
          Ps (fun q hq => ⟨Ps, hf, hq⟩) b C' h
        exact ⟨h1, fun hb => by
          obtain ⟨Ext, hne, hC, hch⟩ := h2 hb
          exact ⟨Last, Ext, rfl, hne, hC, hch⟩⟩

theorem DebugAddStageLoop_path (M : FPrerequisitesByStageId) (StageId : IdType) :
    ∀ (Ps : List IdType) (Cycle : FCycle), DebugAddStageLoop M Ps [StageId] = some Cycle →
      ∃ p Ext, p ∈ Ps ∧ Ext ≠ [] ∧ Cycle = StageId :: p :: Ext ∧
        List.Chain (IsRecordedPrerequisite M) p Ext := by
  intro Ps
  induction Ps with
  | nil => intro Cycle h; cases h
  | cons q Rest ih =>
    intro Cycle h
    unfold DebugAddStageLoop at h
    cases hc : CheckDependencyCycle ([StageId] ++ [q]) M with
    | mk b C' =>
      rw [hc] at h
      have hfuel := CheckDependencyCycleFuel_total M ([StageId] ++ [q])
      rw [hc] at hfuel
      obtain ⟨h1, h2⟩ := CheckDependencyCycleFuel_path M _ _ b C' hfuel
      cases b with
      | true =>
        simp only at h
        cases Option.some.inj h
        obtain ⟨Last, Ext, hl, hne, hC, hch⟩ := h2 rfl
        rw [List.getLast?_concat] at hl
        cases Option.some.inj hl
        exact ⟨q, Ext, List.mem_cons_self _ _, hne, by rw [hC]; rfl, hch⟩
      | false =>
        simp only at h
        rw [h1 rfl, List.dropLast_concat] at h
        obtain ⟨p, Ext, hp, hne, hC, hch⟩ := ih Cycle h
        exact ⟨p, Ext, List.mem_cons_of_mem _ hp, hne, hC, hch⟩

theorem Chain_getElem? {α : Type} (R : α → α → Prop) :
    ∀ (l : List α) (a : α), List.Chain R a l →
      ∀ (i : Nat) (x y : α), (a :: l)[i]? = some x → (a :: l)[i + 1]? = some y → R x y := by
  intro l
  induction l with
  | nil =>
    intro a _ i x y _ hy
    simp at hy
  | cons b l ih =>
    intro a hch i x y hx hy
    rw [List.chain_cons] at hch
    cases i with
    | zero =>
      simp only [List.getElem?_cons_zero, List.getElem?_cons_succ, zero_add] at hx hy
      cases Option.some.inj hx
      cases Option.some.inj hy
      exact hch.1
    | succ i =>
      rw [List.getElem?_cons_succ] at hx hy
      exact ih b hch.2 i x y hx hy

/-- C36. Every reported cycle is a genuine dependency path: when `DebugAddStage(NewId, P)`
returns a `CircularDependency` error, the error carries `NewId` and `P`, and its cycle
`[c0, ..., ck]` has `k ≥ 2`, starts with `c0 = NewId`, continues with a declared
prerequisite `c1 ∈ P`, and from `c1` on every id `c(i+1)` is among the recorded
prerequisites of `ci`. -/
theorem DebugAddStage_cycle_is_dependency_path (M : FPrerequisitesByStageId) (NewId : IdType)
    (P : List IdType) (StageId : IdType) (PrerequisiteIds : List IdType) (Cycle : FCycle)
    (h : (DebugAddStage M NewId P).1
      = .error (.CircularDependency StageId PrerequisiteIds Cycle)) :
    StageId = NewId ∧ PrerequisiteIds = P ∧ 3 ≤ Cycle.length ∧ Cycle[0]? = some NewId ∧
    (∃ c1, Cycle[1]? = some c1 ∧ c1 ∈ P) ∧
    ∀ i ci cj, 1 ≤ i → Cycle[i]? = some ci → Cycle[i + 1]? = some cj →
      IsRecordedPrerequisite M ci cj := by
  unfold DebugAddStage at h
  by_cases hc : M.Contains NewId = true
  · rw [if_pos hc] at h
    cases h
  · rw [if_neg hc] at h
    cases hl : DebugAddStageLoop M P [NewId] with
    | none => rw [hl] at h; cases h
    | some C =>
      rw [hl] at h
      simp only at h
      injection h with h
      injection h with e1 e2 e3
      subst e1 e2 e3
      obtain ⟨p, Ext, hp, hne, hC, hch⟩ := DebugAddStageLoop_path M NewId P C hl
      subst hC
      refine ⟨rfl, rfl, ?_, rfl, ⟨p, by simp, hp⟩, ?_⟩
      · cases Ext with
        | nil => exact absurd rfl hne
        | cons e Ext => simp
      · intro i ci cj hi hci hcj
        obtain ⟨j, rfl⟩ : ∃ j, i = j + 1 := ⟨i - 1, by omega⟩
        rw [List.getElem?_cons_succ] at hci hcj
        exact Chain_getElem? _ Ext p hch j ci cj hci hcj

/-- C36, witness: the scenario of the test `PhaseDependencyCycleReturnsError`
(A = 1, B = 2, C = 3, D = 4, E = 5): the reported cycle is `[B, C, A, B]`. -/
theorem DebugAddStage_cycle_is_dependency_path_witness :
    (DebugAddStage [(4, [5]), (5, []), (1, [4, 2, 5]), (3, [4, 1, 5])] 2 [4, 3, 5]).1
      = .error (.CircularDependency 2 [4, 3, 5] [2, 3, 1, 2]) ∧
    (2 = 2 ∧ [4, 3, 5] = [4, 3, 5] ∧ 3 ≤ [2, 3, 1, 2].length ∧ [2, 3, 1, 2][0]? = some 2 ∧
    (∃ c1, [2, 3, 1, 2][1]? = some c1 ∧ c1 ∈ [4, 3, 5]) ∧
    ∀ i ci cj, 1 ≤ i → [2, 3, 1, 2][i]? = some ci → [2, 3, 1, 2][i + 1]? = some cj →
      IsRecordedPrerequisite [(4, [5]), (5, []), (1, [4, 2, 5]), (3, [4, 1, 5])] ci cj) :=
  ⟨by decide,
    DebugAddStage_cycle_is_dependency_path [(4, [5]), (5, []), (1, [4, 2, 5]), (3, [4, 1, 5])]
      2 [4, 3, 5] 2 [4, 3, 5] [2, 3, 1, 2] (by decide)⟩

end Zkz.StagedExecution

namespace Zkz.StagedExecution

/-! ## The entries of the prerequisite map and the added stages -/

theorem Contains_iff_Find (M : FPrerequisitesByStageId) (X : IdType) :
    M.Contains X = true ↔ ∃ P, M.Find X = some P := by
  unfold FPrerequisitesByStageId.Contains FPrerequisitesByStageId.Find
  cases M.lookup X with
  | none => simp
  | some P => simp

/-- With inspections, between the operations of a run, the map has an entry for exactly
the stages that are `Defined`, `Executing` or `Completed`. -/
theorem Inv_map_entry_iff {Γ : FRoles} {Log : FLog} {s : TScheduler}
    (hI : SchedulerInv true Γ Log [] s) (X : IdType) :
    s.PrerequisitesByStageId.Contains X = true ↔
      (s.GetId X = .Defined ∨ s.GetId X = .Executing ∨ s.GetId X = .Completed) := by
  rw [Contains_iff_Find, ← Inv_added_iff hI X]
  constructor
  · rintro ⟨P, hP⟩
    exact ⟨P, (hI.map rfl X P).1 hP⟩
  · rintro ⟨P, hP⟩
    exact ⟨P, (hI.map rfl X P).2 hP⟩

/-- The first loop of `AddStage` does not define a stage: a stage that is not registered or
`Undefined` stays so. -/
theorem Collect_GetId_not_added (X : IdType) :
    ∀ (P : List IdType) (s : TScheduler),
      (s.GetId X = .Unknown ∨ s.GetId X = .Undefined) →
      ((CollectFuturePrerequisiteCompletions P s).2.GetId X = .Unknown ∨
        (CollectFuturePrerequisiteCompletions P s).2.GetId X = .Undefined) := by
  intro P
  induction P with
  | nil => intro s h; exact h
  | cons p Rest ih =>
    intro s h
    rw [Collect_cons_snd]
    apply ih
    by_cases hp : p = X
    · subst hp
      obtain ⟨st, hst⟩ := Find_FindOrAddStage_isSome s p
      have hU : st.GetId = .Undefined := by
        cases hs : s.Find p with
        | none =>
          rw [Find_FindOrAddStage_same_of_none s p hs] at hst
          cases Option.some.inj hst
          rfl
        | some st' =>
          rw [Find_FindOrAddStage_same_of_some s p st' hs, hs] at hst
          have hst' : st' = st := Option.some.inj hst
          rw [GetId_of_Find hs, hst'] at h
          rcases h with h | h
          · cases st <;> cases h
          · exact h
      right
      rw [GetId_of_Find (AddFollowUp_Find_same _ p st hst), QueuePromises_GetId]
      exact hU
    · have hF : (AddFollowUp (s.FindOrAddStage p) p).2.Find X = s.Find X := by
        rw [AddFollowUp_Find_other _ p X (Ne.symm hp),
          Find_FindOrAddStage_other s p X (Ne.symm hp)]
      unfold TScheduler.GetId at h ⊢
      rw [hF]
      exact h

theorem FindOrAddStage_GetId_Undefined (s : TScheduler) (X : IdType)
    (h : s.GetId X = .Unknown ∨ s.GetId X = .Undefined) :
    (s.FindOrAddStage X).GetId X = .Undefined := by
  cases hs : s.Find X with
  | none =>
    rw [GetId_of_Find (Find_FindOrAddStage_same_of_none s X hs)]
    rfl
  | some st =>
    rw [Find_FindOrAddStage_same_of_some s X st hs]
    rw [GetId_of_Find hs] at h ⊢
    rcases h with h | h
    · cases st <;> cases h
    · exact h

theorem StageState_AddStage_Undefined (GPI : Bool) (s : TScheduler) (X : IdType)
    (F : List FFutureHandle) (h : s.GetId X = .Undefined) :
    (StageState_AddStage GPI s X F).1 = .ok () := by
  unfold TScheduler.GetId at h
  unfold StageState_AddStage
  cases hs : s.Find X with
  | none => rw [hs] at h; cases h
  | some st =>
    rw [hs] at h
    cases st with
    | Undefined pd => rfl
    | Defined pd F' => cases h
    | Executing Id b Ts Ps => cases h
    | Completed Id => cases h

theorem AddStage_true_fst (s : TScheduler) (X : IdType) (P : List IdType) :
    (s.AddStage true X P).1 =
      match DebugAddStage s.PrerequisitesByStageId X P with
      | (.error Error, _) => .error Error
      | (.ok _, NewPrerequisitesByStageId) =>
        (StageState_AddStage true
          ({ (CollectFuturePrerequisiteCompletions P s).2 with
              PrerequisitesByStageId := NewPrerequisitesByStageId }.FindOrAddStage X)
          X (CollectFuturePrerequisiteCompletions P s).1).1 := by
  have hA : (s.AddStage true X P).1 = (s.AddStageCalls true X P).1 := rfl
  have hAS : s.AddStageCalls true X P =
      match DebugAddStage (CollectFuturePrerequisiteCompletions P s).2.PrerequisitesByStageId
          X P with
      | (.error Error, _) => (.error Error, (CollectFuturePrerequisiteCompletions P s).2, [])
      | (.ok _, NewPrerequisitesByStageId) =>
        StageState_AddStage true
          ({ (CollectFuturePrerequisiteCompletions P s).2 with
              PrerequisitesByStageId := NewPrerequisitesByStageId }.FindOrAddStage X)
          X (CollectFuturePrerequisiteCompletions P s).1 := rfl
  rw [hA, hAS, Collect_PrerequisitesByStageId]
  cases hD : DebugAddStage s.PrerequisitesByStageId X P with
  | mk Result M' =>
    cases Result with
    | error e => rfl
    | ok u => rfl

theorem DebugAddStage_ok_not_Contains {M M' : FPrerequisitesByStageId} {X : IdType}
    {P : List IdType} {u : Unit} (h : DebugAddStage M X P = (.ok u, M')) :
    ¬ M.Contains X = true := by
  intro hc
  unfold DebugAddStage at h
  rw [if_pos hc] at h
  cases h

/-- C38. With inspections enabled, after every run an id has an entry in
`PrerequisitesByStageId` exactly when the registry holds a stage with that id that is
`Defined`, `Executing` or `Completed`. Consequently, in the next call of `AddStage`, when
`DebugAddStage` returns `Ok` the stage that the state machine is dispatched on is
`Undefined` (the overload for an already added stage is not reached, and `AddStage`
succeeds), and every `StageAlreadyAdded` error that `AddStage` returns is the one returned
by `DebugAddStage`. -/
theorem Map_entry_iff_stage_added (Events : List FEvent) (r : FRun)
    (h : Exec true Events = some r) :
    (∀ X, r.Scheduler.PrerequisitesByStageId.Contains X = true ↔
      (r.Scheduler.GetId X = .Defined ∨ r.Scheduler.GetId X = .Executing ∨
        r.Scheduler.GetId X = .Completed)) ∧
    (∀ X P u M', DebugAddStage r.Scheduler.PrerequisitesByStageId X P = (.ok u, M') →
      ({ (CollectFuturePrerequisiteCompletions P r.Scheduler).2 with
          PrerequisitesByStageId := M' }.FindOrAddStage X).GetId X = .Undefined ∧
      (r.Scheduler.AddStage true X P).1 = .ok ()) ∧
    (∀ X P Y, (r.Scheduler.AddStage true X P).1 = .error (.StageAlreadyAdded Y) →
      (DebugAddStage r.Scheduler.PrerequisitesByStageId X P).1
        = .error (.StageAlreadyAdded Y)) := by
  obtain ⟨Γ, hI⟩ := Exec_SchedulerInv true Events r h
  have hdispatch : ∀ X P u M',
      DebugAddStage r.Scheduler.PrerequisitesByStageId X P = (.ok u, M') →
      ({ (CollectFuturePrerequisiteCompletions P r.Scheduler).2 with
          PrerequisitesByStageId := M' }.FindOrAddStage X).GetId X = .Undefined := by
    intro X P u M' hD
    have hnc := DebugAddStage_ok_not_Contains hD
    have hnot : r.Scheduler.GetId X = .Unknown ∨ r.Scheduler.GetId X = .Undefined := by
      have := fun hc => hnc ((Inv_map_entry_iff hI X).2 hc)
      cases hg : r.Scheduler.GetId X with
      | Unknown => exact Or.inl rfl
      | Undefined => exact Or.inr rfl
      | Defined => exact absurd (Or.inl hg) this
      | Executing => exact absurd (Or.inr (Or.inl hg)) this
      | Completed => exact absurd (Or.inr (Or.inr hg)) this
    have h1 := Collect_GetId_not_added X P r.Scheduler hnot
    apply FindOrAddStage_GetId_Undefined
    exact h1
  refine ⟨fun X => Inv_map_entry_iff hI X, ?_, ?_⟩
  · intro X P u M' hD
    refine ⟨hdispatch X P u M' hD, ?_⟩
    rw [AddStage_true_fst, hD]
    exact StageState_AddStage_Undefined true _ X _ (hdispatch X P u M' hD)
  · intro X P Y hE
    rw [AddStage_true_fst] at hE
    cases hD : DebugAddStage r.Scheduler.PrerequisitesByStageId X P with
    | mk Result M' =>
      rw [hD] at hE
      cases Result with
      | error e =>
        simp only at hE
        exact hE
      | ok u =>
        simp only at hE
        rw [StageState_AddStage_Undefined true _ X _ (hdispatch X P u M' hD)] at hE
        cases hE

/-- C38, witness: after `AddStage(2, [1])` stage 2 is `Defined` and has a map entry, stage 1
is `Undefined` and has none, and `AddStage(1, [])` then succeeds. -/
theorem Map_entry_iff_stage_added_witness :
    Exec true ExampleWaitingStage = some (ExecD true ExampleWaitingStage) ∧
    (ExecD true ExampleWaitingStage).Scheduler.PrerequisitesByStageId = [(2, [1])] ∧
    (ExecD true ExampleWaitingStage).Scheduler.GetId 1 = .Undefined ∧
    ((ExecD true ExampleWaitingStage).Scheduler.GetId 2 = .Defined ∨
      (ExecD true ExampleWaitingStage).Scheduler.GetId 2 = .Executing ∨
      (ExecD true ExampleWaitingStage).Scheduler.GetId 2 = .Completed) ∧
    ((ExecD true ExampleWaitingStage).Scheduler.AddStage true 1 []).1 = .ok () :=
  ⟨rfl, by decide, by decide,
    ((Map_entry_iff_stage_added ExampleWaitingStage (ExecD true ExampleWaitingStage) rfl).1 2).1
      (by decide),
    ((Map_entry_iff_stage_added ExampleWaitingStage (ExecD true ExampleWaitingStage) rfl).2.1
      1 [] () [(2, [1]), (1, [])] (by decide)).2⟩

end Zkz.StagedExecution

namespace Zkz.StagedExecution

/-! ## What a failing `AddStage` leaves behind -/

/-- The first loop of `AddStage` registers a prerequisite that was not registered as
`Undefined`, with one stage completion promise for every occurrence among the
prerequisites; it registers no other stage. -/
theorem Collect_Find_unregistered (Y : IdType) :
    ∀ (P : List IdType) (s : TScheduler), s.Find Y = none →
      (Y ∉ P → (CollectFuturePrerequisiteCompletions P s).2.Find Y = none) ∧
      (Y ∈ P → ∃ New, (CollectFuturePrerequisiteCompletions P s).2.Find Y =
          some (.Undefined { StageId := Y, StageCompletionPromises := New }) ∧
        New.length = P.count Y) := by
  intro P
  induction P with
  | nil =>
    intro s hY
    exact ⟨fun _ => hY, fun h => absurd h (List.not_mem_nil Y)⟩
  | cons p Rest ih =>
    intro s hY
    rw [Collect_cons_snd]
    by_cases hp : p = Y
    · subst hp
      have h0 := Find_FindOrAddStage_same_of_none s p hY
      have h1 : (AddFollowUp (s.FindOrAddStage p) p).2.Find p = some (.Undefined
          { StageId := p, StageCompletionPromises := [(s.FindOrAddStage p).Futures.length] }) := by
        rw [AddFollowUp_Find_same (s.FindOrAddStage p) p _ h0]
        rfl
      obtain ⟨New, h2, h3⟩ := Collect_Find_registered p Rest _ _ h1
      have h3' : New.length = Rest.count p := h3
      refine ⟨fun hn => absurd (List.mem_cons_self _ _) hn, fun _ => ?_⟩
      refine ⟨[(s.FindOrAddStage p).Futures.length] ++ New, ?_, ?_⟩
      · rw [h2]
        rfl
      · rw [List.length_append, h3', List.count_cons_self]
        simp [Nat.add_comm]
    · have h1 : (AddFollowUp (s.FindOrAddStage p) p).2.Find Y = none := by
        rw [AddFollowUp_Find_other _ p Y (Ne.symm hp),
          Find_FindOrAddStage_other s p Y (Ne.symm hp)]
        exact hY
      obtain ⟨g1, g2⟩ := ih _ h1
      refine ⟨fun hn => g1 (fun hc => hn (List.mem_cons_of_mem _ hc)), fun hm => ?_⟩
      rcases List.mem_cons.1 hm with hm | hm
      · exact absurd hm.symm hp
      · obtain ⟨New, h2, h3⟩ := g2 hm
        exact ⟨New, h2, by rw [h3, List.count_cons_of_ne (Ne.symm hp)]⟩

/-- Between the operations of a run, an `AddStage` that returns an error returns in the
state that its first loop has left. -/
theorem AddStage_error_snd {GPI : Bool} {Γ : FRoles} {Log : FLog} {s : TScheduler}
    (hI : SchedulerInv GPI Γ Log [] s) (X : IdType) (P : List IdType) (e : TAddStageError)
    (hE : (s.AddStage GPI X P).1 = .error e) :
    (s.AddStage GPI X P).2 = (CollectFuturePrerequisiteCompletions P s).2 := by
  have hA : s.AddStage GPI X P =
      ((s.AddStageCalls GPI X P).1,
        RunCalls GPI (s.AddStageCalls GPI X P).2.2 (s.AddStageCalls GPI X P).2.1) := rfl
  have hAS : s.AddStageCalls GPI X P =
      if GPI = true then
        match DebugAddStage (CollectFuturePrerequisiteCompletions P s).2.PrerequisitesByStageId
            X P with
        | (.error Error, _) => (.error Error, (CollectFuturePrerequisiteCompletions P s).2, [])
        | (.ok _, NewPrerequisitesByStageId) =>
          StageState_AddStage GPI
            ({ (CollectFuturePrerequisiteCompletions P s).2 with
                PrerequisitesByStageId := NewPrerequisitesByStageId }.FindOrAddStage X)
            X (CollectFuturePrerequisiteCompletions P s).1
      else
        StageState_AddStage GPI ((CollectFuturePrerequisiteCompletions P s).2.FindOrAddStage X)
          X (CollectFuturePrerequisiteCompletions P s).1 := rfl
  have hE0 := hE
  rw [hA] at hE ⊢
  simp only at hE ⊢
  by_cases hG : GPI = true
  · subst hG
    rw [hAS, if_pos rfl, Collect_PrerequisitesByStageId] at hE ⊢
    cases hD : DebugAddStage s.PrerequisitesByStageId X P with
    | mk Result M' =>
      cases Result with
      | error e' =>
        simp only [RunCalls_nil]
      | ok u =>
        exfalso
        have hnc := DebugAddStage_ok_not_Contains hD
        have hnot : s.GetId X = .Unknown ∨ s.GetId X = .Undefined := by
          have := fun hc => hnc ((Inv_map_entry_iff hI X).2 hc)
          cases hg : s.GetId X with
          | Unknown => exact Or.inl rfl
          | Undefined => exact Or.inr rfl
          | Defined => exact absurd (Or.inl hg) this
          | Executing => exact absurd (Or.inr (Or.inl hg)) this
          | Completed => exact absurd (Or.inr (Or.inr hg)) this
        have h1 := Collect_GetId_not_added X P s hnot
        have h2 : ({ (CollectFuturePrerequisiteCompletions P s).2 with
            PrerequisitesByStageId := M' }.FindOrAddStage X).GetId X = .Undefined :=
          FindOrAddStage_GetId_Undefined _ X h1
        have hok : (s.AddStage true X P).1 = .ok () := by
          rw [AddStage_true_fst, hD]
          exact StageState_AddStage_Undefined true _ X _ h2
        rw [hok] at hE0
        cases hE0
  · rw [hAS, if_neg hG] at hE ⊢
    have h2 := StageState_AddStage_error GPI _ X _ e hE
    rw [h2]
    simp only [RunCalls_nil]
    cases hX : (CollectFuturePrerequisiteCompletions P s).2.Find X with
    | some st => exact Find_FindOrAddStage_same_of_some _ X st hX
    | none =>
      exfalso
      have h3 := Find_FindOrAddStage_same_of_none _ X hX
      have h4 : (StageState_AddStage GPI
          ((CollectFuturePrerequisiteCompletions P s).2.FindOrAddStage X) X
          (CollectFuturePrerequisiteCompletions P s).1).1 = .ok () :=
        StageState_AddStage_Undefined GPI _ X _ (by rw [GetId_of_Find h3]; rfl)
      rw [h4] at hE
      cases hE

/-- C37. A failing `AddStage` is not free of side effects on its prerequisites. After
every run, when `AddStage(X, P)` returns an error: the recorded prerequisite map is
unchanged; every stage that was registered keeps its state (kind, tasks, flag, futures of
its prerequisites) except that one stage completion promise is queued in it for every
occurrence of the stage in `P` when it is not `Completed`; every prerequisite that was not
registered is now registered as `Undefined`, without tasks and with the flag not set, with
one stage completion promise for every occurrence in `P`; no other stage is registered. -/
theorem Failed_AddStage_side_effects (GPI : Bool) (Events : List FEvent) (r : FRun)
    (h : Exec GPI Events = some r) (X : IdType) (P : List IdType) (e : TAddStageError)
    (hE : (r.Scheduler.AddStage GPI X P).1 = .error e) :
    (r.Scheduler.AddStage GPI X P).2.PrerequisitesByStageId
      = r.Scheduler.PrerequisitesByStageId ∧
    (∀ Y st, r.Scheduler.Find Y = some st →
      ∃ New, (r.Scheduler.AddStage GPI X P).2.Find Y = some (st.QueuePromises New) ∧
        New.length = if st.GetId = .Completed then 0 else P.count Y) ∧
    (∀ Y, r.Scheduler.Find Y = none → Y ∈ P →
      ∃ New, (r.Scheduler.AddStage GPI X P).2.Find Y =
          some (.Undefined { StageId := Y, StageCompletionPromises := New }) ∧
        New.length = P.count Y) ∧
    (∀ Y, r.Scheduler.Find Y = none → Y ∉ P →
      (r.Scheduler.AddStage GPI X P).2.Find Y = none) := by
  obtain ⟨Γ, hI⟩ := Exec_SchedulerInv GPI Events r h
  rw [AddStage_error_snd hI X P e hE]
  refine ⟨Collect_PrerequisitesByStageId P r.Scheduler, ?_, ?_, ?_⟩
  · intro Y st hY
    exact Collect_Find_registered Y P r.Scheduler st hY
  · intro Y hY hm
    exact (Collect_Find_unregistered Y P r.Scheduler hY).2 hm
  · intro Y hY hn
    exact (Collect_Find_unregistered Y P r.Scheduler hY).1 hn

/-- C37, witness: after `AddStage(2, [1])`, the call `AddStage(2, [1, 3, 3])` returns
`StageAlreadyAdded(2)`; stage 1 has a second promise, stage 3 is registered as `Undefined`
with two promises, and the map is unchanged. -/
theorem Failed_AddStage_side_effects_witness :
    Exec true ExampleWaitingStage = some (ExecD true ExampleWaitingStage) ∧
    ((ExecD true ExampleWaitingStage).Scheduler.AddStage true 2 [1, 3, 3]).1
      = .error (.StageAlreadyAdded 2) ∧
    (ExecD true ExampleWaitingStage).Scheduler.Find 3 = none ∧
    ((ExecD true ExampleWaitingStage).Scheduler.AddStage true 2 [1, 3, 3]).2.Find 3
      = some (.Undefined { StageId := 3, StageCompletionPromises := [2, 3] }) ∧
    ((ExecD true ExampleWaitingStage).Scheduler.AddStage true 2 [1, 3, 3]).2.Find 1
      = some (.Undefined { StageId := 1, StageCompletionPromises := [0, 1] }) ∧
    ((ExecD true ExampleWaitingStage).Scheduler.AddStage true 2 [1, 3, 3]).2.PrerequisitesByStageId
      = (ExecD true ExampleWaitingStage).Scheduler.PrerequisitesByStageId :=
  ⟨rfl, by decide, by decide, by decide, by decide,
    (Failed_AddStage_side_effects true ExampleWaitingStage (ExecD true ExampleWaitingStage) rfl
      2 [1, 3, 3] (.StageAlreadyAdded 2) (by decide)).1⟩

end Zkz.StagedExecution

namespace Zkz.StagedExecution

/-! ## The configurations that the scheduler goes through -/

/-- The invariant holds in every configuration, also inside an operation. -/
theorem IsReached_SchedulerInv {GPI : Bool} {Log : FLog} {Calls : List FCall} {s : TScheduler}
    (h : IsReached GPI Log Calls s) : ∃ Γ, SchedulerInv GPI Γ Log Calls s := by
  induction h with
  | Start => exact ⟨[], SchedulerInv_init GPI⟩
  | Step Log c Rest s _ ih =>
    obtain ⟨Γ, hI⟩ := ih
    exact ⟨_, SchedulerInv_step hI⟩
  | AddStage Log s X P _ ih =>
    obtain ⟨Γ, hI⟩ := ih
    obtain ⟨R, h1, _⟩ := SchedulerInv_AddStageCalls hI X P
    exact ⟨_, h1⟩
  | AddTaskToStage Log s X T _ ih =>
    obtain ⟨Γ, hI⟩ := ih
    obtain ⟨R, h1⟩ := SchedulerInv_AddTaskToStage hI X T
    exact ⟨_, h1⟩
  | SetAllTasksAdded Log s X _ ih =>
    obtain ⟨Γ, hI⟩ := ih
    obtain ⟨st, hst⟩ := Find_FindOrAddStage_isSome s X
    exact ⟨_, SchedulerInv_StageState_SetAllTasksAdded (SchedulerInv_FindOrAddStage hI X) X hst⟩
  | FulfilTaskCompletion Log s p _ hp ih =>
    obtain ⟨Γ, hI⟩ := ih
    exact ⟨_, SchedulerInv_fulfil hI hp⟩
  | DropTaskCompletion Log s p _ hp ih =>
    obtain ⟨Γ, hI⟩ := ih
    exact ⟨_, SchedulerInv_drop hI hp⟩

/-- The state in which an operation returns is reached. -/
theorem IsReached_RunCalls {GPI : Bool} {Log : FLog} {Calls : List FCall} {s : TScheduler}
    (h : IsReached GPI Log Calls s) : IsReached GPI Log [] (RunCalls GPI Calls s) :=
  RunCalls_induction GPI (fun Calls s => IsReached GPI Log Calls s)
    (fun c Rest s1 h1 => IsReached.Step Log c Rest s1 h1) _ Calls s (Nat.le_refl _) h

theorem IsReached_ApplyEvent {GPI : Bool} {r r' : FRun} {e : FEvent}
    (hR : IsReached GPI r.Observations [] r.Scheduler) (h : ApplyEvent GPI r e = some r') :
    IsReached GPI r'.Observations [] r'.Scheduler := by
  cases e with
  | AddStage X P =>
    simp only [ApplyEvent] at h
    replace h := Checked_some h
    cases h
    exact IsReached_RunCalls (IsReached.AddStage _ _ X P hR)
  | AddTaskToStage X T =>
    simp only [ApplyEvent] at h
    replace h := Checked_some h
    cases h
    exact IsReached.AddTaskToStage _ _ X T hR
  | SetAllTasksAdded X =>
    simp only [ApplyEvent] at h
    replace h := Checked_some h
    cases h
    exact IsReached_RunCalls (IsReached.SetAllTasksAdded _ _ X hR)
  | AddTask T P =>
    simp only [ApplyEvent] at h
    have h1 : IsReached GPI
        (r.Observations ++ [.AddStage T P (r.Scheduler.AddStage GPI T P).1]) []
        (r.Scheduler.AddStage GPI T P).2 :=
      IsReached_RunCalls (IsReached.AddStage _ _ T P hR)
    cases hA : r.Scheduler.AddStage GPI T P with
    | mk res s1 =>
      rw [hA] at h h1
      cases res with
      | error e =>
        simp only at h
        replace h := Checked_some h
        cases h
        exact h1
      | ok u =>
        simp only at h h1
        have h2 := IsReached.AddTaskToStage _ _ T T h1
        cases hB : s1.AddTaskToStage T T with
        | mk res2 s2 =>
          rw [hB] at h h2
          cases res2 with
          | error e => simp at h
          | ok f =>
            simp only at h h2
            replace h := Checked_some h
            cases h
            have h3 := IsReached_RunCalls (IsReached.SetAllTasksAdded _ _ T h2)
            simpa [List.append_assoc] using h3
  | FulfilTaskCompletion p =>
    simp only [ApplyEvent] at h
    split at h
    · rename_i hp
      replace h := Checked_some h
      cases h
      exact IsReached_RunCalls (IsReached.FulfilTaskCompletion _ _ p hR hp)
    · cases h
      exact hR
  | DropTaskCompletion p =>
    simp only [ApplyEvent] at h
    split at h
    · rename_i hp
      replace h := Checked_some h
      cases h
      exact IsReached_RunCalls (IsReached.DropTaskCompletion _ _ p hR hp)
    · cases h
      exact hR

theorem IsReached_foldlM (GPI : Bool) :
    ∀ (Events : List FEvent) (r0 r : FRun), IsReached GPI r0.Observations [] r0.Scheduler →
      Events.foldlM (ApplyEvent GPI) r0 = some r → IsReached GPI r.Observations [] r.Scheduler := by
  intro Events
  induction Events with
  | nil =>
    intro r0 r h0 h
    cases h
    exact h0
  | cons e Rest ih =>
    intro r0 r h0 h
    rw [List.foldlM_cons] at h
    cases h1 : ApplyEvent GPI r0 e with
    | none => rw [h1] at h; cases h
    | some r1 =>
      rw [h1] at h
      exact ih r1 r (IsReached_ApplyEvent h0 h1) h

/-- The state after a run of events is reached. -/
theorem Exec_IsReached (GPI : Bool) (Events : List FEvent) (r : FRun)
    (h : Exec GPI Events = some r) : IsReached GPI r.Observations [] r.Scheduler :=
  IsReached_foldlM GPI Events {} r IsReached.Start h

end Zkz.StagedExecution

namespace Zkz.StagedExecution

/-! ## The drain runs only after `SetAllTasksAdded` -/

theorem map_Id_eq_of_EntryOK {Γ : FRoles} {Log : FLog} {s : TScheduler} {X : IdType}
    {Ts : List FExecutingTaskEntry}
    (hE : ∀ (j : Nat) (e : FExecutingTaskEntry), Ts[j]? = some e → EntryOK Γ Log s X j e)
    (hlen : Ts.length = (TasksOf Log X).length) :
    Ts.map (fun e => e.Id) = (TasksOf Log X).map (fun e => e.1) := by
  apply List.ext_getElem?
  intro j
  rw [List.getElem?_map, List.getElem?_map]
  cases hj : Ts[j]? with
  | none =>
    have h1 : Ts.length ≤ j := List.getElem?_eq_none_iff.1 hj
    rw [List.getElem?_eq_none (by rw [← hlen]; exact h1)]
    rfl
  | some e =>
    obtain ⟨⟨he, h1⟩, _⟩ := hE j e hj
    rw [h1]
    rfl

/-- C40. The drain `CompleteWhenTasksFinished` runs only on an `Executing` stage whose
`allTasksCollected` flag is set. In every configuration that the scheduler goes through:
when the pending call is the continuation of the drain of stage `X`, or that continuation
is registered on a future, `X` is `Executing` with the flag set;
`TransitionToStageState_Executing` calls the drain only under the guard of the flag and
`SetAllTasksAdded` on an executing stage only after setting it. So the drain never finds
an empty task list with the flag not set, and as long as `SetAllTasksAdded(X)` was not
called the task list of an executing stage `X` holds every task that was added to it, in
order: none was popped. -/
theorem CompleteWhenTasksFinished_only_when_collected (GPI : Bool) (Log : FLog)
    (Calls : List FCall) (s : TScheduler) (hR : IsReached GPI Log Calls s) :
    (∀ X Rest, Calls = .Invoke (.CompleteWhenTasksFinished X) :: Rest →
      ∃ Ts Ps, s.Find X = some (.Executing X true Ts Ps)) ∧
    (∀ h X, s.CompletionCallback h = some (.CompleteWhenTasksFinished X) →
      ∃ Ts Ps, s.Find X = some (.Executing X true Ts Ps)) ∧
    (∀ Pending : TStageState_Pending,
      ((ExecuteAllTasks GPI Pending.Tasks s).2.Transition Pending.StageId
          (.Executing Pending.StageId Pending.bAllTasksCollected
            (ExecuteAllTasks GPI Pending.Tasks s).1 Pending.StageCompletionPromises)).Find
          Pending.StageId
        = some (.Executing Pending.StageId Pending.bAllTasksCollected
            (ExecuteAllTasks GPI Pending.Tasks s).1 Pending.StageCompletionPromises) ∧
      TransitionToStageState_Executing GPI s Pending =
        if Pending.bAllTasksCollected then
          CompleteWhenTasksFinished
            ((ExecuteAllTasks GPI Pending.Tasks s).2.Transition Pending.StageId
              (.Executing Pending.StageId Pending.bAllTasksCollected
                (ExecuteAllTasks GPI Pending.Tasks s).1 Pending.StageCompletionPromises))
            Pending.StageId
        else
          ((ExecuteAllTasks GPI Pending.Tasks s).2.Transition Pending.StageId
            (.Executing Pending.StageId Pending.bAllTasksCollected
              (ExecuteAllTasks GPI Pending.Tasks s).1 Pending.StageCompletionPromises), [])) ∧
    (∀ X Ts Ps, s.Find X = some (.Executing X false Ts Ps) →
      (s.Assign X (.Executing X true Ts Ps)).Find X = some (.Executing X true Ts Ps) ∧
      StageState_SetAllTasksAdded s X =
        CompleteWhenTasksFinished (s.Assign X (.Executing X true Ts Ps)) X) ∧
    (∀ X b Ts Ps, s.Find X = some (.Executing X b Ts Ps) → ¬ IsCollected Log X →
      b = false ∧ Ts.map (fun e => e.Id) = (TasksOf Log X).map (fun e => e.1) ∧
      (∀ h, s.CompletionCallback h ≠ some (.CompleteWhenTasksFinished X)) ∧
      Calls.head? ≠ some (.Invoke (.CompleteWhenTasksFinished X))) := by
  obtain ⟨Γ, hI⟩ := IsReached_SchedulerInv hR
  refine ⟨?_, ?_, ?_, ?_, ?_⟩
  · intro X Rest hC
    have h1 := hI.calls.2
    rw [hC] at h1
    exact h1.2.2
  · intro h X hcb
    have hlt := lt_of_CompletionCallback hcb
    have h1 := (hI.cells h hlt).2
    unfold CallbackOK at h1
    rw [hcb] at h1
    exact h1.2
  · intro Pending
    exact ⟨Find_Transition_same _ _ _ rfl, rfl⟩
  · intro X Ts Ps hX
    refine ⟨Find_Assign_same _ X _ _ rfl hX, ?_⟩
    unfold StageState_SetAllTasksAdded
    rw [hX]
    rfl
  · intro X b Ts Ps hX hnC
    have hOK := hI.stages X _ hX
    obtain ⟨_, _, hb, _, _, hEnt, hlen, hD⟩ := hOK
    have hb0 : b = false := by
      cases b with
      | false => rfl
      | true => exact absurd (hb.1 rfl) hnC
    rcases hD with ⟨_, hl, hcb, hhead, _⟩ | ⟨hb1, _⟩ | ⟨hb1, _⟩ | ⟨hb1, _⟩
    · exact ⟨hb0, map_Id_eq_of_EntryOK hEnt hl, hcb, hhead⟩
    · rw [hb0] at hb1; cases hb1
    · rw [hb0] at hb1; cases hb1
    · rw [hb0] at hb1; cases hb1

/-- C40, witness: a task is added to stage 1 and the stage is added without prerequisites,
`SetAllTasksAdded` is not called: the stage is `Executing`, the task is in its list and no
continuation of the drain is registered. -/
theorem CompleteWhenTasksFinished_only_when_collected_witness :
    Exec true ExampleTaskBeforeStage = some (ExecD true ExampleTaskBeforeStage) ∧
    (ExecD true ExampleTaskBeforeStage).Scheduler.Find 1
      = some (.Executing 1 false [{ Id := 5, FutureCompletion := 2 }] []) ∧
    ¬ IsCollected (ExecD true ExampleTaskBeforeStage).Observations 1 ∧
    (false = false ∧
      [({ Id := 5, FutureCompletion := 2 } : FExecutingTaskEntry)].map (fun e => e.Id)
        = (TasksOf (ExecD true ExampleTaskBeforeStage).Observations 1).map (fun e => e.1) ∧
      (∀ h, (ExecD true ExampleTaskBeforeStage).Scheduler.CompletionCallback h
        ≠ some (.CompleteWhenTasksFinished 1)) ∧
      ([] : List FCall).head? ≠ some (.Invoke (.CompleteWhenTasksFinished 1))) :=
  ⟨rfl, by decide, by unfold IsCollected; decide,
    (CompleteWhenTasksFinished_only_when_collected true
      (ExecD true ExampleTaskBeforeStage).Observations []
      (ExecD true ExampleTaskBeforeStage).Scheduler
      (Exec_IsReached true ExampleTaskBeforeStage (ExecD true ExampleTaskBeforeStage) rfl)).2.2.2.2
      1 false [{ Id := 5, FutureCompletion := 2 }] [] (by decide)
      (by unfold IsCollected; decide)⟩

end Zkz.StagedExecution

namespace Zkz.StagedExecution

/-! ## The release of the pending tasks -/

/-- In every configuration the pending tasks of a stage can be released. -/
theorem Inv_IsReleasable {GPI : Bool} {Γ : FRoles} {Log : FLog} {Calls : List FCall}
    {s : TScheduler} (hI : SchedulerInv GPI Γ Log Calls s) (X : IdType)
    (Pending : TStageState_Pending)
    (hX : s.Find X = some (.Undefined Pending) ∨ ∃ F, s.Find X = some (.Defined Pending F)) :
    Pending.StageId = X ∧ IsReleasable s Pending.Tasks := by
  have hPT : Pending.StageId = X ∧ PendingTasksOK Γ Log s Pending.StageId Pending.Tasks := by
    rcases hX with hX | ⟨F, hX⟩
    · have hid := GetStageId_of_Find hX
      have hOK := hI.stages X _ hX
      exact ⟨hid, hOK.2.2.1⟩
    · have hid := GetStageId_of_Find hX
      have hOK := hI.stages X _ hX
      exact ⟨hid, hOK.2.2.2.1⟩
  obtain ⟨hid, _, h2⟩ := hPT
  refine ⟨hid, ?_, Nodup_of_roles Pending.Tasks (fun j t hj => (h2 j t hj).1)⟩
  intro t ht
  obtain ⟨j, hj, hjt⟩ := mem_getElem? ht
  obtain ⟨h3, h4⟩ := h2 j t hjt
  refine ⟨?_, h4⟩
  rw [← hI.roles]
  exact (List.getElem?_eq_some.1 h3).1

theorem IsReleasable_of_Futures {s s' : TScheduler} {Tasks : List FPendingTaskEntry}
    (h : s'.Futures = s.Futures) (hR : IsReleasable s Tasks) : IsReleasable s' Tasks := by
  refine ⟨fun t ht => ?_, hR.2⟩
  obtain ⟨h1, h2⟩ := hR.1 t ht
  exact ⟨by rw [h]; exact h1, by rw [Result_of_Futures h]; exact h2⟩

/-- The batch release: the entries have the ids of the pending tasks, in order; the
execution promise of the `j`-th task is fulfilled with a new task completion promise that
is not fulfilled. -/
theorem ExecuteAllTasks_releases (GPI : Bool) (Tasks : List FPendingTaskEntry) (s : TScheduler)
    (hR : IsReleasable s Tasks) :
    (ExecuteAllTasks GPI Tasks s).1.map (fun e => e.Id) = Tasks.map (fun t => t.Id) ∧
    ∀ (j : Nat) (t : FPendingTaskEntry), Tasks[j]? = some t →
      (ExecuteAllTasks GPI Tasks s).2.Result t.ExecutionPromise
        = some (.Value (some (s.Futures.length + if GPI = true then 2 * j else j))) ∧
      (ExecuteAllTasks GPI Tasks s).2.Result
        (s.Futures.length + if GPI = true then 2 * j else j) = none := by
  have hspec : ∀ (j : Nat) (t : FPendingTaskEntry), Tasks[j]? = some t →
      (∃ f, (ExecuteAllTasks GPI Tasks s).1[j]? = some { Id := t.Id, FutureCompletion := f }) ∧
      (ExecuteAllTasks GPI Tasks s).2.Result t.ExecutionPromise
        = some (.Value (some (s.Futures.length + if GPI = true then 2 * j else j))) ∧
      (ExecuteAllTasks GPI Tasks s).2.Result
        (s.Futures.length + if GPI = true then 2 * j else j) = none := by
    intro j t hj
    cases GPI with
    | false =>
      obtain ⟨_, _, h3⟩ := ExecuteAllTasks_false_spec Tasks s hR.1 hR.2
      obtain ⟨g1, _, g3, g4, _⟩ := h3 j t hj
      exact ⟨⟨_, g3⟩, g1, g4⟩
    | true =>
      obtain ⟨_, _, h3⟩ := ExecuteAllTasks_true_spec Tasks s hR.1 hR.2
      obtain ⟨g1, _, g3, g4, _⟩ := h3 j t hj
      exact ⟨⟨_, g3⟩, g1, g4⟩
  refine ⟨?_, fun j t hj => (hspec j t hj).2⟩
  apply List.ext_getElem?
  intro j
  rw [List.getElem?_map, List.getElem?_map]
  cases hj : Tasks[j]? with
  | none =>
    have h1 : Tasks.length ≤ j := List.getElem?_eq_none_iff.1 hj
    rw [List.getElem?_eq_none (by rw [ExecuteAllTasks_length]; exact h1)]
    rfl
  | some t =>
    obtain ⟨⟨f, hf⟩, _⟩ := hspec j t hj
    rw [hf]
    rfl

/-- C32. Batch release. In every configuration that the scheduler goes through, the
execution promises of the pending tasks of an `Undefined` or `Defined` stage are distinct
shared states that are not resolved. The transition `Defined -> Executing`, made in a state
with this heap, fulfils the execution promise of the `j`-th pending task with a task
completion promise that is allocated by the transition and is not fulfilled (no execution
promise is left unresolved or canceled), gives the executing task list the ids of the
pending tasks in the same order (hence the same length), and the new `Executing` state has
the stage id, the `allTasksCollected` flag and the queued stage completion promises of the
`Defined` state; the drain follows only when the flag is set. The transition
`Undefined -> Defined` keeps the stage id, the flag, the tasks and the promises. -/
theorem Batch_release (GPI : Bool) (Log : FLog) (Calls : List FCall) (s : TScheduler)
    (hR : IsReached GPI Log Calls s) (X : IdType) (Pending : TStageState_Pending)
    (hX : s.Find X = some (.Undefined Pending) ∨ ∃ F, s.Find X = some (.Defined Pending F)) :
    Pending.StageId = X ∧ IsReleasable s Pending.Tasks ∧
    ∀ s' : TScheduler, s'.Futures = s.Futures →
      ((ExecuteAllTasks GPI Pending.Tasks s').1.map (fun e => e.Id)
          = Pending.Tasks.map (fun t => t.Id) ∧
        (ExecuteAllTasks GPI Pending.Tasks s').1.length = Pending.Tasks.length) ∧
      (∀ (j : Nat) (t : FPendingTaskEntry), Pending.Tasks[j]? = some t →
        s.Result t.ExecutionPromise = none ∧
        s.Result (s.Futures.length + if GPI = true then 2 * j else j) = none ∧
        s.Futures.length ≤ s.Futures.length + (if GPI = true then 2 * j else j) ∧
        (ExecuteAllTasks GPI Pending.Tasks s').2.Result t.ExecutionPromise
          = some (.Value (some (s.Futures.length + if GPI = true then 2 * j else j))) ∧
        (ExecuteAllTasks GPI Pending.Tasks s').2.Result
          (s.Futures.length + if GPI = true then 2 * j else j) = none) ∧
      ((ExecuteAllTasks GPI Pending.Tasks s').2.Transition X
          (.Executing X Pending.bAllTasksCollected
            (ExecuteAllTasks GPI Pending.Tasks s').1 Pending.StageCompletionPromises)).Find X
        = some (.Executing X Pending.bAllTasksCollected
            (ExecuteAllTasks GPI Pending.Tasks s').1 Pending.StageCompletionPromises) ∧
      (TransitionToStageState_Executing GPI s' Pending =
        if Pending.bAllTasksCollected then
          CompleteWhenTasksFinished
            ((ExecuteAllTasks GPI Pending.Tasks s').2.Transition X
              (.Executing X Pending.bAllTasksCollected
                (ExecuteAllTasks GPI Pending.Tasks s').1 Pending.StageCompletionPromises)) X
        else
          ((ExecuteAllTasks GPI Pending.Tasks s').2.Transition X
            (.Executing X Pending.bAllTasksCollected
              (ExecuteAllTasks GPI Pending.Tasks s').1 Pending.StageCompletionPromises), [])) ∧
      ∀ F : List FFutureHandle,
        (s'.Transition X (.Defined Pending F)).Find X = some (.Defined Pending F) ∧
        TransitionToStageState_Defined GPI s' Pending F =
          StartExecutingWhenPrerequisitesComplete GPI (s'.Transition X (.Defined Pending F)) X := by
  obtain ⟨Γ, hI⟩ := IsReached_SchedulerInv hR
  obtain ⟨hid, hRel⟩ := Inv_IsReleasable hI X Pending hX
  refine ⟨hid, hRel, ?_⟩
  intro s' hF
  have hRel' := IsReleasable_of_Futures hF hRel
  obtain ⟨h1, h2⟩ := ExecuteAllTasks_releases GPI Pending.Tasks s' hRel'
  rw [hF] at h2
  subst hid
  refine ⟨⟨h1, ExecuteAllTasks_length GPI Pending.Tasks s'⟩, ?_,
    Find_Transition_same _ _ _ rfl, rfl, fun F => ⟨Find_Transition_same _ _ _ rfl, rfl⟩⟩
  intro j t hj
  refine ⟨(hRel.1 t (mem_of_getElem?_some hj)).2, ?_, Nat.le_add_right _ _, (h2 j t hj).1,
    (h2 j t hj).2⟩
  exact Result_of_lt_none (Nat.le_add_right _ _)

/-- C32, witness: stage 2 is `Defined` and waits for stage 1 with one pending task; the
release would fulfil its execution promise `0` with the new task completion promise `2`. -/
theorem Batch_release_witness :
    Exec true ExampleWaitingTask = some (ExecD true ExampleWaitingTask) ∧
    (ExecD true ExampleWaitingTask).Scheduler.Find 2
      = some (.Defined { StageId := 2, Tasks := [{ Id := 5, ExecutionPromise := 0 }] } []) ∧
    IsReleasable (ExecD true ExampleWaitingTask).Scheduler [{ Id := 5, ExecutionPromise := 0 }] ∧
    (ExecD true ExampleWaitingTask).Scheduler.Result 0 = none ∧
    (ExecuteAllTasks true [{ Id := 5, ExecutionPromise := 0 }]
      (ExecD true ExampleWaitingTask).Scheduler).2.Result 0 = some (.Value (some 2)) ∧
    (ExecuteAllTasks true [{ Id := 5, ExecutionPromise := 0 }]
      (ExecD true ExampleWaitingTask).Scheduler).2.Result 2 = none ∧
    (ExecuteAllTasks true [{ Id := 5, ExecutionPromise := 0 }]
      (ExecD true ExampleWaitingTask).Scheduler).1 = [{ Id := 5, FutureCompletion := 3 }] :=
  ⟨rfl, by decide,
    (Batch_release true (ExecD true ExampleWaitingTask).Observations []
      (ExecD true ExampleWaitingTask).Scheduler
      (Exec_IsReached true ExampleWaitingTask (ExecD true ExampleWaitingTask) rfl) 2
      { StageId := 2, Tasks := [{ Id := 5, ExecutionPromise := 0 }] }
      (Or.inr ⟨[], by decide⟩)).2.1,
    by decide, by decide, by decide, by decide⟩

end Zkz.StagedExecution

namespace Zkz.StagedExecution

/-! ## A task added before its stage -/

/-- C34, counterexample. A task is added to stage 1, then `AddStage(1, [])` is called and
`SetAllTasksAdded(1)` is not: when `AddStage` has returned, with or without inspections,
the stage is `Executing` with the flag not set and the execution future `0` of the task is
resolved with a task completion promise, so the continuation of the client has run the
task. `SetAllTasksAdded(1)` afterwards leaves the execution future as it is. -/
theorem AddStage_runs_task_before_SetAllTasksAdded :
    (∃ r, Exec false ExampleTaskBeforeStage = some r ∧
      r.Observations = [.AddTaskToStage 1 5 (.ok 0), .AddStage 1 [] (.ok ())] ∧
      r.Scheduler.GetId 1 = .Executing ∧
      r.Scheduler.IsAllTasksCollected 1 = false ∧
      r.Scheduler.Result 0 = some (.Value (some 1)) ∧
      (r.Scheduler.SetAllTasksAdded false 1).Result 0 = r.Scheduler.Result 0) ∧
    (∃ r, Exec true ExampleTaskBeforeStage = some r ∧
      r.Observations = [.AddTaskToStage 1 5 (.ok 0), .AddStage 1 [] (.ok ())] ∧
      r.Scheduler.GetId 1 = .Executing ∧
      r.Scheduler.IsAllTasksCollected 1 = false ∧
      r.Scheduler.Result 0 = some (.Value (some 1)) ∧
      (r.Scheduler.SetAllTasksAdded true 1).Result 0 = r.Scheduler.Result 0) :=
  ⟨⟨_, rfl, by decide, by decide, by decide, by decide, by decide⟩,
    ⟨_, rfl, by decide, by decide, by decide, by decide, by decide⟩⟩

end Zkz.StagedExecution

namespace Zkz.StagedExecution

/-! ## A stage whose chain of prerequisites was cut stays defined -/

end Zkz.StagedExecution

namespace Zkz.StagedExecution

/-! ### The promise operations -/

end Zkz.StagedExecution

namespace Zkz.StagedExecution

/-! ### The calls of a cascade -/

end Zkz.StagedExecution

namespace Zkz.StagedExecution

/-! ### The public operations -/

end Zkz.StagedExecution

namespace Zkz.StagedExecution

/-- A task execution future resolves with a task completion promise. -/
theorem Inv_payload_role {GPI : Bool} {Γ : FRoles} {Log : FLog} {Calls : List FCall}
    {s : TScheduler} (hI : SchedulerInv GPI Γ Log Calls s) {c p : FFutureHandle}
    (hR : s.Result c = some (.Value (some p))) : ∃ X j, Γ[p]? = some (.TaskCompletion X j) := by
  have hlt := lt_of_Result hR
  obtain ⟨hcell, _⟩ := hI.cells c hlt
  cases hr : Γ[c]? with
  | none =>
    rw [← hI.roles] at hlt
    rw [List.getElem?_eq_none_iff] at hr
    exact absurd hlt (Nat.not_lt.2 hr)
  | some r =>
    cases r with
    | StageCompletion q d =>
      obtain ⟨_, h2⟩ := (CellOK_StageCompletion_iff hr).1 hcell
      rcases h2 with ⟨h2, _⟩ | ⟨h2, _⟩ <;> rw [hR] at h2 <;> cases h2
    | TaskExecution X j =>
      obtain ⟨_, T, _, _, h2⟩ := (CellOK_TaskExecution_iff hr).1 hcell
      rcases h2 with h2 | ⟨hc', h2, h3⟩
      · rw [hR] at h2; cases h2
      · rw [hR] at h2
        cases h2
        exact ⟨X, j, h3⟩
    | TaskCompletion X j =>
      obtain ⟨_, T, he', _, _, h2, _⟩ := (CellOK_TaskCompletion_iff hr).1 hcell
      rcases h2 with h2 | h2 | h2 <;> rw [hR] at h2 <;> cases h2
    | PostNotify X j =>
      obtain ⟨_, T, he', hc', _, _, _, hl⟩ := (CellOK_PostNotify_iff hr).1 hcell
      rcases hl with ⟨_, _, h3⟩ | ⟨_, h2⟩ | ⟨_, h2⟩
      · rw [hR] at h3; cases h3
      · rcases h2 with h2 | ⟨h2, _⟩ <;> rw [hR] at h2 <;> cases h2
      · rcases h2 with h2 | ⟨h2, _⟩ <;> rw [hR] at h2 <;> cases h2

/-- The promise that a `PostNotifyCompletion` continuation owns is a post-notify promise. -/
theorem Inv_captured_role {GPI : Bool} {Γ : FRoles} {Log : FLog} {Calls : List FCall}
    {s : TScheduler} (hI : SchedulerInv GPI Γ Log Calls s) {c f : FFutureHandle} {T : IdType}
    (hcb : s.CompletionCallback c = some (.PostNotifyCompletion T f)) :
    ∃ X j, Γ[f]? = some (.PostNotify X j) := by
  have hlt := lt_of_CompletionCallback hcb
  obtain ⟨hcell, hcall⟩ := hI.cells c hlt
  obtain ⟨X, j, hΓ⟩ := CallbackOK_PostNotify hcall hcb
  obtain ⟨_, T0, he, _, _, _, h2⟩ := (CellOK_TaskCompletion_iff hΓ).1 hcell
  exact ⟨X, j, (h2 T f hcb).2⟩

end Zkz.StagedExecution

namespace Zkz.StagedExecution

/-! ### The destruction of a queued promise -/

theorem RemovePromise_GetStageId (a : FFutureHandle) (st : TStageState) :
    (st.RemovePromise a).GetStageId = st.GetStageId := by
  cases st <;> rfl

theorem RemovePromise_Promises (a : FFutureHandle) (st : TStageState) :
    a ∉ (st.RemovePromise a).Promises := by
  intro hh
  cases st with
  | Undefined P => simpa using (List.mem_filter.mp hh).2
  | Defined P F => simpa using (List.mem_filter.mp hh).2
  | Executing Id b Ts Ps => simpa using (List.mem_filter.mp hh).2
  | Completed Id => cases hh

theorem Find_RemovePromise (s : TScheduler) (a : FFutureHandle) (X : IdType) :
    (s.RemovePromise a).Find X = (s.Find X).map (TStageState.RemovePromise a) := by
  unfold TScheduler.Find TScheduler.RemovePromise
  simp only
  rw [List.find?_map]
  congr 2
  funext st
  simp only [Function.comp, RemovePromise_GetStageId]

theorem PromisesOf_RemovePromise (s : TScheduler) (a : FFutureHandle) (Y : IdType) :
    a ∉ (s.RemovePromise a).PromisesOf Y := by
  unfold TScheduler.PromisesOf
  rw [Find_RemovePromise]
  cases hF : s.Find Y with
  | none => simp
  | some st => exact RemovePromise_Promises a st

@[simp] theorem RemovePromise_Result (s : TScheduler) (a h : FFutureHandle) :
    (s.RemovePromise a).Result h = s.Result h := rfl

@[simp] theorem RemovePromise_Futures (s : TScheduler) (a : FFutureHandle) :
    (s.RemovePromise a).Futures = s.Futures := rfl

end Zkz.StagedExecution

namespace Zkz.StagedExecution

end Zkz.StagedExecution

namespace Zkz.StagedExecution

/-! ### Completed stages and the calls observed -/

theorem FinishedOK_mono {Log Log' : FLog} {s s' : TScheduler} {X : IdType}
    (hT : TasksOf Log' X = TasksOf Log X)
    (hR : ∀ h r, s.Result h = some r → s'.Result h = some r) {j : Nat}
    (h : FinishedOK Log s X j) : FinishedOK Log' s' X j := by
  obtain ⟨T, he, hc, h1, h2, h3⟩ := h
  exact ⟨T, he, hc, by rw [hT]; exact h1, hR _ _ h2, hR _ _ h3⟩

/-- A stage that is complete by the calls observed stays so: no task is added to a stage
after `SetAllTasksAdded`, and a resolved future stays as it is. -/
theorem IsCompleteInd_mono {Log Log' : FLog} {s s' : TScheduler}
    (hA : ∀ X P, IsAddedWith Log X P → IsAddedWith Log' X P)
    (hC : ∀ X, IsCollected Log X → IsCollected Log' X)
    (hT : ∀ X, IsCollected Log X → TasksOf Log' X = TasksOf Log X)
    (hR : ∀ h r, s.Result h = some r → s'.Result h = some r) {X : IdType}
    (h : IsCompleteInd Log s X) : IsCompleteInd Log' s' X := by
  induction h with
  | intro X P h1 _ h3 h4 ih =>
    refine .intro X P (hA X P h1) ih (hC X h3) ?_
    intro j hj
    rw [hT X h3] at hj
    exact FinishedOK_mono (hT X h3) hR (h4 j hj)

/-- One pending call: a stage that becomes completing is complete by the calls observed. -/
theorem IsCompleteInd_step {GPI : Bool} {Γ : FRoles} {Log : FLog} {c : FCall}
    {Rest : List FCall} {s : TScheduler} (hI : SchedulerInv GPI Γ Log (c :: Rest) s)
    (hJ : ∀ X, IsDone s (c :: Rest) X → IsCompleteInd Log s X) :
    ∀ X, IsDone (StepCall GPI s c).1 ((StepCall GPI s c).2 ++ Rest) X →
      IsCompleteInd Log (StepCall GPI s c).1 X := by
  have fp := Inv_IsStepFootprint hI c
  have hI' := SchedulerInv_step hI
  have hmono : ∀ Y, IsCompleteInd Log s Y → IsCompleteInd Log (StepCall GPI s c).1 Y :=
    fun Y h => IsCompleteInd_mono (fun _ _ h => h) (fun _ h => h) (fun _ _ => rfl) fp.results h
  intro X hX
  by_cases hold : IsDone s (c :: Rest) X
  · exact hmono X (hJ X hold)
  · have hnew : FCall.Transition_Completed X ∈ (StepCall GPI s c).2 := by
      rcases hX with h | h
      · rcases fp.completed X h with h1 | h1
        · exact absurd (Or.inl h1) hold
        · exact absurd (Or.inr (by rw [h1]; exact List.mem_cons_self _ _)) hold
      · rcases List.mem_append.mp h with h1 | h1
        · exact h1
        · exact absurd (Or.inr (List.mem_cons_of_mem _ h1)) hold
    have hpre : ∃ P, IsAddedWith Log X P ∧ ∀ p, p ∈ P → IsDone s (c :: Rest) p := by
      rcases fp.closing X hnew with h1 | ⟨h1, Pd, h2⟩
      · subst h1
        obtain ⟨_, _, Ts, Ps, hF⟩ := hI.calls.2
        obtain ⟨⟨P, hP⟩, h3, _⟩ := hI.stages X _ hF
        exact ⟨P, hP, h3 P hP⟩
      · subst h1
        have hid := GetStageId_of_Find h2
        simp only [TStageState.GetStageId] at hid
        obtain ⟨⟨P, hP⟩, h3, _⟩ := hI.stages X _ h2
        rw [hid] at hP h3
        obtain ⟨_, _, h4⟩ := h3 P hP
        rcases h4 with ⟨_, _, h5⟩ | ⟨h5, _⟩
        · refine ⟨P, hP, ?_⟩
          intro p hp
          obtain ⟨j, hj⟩ := List.getElem?_of_mem hp
          exact h5 j p (Nat.zero_le _) hj
        · exact absurd rfl h5
    obtain ⟨P, hP, hdone⟩ := hpre
    have hF' := hI'.calls.1 X (List.mem_append_left _ hnew)
    obtain ⟨_, _, h3, _, _, h6⟩ := hI'.stages X _ hF'
    refine .intro X P hP (fun p hp => hmono p (hJ p (hdone p hp))) (h3.1 rfl) ?_
    obtain ⟨_, _, h7⟩ := h6
    rcases h7 with ⟨h8, _⟩ | ⟨_, _, _, _, h8, _⟩ | ⟨_, h8, _⟩ | ⟨_, h8, _⟩
    · cases h8
    · exact h8
    · exact absurd (List.mem_append_left _ hnew) h8
    · exact absurd (List.mem_append_left _ hnew) h8

/-- A cascade of calls: every stage that ends completed is complete by the calls
observed. -/
theorem IsCompleteInd_RunCalls {GPI : Bool} {Γ : FRoles} {Log : FLog} {Calls : List FCall}
    {s : TScheduler} (hI : SchedulerInv GPI Γ Log Calls s)
    (hJ : ∀ X, IsDone s Calls X → IsCompleteInd Log s X) :
    ∀ X, (RunCalls GPI Calls s).GetId X = .Completed →
      IsCompleteInd Log (RunCalls GPI Calls s) X := by
  have h := RunCalls_induction GPI
    (fun Calls s => (∃ Γ, SchedulerInv GPI Γ Log Calls s) ∧
      ∀ X, IsDone s Calls X → IsCompleteInd Log s X)
    ?_ _ Calls s (Nat.le_refl _) ⟨⟨Γ, hI⟩, hJ⟩
  · intro X hX
    exact h.2 X (Or.inl hX)
  · rintro c Rest s1 ⟨⟨Γ1, h1⟩, h2⟩
    exact ⟨⟨_, SchedulerInv_step h1⟩, IsCompleteInd_step h1 h2⟩

end Zkz.StagedExecution

namespace Zkz.StagedExecution

/-! ### The scheduler leaves the tasks to the client -/

theorem IsTaskFrame_refl (s : TScheduler) : IsTaskFrame s s :=
  ⟨fun _ _ h => h, fun _ _ h => Or.inl ⟨h, rfl⟩⟩

theorem IsTaskFrame_trans {s1 s2 s3 : TScheduler} (h12 : IsTaskFrame s1 s2)
    (h23 : IsTaskFrame s2 s3) : IsTaskFrame s1 s3 := by
  refine ⟨fun h r hr => h23.results h r (h12.results h r hr), ?_⟩
  intro he hc h3
  rcases h23.payloads he hc h3 with ⟨h2, e2⟩ | ⟨h2, e2⟩
  · rcases h12.payloads he hc h2 with ⟨h1, e1⟩ | ⟨h1, e1⟩
    · exact Or.inl ⟨h1, e2.trans e1⟩
    · exact Or.inr ⟨h1, e2.trans e1⟩
  · refine Or.inr ⟨?_, e2⟩
    cases h1 : s1.Result he with
    | none => rfl
    | some r =>
      rw [h12.results he r h1] at h2
      cases h2

theorem IsTaskFrame_of_Futures {s s' : TScheduler} (h : s'.Futures = s.Futures) :
    IsTaskFrame s s' := by
  have hR : ∀ x, s'.Result x = s.Result x := fun x => Result_of_Futures h x
  exact ⟨fun x r hr => by rw [hR]; exact hr, fun he hc hp => Or.inl ⟨by rw [← hR]; exact hp, hR hc⟩⟩

theorem mem_HeldBy_of_mem_PromisesOf {s : TScheduler} {Y : IdType} {h : FFutureHandle}
    (hh : h ∈ s.PromisesOf Y) : h ∈ s.HeldBy Y := by
  cases hF : s.Find Y with
  | none =>
    rw [TScheduler.PromisesOf, hF] at hh
    cases hh
  | some st =>
    rw [PromisesOf_of_Find hF] at hh
    rw [HeldBy_of_Find hF]
    cases st with
    | Undefined P => exact List.mem_append_right _ hh
    | Defined P F => exact List.mem_append_right _ hh
    | Executing Z b Ts Ps => exact hh
    | Completed Z => cases hh

/-- One pending call that does not resolve a task completion future leaves the tasks to
the client. -/
theorem IsTaskFrame_step {GPI : Bool} {Γ : FRoles} {Log : FLog} {c : FCall}
    {Rest : List FCall} {s : TScheduler} (hI : SchedulerInv GPI Γ Log (c :: Rest) s)
    (hH : ∀ h, c.Target = some h → ∀ X j, Γ[h]? ≠ some (.TaskCompletion X j)) :
    IsTaskFrame s (StepCall GPI s c).1 := by
  have fp := Inv_IsStepFootprint hI c
  refine ⟨fp.results, ?_⟩
  intro he hc hp
  cases h1 : s.Result he with
  | none =>
    refine Or.inr ⟨rfl, ?_⟩
    rcases fp.payloads he hc hp with h2 | h2
    · rw [h1] at h2; cases h2
    · exact fp.fresh hc h2
  | some r =>
    have h2 := fp.results he r h1
    rw [hp] at h2
    cases h2
    refine Or.inl ⟨rfl, ?_⟩
    by_contra hne
    obtain ⟨X, j, hΓ⟩ := Inv_payload_role hI h1
    rcases fp.resolved hc hne with h3 | ⟨Y, _, h3⟩
    · exact hH hc h3 X j hΓ
    · rcases (Inv_HeldBy_role hI h3).1 with ⟨i, h4⟩ | ⟨d, h4⟩
      · rw [hΓ] at h4; cases h4
      · rw [hΓ] at h4; cases h4

/-- The call after a pending call does not resolve a task completion future: only the
client does. -/
theorem NextCall_role {GPI : Bool} {Γ : FRoles} {Log : FLog} {c : FCall}
    {Rest : List FCall} {s : TScheduler} (hI : SchedulerInv GPI Γ Log (c :: Rest) s) :
    ∀ c', ((StepCall GPI s c).2 ++ Rest).head? = some c' → ∀ h, c'.Target = some h →
      ∀ X j, (StepRoles GPI s Γ c)[h]? ≠ some (.TaskCompletion X j) := by
  have fp := Inv_IsStepFootprint hI c
  have hI' := SchedulerInv_step hI
  obtain ⟨R, hR⟩ := StepRoles_append GPI s Γ c
  intro c' hc' h ht X j hΓ'
  have hmem : c' ∈ (StepCall GPI s c).2 ++ Rest := List.mem_of_mem_head? hc'
  have hTail := CallsOK_TailOK_rest hI.calls
  have hold : ∀ r, Γ[h]? = some r → r = .TaskCompletion X j := by
    intro r hr
    have := getElem?_append_old Γ R h r hr
    rw [← hR, hΓ'] at this
    exact (Option.some.inj this).symm
  cases c' with
  | Transition_Completed Y => cases ht
  | EmplaceValue x =>
    cases ht
    rcases List.mem_append.mp hmem with h1 | h1
    · obtain ⟨Y, hY⟩ := fp.emplaced h h1
      rcases (Inv_HeldBy_role hI (mem_HeldBy_of_mem_PromisesOf hY)).1 with ⟨i, h4⟩ | ⟨d, h4⟩
      · cases hold _ h4
      · cases hold _ h4
    · obtain ⟨p, d, h4, _⟩ := TailOK_EmplaceValue_mem hTail h h1
      cases hold _ h4
  | Cancel x =>
    cases ht
    rcases List.mem_append.mp hmem with h1 | h1
    · obtain ⟨Cell, T, hcb⟩ := fp.cancelled h h1
      obtain ⟨Y, i, h4⟩ := Inv_captured_role hI hcb
      cases hold _ h4
    · exact TailOK_Cancel_not_mem hTail h h1
  | Invoke F =>
    cases F with
    | StartExecutingWhenPrerequisitesComplete Y => cases ht
    | CompleteWhenTasksFinished Y => cases ht
    | PostNotifyCompletion T f =>
      cases ht
      have h5 := hI'.calls.2
      cases hL : (StepCall GPI s c).2 ++ Rest with
      | nil => rw [hL] at hc'; cases hc'
      | cons a L =>
        rw [hL] at hc' h5
        cases hc'
        obtain ⟨_, Y, i, he, hc, h6, _⟩ := h5
        rw [hΓ'] at h6
        cases h6

/-- A cascade of calls that does not start with the client resolving a task completion
future leaves the tasks to the client. -/
theorem IsTaskFrame_RunCalls {GPI : Bool} {Γ : FRoles} {Log : FLog} {Calls : List FCall}
    {s : TScheduler} (hI : SchedulerInv GPI Γ Log Calls s)
    (hH : ∀ c, Calls.head? = some c → ∀ h, c.Target = some h →
      ∀ X j, Γ[h]? ≠ some (.TaskCompletion X j)) :
    IsTaskFrame s (RunCalls GPI Calls s) := by
  have h := RunCalls_induction GPI
    (fun Calls1 s1 => (∃ Γ1, SchedulerInv GPI Γ1 Log Calls1 s1 ∧
        ∀ c, Calls1.head? = some c → ∀ h, c.Target = some h →
          ∀ X j, Γ1[h]? ≠ some (.TaskCompletion X j)) ∧ IsTaskFrame s s1)
    ?_ _ Calls s (Nat.le_refl _) ⟨⟨Γ, hI, hH⟩, IsTaskFrame_refl s⟩
  · exact h.2
  · rintro c Rest s1 ⟨⟨Γ1, h1, h2⟩, h3⟩
    exact ⟨⟨_, SchedulerInv_step h1, NextCall_role h1⟩,
      IsTaskFrame_trans h3 (IsTaskFrame_step h1 (fun h ht => h2 c rfl h ht))⟩

end Zkz.StagedExecution

namespace Zkz.StagedExecution

/-! ### The stages that are registered -/

theorem Find_ne_none_of_Progress {s s' : TScheduler} (h : Progress s s') {Y : IdType}
    (hY : s.Find Y ≠ none) : s'.Find Y ≠ none := by
  intro hn
  have h1 := (h Y).1
  rw [GetId_of_Find_none hn] at h1
  cases hF : s.Find Y with
  | none => exact hY hF
  | some st =>
    rw [GetId_of_Find hF] at h1
    cases st <;> simp [TStageState.GetId, EStageStateId.Index] at h1

/-- A pending call registers no stage. -/
theorem Find_none_step {GPI : Bool} {Γ : FRoles} {Log : FLog} {c : FCall}
    {Rest : List FCall} {s : TScheduler} (hI : SchedulerInv GPI Γ Log (c :: Rest) s)
    (Y : IdType) : (StepCall GPI s c).1.Find Y = none ↔ s.Find Y = none := by
  have fp := Inv_IsStepFootprint hI c
  by_cases hc : c.Stage = some Y
  · have hreg : s.Find Y ≠ none := by
      cases c with
      | EmplaceValue x => cases hc
      | Cancel x => cases hc
      | Transition_Completed Z =>
        cases hc
        rw [hI.calls.1 Y (List.mem_cons_self _ _)]
        exact fun h => by cases h
      | Invoke F =>
        cases F with
        | StartExecutingWhenPrerequisitesComplete Z =>
          cases hc
          obtain ⟨_, Pd, F, hF⟩ := hI.calls.2
          rw [hF]
          exact fun h => by cases h
        | CompleteWhenTasksFinished Z =>
          cases hc
          obtain ⟨_, _, Ts, Ps, hF⟩ := hI.calls.2
          rw [hF]
          exact fun h => by cases h
        | PostNotifyCompletion T f => cases hc
    exact ⟨fun h => absurd h (Find_ne_none_of_Progress (Progress_StepCall GPI s c) hreg),
      fun h => absurd h hreg⟩
  · rw [fp.stages Y hc]

/-- A cascade of calls registers no stage. -/
theorem Find_none_RunCalls {GPI : Bool} {Γ : FRoles} {Log : FLog} {Calls : List FCall}
    {s : TScheduler} (hI : SchedulerInv GPI Γ Log Calls s) (Y : IdType) :
    (RunCalls GPI Calls s).Find Y = none ↔ s.Find Y = none := by
  have h := RunCalls_induction GPI
    (fun Calls1 s1 => (∃ Γ1, SchedulerInv GPI Γ1 Log Calls1 s1) ∧
      (s1.Find Y = none ↔ s.Find Y = none))
    ?_ _ Calls s (Nat.le_refl _) ⟨⟨Γ, hI⟩, Iff.rfl⟩
  · exact h.2
  · rintro c Rest s1 ⟨⟨Γ1, h1⟩, h2⟩
    exact ⟨⟨_, SchedulerInv_step h1⟩, (Find_none_step h1 Y).trans h2⟩

/-- A public operation, from its start to its return: it leaves the tasks to the client,
registers the stages that it mentions, and the stages that it completes are complete by
the calls observed. -/
theorem Operation_facts {GPI : Bool} {Γ0 : FRoles} {Log : FLog} {o : FObservation}
    {s s0 : TScheduler} {Calls0 : List FCall}
    (hJ : ∀ X, s.GetId X = .Completed → IsCompleteInd Log s X)
    (hS : IsOperationStart o s s0 Calls0)
    (hI0 : SchedulerInv GPI Γ0 (Log ++ [o]) Calls0 s0)
    (hA : ∀ X P, IsAddedWith Log X P → IsAddedWith (Log ++ [o]) X P)
    (hC : ∀ X, IsCollected Log X → IsCollected (Log ++ [o]) X)
    (hT : ∀ X, IsCollected Log X → TasksOf (Log ++ [o]) X = TasksOf Log X) :
    IsTaskFrame s (RunCalls GPI Calls0 s0) ∧
    (∀ Y, (RunCalls GPI Calls0 s0).Find Y = none ↔ (s.Find Y = none ∧ ¬ o.Mentions Y)) ∧
    ∀ X, (RunCalls GPI Calls0 s0).GetId X = .Completed →
      IsCompleteInd (Log ++ [o]) (RunCalls GPI Calls0 s0) X := by
  refine ⟨IsTaskFrame_trans hS.frame (IsTaskFrame_RunCalls hI0 ?_),
    fun Y => (Find_none_RunCalls hI0 Y).trans (hS.registered Y),
    IsCompleteInd_RunCalls hI0 ?_⟩
  · intro c hc h ht
    rw [(hS.calls c (List.mem_of_mem_head? hc)).1] at ht
    cases ht
  · intro X hX
    rcases hX with hX | hX
    · exact IsCompleteInd_mono hA hC hT hS.frame.results (hJ X (hS.completed X hX))
    · exact absurd rfl ((hS.calls _ hX).2 X)

end Zkz.StagedExecution

namespace Zkz.StagedExecution

/-! ### The public operations up to their first call -/

theorem IsTaskFrame_of_Result {s s' : TScheduler} (h : ∀ x, s'.Result x = s.Result x) :
    IsTaskFrame s s' :=
  ⟨fun x r hr => by rw [h]; exact hr, fun he hc hp => Or.inl ⟨by rw [← h]; exact hp, h hc⟩⟩

/-- The shared states that exist are left alone, and a new task execution future is
resolved only with an unresolved task completion promise. -/
theorem IsTaskFrame_of_fresh {GPI : Bool} {Γ : FRoles} {Log : FLog} {Calls : List FCall}
    {s s' : TScheduler} (hI : SchedulerInv GPI Γ Log Calls s)
    (hold : ∀ x, x < s.Futures.length → s'.Result x = s.Result x)
    (hnew : ∀ x hc, s.Futures.length ≤ x → s'.Result x = some (.Value (some hc)) →
      s'.Result hc = none) : IsTaskFrame s s' := by
  refine ⟨fun x r hr => by rw [hold x (lt_of_Result hr)]; exact hr, ?_⟩
  intro he hc hp
  by_cases hlt : he < s.Futures.length
  · rw [hold he hlt] at hp
    obtain ⟨X, j, hΓ⟩ := Inv_payload_role hI hp
    exact Or.inl ⟨hp, hold hc (lt_of_role hI hΓ)⟩
  · exact Or.inr ⟨Result_of_lt_none (Nat.le_of_not_lt hlt),
      hnew he hc (Nat.le_of_not_lt hlt) hp⟩

theorem Find_none_FindOrAddStage (s : TScheduler) (X Y : IdType) :
    (s.FindOrAddStage X).Find Y = none ↔ (s.Find Y = none ∧ Y ≠ X) := by
  by_cases hY : Y = X
  · subst hY
    obtain ⟨st, hst⟩ := Find_FindOrAddStage_isSome s Y
    rw [hst]
    simp
  · rw [Find_FindOrAddStage_other s X Y hY]
    simp [hY]

theorem GetId_FindOrAddStage_Completed (s : TScheduler) (X Y : IdType)
    (h : (s.FindOrAddStage X).GetId Y = .Completed) : s.GetId Y = .Completed := by
  cases hX : s.Find X with
  | some st => rw [Find_FindOrAddStage_same_of_some s X st hX] at h; exact h
  | none =>
    by_cases hY : Y = X
    · subst hY
      rw [GetId_of_Find (Find_FindOrAddStage_same_of_none s Y hX)] at h
      cases h
    · unfold TScheduler.GetId at h ⊢
      rw [Find_FindOrAddStage_other s X Y hY] at h
      exact h

/-- An operation that registers its stage and works on the entry of that stage only. -/
theorem IsOperationStart_of_stage {o : FObservation} {s s0 : TScheduler}
    {Calls0 : List FCall} {X : IdType} (hF : IsTaskFrame s s0)
    (hM : ∀ Y, o.Mentions Y ↔ Y = X)
    (hO : ∀ Y, Y ≠ X → s0.Find Y = (s.FindOrAddStage X).Find Y)
    (hX : ∃ st', s0.Find X = some st' ∧
      (st'.GetId = .Completed → (s.FindOrAddStage X).GetId X = .Completed))
    (hcalls : ∀ c, c ∈ Calls0 → c.Target = none ∧ ∀ Y, c ≠ .Transition_Completed Y) :
    IsOperationStart o s s0 Calls0 := by
  obtain ⟨st', hst', hC⟩ := hX
  refine ⟨hF, ?_, ?_, hcalls⟩
  · intro Y hY
    apply GetId_FindOrAddStage_Completed s X Y
    by_cases hYX : Y = X
    · subst hYX
      rw [GetId_of_Find hst'] at hY
      exact hC hY
    · unfold TScheduler.GetId at hY ⊢
      rw [← hO Y hYX]
      exact hY
  · intro Y
    rw [hM]
    by_cases hYX : Y = X
    · subst hYX
      rw [hst']
      simp
    · rw [hO Y hYX, Find_none_FindOrAddStage]

/-- `SetAllTasksAdded` up to its call of `CompleteWhenTasksFinished`. -/
theorem SetAllTasksAdded_start {GPI : Bool} {Γ : FRoles} {Log : FLog} {s : TScheduler}
    (hI : SchedulerInv GPI Γ Log [] s) (X : IdType) :
    ∃ Calls0 s0 Γ0, IsOperationStart (.SetAllTasksAdded X) s s0 Calls0 ∧
      SchedulerInv GPI Γ0 (Log ++ [.SetAllTasksAdded X]) Calls0 s0 ∧
      s.SetAllTasksAdded GPI X = RunCalls GPI Calls0 s0 := by
  obtain ⟨st, hst⟩ := Find_FindOrAddStage_isSome s X
  have hI1 := SchedulerInv_FindOrAddStage hI X
  have hid := GetStageId_of_Find hst
  have hOKX := hI1.stages X st hst
  have hM : ∀ Y, (FObservation.SetAllTasksAdded X).Mentions Y ↔ Y = X := fun Y => Iff.rfl
  have hnil : ∀ c, c ∈ ([] : List FCall) → c.Target = none ∧
      ∀ Y, c ≠ .Transition_Completed Y := fun c hc => by cases hc
  -- the stage is collected already, or completed: nothing changes
  have hsame : IsCollected Log X → StageState_SetAllTasksAdded (s.FindOrAddStage X) X =
      (s.FindOrAddStage X, []) →
      ∃ Calls0 s0 Γ0, IsOperationStart (.SetAllTasksAdded X) s s0 Calls0 ∧
        SchedulerInv GPI Γ0 (Log ++ [.SetAllTasksAdded X]) Calls0 s0 ∧
        s.SetAllTasksAdded GPI X = RunCalls GPI Calls0 s0 := by
    intro hC hE
    refine ⟨[], s.FindOrAddStage X, Γ, ?_, SchedulerInv_SetAllTasksAdded_again hI1 X hC, ?_⟩
    · exact IsOperationStart_of_stage (IsTaskFrame_of_Futures (FindOrAddStage_Futures s X)) hM
        (fun Y _ => rfl) ⟨st, hst, fun h => by rw [GetId_of_Find hst]; exact h⟩ hnil
    · unfold TScheduler.SetAllTasksAdded
      rw [hE]
  -- the flag is set
  have hset : ∀ st' Calls', st'.GetStageId = X → (st'.GetId = .Completed → False) →
      (∀ c, c ∈ Calls' → c.Target = none ∧ ∀ Y, c ≠ .Transition_Completed Y) →
      SchedulerInv GPI Γ (Log ++ [.SetAllTasksAdded X]) Calls'
        ((s.FindOrAddStage X).Assign X st') →
      s.SetAllTasksAdded GPI X = RunCalls GPI Calls' ((s.FindOrAddStage X).Assign X st') →
      ∃ Calls0 s0 Γ0, IsOperationStart (.SetAllTasksAdded X) s s0 Calls0 ∧
        SchedulerInv GPI Γ0 (Log ++ [.SetAllTasksAdded X]) Calls0 s0 ∧
        s.SetAllTasksAdded GPI X = RunCalls GPI Calls0 s0 := by
    intro st' Calls' hid' hnC hcalls hInv hE
    refine ⟨Calls', _, Γ, ?_, hInv, hE⟩
    refine IsOperationStart_of_stage
      (IsTaskFrame_of_Futures (FindOrAddStage_Futures s X)) hM
      (fun Y hY => Find_Assign_other _ X Y st' hid' hY)
      ⟨st', Find_Assign_same _ X st' st hid' hst, fun h => (hnC h).elim⟩ hcalls
  cases st with
  | Undefined pd =>
    simp only [TStageState.GetStageId] at hid
    by_cases hb : pd.bAllTasksCollected = true
    · have hC := hOKX.2.1.1 hb
      rw [hid] at hC
      refine hsame hC ?_
      unfold StageState_SetAllTasksAdded
      rw [hst]
      simp only [hb, if_true]
    · refine hset (.Undefined { pd with bAllTasksCollected := true }) [] hid
        (fun h => by cases h) hnil
        (SchedulerInv_SetAllTasksAdded_set hI1 hst (Or.inl ⟨pd, rfl, rfl, rfl⟩)) ?_
      unfold TScheduler.SetAllTasksAdded StageState_SetAllTasksAdded
      rw [hst]
      simp only [hb, Bool.false_eq_true, if_false]
  | Defined pd F =>
    simp only [TStageState.GetStageId] at hid
    by_cases hb : pd.bAllTasksCollected = true
    · have hC := hOKX.2.2.1.1 hb
      rw [hid] at hC
      refine hsame hC ?_
      unfold StageState_SetAllTasksAdded
      rw [hst]
      simp only [hb, if_true]
    · refine hset (.Defined { pd with bAllTasksCollected := true } F) [] hid
        (fun h => by cases h) hnil
        (SchedulerInv_SetAllTasksAdded_set hI1 hst (Or.inr (Or.inl ⟨pd, F, rfl, rfl, rfl⟩))) ?_
      unfold TScheduler.SetAllTasksAdded StageState_SetAllTasksAdded
      rw [hst]
      simp only [hb, Bool.false_eq_true, if_false]
  | Completed Id =>
    simp only [TStageState.GetStageId] at hid
    subst hid
    refine hsame hOKX.2.2.1 ?_
    unfold StageState_SetAllTasksAdded
    rw [hst]
  | Executing Id b Ts Ps =>
    simp only [TStageState.GetStageId] at hid
    subst hid
    by_cases hb : b = true
    · refine hsame (hOKX.2.2.1.1 hb) ?_
      unfold StageState_SetAllTasksAdded
      rw [hst]
      simp only [hb, if_true]
    · have hb' : b = false := by simpa using hb
      subst hb'
      refine hset (.Executing Id true Ts Ps) [.Invoke (.CompleteWhenTasksFinished Id)] rfl
        (fun h => by cases h) ?_
        (SchedulerInv_SetAllTasksAdded_set hI1 hst (Or.inr (Or.inr ⟨Ts, Ps, rfl, rfl, rfl⟩))) ?_
      · intro c hc
        rw [List.mem_singleton] at hc
        subst hc
        exact ⟨rfl, fun Y h => by cases h⟩
      · rw [RunCalls_cons, List.append_nil]
        unfold TScheduler.SetAllTasksAdded StageState_SetAllTasksAdded
        rw [hst]
        simp only [Bool.false_eq_true, if_false]
        rfl

end Zkz.StagedExecution

namespace Zkz.StagedExecution

/-! ### `AddTaskToStage` -/

theorem StageState_AddTaskToStage_Find_other (s : TScheduler) (X T Y : IdType)
    (hY : Y ≠ X) : (StageState_AddTaskToStage s X T).2.Find Y = s.Find Y := by
  cases hst : s.Find X with
  | none =>
    unfold StageState_AddTaskToStage
    rw [hst]
  | some st =>
    have hid := GetStageId_of_Find hst
    cases hb : st.IsAllTasksCollected with
    | true => rw [StageState_AddTaskToStage_collected s X T st hst hb]
    | false =>
      unfold StageState_AddTaskToStage
      rw [hst]
      cases st with
      | Undefined pd =>
        simp only [TStageState.IsAllTasksCollected] at hb
        simp only [TStageState.GetStageId] at hid
        simp only [hb, Bool.false_eq_true, if_false]
        refine (Find_Assign_other _ X Y _ ?_ hY).trans (NewPromise_Find _ _ _)
        exact hid
      | Defined pd F =>
        simp only [TStageState.IsAllTasksCollected] at hb
        simp only [TStageState.GetStageId] at hid
        simp only [hb, Bool.false_eq_true, if_false]
        refine (Find_Assign_other _ X Y _ ?_ hY).trans (NewPromise_Find _ _ _)
        exact hid
      | Executing Id b Ts Ps =>
        simp only [TStageState.IsAllTasksCollected] at hb
        simp only [TStageState.GetStageId] at hid
        simp only [hb, Bool.false_eq_true, if_false, SetValue_Find]
        refine (Find_Assign_other _ X Y _ ?_ hY).trans ?_
        · exact hid
        · rw [NewPromise_Find, NewPromise_Find]
      | Completed Id => simp [TStageState.IsAllTasksCollected] at hb

/-- `StageState::AddTaskToStage` leaves the tasks to the client: the task that it releases
gets an unresolved task completion promise. -/
theorem StageState_AddTaskToStage_frame {GPI : Bool} {Γ : FRoles} {Log : FLog}
    {Calls : List FCall} {s : TScheduler} (hI : SchedulerInv GPI Γ Log Calls s)
    (X T : IdType) : IsTaskFrame s (StageState_AddTaskToStage s X T).2 := by
  cases hst : s.Find X with
  | none =>
    unfold StageState_AddTaskToStage
    rw [hst]
    exact IsTaskFrame_refl s
  | some st =>
    cases hb : st.IsAllTasksCollected with
    | true =>
      rw [StageState_AddTaskToStage_collected s X T st hst hb]
      exact IsTaskFrame_refl s
    | false =>
      unfold StageState_AddTaskToStage
      rw [hst]
      cases st with
      | Undefined pd =>
        simp only [TStageState.IsAllTasksCollected] at hb
        simp only [hb, Bool.false_eq_true, if_false]
        exact IsTaskFrame_of_Result (fun x => by
          rw [Assign_Result]; exact Result_NewPromise_empty s x)
      | Defined pd F =>
        simp only [TStageState.IsAllTasksCollected] at hb
        simp only [hb, Bool.false_eq_true, if_false]
        exact IsTaskFrame_of_Result (fun x => by
          rw [Assign_Result]; exact Result_NewPromise_empty s x)
      | Completed Id => simp [TStageState.IsAllTasksCollected] at hb
      | Executing Id b Ts Ps =>
        simp only [TStageState.IsAllTasksCollected] at hb
        simp only [hb, Bool.false_eq_true, if_false, NewPromise_fst]
        have h3 : ∀ x st', (((s.NewPromise {}).2.NewPromise {}).2.Assign X st').Result x =
            s.Result x := by
          intro x st'
          rw [Assign_Result, Result_NewPromise_empty, Result_NewPromise_empty]
        have hlen : (s.NewPromise {}).2.Futures.length = s.Futures.length + 1 := by simp
        refine IsTaskFrame_of_fresh hI ?_ ?_
        · intro x hx
          rw [SetValue_Result_other _ _ _ _ (Nat.ne_of_lt hx), h3]
        · intro x hc hx hp
          by_cases hxe : x = s.Futures.length
          · subst hxe
            rcases SetValue_Result_same _ _ _ with h4 | ⟨_, h4⟩
            · rw [h4, h3, Result_of_lt_none (Nat.le_refl _)] at hp
              cases hp
            · rw [h4] at hp
              cases hp
              rw [SetValue_Result_other _ _ _ _ (by rw [hlen]; exact Nat.succ_ne_self _), h3]
              exact Result_of_lt_none (by rw [hlen]; exact Nat.le_succ _)
          · rw [SetValue_Result_other _ _ _ _ hxe, h3, Result_of_lt_none hx] at hp
            cases hp

/-- `AddTaskToStage` makes no call. -/
theorem AddTaskToStage_start {GPI : Bool} {Γ : FRoles} {Log : FLog} {s : TScheduler}
    (hI : SchedulerInv GPI Γ Log [] s) (X T : IdType) :
    ∃ Γ0, IsOperationStart (.AddTaskToStage X T (s.AddTaskToStage X T).1) s
        (s.AddTaskToStage X T).2 [] ∧
      SchedulerInv GPI Γ0 (Log ++ [.AddTaskToStage X T (s.AddTaskToStage X T).1]) []
        (s.AddTaskToStage X T).2 := by
  obtain ⟨R, hR⟩ := SchedulerInv_AddTaskToStage hI X T
  refine ⟨_, ?_, hR⟩
  obtain ⟨st, hst⟩ := Find_FindOrAddStage_isSome s X
  have hI1 := SchedulerInv_FindOrAddStage hI X
  refine IsOperationStart_of_stage
    (IsTaskFrame_trans (IsTaskFrame_of_Futures (FindOrAddStage_Futures s X))
      (StageState_AddTaskToStage_frame hI1 X T))
    (fun Y => Iff.rfl)
    (fun Y hY => StageState_AddTaskToStage_Find_other _ X T Y hY) ?_
    (fun c hc => by cases hc)
  cases hb : st.IsAllTasksCollected with
  | true =>
    refine ⟨st, ?_, fun h => by rw [GetId_of_Find hst]; exact h⟩
    unfold TScheduler.AddTaskToStage
    rw [StageState_AddTaskToStage_collected _ X T st hst hb]
    exact hst
  | false =>
    obtain ⟨_, st', h2, _, h4, _⟩ :=
      StageState_AddTaskToStage_not_collected (s.FindOrAddStage X) X T st hst hb
    exact ⟨st', h2, fun h => by rw [GetId_of_Find hst, ← h4]; exact h⟩

end Zkz.StagedExecution

namespace Zkz.StagedExecution

/-! ### `AddStage` -/

theorem AddFollowUp_Result (s : TScheduler) (p : IdType) (x : FFutureHandle) :
    (AddFollowUp s p).2.Result x = s.Result x ∨
      (s.Futures.length ≤ x ∧ (AddFollowUp s p).2.Result x = some (.Value none)) := by
  have hC : (s.NewPromise { Result := some (.Value none) }).2.Result x = s.Result x ∨
      (s.Futures.length ≤ x ∧
        (s.NewPromise { Result := some (.Value none) }).2.Result x = some (.Value none)) := by
    rcases Nat.lt_trichotomy x s.Futures.length with h | h | h
    · exact Or.inl (Result_NewPromise_old s _ x h)
    · subst h
      exact Or.inr ⟨Nat.le_refl _, Result_NewPromise_new s _⟩
    · refine Or.inl ?_
      rw [Result_of_lt_none (Nat.le_of_lt h), Result_of_lt_none]
      simp only [NewPromise_Futures, List.length_append, List.length_singleton]
      exact h
  unfold AddFollowUp
  cases hF : s.Find p with
  | none => exact Or.inl (Result_NewPromise_empty s x)
  | some st =>
    cases st with
    | Undefined pd => exact Or.inl (by rw [Assign_Result]; exact Result_NewPromise_empty s x)
    | Defined pd F => exact Or.inl (by rw [Assign_Result]; exact Result_NewPromise_empty s x)
    | Executing Id b Ts Ps =>
      exact Or.inl (by rw [Assign_Result]; exact Result_NewPromise_empty s x)
    | Completed Id => exact hC

theorem AddFollowUp_length (s : TScheduler) (p : IdType) :
    s.Futures.length ≤ (AddFollowUp s p).2.Futures.length := by
  unfold AddFollowUp
  cases hF : s.Find p with
  | none => simp
  | some st => cases st <;> simp [TScheduler.Assign]

theorem AddFollowUp_Find_none (s : TScheduler) (p Y : IdType) :
    (AddFollowUp s p).2.Find Y = none ↔ s.Find Y = none := by
  by_cases hY : Y = p
  · subst hY
    cases hF : s.Find Y with
    | none =>
      unfold AddFollowUp
      rw [hF]
      simp only [NewPromise_Find, hF]
    | some st =>
      rw [AddFollowUp_Find_same s Y st hF]
      simp
  · rw [AddFollowUp_Find_other s p Y hY]

theorem AddFollowUp_GetId (s : TScheduler) (p Y : IdType) :
    (AddFollowUp s p).2.GetId Y = s.GetId Y := by
  by_cases hY : Y = p
  · subst hY
    cases hF : s.Find Y with
    | none =>
      unfold AddFollowUp
      rw [hF]
      exact GetId_of_Stages (NewPromise_Stages s _) Y
    | some st =>
      rw [GetId_of_Find (AddFollowUp_Find_same s Y st hF), GetId_of_Find hF,
        QueuePromises_GetId]
  · unfold TScheduler.GetId
    rw [AddFollowUp_Find_other s p Y hY]

/-- The first loop of `AddStage` leaves the shared states that exist alone, and the new
ones are unresolved or resolved with no value. -/
theorem Collect_Result :
    ∀ (P : List IdType) (s : TScheduler) (x : FFutureHandle),
      s.Futures.length ≤ (CollectFuturePrerequisiteCompletions P s).2.Futures.length ∧
      ((CollectFuturePrerequisiteCompletions P s).2.Result x = s.Result x ∨
        (s.Futures.length ≤ x ∧
          (CollectFuturePrerequisiteCompletions P s).2.Result x = some (.Value none))) := by
  intro P
  induction P with
  | nil => intro s x; exact ⟨Nat.le_refl _, Or.inl rfl⟩
  | cons p Rest ih =>
    intro s x
    rw [Collect_cons_snd]
    obtain ⟨h1, h2⟩ := ih (AddFollowUp (s.FindOrAddStage p) p).2 x
    have h3 := AddFollowUp_length (s.FindOrAddStage p) p
    rw [FindOrAddStage_Futures] at h3
    refine ⟨Nat.le_trans h3 h1, ?_⟩
    rcases h2 with h2 | ⟨h2, h4⟩
    · rw [h2]
      rcases AddFollowUp_Result (s.FindOrAddStage p) p x with h5 | ⟨h5, h6⟩
      · exact Or.inl (by rw [h5, FindOrAddStage_Result])
      · rw [FindOrAddStage_Futures] at h5
        exact Or.inr ⟨h5, h6⟩
    · exact Or.inr ⟨Nat.le_trans h3 h2, h4⟩

/-- The first loop of `AddStage` registers the prerequisites. -/
theorem Collect_Find_none (Y : IdType) :
    ∀ (P : List IdType) (s : TScheduler),
      (CollectFuturePrerequisiteCompletions P s).2.Find Y = none ↔
        (s.Find Y = none ∧ Y ∉ P) := by
  intro P
  induction P with
  | nil => intro s; simp [CollectFuturePrerequisiteCompletions]
  | cons p Rest ih =>
    intro s
    rw [Collect_cons_snd, ih, AddFollowUp_Find_none, Find_none_FindOrAddStage]
    simp only [List.mem_cons, not_or]
    tauto

/-- The first loop of `AddStage` completes no stage. -/
theorem Collect_GetId_Completed (Y : IdType) :
    ∀ (P : List IdType) (s : TScheduler),
      (CollectFuturePrerequisiteCompletions P s).2.GetId Y = .Completed →
        s.GetId Y = .Completed := by
  intro P
  induction P with
  | nil => intro s h; exact h
  | cons p Rest ih =>
    intro s h
    rw [Collect_cons_snd] at h
    have h1 := ih _ h
    rw [AddFollowUp_GetId] at h1
    exact GetId_FindOrAddStage_Completed s p Y h1

/-- The first loop of `AddStage` leaves the tasks to the client. -/
theorem Collect_frame {GPI : Bool} {Γ : FRoles} {Log : FLog} {Calls : List FCall}
    {s : TScheduler} (hI : SchedulerInv GPI Γ Log Calls s) (P : List IdType) :
    IsTaskFrame s (CollectFuturePrerequisiteCompletions P s).2 := by
  refine IsTaskFrame_of_fresh hI ?_ ?_
  · intro x hx
    rcases (Collect_Result P s x).2 with h | ⟨h, _⟩
    · exact h
    · exact absurd hx (Nat.not_lt.2 h)
  · intro x hc hx hp
    rcases (Collect_Result P s x).2 with h | ⟨_, h⟩
    · rw [h, Result_of_lt_none hx] at hp
      cases hp
    · rw [h] at hp
      cases hp

end Zkz.StagedExecution

namespace Zkz.StagedExecution

/-- `AddStage` up to its call of `StartExecutingWhenPrerequisitesComplete`. -/
theorem AddStage_start {GPI : Bool} {Γ : FRoles} {Log : FLog} {s : TScheduler}
    (hI : SchedulerInv GPI Γ Log [] s) (X : IdType) (P : List IdType) :
    ∃ Calls0 s0 Γ0, IsOperationStart (.AddStage X P (s.AddStage GPI X P).1) s s0 Calls0 ∧
      SchedulerInv GPI Γ0 (Log ++ [.AddStage X P (s.AddStage GPI X P).1]) Calls0 s0 ∧
      (s.AddStage GPI X P).2 = RunCalls GPI Calls0 s0 := by
  have hA1 : (s.AddStage GPI X P).1 = (s.AddStageCalls GPI X P).1 := rfl
  have hA2 : (s.AddStage GPI X P).2 =
      RunCalls GPI (s.AddStageCalls GPI X P).2.2 (s.AddStageCalls GPI X P).2.1 := rfl
  rcases AddStageCalls_cases hI X P with
    ⟨e, hE, hkind, Γ0, hInv⟩ | ⟨s3, Γ3, hE, _, hFu, _, _, hO, ⟨pd, F, hX⟩, hInv⟩
  · rw [hA1, hA2, hE]
    refine ⟨[], _, Γ0, ⟨Collect_frame hI P, fun Y => Collect_GetId_Completed Y P s, ?_,
      fun c hc => by cases hc⟩, hInv, rfl⟩
    intro Y
    rw [Collect_Find_none]
    constructor
    · rintro ⟨h1, h2⟩
      refine ⟨h1, fun hm => ?_⟩
      rcases hm with hm | ⟨hYX, hnc⟩
      · exact h2 hm
      · subst hYX
        rcases hkind with ⟨_, C, hC⟩ | ⟨_, P', hP'⟩
        · exact hnc C (by rw [hC])
        · exact (hI.log Y h1).1 P' hP'
    · rintro ⟨h1, h2⟩
      exact ⟨h1, fun hp => h2 (Or.inl hp)⟩
  · rw [hA1, hA2, hE]
    refine ⟨[.Invoke (.StartExecutingWhenPrerequisitesComplete X)], s3, Γ3,
      ⟨IsTaskFrame_trans (Collect_frame hI P) (IsTaskFrame_of_Futures hFu), ?_, ?_, ?_⟩,
      hInv, ?_⟩
    · intro Y hY
      by_cases hYX : Y = X
      · subst hYX
        rw [GetId_of_Find hX] at hY
        cases hY
      · apply Collect_GetId_Completed Y P s
        unfold TScheduler.GetId at hY ⊢
        rw [← hO Y hYX]
        exact hY
    · intro Y
      by_cases hYX : Y = X
      · subst hYX
        rw [hX]
        constructor
        · intro h; cases h
        · rintro ⟨_, h2⟩
          exact absurd (Or.inr ⟨rfl, fun C h => by cases h⟩) h2
      · rw [hO Y hYX, Collect_Find_none]
        constructor
        · rintro ⟨h1, h2⟩
          refine ⟨h1, fun hm => ?_⟩
          rcases hm with hm | ⟨h3, _⟩
          · exact h2 hm
          · exact hYX h3
        · rintro ⟨h1, h2⟩
          exact ⟨h1, fun hp => h2 (Or.inl hp)⟩
    · intro c hc
      rw [List.mem_singleton] at hc
      subst hc
      exact ⟨rfl, fun Y h => by cases h⟩
    · rw [RunCalls_cons, List.append_nil]

end Zkz.StagedExecution

namespace Zkz.StagedExecution

/-! ### What holds of a run between two operations -/

theorem IsMentioned_append (Log : FLog) (o : FObservation) (Y : IdType) :
    IsMentioned (Log ++ [o]) Y ↔ (IsMentioned Log Y ∨ o.Mentions Y) := by
  unfold IsMentioned
  constructor
  · rintro ⟨o', h1, h2⟩
    rcases List.mem_append.mp h1 with h | h
    · exact Or.inl ⟨o', h, h2⟩
    · rw [List.mem_singleton] at h
      subst h
      exact Or.inr h2
  · rintro (⟨o', h1, h2⟩ | h)
    · exact ⟨o', List.mem_append_left _ h1, h2⟩
    · exact ⟨o, List.mem_append_right _ (List.mem_singleton.2 rfl), h⟩

theorem IsRunInv_init (GPI : Bool) : IsRunInv GPI {} := by
  refine ⟨⟨[], SchedulerInv_init GPI⟩, IsFulfilledOnce_init, ?_, ?_⟩
  · intro X hX
    cases hX
  · intro Y
    constructor
    · rintro _ ⟨o, ho, _⟩
      cases ho
    · intro _
      rfl

/-- The task added by the `j`-th successful `AddTaskToStage` on stage `X`: its execution
future is unresolved while the stage is not executing, and afterwards it is resolved with
the task completion promise of that task. -/
theorem Inv_task_cell {GPI : Bool} {Γ : FRoles} {Log : FLog} {s : TScheduler}
    (hI : SchedulerInv GPI Γ Log [] s) {X T : IdType} {he : FFutureHandle} {j : Nat}
    (hj : (TasksOf Log X)[j]? = some (T, he)) :
    (s.Result he = none ∧ s.GetId X ≠ .Executing ∧ s.GetId X ≠ .Completed) ∨
    (∃ hc, s.Result he = some (.Value (some hc)) ∧ Γ[hc]? = some (.TaskCompletion X j) ∧
      (s.GetId X = .Executing ∨ s.GetId X = .Completed)) := by
  have hm : (T, he) ∈ TasksOf Log X := mem_of_getElem?_some hj
  obtain ⟨st, hX⟩ := Inv_registered hI X (Or.inr (Or.inr (List.ne_nil_of_mem hm)))
  rw [GetId_of_Find hX]
  have hid := GetStageId_of_Find hX
  have hOK := hI.stages X st hX
  have hpending : ∀ pd : TStageState_Pending, PendingTasksOK Γ Log s X pd.Tasks →
      s.Result he = none := by
    intro pd hPT
    obtain ⟨h1, h2⟩ := hPT
    have h3 : (pd.Tasks.map (fun t => (t.Id, t.ExecutionPromise)))[j]? = some (T, he) := by
      rw [h1]; exact hj
    rw [List.getElem?_map] at h3
    cases ht : pd.Tasks[j]? with
    | none => rw [ht] at h3; cases h3
    | some t =>
      rw [ht] at h3
      simp only [Option.map] at h3
      have h4 := (h2 j t ht).2
      cases h3
      exact h4
  cases st with
  | Undefined pd =>
    simp only [TStageState.GetStageId] at hid
    simp only [StageOK] at hOK
    rw [hid] at hOK
    exact Or.inl ⟨hpending pd hOK.2.2.1, (fun h => by cases h), (fun h => by cases h)⟩
  | Defined pd F =>
    simp only [TStageState.GetStageId] at hid
    simp only [StageOK] at hOK
    rw [hid] at hOK
    exact Or.inl ⟨hpending pd hOK.2.2.2.1, (fun h => by cases h), (fun h => by cases h)⟩
  | Executing Id b Ts Ps =>
    simp only [TStageState.GetStageId] at hid
    subst hid
    obtain ⟨_, hc, h1, h2⟩ := hOK.2.2.2.2.1 j T he hj
    exact Or.inr ⟨hc, h1, h2, Or.inl rfl⟩
  | Completed Id =>
    simp only [TStageState.GetStageId] at hid
    subst hid
    obtain ⟨_, hc, h1, h2⟩ := hOK.2.2.2.1 j T he hj
    exact Or.inr ⟨hc, h1, h2, Or.inr rfl⟩

/-- The task completion promise of a task is typed as the promise of that task. -/
theorem Inv_TaskCompletionPromise_role {GPI : Bool} {Γ : FRoles} {r : FRun}
    (hI : SchedulerInv GPI Γ r.Observations [] r.Scheduler) {X : IdType} {j : Nat}
    {hc : FFutureHandle} (h : r.TaskCompletionPromise X j = some hc) :
    Γ[hc]? = some (.TaskCompletion X j) ∧
      ∃ T he, (TasksOf r.Observations X)[j]? = some (T, he) ∧
        r.Scheduler.Result he = some (.Value (some hc)) := by
  unfold FRun.TaskCompletionPromise at h
  cases hj : (TasksOf r.Observations X)[j]? with
  | none => rw [hj] at h; cases h
  | some e =>
    obtain ⟨T, he⟩ := e
    rw [hj] at h
    simp only at h
    rcases Inv_task_cell hI hj with ⟨h1, _⟩ | ⟨hc', h1, h2, _⟩
    · rw [h1] at h; cases h
    · rw [h1] at h
      simp only at h
      cases h
      exact ⟨h2, T, he, rfl, h1⟩

/-- A public operation preserves what holds of a run, and leaves the tasks to the
client. -/
theorem IsRunInv_operation {GPI : Bool} {Γ0 : FRoles} {r : FRun} {o : FObservation}
    {s0 : TScheduler} {Calls0 : List FCall} (hR : IsRunInv GPI r)
    (hS : IsOperationStart o r.Scheduler s0 Calls0)
    (hI0 : SchedulerInv GPI Γ0 (r.Observations ++ [o]) Calls0 s0)
    (hU : IsFulfilledOnce [] (RunCalls GPI Calls0 s0))
    (hT : ∀ X, IsCollected r.Observations X →
      TasksOf (r.Observations ++ [o]) X = TasksOf r.Observations X) :
    IsRunInv GPI ⟨r.Observations ++ [o], RunCalls GPI Calls0 s0⟩ ∧
      IsTaskFrame r.Scheduler (RunCalls GPI Calls0 s0) := by
  obtain ⟨h1, h2, h3⟩ := Operation_facts hR.complete hS hI0
    (fun X P h => (IsAddedWith_append _ _ _ _).2 (Or.inl h))
    (fun X h => (IsCollected_append _ _ _).2 (Or.inl h)) hT
  obtain ⟨R, hR'⟩ := SchedulerInv_RunCalls hI0
  refine ⟨⟨⟨_, hR'⟩, hU, h3, ?_⟩, h1⟩
  intro Y
  show (RunCalls GPI Calls0 s0).Find Y = none ↔ ¬ IsMentioned (r.Observations ++ [o]) Y
  rw [h2 Y, IsMentioned_append, hR.registered Y]
  tauto

theorem IsRunInv_AddStage {GPI : Bool} {r : FRun} (hR : IsRunInv GPI r) (X : IdType)
    (P : List IdType) :
    IsRunInv GPI ⟨r.Observations ++ [.AddStage X P (r.Scheduler.AddStage GPI X P).1],
        (r.Scheduler.AddStage GPI X P).2⟩ ∧
      IsTaskFrame r.Scheduler (r.Scheduler.AddStage GPI X P).2 := by
  obtain ⟨Γ, hI⟩ := hR.inv
  obtain ⟨Calls0, s0, Γ0, h1, h2, h3⟩ := AddStage_start hI X P
  have hU := IsFulfilledOnce_AddStage hI hR.once X P
  rw [h3] at hU ⊢
  refine IsRunInv_operation hR h1 h2 hU ?_
  intro Y _
  rw [TasksOf_append, TasksOf_AddStage, List.append_nil]

theorem IsRunInv_SetAllTasksAdded {GPI : Bool} {r : FRun} (hR : IsRunInv GPI r)
    (X : IdType) :
    IsRunInv GPI ⟨r.Observations ++ [.SetAllTasksAdded X],
        r.Scheduler.SetAllTasksAdded GPI X⟩ ∧
      IsTaskFrame r.Scheduler (r.Scheduler.SetAllTasksAdded GPI X) := by
  obtain ⟨Γ, hI⟩ := hR.inv
  obtain ⟨Calls0, s0, Γ0, h1, h2, h3⟩ := SetAllTasksAdded_start hI X
  have hU := IsFulfilledOnce_SetAllTasksAdded hI hR.once X
  rw [h3] at hU ⊢
  refine IsRunInv_operation hR h1 h2 hU ?_
  intro Y _
  rw [TasksOf_append, TasksOf_SetAllTasksAdded, List.append_nil]

theorem IsRunInv_AddTaskToStage {GPI : Bool} {r : FRun} (hR : IsRunInv GPI r)
    (X T : IdType) :
    IsRunInv GPI ⟨r.Observations ++ [.AddTaskToStage X T (r.Scheduler.AddTaskToStage X T).1],
        (r.Scheduler.AddTaskToStage X T).2⟩ ∧
      IsTaskFrame r.Scheduler (r.Scheduler.AddTaskToStage X T).2 := by
  obtain ⟨Γ, hI⟩ := hR.inv
  obtain ⟨Γ0, h1, h2⟩ := AddTaskToStage_start hI X T
  have h3 := IsRunInv_operation hR h1 h2
    (by rw [RunCalls_nil]; exact IsFulfilledOnce_AddTaskToStage hR.once X T) ?_
  · rw [RunCalls_nil] at h3
    exact h3
  · intro Y hY
    rw [TasksOf_append]
    cases hres : (r.Scheduler.AddTaskToStage X T).1 with
    | error e => rw [TasksOf_AddTaskToStage_error, List.append_nil]
    | ok h =>
      rw [TasksOf_AddTaskToStage_ok]
      by_cases hXY : X = Y
      · subst hXY
        have hb := (Inv_IsAllTasksCollected hI X).2 hY
        rw [AddTaskToStage_collected _ X T hb] at hres
        cases hres
      · rw [if_neg hXY, List.append_nil]

/-- A cascade of calls started by the client preserves what holds of a run. -/
theorem IsRunInv_cascade {GPI : Bool} {Γ : FRoles} {r : FRun} {Calls : List FCall}
    (hR : IsRunInv GPI r) (hI : SchedulerInv GPI Γ r.Observations Calls r.Scheduler)
    (hU : IsFulfilledOnce [] (RunCalls GPI Calls r.Scheduler))
    (hTC : ∀ Y, FCall.Transition_Completed Y ∉ Calls) :
    IsRunInv GPI ⟨r.Observations, RunCalls GPI Calls r.Scheduler⟩ := by
  obtain ⟨R, hR'⟩ := SchedulerInv_RunCalls hI
  refine ⟨⟨_, hR'⟩, hU, ?_, ?_⟩
  · refine IsCompleteInd_RunCalls hI ?_
    rintro X (hX | hX)
    · exact hR.complete X hX
    · exact absurd hX (hTC X)
  · intro Y
    show (RunCalls GPI Calls r.Scheduler).Find Y = none ↔ ¬ IsMentioned r.Observations Y
    rw [Find_none_RunCalls hI Y]
    exact hR.registered Y

end Zkz.StagedExecution

namespace Zkz.StagedExecution

/-! ### The results of the task completion futures -/

/-- Where the scheduler leaves the tasks to the client, the task completion future of a
task has the result that it had. -/
theorem CompletionResult_frame {s s' : TScheduler} (hF : IsTaskFrame s s')
    {he : FFutureHandle}
    (h0 : s.Result he = none ∨ ∃ hc, s.Result he = some (.Value (some hc))) :
    s'.CompletionResult he = s.CompletionResult he := by
  unfold TScheduler.CompletionResult
  rcases h0 with h0 | ⟨hc, h0⟩
  · rw [h0]
    simp only
    cases h1 : s'.Result he with
    | none => rfl
    | some v =>
      cases v with
      | Canceled => rfl
      | Value p =>
        cases p with
        | none => rfl
        | some hc =>
          simp only
          rcases hF.payloads he hc h1 with ⟨h2, _⟩ | ⟨_, h2⟩
          · rw [h0] at h2; cases h2
          · exact h2
  · rw [h0, hF.results he _ h0]
    simp only
    rcases hF.payloads he hc (hF.results he _ h0) with ⟨_, h2⟩ | ⟨h2, _⟩
    · exact h2
    · rw [h0] at h2; cases h2

/-- A public operation changes the result of no task completion future: the tasks that it
releases have not finished. -/
theorem TaskCompletionResult_operation {GPI : Bool} {r : FRun} {o : FObservation}
    {s' : TScheduler} (hR : IsRunInv GPI r) (hF : IsTaskFrame r.Scheduler s')
    (hT : ∀ X, ∃ L, TasksOf (r.Observations ++ [o]) X = TasksOf r.Observations X ++ L ∧
      ∀ e, e ∈ L → r.Scheduler.Result e.2 = none) (X : IdType) (j : Nat) :
    FRun.TaskCompletionResult ⟨r.Observations ++ [o], s'⟩ X j = r.TaskCompletionResult X j := by
  obtain ⟨Γ, hI⟩ := hR.inv
  obtain ⟨L, hL, hnew⟩ := hT X
  unfold FRun.TaskCompletionResult
  simp only
  rw [hL]
  by_cases hj : j < (TasksOf r.Observations X).length
  · rw [List.getElem?_append_left hj]
    cases he : (TasksOf r.Observations X)[j]? with
    | none => rfl
    | some e =>
      obtain ⟨T, h⟩ := e
      simp only
      refine CompletionResult_frame hF ?_
      rcases Inv_task_cell hI he with ⟨h1, _⟩ | ⟨hc, h1, _⟩
      · exact Or.inl h1
      · exact Or.inr ⟨hc, h1⟩
  · rw [List.getElem?_eq_none (Nat.le_of_not_lt hj)]
    simp only
    cases he : (TasksOf r.Observations X ++ L)[j]? with
    | none => rfl
    | some e =>
      obtain ⟨T, h⟩ := e
      simp only
      rw [List.getElem?_append_right (Nat.le_of_not_lt hj)] at he
      have h1 := hnew _ (mem_of_getElem?_some he)
      rw [CompletionResult_frame hF (Or.inl h1)]
      unfold TScheduler.CompletionResult
      rw [h1]

/-- The client resolves the task completion promise `h` with `v`: every other task
completion future keeps its result, through the whole cascade that follows. -/
theorem Client_call_frame {GPI : Bool} {Γ : FRoles} {Log : FLog} {s : TScheduler} {c : FCall}
    {h : FFutureHandle} {v : FCancelableResult} (hI : SchedulerInv GPI Γ Log [c] s)
    (hc : c.Target = some h) (hS : c.Stage = none)
    (hv : (StepCall GPI s c).1.Result h = some v) (hv' : ∀ p, v ≠ .Value (some p)) :
    (RunCalls GPI [c] s).Result h = some v ∧
    (∀ x r, s.Result x = some r → (RunCalls GPI [c] s).Result x = some r) ∧
    ∀ he hc', (RunCalls GPI [c] s).Result he = some (.Value (some hc')) →
      (s.Result he = some (.Value (some hc')) ∧
        (hc' ≠ h → (RunCalls GPI [c] s).Result hc' = s.Result hc')) ∨
      (s.Result he = none ∧ (RunCalls GPI [c] s).Result hc' = none) := by
  have fp := Inv_IsStepFootprint hI c
  have hF := IsTaskFrame_RunCalls (SchedulerInv_step hI) (NextCall_role hI)
  rw [← RunCalls_cons] at hF
  have hsame : ∀ x, x ≠ h → (StepCall GPI s c).1.Result x = s.Result x := by
    intro x hx
    by_contra hne
    rcases fp.resolved x hne with h1 | ⟨Y, h1, _⟩
    · rw [hc] at h1
      exact hx (Option.some.inj h1).symm
    · rw [hS] at h1
      cases h1
  refine ⟨hF.results h v hv, fun x r hr => hF.results x r (fp.results x r hr), ?_⟩
  intro he hc' hp
  rcases hF.payloads he hc' hp with ⟨h1, h2⟩ | ⟨h1, h2⟩
  · have hne : he ≠ h := by
      intro heq
      rw [heq, hv] at h1
      exact hv' hc' (Option.some.inj h1)
    rw [hsame he hne] at h1
    refine Or.inl ⟨h1, fun hne' => ?_⟩
    rw [h2, hsame hc' hne']
  · refine Or.inr ⟨?_, h2⟩
    cases h3 : s.Result he with
    | none => rfl
    | some r =>
      rw [fp.results he r h3] at h1
      cases h1

theorem CompletionResult_client {GPI : Bool} {Γ : FRoles} {Log : FLog} {s : TScheduler}
    {c : FCall} {h : FFutureHandle} {v : FCancelableResult}
    (hI : SchedulerInv GPI Γ Log [c] s) (hc : c.Target = some h) (hS : c.Stage = none)
    (hv : (StepCall GPI s c).1.Result h = some v) (hv' : ∀ p, v ≠ .Value (some p))
    {he : FFutureHandle}
    (h0 : s.Result he = none ∨ ∃ hc0, s.Result he = some (.Value (some hc0))) :
    (RunCalls GPI [c] s).CompletionResult he =
      if s.Result he = some (.Value (some h)) then some v else s.CompletionResult he := by
  obtain ⟨h1, h2, h3⟩ := Client_call_frame hI hc hS hv hv'
  unfold TScheduler.CompletionResult
  rcases h0 with h0 | ⟨hc0, h0⟩
  · rw [h0, if_neg (fun h => by cases h)]
    simp only
    cases h4 : (RunCalls GPI [c] s).Result he with
    | none => rfl
    | some w =>
      cases w with
      | Canceled => rfl
      | Value p =>
        cases p with
        | none => rfl
        | some hc' =>
          simp only
          rcases h3 he hc' h4 with ⟨h5, _⟩ | ⟨_, h5⟩
          · rw [h0] at h5; cases h5
          · exact h5
  · rw [h0, h2 he _ h0]
    simp only
    by_cases heq : hc0 = h
    · subst heq
      rw [if_pos rfl]
      exact h1
    · rw [if_neg (fun hh => heq (Option.some.inj (FCancelableResult.Value.inj
        (Option.some.inj hh))))]
      rcases h3 he hc0 (h2 he _ h0) with ⟨_, h5⟩ | ⟨h5, _⟩
      · exact h5 heq
      · rw [h0] at h5; cases h5

/-- The client resolves the task completion promise of the `j0`-th task of stage `X0`: the
future of that task gets the result, the others keep theirs. -/
theorem TaskCompletionResult_client {GPI : Bool} {Γ : FRoles} {r : FRun} {c : FCall}
    {h : FFutureHandle} {v : FCancelableResult} (hR : IsRunInv GPI r)
    (hI : SchedulerInv GPI Γ r.Observations [c] r.Scheduler) (hc : c.Target = some h)
    (hS : c.Stage = none) (hv : (StepCall GPI r.Scheduler c).1.Result h = some v)
    (hv' : ∀ p, v ≠ .Value (some p)) {X0 : IdType} {j0 : Nat}
    (hP : r.TaskCompletionPromise X0 j0 = some h) (X : IdType) (j : Nat) :
    FRun.TaskCompletionResult ⟨r.Observations, RunCalls GPI [c] r.Scheduler⟩ X j =
      if X = X0 ∧ j = j0 then some v else r.TaskCompletionResult X j := by
  obtain ⟨Γ1, hI1⟩ := hR.inv
  obtain ⟨hΓ, T0, he0, ht0, hr0⟩ := Inv_TaskCompletionPromise_role hI1 hP
  unfold FRun.TaskCompletionResult
  simp only
  cases he : (TasksOf r.Observations X)[j]? with
  | none =>
    simp only
    rw [if_neg]
    rintro ⟨h1, h2⟩
    subst h1 h2
    rw [ht0] at he
    cases he
  | some e =>
    obtain ⟨T, x⟩ := e
    simp only
    have h0 : r.Scheduler.Result x = none ∨
        ∃ hc0, r.Scheduler.Result x = some (.Value (some hc0)) := by
      rcases Inv_task_cell hI1 he with ⟨h1, _⟩ | ⟨hc0, h1, _⟩
      · exact Or.inl h1
      · exact Or.inr ⟨hc0, h1⟩
    rw [CompletionResult_client hI hc hS hv hv' h0]
    by_cases hXj : X = X0 ∧ j = j0
    · obtain ⟨h1, h2⟩ := hXj
      subst h1 h2
      rw [ht0] at he
      cases he
      rw [if_pos hr0, if_pos ⟨rfl, rfl⟩]
    · rw [if_neg hXj, if_neg]
      intro hx
      rcases Inv_task_cell hI1 he with ⟨h1, _⟩ | ⟨hc0, h1, h2, _⟩
      · rw [h1] at hx; cases hx
      · rw [h1] at hx
        cases hx
        rw [hΓ] at h2
        cases h2
        exact hXj ⟨rfl, rfl⟩

end Zkz.StagedExecution

namespace Zkz.StagedExecution

/-! ### What the operations return, and which tasks are released -/

theorem IsTaskReleased_iff (r : FRun) (X : IdType) (j : Nat) :
    r.IsTaskReleased X j ↔ (r.TaskCompletionPromise X j).isSome = true := by
  unfold FRun.IsTaskReleased FRun.TaskCompletionPromise TScheduler.IsReleased
  cases he : (TasksOf r.Observations X)[j]? with
  | none =>
    simp only [Option.isSome_none, Bool.false_eq_true, iff_false]
    rintro ⟨T, h, h1, _⟩
    cases h1
  | some e =>
    obtain ⟨T, h⟩ := e
    simp only
    constructor
    · rintro ⟨T', h', h1, hc, h2⟩
      cases h1
      rw [h2]
      rfl
    · intro h1
      cases h2 : r.Scheduler.Result h with
      | none => rw [h2] at h1; cases h1
      | some v =>
        cases v with
        | Canceled => rw [h2] at h1; cases h1
        | Value p =>
          cases p with
          | none => rw [h2] at h1; cases h1
          | some hc => exact ⟨T, h, rfl, hc, h2⟩

/-- A task is released exactly when it was added and its stage is executing or
completed. -/
theorem Inv_released_iff {GPI : Bool} {r : FRun} (hR : IsRunInv GPI r) (X : IdType)
    (j : Nat) :
    r.IsTaskReleased X j ↔ (j < (TasksOf r.Observations X).length ∧
      (r.Scheduler.GetId X = .Executing ∨ r.Scheduler.GetId X = .Completed)) := by
  obtain ⟨Γ, hI⟩ := hR.inv
  unfold FRun.IsTaskReleased TScheduler.IsReleased
  constructor
  · rintro ⟨T, h, h1, hc, h2⟩
    refine ⟨(List.getElem?_eq_some.1 h1).1, ?_⟩
    rcases Inv_task_cell hI h1 with ⟨h3, _⟩ | ⟨_, _, _, h3⟩
    · rw [h3] at h2; cases h2
    · exact h3
  · rintro ⟨h1, h2⟩
    cases he : (TasksOf r.Observations X)[j]? with
    | none =>
      rw [List.getElem?_eq_none_iff] at he
      exact absurd h1 (Nat.not_lt.2 he)
    | some e =>
      obtain ⟨T, h⟩ := e
      rcases Inv_task_cell hI he with ⟨_, h3, h4⟩ | ⟨hc, h3, _⟩
      · rcases h2 with h2 | h2
        · exact absurd h2 h3
        · exact absurd h2 h4
      · exact ⟨T, h, rfl, hc, h3⟩

theorem FinishedOK_iff (r : FRun) (X : IdType) (j : Nat) :
    FinishedOK r.Observations r.Scheduler X j ↔
      r.TaskCompletionResult X j = some (.Value none) := by
  unfold FinishedOK FRun.TaskCompletionResult TScheduler.CompletionResult
  cases he : (TasksOf r.Observations X)[j]? with
  | none =>
    simp only
    constructor
    · rintro ⟨T, h, hc, h1, _⟩
      cases h1
    · intro h
      cases h
  | some e =>
    obtain ⟨T, h⟩ := e
    simp only
    constructor
    · rintro ⟨T', h', hc, h1, h2, h3⟩
      cases h1
      rw [h2]
      exact h3
    · intro h1
      cases h2 : r.Scheduler.Result h with
      | none => rw [h2] at h1; cases h1
      | some v =>
        cases v with
        | Canceled => rw [h2] at h1; cases h1
        | Value p =>
          cases p with
          | none => rw [h2] at h1; cases h1
          | some hc =>
            rw [h2] at h1
            exact ⟨T, h, hc, rfl, h2, h1⟩

/-- What `AddStage` returns: the error `StageAlreadyAdded` when the stage was added, and
otherwise a value or, with inspections, the error `CircularDependency`. -/
theorem AddStage_result {GPI : Bool} {r : FRun} (hR : IsRunInv GPI r) (X : IdType)
    (P : List IdType) :
    ((∃ P', IsAddedWith r.Observations X P') →
      (r.Scheduler.AddStage GPI X P).1 = .error (.StageAlreadyAdded X)) ∧
    ((∀ P', ¬ IsAddedWith r.Observations X P') →
      (r.Scheduler.AddStage GPI X P).1 = .ok () ∨
        (GPI = true ∧ ∃ C, (r.Scheduler.AddStage GPI X P).1 =
          .error (.CircularDependency X P C))) := by
  obtain ⟨Γ, hI⟩ := hR.inv
  constructor
  · intro hadd
    have h1 := (Inv_added_iff hI X).1 hadd
    cases hF : r.Scheduler.Find X with
    | none =>
      rw [GetId_of_Find_none hF] at h1
      rcases h1 with h1 | h1 | h1 <;> cases h1
    | some st =>
      rw [GetId_of_Find hF] at h1
      refine (AddStage_of_added hI X P st hF ?_).1
      intro hU
      rw [hU] at h1
      rcases h1 with h1 | h1 | h1 <;> cases h1
  · intro hno
    have hA1 : (r.Scheduler.AddStage GPI X P).1 = (r.Scheduler.AddStageCalls GPI X P).1 := rfl
    rw [hA1]
    rcases AddStageCalls_cases hI X P with ⟨e, hE, hkind, _⟩ | ⟨s3, Γ3, hE, _⟩
    · rw [hE]
      rcases hkind with ⟨hG, C, hC⟩ | ⟨_, P', hP'⟩
      · exact Or.inr ⟨hG, C, by rw [hC]⟩
      · exact absurd hP' (hno P')
    · rw [hE]
      exact Or.inl rfl

/-- What `AddTaskToStage` returns: the error after `SetAllTasksAdded`, and otherwise the
new task execution future. -/
theorem AddTaskToStage_result {GPI : Bool} {r : FRun} (hR : IsRunInv GPI r) (X T : IdType) :
    (IsCollected r.Observations X → (r.Scheduler.AddTaskToStage X T).1 = .error ⟨X, T⟩) ∧
    (¬ IsCollected r.Observations X →
      (r.Scheduler.AddTaskToStage X T).1 = .ok r.Scheduler.Futures.length) := by
  obtain ⟨Γ, hI⟩ := hR.inv
  constructor
  · intro hC
    rw [AddTaskToStage_collected _ X T ((Inv_IsAllTasksCollected hI X).2 hC)]
  · intro hC
    refine (AddTaskToStage_not_collected _ X T ?_).1
    cases hb : r.Scheduler.IsAllTasksCollected X with
    | false => rfl
    | true => exact absurd ((Inv_IsAllTasksCollected hI X).1 hb) hC

end Zkz.StagedExecution

namespace Zkz.StagedExecution

/-! ### From one build to the other -/

theorem mem_of_Erase {Log Log' : FLog}
    (hE : Log.map FObservation.Erase = Log'.map FObservation.Erase) {o : FObservation}
    (ho : o ∈ Log) : ∃ o', o' ∈ Log' ∧ o'.Erase = o.Erase := by
  have h1 : o.Erase ∈ Log.map FObservation.Erase := List.mem_map_of_mem _ ho
  rw [hE] at h1
  obtain ⟨o', h2, h3⟩ := List.mem_map.1 h1
  exact ⟨o', h2, h3⟩

theorem IsAddedWith_of_Erase {Log Log' : FLog}
    (hE : Log.map FObservation.Erase = Log'.map FObservation.Erase) {X : IdType}
    {P : List IdType} (h : IsAddedWith Log X P) : IsAddedWith Log' X P := by
  obtain ⟨o', h1, h2⟩ := mem_of_Erase hE h
  cases o' with
  | AddStage Y Q res =>
    simp only [FObservation.Erase] at h2
    cases h2
    exact h1
  | AddTaskToStage Y T res => cases h2
  | SetAllTasksAdded Y => cases h2

theorem IsCollected_of_Erase {Log Log' : FLog}
    (hE : Log.map FObservation.Erase = Log'.map FObservation.Erase) {X : IdType}
    (h : IsCollected Log X) : IsCollected Log' X := by
  obtain ⟨o', h1, h2⟩ := mem_of_Erase hE h
  cases o' with
  | AddStage Y Q res => cases h2
  | AddTaskToStage Y T res => cases h2
  | SetAllTasksAdded Y =>
    simp only [FObservation.Erase] at h2
    cases h2
    exact h1

theorem Mentions_of_Erase {o o' : FObservation} (h : o'.Erase = o.Erase) {Y : IdType}
    (hm : o.Mentions Y) : o'.Mentions Y := by
  cases o with
  | AddStage X P res =>
    cases o' with
    | AddStage X' P' res' =>
      simp only [FObservation.Erase] at h
      cases h
      exact hm
    | AddTaskToStage X' T' res' => cases h
    | SetAllTasksAdded X' => cases h
  | AddTaskToStage X T res =>
    cases o' with
    | AddStage X' P' res' => cases h
    | AddTaskToStage X' T' res' =>
      simp only [FObservation.Erase, FErasedObservation.AddTaskToStage.injEq] at h
      obtain ⟨h1, _⟩ := h
      subst h1
      exact hm
    | SetAllTasksAdded X' => cases h
  | SetAllTasksAdded X =>
    cases o' with
    | AddStage X' P' res' => cases h
    | AddTaskToStage X' T' res' => cases h
    | SetAllTasksAdded X' =>
      simp only [FObservation.Erase] at h
      cases h
      exact hm

theorem IsMentioned_of_Erase {Log Log' : FLog}
    (hE : Log.map FObservation.Erase = Log'.map FObservation.Erase) {Y : IdType}
    (h : IsMentioned Log Y) : IsMentioned Log' Y := by
  obtain ⟨o, h1, h2⟩ := h
  obtain ⟨o', h3, h4⟩ := mem_of_Erase hE h1
  exact ⟨o', h3, Mentions_of_Erase h4 h2⟩

theorem TasksOf_cons (o : FObservation) (Log : FLog) (X : IdType) :
    TasksOf (o :: Log) X = TasksOf [o] X ++ TasksOf Log X := by
  unfold TasksOf
  rw [← List.filterMap_append]
  rfl

theorem TasksOf_single_length_of_Erase {o o' : FObservation} (h : o.Erase = o'.Erase)
    (X : IdType) : (TasksOf [o] X).length = (TasksOf [o'] X).length := by
  cases o with
  | AddStage Y P res =>
    cases o' with
    | AddStage Y' P' res' => rfl
    | AddTaskToStage Y' T' res' => cases h
    | SetAllTasksAdded Y' => cases h
  | SetAllTasksAdded Y =>
    cases o' with
    | AddStage Y' P' res' => cases h
    | AddTaskToStage Y' T' res' => cases h
    | SetAllTasksAdded Y' => rfl
  | AddTaskToStage Y T res =>
    cases o' with
    | AddStage Y' P' res' => cases h
    | SetAllTasksAdded Y' => cases h
    | AddTaskToStage Y' T' res' =>
      simp only [FObservation.Erase, FErasedObservation.AddTaskToStage.injEq] at h
      obtain ⟨h1, h2, h3⟩ := h
      subst h1 h2
      cases res with
      | error e =>
        cases res' with
        | error e' => rfl
        | ok a' => cases h3
      | ok a =>
        cases res' with
        | error e' => cases h3
        | ok a' =>
          rw [TasksOf_AddTaskToStage_ok, TasksOf_AddTaskToStage_ok]
          by_cases hY : Y = X
          · rw [if_pos hY, if_pos hY]
            rfl
          · rw [if_neg hY, if_neg hY]

/-- The two builds added the same number of tasks to every stage. -/
theorem TasksOf_length_of_Erase (X : IdType) :
    ∀ (Log Log' : FLog), Log.map FObservation.Erase = Log'.map FObservation.Erase →
      (TasksOf Log X).length = (TasksOf Log' X).length := by
  intro Log
  induction Log with
  | nil =>
    intro Log' hE
    cases Log' with
    | nil => rfl
    | cons o' L' => cases hE
  | cons o L ih =>
    intro Log' hE
    cases Log' with
    | nil => cases hE
    | cons o' L' =>
      simp only [List.map_cons, List.cons.injEq] at hE
      rw [TasksOf_cons o L, TasksOf_cons o' L', List.length_append, List.length_append, ih L' hE.2,
        TasksOf_single_length_of_Erase hE.1 X]

/-- A stage that is complete by the calls observed in one build is so in the other. -/
theorem IsCompleteInd_of_Erase {q q' : FRun}
    (hE : q.Observations.map FObservation.Erase = q'.Observations.map FObservation.Erase)
    (hres : ∀ X j, q.TaskCompletionResult X j = q'.TaskCompletionResult X j) {X : IdType}
    (h : IsCompleteInd q.Observations q.Scheduler X) :
    IsCompleteInd q'.Observations q'.Scheduler X := by
  induction h with
  | intro X P h1 _ h3 h4 ih =>
    refine .intro X P (IsAddedWith_of_Erase hE h1) ih (IsCollected_of_Erase hE h3) ?_
    intro j hj
    rw [← TasksOf_length_of_Erase X _ _ hE] at hj
    rw [FinishedOK_iff, ← hres]
    exact (FinishedOK_iff q X j).1 (h4 j hj)

/-- A stage that is complete by the calls observed is completed. -/
theorem IsCompleteInd_Completed {GPI : Bool} {r : FRun} (hR : IsRunInv GPI r) {X : IdType}
    (h : IsCompleteInd r.Observations r.Scheduler X) : r.Scheduler.GetId X = .Completed := by
  obtain ⟨Γ, hI⟩ := hR.inv
  induction h with
  | intro X P h1 _ h3 h4 ih =>
    rcases (Inv_added_iff hI X).1 ⟨P, h1⟩ with hg | hg | hg
    · obtain ⟨p, hp, hn⟩ := Inv_Defined_waits hI X P hg h1
      exact absurd (ih p hp) hn
    · obtain ⟨T, he, hm, hn⟩ := Inv_Executing_unfinished hI X hg h3
      obtain ⟨j, hj, hjm⟩ := mem_getElem? hm
      obtain ⟨T', he', hc, h5, h6, h7⟩ := h4 j hj
      rw [hjm] at h5
      cases h5
      exact absurd ⟨hc, h6, h7⟩ hn
    · exact hg

theorem GetId_eq_Unknown_iff (s : TScheduler) (X : IdType) :
    s.GetId X = .Unknown ↔ s.Find X = none := by
  cases hF : s.Find X with
  | none => rw [GetId_of_Find_none hF]; simp
  | some st =>
    rw [GetId_of_Find hF]
    cases st <;> simp [TStageState.GetId]

theorem Completed_of_Erase {GPI GPI' : Bool} {q q' : FRun} (hR : IsRunInv GPI q)
    (hR' : IsRunInv GPI' q')
    (hE : q.Observations.map FObservation.Erase = q'.Observations.map FObservation.Erase)
    (hres : ∀ X j, q.TaskCompletionResult X j = q'.TaskCompletionResult X j) {X : IdType}
    (h : q.Scheduler.GetId X = .Completed) : q'.Scheduler.GetId X = .Completed :=
  IsCompleteInd_Completed hR' (IsCompleteInd_of_Erase hE hres (hR.complete X h))

/-- One direction of the agreement of the states: the state of a stage in one build is at
most its state in the other. -/
theorem GetId_le_of_Erase {GPI GPI' : Bool} {q q' : FRun} (hR : IsRunInv GPI q)
    (hR' : IsRunInv GPI' q')
    (hE : q.Observations.map FObservation.Erase = q'.Observations.map FObservation.Erase)
    (hres : ∀ X j, q.TaskCompletionResult X j = q'.TaskCompletionResult X j) (X : IdType) :
    (q.Scheduler.GetId X).Index ≤ (q'.Scheduler.GetId X).Index := by
  obtain ⟨Γ, hI⟩ := hR.inv
  obtain ⟨Γ', hI'⟩ := hR'.inv
  cases hg : q.Scheduler.GetId X with
  | Unknown => exact Nat.zero_le _
  | Undefined =>
    -- the stage is mentioned, so it is registered in the other build
    have h1 : q.Scheduler.Find X ≠ none := by
      intro hn
      rw [GetId_of_Find_none hn] at hg
      cases hg
    have h2 : IsMentioned q.Observations X := by
      by_contra hn
      exact h1 ((hR.registered X).2 hn)
    have h3 : q'.Scheduler.Find X ≠ none :=
      fun hn => (hR'.registered X).1 hn (IsMentioned_of_Erase hE h2)
    cases hg' : q'.Scheduler.GetId X with
    | Unknown => exact absurd ((GetId_eq_Unknown_iff _ X).1 hg') h3
    | Undefined => exact Nat.le_refl _
    | Defined => decide
    | Executing => decide
    | Completed => decide
  | Defined =>
    obtain ⟨P, hP⟩ := (Inv_added_iff hI X).2 (Or.inl hg)
    rcases (Inv_added_iff hI' X).1 ⟨P, IsAddedWith_of_Erase hE hP⟩ with h | h | h <;>
      rw [h] <;> decide
  | Executing =>
    obtain ⟨P, hP⟩ := (Inv_added_iff hI X).2 (Or.inr (Or.inl hg))
    have hP' := IsAddedWith_of_Erase hE hP
    rcases (Inv_added_iff hI' X).1 ⟨P, hP'⟩ with h | h | h
    · obtain ⟨p, hp, hn⟩ := Inv_Defined_waits hI' X P h hP'
      have := Inv_prerequisites_Completed hI X P (Or.inl hg) hP p hp
      exact absurd (Completed_of_Erase hR hR' hE hres this) hn
    · rw [h]
    · rw [h]; decide
  | Completed =>
    rw [Completed_of_Erase hR hR' hE hres hg]

theorem Index_injective {a b : EStageStateId} (h : a.Index = b.Index) : a = b := by
  cases a <;> cases b <;> first | rfl | cases h

/-- The two builds put every stage in the same state. -/
theorem GetId_of_Erase {GPI GPI' : Bool} {q q' : FRun} (hR : IsRunInv GPI q)
    (hR' : IsRunInv GPI' q')
    (hE : q.Observations.map FObservation.Erase = q'.Observations.map FObservation.Erase)
    (hres : ∀ X j, q.TaskCompletionResult X j = q'.TaskCompletionResult X j) (X : IdType) :
    q.Scheduler.GetId X = q'.Scheduler.GetId X :=
  Index_injective (Nat.le_antisymm (GetId_le_of_Erase hR hR' hE hres X)
    (GetId_le_of_Erase hR' hR hE.symm (fun X j => (hres X j).symm) X))

/-- The runs of the two builds that observed the same calls and in which the task
completion futures have the same results schedule alike. -/
theorem IsSameSchedule_of_Erase {GPI GPI' : Bool} {q q' : FRun} (hR : IsRunInv GPI q)
    (hR' : IsRunInv GPI' q')
    (hE : q.Observations.map FObservation.Erase = q'.Observations.map FObservation.Erase)
    (hres : ∀ X j, q.TaskCompletionResult X j = q'.TaskCompletionResult X j) :
    IsSameSchedule q q' := by
  obtain ⟨Γ, hI⟩ := hR.inv
  obtain ⟨Γ', hI'⟩ := hR'.inv
  refine ⟨hE, GetId_of_Erase hR hR' hE hres, ?_, ?_, hres⟩
  · intro X
    rw [Bool.eq_iff_iff, Inv_IsAllTasksCollected hI X, Inv_IsAllTasksCollected hI' X]
    exact ⟨IsCollected_of_Erase hE, IsCollected_of_Erase hE.symm⟩
  · intro X j
    rw [Inv_released_iff hR, Inv_released_iff hR', GetId_of_Erase hR hR' hE hres X,
      TasksOf_length_of_Erase X _ _ hE]

end Zkz.StagedExecution

namespace Zkz.StagedExecution

/-! ### The two builds in lockstep -/

theorem map_Erase_append {Log Log' : FLog} {o o' : FObservation}
    (hE : Log.map FObservation.Erase = Log'.map FObservation.Erase)
    (ho : o.Erase = o'.Erase) :
    (Log ++ [o]).map FObservation.Erase = (Log' ++ [o']).map FObservation.Erase := by
  rw [List.map_append, List.map_append, hE, List.map_singleton, List.map_singleton, ho]

/-- Both builds performed an operation that left the tasks to the client and observed the
same result: they are in lockstep again. -/
theorem IsLockstep_operation {q0 q1 : FRun} {o0 o1 : FObservation} {s0 s1 : TScheduler}
    (h : IsLockstep q0 q1) (ho : o0.Erase = o1.Erase)
    (h0 : IsRunInv false ⟨q0.Observations ++ [o0], s0⟩ ∧ IsTaskFrame q0.Scheduler s0)
    (h1 : IsRunInv true ⟨q1.Observations ++ [o1], s1⟩ ∧ IsTaskFrame q1.Scheduler s1)
    (hT0 : ∀ X, ∃ L, TasksOf (q0.Observations ++ [o0]) X = TasksOf q0.Observations X ++ L ∧
      ∀ e, e ∈ L → q0.Scheduler.Result e.2 = none)
    (hT1 : ∀ X, ∃ L, TasksOf (q1.Observations ++ [o1]) X = TasksOf q1.Observations X ++ L ∧
      ∀ e, e ∈ L → q1.Scheduler.Result e.2 = none) :
    IsLockstep ⟨q0.Observations ++ [o0], s0⟩ ⟨q1.Observations ++ [o1], s1⟩ := by
  refine ⟨h0.1, h1.1, map_Erase_append h.observations ho, ?_⟩
  intro X j
  rw [TaskCompletionResult_operation h.disabled h0.2 hT0,
    TaskCompletionResult_operation h.enabled h1.2 hT1]
  exact h.results X j

theorem TasksOf_append_AddStage (Log : FLog) (S : IdType) (P : List IdType)
    (res : TAddStageResult) (s : TScheduler) (X : IdType) :
    ∃ L, TasksOf (Log ++ [.AddStage S P res]) X = TasksOf Log X ++ L ∧
      ∀ e, e ∈ L → s.Result e.2 = none :=
  ⟨[], (by rw [TasksOf_append, TasksOf_AddStage]), fun e he => (by cases he)⟩

theorem TasksOf_append_SetAllTasksAdded (Log : FLog) (S : IdType) (s : TScheduler)
    (X : IdType) :
    ∃ L, TasksOf (Log ++ [.SetAllTasksAdded S]) X = TasksOf Log X ++ L ∧
      ∀ e, e ∈ L → s.Result e.2 = none :=
  ⟨[], (by rw [TasksOf_append, TasksOf_SetAllTasksAdded]), fun e he => (by cases he)⟩

theorem TasksOf_append_AddTaskToStage {GPI : Bool} {r : FRun} (hR : IsRunInv GPI r)
    (S T : IdType) (X : IdType) :
    ∃ L, TasksOf (r.Observations ++ [.AddTaskToStage S T (r.Scheduler.AddTaskToStage S T).1]) X
        = TasksOf r.Observations X ++ L ∧
      ∀ e, e ∈ L → r.Scheduler.Result e.2 = none := by
  refine ⟨_, TasksOf_append _ _ _, ?_⟩
  intro e he
  by_cases hC : IsCollected r.Observations S
  · rw [(AddTaskToStage_result hR S T).1 hC, TasksOf_AddTaskToStage_error] at he
    cases he
  · rw [(AddTaskToStage_result hR S T).2 hC, TasksOf_AddTaskToStage_ok] at he
    by_cases hSX : S = X
    · rw [if_pos hSX, List.mem_singleton] at he
      subst he
      exact Result_of_lt_none (Nat.le_refl _)
    · rw [if_neg hSX] at he
      cases he

/-- `AddStage` in lockstep: unless the build with inspections reports a cycle, both
builds return the same result. -/
theorem IsLockstep_AddStage {q0 q1 : FRun} (h : IsLockstep q0 q1) (X : IdType)
    (P : List IdType)
    (hNC : ∀ C, (q1.Scheduler.AddStage true X P).1 ≠ .error (.CircularDependency X P C)) :
    (q0.Scheduler.AddStage false X P).1 = (q1.Scheduler.AddStage true X P).1 ∧
    IsLockstep
      ⟨q0.Observations ++ [.AddStage X P (q0.Scheduler.AddStage false X P).1],
        (q0.Scheduler.AddStage false X P).2⟩
      ⟨q1.Observations ++ [.AddStage X P (q1.Scheduler.AddStage true X P).1],
        (q1.Scheduler.AddStage true X P).2⟩ := by
  have hres : (q0.Scheduler.AddStage false X P).1 = (q1.Scheduler.AddStage true X P).1 := by
    by_cases hadd : ∃ P', IsAddedWith q0.Observations X P'
    · obtain ⟨P', hP'⟩ := hadd
      rw [(AddStage_result h.disabled X P).1 ⟨P', hP'⟩,
        (AddStage_result h.enabled X P).1 ⟨P', IsAddedWith_of_Erase h.observations hP'⟩]
    · have hno0 : ∀ P', ¬ IsAddedWith q0.Observations X P' := fun P' hP' => hadd ⟨P', hP'⟩
      have hno1 : ∀ P', ¬ IsAddedWith q1.Observations X P' :=
        fun P' hP' => hadd ⟨P', IsAddedWith_of_Erase h.observations.symm hP'⟩
      rcases (AddStage_result h.disabled X P).2 hno0 with h0 | ⟨h0, _⟩
      · rcases (AddStage_result h.enabled X P).2 hno1 with h1 | ⟨_, C, h1⟩
        · rw [h0, h1]
        · exact absurd h1 (hNC C)
      · cases h0
  refine ⟨hres, IsLockstep_operation h ?_ (IsRunInv_AddStage h.disabled X P)
    (IsRunInv_AddStage h.enabled X P) (TasksOf_append_AddStage _ _ _ _ _)
    (TasksOf_append_AddStage _ _ _ _ _)⟩
  simp only [FObservation.Erase, hres]

/-- `AddTaskToStage` in lockstep: both builds return a future, or both the error. -/
theorem IsLockstep_AddTaskToStage {q0 q1 : FRun} (h : IsLockstep q0 q1) (X T : IdType) :
    ((∃ F, (q0.Scheduler.AddTaskToStage X T).1 = .ok F) ↔
      (∃ F, (q1.Scheduler.AddTaskToStage X T).1 = .ok F)) ∧
    IsLockstep
      ⟨q0.Observations ++ [.AddTaskToStage X T (q0.Scheduler.AddTaskToStage X T).1],
        (q0.Scheduler.AddTaskToStage X T).2⟩
      ⟨q1.Observations ++ [.AddTaskToStage X T (q1.Scheduler.AddTaskToStage X T).1],
        (q1.Scheduler.AddTaskToStage X T).2⟩ := by
  have hres : (q0.Scheduler.AddTaskToStage X T).1.map (fun _ => ()) =
      (q1.Scheduler.AddTaskToStage X T).1.map (fun _ => ()) := by
    by_cases hC : IsCollected q0.Observations X
    · rw [(AddTaskToStage_result h.disabled X T).1 hC,
        (AddTaskToStage_result h.enabled X T).1 (IsCollected_of_Erase h.observations hC)]
    · rw [(AddTaskToStage_result h.disabled X T).2 hC,
        (AddTaskToStage_result h.enabled X T).2
          (fun hC' => hC (IsCollected_of_Erase h.observations.symm hC'))]
      rfl
  refine ⟨?_, IsLockstep_operation h ?_ (IsRunInv_AddTaskToStage h.disabled X T)
    (IsRunInv_AddTaskToStage h.enabled X T) (TasksOf_append_AddTaskToStage h.disabled X T)
    (TasksOf_append_AddTaskToStage h.enabled X T)⟩
  · cases h0 : (q0.Scheduler.AddTaskToStage X T).1 with
    | error e0 =>
      cases h1 : (q1.Scheduler.AddTaskToStage X T).1 with
      | error e1 =>
        exact ⟨fun ⟨F, hF⟩ => (by cases hF), fun ⟨F, hF⟩ => (by cases hF)⟩
      | ok F1 => rw [h0, h1] at hres; cases hres
    | ok F0 =>
      cases h1 : (q1.Scheduler.AddTaskToStage X T).1 with
      | error e1 => rw [h0, h1] at hres; cases hres
      | ok F1 => exact ⟨fun _ => ⟨F1, rfl⟩, fun _ => ⟨F0, rfl⟩⟩
  · simp only [FObservation.Erase, hres]

/-- `SetAllTasksAdded` in lockstep. -/
theorem IsLockstep_SetAllTasksAdded {q0 q1 : FRun} (h : IsLockstep q0 q1) (X : IdType) :
    IsLockstep
      ⟨q0.Observations ++ [.SetAllTasksAdded X], q0.Scheduler.SetAllTasksAdded false X⟩
      ⟨q1.Observations ++ [.SetAllTasksAdded X], q1.Scheduler.SetAllTasksAdded true X⟩ :=
  IsLockstep_operation h rfl (IsRunInv_SetAllTasksAdded h.disabled X)
    (IsRunInv_SetAllTasksAdded h.enabled X) (TasksOf_append_SetAllTasksAdded _ _ _)
    (TasksOf_append_SetAllTasksAdded _ _ _)

end Zkz.StagedExecution

namespace Zkz.StagedExecution

/-! ### The client fulfils or destroys a task completion promise -/

/-- The client holds the task completion promise of a released task exactly while the
task completion future is unresolved. -/
theorem Holds_iff {GPI : Bool} {r : FRun} (hR : IsRunInv GPI r) {X : IdType} {j : Nat}
    {h : FFutureHandle} (hP : r.TaskCompletionPromise X j = some h) :
    r.Scheduler.HoldsTaskCompletionPromise h = true ↔ r.TaskCompletionResult X j = none := by
  obtain ⟨Γ, hI⟩ := hR.inv
  obtain ⟨_, T, he, ht, hr⟩ := Inv_TaskCompletionPromise_role hI hP
  have hTCR : r.TaskCompletionResult X j = r.Scheduler.Result h := by
    unfold FRun.TaskCompletionResult TScheduler.CompletionResult
    rw [ht]
    simp only
    rw [hr]
  rw [hTCR]
  unfold TScheduler.HoldsTaskCompletionPromise
  simp only [Bool.and_eq_true, decide_eq_true_eq, List.any_eq_true]
  constructor
  · exact fun hh => hh.1
  · intro hn
    refine ⟨hn, ?_⟩
    rw [Result_eq] at hr
    cases hc : r.Scheduler.Futures[he]? with
    | none => rw [hc] at hr; cases hr
    | some c =>
      rw [hc] at hr
      exact ⟨c, mem_of_getElem?_some hc, hr⟩

/-- One build: the client fulfils (`v` is a value) or destroys (`v` is the cancellation)
the task completion promise of the `j0`-th task of stage `X0`. Nothing happens unless the
task was released and has not finished; then its task completion future resolves with
`v` and the other tasks keep their results. -/
theorem Resolve_facts {GPI : Bool} {r : FRun} (hR : IsRunInv GPI r) (X0 : IdType) (j0 : Nat)
    (e : FClientEvent) (v : FCancelableResult)
    (he : (e = .FulfilTask X0 j0 ∧ v = .Value none) ∨ (e = .DropTask X0 j0 ∧ v = .Canceled)) :
    ∃ r', ApplyClientEvent GPI r e = some r' ∧ IsRunInv GPI r' ∧
      r'.Observations = r.Observations ∧
      ∀ X j, r'.TaskCompletionResult X j =
        if (X = X0 ∧ j = j0) ∧ (r.TaskCompletionPromise X0 j0).isSome = true ∧
            r.TaskCompletionResult X0 j0 = none
          then some v else r.TaskCompletionResult X j := by
  obtain ⟨Γ, hI⟩ := hR.inv
  cases hP : r.TaskCompletionPromise X0 j0 with
  | none =>
    refine ⟨r, ?_, hR, rfl, ?_⟩
    · rcases he with ⟨he, _⟩ | ⟨he, _⟩ <;> subst he <;>
        simp only [ApplyClientEvent, FClientEvent.ToEvent, hP, Option.map_none']
    · intro X j
      rw [if_neg]
      rintro ⟨_, h2, _⟩
      cases h2
  | some h =>
    by_cases hh : r.Scheduler.HoldsTaskCompletionPromise h = true
    · obtain ⟨hpend, Y, i, hΓ⟩ := Holds_role hI hh
      have hlt := lt_of_role hI hΓ
      have hnone := (Holds_iff hR hP).1 hh
      rcases he with ⟨he, hv⟩ | ⟨he, hv⟩
      · subst he hv
        refine ⟨⟨r.Observations, RunCalls GPI [.EmplaceValue h] r.Scheduler⟩, ?_,
          IsRunInv_cascade hR (SchedulerInv_fulfil hI hh)
            (IsFulfilledOnce_fulfil hI hR.once hh) (fun Y hY => by simp at hY), rfl, ?_⟩
        · simp only [ApplyClientEvent, FClientEvent.ToEvent, hP, Option.map_some']
          exact ApplyEvent_FulfilTaskCompletion hI hR.once hh
        · intro X j
          have hv : (StepCall GPI r.Scheduler (.EmplaceValue h)).1.Result h =
              some (.Value none) := by
            show (EmplaceValue r.Scheduler h).1.Result h = some (.Value none)
            rw [EmplaceValue_pending hlt hpend]
            exact Result_SetFuture_same _ _ _ hlt
          have hv' : ∀ p, FCancelableResult.Value none ≠ .Value (some p) :=
            fun p hp => by cases hp
          rw [TaskCompletionResult_client hR (SchedulerInv_fulfil hI hh) rfl rfl hv hv' hP X j]
          simp only [Option.isSome_some, hnone, and_true]
      · subst he hv
        refine ⟨⟨r.Observations, RunCalls GPI [.Cancel h] r.Scheduler⟩, ?_,
          IsRunInv_cascade hR (SchedulerInv_drop hI hh)
            (IsFulfilledOnce_drop hI hR.once hh) (fun Y hY => by simp at hY), rfl, ?_⟩
        · simp only [ApplyClientEvent, FClientEvent.ToEvent, hP, Option.map_some']
          exact ApplyEvent_DropTaskCompletion hI hR.once hh
        · intro X j
          have hv : (StepCall GPI r.Scheduler (.Cancel h)).1.Result h = some .Canceled := by
            show (Cancel r.Scheduler h).1.Result h = some .Canceled
            rw [Cancel_pending hlt hpend]
            exact Result_SetFuture_same _ _ _ hlt
          have hv' : ∀ p, FCancelableResult.Canceled ≠ .Value (some p) :=
            fun p hp => by cases hp
          rw [TaskCompletionResult_client hR (SchedulerInv_drop hI hh) rfl rfl hv hv' hP X j]
          simp only [Option.isSome_some, hnone, and_true]
    · have hne : r.TaskCompletionResult X0 j0 ≠ none := fun hn => hh ((Holds_iff hR hP).2 hn)
      refine ⟨r, ?_, hR, rfl, ?_⟩
      · rcases he with ⟨he, _⟩ | ⟨he, _⟩ <;> subst he <;>
          simp only [ApplyClientEvent, FClientEvent.ToEvent, hP, Option.map_some', ApplyEvent,
            hh, Bool.false_eq_true, if_false]
      · intro X j
        rw [if_neg]
        rintro ⟨_, _, h3⟩
        exact hne h3

/-- The client fulfils or destroys a task completion promise, in lockstep. -/
theorem IsLockstep_resolve {q0 q1 q1' : FRun} (h : IsLockstep q0 q1) (X0 : IdType)
    (j0 : Nat) (e : FClientEvent) (v : FCancelableResult)
    (he : (e = .FulfilTask X0 j0 ∧ v = .Value none) ∨ (e = .DropTask X0 j0 ∧ v = .Canceled))
    (hA : ApplyClientEvent true q1 e = some q1') :
    ∃ q0', ApplyClientEvent false q0 e = some q0' ∧ IsLockstep q0' q1' := by
  obtain ⟨r0, a0, b0, c0, d0⟩ := Resolve_facts h.disabled X0 j0 e v he
  obtain ⟨r1, a1, b1, c1, d1⟩ := Resolve_facts h.enabled X0 j0 e v he
  rw [hA] at a1
  cases a1
  refine ⟨r0, a0, b0, b1, by rw [c0, c1]; exact h.observations, ?_⟩
  intro X j
  have hS := IsSameSchedule_of_Erase h.disabled h.enabled h.observations h.results
  have hsome : (q0.TaskCompletionPromise X0 j0).isSome =
      (q1.TaskCompletionPromise X0 j0).isSome := by
    rw [Bool.eq_iff_iff, ← IsTaskReleased_iff, ← IsTaskReleased_iff]
    exact hS.released X0 j0
  rw [d0, d1, hsome, h.results X0 j0, h.results X j]

end Zkz.StagedExecution

namespace Zkz.StagedExecution

/-! ### The inspection toggle -/

theorem Observations_ApplyClientEvent (GPI : Bool) (r r' : FRun) (e : FClientEvent)
    (h : ApplyClientEvent GPI r e = some r') : ∃ L, r'.Observations = r.Observations ++ L := by
  unfold ApplyClientEvent at h
  cases hE : e.ToEvent r with
  | none =>
    rw [hE] at h
    cases h
    exact ⟨[], (List.append_nil _).symm⟩
  | some Event =>
    rw [hE] at h
    exact Observations_ApplyEvent GPI r r' Event h

theorem Observations_foldlM_client (GPI : Bool) :
    ∀ (Events : List FClientEvent) (r r' : FRun),
      Events.foldlM (ApplyClientEvent GPI) r = some r' →
      ∃ L, r'.Observations = r.Observations ++ L := by
  intro Events
  induction Events with
  | nil =>
    intro r r' h
    simp only [List.foldlM_nil] at h
    cases h
    exact ⟨[], (List.append_nil _).symm⟩
  | cons e Rest ih =>
    intro r r' h
    simp only [List.foldlM_cons] at h
    cases hE : ApplyClientEvent GPI r e with
    | none => rw [hE] at h; cases h
    | some r1 =>
      rw [hE] at h
      obtain ⟨L1, h1⟩ := Observations_ApplyClientEvent GPI r r1 e hE
      obtain ⟨L2, h2⟩ := ih r1 r' h
      exact ⟨L1 ++ L2, by rw [h2, h1, List.append_assoc]⟩

theorem ReportsNoCycle_of_append {Log L : FLog} (h : ReportsNoCycle (Log ++ L)) :
    ReportsNoCycle Log :=
  fun X P C hm => h X P C (List.mem_append_left _ hm)

theorem ReportsNoCycle_of_all {Log : FLog}
    (h : Log.all (fun o => !o.IsCycleReport) = true) : ReportsNoCycle Log := by
  intro X P C hm
  have := List.all_eq_true.1 h _ hm
  simp [FObservation.IsCycleReport] at this

theorem IsLockstep_init : IsLockstep {} {} :=
  ⟨IsRunInv_init false, IsRunInv_init true, rfl, fun _ _ => rfl⟩

/-- One client event, in lockstep: when the build with inspections performs it without
reporting a cycle, the build without inspections performs it too and the runs stay in
lockstep. -/
theorem IsLockstep_step {q0 q1 q1' : FRun} (h : IsLockstep q0 q1) (e : FClientEvent)
    (hA : ApplyClientEvent true q1 e = some q1') (hNC : ReportsNoCycle q1'.Observations) :
    ∃ q0', ApplyClientEvent false q0 e = some q0' ∧ IsLockstep q0' q1' := by
  obtain ⟨Γ0, hI0⟩ := h.disabled.inv
  have hU0 := h.disabled.once
  cases e with
  | FulfilTask X j => exact IsLockstep_resolve h X j _ (.Value none) (Or.inl ⟨rfl, rfl⟩) hA
  | DropTask X j => exact IsLockstep_resolve h X j _ .Canceled (Or.inr ⟨rfl, rfl⟩) hA
  | SetAllTasksAdded X =>
    simp only [ApplyClientEvent, FClientEvent.ToEvent, ApplyEvent] at hA
    replace hA := Checked_some hA
    cases hA
    exact ⟨_, ApplyEvent_SetAllTasksAdded hI0 hU0 X, IsLockstep_SetAllTasksAdded h X⟩
  | AddTaskToStage X T =>
    simp only [ApplyClientEvent, FClientEvent.ToEvent, ApplyEvent] at hA
    replace hA := Checked_some hA
    cases hA
    exact ⟨_, @ApplyEvent_AddTaskToStage false q0 hU0 X T, (IsLockstep_AddTaskToStage h X T).2⟩
  | AddStage X P =>
    simp only [ApplyClientEvent, FClientEvent.ToEvent, ApplyEvent] at hA
    replace hA := Checked_some hA
    cases hA
    refine ⟨_, ApplyEvent_AddStage hI0 hU0 X P, (IsLockstep_AddStage h X P ?_).2⟩
    intro C hC
    exact hNC X P C (List.mem_append_right _ (List.mem_singleton.2 (by rw [hC])))
  | AddTask T P =>
    simp only [ApplyClientEvent, FClientEvent.ToEvent, ApplyEvent] at hA ⊢
    cases hS1 : q1.Scheduler.AddStage true T P with
    | mk res1 s1 =>
      rw [hS1] at hA
      cases hS0 : q0.Scheduler.AddStage false T P with
      | mk res0 s0 =>
        cases res1 with
        | error e1 =>
          simp only at hA
          replace hA := Checked_some hA
          cases hA
          have hNC' : ∀ C, (q1.Scheduler.AddStage true T P).1 ≠
              .error (.CircularDependency T P C) := by
            intro C hC
            rw [hS1] at hC
            simp only at hC
            exact hNC T P C (List.mem_append_right _ (List.mem_singleton.2 (by rw [hC])))
          obtain ⟨hr, hL⟩ := IsLockstep_AddStage h T P hNC'
          rw [hS1, hS0] at hr hL
          simp only at hr hL
          subst hr
          refine ⟨_, ?_, hL⟩
          exact Checked_of_flag hL.disabled.once.check
        | ok u =>
          simp only at hA
          cases hT1 : s1.AddTaskToStage T T with
          | mk tres1 s1' =>
            rw [hT1] at hA
            cases tres1 with
            | error e1 => cases hA
            | ok F1 =>
              simp only at hA
              replace hA := Checked_some hA
              cases hA
              have hNC' : ∀ C, (q1.Scheduler.AddStage true T P).1 ≠
                  .error (.CircularDependency T P C) := by
                intro C hC
                rw [hS1] at hC
                cases hC
              obtain ⟨hr, hL⟩ := IsLockstep_AddStage h T P hNC'
              rw [hS1, hS0] at hr hL
              simp only at hr hL
              subst hr
              obtain ⟨hiff, hL2⟩ := IsLockstep_AddTaskToStage hL T T
              simp only at hiff hL2
              obtain ⟨F0, hF0⟩ := hiff.2 ⟨F1, by rw [hT1]⟩
              cases hT0 : s0.AddTaskToStage T T with
              | mk tres0 s0' =>
                rw [hT0] at hF0 hL2
                rw [hT1] at hL2
                simp only at hF0 hL2
                subst hF0
                have hL3 := IsLockstep_SetAllTasksAdded hL2 T
                simp only [List.append_assoc, List.singleton_append, List.cons_append,
                  List.nil_append] at hL3
                refine ⟨⟨q0.Observations ++ [.AddStage T P (.ok ()),
                  .AddTaskToStage T T (.ok F0), .SetAllTasksAdded T],
                  s0'.SetAllTasksAdded false T⟩, ?_, hL3⟩
                simp only [hT0]
                exact Checked_of_flag hL3.disabled.once.check

/-- A sequence of client events, in lockstep. -/
theorem IsLockstep_foldlM :
    ∀ (Events : List FClientEvent) (q0 q1 q1' : FRun), IsLockstep q0 q1 →
      Events.foldlM (ApplyClientEvent true) q1 = some q1' →
      ReportsNoCycle q1'.Observations →
      ∃ q0', Events.foldlM (ApplyClientEvent false) q0 = some q0' ∧ IsLockstep q0' q1' := by
  intro Events
  induction Events with
  | nil =>
    intro q0 q1 q1' h hA _
    simp only [List.foldlM_nil] at hA
    cases hA
    exact ⟨q0, rfl, h⟩
  | cons e Rest ih =>
    intro q0 q1 q1' h hA hNC
    simp only [List.foldlM_cons] at hA
    cases hE : ApplyClientEvent true q1 e with
    | none => rw [hE] at hA; cases hA
    | some q1m =>
      rw [hE] at hA
      obtain ⟨L, hL⟩ := Observations_foldlM_client true Rest q1m q1' hA
      rw [hL] at hNC
      obtain ⟨q0m, h1, h2⟩ := IsLockstep_step h e hE (ReportsNoCycle_of_append hNC)
      rw [← hL] at hNC
      obtain ⟨q0', h3, h4⟩ := ih q0m q1m q1' h2 hA hNC
      refine ⟨q0', ?_, h4⟩
      simp only [List.foldlM_cons]
      rw [h1]
      exact h3

/-- C35. The inspection toggle does not change scheduling. A client calls `AddStage`,
`AddTaskToStage`, `SetAllTasksAdded` and `AddTask` and fulfils or destroys task completion
promises, naming a task by its stage and its position among the tasks added to that stage
(the handles of the futures differ between the builds). When the scheduler built with
inspections performs the sequence and reports no `CircularDependency` error, then after
every step (every prefix of the sequence) the scheduler built without inspections has
performed the same steps and the two runs schedule alike: the same calls returned the same
results, up to the handles of the returned futures and including the `StageAlreadyAdded`
and `AllTasksCollected` errors; every stage is in the same state of the state machine and
has the same `allTasksCollected` flag; the same task execution futures are resolved; and
the task completion futures have the same results. -/
theorem Inspection_toggle_preserves_scheduling (Events : List FClientEvent) (r1 : FRun)
    (h1 : ExecClient true Events = some r1) (hNC : ReportsNoCycle r1.Observations)
    (n : Nat) :
    ∃ q0 q1, ExecClient false (Events.take n) = some q0 ∧
      ExecClient true (Events.take n) = some q1 ∧ IsSameSchedule q0 q1 := by
  unfold ExecClient at h1 ⊢
  rw [← List.take_append_drop n Events, List.foldlM_append] at h1
  cases hq : (Events.take n).foldlM (ApplyClientEvent true) {} with
  | none => rw [hq] at h1; cases h1
  | some q1 =>
    rw [hq] at h1
    simp only [Option.bind_eq_bind, Option.some_bind] at h1
    obtain ⟨L, hL⟩ := Observations_foldlM_client true _ q1 r1 h1
    rw [hL] at hNC
    obtain ⟨q0, h2, h3⟩ := IsLockstep_foldlM _ {} {} q1 IsLockstep_init hq
      (ReportsNoCycle_of_append hNC)
    exact ⟨q0, q1, h2, rfl,
      IsSameSchedule_of_Erase h3.disabled h3.enabled h3.observations h3.results⟩

/-- The client of `ExampleClientEvents`: the build with inspections reports no cycle, and
after the whole sequence the two builds schedule alike although the last `AddTask`
returned futures with different handles. -/
theorem Inspection_toggle_preserves_scheduling_witness :
    ∃ r1, ExecClient true ExampleClientEvents = some r1 ∧ ReportsNoCycle r1.Observations ∧
      ∃ q0 q1, ExecClient false (ExampleClientEvents.take 12) = some q0 ∧
        ExecClient true (ExampleClientEvents.take 12) = some q1 ∧ IsSameSchedule q0 q1 ∧
        q0.Observations ≠ q1.Observations ∧
        q0.Scheduler.GetId 2 = .Completed ∧ q0.Scheduler.GetId 4 = .Defined := by
  have h1 : ExecClient true ExampleClientEvents =
      some ((ExecClient true ExampleClientEvents).getD {}) := by decide
  have hNC : ReportsNoCycle ((ExecClient true ExampleClientEvents).getD {}).Observations :=
    ReportsNoCycle_of_all (by decide)
  obtain ⟨q0, q1, h2, h3, h4⟩ :=
    Inspection_toggle_preserves_scheduling ExampleClientEvents _ h1 hNC 12
  have h5 : ExecClient false (ExampleClientEvents.take 12) =
      some ((ExecClient false ExampleClientEvents).getD {}) := by decide
  have h6 : ExecClient true (ExampleClientEvents.take 12) =
      some ((ExecClient true ExampleClientEvents).getD {}) := by decide
  have e0 : q0 = (ExecClient false ExampleClientEvents).getD {} :=
    Option.some.inj (h2.symm.trans h5)
  have e1 : q1 = (ExecClient true ExampleClientEvents).getD {} :=
    Option.some.inj (h3.symm.trans h6)
  refine ⟨_, h1, hNC, q0, q1, h2, h3, h4, ?_, ?_, ?_⟩
  · rw [e0, e1]
    decide
  · rw [e0]
    decide
  · rw [e0]
    decide

end Zkz.StagedExecution

namespace Zkz.StagedExecution

/-! ## A task added before its stage is released by `AddStage` -/

/-- `SetAllTasksAdded` leaves the tasks to the client: a resolved future stays as it is. -/
theorem IsTaskFrame_SetAllTasksAdded {GPI : Bool} {Γ : FRoles} {Log : FLog} {s : TScheduler}
    (hI : SchedulerInv GPI Γ Log [] s) (X : IdType) :
    IsTaskFrame s (s.SetAllTasksAdded GPI X) := by
  obtain ⟨Calls0, s0, Γ0, h1, h2, h3⟩ := SetAllTasksAdded_start hI X
  rw [h3]
  refine IsTaskFrame_trans h1.frame (IsTaskFrame_RunCalls h2 ?_)
  intro c hc h ht
  rw [(h1.calls c (List.mem_of_mem_head? hc)).1] at ht
  cases ht

/-- C34 (amended). After every run, take a stage `A` to which the task `T` was added, with
the execution future `he`, for which no `AddStage` has succeeded and `SetAllTasksAdded`
was not called: the task has not been run. Then `AddStage(A, [])` returns successfully,
and when it has returned the stage is `Executing` with the flag not set and the execution
future of the task is resolved with a task completion promise: the task has been run.
`SetAllTasksAdded(A)`, called then, returns and leaves the execution future as it is. -/
theorem AddStage_releases_task_added_before (GPI : Bool) (Events : List FEvent) (r : FRun)
    (h : Exec GPI Events = some r) (A T : IdType) (he : FFutureHandle)
    (hT : (T, he) ∈ TasksOf r.Observations A)
    (hA : ∀ P, ¬ IsAddedWith r.Observations A P) (hC : ¬ IsCollected r.Observations A) :
    r.Scheduler.Result he = none ∧
    ∃ r1, Exec GPI (Events ++ [.AddStage A []]) = some r1 ∧
      r1.Observations = r.Observations ++ [.AddStage A [] (.ok ())] ∧
      r1.Scheduler = (r.Scheduler.AddStage GPI A []).2 ∧
      r1.Scheduler.GetId A = .Executing ∧ r1.Scheduler.IsAllTasksCollected A = false ∧
      r1.Scheduler.IsReleased he ∧
      ∃ r2, Exec GPI (Events ++ [.AddStage A []] ++ [.SetAllTasksAdded A]) = some r2 ∧
        r2.Scheduler = r1.Scheduler.SetAllTasksAdded GPI A ∧
        r2.Scheduler.Result he = r1.Scheduler.Result he := by
  obtain ⟨Γ, hI⟩ := Exec_SchedulerInv GPI Events r h
  have hnot : ¬ (r.Scheduler.GetId A = .Defined ∨ r.Scheduler.GetId A = .Executing ∨
      r.Scheduler.GetId A = .Completed) := fun hh => by
    obtain ⟨P, hP⟩ := (Inv_added_iff hI A).2 hh
    exact hA P hP
  have hbefore : r.Scheduler.Result he = none := by
    by_contra hne
    rcases (Inv_task_released hI A T he hT).1.1 hne with h1 | h1
    · exact hnot (Or.inr (Or.inl h1))
    · exact hnot (Or.inr (Or.inr h1))
  have hok := AddStage_nil_of_not_added hI A hA
  have hE1 : Exec GPI (Events ++ [.AddStage A []]) =
      some ⟨r.Observations ++ [.AddStage A [] (.ok ())],
        (r.Scheduler.AddStage GPI A []).2⟩ := by
    rw [Exec_AddStage GPI Events r h A [], hok]
  obtain ⟨Γ1, hI1⟩ := Exec_SchedulerInv GPI (Events ++ [.AddStage A []])
    ⟨r.Observations ++ [.AddStage A [] (.ok ())], (r.Scheduler.AddStage GPI A []).2⟩ hE1
  replace hI1 : SchedulerInv GPI Γ1 (r.Observations ++ [.AddStage A [] (.ok ())]) []
      (r.Scheduler.AddStage GPI A []).2 := hI1
  have hadd : IsAddedWith (r.Observations ++ [.AddStage A [] (.ok ())]) A [] :=
    (IsAddedWith_append _ _ _ _).2 (Or.inr rfl)
  have hncol : ¬ IsCollected (r.Observations ++ [.AddStage A [] (.ok ())]) A := by
    intro hc
    rcases (IsCollected_append _ _ _).1 hc with hc | hc
    · exact hC hc
    · cases hc
  have hExec : (r.Scheduler.AddStage GPI A []).2.GetId A = .Executing := by
    rcases (Inv_added_iff hI1 A).1 ⟨[], hadd⟩ with hD | hE | hCo
    · obtain ⟨p, hp, _⟩ := Inv_Defined_waits hI1 A [] hD hadd
      cases hp
    · exact hE
    · exact absurd (Inv_Completed hI1 A hCo).1 hncol
  have hflag : (r.Scheduler.AddStage GPI A []).2.IsAllTasksCollected A = false := by
    cases hb : (r.Scheduler.AddStage GPI A []).2.IsAllTasksCollected A with
    | false => rfl
    | true => exact absurd ((Inv_IsAllTasksCollected hI1 A).1 hb) hncol
  have hrel := Inv_task_released hI1 A T he (mem_TasksOf_append_left hT)
  have hres : (r.Scheduler.AddStage GPI A []).2.Result he ≠ none :=
    hrel.1.2 (Or.inl hExec)
  have hE2 : Exec GPI (Events ++ [.AddStage A []] ++ [.SetAllTasksAdded A]) =
      some ⟨r.Observations ++ [.AddStage A [] (.ok ())] ++ [.SetAllTasksAdded A],
        (r.Scheduler.AddStage GPI A []).2.SetAllTasksAdded GPI A⟩ :=
    Exec_SetAllTasksAdded GPI (Events ++ [.AddStage A []])
      ⟨r.Observations ++ [.AddStage A [] (.ok ())], (r.Scheduler.AddStage GPI A []).2⟩ hE1 A
  obtain ⟨hc, hhc⟩ := hrel.2 hres
  have hkeep : ((r.Scheduler.AddStage GPI A []).2.SetAllTasksAdded GPI A).Result he
      = (r.Scheduler.AddStage GPI A []).2.Result he := by
    rw [hhc]
    exact (IsTaskFrame_SetAllTasksAdded hI1 A).results he _ hhc
  refine ⟨hbefore,
    ⟨r.Observations ++ [.AddStage A [] (.ok ())], (r.Scheduler.AddStage GPI A []).2⟩,
    hE1, ?_, ?_, ?_, ?_, ?_,
    ⟨r.Observations ++ [.AddStage A [] (.ok ())] ++ [.SetAllTasksAdded A],
      (r.Scheduler.AddStage GPI A []).2.SetAllTasksAdded GPI A⟩, hE2, ?_, ?_⟩
  · dsimp only
  · dsimp only
  · dsimp only
    exact hExec
  · dsimp only
    exact hflag
  · dsimp only
    exact ⟨hc, hhc⟩
  · dsimp only
  · dsimp only
    exact hkeep

/-- The run of the test `CanAddTaskBeforeStageDefined`: task `5` is added to stage `1`
before the stage; `AddStage(1, [])` releases it. -/
theorem AddStage_releases_task_added_before_witness :
    (ExecD true [.AddTaskToStage 1 5]).Scheduler.Result 0 = none ∧
    ∃ r1, Exec true ([.AddTaskToStage 1 5] ++ [.AddStage 1 []]) = some r1 ∧
      r1.Scheduler.GetId 1 = .Executing ∧ r1.Scheduler.IsReleased 0 := by
  have hObs : (ExecD true [.AddTaskToStage 1 5]).Observations
      = [.AddTaskToStage 1 5 (.ok 0)] := by decide
  have hA : ∀ P, ¬ IsAddedWith (ExecD true [.AddTaskToStage 1 5]).Observations 1 P := by
    intro P hP
    unfold IsAddedWith at hP
    rw [hObs] at hP
    simp at hP
  have hC : ¬ IsCollected (ExecD true [.AddTaskToStage 1 5]).Observations 1 := by
    intro hP
    unfold IsCollected at hP
    rw [hObs] at hP
    simp at hP
  obtain ⟨h0, r1, h1, _, _, h2, _, h3, _⟩ :=
    AddStage_releases_task_added_before true [.AddTaskToStage 1 5]
      (ExecD true [.AddTaskToStage 1 5]) rfl 1 5 0 (by decide) hA hC
  exact ⟨h0, r1, h1, h2, h3⟩

end Zkz.StagedExecution
